import Mathlib

/-!
# Process trees, readiness barrier and pipe transport (exercise 2)

A shallow embedding of the C programs `ex2-pipes.c`, `ex2-signals.c` and
`ex2-tree.c`.

* Every C function that runs inside a process becomes a value of `Prog`: a
  tree of system calls in which each call carries the continuation that
  receives the call's result.  The C text maps statement by statement onto
  the constructors; `exit` is a leaf, so code after it does not exist.
* `Prog.run` runs one process against an arbitrary list of call results
  (every failure the kernel may report is a possible result).
* `exec` is a model of the operating system for a whole process tree: it
  schedules a forked child until it stops, exits or blocks, and keeps
  pipes, descriptors tables and the process table.

Diagnostics written to standard output (`printf`, `change_pname`,
`print_tree`, `show_pstree`, `explain_wait_status`) do not influence control
flow and are left out; messages on standard error are kept.
The C type `double` is a parameter: the programs only use `atof`, `+`, `*`
and the literal `0` on it.
-/

namespace OSLab

variable {α : Type}

/-! ## Data model -/

/-- The node of `tree.h`: a label and the array of children; the field
`nr_children` is the length of that array. -/
inductive tree_node where
  | mk (name : String) (children : List tree_node)

/-- The label of a node: `root->name`. -/
def tree_node.name : tree_node → String
  | .mk name _ => name

/-- The children of a node: `root->children`. -/
def tree_node.children : tree_node → List tree_node
  | .mk _ children => children

/-- The child count of a node: `root->nr_children`. -/
def tree_node.nr_children (t : tree_node) : Nat := t.children.length

/-- The operations the programs use on the C type `double`. -/
structure DoubleOps (α : Type) where
  /-- The library function `atof`. -/
  atof : String → α
  /-- The C operator `+` on doubles. -/
  add : α → α → α
  /-- The C operator `*` on doubles. -/
  mul : α → α → α
  /-- The literal `0`. -/
  zero : α

/-- The value of `sizeof(double)`. -/
def sizeof_double : Int := 8

/-- A file descriptor: it names one end of one pipe (`wr = false` is the
read end `pfd[0]`, `wr = true` the write end `pfd[1]`). -/
structure Fd where
  pipe : Nat
  wr : Bool
deriving DecidableEq, Repr

/-- A process body as a tree of calls.  The argument `k` of a constructor is
the rest of the program, as a function of what the call returned. -/
inductive Prog (α : Type) where
  /-- The call `exit(status)`; also `return status` from `main`. -/
  | exit (status : Nat)
  /-- The C function returns to its caller. -/
  | ret
  /-- The failing assertion `assert(0)`. -/
  | abort
  /-- A message on standard error: `perror` or `fprintf(stderr, ...)`. -/
  | stderr (msg : String) (k : Prog α)
  /-- The call `get_tree_from_file(path)`. -/
  | get_tree_from_file (path : String) (k : tree_node → Prog α)
  /-- The call `pipe(pfd)`: return value, `pfd[0]`, `pfd[1]`. -/
  | pipe (k : Int → Fd → Fd → Prog α)
  /-- The call `fork()`. -/
  | fork (k : Int → Prog α)
  /-- The call `wait_for_ready_children(cnt)`. -/
  | wait_for_ready_children (cnt : Nat) (k : Prog α)
  /-- The call `raise(SIGSTOP)`. -/
  | raise_SIGSTOP (k : Prog α)
  /-- The call `kill(pid, SIGCONT)`; its return value is not used. -/
  | kill_SIGCONT (pid : Int) (k : Prog α)
  /-- The call `wait(&status)`: returned pid and status. -/
  | wait (k : Int → Int → Prog α)
  /-- The call `close(fd)`; its return value is not used. -/
  | close (fd : Fd) (k : Prog α)
  /-- The call `read(fd, &res, sizeof(res))`: the return value and the double
  the call stored in `res`, if it stored one. -/
  | read (fd : Fd) (k : Int → Option α → Prog α)
  /-- The call `write(fd, &v, sizeof(v))`. -/
  | write (fd : Fd) (v : α) (k : Int → Prog α)
  /-- The call `sleep(sec)`. -/
  | sleep (sec : Nat) (k : Prog α)

namespace Prog

/-- Sequencing `p; q`: `q` runs where `p` returns to its caller. -/
def seq : Prog α → Prog α → Prog α
  | .exit s, _ => .exit s
  | .ret, q => q
  | .abort, _ => .abort
  | .stderr m k, q => .stderr m (k.seq q)
  | .get_tree_from_file p k, q => .get_tree_from_file p fun t => (k t).seq q
  | .pipe k, q => .pipe fun r a b => (k r a b).seq q
  | .fork k, q => .fork fun r => (k r).seq q
  | .wait_for_ready_children n k, q => .wait_for_ready_children n (k.seq q)
  | .raise_SIGSTOP k, q => .raise_SIGSTOP (k.seq q)
  | .kill_SIGCONT p k, q => .kill_SIGCONT p (k.seq q)
  | .wait k, q => .wait fun p s => (k p s).seq q
  | .close fd k, q => .close fd (k.seq q)
  | .read fd k, q => .read fd fun n v => (k n v).seq q
  | .write fd v k, q => .write fd v fun n => (k n).seq q
  | .sleep n k, q => .sleep n (k.seq q)

/-- The loop `for (i = lo; i < lo + count; i++) body`, with the variables the
body assigns threaded as `s`.  The body receives the rest of the loop as its
last argument. -/
def for_range {σ : Type} : (count : Nat) → (i : Nat) → σ →
    (body : Nat → σ → (σ → Prog α) → Prog α) → (done : σ → Prog α) → Prog α
  | 0, _, s, _, done => done s
  | n + 1, i, s, body, done => body i s fun s' => for_range n (i + 1) s' body done

end Prog

/-- One call of a process together with what it returned. -/
inductive Act (α : Type) where
  | exit (status : Nat)
  | ret
  | abort
  | stderr (msg : String)
  | get_tree_from_file (path : String) (ok : Bool)
  | pipe (r : Int) (pfd0 pfd1 : Fd)
  | fork (r : Int)
  | wait_for_ready_children (cnt : Nat)
  | raise_SIGSTOP
  | kill_SIGCONT (pid : Int)
  | wait (r : Int) (status : Int)
  | close (fd : Fd)
  | read (fd : Fd) (r : Int) (v : Option α)
  | write (fd : Fd) (v : α) (r : Int)
  | sleep (sec : Nat)
deriving DecidableEq, Repr

/-- What the environment answers to one call: each call reads the fields it
needs.  `tree = none` is a failure inside `get_tree_from_file`. -/
structure Resp (α : Type) where
  ret : Int
  pfd0 : Fd
  pfd1 : Fd
  status : Int
  val : Option α
  tree : Option tree_node

/-- How far a process got. -/
inductive Outcome where
  /-- The process called `exit(status)`. -/
  | exited (status : Nat)
  /-- The C function returned to its caller. -/
  | returned
  /-- The process failed an assertion. -/
  | aborted
  /-- The process is inside a call that has not returned. -/
  | pending
deriving DecidableEq, Repr

namespace Prog

/-- Modelled from the spec: `get_tree_from_file` (its source `tree.c` is not
part of the sources) yields the tree, or fails the whole program with a
nonzero exit status when the file is unreadable or malformed.

One process run against the answers `rs` of its environment: the calls it
makes, in order, and how it ends. -/
def run : Prog α → List (Resp α) → List (Act α) × Outcome
  | .exit s, _ => ([.exit s], .exited s)
  | .ret, _ => ([.ret], .returned)
  | .abort, _ => ([.abort], .aborted)
  | .stderr m k, rs => let t := run k rs; (.stderr m :: t.1, t.2)
  | _, [] => ([], .pending)
  | .get_tree_from_file p k, r :: rs =>
    match r.tree with
    | none => ([.get_tree_from_file p false, .exit 1], .exited 1)
    | some t => let u := run (k t) rs; (.get_tree_from_file p true :: u.1, u.2)
  | .pipe k, r :: rs =>
    let t := run (k r.ret r.pfd0 r.pfd1) rs; (.pipe r.ret r.pfd0 r.pfd1 :: t.1, t.2)
  | .fork k, r :: rs => let t := run (k r.ret) rs; (.fork r.ret :: t.1, t.2)
  | .wait_for_ready_children n k, _ :: rs =>
    let t := run k rs; (.wait_for_ready_children n :: t.1, t.2)
  | .raise_SIGSTOP k, _ :: rs => let t := run k rs; (.raise_SIGSTOP :: t.1, t.2)
  | .kill_SIGCONT p k, _ :: rs => let t := run k rs; (.kill_SIGCONT p :: t.1, t.2)
  | .wait k, r :: rs => let t := run (k r.ret r.status) rs; (.wait r.ret r.status :: t.1, t.2)
  | .close fd k, _ :: rs => let t := run k rs; (.close fd :: t.1, t.2)
  | .read fd k, r :: rs => let t := run (k r.ret r.val) rs; (.read fd r.ret r.val :: t.1, t.2)
  | .write fd v k, r :: rs => let t := run (k r.ret) rs; (.write fd v r.ret :: t.1, t.2)
  | .sleep n k, _ :: rs => let t := run k rs; (.sleep n :: t.1, t.2)

end Prog

/-- Assignment `a[i] = v` to a C array. -/
def assign {β : Type} (a : Nat → β) (i : Nat) (v : β) : Nat → β :=
  fun j => if j = i then v else a j

/-! ## `ex2-pipes.c` -/

namespace ex2_pipes

/-- Lines 62-108 and 134-138 of `child`: what an operator node does after
`raise(SIGSTOP)` returns. -/
def collect (D : DoubleOps α) (fd : Fd) (name : String) (nr_children : Nat)
    (pfd0 pfd1 : Fd) (pid_child : Nat → Int) : Prog α :=
  Prog.for_range nr_children 0 (pid_child, fun _ => D.zero)
    (fun j s next =>
      .kill_SIGCONT (s.1 j) <|
      .wait fun p _status_child =>
      .close pfd1 <|
      .read pfd0 fun n res =>
        if n ≠ sizeof_double then
          .stderr "parent: read from pipe" (.exit 1)
        else
          next (assign s.1 j p, assign s.2 j (res.getD D.zero)))
    (fun s =>
      let result := s.2
      let final_res :=
        if name = "+" then D.add (result 0) (result 1) else D.mul (result 0) (result 1)
      .write fd final_res fun n =>
        if n ≠ sizeof_double then
          .stderr "parent: write to pipe" (.exit 1)
        else
          .exit 16)

/-- Lines 119-138 of `child`: what a leaf does after `raise(SIGSTOP)`
returns. -/
def send (D : DoubleOps α) (fd : Fd) (name : String) : Prog α :=
  let root_name := D.atof name
  .write fd root_name fun n =>
    if n ≠ sizeof_double then
      .stderr "child: write to pipe" (.exit 1)
    else
      .close fd (.exit 16)

mutual
/-- The function `child(fd, root)`. -/
def child (D : DoubleOps α) (fd : Fd) : tree_node → Prog α
  | .mk name children =>
    if name = "+" ∨ name = "*" then
      if children.length ≠ 2 then
        .stderr "child: invalid number of children in + or *" (.exit 1)
      else
        .pipe fun r pfd0 pfd1 =>
          if r < 0 then
            .stderr "pipe" (.exit 1)
          else
            Prog.for_range 2 0 (fun _ => (0 : Int))
              (fun i pid_child next =>
                .fork fun p =>
                  if p < 0 then
                    .stderr "pid_child: fork" (.exit 1)
                  else
                    Prog.seq
                      (if p = 0 then child_at D pfd1 children i else .ret)
                      (next (assign pid_child i p)))
              (fun pid_child =>
                .wait_for_ready_children 2 <|
                .raise_SIGSTOP <|
                collect D fd name children.length pfd0 pfd1 pid_child)
    else
      if children.length ≠ 0 then
        .stderr "child: invalid number of children in digit" (.exit 1)
      else
        .raise_SIGSTOP (send D fd name)
/-- The call `child(fd, root->children + i)`; the pointer is valid only for
`i < nr_children`. -/
def child_at (D : DoubleOps α) (fd : Fd) : List tree_node → Nat → Prog α
  | [], _ => .abort
  | c :: _, 0 => child D fd c
  | _ :: cs, i + 1 => child_at D fd cs i
end

/-- The function `main(argc, argv)`; `argc` is the length of `argv`. -/
def main (D : DoubleOps α) (argv : List String) : Prog α :=
  if argv.length ≠ 2 then
    .stderr ("Usage: " ++ argv.getD 0 "" ++ " <input_tree_file>") (.exit 1)
  else
    .get_tree_from_file (argv.getD 1 "") fun root =>
    .pipe fun r pfd0 pfd1 =>
      if r < 0 then
        .stderr "pipe" (.exit 1)
      else
        .fork fun p =>
          if p < 0 then
            .stderr "fork" (.exit 1)
          else
            Prog.seq (if p = 0 then Prog.seq (child D pfd1 root) .abort else .ret) <|
            .wait_for_ready_children 1 <|
            .kill_SIGCONT p <|
            .wait fun _p _status =>
            .read pfd0 fun n _final_val =>
              if n ≠ sizeof_double then
                .stderr "initial parent: read from pipe" (.exit 1)
              else
                .exit 0

end ex2_pipes

/-! ## `ex2-signals.c` -/

namespace ex2_signals

/-- Lines 56-65 and 75-79 of `fork_procs`: what a process with children does
after `raise(SIGSTOP)` returns. -/
def wake (nr_children : Nat) (pid_child : Nat → Int) : Prog α :=
  Prog.for_range nr_children 0 pid_child
    (fun j s next =>
      .kill_SIGCONT (s j) <|
      .wait fun p _status_child =>
      next (assign s j p))
    (fun _ => .exit 16)

mutual
/-- The function `fork_procs(root)`. -/
def fork_procs : tree_node → Prog α
  | .mk _name children =>
    Prog.for_range children.length 0 (fun _ => (0 : Int))
      (fun i pid_child next =>
        .fork fun p =>
          if p < 0 then
            .stderr "pid_child: fork" (.exit 1)
          else
            Prog.seq
              (if p = 0 then fork_procs_at children i else .ret)
              (next (assign pid_child i p)))
      (fun pid_child =>
        if children.length ≠ 0 then
          .wait_for_ready_children children.length <|
          .raise_SIGSTOP <|
          wake children.length pid_child
        else
          .raise_SIGSTOP (.exit 16))
/-- The call `fork_procs(root->children + i)`; the pointer is valid only for
`i < nr_children`. -/
def fork_procs_at : List tree_node → Nat → Prog α
  | [], _ => .abort
  | c :: _, 0 => fork_procs c
  | _ :: cs, i + 1 => fork_procs_at cs i
end

/-- The function `main(argc, argv)`; `argc` is the length of `argv`. -/
def main (argv : List String) : Prog α :=
  if argv.length < 2 then
    .stderr ("Usage: " ++ argv.getD 0 "" ++ " <tree_file>") (.exit 1)
  else
    .get_tree_from_file (argv.getD 1 "") fun root =>
    .fork fun pid =>
      if pid < 0 then
        .stderr "main: fork" (.exit 1)
      else
        Prog.seq (if pid = 0 then Prog.seq (fork_procs root) (.exit 1) else .ret) <|
        .wait_for_ready_children 1 <|
        .kill_SIGCONT pid <|
        .wait fun _p _status =>
        .exit 0

end ex2_signals

/-! ## `ex2-tree.c` -/

namespace ex2_tree

/-- The constant `SLEEP_PROC_SEC`. -/
def SLEEP_PROC_SEC : Nat := 10

/-- The constant `SLEEP_TREE_SEC`. -/
def SLEEP_TREE_SEC : Nat := 3

mutual
/-- The function `fork_procs(root)`. -/
def fork_procs : tree_node → Prog α
  | .mk _name children =>
    Prog.for_range children.length 0 (fun _ => (0 : Int))
      (fun i pid_child next =>
        .fork fun p =>
          if p < 0 then
            .stderr "pid_child: fork" (.exit 1)
          else
            Prog.seq
              (if p = 0 then fork_procs_at children i else .ret)
              (next (assign pid_child i p)))
      (fun pid_child =>
        .sleep SLEEP_PROC_SEC <|
        if children.length ≠ 0 then
          Prog.for_range children.length 0 pid_child
            (fun j s next =>
              .wait fun p _status_child =>
              next (assign s j p))
            (fun _ => .exit 16)
        else
          .exit 16)
/-- The call `fork_procs(root->children + i)`; the pointer is valid only for
`i < nr_children`. -/
def fork_procs_at : List tree_node → Nat → Prog α
  | [], _ => .abort
  | c :: _, 0 => fork_procs c
  | _ :: cs, i + 1 => fork_procs_at cs i
end

/-- The function `main(argc, argv)`; `argc` is the length of `argv`. -/
def main (argv : List String) : Prog α :=
  if argv.length ≠ 2 then
    .stderr ("Usage: " ++ argv.getD 0 "" ++ " <input_tree_file>") (.exit 1)
  else
    .get_tree_from_file (argv.getD 1 "") fun root =>
    .fork fun pid =>
      if pid < 0 then
        .stderr "main: fork" (.exit 1)
      else
        Prog.seq (if pid = 0 then Prog.seq (fork_procs root) (.exit 1) else .ret) <|
        .sleep SLEEP_TREE_SEC <|
        .wait fun _pid _status =>
        .exit 0

end ex2_tree

/-! ## The operating system

A model of the calls the programs make, for a whole tree of processes.  One
schedule is followed: a forked child, and a process that receives `SIGCONT`,
runs until it stops, terminates or blocks before the caller goes on.  Under
this schedule a process that blocks is never released, so `blocked` is final.
`pipe` and `fork` always succeed here, a pipe holds any number of values, and
`SIGPIPE` is not modelled; `Prog.run` covers the failures of single calls. -/

/-- The state of a process. -/
inductive PState (α : Type) where
  /-- The process is executing. -/
  | running
  /-- The process is stopped by `SIGSTOP`; `k` runs when `SIGCONT` arrives. -/
  | stopped (k : Prog α)
  /-- The process is inside the first call of `k`, which cannot complete. -/
  | blocked (k : Prog α)
  /-- The process has terminated with wait status `wstatus` and has not been
  waited for. -/
  | zombie (wstatus : Int)
  /-- The process has terminated and its parent has waited for it. -/
  | reaped
  /-- The body of the process returned to a caller that is not modelled. -/
  | returned

/-- One entry of the process table. -/
structure Proc (α : Type) where
  state : PState α
  /-- The pid of the parent. -/
  parent : Nat
  /-- The open descriptors. -/
  fds : List Fd
  /-- The number of children that have stopped and were not yet counted by
  `wait_for_ready_children`. -/
  ready : Nat
  /-- The terminated children not yet waited for, oldest first, each with
  its wait status. -/
  dead : List (Nat × Int)
  /-- The number of children not yet waited for. -/
  nchild : Nat

/-- The state of the system. -/
structure Kernel (α : Type) where
  /-- The pid the next `fork` hands out. -/
  next_pid : Nat
  /-- The pipe the next `pipe` creates. -/
  next_pipe : Nat
  proc : Nat → Proc α
  /-- The values held by each pipe, oldest first (each is 8 bytes). -/
  buf : Nat → List α
  /-- The tree files. -/
  files : String → Option tree_node
  /-- The calls made so far, oldest first, each with the calling pid. -/
  trace : List (Nat × Act α)

namespace Kernel

/-- Record a call of process `self`. -/
def log (K : Kernel α) (self : Nat) (a : Act α) : Kernel α :=
  { K with trace := K.trace ++ [(self, a)] }

/-- Change the entry of process `p`. -/
def modify (K : Kernel α) (p : Nat) (f : Proc α → Proc α) : Kernel α :=
  { K with proc := fun i => if i = p then f (K.proc i) else K.proc i }

/-- Change the content of pipe `q`. -/
def set_buf (K : Kernel α) (q : Nat) (b : List α) : Kernel α :=
  { K with buf := fun i => if i = q then b else K.buf i }

/-- Process `self` terminates with wait status `wstatus`: its descriptors
are closed and its parent can wait for it. -/
def terminate (K : Kernel α) (self : Nat) (wstatus : Int) : Kernel α :=
  (K.modify self fun r => { r with state := .zombie wstatus, fds := [] }).modify
    (K.proc self).parent fun r => { r with dead := r.dead ++ [(self, wstatus)] }

/-- Whether the process is neither terminated nor returned. -/
def alive : PState α → Bool
  | .running => true
  | .stopped _ => true
  | .blocked _ => true
  | _ => false

/-- Whether some live process holds the write end of pipe `q`. -/
def has_writer (K : Kernel α) (q : Nat) : Bool :=
  (List.range K.next_pid).any fun p =>
    alive (K.proc p).state && (K.proc p).fds.contains ⟨q, true⟩

/-- The call `pipe` by `self`: the new pipe `next_pipe` is empty and `self`
holds both ends. -/
def piped (K : Kernel α) (self : Nat) : Kernel α :=
  ({ (K.log self (.pipe 0 ⟨K.next_pipe, false⟩ ⟨K.next_pipe, true⟩)).set_buf K.next_pipe [] with
      next_pipe := K.next_pipe + 1 } : Kernel α).modify self fun r =>
    { r with fds := r.fds ++ [⟨K.next_pipe, false⟩, ⟨K.next_pipe, true⟩] }

/-- The call `fork` by `self`: the child is process `next_pid`, it inherits
the descriptors of `self` and sees `fork` return 0. -/
def forked (K : Kernel α) (self : Nat) : Kernel α :=
  ({ (K.log self (.fork K.next_pid)).modify self fun r => { r with nchild := r.nchild + 1 } with
      next_pid := K.next_pid + 1
      proc := fun i => if i = K.next_pid then
          { state := .running, parent := self, fds := (K.proc self).fds,
            ready := 0, dead := [], nchild := 0 }
        else ((K.log self (.fork K.next_pid)).modify self fun r =>
          { r with nchild := r.nchild + 1 }).proc i } : Kernel α).log K.next_pid (.fork 0)

/-- The return of `wait_for_ready_children(cnt)` in `self`: `cnt` stopped
children are counted. -/
def counted (K : Kernel α) (self cnt : Nat) : Kernel α :=
  (K.log self (.wait_for_ready_children cnt)).modify self fun r =>
    { r with ready := r.ready - cnt }

/-- The call `raise(SIGSTOP)` by `self`: it stops with `k` left to run, and
its parent can count it as ready. -/
def halted (K : Kernel α) (self : Nat) (k : Prog α) : Kernel α :=
  ((K.log self .raise_SIGSTOP).modify self fun r => { r with state := .stopped k }).modify
    (K.proc self).parent fun r => { r with ready := r.ready + 1 }

/-- The call `kill(pid, SIGCONT)` by `self` on the stopped process `pid`. -/
def continued (K : Kernel α) (self : Nat) (pid : Int) : Kernel α :=
  (K.log self (.kill_SIGCONT pid)).modify pid.toNat fun r => { r with state := .running }

/-- The return of `wait` in `self` with the terminated child `c`. -/
def reaped (K : Kernel α) (self c : Nat) (st : Int) (rest : List (Nat × Int)) : Kernel α :=
  ((K.log self (.wait c st)).modify self fun r =>
    { r with dead := rest, nchild := r.nchild - 1 }).modify c fun r => { r with state := .reaped }

/-- The call `close(fd)` by `self`. -/
def closed (K : Kernel α) (self : Nat) (fd : Fd) : Kernel α :=
  (K.log self (.close fd)).modify self fun r => { r with fds := r.fds.erase fd }

/-- A complete `read` by `self`: the oldest value `v` leaves the pipe. -/
def got (K : Kernel α) (self : Nat) (fd : Fd) (v : α) (vs : List α) : Kernel α :=
  (K.log self (.read fd sizeof_double (some v))).set_buf fd.pipe vs

/-- A complete `write` by `self`: `v` enters the pipe. -/
def put (K : Kernel α) (self : Nat) (fd : Fd) (v : α) : Kernel α :=
  (K.log self (.write fd v sizeof_double)).set_buf fd.pipe (K.buf fd.pipe ++ [v])

/-- Process `self` cannot complete the first call of `P`. -/
def block (K : Kernel α) (self : Nat) (P : Prog α) : Kernel α :=
  K.modify self fun r => { r with state := .blocked P }

end Kernel

/-- The wait status of a process that called `exit(status)`. -/
def W_EXITED (status : Nat) : Int := 256 * (status : Int)

/-- The wait status of a process killed by `SIGABRT`. -/
def W_SIGABRT : Int := 6

/-- Modelled from the spec: `wait_for_ready_children(cnt)` (its source
`proc-common.c` is not part of the sources) blocks the caller until `cnt`
direct children have each reached the stopped state; likewise
`get_tree_from_file` yields the tree or fails the program with status 1.

Process `self` runs `P` from state `K` until it terminates, stops or blocks;
the result is `none` when `fuel` steps do not suffice. -/
def exec {α : Type} : (fuel : Nat) → Kernel α → (self : Nat) → Prog α → Option (Kernel α)
  | 0, _, _, _ => none
  | n + 1, K, self, P =>
    match P with
    | .exit s => some ((K.log self (.exit s)).terminate self (W_EXITED s))
    | .ret => some ((K.log self .ret).modify self fun r => { r with state := .returned })
    | .abort => some ((K.log self .abort).terminate self W_SIGABRT)
    | .stderr m k => exec n (K.log self (.stderr m)) self k
    | .sleep sec k => exec n (K.log self (.sleep sec)) self k
    | .get_tree_from_file path k =>
      match K.files path with
      | some t => exec n (K.log self (.get_tree_from_file path true)) self (k t)
      | none =>
        some (((K.log self (.get_tree_from_file path false)).log self (.exit 1)).terminate
          self (W_EXITED 1))
    | .pipe k => exec n (K.piped self) self (k 0 ⟨K.next_pipe, false⟩ ⟨K.next_pipe, true⟩)
    | .fork k =>
      match exec n (K.forked self) K.next_pid (k 0) with
      | none => none
      | some K1 => exec n K1 self (k K.next_pid)
    | .wait_for_ready_children cnt k =>
      if cnt ≤ (K.proc self).ready then exec n (K.counted self cnt) self k
      else some (K.block self P)
    | .raise_SIGSTOP k => some (K.halted self k)
    | .kill_SIGCONT pid k =>
      match (K.proc pid.toNat).state with
      | .stopped kc =>
        if 0 < pid then
          match exec n (K.continued self pid) pid.toNat kc with
          | none => none
          | some K1 => exec n K1 self k
        else exec n (K.log self (.kill_SIGCONT pid)) self k
      | _ => exec n (K.log self (.kill_SIGCONT pid)) self k
    | .wait k =>
      match (K.proc self).dead with
      | (c, st) :: rest => exec n (K.reaped self c st rest) self (k c st)
      | [] =>
        if (K.proc self).nchild = 0 then exec n (K.log self (.wait (-1) 0)) self (k (-1) 0)
        else some (K.block self P)
    | .close fd k => exec n (K.closed self fd) self k
    | .read fd k =>
      if fd ∈ (K.proc self).fds ∧ fd.wr = false then
        match K.buf fd.pipe with
        | v :: vs => exec n (K.got self fd v vs) self (k sizeof_double (some v))
        | [] =>
          if K.has_writer fd.pipe then some (K.block self P)
          else exec n (K.log self (.read fd 0 none)) self (k 0 none)
      else
        exec n (K.log self (.read fd (-1) none)) self (k (-1) none)
    | .write fd v k =>
      if fd ∈ (K.proc self).fds ∧ fd.wr = true then
        exec n (K.put self fd v) self (k sizeof_double)
      else
        exec n (K.log self (.write fd v (-1))) self (k (-1))

/-- The system at program start: the program is process 1, its parent
(process 0) is the shell, no pipe exists, and `files` are the tree files. -/
def boot {α : Type} (files : String → Option tree_node) : Kernel α :=
  { next_pid := 2
    next_pipe := 0
    proc := fun _ =>
      { state := .running, parent := 0, fds := [], ready := 0, dead := [], nchild := 0 }
    buf := fun _ => []
    files := files
    trace := [] }

/-! ## Trees, sequential evaluation and the vocabulary of the statements -/

/-- A well-formed tree: a node labelled `+` or `*` has exactly two children,
every other node has none. -/
inductive WellFormed : tree_node → Prop where
  | leaf (name : String) (h : ¬ (name = "+" ∨ name = "*")) : WellFormed (.mk name [])
  | op (name : String) (h : name = "+" ∨ name = "*") (a b : tree_node)
      (ha : WellFormed a) (hb : WellFormed b) : WellFormed (.mk name [a, b])

/-- Sequential post-order evaluation: a leaf is `atof` of its label, `+` is
the sum and `*` the product of the values of the two children. -/
def eval {α : Type} (D : DoubleOps α) : tree_node → α
  | .mk name [a, b] =>
    if name = "+" then D.add (eval D a) (eval D b)
    else if name = "*" then D.mul (eval D a) (eval D b)
    else D.atof name
  | .mk name _ => D.atof name

/-- The number of nodes of a tree. -/
def nodes : tree_node → Nat
  | .mk _ [a, b] => 1 + nodes a + nodes b
  | .mk _ _ => 1

/-- The number of nodes with two children. -/
def inner : tree_node → Nat
  | .mk _ [a, b] => 1 + inner a + inner b
  | .mk _ _ => 0

/-- The run `exec` settles on: from `K`, process `self` running `P` ends its
turn in state `K1`, for every sufficient amount of fuel. -/
def Runs {α : Type} (K : Kernel α) (self : Nat) (P : Prog α) (K1 : Kernel α) : Prop :=
  ∃ N, ∀ n, N ≤ n → exec n K self P = some K1

namespace Prog

/-- No path through the program reaches a return to the caller. -/
def never_returns : Prog α → Prop
  | .exit _ => True
  | .ret => False
  | .abort => True
  | .stderr _ k => k.never_returns
  | .get_tree_from_file _ k => ∀ t, (k t).never_returns
  | .pipe k => ∀ r a b, (k r a b).never_returns
  | .fork k => ∀ r, (k r).never_returns
  | .wait_for_ready_children _ k => k.never_returns
  | .raise_SIGSTOP k => k.never_returns
  | .kill_SIGCONT _ k => k.never_returns
  | .wait k => ∀ p s, (k p s).never_returns
  | .close _ k => k.never_returns
  | .read _ k => ∀ n v, (k n v).never_returns
  | .write _ _ k => ∀ n, (k n).never_returns
  | .sleep _ k => k.never_returns

end Prog

namespace ex2_pipes

/-- The program with which the worker `c` of a node continues when it
receives `SIGCONT`: `q` is the pipe it created, its children are the
processes `c + 1` and `c + 1 + nodes a`. -/
def resume (D : DoubleOps α) (c : Nat) (fd : Fd) (q : Nat) : tree_node → Prog α
  | .mk name [a, _] =>
    collect D fd name 2 ⟨q, false⟩ ⟨q, true⟩
      (assign (assign (fun _ => (0 : Int)) 0 ((c + 1 : Nat) : Int)) 1 ((c + 1 + nodes a : Nat) : Int))
  | .mk name _ => send D fd name

/-- The stopped subtree of worker `c`: every worker below `c` is stopped at
its `raise(SIGSTOP)`, holds the write end it was given, and the pipes of the
subtree are empty. -/
def Ready (D : DoubleOps α) (K : Kernel α) : (c par : Nat) → (fd : Fd) → (q : Nat) →
    tree_node → Prop
  | c, par, fd, q, .mk _ [a, b] =>
    (K.proc c).parent = par ∧ (K.proc c).dead = [] ∧ fd ∈ (K.proc c).fds ∧
    ⟨q, false⟩ ∈ (K.proc c).fds ∧ K.buf q = [] ∧
    (K.proc (c + 1)).state = .stopped (resume D (c + 1) ⟨q, true⟩ (q + 1) a) ∧
    Ready D K (c + 1) c ⟨q, true⟩ (q + 1) a ∧
    (K.proc (c + 1 + nodes a)).state =
      .stopped (resume D (c + 1 + nodes a) ⟨q, true⟩ (q + 1 + inner a) b) ∧
    Ready D K (c + 1 + nodes a) c ⟨q, true⟩ (q + 1 + inner a) b
  | c, par, fd, _, .mk _ _ => (K.proc c).parent = par ∧ fd ∈ (K.proc c).fds

/-- The calls of the construction phase of the subtree of worker `c`, from
the start of `child` to its `raise(SIGSTOP)`. -/
def build_trace : (c q : Nat) → tree_node → List (Nat × Act α)
  | c, q, .mk _ [a, b] =>
    [(c, .pipe 0 ⟨q, false⟩ ⟨q, true⟩), (c, .fork ((c + 1 : Nat) : Int)), (c + 1, .fork 0)] ++
    build_trace (c + 1) (q + 1) a ++
    [(c, .fork ((c + 1 + nodes a : Nat) : Int)), (c + 1 + nodes a, .fork 0)] ++
    build_trace (c + 1 + nodes a) (q + 1 + inner a) b ++
    [(c, .wait_for_ready_children 2), (c, .raise_SIGSTOP)]
  | c, _, .mk _ _ => [(c, .raise_SIGSTOP)]

/-- The calls of the collection phase of the subtree of worker `c`, from its
`SIGCONT` to its `exit`. -/
def collect_trace (D : DoubleOps α) : (c : Nat) → (fd : Fd) → (q : Nat) → tree_node →
    List (Nat × Act α)
  | c, fd, q, .mk name [a, b] =>
    [(c, .kill_SIGCONT ((c + 1 : Nat) : Int))] ++
    collect_trace D (c + 1) ⟨q, true⟩ (q + 1) a ++
    [(c, .wait ((c + 1 : Nat) : Int) (W_EXITED 16)), (c, .close ⟨q, true⟩),
     (c, .read ⟨q, false⟩ sizeof_double (some (eval D a))),
     (c, .kill_SIGCONT ((c + 1 + nodes a : Nat) : Int))] ++
    collect_trace D (c + 1 + nodes a) ⟨q, true⟩ (q + 1 + inner a) b ++
    [(c, .wait ((c + 1 + nodes a : Nat) : Int) (W_EXITED 16)), (c, .close ⟨q, true⟩),
     (c, .read ⟨q, false⟩ sizeof_double (some (eval D b))),
     (c, .write fd (eval D (.mk name [a, b])) sizeof_double), (c, .exit 16)]
  | c, fd, _, .mk name _ =>
    [(c, .write fd (D.atof name) sizeof_double), (c, .close fd), (c, .exit 16)]

/-- The calls of a whole run of `ex2-pipes` on the tree `t`. -/
def main_trace (D : DoubleOps α) (path : String) (t : tree_node) : List (Nat × Act α) :=
  [(1, .get_tree_from_file path true), (1, .pipe 0 ⟨0, false⟩ ⟨0, true⟩), (1, .fork 2),
   (2, .fork 0)] ++ build_trace 2 1 t ++
  [(1, .wait_for_ready_children 1), (1, .kill_SIGCONT 2)] ++ collect_trace D 2 ⟨0, true⟩ 1 t ++
  [(1, .wait 2 (W_EXITED 16)), (1, .read ⟨0, false⟩ sizeof_double (some (eval D t))),
   (1, .exit 0)]

end ex2_pipes

/-- The complete or short reads of process `pid` in a trace, in order: the
descriptor, the returned count and the value stored. -/
def reads_of (pid : Nat) (tr : List (Nat × Act α)) : List (Fd × Int × Option α) :=
  tr.filterMap fun e =>
    match e with
    | (p, .read fd r v) => if p = pid then some (fd, r, v) else none
    | _ => none

/-- The library function `atof` on a string of decimal digits. -/
def atof_digits (s : String) : Int :=
  s.data.foldl (fun n ch => 10 * n + ((ch.toNat : Int) - 48)) 0

/-- Whole numbers with exact arithmetic: `double` arithmetic agrees with
them as long as every value is a whole number below `2^53`. -/
def intOps : DoubleOps Int := ⟨atof_digits, (· + ·), (· * ·), 0⟩

/-- The tree `(+ 3 4)`. -/
def tree_sum : tree_node := .mk "+" [.mk "3" [], .mk "4" []]

/-- The tree `(* (+ 1 2) (+ 3 4))`. -/
def tree_prod : tree_node :=
  .mk "*" [.mk "+" [.mk "1" [], .mk "2" []], .mk "+" [.mk "3" [], .mk "4" []]]

/-- Whether a call does the work of the construction phase: a `fork`, a
`pipe` or a `raise(SIGSTOP)`. -/
def Act.is_work : Act α → Bool
  | .fork _ => true
  | .pipe _ _ _ => true
  | .raise_SIGSTOP => true
  | _ => false

/-- Whether a call reports a violated arity. -/
def Act.is_rejection : Act α → Bool
  | .stderr m =>
    m = "child: invalid number of children in + or *" ||
    m = "child: invalid number of children in digit"
  | _ => false

/-- Whether no call before the first report of a violated arity does work
of the construction phase. -/
def rejected_before_work (tr : List (Nat × Act α)) : Bool :=
  (tr.takeWhile fun e => !e.2.is_rejection).all fun e => !e.2.is_work

/-- The tree `(+ 3 (* 1))`: the operator `*` has one child. -/
def tree_bad : tree_node := .mk "+" [.mk "3" [], .mk "*" [.mk "1" []]]

/-- The usage message of `ex2-pipes` and `ex2-tree`. -/
def usage_input (argv : List String) : String :=
  "Usage: " ++ argv.getD 0 "" ++ " <input_tree_file>"

/-- The usage message of `ex2-signals`. -/
def usage_tree (argv : List String) : String :=
  "Usage: " ++ argv.getD 0 "" ++ " <tree_file>"

/-- An answer of the environment that carries the return value `r`. -/
def answer (r : Int) : Resp Int :=
  { ret := r, pfd0 := ⟨0, false⟩, pfd1 := ⟨0, true⟩, status := 0, val := none, tree := none }

/-- The answer of `get_tree_from_file` that carries the tree `t`. -/
def loaded (t : tree_node) : Resp Int :=
  { ret := 0, pfd0 := ⟨0, false⟩, pfd1 := ⟨0, true⟩, status := 0, val := none, tree := some t }

/-- Whether a call is a `read` or `write` that returned a count other than
`sizeof(double)`. -/
def Act.short_transfer : Act α → Bool
  | .read _ r _ => r ≠ sizeof_double
  | .write _ _ r => r ≠ sizeof_double
  | _ => false

/-- Whether a call is a `write` on pipe `q`. -/
def Act.writes (q : Nat) : Act α → Bool
  | .write fd _ _ => fd.pipe = q
  | _ => false

/-- Whether a call is a `read` on pipe `q`. -/
def Act.reads (q : Nat) : Act α → Bool
  | .read fd _ _ => fd.pipe = q
  | _ => false

/-- Whether a call is a `pipe`. -/
def Act.is_pipe : Act α → Bool
  | .pipe _ _ _ => true
  | _ => false

/-- The number of calls in a trace that satisfy `f`. -/
def count_calls (f : Act α → Bool) (tr : List (Nat × Act α)) : Nat := tr.countP fun e => f e.2

/-- The number of `write` calls on pipe `q` in a trace. -/
def writes_on (q : Nat) (tr : List (Nat × Act α)) : Nat := count_calls (Act.writes q) tr

/-- The number of `read` calls on pipe `q` in a trace. -/
def reads_on (q : Nat) (tr : List (Nat × Act α)) : Nat := count_calls (Act.reads q) tr

/-- The number of `read` and `write` calls of a trace that returned a count
other than `sizeof(double)`. -/
def short_transfers (tr : List (Nat × Act α)) : Nat := count_calls Act.short_transfer tr

/-- The number of `pipe` calls in a trace. -/
def pipe_calls (tr : List (Nat × Act α)) : Nat := count_calls Act.is_pipe tr

namespace Prog

/-- A process that fails to create a pipe or a process, or to transfer a
whole value, reports it and calls `exit(1)` at once: wherever `pipe` or
`fork` returns a negative value, or `read` or `write` a count other than
`sizeof(double)`, the rest of the program is one message on standard error
followed by `exit(1)`. -/
def failfast : Prog α → Prop
  | .exit _ => True
  | .ret => True
  | .abort => True
  | .stderr _ k => k.failfast
  | .get_tree_from_file _ k => ∀ t, (k t).failfast
  | .pipe k => ∀ r a b, (r < 0 → ∃ m, k r a b = .stderr m (.exit 1)) ∧ (k r a b).failfast
  | .fork k => ∀ r, (r < 0 → ∃ m, k r = .stderr m (.exit 1)) ∧ (k r).failfast
  | .wait_for_ready_children _ k => k.failfast
  | .raise_SIGSTOP k => k.failfast
  | .kill_SIGCONT _ k => k.failfast
  | .wait k => ∀ p s, (k p s).failfast
  | .close _ k => k.failfast
  | .read _ k => ∀ r v,
    (r ≠ sizeof_double → ∃ m, k r v = .stderr m (.exit 1)) ∧ (k r v).failfast
  | .write _ _ k => ∀ r, (r ≠ sizeof_double → ∃ m, k r = .stderr m (.exit 1)) ∧ (k r).failfast
  | .sleep _ k => k.failfast

end Prog

/-- Whether a call is a `pipe` or a `fork` that returned a negative value. -/
def Act.failed_creation : Act α → Bool
  | .pipe r _ _ => r < 0
  | .fork r => r < 0
  | _ => false

/-- In a run with calls `tr` and outcome `o`, the call at index `i` is
followed by a message on standard error and `exit(1)` and by nothing else. -/
def fatal_at (tr : List (Act α)) (o : Outcome) (i : Nat) : Prop :=
  (∃ m, tr.drop (i + 1) = [.stderr m, .exit 1]) ∧ o = .exited 1

/-- In every run of a fail-fast program a failed call is fatal. -/
def FailFastRun (tr : List (Act α)) (o : Outcome) : Prop :=
  ∀ i a, tr[i]? = some a → (a.short_transfer = true ∨ a.failed_creation = true) → fatal_at tr o i

namespace Prog

/-- Every `exit` of the program has status 16, except an `exit(1)` that
directly follows a message on standard error; and a message on standard
error is always followed by `exit(1)`. -/
def exits16 : Prog α → Prop
  | .exit s => s = 16
  | .ret => True
  | .abort => True
  | .stderr _ k => k = .exit 1
  | .get_tree_from_file _ _ => False
  | .pipe k => ∀ r a b, (k r a b).exits16
  | .fork k => ∀ r, (k r).exits16
  | .wait_for_ready_children _ k => k.exits16
  | .raise_SIGSTOP k => k.exits16
  | .kill_SIGCONT _ k => k.exits16
  | .wait k => ∀ p s, (k p s).exits16
  | .close _ k => k.exits16
  | .read _ k => ∀ r v, (k r v).exits16
  | .write _ _ k => ∀ r, (k r).exits16
  | .sleep _ k => k.exits16

end Prog

/-- The exit status `s` is 16, or it is 1 and the calls `tr` contain a
message on standard error. -/
def Exit16 (tr : List (Act α)) (o : Outcome) : Prop :=
  ∀ s, o = .exited s → s = 16 ∨ (s = 1 ∧ ∃ m, Act.stderr m ∈ tr)

/-- The answer of a `read` that returns `r` and stores `v`. -/
def answer_read (r : Int) (v : Int) : Resp Int :=
  { ret := r, pfd0 := ⟨0, false⟩, pfd1 := ⟨0, true⟩, status := 0, val := some v, tree := none }

/-- Whether a call is a `kill(pid, SIGCONT)`. -/
def Act.is_cont : Act α → Bool
  | .kill_SIGCONT _ => true
  | _ => false

/-- The order of the collection loop of `ex2-pipes` in the calls `tr` of a
worker with `n` children `pid 0, pid 1, ...`: a `kill(p, SIGCONT)` occurs
only at an index `4 * j` with `j < n` and `p = pid j`, and for every earlier
child `m < j` the calls `kill(pid m, SIGCONT)`, `wait`, `close(pfd1)` and a
`read` on `pfd0` that returned `sizeof(double)` occur in this order at the
indices `4 * m` to `4 * m + 3`. -/
def collected_in_turn (pfd0 pfd1 : Fd) (pid : Nat → Int) (n : Nat) (tr : List (Act α)) : Prop :=
  ∀ (i : Nat) (p : Int), tr[i]? = some (.kill_SIGCONT p) →
    ∃ j, i = 4 * j ∧ j < n ∧ p = pid j ∧
      ∀ m, m < j → tr[4 * m]? = some (.kill_SIGCONT (pid m)) ∧
        (∃ r st, tr[4 * m + 1]? = some (.wait r st)) ∧
        tr[4 * m + 2]? = some (.close pfd1) ∧
        ∃ v, tr[4 * m + 3]? = some (.read pfd0 sizeof_double v)

/-- The order of the wake-up loop of `ex2-signals` in the calls `tr` of a
process with `n` children: a `kill(p, SIGCONT)` occurs only at an index
`2 * j` with `j < n` and `p = pid j`, and for every earlier child `m < j` the
calls `kill(pid m, SIGCONT)` and `wait` occur at the indices `2 * m` and
`2 * m + 1`. -/
def woken_in_turn (pid : Nat → Int) (n : Nat) (tr : List (Act α)) : Prop :=
  ∀ (i : Nat) (p : Int), tr[i]? = some (.kill_SIGCONT p) →
    ∃ j, i = 2 * j ∧ j < n ∧ p = pid j ∧
      ∀ m, m < j → tr[2 * m]? = some (.kill_SIGCONT (pid m)) ∧
        ∃ r st, tr[2 * m + 1]? = some (.wait r st)

/-- The pids 3 and 4 of the two children of a worker. -/
def two_children (j : Nat) : Int := if j = 0 then 3 else 4

/-- The pipes created by process `pid` in a trace: the two descriptors that
each `pipe` call returned. -/
def pipes_of (pid : Nat) (tr : List (Nat × Act α)) : List (Fd × Fd) :=
  tr.filterMap fun e =>
    match e with
    | (p, .pipe _ a b) => if p = pid then some (a, b) else none
    | _ => none

/-- The descriptors process `pid` writes to in a trace. -/
def writes_of (pid : Nat) (tr : List (Nat × Act α)) : List Fd :=
  tr.filterMap fun e =>
    match e with
    | (p, .write fd _ _) => if p = pid then some fd else none
    | _ => none

/-- Whether a call is a message on standard error or `exit(1)`. -/
def Act.is_failure_report : Act α → Bool
  | .stderr _ => true
  | .exit s => s = 1
  | _ => false

/-- Whether a call is a `fork` that returned the pid of a new process. -/
def Act.is_spawn : Act α → Bool
  | .fork r => 0 < r
  | _ => false

/-- Whether a call is the return of `fork` with value 0: the first thing a
new process does. -/
def Act.is_born : Act α → Bool
  | .fork r => r = 0
  | _ => false

/-- The processes forked by process `pid` in a trace: the pids its `fork`
calls returned, in order. -/
def forked_by (pid : Nat) (tr : List (Nat × Act α)) : List Int :=
  tr.filterMap fun e =>
    match e with
    | (p, .fork r) => if p = pid ∧ 0 < r then some r else none
    | _ => none

/-- The workers mirror the tree: in the trace `tr` the worker `c` of an
Internal node forked exactly two processes, which are the workers of its two
children and mirror their subtrees; the worker of a Leaf forked none. -/
def Mirrored : (c : Nat) → tree_node → List (Nat × Act α) → Prop
  | c, .mk _ [a, b], tr =>
    forked_by c tr = [((c + 1 : Nat) : Int), ((c + 1 + nodes a : Nat) : Int)] ∧
    Mirrored (c + 1) a tr ∧ Mirrored (c + 1 + nodes a) b tr
  | c, .mk _ _, tr => forked_by c tr = []

/-- The tree that is the single leaf `5`. -/
def tree_leaf : tree_node := .mk "5" []

/-- The calls of process `pid` in a trace of the system, in order. -/
def calls_of (pid : Nat) (tr : List (Nat × Act α)) : List (Act α) :=
  (tr.filter fun e => e.1 = pid).map fun e => e.2

/-- The descriptors closed in the calls of a process, in order. -/
def close_calls (tr : List (Act α)) : List Fd :=
  tr.filterMap fun a =>
    match a with
    | .close fd => some fd
    | _ => none

/-- Whether a call is a `read` or a `write`. -/
def Act.is_transfer : Act α → Bool
  | .read _ _ _ => true
  | .write _ _ _ => true
  | _ => false

/-- The descriptors a process closed before its first `read` or `write`. -/
def closed_before_transfer (tr : List (Act α)) : List Fd :=
  close_calls (tr.takeWhile fun a => !a.is_transfer)

/-- Whether, in the calls `tr` of a process, every `write` on a pipe comes
after a `close` of the read end of that pipe, and every `read` on a pipe
comes after a `close` of the write end of that pipe. -/
def released_before_transfer (tr : List (Act α)) : Bool :=
  (List.range tr.length).all fun i =>
    match tr[i]? with
    | some (.write fd _ _) => (close_calls (tr.take i)).contains ⟨fd.pipe, false⟩
    | some (.read fd _ _) => (close_calls (tr.take i)).contains ⟨fd.pipe, true⟩
    | _ => true

/-- The value an operator node writes: the sum or the product of the two
values it read. -/
def combine (D : DoubleOps α) (name : String) (x y : Option α) : α :=
  if name = "+" then D.add (x.getD D.zero) (y.getD D.zero)
  else D.mul (x.getD D.zero) (y.getD D.zero)

namespace Prog

/-- The monitor `ready_after_children` on the program: along every path, for
every result of every call. -/
def bottom_up (arity : Nat → Bool) : Prog α → Nat → Bool → Prop
  | .exit _, _, _ => True
  | .ret, _, _ => True
  | .abort, _, _ => True
  | .stderr _ c, k, w => c.bottom_up arity k w
  | .get_tree_from_file _ c, k, w => ∀ t, (c t).bottom_up arity k w
  | .pipe c, k, w => ∀ r a b, (c r a b).bottom_up arity k w
  | .fork c, k, w => ∀ r,
    (r = 0 → (c r).bottom_up arity 0 false) ∧ (0 < r → (c r).bottom_up arity (k + 1) false) ∧
    (r < 0 → (c r).bottom_up arity k w)
  | .wait_for_ready_children n c, k, _ => n = k ∧ 0 < k ∧ arity k = true ∧ c.bottom_up arity k true
  | .raise_SIGSTOP c, k, w => (k = 0 ∨ w = true) ∧ c.bottom_up arity k w
  | .kill_SIGCONT _ c, k, w => c.bottom_up arity k w
  | .wait c, k, w => ∀ p s, (c p s).bottom_up arity k w
  | .close _ c, k, w => c.bottom_up arity k w
  | .read _ c, k, w => ∀ n v, (c n v).bottom_up arity k w
  | .write _ _ c, k, w => ∀ n, (c n).bottom_up arity k w
  | .sleep _ c, k, w => c.bottom_up arity k w

end Prog

/-- The kind of a process state, without the program the state carries. -/
inductive Status where
  | running
  | stopped
  | blocked
  | zombie (wstatus : Int)
  | reaped
  | returned
deriving DecidableEq, Repr

/-- The kind of a process state. -/
def PState.status : PState α → Status
  | .running => .running
  | .stopped _ => .stopped
  | .blocked _ => .blocked
  | .zombie w => .zombie w
  | .reaped => .reaped
  | .returned => .returned

/-- The wait status of a process killed by `SIGKILL`. -/
def W_SIGKILL : Int := 9

namespace ex2_pipes

/-- The collection loop of `child` (lines 65-87) from iteration `j` on, with
`n` iterations left, followed by lines 89-108 and 134-138; `collect` is this
loop from iteration 0. -/
def collect_from (D : DoubleOps α) (fd : Fd) (name : String) (pfd0 pfd1 : Fd) (n j : Nat)
    (s : (Nat → Int) × (Nat → α)) : Prog α :=
  Prog.for_range n j s
    (fun j s next =>
      .kill_SIGCONT (s.1 j) <|
      .wait fun p _status_child =>
      .close pfd1 <|
      .read pfd0 fun n res =>
        if n ≠ sizeof_double then
          .stderr "parent: read from pipe" (.exit 1)
        else
          next (assign s.1 j p, assign s.2 j (res.getD D.zero)))
    (fun s =>
      let result := s.2
      let final_res :=
        if name = "+" then D.add (result 0) (result 1) else D.mul (result 0) (result 1)
      .write fd final_res fun n =>
        if n ≠ sizeof_double then
          .stderr "parent: write to pipe" (.exit 1)
        else
          .exit 16)

/-- The system in the run on the tree `(+ 3 4)` when the whole tree is
stopped: `main` (process 1) has forked the worker of `+` (process 2), which
has created pipe 1 and forked the workers of `3` and `4` (processes 3 and
4), and the three workers have raised `SIGSTOP`. -/
def stopped_sum : Kernel Int :=
  (exec 40 ((((boot fun _ => some tree_sum).log 1 (.get_tree_from_file "sum.tree" true)).piped
      1).forked 1) 2 (child intOps ⟨0, true⟩ tree_sum)).getD (boot fun _ => none)

/-- The system `stopped_sum` after the stopped workers `victims` were killed
by `SIGKILL` and `main` has resumed the worker of `+`. -/
def killed_while_stopped (victims : List Nat) : Kernel Int :=
  (((victims.foldl (fun K v => K.terminate v W_SIGKILL) stopped_sum).counted 1 1).continued 1 2)

end ex2_pipes

/-! ## `ex1.c`: the file concatenation utility `fconc` -/

namespace ex1

/-- An open file: the path it was opened with, the file offset, and whether
it was opened with `O_WRONLY` (otherwise with `O_RDONLY`). -/
structure OpenFile where
  path : String
  pos : Nat
  wr : Bool
deriving DecidableEq, Repr

/-- The files and the process state that `fconc` acts on.  A byte is a
natural number. -/
structure World where
  /-- The content of every file that exists and can be opened for reading. -/
  files : String → Option (List Nat)
  /-- Whether `open(path, O_CREAT | O_WRONLY | O_TRUNC, mode)` succeeds. -/
  can_create : String → Bool
  /-- The descriptor table. -/
  fds : Nat → Option OpenFile
  /-- The descriptor the next `open` returns. -/
  next_fd : Nat
  /-- What the kernel decides for every `read` and `write`, by call number: a
  negative value makes the call fail, another value bounds the number of
  bytes the call transfers. -/
  answers : Nat → Int
  /-- The number of `read` and `write` calls made so far. -/
  calls : Nat
  /-- The lines written with `printf`. -/
  stdout : List String
  /-- The messages written with `perror`. -/
  stderr : List String

/-- The call `open(path, O_RDONLY)`. -/
def open_rdonly (w : World) (path : String) : World × Int :=
  match w.files path with
  | none => (w, -1)
  | some _ =>
    ({ w with
        fds := fun i => if i = w.next_fd then some ⟨path, 0, false⟩ else w.fds i
        next_fd := w.next_fd + 1 }, w.next_fd)

/-- The call `open(path, O_CREAT | O_WRONLY | O_TRUNC, S_IRUSR | S_IWUSR)`:
on success the file exists and is empty. -/
def open_creat (w : World) (path : String) : World × Int :=
  if w.can_create path then
    ({ w with
        files := fun p => if p = path then some [] else w.files p
        fds := fun i => if i = w.next_fd then some ⟨path, 0, true⟩ else w.fds i
        next_fd := w.next_fd + 1 }, w.next_fd)
  else (w, -1)

/-- The call `close(fd)`. -/
def close (w : World) (fd : Int) : World :=
  if fd < 0 then w else { w with fds := fun i => if i = fd.toNat then none else w.fds i }

/-- The open file behind a descriptor. -/
def lookup (w : World) (fd : Int) : Option OpenFile :=
  if fd < 0 then none else w.fds fd.toNat

/-- The call `read(fd, buff, count)`: the new state, the return value and
the bytes stored in `buff`.  At the end of the file the call returns 0;
otherwise a successful call transfers at least one byte. -/
def read (w : World) (fd : Int) (count : Nat) : World × Int × List Nat :=
  match lookup w fd with
  | some f =>
    if f.wr = true ∨ w.answers w.calls < 0 then ({ w with calls := w.calls + 1 }, -1, [])
    else
      let rest := ((w.files f.path).getD []).drop f.pos
      let k := min (max (w.answers w.calls).toNat 1) (min count rest.length)
      ({ w with
          calls := w.calls + 1
          fds := fun i => if i = fd.toNat then some { f with pos := f.pos + k } else w.fds i },
        (k : Int), rest.take k)
  | none => ({ w with calls := w.calls + 1 }, -1, [])

/-- The call `write(fd, buf, count)`, where `buf` is the memory from the
pointer on: the new state and the return value.  The bytes go to the file
offset and the offset advances. -/
def write (w : World) (fd : Int) (buf : List Nat) (count : Nat) : World × Int :=
  match lookup w fd with
  | some f =>
    if f.wr = false ∨ w.answers w.calls < 0 then ({ w with calls := w.calls + 1 }, -1)
    else
      let k := min (w.answers w.calls).toNat (min count buf.length)
      let old := (w.files f.path).getD []
      ({ w with
          calls := w.calls + 1
          files := fun p =>
            if p = f.path then some (old.take f.pos ++ buf.take k ++ old.drop (f.pos + k))
            else w.files p
          fds := fun i => if i = fd.toNat then some { f with pos := f.pos + k } else w.fds i },
        (k : Int))
  | none => ({ w with calls := w.calls + 1 }, -1)

/-- The call `perror(s)`. -/
def perror (w : World) (s : String) : World := { w with stderr := w.stderr ++ [s] }

/-- How a function ends: it returns `v`, or the process called
`exit(status)`. -/
inductive Res (β : Type) where
  | ok (w : World) (v : β)
  | exit (w : World) (status : Nat)

/-- The conversion of a signed value to `size_t` (64 bits). -/
def to_size_t (x : Int) : Nat := (x % 2 ^ 64).toNat

/-- The loop of `doWrite` with the variable `idx`; the body runs before the
test `idx < len`.  `idx` is a `size_t`, `len` an `int`, `wcnt` a `ssize_t`:
the arithmetic and the comparison are those of `size_t`. -/
def doWrite_loop : (fuel : Nat) → World → (fd : Int) → (buff : List Nat) → (len : Int) →
    (idx : Nat) → Option (Res Unit)
  | 0, _, _, _, _, _ => none
  | n + 1, w, fd, buff, len, idx =>
    let r := write w fd (buff.drop idx) ((to_size_t len + 2 ^ 64 - idx) % 2 ^ 64)
    if r.2 = -1 then
      some (.exit (close (perror r.1 "write") fd) 1)
    else
      let idx1 := (idx + to_size_t r.2) % 2 ^ 64
      if idx1 < to_size_t len then doWrite_loop n r.1 fd buff len idx1 else some (.ok r.1 ())

/-- The function `doWrite(fd, buff, len)`. -/
def doWrite (fuel : Nat) (w : World) (fd : Int) (buff : List Nat) (len : Int) :
    Option (Res Unit) :=
  doWrite_loop fuel w fd buff len 0

/-- The loop `for (;;)` of `write_file`: `buff` holds the bytes read followed
by the terminator that `buff[rcnt] = 0` stores. -/
def write_file_loop : (fuel : Nat) → World → (fd : Int) → (fd_infile : Int) →
    Option (Res Unit)
  | 0, _, _, _ => none
  | n + 1, w, fd, fd_infile =>
    let r := read w fd_infile (1024 - 1)
    if r.2.1 = 0 then
      some (.ok r.1 ())
    else if r.2.1 = -1 then
      some (.exit (perror r.1 "read") 1)
    else
      match doWrite n r.1 fd (r.2.2 ++ [0]) r.2.1 with
      | none => none
      | some (.exit w2 s) => some (.exit w2 s)
      | some (.ok w2 _) => write_file_loop n w2 fd fd_infile

/-- The function `write_file(fd, infile)`. -/
def write_file (fuel : Nat) (w : World) (fd : Int) (infile : String) : Option (Res Unit) :=
  let r := open_rdonly w infile
  if r.2 = -1 then
    some (.exit (perror r.1 infile) 1)
  else
    match write_file_loop fuel r.1 fd r.2 with
    | none => none
    | some (.exit w2 s) => some (.exit w2 s)
    | some (.ok w2 _) => some (.ok (close w2 r.2) ())

/-- The function `main(argc, argv)`; `argc` is the length of `argv`.  The
result is the final state and the exit status. -/
def main (fuel : Nat) (w : World) (argv : List String) : Option (World × Nat) :=
  if argv.length ≠ 3 ∧ argv.length ≠ 4 then
    some ({ w with
      stdout := w.stdout ++ ["Usage: ./fconc infile1 infile2 [outfile (default:fconc.out)]"] },
      1)
  else
    let a := open_rdonly w (argv.getD 1 "")
    if a.2 = -1 then
      some (perror a.1 (argv.getD 1 ""), 1)
    else
      let b := open_rdonly a.1 (argv.getD 2 "")
      if b.2 = -1 then
        some (close (perror b.1 (argv.getD 2 "")) a.2, 1)
      else
        let c :=
          if argv.length = 3 then open_creat b.1 "fconc.out"
          else open_creat b.1 (argv.getD 3 "")
        if c.2 = -1 then
          some (close (close (perror c.1 "open") a.2) b.2, 1)
        else
          match write_file fuel c.1 c.2 (argv.getD 1 "") with
          | none => none
          | some (.exit w4 s) => some (w4, s)
          | some (.ok w4 _) =>
            match write_file fuel w4 c.2 (argv.getD 2 "") with
            | none => none
            | some (.exit w5 s) => some (w5, s)
            | some (.ok w5 _) => some (close (close (close w5 a.2) b.2) c.2, 0)

/-- The name of the output file of an invocation: `argv[3]`, or `fconc.out`
when there are three arguments. -/
def outfile (argv : List String) : String :=
  if argv.length = 3 then "fconc.out" else argv.getD 3 ""

/-- A world with the files `a` and `b`, no open descriptor apart from the
three standard ones, in which a file can be created when `ok` says so and
the kernel transfers at most `chunk` bytes per call. -/
def small_world (ok : String → Bool) (chunk : Int) : World :=
  { files := fun p => if p = "a" then some [1, 2, 3] else if p = "b" then some [4, 5] else none
    can_create := ok
    fds := fun _ => none
    next_fd := 3
    answers := fun _ => chunk
    calls := 0
    stdout := []
    stderr := [] }

/-- The state `w1` differs from `w` in that the file `out`, open for writing
as descriptor `c` with the offset at its end, now has the content `content`;
the offsets of the descriptors `rs` may differ too. -/
def Appended (w w1 : World) (out : String) (c : Nat) (rs : List Nat) (content : List Nat) :
    Prop :=
  w1.files out = some content ∧ (∀ p, p ≠ out → w1.files p = w.files p) ∧
  w1.fds c = some ⟨out, content.length, true⟩ ∧
  (∀ i, i ≠ c → i ∉ rs → w1.fds i = w.fds i) ∧
  w1.answers = w.answers ∧ w1.next_fd = w.next_fd ∧ w1.can_create = w.can_create

end ex1

/-! ## `ex3-mandel-condition-variavles.c`: ordered output with a mutex and a
condition variable

The threads are a transition system: a state holds the globals `count` and
`mutex`, the output so far, and for every thread its place in
`compute_and_output_mandel_line` and its variable `i`.  One step is one
statement of one thread; an execution is any sequence of thread ids.  The
computation of a line (`compute_mandel_line`) has no effect on the
synchronisation and an output line is recorded by its number. -/

namespace ex3_condition

/-- The global `y_chars`: the number of lines. -/
def y_chars : Int := 50

/-- The value of an `int` expression whose exact value is `x` (two's
complement, 32 bits). -/
def wrap32 (x : Int) : Int := (x + 2 ^ 31) % 2 ^ 32 - 2 ^ 31

/-- The places of a thread in `compute_and_output_mandel_line`. -/
inductive Pc where
  /-- Before `i = thr->thrid`, the initialisation of the `for` loop. -/
  | start
  /-- At the test `i < y_chars` of the `for` loop. -/
  | loop
  /-- After `compute_mandel_line`, before `pthread_mutex_lock`. -/
  | lock
  /-- Holding the mutex, at the test `count != thr->thrid` of the `while`. -/
  | test
  /-- Inside `pthread_cond_wait`, the mutex released, waiting to be woken. -/
  | wait
  /-- Inside `pthread_cond_wait`, woken, taking the mutex again. -/
  | relock
  /-- Holding the mutex, before `output_mandel_line`. -/
  | output
  /-- Before `count = (count + 1) % thr->thrcnt`. -/
  | advance
  /-- Before `pthread_cond_broadcast`. -/
  | broadcast
  /-- Before `pthread_mutex_unlock`. -/
  | unlock
  /-- Before `i += thr->thrcnt`, the step of the `for` loop. -/
  | incr
  /-- After `return NULL`. -/
  | done
deriving DecidableEq, Repr

/-- One output line: its number, the thread that wrote it and the value of
`count` at that moment. -/
structure Line where
  line : Int
  thrid : Nat
  count : Int
deriving DecidableEq, Repr

/-- The state of the program. -/
structure State where
  /-- The global `count`. -/
  count : Int
  /-- The thread that holds `mutex`, if any. -/
  mutex : Option Nat
  /-- The place of every thread. -/
  pc : Nat → Pc
  /-- The variable `i` of every thread. -/
  i : Nat → Int
  /-- The lines output so far, oldest first. -/
  out : List Line

/-- The state when the threads are created: `count = 0`, the mutex free. -/
def init : State :=
  { count := 0, mutex := none, pc := fun _ => .start, i := fun _ => 0, out := [] }

/-- The function `compute_and_output_mandel_line` of thread `thrid` among
`thrcnt` threads: one statement.  A thread that cannot go on (the mutex is
taken) leaves the state unchanged.  A thread inside `pthread_cond_wait` is
woken by `pthread_cond_broadcast`, and may also wake by itself (a spurious
wakeup). -/
def compute_and_output_mandel_line (thrcnt : Nat) (s : State) (thrid : Nat) : State :=
  if thrcnt ≤ thrid then s
  else
    match s.pc thrid with
    | .start =>
      { s with
        i := fun u => if u = thrid then (thrid : Int) else s.i u
        pc := fun u => if u = thrid then .loop else s.pc u }
    | .loop =>
      if s.i thrid < y_chars then
        { s with pc := fun u => if u = thrid then .lock else s.pc u }
      else
        { s with pc := fun u => if u = thrid then .done else s.pc u }
    | .lock =>
      match s.mutex with
      | none =>
        { s with
          mutex := some thrid
          pc := fun u => if u = thrid then .test else s.pc u }
      | some _ => s
    | .test =>
      if s.count ≠ (thrid : Int) then
        { s with
          mutex := none
          pc := fun u => if u = thrid then .wait else s.pc u }
      else
        { s with pc := fun u => if u = thrid then .output else s.pc u }
    | .wait => { s with pc := fun u => if u = thrid then .relock else s.pc u }
    | .relock =>
      match s.mutex with
      | none =>
        { s with
          mutex := some thrid
          pc := fun u => if u = thrid then .test else s.pc u }
      | some _ => s
    | .output =>
      { s with
        out := s.out ++ [⟨s.i thrid, thrid, s.count⟩]
        pc := fun u => if u = thrid then .advance else s.pc u }
    | .advance =>
      { s with
        count := (s.count + 1) % (thrcnt : Int)
        pc := fun u => if u = thrid then .broadcast else s.pc u }
    | .broadcast =>
      { s with
        pc := fun u =>
          if u = thrid then .unlock else if s.pc u = .wait then .relock else s.pc u }
    | .unlock =>
      { s with
        mutex := none
        pc := fun u => if u = thrid then .incr else s.pc u }
    | .incr =>
      { s with
        i := fun u => if u = thrid then wrap32 (s.i thrid + (thrcnt : Int)) else s.i u
        pc := fun u => if u = thrid then .loop else s.pc u }
    | .done => s

/-- The state after the execution in which the threads take their steps in
the order `sched`. -/
def run (thrcnt : Nat) (sched : List Nat) : State :=
  sched.foldl (compute_and_output_mandel_line thrcnt) init

/-- Whether a thread at this place holds the mutex. -/
def Pc.holds : Pc → Bool
  | .test => true
  | .output => true
  | .advance => true
  | .broadcast => true
  | .unlock => true
  | _ => false

/-- The variable `i` of thread `t` is the number of the next line of thread
`t`: the least `x ≥ m` with `x % n = t`, as an `int`; `m` lines are out. -/
def Next (n m t : Nat) (i : Int) : Prop :=
  ∃ x : Nat, i = wrap32 x ∧ m ≤ x ∧ x % n = t ∧ x < m + n

/-- The variable `i` of thread `t` is the number of the last line thread `t`
wrote, and its next line is not out; `m` lines are out. -/
def Last (n m t : Nat) (i : Int) : Prop :=
  ∃ x : Nat, i = x ∧ x % n = t ∧ x < m ∧ m ≤ x + n

/-- What holds for thread `t` at each place, when `m` lines are out. -/
def Local (n m t : Nat) (count : Int) (i : Int) : Pc → Prop
  | .start => m ≤ t
  | .loop => Next n m t i
  | .lock => Next n m t i ∧ i < y_chars
  | .wait => Next n m t i ∧ i < y_chars
  | .relock => Next n m t i ∧ i < y_chars
  | .test => Next n m t i ∧ i < y_chars ∧ count = ((m % n : Nat) : Int)
  | .output => Next n m t i ∧ i < y_chars ∧ count = ((m % n : Nat) : Int) ∧ m % n = t
  | .advance => Last n m t i ∧ i + 1 = (m : Int) ∧ count = (t : Int)
  | .broadcast => Last n m t i ∧ count = ((m % n : Nat) : Int)
  | .unlock => Last n m t i ∧ count = ((m % n : Nat) : Int)
  | .incr => Last n m t i
  | .done => Next n m t i ∧ y_chars ≤ i

/-- The invariant of the program with `n` threads. -/
structure Inv (n : Nat) (s : State) : Prop where
  /-- The `j`-th line written is line `j`, written by thread `j % n` while
  `count` was `j % n`. -/
  ordered : ∀ (j : Nat) (e : Line), s.out[j]? = some e →
    e = ⟨(j : Int), j % n, ((j % n : Nat) : Int)⟩
  bounded : (s.out.length : Int) ≤ y_chars
  owner : ∀ t, t < n → ((s.pc t).holds = true ↔ s.mutex = some t)
  owner_lt : ∀ t, s.mutex = some t → t < n
  free : s.mutex = none → s.count = ((s.out.length % n : Nat) : Int)
  thread : ∀ t, t < n → Local n s.out.length t s.count (s.i t) (s.pc t)

end ex3_condition

/-! ## `ex3-mandel-semaphores.c`: output with a ring of semaphores

The threads are a transition system, as for the program with the condition
variable. -/

namespace ex3_semaphores

/-- The global `y_chars`: the number of lines. -/
def y_chars : Int := 50

/-- The places of a thread in `compute_and_output_mandel_line`. -/
inductive Pc where
  /-- Before `compute_mandel_line(i, color_val)`. -/
  | compute
  /-- Before `sem_wait(&sem[thr->thrid])`. -/
  | wait
  /-- Before `output_mandel_line(1, color_val)`. -/
  | output
  /-- Before `sem_post(&sem[(thr->thrid + 1) % thr->thrcnt])`. -/
  | post
  /-- After `return NULL`. -/
  | done
deriving DecidableEq, Repr

/-- One output line: its number and the thread that wrote it. -/
structure Line where
  line : Int
  thrid : Nat
deriving DecidableEq, Repr

/-- The state of the program. -/
structure State where
  /-- The values of the semaphores `sem[0]`, `sem[1]`, ... -/
  sem : Nat → Nat
  /-- The place of every thread. -/
  pc : Nat → Pc
  /-- The lines output so far, oldest first. -/
  out : List Line

/-- The state when `main` has initialised every semaphore and created every
thread and no thread has taken a step: `sem[0]` is 1 and every other
semaphore 0. -/
def init : State :=
  { sem := fun k => if k = 0 then 1 else 0, pc := fun _ => .compute, out := [] }

/-- The function `compute_and_output_mandel_line` of thread `thrid` among
`thrcnt` threads: one statement.  The function has no loop; its variable `i`
is declared and never assigned, so the line it computes and writes is the
indeterminate value `garbage thrid`.  A thread whose semaphore is 0 leaves
the state unchanged. -/
def compute_and_output_mandel_line (garbage : Nat → Int) (thrcnt : Nat) (s : State)
    (thrid : Nat) : State :=
  if thrcnt ≤ thrid then s
  else
    match s.pc thrid with
    | .compute => { s with pc := fun u => if u = thrid then .wait else s.pc u }
    | .wait =>
      if 0 < s.sem thrid then
        { s with
          sem := fun k => if k = thrid then s.sem k - 1 else s.sem k
          pc := fun u => if u = thrid then .output else s.pc u }
      else s
    | .output =>
      { s with
        out := s.out ++ [⟨garbage thrid, thrid⟩]
        pc := fun u => if u = thrid then .post else s.pc u }
    | .post =>
      { s with
        sem := fun k => if k = (thrid + 1) % thrcnt then s.sem k + 1 else s.sem k
        pc := fun u => if u = thrid then .done else s.pc u }
    | .done => s

/-- The state after the execution in which the threads take their steps in
the order `sched`. -/
def run (garbage : Nat → Int) (thrcnt : Nat) (sched : List Nat) : State :=
  sched.foldl (compute_and_output_mandel_line garbage thrcnt) init

/-- The lines thread `k` has to write according to the comment of the
function: `k`, `k + n`, `k + 2n`, ... below `y_chars`. -/
def lines_of (n k : Nat) : List Int :=
  ((List.range y_chars.toNat).filter fun j => j % n = k).map fun j => (j : Int)

/-- Whether a thread at this place has written its line. -/
def Pc.written : Pc → Bool
  | .post => true
  | .done => true
  | _ => false

/-- The invariant: every line in the output was written by a thread that is
past its output statement, a thread has at most one line in the output, and
the line has the indeterminate number. -/
structure Inv (garbage : Nat → Int) (n : Nat) (s : State) : Prop where
  lt : ∀ e ∈ s.out, e.thrid < n
  past : ∀ e ∈ s.out, (s.pc e.thrid).written = true
  line : ∀ e ∈ s.out, e.line = garbage e.thrid
  nodup : (s.out.map fun e => e.thrid).Nodup

end ex3_semaphores

/-! ## Interleaved executions

The processes take their calls one at a time and in any order: a schedule is
the list of the pids whose turn it is.  A call has the effect it has in
`exec`; a call that cannot complete yet leaves the system as it is, and so
does the turn of a pid that is no process or of a process that is stopped or
has terminated. -/

/-- The system together with the program each process has left to run. -/
structure Sys (α : Type) where
  K : Kernel α
  code : Nat → Prog α

namespace Sys

/-- Process `p` has completed a call: the system is `K1` and `p` goes on with
`k`. -/
def goes (S : Sys α) (p : Nat) (K1 : Kernel α) (k : Prog α) : Sys α :=
  ⟨K1, fun i => if i = p then k else S.code i⟩

/-- The turn of process `p`: its next call, when the call can complete. -/
def step (S : Sys α) (p : Nat) : Sys α :=
  if p = 0 ∨ S.K.next_pid ≤ p then S
  else
    match (S.K.proc p).state with
    | .running =>
      match S.code p with
      | .exit s => ⟨(S.K.log p (.exit s)).terminate p (W_EXITED s), S.code⟩
      | .ret => ⟨(S.K.log p .ret).modify p fun r => { r with state := .returned }, S.code⟩
      | .abort => ⟨(S.K.log p .abort).terminate p W_SIGABRT, S.code⟩
      | .stderr m k => S.goes p (S.K.log p (.stderr m)) k
      | .sleep sec k => S.goes p (S.K.log p (.sleep sec)) k
      | .get_tree_from_file path k =>
        match S.K.files path with
        | some t => S.goes p (S.K.log p (.get_tree_from_file path true)) (k t)
        | none =>
          ⟨((S.K.log p (.get_tree_from_file path false)).log p (.exit 1)).terminate
            p (W_EXITED 1), S.code⟩
      | .pipe k =>
        S.goes p (S.K.piped p) (k 0 ⟨S.K.next_pipe, false⟩ ⟨S.K.next_pipe, true⟩)
      | .fork k =>
        ⟨S.K.forked p, fun i =>
          if i = S.K.next_pid then k 0 else if i = p then k S.K.next_pid else S.code i⟩
      | .wait_for_ready_children cnt k =>
        if cnt ≤ (S.K.proc p).ready then S.goes p (S.K.counted p cnt) k else S
      | .raise_SIGSTOP k => ⟨S.K.halted p k, S.code⟩
      | .kill_SIGCONT pid k =>
        match (S.K.proc pid.toNat).state with
        | .stopped kc =>
          if 0 < pid then
            ⟨S.K.continued p pid, fun i =>
              if i = pid.toNat then kc else if i = p then k else S.code i⟩
          else S.goes p (S.K.log p (.kill_SIGCONT pid)) k
        | _ => S.goes p (S.K.log p (.kill_SIGCONT pid)) k
      | .wait k =>
        match (S.K.proc p).dead with
        | (c, st) :: rest => S.goes p (S.K.reaped p c st rest) (k c st)
        | [] =>
          if (S.K.proc p).nchild = 0 then S.goes p (S.K.log p (.wait (-1) 0)) (k (-1) 0)
          else S
      | .close fd k => S.goes p (S.K.closed p fd) k
      | .read fd k =>
        if fd ∈ (S.K.proc p).fds ∧ fd.wr = false then
          match S.K.buf fd.pipe with
          | v :: vs => S.goes p (S.K.got p fd v vs) (k sizeof_double (some v))
          | [] =>
            if S.K.has_writer fd.pipe then S
            else S.goes p (S.K.log p (.read fd 0 none)) (k 0 none)
        else S.goes p (S.K.log p (.read fd (-1) none)) (k (-1) none)
      | .write fd v k =>
        if fd ∈ (S.K.proc p).fds ∧ fd.wr = true then
          S.goes p (S.K.put p fd v) (k sizeof_double)
        else S.goes p (S.K.log p (.write fd v (-1))) (k (-1))
    | _ => S

/-- The system after the turns `sched`. -/
def run (S : Sys α) (sched : List Nat) : Sys α := sched.foldl step S

end Sys

/-- Whether the call is `raise(SIGSTOP)`, by which a worker reports Ready. -/
def Act.is_ready : Act α → Bool
  | .raise_SIGSTOP => true
  | _ => false

/-- Whether the process is stopped. -/
def PState.is_stopped : PState α → Bool
  | .stopped _ => true
  | _ => false

/-- The number of times process `p` has called `raise(SIGSTOP)`. -/
def raised (p : Nat) (tr : List (Nat × Act α)) : Nat :=
  ((calls_of p tr).filter Act.is_ready).length

namespace ex2_pipes

/-- The system at the start of `ex2-pipes`: the program is process 1. -/
def start (D : DoubleOps α) (files : String → Option tree_node) (argv : List String) : Sys α :=
  ⟨boot files, fun p => if p = 1 then main D argv else .ret⟩

/-- The rest of `child` for an operator node after both children are forked
(lines 59-138): `c0` and `c1` are the pids of the children. -/
def after_forks (D : DoubleOps α) (fd : Fd) (name : String) (pfd0 pfd1 : Fd) (c0 c1 : Int) :
    Prog α :=
  .wait_for_ready_children 2 <| .raise_SIGSTOP <|
    collect D fd name 2 pfd0 pfd1 (assign (assign (fun _ => 0) 0 c0) 1 c1)

/-- The rest of `child` for an operator node after the first child `c0` is
forked: the second turn of the loop of lines 44-57. -/
def second_fork (D : DoubleOps α) (fd : Fd) (name : String) (b : tree_node) (pfd0 pfd1 : Fd)
    (c0 : Int) : Prog α :=
  .fork fun p1 =>
    if p1 < 0 then .stderr "pid_child: fork" (.exit 1)
    else Prog.seq (if p1 = 0 then child D pfd1 b else .ret) (after_forks D fd name pfd0 pfd1 c0 p1)

/-- The rest of `child` for an operator node after `pipe`: the loop of lines
44-57 and what follows it. -/
def first_fork (D : DoubleOps α) (fd : Fd) (name : String) (a b : tree_node) (pfd0 pfd1 : Fd) :
    Prog α :=
  .fork fun p =>
    if p < 0 then .stderr "pid_child: fork" (.exit 1)
    else Prog.seq (if p = 0 then child D pfd1 a else .ret) (second_fork D fd name b pfd0 pfd1 p)

/-- The workers of the subtree `t` while the tree of processes is set up:
process `p`, a child of `par`, is the worker of the root of `t`; `pids` are
the workers created so far for the nodes of `t`, and `rdy` tells whether `p`
has reported Ready.  Every constructor is one place of `child` and gives the
calls the worker has made so far.  A worker that has reported is stopped,
and then the workers of all the nodes below it are. -/
inductive Sub (D : DoubleOps α) (S : Sys α) : Nat → Nat → tree_node → List Nat → Bool → Prop
  /-- A Leaf worker before `raise(SIGSTOP)`. -/
  | leaf_new (p par : Nat) (fd : Fd) (name : String) (h : ¬ (name = "+" ∨ name = "*"))
      (hp : par < p) (hn : p < S.K.next_pid) (hs : (S.K.proc p).state = .running)
      (hpar : (S.K.proc p).parent = par) (hc : S.code p = child D fd (.mk name []))
      (hcl : calls_of p S.K.trace = [.fork 0]) :
      Sub D S p par (.mk name []) [p] false
  /-- A Leaf worker that is stopped. -/
  | leaf_ready (p par : Nat) (fd : Fd) (name : String)
      (hp : par < p) (hn : p < S.K.next_pid)
      (hs : (S.K.proc p).state = .stopped (send D fd name))
      (hpar : (S.K.proc p).parent = par)
      (hcl : calls_of p S.K.trace = [.fork 0, .raise_SIGSTOP]) :
      Sub D S p par (.mk name []) [p] true
  /-- An Internal worker before `pipe`. -/
  | op_new (p par : Nat) (fd : Fd) (name : String) (a b : tree_node)
      (h : name = "+" ∨ name = "*") (ha : WellFormed a) (hb : WellFormed b)
      (hp : par < p) (hn : p < S.K.next_pid) (hs : (S.K.proc p).state = .running)
      (hpar : (S.K.proc p).parent = par) (hr : (S.K.proc p).ready = 0)
      (hc : S.code p = child D fd (.mk name [a, b]))
      (hcl : calls_of p S.K.trace = [.fork 0]) :
      Sub D S p par (.mk name [a, b]) [p] false
  /-- An Internal worker after `pipe`, before the first `fork`. -/
  | op_piped (p par : Nat) (fd : Fd) (name : String) (a b : tree_node) (pfd0 pfd1 : Fd)
      (ha : WellFormed a) (hb : WellFormed b)
      (hp : par < p) (hn : p < S.K.next_pid) (hs : (S.K.proc p).state = .running)
      (hpar : (S.K.proc p).parent = par) (hr : (S.K.proc p).ready = 0)
      (hc : S.code p = first_fork D fd name a b pfd0 pfd1)
      (hcl : calls_of p S.K.trace = [.fork 0, .pipe 0 pfd0 pfd1]) :
      Sub D S p par (.mk name [a, b]) [p] false
  /-- An Internal worker between its two `fork` calls. -/
  | op_one (p par : Nat) (fd : Fd) (name : String) (a b : tree_node) (pfd0 pfd1 : Fd)
      (ca : Nat) (pa : List Nat) (ra : Bool)
      (hb : WellFormed b) (hsa : Sub D S ca p a pa ra)
      (hp : par < p) (hn : p < S.K.next_pid) (hs : (S.K.proc p).state = .running)
      (hpar : (S.K.proc p).parent = par) (hr : (S.K.proc p).ready = ra.toNat)
      (hc : S.code p = second_fork D fd name b pfd0 pfd1 ca)
      (hcl : calls_of p S.K.trace = [.fork 0, .pipe 0 pfd0 pfd1, .fork ca]) :
      Sub D S p par (.mk name [a, b]) (p :: pa) false
  /-- An Internal worker in `wait_for_ready_children(2)`. -/
  | op_two (p par : Nat) (fd : Fd) (name : String) (a b : tree_node) (pfd0 pfd1 : Fd)
      (ca cb : Nat) (pa pb : List Nat) (ra rb : Bool)
      (hsa : Sub D S ca p a pa ra) (hsb : Sub D S cb p b pb rb) (hd : ∀ x ∈ pa, x ∉ pb)
      (hp : par < p) (hn : p < S.K.next_pid) (hs : (S.K.proc p).state = .running)
      (hpar : (S.K.proc p).parent = par) (hr : (S.K.proc p).ready = ra.toNat + rb.toNat)
      (hc : S.code p = after_forks D fd name pfd0 pfd1 ca cb)
      (hcl : calls_of p S.K.trace = [.fork 0, .pipe 0 pfd0 pfd1, .fork ca, .fork cb]) :
      Sub D S p par (.mk name [a, b]) (p :: (pa ++ pb)) false
  /-- An Internal worker between `wait_for_ready_children(2)` and
  `raise(SIGSTOP)`. -/
  | op_waited (p par : Nat) (fd : Fd) (name : String) (a b : tree_node) (pfd0 pfd1 : Fd)
      (ca cb : Nat) (pa pb : List Nat)
      (hsa : Sub D S ca p a pa true) (hsb : Sub D S cb p b pb true) (hd : ∀ x ∈ pa, x ∉ pb)
      (hp : par < p) (hn : p < S.K.next_pid) (hs : (S.K.proc p).state = .running)
      (hpar : (S.K.proc p).parent = par)
      (hc : S.code p = .raise_SIGSTOP (collect D fd name 2 pfd0 pfd1
        (assign (assign (fun _ => 0) 0 (ca : Int)) 1 (cb : Int))))
      (hcl : calls_of p S.K.trace =
        [.fork 0, .pipe 0 pfd0 pfd1, .fork ca, .fork cb, .wait_for_ready_children 2]) :
      Sub D S p par (.mk name [a, b]) (p :: (pa ++ pb)) false
  /-- An Internal worker that is stopped. -/
  | op_ready (p par : Nat) (fd : Fd) (name : String) (a b : tree_node) (pfd0 pfd1 : Fd)
      (ca cb : Nat) (pa pb : List Nat)
      (hsa : Sub D S ca p a pa true) (hsb : Sub D S cb p b pb true) (hd : ∀ x ∈ pa, x ∉ pb)
      (hp : par < p) (hn : p < S.K.next_pid)
      (hs : (S.K.proc p).state = .stopped (collect D fd name 2 pfd0 pfd1
        (assign (assign (fun _ => 0) 0 (ca : Int)) 1 (cb : Int))))
      (hpar : (S.K.proc p).parent = par)
      (hcl : calls_of p S.K.trace =
        [.fork 0, .pipe 0 pfd0 pfd1, .fork ca, .fork cb, .wait_for_ready_children 2,
          .raise_SIGSTOP]) :
      Sub D S p par (.mk name [a, b]) (p :: (pa ++ pb)) true

/-- What a turn of a worker of a subtree changes: `pids1` and `rdy1` are the
workers and the readiness of the subtree after the turn.  The processes
outside the subtree are left as they are, except that the parent `par`
counts one more ready child when the root worker reports Ready; the calls
made are calls of workers of the subtree, none is a `kill`, and a
`raise(SIGSTOP)` is the only call of its turn. -/
structure Effect (S S1 : Sys α) (par : Nat) (pids pids1 : List Nat) (rdy rdy1 : Bool) :
    Prop where
  sub : ∀ x ∈ pids, x ∈ pids1
  new : ∀ x ∈ pids1, x ∈ pids ∨ x = S.K.next_pid
  pid : S1.K.next_pid = S.K.next_pid ∨
    (S1.K.next_pid = S.K.next_pid + 1 ∧ S.K.next_pid ∈ pids1)
  keep : rdy = true → rdy1 = true
  out : ∀ x, x ∉ pids1 → x ≠ par → S1.K.proc x = S.K.proc x ∧ S1.code x = S.code x
  up : S1.K.proc par =
    { S.K.proc par with
      ready := (S.K.proc par).ready + (if rdy = false ∧ rdy1 = true then 1 else 0) }
  up_code : S1.code par = S.code par
  trace : ∃ es, S1.K.trace = S.K.trace ++ es ∧
    ∀ e ∈ es, e.1 ∈ pids1 ∧ e.2.is_cont = false ∧ (e.2.is_ready = true → es = [e])

/-- The turn of process `q` leaves the workers of the subtree `t` in order:
they are `pids1` afterwards, with readiness `rdy1`. -/
def StepsTo (D : DoubleOps α) (S : Sys α) (q p par : Nat) (t : tree_node) (pids : List Nat)
    (rdy : Bool) : Prop :=
  ∃ pids1 rdy1, Sub D (S.step q) p par t pids1 rdy1 ∧
    Effect S (S.step q) par pids pids1 rdy rdy1

end ex2_pipes

namespace Prog

/-- No path through the program reaches a call of `raise(SIGSTOP)`. -/
def no_raise : Prog α → Prop
  | .exit _ => True
  | .ret => True
  | .abort => True
  | .stderr _ k => k.no_raise
  | .get_tree_from_file _ k => ∀ t, (k t).no_raise
  | .pipe k => ∀ r a b, (k r a b).no_raise
  | .fork k => ∀ r, (k r).no_raise
  | .wait_for_ready_children _ k => k.no_raise
  | .raise_SIGSTOP _ => False
  | .kill_SIGCONT _ k => k.no_raise
  | .wait k => ∀ p s, (k p s).no_raise
  | .close _ k => k.no_raise
  | .read _ k => ∀ n v, (k n v).no_raise
  | .write _ _ k => ∀ n, (k n).no_raise
  | .sleep _ k => k.no_raise

end Prog

/-- A process in state `st` with the program `c` left will not call
`raise(SIGSTOP)`: a stopped process goes on with the program it stopped
with. -/
def quiet_at (st : PState α) (c : Prog α) : Prop :=
  match st with
  | .running => c.no_raise
  | .stopped k => k.no_raise
  | _ => True

/-- No process will call `raise(SIGSTOP)` any more. -/
def Sys.Quiet (S : Sys α) : Prop :=
  ∀ x, 0 < x → x < S.K.next_pid → quiet_at (S.K.proc x).state (S.code x)


namespace ex2_pipes

/-- The end of `main` (lines 190-204): what follows `kill(p, SIGCONT)`. -/
def main_end (pfd0 : Fd) : Prog α :=
  .wait fun _p _status =>
  .read pfd0 fun n _final_val =>
    if n ≠ sizeof_double then
      .stderr "initial parent: read from pipe" (.exit 1)
    else
      .exit 0

/-- The rest of `main` in the parent after `fork` returned `p`. -/
def main_rest (pfd0 : Fd) (p : Int) : Prog α :=
  .wait_for_ready_children 1 <| .kill_SIGCONT p <| main_end pfd0

/-- The rest of `main` after `pipe`. -/
def main_piped (D : DoubleOps α) (root : tree_node) (pfd0 pfd1 : Fd) : Prog α :=
  .fork fun p =>
    if p < 0 then
      .stderr "fork" (.exit 1)
    else
      Prog.seq (if p = 0 then Prog.seq (child D pfd1 root) .abort else .ret) (main_rest pfd0 p)

/-- The rest of `main` after `get_tree_from_file`. -/
def main_loaded (D : DoubleOps α) (root : tree_node) : Prog α :=
  .pipe fun r pfd0 pfd1 =>
    if r < 0 then .stderr "pipe" (.exit 1) else main_piped D root pfd0 pfd1

end ex2_pipes

/-- Process `p` is in order to report Ready after the calls `pre`: either it
has forked no child and made no call at all, or it has created a pipe and
forked two different children, its `wait_for_ready_children(2)` has returned
and both children have called `raise(SIGSTOP)`. -/
def bottom_up_at (pre : List (Nat × Act α)) (p : Nat) : Prop :=
  calls_of p pre = [.fork 0] ∨
  ∃ (pfd0 pfd1 : Fd) (ca cb : Nat), ca ≠ cb ∧
    calls_of p pre =
      [.fork 0, .pipe 0 pfd0 pfd1, .fork ca, .fork cb, .wait_for_ready_children 2] ∧
    (ca, .raise_SIGSTOP) ∈ pre ∧ (cb, .raise_SIGSTOP) ∈ pre

/-- Every `raise(SIGSTOP)` in the calls `tr` was made by a process in order
to report Ready. -/
def ReadyInOrder (tr : List (Nat × Act α)) : Prop :=
  ∀ (pre post : List (Nat × Act α)) (p : Nat), tr = pre ++ (p, .raise_SIGSTOP) :: post →
    bottom_up_at pre p

/-- In the calls `pre` there is one worker for every node of `t`: the
workers are the processes other than `main` (process 1) that made a call,
each of them has called `raise(SIGSTOP)` exactly once, so the number of the
calls of `raise(SIGSTOP)` is the number of nodes, and no `kill(SIGCONT)` has
been called. -/
def all_ready_once (t : tree_node) (pre : List (Nat × Act α)) : Prop :=
  count_calls Act.is_ready pre = nodes t ∧ count_calls Act.is_cont pre = 0 ∧
  ∃ pids : List Nat, pids.Nodup ∧ pids.length = nodes t ∧
    (∀ p ∈ pids, 1 < p ∧ raised p pre = 1) ∧ raised 1 pre = 0 ∧
    ∀ e ∈ pre, e.1 = 1 ∨ e.1 ∈ pids

namespace ex2_pipes

/-- The stages of a run of `ex2-pipes` on the tree `t` read from `path`:
`main` before `get_tree_from_file`, before `pipe`, before `fork`, in
`wait_for_ready_children(1)` while the workers set up the tree of
processes, between `wait_for_ready_children(1)` and `kill`, and after its
`kill`. -/
inductive Phase (D : DoubleOps α) (prog path : String) (t : tree_node) (S : Sys α) : Prop
  | start (hn : S.K.next_pid = 2) (hs : (S.K.proc 1).state = .running)
      (hr : (S.K.proc 1).ready = 0) (hf : S.K.files path = some t)
      (hc : S.code 1 = main D [prog, path]) (htr : S.K.trace = [])
  | loaded (hn : S.K.next_pid = 2) (hs : (S.K.proc 1).state = .running)
      (hr : (S.K.proc 1).ready = 0) (hc : S.code 1 = main_loaded D t)
      (htr : S.K.trace = [(1, .get_tree_from_file path true)])
  | piped (pfd0 pfd1 : Fd) (hn : S.K.next_pid = 2) (hs : (S.K.proc 1).state = .running)
      (hr : (S.K.proc 1).ready = 0) (hc : S.code 1 = main_piped D t pfd0 pfd1)
      (htr : S.K.trace = [(1, .get_tree_from_file path true), (1, .pipe 0 pfd0 pfd1)])
  | forked (pids : List Nat) (rdy : Bool) (pfd0 : Fd) (hsub : Sub D S 2 1 t pids rdy)
      (hs : (S.K.proc 1).state = .running) (hr : (S.K.proc 1).ready = rdy.toNat)
      (hc : S.code 1 = main_rest pfd0 2)
      (hall : ∀ x, 2 ≤ x → x < S.K.next_pid → x ∈ pids)
      (htr : ∀ e ∈ S.K.trace, (e.1 = 1 ∨ e.1 ∈ pids) ∧ e.2.is_cont = false)
      (hm : ∀ a ∈ calls_of 1 S.K.trace,
        a.is_ready = false ∧ a ≠ .wait_for_ready_children 1)
      (hord : ReadyInOrder S.K.trace)
  | waited (pids : List Nat) (pfd0 : Fd) (pre : List (Nat × Act α))
      (hsub : Sub D S 2 1 t pids true)
      (hs : (S.K.proc 1).state = .running)
      (hc : S.code 1 = .kill_SIGCONT 2 (main_end pfd0))
      (hall : ∀ x, 2 ≤ x → x < S.K.next_pid → x ∈ pids)
      (htr : S.K.trace = pre ++ [(1, .wait_for_ready_children 1)])
      (hgood : all_ready_once t pre) (hfirst : (1, .wait_for_ready_children 1) ∉ pre)
      (hord : ReadyInOrder S.K.trace)
  | done (pre post : List (Nat × Act α))
      (htr : S.K.trace =
        pre ++ (1, .wait_for_ready_children 1) :: (1, .kill_SIGCONT 2) :: post)
      (hgood : all_ready_once t pre) (hfirst : (1, .wait_for_ready_children 1) ∉ pre)
      (hq : S.Quiet) (hord : ReadyInOrder S.K.trace)

end ex2_pipes

namespace Prog

/-- Every path through the program ends in a call of `exit`: no path returns
to the caller and none fails an assertion. -/
def only_exits : Prog α → Prop
  | .exit _ => True
  | .ret => False
  | .abort => False
  | .stderr _ k => k.only_exits
  | .get_tree_from_file _ k => ∀ t, (k t).only_exits
  | .pipe k => ∀ r a b, (k r a b).only_exits
  | .fork k => ∀ r, (k r).only_exits
  | .wait_for_ready_children _ k => k.only_exits
  | .raise_SIGSTOP k => k.only_exits
  | .kill_SIGCONT _ k => k.only_exits
  | .wait k => ∀ p s, (k p s).only_exits
  | .close _ k => k.only_exits
  | .read _ k => ∀ n v, (k n v).only_exits
  | .write _ _ k => ∀ n, (k n).only_exits
  | .sleep _ k => k.only_exits

end Prog

/-- Whether the call is the failed `assert(0)` or a return to the caller. -/
def Act.leaves : Act α → Bool
  | .abort => true
  | .ret => true
  | _ => false

namespace ex1

/-- The state `w1` differs from `w` in that the bytes `data` went to the
file open as descriptor `c`, described by `f`, at its offset: the content of
the file before the offset is kept, the bytes `data` follow in order, then
what the file held beyond them, and the offset has advanced by the number of
the bytes.  The other files and descriptors are as they were. -/
def Written (w w1 : World) (c : Nat) (f : OpenFile) (data : List Nat) : Prop :=
  w1.files f.path =
    some (((w.files f.path).getD []).take f.pos ++ data ++
      ((w.files f.path).getD []).drop (f.pos + data.length)) ∧
  (∀ p, p ≠ f.path → w1.files p = w.files p) ∧
  w1.fds c = some { f with pos := f.pos + data.length } ∧
  (∀ i, i ≠ c → w1.fds i = w.fds i) ∧
  w1.stdout = w.stdout ∧ w1.stderr = w.stderr

end ex1

/-! ## The command line of the Mandelbrot programs and the shared memory areas

`strtol` is the function of the C library: it gives the value it has read
and the number of characters it has used. -/

/-- How the start of `main` ends: the process has written `stderr` and
called `exit(status)`, or `main` goes on with the count `n`. -/
inductive Start where
  | exits (stderr : String) (status : Nat)
  | proceeds (n : Int)
deriving DecidableEq, Repr

namespace ex3_condition

/-- The function `safe_atoi(s, val)`: the value stored in `*val` when the
function returns 0, `none` when it returns -1.  The `long` is stored in an
`int`. -/
def safe_atoi (strtol : String → Int × Nat) (s : String) : Option Int :=
  if (strtol s).2 ≠ 0 ∧ (strtol s).2 = s.length then some (wrap32 (strtol s).1) else none

/-- The function `usage(argv0)`: the text written to standard error before
`exit(1)`. -/
def usage (argv0 : String) : String :=
  "Usage: " ++ argv0 ++ " thread_count array_size\n\n" ++
  "Exactly two arguments required:\n" ++
  " thread_count: The number of threads to create.\n" ++
  " array_size: The size of the array to run with.\n"

/-- The start of `main(argc, argv)` (lines 195-208); `argc` is the length of
`argv`, which holds the program name first. -/
def main (strtol : String → Int × Nat) (argv : List String) : Start :=
  if argv.length ≠ 2 then .exits (usage (argv.getD 0 "")) 1
  else
    match safe_atoi strtol (argv.getD 1 "") with
    | none => .exits ("`" ++ argv.getD 1 "" ++ "' is not valid for `thread_count'\n") 1
    | some thrcnt =>
      if thrcnt ≤ 0 then
        .exits ("`" ++ argv.getD 1 "" ++ "' is not valid for `thread_count'\n") 1
      else .proceeds thrcnt

end ex3_condition

namespace ex3_semaphores

/-- The function `safe_atoi(s, val)`: the value stored in `*val` when the
function returns 0, `none` when it returns -1. -/
def safe_atoi (strtol : String → Int × Nat) (s : String) : Option Int :=
  if (strtol s).2 ≠ 0 ∧ (strtol s).2 = s.length then
    some (ex3_condition.wrap32 (strtol s).1)
  else none

/-- The function `usage(argv0)`: the text written to standard error before
`exit(1)`. -/
def usage (argv0 : String) : String :=
  "Usage: " ++ argv0 ++ " thread_count array_size\n\n" ++
  "Exactly two arguments required:\n" ++
  " thread_count: The number of threads to create.\n" ++
  " array_size: The size of the array to run with.\n"

/-- The start of `main(argc, argv)` (lines 170-181). -/
def main (strtol : String → Int × Nat) (argv : List String) : Start :=
  if argv.length ≠ 2 then .exits (usage (argv.getD 0 "")) 1
  else
    match safe_atoi strtol (argv.getD 1 "") with
    | none => .exits ("`" ++ argv.getD 1 "" ++ "' is not valid for `thread_count'\n") 1
    | some thrcnt =>
      if thrcnt ≤ 0 then
        .exits ("`" ++ argv.getD 1 "" ++ "' is not valid for `thread_count'\n") 1
      else .proceeds thrcnt

end ex3_semaphores

/-- A call of the memory-mapping interface. -/
inductive MemCall where
  /-- The call `mmap(NULL, length, PROT_READ | PROT_WRITE, MAP_SHARED |
  MAP_ANONYMOUS, -1, 0)`. -/
  | mmap (length : Nat)
  /-- The call `munmap(addr, length)`. -/
  | munmap (addr : Nat) (length : Nat)
deriving DecidableEq, Repr

/-- How a function of the shared memory areas ends: it returns `v`, or the
process has written `stderr` and called `exit(status)`; `calls` are the
calls made. -/
inductive MemRes (β : Type) where
  | ok (calls : List MemCall) (v : β)
  | exit (calls : List MemCall) (stderr : String) (status : Nat)
deriving DecidableEq, Repr

namespace ex4_with_sema

/-- The function `safe_atoi(s, val)`: the value stored in `*val` when the
function returns 0, `none` when it returns -1.  Only `*endp == 0` is
tested. -/
def safe_atoi (strtol : String → Int × Nat) (s : String) : Option Int :=
  if (strtol s).2 = s.length then some (ex3_condition.wrap32 (strtol s).1) else none

/-- The function `usage(argv0)`: the text written to standard error before
`exit(1)`. -/
def usage (argv0 : String) : String :=
  "Usage: " ++ argv0 ++ " thread_count array_size\n\n"

/-- The start of `main(argc, argv)` (lines 220-235). -/
def main (strtol : String → Int × Nat) (argv : List String) : Start :=
  if argv.length ≠ 2 then .exits (usage (argv.getD 0 "")) 1
  else
    match safe_atoi strtol (argv.getD 1 "") with
    | none => .exits ("`" ++ argv.getD 1 "" ++ "' is not valid for `nprocs'\n") 1
    | some nprocs =>
      if nprocs ≤ 0 then
        .exits ("`" ++ argv.getD 1 "" ++ "' is not valid for `nprocs'\n") 1
      else .proceeds nprocs

/-- The value of `pages` in `create_shared_memory_area` and in
`destroy_shared_memory_area`: `(numbytes - 1) / sysconf(_SC_PAGE_SIZE) + 1`,
with `numbytes - 1` an `unsigned int`, the division and the sum in `long`,
and the result stored in an `int`. -/
def pages (page_size : Int) (numbytes : Nat) : Int :=
  ex3_condition.wrap32 ((((numbytes + 2 ^ 32 - 1) % 2 ^ 32 : Nat) : Int).tdiv page_size + 1)

/-- The function `create_shared_memory_area(numbytes)`; `mmap` gives the
address the call returns for a length, `none` for `MAP_FAILED`.  The length
`pages * sysconf(_SC_PAGE_SIZE)` is a `long` converted to `size_t`. -/
def create_shared_memory_area (page_size : Int) (mmap : Nat → Option Nat) (numbytes : Nat) :
    MemRes Nat :=
  if numbytes = 0 then
    .exit [] "create_shared_memory_area: internal error: called for numbytes == 0\n" 1
  else
    match mmap (ex1.to_size_t (pages page_size numbytes * page_size)) with
    | none => .exit [.mmap (ex1.to_size_t (pages page_size numbytes * page_size))] "mmap" 1
    | some addr => .ok [.mmap (ex1.to_size_t (pages page_size numbytes * page_size))] addr

/-- The function `destroy_shared_memory_area(addr, numbytes)`; `munmap`
gives the value the call returns. -/
def destroy_shared_memory_area (page_size : Int) (munmap : Nat → Nat → Int) (addr : Nat)
    (numbytes : Nat) : MemRes Unit :=
  if numbytes = 0 then
    .exit [] "destroy_shared_memory_area: internal error: called for numbytes == 0\n" 1
  else
    if munmap addr (ex1.to_size_t (pages page_size numbytes * page_size)) = -1 then
      .exit [.munmap addr (ex1.to_size_t (pages page_size numbytes * page_size))]
        "destroy_shared_memory_area: munmap failed" 1
    else .ok [.munmap addr (ex1.to_size_t (pages page_size numbytes * page_size))] ()

end ex4_with_sema

namespace ex4_without_sema

/-- The function `safe_atoi(s, val)`: the value stored in `*val` when the
function returns 0, `none` when it returns -1. -/
def safe_atoi (strtol : String → Int × Nat) (s : String) : Option Int :=
  if (strtol s).2 ≠ 0 ∧ (strtol s).2 = s.length then
    some (ex3_condition.wrap32 (strtol s).1)
  else none

/-- The function `usage(argv0)`: the text written to standard error before
`exit(1)`. -/
def usage (argv0 : String) : String :=
  "Usage: " ++ argv0 ++ " thread_count array_size\n\n" ++
  "Exactly two arguments required:\n" ++
  "  thread_count: The number of threads to create.\n" ++
  "  array_size: The size of the array to run with.\n"

/-- The start of `main(argc, argv)` (lines 206-219). -/
def main (strtol : String → Int × Nat) (argv : List String) : Start :=
  if argv.length ≠ 2 then .exits (usage (argv.getD 0 "")) 1
  else
    match safe_atoi strtol (argv.getD 1 "") with
    | none => .exits ("`" ++ argv.getD 1 "" ++ "' is not valid for `nprocs'\n") 1
    | some nprocs =>
      if nprocs ≤ 0 then
        .exits ("`" ++ argv.getD 1 "" ++ "' is not valid for `nprocs'\n") 1
      else .proceeds nprocs

/-- The value of `pages` in `create_shared_memory_area` and in
`destroy_shared_memory_area`. -/
def pages (page_size : Int) (numbytes : Nat) : Int :=
  ex3_condition.wrap32 ((((numbytes + 2 ^ 32 - 1) % 2 ^ 32 : Nat) : Int).tdiv page_size + 1)

/-- The function `create_shared_memory_area(numbytes)`. -/
def create_shared_memory_area (page_size : Int) (mmap : Nat → Option Nat) (numbytes : Nat) :
    MemRes Nat :=
  if numbytes = 0 then
    .exit [] "create_shared_memory_area: internal error: called for numbytes == 0\n" 1
  else
    match mmap (ex1.to_size_t (pages page_size numbytes * page_size)) with
    | none => .exit [.mmap (ex1.to_size_t (pages page_size numbytes * page_size))] "mmap" 1
    | some addr => .ok [.mmap (ex1.to_size_t (pages page_size numbytes * page_size))] addr

/-- The function `destroy_shared_memory_area(addr, numbytes)`. -/
def destroy_shared_memory_area (page_size : Int) (munmap : Nat → Nat → Int) (addr : Nat)
    (numbytes : Nat) : MemRes Unit :=
  if numbytes = 0 then
    .exit [] "destroy_shared_memory_area: internal error: called for numbytes == 0\n" 1
  else
    if munmap addr (ex1.to_size_t (pages page_size numbytes * page_size)) = -1 then
      .exit [.munmap addr (ex1.to_size_t (pages page_size numbytes * page_size))]
        "destroy_shared_memory_area: munmap failed" 1
    else .ok [.munmap addr (ex1.to_size_t (pages page_size numbytes * page_size))] ()

end ex4_without_sema

/-- A `strtol` that reads `4` from the string `"4"` and nothing from any
other string. -/
def strtol_four (s : String) : Int × Nat := if s = "4" then (4, 1) else (0, 0)

/-! ## The shared buffer of `mandel-shared-memory-without-sema.c`

The parent and its children are the processes of a transition system; a
schedule names the process that takes the next step (0 is the parent, `k +
1` the child created by the `k`-th `fork`).  The buffer and the table `pr`
are mapped `MAP_SHARED`, so all processes store into the same buffer.
`mandel i j` stands for the value `color_val[j]` that `compute_mandel_line(i,
color_val)` computes. -/

namespace ex4_without_sema

/-- The global `y_chars`. -/
def y_chars : Int := 50

/-- The global `x_chars`. -/
def x_chars : Int := 90

/-- The places of a child in `compute_and_store_mandel_line` (lines 138-157). -/
inductive Child where
  /-- The child has not been created. -/
  | absent
  /-- At the test `i < y_chars` of the outer `for` loop. -/
  | loop (i : Int)
  /-- At the test `j < x_chars` of the inner loop, after
  `compute_mandel_line(i, color_val)`. -/
  | store (i j : Int)
  /-- After `return 0` in `main`: the child has terminated. -/
  | done
deriving DecidableEq, Repr

/-- The places of the parent in `main` (lines 235-255). -/
inductive Parent where
  /-- At the test `i < nprocs` of the loop of `fork`. -/
  | forking (i : Nat)
  /-- At the test `i < nprocs` of the loop of `wait`. -/
  | waiting (i : Nat)
  /-- Before `output_mandel_line(1, buf)`. -/
  | output
  /-- After `output_mandel_line(1, buf)`. -/
  | finished
  /-- After `exit(status)`. -/
  | exited (status : Nat)
deriving DecidableEq, Repr

/-- The parent, the children, the shared buffer, the stores into the buffer
in the order they were made (`(mypid, index, value)`), and the values the
parent has passed to `set_xterm_color` in `output_mandel_line`. -/
structure State where
  parent : Parent
  child : Nat → Child
  buf : Int → Int
  log : List (Nat × Int × Int)
  printed : Option (List Int)

/-- The state at line 235: the areas are mapped (an anonymous mapping is
filled with zeros) and `pr[i].mypid = i`, `pr[i].pcnt = nprocs` are set for
every `i`. -/
def init : State := ⟨.forking 0, fun _ => .absent, fun _ => 0, [], none⟩

/-- The lines 225-233 of `main` for `nprocs = n > 0`: the two areas are
created; `sizeof(*pr)` is 12 and `sizeof(int)` is 4, and the product is
passed as `unsigned int`. -/
def main_areas (page_size : Int) (mmap : Nat → Option Nat) (n : Nat) : MemRes State :=
  match create_shared_memory_area page_size mmap ((n * 12) % 2 ^ 32) with
  | .exit calls err status => .exit calls err status
  | .ok calls _ =>
    match create_shared_memory_area page_size mmap ((50 * 90 * 4) % 2 ^ 32) with
    | .exit calls2 err status => .exit (calls ++ calls2) err status
    | .ok calls2 _ => .ok (calls ++ calls2) init

/-- The number of terminated children among the first `k`. -/
def terminated (child : Nat → Child) : Nat → Nat
  | 0 => 0
  | k + 1 => terminated child k + if child k = .done then 1 else 0

/-- The values `output_mandel_line(1, buffer)` passes to `set_xterm_color`
(lines 118-126). -/
def image (buffer : Int → Int) : List Int :=
  (List.range 50).flatMap fun (i : Nat) =>
    (List.range 90).map fun (j : Nat) => buffer ((i : Int) * x_chars + (j : Int))

/-- The picture: the values of all cells, row after row. -/
def picture (mandel : Int → Int → Int) : List Int :=
  (List.range 50).flatMap fun (i : Nat) =>
    (List.range 90).map fun (j : Nat) => mandel (i : Int) (j : Int)

/-- One step of process `p` (0: the parent, `k + 1`: the child with `mypid =
k`, which reads `pr->mypid = k` and `pr->pcnt = n`).  `fork_ok i` tells
whether the `i`-th `fork` succeeds.  A call of `wait` returns when a
terminated child has not been waited for; it blocks otherwise (the step
changes nothing). -/
def step (mandel : Int → Int → Int) (fork_ok : Nat → Bool) (n : Nat) (s : State) (p : Nat) :
    State :=
  match p with
  | 0 =>
    match s.parent with
    | .forking i =>
      if i < n then
        if fork_ok i then
          { s with parent := .forking (i + 1), child := Function.update s.child i (.loop i) }
        else { s with parent := .exited 1 }
      else { s with parent := .waiting 0 }
    | .waiting i =>
      if i < n then
        if i < terminated s.child n then { s with parent := .waiting (i + 1) } else s
      else { s with parent := .output }
    | .output => { s with parent := .finished, printed := some (image s.buf) }
    | .finished => s
    | .exited _ => s
  | k + 1 =>
    match s.child k with
    | .absent => s
    | .done => s
    | .loop i =>
      if i < y_chars then { s with child := Function.update s.child k (.store i 0) }
      else { s with child := Function.update s.child k .done }
    | .store i j =>
      if j < x_chars then
        { s with
          child := Function.update s.child k (.store i (j + 1))
          buf := Function.update s.buf (ex3_condition.wrap32 (i * x_chars + j)) (mandel i j)
          log := s.log ++ [(k, ex3_condition.wrap32 (i * x_chars + j), mandel i j)] }
      else { s with child := Function.update s.child k (.loop (ex3_condition.wrap32 (i + n))) }

/-- The state after the steps of a schedule. -/
def run (mandel : Int → Int → Int) (fork_ok : Nat → Bool) (n : Nat) (s : State)
    (sched : List Nat) : State :=
  sched.foldl (step mandel fork_ok n) s

/-- The cells `(r, c)` of its rows that a child has stored. -/
def covered : Child → Int → Int → Prop
  | .absent, _, _ => False
  | .loop i, r, _ => r < i
  | .store i j, r, c => r < i ∨ (r = i ∧ c < j)
  | .done, _, _ => True

/-- The loop variables of the child with `mypid = k`: `i` is `k` plus a
multiple of `n`. -/
def shaped (n k : Nat) : Child → Prop
  | .absent => True
  | .loop i => ∃ m : Nat, i = (k : Int) + (m : Int) * (n : Int) ∧ i < 50 + (n : Int)
  | .store i j => ∃ m : Nat, i = (k : Int) + (m : Int) * (n : Int) ∧ i < 50 ∧ 0 ≤ j ∧ j ≤ 90
  | .done => True

/-- What the place of the parent says about the children. -/
def parent_ok (mandel : Int → Int → Int) (fork_ok : Nat → Bool) (n : Nat) (s : State) : Prop :=
  match s.parent with
  | .forking i => i ≤ n ∧ (∀ k, i ≤ k → s.child k = .absent) ∧ (∀ k, k < i → s.child k ≠ .absent)
  | .waiting i => i ≤ terminated s.child n ∧ (∀ k, k < n → s.child k ≠ .absent)
  | .output => ∀ k, k < n → s.child k = .done
  | .finished => (∀ k, k < n → s.child k = .done) ∧
      s.printed = some (picture mandel)
  | .exited _ => ∃ k, fork_ok k = false

/-- The invariant of the program. -/
structure Inv (mandel : Int → Int → Int) (fork_ok : Nat → Bool) (n : Nat) (s : State) :
    Prop where
  shape : ∀ k, shaped n k (s.child k)
  beyond : ∀ k, n ≤ k → s.child k = .absent
  par : parent_ok mandel fork_ok n s
  unprinted : s.parent ≠ .finished → s.printed = none
  logged : ∀ e ∈ s.log, ∃ r c : Nat, r < 50 ∧ c < 90 ∧
    e = (r % n, (r : Int) * 90 + (c : Int), mandel r c) ∧ covered (s.child (r % n)) r c
  stored : ∀ r c : Nat, r < 50 → c < 90 → covered (s.child (r % n)) r c →
    (r % n, (r : Int) * 90 + (c : Int), mandel r c) ∈ s.log ∧
    s.buf ((r : Int) * 90 + (c : Int)) = mandel r c
  once : (s.log.map fun e => e.2.1).Nodup

/-- The steps a child still has to take, at most. -/
def Child.todo (n : Nat) : Child → Nat
  | .absent => 93 * (50 + n) + 93
  | .loop i => 93 * (50 + (n : Int) - i).toNat + 92
  | .store i j => 93 * (50 + (n : Int) - i).toNat + (90 - j).toNat + 1
  | .done => 0

/-- The steps the parent still has to take. -/
def Parent.todo (n : Nat) : Parent → Nat
  | .forking _ => n + 3
  | .waiting i => n - i + 2
  | .output => 1
  | .finished => 0
  | .exited _ => 0

/-- The sum of the steps the first `k` children have to take. -/
def todo_sum (n : Nat) (child : Nat → Child) : Nat → Nat
  | 0 => 0
  | k + 1 => todo_sum n child k + (child k).todo n

/-- The steps that are left, at most. -/
def State.todo (n : Nat) (s : State) : Nat := s.parent.todo n + todo_sum n s.child n

end ex4_without_sema

/-! ## The ring of semaphores

The sum of a function over the first `m` numbers counts the tokens of the
semaphores and the workers between `sem_wait` and `sem_post`. -/

/-- The sum `f 0 + ... + f (m - 1)`. -/
def total (f : Nat → Nat) : Nat → Nat
  | 0 => 0
  | m + 1 => total f m + f m

namespace ex3_semaphores

/-- Whether a thread at this place is between its `sem_wait` and its
`sem_post`. -/
def Pc.in_section : Pc → Nat
  | .output => 1
  | .post => 1
  | _ => 0

/-- The places of `main` (lines 198-228). -/
inductive Main where
  /-- At the test `i < thrcnt` of the loop that creates the threads, before
  `sem_init(&sem[i], ...)`. -/
  | init (i : Nat)
  /-- Before `pthread_create(&thr[i].tid, ...)`, after `sem_init(&sem[i], ...)`. -/
  | create (i : Nat)
  /-- At the test `i < thrcnt` of the loop of `pthread_join`. -/
  | join (i : Nat)
  /-- After the loop of `pthread_join`. -/
  | finished
deriving DecidableEq, Repr

/-- The program: the place of `main`, and the semaphores, threads and output. -/
structure Program where
  main : Main
  threads : State

/-- The number of threads `main` has created. -/
def Main.created (thrcnt : Nat) : Main → Nat
  | .init i => i
  | .create i => i
  | .join _ => thrcnt
  | .finished => thrcnt

/-- The number of semaphores `main` has initialised. -/
def Main.inited (thrcnt : Nat) : Main → Nat
  | .init i => i
  | .create i => i + 1
  | .join _ => thrcnt
  | .finished => thrcnt

/-- The state when `main` enters the loop that creates the threads: `sem0`
is the content of the memory `safe_malloc` returned for the semaphores. -/
def start (sem0 : Nat → Nat) : Program :=
  { main := .init 0, threads := { sem := sem0, pc := fun _ => .compute, out := [] } }

/-- One step of `main` (`p = 0`) or of the thread with `thrid = p - 1`, which
runs once `pthread_create` has created it.  In the loop of `main` the call
`sem_init(&sem[i], 0, i == 0 ? 1 : 0)` comes right before
`pthread_create` of thread `i` (lines 198-218); `pthread_join` returns when
the thread has returned. -/
def step (garbage : Nat → Int) (thrcnt : Nat) (s : Program) (p : Nat) : Program :=
  match p with
  | 0 =>
    match s.main with
    | .init i =>
      if i < thrcnt then
        { main := .create i
          threads := { s.threads with
            sem := Function.update s.threads.sem i (if i = 0 then 1 else 0) } }
      else { s with main := .join 0 }
    | .create i => { s with main := .init (i + 1) }
    | .join i =>
      if i < thrcnt then
        if s.threads.pc i = .done then { s with main := .join (i + 1) } else s
      else { s with main := .finished }
    | .finished => s
  | k + 1 =>
    if k < s.main.created thrcnt then
      { s with threads := compute_and_output_mandel_line garbage thrcnt s.threads k }
    else s

/-- The state after the steps of a schedule. -/
def steps (garbage : Nat → Int) (thrcnt : Nat) (s : Program) (sched : List Nat) : Program :=
  sched.foldl (step garbage thrcnt) s

/-- The invariant of the program: the initialised semaphores and the threads
between `sem_wait` and `sem_post` hold at most one token. -/
structure Ring (thrcnt : Nat) (s : Program) : Prop where
  le : s.main.inited thrcnt ≤ thrcnt
  fresh : ∀ k, s.main.created thrcnt ≤ k → s.threads.pc k = .compute
  token : total s.threads.sem (s.main.inited thrcnt) +
    total (fun k => (s.threads.pc k).in_section) thrcnt ≤ 1

/-- The state in which the token is lost: both semaphores are 0, thread 0
has returned and thread 1 is at its `sem_wait`. -/
def Stuck (s : Program) : Prop :=
  s.threads.sem 0 = 0 ∧ s.threads.sem 1 = 0 ∧ s.threads.pc 0 = .done ∧
  s.threads.pc 1 = .wait ∧ (s.main = .init 2 ∨ s.main = .join 0 ∨ s.main = .join 1)

/-- The schedule that loses the token with two threads: `main` initialises
`sem[0]` and creates thread 0, thread 0 runs up to its
`sem_post(&sem[1])`, then `main` initialises `sem[1]` to 0 and creates
thread 1, which comes to its `sem_wait(&sem[1])`. -/
def lost_token : List Nat := [0, 0, 1, 1, 1, 1, 0, 0, 2, 2]

end ex3_semaphores

namespace ex4_with_sema

/-- The global `y_chars`. -/
def y_chars : Int := 50

/-- The places of a child in `compute_and_output_mandel_line` (lines 136-162). -/
inductive Worker where
  /-- The child has not been created. -/
  | absent
  /-- At the test `i < y_chars` of the `for` loop. -/
  | loop (i : Int)
  /-- Before `sem_wait(&sem[pr->mypid])`, after `compute_mandel_line(i, color_val)`. -/
  | wait (i : Int)
  /-- Before `output_mandel_line(1, color_val)`. -/
  | output (i : Int)
  /-- Before `sem_post(&sem[(pr->mypid + 1) % pr->pcnt])`. -/
  | post (i : Int)
  /-- After `return 0` in `main`: the child has terminated. -/
  | done
  /-- After `exit(1)` in `output_mandel_line` (lines 123-126 and 130-133), which
  the child calls between its `sem_wait` and its `sem_post` when a `write`
  does not transfer its byte: the child has terminated. -/
  | failed
deriving DecidableEq, Repr

/-- Whether a child at this place is between its `sem_wait` and its
`sem_post`. -/
def Worker.in_section : Worker → Nat
  | .output _ => 1
  | .post _ => 1
  | _ => 0

/-- Whether a child has terminated in `exit(1)` of `output_mandel_line`. -/
def Worker.lost : Worker → Nat
  | .failed => 1
  | _ => 0

/-- The places of the parent in `main` (lines 265-283). -/
inductive Parent where
  /-- At the test `i < nprocs` of the loop of `fork`. -/
  | forking (i : Nat)
  /-- At the test `i < nprocs` of the loop of `wait`. -/
  | waiting (i : Nat)
  /-- After the loop of `wait`, before the semaphores are destroyed. -/
  | finished
  /-- After `exit(status)`. -/
  | exited (status : Nat)
deriving DecidableEq, Repr

/-- The parent, the children, the semaphores in the shared area and the
lines written to the terminal (`(mypid, line)`). -/
structure State where
  parent : Parent
  worker : Nat → Worker
  sem : Nat → Nat
  out : List (Nat × Int)

/-- The state at line 265, after the loop of lines 250-263: `sem[0]` is
initialised to 1 and every other semaphore to 0, and no child exists. -/
def init : State :=
  { parent := .forking 0, worker := fun _ => .absent,
    sem := fun k => if k = 0 then 1 else 0, out := [] }

/-- The number of terminated children among the first `k`: those that
returned from `main` and those that called `exit(1)`. -/
def terminated (worker : Nat → Worker) : Nat → Nat
  | 0 => 0
  | k + 1 => terminated worker k + if worker k = .done ∨ worker k = .failed then 1 else 0

/-- One step of process `p` (0: the parent, `k + 1`: the child with `mypid =
k` and `pcnt = n`).  `fork_ok i` tells whether the `i`-th `fork` succeeds,
and `write_ok k i` whether every `write` of `output_mandel_line` transfers
its byte when child `k` writes line `i`; when one does not, the child calls
`perror` and `exit(1)` there, without reaching `sem_post`.  A call of
`sem_wait` on a semaphore that is 0 and a call of `wait` without a
terminated child block: the step changes nothing. -/
def step (fork_ok : Nat → Bool) (write_ok : Nat → Int → Bool) (n : Nat) (s : State)
    (p : Nat) : State :=
  match p with
  | 0 =>
    match s.parent with
    | .forking i =>
      if i < n then
        if fork_ok i then
          { s with parent := .forking (i + 1), worker := Function.update s.worker i (.loop i) }
        else { s with parent := .exited 1 }
      else { s with parent := .waiting 0 }
    | .waiting i =>
      if i < n then
        if i < terminated s.worker n then { s with parent := .waiting (i + 1) } else s
      else { s with parent := .finished }
    | .finished => s
    | .exited _ => s
  | k + 1 =>
    match s.worker k with
    | .absent => s
    | .done => s
    | .failed => s
    | .loop i =>
      if i < y_chars then { s with worker := Function.update s.worker k (.wait i) }
      else { s with worker := Function.update s.worker k .done }
    | .wait i =>
      if 0 < s.sem k then
        { s with
          sem := Function.update s.sem k (s.sem k - 1)
          worker := Function.update s.worker k (.output i) }
      else s
    | .output i =>
      if write_ok k i then
        { s with out := s.out ++ [(k, i)], worker := Function.update s.worker k (.post i) }
      else { s with worker := Function.update s.worker k .failed }
    | .post i =>
      { s with
        sem := Function.update s.sem ((k + 1) % n) (s.sem ((k + 1) % n) + 1)
        worker := Function.update s.worker k (.loop (ex3_condition.wrap32 (i + n))) }

/-- The state after the steps of a schedule. -/
def run (fork_ok : Nat → Bool) (write_ok : Nat → Int → Bool) (n : Nat) (s : State)
    (sched : List Nat) : State :=
  sched.foldl (step fork_ok write_ok n) s

/-- The invariant of the program: the semaphores, the children between
`sem_wait` and `sem_post` and the children that left in `exit(1)` from
between them hold exactly one token, and a child left in `exit(1)` only
where a `write` failed. -/
structure Ring (write_ok : Nat → Int → Bool) (n : Nat) (s : State) : Prop where
  beyond : ∀ k, n ≤ k → s.worker k = .absent
  unborn : ∀ i, s.parent = .forking i → ∀ k, i ≤ k → s.worker k = .absent
  token : total s.sem n + total (fun k => (s.worker k).in_section) n +
    total (fun k => (s.worker k).lost) n = 1
  cause : ∀ k, s.worker k = .failed → ∃ i, write_ok k i = false

/-- The state in which the token is lost, with two children: both
semaphores are 0, child 0 has terminated in `exit(1)` and child 1 is at its
`sem_wait`. -/
def Gone (s : State) : Prop :=
  s.sem 0 = 0 ∧ s.sem 1 = 0 ∧ s.worker 0 = .failed ∧ s.worker 1 = .wait 1 ∧
  (∀ k, 2 ≤ k → s.worker k = .absent) ∧
  (s.parent = .forking 2 ∨ s.parent = .waiting 0 ∨ s.parent = .waiting 1)

/-- The schedule on which a child leaves with the token, with two children:
the parent forks both, child 0 comes to `output_mandel_line` for line 0
after its `sem_wait(&sem[0])`, where a `write` fails, and child 1 comes to
its `sem_wait(&sem[1])`. -/
def failed_write : List Nat := [0, 0, 1, 1, 1, 2, 2]

end ex4_with_sema

/-! ## The whole run of `ex2-pipes` under every schedule

The workers of a subtree are followed from the `fork` that creates the
worker of its root to the `wait` by which its parent collects it.  Every
place of `child` is a point; a point gives the state of the worker, the
program it has left and the calls it has made. -/

namespace ex2_pipes

/-- How far the worker of the root of a subtree is: not yet forked; setting
up its subtree (`rdy`: it has stopped itself with `raise(SIGSTOP)`); woken by
`SIGCONT` and collecting (`sent`: it has written its value to its parent);
terminated and not yet waited for; waited for. -/
inductive Stage where
  | unborn
  | building (rdy : Bool)
  | active (sent : Bool)
  | zombie
  | gone
deriving DecidableEq, Repr

namespace Stage

/-- Whether the worker is stopped and counts as a ready child of its parent. -/
def raised : Stage → Nat
  | .building true => 1
  | _ => 0

/-- Whether the worker has written its value to the pipe of its parent. -/
def sent : Stage → Bool
  | .active s => s
  | .zombie => true
  | .gone => true
  | _ => false

/-- The entry of the worker `c` in the list of terminated children of its
parent. -/
def dead (c : Nat) : Stage → List (Nat × Int)
  | .zombie => [(c, W_EXITED 16)]
  | _ => []

/-- Whether the worker is a child its parent has not waited for. -/
def kid : Stage → Nat
  | .unborn => 0
  | .gone => 0
  | _ => 1

/-- The changes of stage a turn of a worker of the subtree can bring. -/
def next : Stage → Stage → Prop
  | .unborn, .unborn => True
  | .building false, .building _ => True
  | .building true, .building true => True
  | .active false, .active _ => True
  | .active true, .active true => True
  | .active true, .zombie => True
  | .zombie, .zombie => True
  | .gone, .gone => True
  | _, _ => False

end Stage

/-- The points of a Leaf worker in `child`: after `fork`; stopped by
`raise(SIGSTOP)`; woken by `SIGCONT`; after `write`; after `close`; after
`exit`; waited for by its parent. -/
inductive LeafAt where
  | new | ready | woken | written | closed | zombie | gone
deriving DecidableEq, Repr

namespace LeafAt

/-- The stage of the subtree of a Leaf worker at a point. -/
def stage : LeafAt → Stage
  | .new => .building false
  | .ready => .building true
  | .woken => .active false
  | .written => .active true
  | .closed => .active true
  | .zombie => .zombie
  | .gone => .gone

/-- Whether the worker is running at the point. -/
def runs : LeafAt → Bool
  | .new => true
  | .woken => true
  | .written => true
  | .closed => true
  | _ => false

/-- Whether the worker has not yet used the descriptor it was given. -/
def holds : LeafAt → Bool
  | .new => true
  | .ready => true
  | .woken => true
  | _ => false

/-- The number of calls the worker has made at the point. -/
def count : LeafAt → Nat
  | .new => 1
  | .ready => 2
  | .woken => 2
  | .written => 3
  | .closed => 4
  | .zombie => 5
  | .gone => 5

end LeafAt

/-- The calls of a Leaf worker up to a point. -/
def leaf_calls (D : DoubleOps α) (up : Fd) (name : String) (pt : LeafAt) : List (Act α) :=
  [Act.fork 0, .raise_SIGSTOP, .write up (D.atof name) sizeof_double, .close up,
    .exit 16].take pt.count

/-- The program a Leaf worker has left at a point where it runs. -/
def leaf_code (D : DoubleOps α) (up : Fd) (name : String) : LeafAt → Prog α
  | .new => child D up (.mk name [])
  | .woken => send D up name
  | .written => .close up (.exit 16)
  | .closed => .exit 16
  | _ => .ret

/-- The state of a Leaf worker at a point. -/
def leaf_state (D : DoubleOps α) (up : Fd) (name : String) : LeafAt → PState α
  | .ready => .stopped (send D up name)
  | .zombie => .zombie (W_EXITED 16)
  | .gone => .reaped
  | _ => .running

/-- The points of an Internal worker in `child` after its `pipe`: after
`pipe`; after the first and the second `fork`; after
`wait_for_ready_children(2)`; stopped by `raise(SIGSTOP)`; woken by
`SIGCONT`; for each of the two children after `kill(SIGCONT)`, `wait`,
`close` and `read`; after `write`; after `exit`; waited for by its
parent. -/
inductive OpAt where
  | piped | one | two | waited | ready | woken
  | kill0 | wait0 | close0 | read0 | kill1 | wait1 | close1 | read1
  | written | zombie | gone
deriving DecidableEq, Repr

namespace OpAt

/-- The stage of the subtree of an Internal worker at a point. -/
def stage : OpAt → Stage
  | .piped => .building false
  | .one => .building false
  | .two => .building false
  | .waited => .building false
  | .ready => .building true
  | .written => .active true
  | .zombie => .zombie
  | .gone => .gone
  | _ => .active false

/-- Whether the worker is running at the point. -/
def runs : OpAt → Bool
  | .ready => false
  | .zombie => false
  | .gone => false
  | _ => true

/-- Whether the worker has not terminated at the point. -/
def alive : OpAt → Bool
  | .zombie => false
  | .gone => false
  | _ => true

/-- Whether the worker has a `fork` ahead. -/
def forks : OpAt → Bool
  | .piped => true
  | .one => true
  | _ => false

/-- The number of calls the worker has made at the point. -/
def count : OpAt → Nat
  | .piped => 2
  | .one => 3
  | .two => 4
  | .waited => 5
  | .ready => 6
  | .woken => 6
  | .kill0 => 7
  | .wait0 => 8
  | .close0 => 9
  | .read0 => 10
  | .kill1 => 11
  | .wait1 => 12
  | .close1 => 13
  | .read1 => 14
  | .written => 15
  | .zombie => 16
  | .gone => 16

/-- The stages of the subtrees of the two children that go with a point. -/
def ok : OpAt → Stage → Stage → Prop
  | .piped, sa, sb => sa = .unborn ∧ sb = .unborn
  | .one, sa, sb => (∃ r, sa = .building r) ∧ sb = .unborn
  | .two, sa, sb => (∃ r, sa = .building r) ∧ ∃ r, sb = .building r
  | .waited, sa, sb => sa = .building true ∧ sb = .building true
  | .ready, sa, sb => sa = .building true ∧ sb = .building true
  | .woken, sa, sb => sa = .building true ∧ sb = .building true
  | .kill0, sa, sb => ((∃ s, sa = .active s) ∨ sa = .zombie) ∧ sb = .building true
  | .wait0, sa, sb => sa = .gone ∧ sb = .building true
  | .close0, sa, sb => sa = .gone ∧ sb = .building true
  | .read0, sa, sb => sa = .gone ∧ sb = .building true
  | .kill1, sa, sb => sa = .gone ∧ ((∃ s, sb = .active s) ∨ sb = .zombie)
  | _, sa, sb => sa = .gone ∧ sb = .gone

/-- The number of stopped children the worker has not counted. -/
def ready_count : OpAt → Stage → Stage → Nat
  | .one, sa, sb => sa.raised + sb.raised
  | .two, sa, sb => sa.raised + sb.raised
  | _, _, _ => 0

end OpAt

/-- The array `pid_child` of an Internal worker after its two `fork`s. -/
def pid_child (ca cb : Nat) : Nat → Int :=
  assign (assign (fun _ => (0 : Int)) 0 (ca : Int)) 1 (cb : Int)

/-- Lines 80-87 of `child`: the `read` of turn `j` of the collection loop
and what follows it; `p` is what `wait` returned. -/
def col_read (D : DoubleOps α) (fd : Fd) (name : String) (pfd0 pfd1 : Fd) (n j : Nat)
    (s : (Nat → Int) × (Nat → α)) (p : Int) : Prog α :=
  .read pfd0 fun r res =>
    if r ≠ sizeof_double then .stderr "parent: read from pipe" (.exit 1)
    else collect_from D fd name pfd0 pfd1 n (j + 1) (assign s.1 j p, assign s.2 j (res.getD D.zero))

/-- Line 79 of `child`: the `close` of turn `j` of the collection loop and
what follows it. -/
def col_close (D : DoubleOps α) (fd : Fd) (name : String) (pfd0 pfd1 : Fd) (n j : Nat)
    (s : (Nat → Int) × (Nat → α)) (p : Int) : Prog α :=
  .close pfd1 (col_read D fd name pfd0 pfd1 n j s p)

/-- Line 72 of `child`: the `wait` of turn `j` of the collection loop and
what follows it. -/
def col_wait (D : DoubleOps α) (fd : Fd) (name : String) (pfd0 pfd1 : Fd) (n j : Nat)
    (s : (Nat → Int) × (Nat → α)) : Prog α :=
  .wait fun p _status_child => col_close D fd name pfd0 pfd1 n j s p

/-- The variables of the collection loop of an Internal worker after `turns`
turns: the array `pid_child` and the array `result`. -/
def col_vars (D : DoubleOps α) (a b : tree_node) (ca cb : Nat) :
    (turns : Nat) → (Nat → Int) × (Nat → α)
  | 0 => (pid_child ca cb, fun _ => D.zero)
  | n + 1 =>
    (assign (col_vars D a b ca cb n).1 n (if n = 0 then (ca : Int) else (cb : Int)),
      assign (col_vars D a b ca cb n).2 n (if n = 0 then eval D a else eval D b))

/-- The calls of an Internal worker up to a point: `q` is the pipe it has
created, `ca` and `cb` are its children. -/
def op_calls (D : DoubleOps α) (up : Fd) (name : String) (a b : tree_node) (q ca cb : Nat)
    (pt : OpAt) : List (Act α) :=
  [Act.fork 0, .pipe 0 ⟨q, false⟩ ⟨q, true⟩, .fork (ca : Int), .fork (cb : Int),
    .wait_for_ready_children 2, .raise_SIGSTOP,
    .kill_SIGCONT (ca : Int), .wait (ca : Int) (W_EXITED 16), .close ⟨q, true⟩,
    .read ⟨q, false⟩ sizeof_double (some (eval D a)),
    .kill_SIGCONT (cb : Int), .wait (cb : Int) (W_EXITED 16), .close ⟨q, true⟩,
    .read ⟨q, false⟩ sizeof_double (some (eval D b)),
    .write up (eval D (.mk name [a, b])) sizeof_double, .exit 16].take pt.count

/-- The program an Internal worker has left at a point where it runs, and
at `ready` the program it goes on with when it is woken. -/
def op_code (D : DoubleOps α) (up : Fd) (name : String) (a b : tree_node) (q ca cb : Nat) :
    OpAt → Prog α
  | .piped => first_fork D up name a b ⟨q, false⟩ ⟨q, true⟩
  | .one => second_fork D up name b ⟨q, false⟩ ⟨q, true⟩ (ca : Int)
  | .two => after_forks D up name ⟨q, false⟩ ⟨q, true⟩ (ca : Int) (cb : Int)
  | .waited => .raise_SIGSTOP (collect D up name 2 ⟨q, false⟩ ⟨q, true⟩ (pid_child ca cb))
  | .ready => collect D up name 2 ⟨q, false⟩ ⟨q, true⟩ (pid_child ca cb)
  | .woken => collect D up name 2 ⟨q, false⟩ ⟨q, true⟩ (pid_child ca cb)
  | .kill0 => col_wait D up name ⟨q, false⟩ ⟨q, true⟩ 1 0 (col_vars D a b ca cb 0)
  | .wait0 => col_close D up name ⟨q, false⟩ ⟨q, true⟩ 1 0 (col_vars D a b ca cb 0) (ca : Int)
  | .close0 => col_read D up name ⟨q, false⟩ ⟨q, true⟩ 1 0 (col_vars D a b ca cb 0) (ca : Int)
  | .read0 => collect_from D up name ⟨q, false⟩ ⟨q, true⟩ 1 1 (col_vars D a b ca cb 1)
  | .kill1 => col_wait D up name ⟨q, false⟩ ⟨q, true⟩ 0 1 (col_vars D a b ca cb 1)
  | .wait1 => col_close D up name ⟨q, false⟩ ⟨q, true⟩ 0 1 (col_vars D a b ca cb 1) (cb : Int)
  | .close1 => col_read D up name ⟨q, false⟩ ⟨q, true⟩ 0 1 (col_vars D a b ca cb 1) (cb : Int)
  | .read1 => collect_from D up name ⟨q, false⟩ ⟨q, true⟩ 0 2 (col_vars D a b ca cb 2)
  | .written => .exit 16
  | _ => .ret

/-- The state of an Internal worker at a point. -/
def op_state (D : DoubleOps α) (up : Fd) (name : String) (a b : tree_node) (q ca cb : Nat) :
    OpAt → PState α
  | .ready => .stopped (op_code D up name a b q ca cb .ready)
  | .zombie => .zombie (W_EXITED 16)
  | .gone => .reaped
  | _ => .running

/-- The content of the pipe of an Internal worker at a point: the value of a
child that has written it and that the worker has not yet read. -/
def op_buf (D : DoubleOps α) (a b : tree_node) : OpAt → Stage → Stage → List α
  | .kill0, sa, _ => if sa.sent then [eval D a] else []
  | .wait0, _, _ => [eval D a]
  | .close0, _, _ => [eval D a]
  | .kill1, _, sb => if sb.sent then [eval D b] else []
  | .wait1, _, _ => [eval D b]
  | .close1, _, _ => [eval D b]
  | _, _, _ => []

/-- The workers of the subtree `t` in a state of the system: process `p`, a
child of `par` that was given the descriptor `up` to write its value to, is
the worker of the root of `t`; `pids` are the workers created so far for the
nodes of `t`, `qs` the pipes they have created, and the last argument tells
how far `p` is.  Every worker is at a point of `child`, and what the system
holds for it (its state, the program it has left, its descriptors, its
children not yet counted or waited for, the content of its pipe and the
calls it has made) is what goes with the point. -/
inductive Node (D : DoubleOps α) (S : Sys α) :
    Nat → Nat → Fd → tree_node → List Nat → List Nat → Stage → Prop
  /-- The worker does not exist yet. -/
  | unborn (c par : Nat) (up : Fd) (t : tree_node) (hwf : WellFormed t) :
      Node D S c par up t [] [] .unborn
  /-- A Leaf worker. -/
  | leaf (p par : Nat) (up : Fd) (name : String) (pt : LeafAt) (st : Stage)
      (h : ¬ (name = "+" ∨ name = "*")) (hp : par < p) (hn : p < S.K.next_pid)
      (hpar : (S.K.proc p).parent = par) (hup : up.wr = true)
      (hs : (S.K.proc p).state = leaf_state D up name pt)
      (hc : pt.runs = true → S.code p = leaf_code D up name pt)
      (hfd : pt.holds = true → up ∈ (S.K.proc p).fds)
      (hcl : calls_of p S.K.trace = leaf_calls D up name pt)
      (hst : st = pt.stage) :
      Node D S p par up (.mk name []) [p] [] st
  /-- An Internal worker before `pipe`. -/
  | op_new (p par : Nat) (up : Fd) (name : String) (a b : tree_node)
      (h : name = "+" ∨ name = "*") (ha : WellFormed a) (hb : WellFormed b)
      (hp : par < p) (hn : p < S.K.next_pid)
      (hpar : (S.K.proc p).parent = par) (hup : up.wr = true)
      (hupq : up.pipe < S.K.next_pipe)
      (hs : (S.K.proc p).state = .running)
      (hc : S.code p = child D up (.mk name [a, b]))
      (hfd : up ∈ (S.K.proc p).fds)
      (hr : (S.K.proc p).ready = 0) (hdead : (S.K.proc p).dead = [])
      (hnc : (S.K.proc p).nchild = 0)
      (hcl : calls_of p S.K.trace = [.fork 0]) :
      Node D S p par up (.mk name [a, b]) [p] [] (.building false)
  /-- An Internal worker after `pipe`. -/
  | op (p par : Nat) (up : Fd) (name : String) (a b : tree_node) (pt : OpAt)
      (q ca cb : Nat) (pa pb qa qb : List Nat) (sa sb st : Stage)
      (h : name = "+" ∨ name = "*")
      (hsa : Node D S ca p ⟨q, true⟩ a pa qa sa) (hsb : Node D S cb p ⟨q, true⟩ b pb qb sb)
      (hok : pt.ok sa sb) (hd : ∀ x ∈ pa, x ∉ pb) (hdq : ∀ x ∈ qa, x ∉ qb)
      (hp : par < p) (hn : p < S.K.next_pid)
      (hpar : (S.K.proc p).parent = par) (hup : up.wr = true)
      (hq : up.pipe < q ∧ q < S.K.next_pipe)
      (hs : (S.K.proc p).state = op_state D up name a b q ca cb pt)
      (hc : pt.runs = true → S.code p = op_code D up name a b q ca cb pt)
      (hfd : pt.alive = true → up ∈ (S.K.proc p).fds ∧ ⟨q, false⟩ ∈ (S.K.proc p).fds)
      (hfd1 : pt.forks = true → ⟨q, true⟩ ∈ (S.K.proc p).fds)
      (hr : (S.K.proc p).ready = pt.ready_count sa sb)
      (hdead : (S.K.proc p).dead = sa.dead ca ++ sb.dead cb)
      (hnc : (S.K.proc p).nchild = sa.kid + sb.kid)
      (hbuf : S.K.buf q = op_buf D a b pt sa sb)
      (hcl : calls_of p S.K.trace = op_calls D up name a b q ca cb pt)
      (hst : st = pt.stage) :
      Node D S p par up (.mk name [a, b]) (p :: (pa ++ pb)) (q :: (qa ++ qb)) st

/-- What a turn changes for the subtree `t` of worker `p`: `pids1`, `qs1`
and `st1` are its workers, its pipes and its stage after the turn.  The
processes outside the subtree are left as they are, except that the parent
`par` has one more ready child when `p` stops itself and one more terminated
child when `p` terminates; the pipes outside the subtree are left as they
are, except that the pipe `p` writes to receives the value of `t` when `p`
writes; the calls made are calls of workers of the subtree. -/
structure Moves (D : DoubleOps α) (S S1 : Sys α) (p par : Nat) (up : Fd) (t : tree_node)
    (pids pids1 qs qs1 : List Nat) (st st1 : Stage) : Prop where
  sub : ∀ x ∈ pids, x ∈ pids1
  new : ∀ x ∈ pids1, x ∈ pids ∨ x = S.K.next_pid
  pid : S1.K.next_pid = S.K.next_pid ∨
    (S1.K.next_pid = S.K.next_pid + 1 ∧ S.K.next_pid ∈ pids1)
  qsub : ∀ x ∈ qs, x ∈ qs1
  qnew : ∀ x ∈ qs1, x ∈ qs ∨ x = S.K.next_pipe
  pipe : S1.K.next_pipe = S.K.next_pipe ∨
    (S1.K.next_pipe = S.K.next_pipe + 1 ∧ S.K.next_pipe ∈ qs1)
  next : st.next st1
  out : ∀ x, x ∉ pids1 → x ≠ par → S1.K.proc x = S.K.proc x ∧ S1.code x = S.code x
  par_proc : S1.K.proc par =
    { S.K.proc par with
      ready := (S.K.proc par).ready + (st1.raised - st.raised)
      dead := (S.K.proc par).dead ++ (if st = .zombie then [] else st1.dead p) }
  par_code : S1.code par = S.code par
  bufs : ∀ x, x ∉ qs1 → x ≠ up.pipe → S1.K.buf x = S.K.buf x
  up_buf : S1.K.buf up.pipe =
    S.K.buf up.pipe ++ (if st.sent = false ∧ st1.sent = true then [eval D t] else [])
  files : S1.K.files = S.K.files
  trace : ∃ es, S1.K.trace = S.K.trace ++ es ∧ ∀ e ∈ es, e.1 ∈ pids1

/-- The turn of process `x` leaves the workers of the subtree `t` in order:
after it they are `pids1`, with pipes `qs1`, at stage `st1`. -/
def Turns (D : DoubleOps α) (S : Sys α) (x p par : Nat) (up : Fd) (t : tree_node)
    (pids qs : List Nat) (st : Stage) : Prop :=
  ∃ pids1 qs1 st1, Node D (S.step x) p par up t pids1 qs1 st1 ∧
    Moves D S (S.step x) p par up t pids pids1 qs qs1 st st1


/-- The points of `main`: at its start; after `get_tree_from_file`; after
`pipe`; after `fork`; after `wait_for_ready_children(1)`; after
`kill(SIGCONT)`; after `wait`; after `read`; after `exit(0)`. -/
inductive MainAt where
  | start | loaded | piped | forked | counted | killed | reaped | read | exited
deriving DecidableEq, Repr

namespace MainAt

/-- The number of calls `main` has made at the point. -/
def count : MainAt → Nat
  | .start => 0
  | .loaded => 1
  | .piped => 2
  | .forked => 3
  | .counted => 4
  | .killed => 5
  | .reaped => 6
  | .read => 7
  | .exited => 8

/-- Whether `main` is running at the point. -/
def runs : MainAt → Bool
  | .exited => false
  | _ => true

/-- Whether `main` holds the two ends of its pipe at the point. -/
def holds : MainAt → Bool
  | .start => false
  | .loaded => false
  | .exited => false
  | _ => true

/-- The stage of the tree of workers that goes with a point. -/
def ok : MainAt → Stage → Prop
  | .start, st => st = .unborn
  | .loaded, st => st = .unborn
  | .piped, st => st = .unborn
  | .forked, st => ∃ r, st = .building r
  | .counted, st => st = .building true
  | .killed, st => (∃ s, st = .active s) ∨ st = .zombie
  | _, st => st = .gone

/-- The number of stopped children `main` has not counted. -/
def ready_count : MainAt → Stage → Nat
  | .forked, st => st.raised
  | _, _ => 0

end MainAt

/-- The calls of `main` up to a point, in the run on the tree `t` read from
`path`. -/
def main_calls (D : DoubleOps α) (path : String) (t : tree_node) (pt : MainAt) :
    List (Act α) :=
  [Act.get_tree_from_file path true, .pipe 0 ⟨0, false⟩ ⟨0, true⟩, .fork 2,
    .wait_for_ready_children 1, .kill_SIGCONT 2, .wait 2 (W_EXITED 16),
    .read ⟨0, false⟩ sizeof_double (some (eval D t)), .exit 0].take pt.count

/-- Lines 195-204 of `main`: the `read` of the result and what follows it. -/
def main_read (pfd0 : Fd) : Prog α :=
  .read pfd0 fun n _final_val =>
    if n ≠ sizeof_double then
      .stderr "initial parent: read from pipe" (.exit 1)
    else
      .exit 0

/-- The program `main` has left at a point where it runs. -/
def main_code (D : DoubleOps α) (prog path : String) (t : tree_node) : MainAt → Prog α
  | .start => main D [prog, path]
  | .loaded => main_loaded D t
  | .piped => main_piped D t ⟨0, false⟩ ⟨0, true⟩
  | .forked => main_rest ⟨0, false⟩ 2
  | .counted => .kill_SIGCONT 2 (main_end ⟨0, false⟩)
  | .killed => main_end ⟨0, false⟩
  | .reaped => main_read ⟨0, false⟩
  | .read => .exit 0
  | .exited => .ret

/-- The state of `main` at a point. -/
def main_state : MainAt → PState α
  | .exited => .zombie (W_EXITED 0)
  | _ => .running

/-- The content of the pipe of `main` at a point: the value of the tree when
the worker of the root has written it and `main` has not yet read it. -/
def main_buf (D : DoubleOps α) (t : tree_node) : MainAt → Stage → List α
  | .killed, st => if st.sent then [eval D t] else []
  | .reaped, _ => [eval D t]
  | _, _ => []

/-- The invariant of a run of `ex2-pipes` on the tree `t` read from `path`:
`main` (process 1) is at a point of its program, process 2 is the worker of
the root, the processes other than `main` are the workers `pids` of the
nodes of `t`, the pipes other than the pipe of `main` (pipe 0) are the pipes
`qs` of the Internal workers, and every call was made by `main` or by a
worker. -/
inductive Whole (D : DoubleOps α) (prog path : String) (t : tree_node) (S : Sys α) : Prop
  | mk (pt : MainAt) (pids qs : List Nat) (st : Stage)
      (hnode : Node D S 2 1 ⟨0, true⟩ t pids qs st) (hok : pt.ok st)
      (h2 : 2 ≤ S.K.next_pid) (hall : ∀ x, 2 ≤ x → x < S.K.next_pid → x ∈ pids)
      (hpipe : if pt.count < 2 then S.K.next_pipe = 0 else 1 ≤ S.K.next_pipe)
      (hallq : ∀ x, 1 ≤ x → x < S.K.next_pipe → x ∈ qs)
      (hf : S.K.files path = some t)
      (hpar : (S.K.proc 1).parent = 0)
      (hs : (S.K.proc 1).state = main_state pt)
      (hc : pt.runs = true → S.code 1 = main_code D prog path t pt)
      (hfd : pt.holds = true →
        ⟨0, false⟩ ∈ (S.K.proc 1).fds ∧ ⟨0, true⟩ ∈ (S.K.proc 1).fds)
      (hr : (S.K.proc 1).ready = pt.ready_count st)
      (hdead : (S.K.proc 1).dead = st.dead 2)
      (hnc : (S.K.proc 1).nchild = st.kid)
      (hbuf : S.K.buf 0 = main_buf D t pt st)
      (hcl : calls_of 1 S.K.trace = main_calls D path t pt)
      (htr : ∀ e ∈ S.K.trace, e.1 = 1 ∨ e.1 ∈ pids)

end ex2_pipes

/-- Whether the next call of process `x` cannot complete yet:
`wait_for_ready_children` before enough children have stopped, `wait`
before a child has terminated, `read` on an empty pipe that has a writer. -/
def Sys.stuck (S : Sys α) (x : Nat) : Prop :=
  match S.code x with
  | .wait_for_ready_children cnt _ => (S.K.proc x).ready < cnt
  | .wait _ => (S.K.proc x).dead = [] ∧ (S.K.proc x).nchild ≠ 0
  | .read fd _ =>
    fd ∈ (S.K.proc x).fds ∧ fd.wr = false ∧ S.K.buf fd.pipe = [] ∧
      S.K.has_writer fd.pipe = true
  | _ => False

/-- The number of the calls among `l` that satisfy `f`. -/
def tally (f : Act α → Bool) (l : List (Act α)) : Nat := (l.filter f).length

namespace ex2_pipes

/-- The workers mirror the tree under every numbering of the processes: in
the trace `tr` the worker `c` of an Internal node forked exactly two
processes, different from each other, which are the workers of its two
children and mirror their subtrees; the worker of a Leaf forked none. -/
def Mirrors (tr : List (Nat × Act α)) : Nat → tree_node → Prop
  | c, .mk _ [a, b] =>
    ∃ ca cb : Nat, forked_by c tr = [(ca : Int), (cb : Int)] ∧ ca ≠ cb ∧
      Mirrors tr ca a ∧ Mirrors tr cb b
  | c, .mk _ _ => forked_by c tr = []

end ex2_pipes

/-! ## Lemmas and theorems -/

@[simp] theorem Kernel.log_proc (K : Kernel α) (p : Nat) (a : Act α) :
    (K.log p a).proc = K.proc := rfl
@[simp] theorem Kernel.log_buf (K : Kernel α) (p : Nat) (a : Act α) :
    (K.log p a).buf = K.buf := rfl
@[simp] theorem Kernel.log_next_pid (K : Kernel α) (p : Nat) (a : Act α) :
    (K.log p a).next_pid = K.next_pid := rfl
@[simp] theorem Kernel.log_next_pipe (K : Kernel α) (p : Nat) (a : Act α) :
    (K.log p a).next_pipe = K.next_pipe := rfl
@[simp] theorem Kernel.log_files (K : Kernel α) (p : Nat) (a : Act α) :
    (K.log p a).files = K.files := rfl
@[simp] theorem Kernel.log_trace (K : Kernel α) (p : Nat) (a : Act α) :
    (K.log p a).trace = K.trace ++ [(p, a)] := rfl
@[simp] theorem Kernel.modify_proc (K : Kernel α) (p : Nat) (f : Proc α → Proc α) (i : Nat) :
    (K.modify p f).proc i = if i = p then f (K.proc i) else K.proc i := rfl
@[simp] theorem Kernel.modify_buf (K : Kernel α) (p : Nat) (f : Proc α → Proc α) :
    (K.modify p f).buf = K.buf := rfl
@[simp] theorem Kernel.modify_next_pid (K : Kernel α) (p : Nat) (f : Proc α → Proc α) :
    (K.modify p f).next_pid = K.next_pid := rfl
@[simp] theorem Kernel.modify_next_pipe (K : Kernel α) (p : Nat) (f : Proc α → Proc α) :
    (K.modify p f).next_pipe = K.next_pipe := rfl
@[simp] theorem Kernel.modify_files (K : Kernel α) (p : Nat) (f : Proc α → Proc α) :
    (K.modify p f).files = K.files := rfl
@[simp] theorem Kernel.modify_trace (K : Kernel α) (p : Nat) (f : Proc α → Proc α) :
    (K.modify p f).trace = K.trace := rfl
@[simp] theorem Kernel.set_buf_proc (K : Kernel α) (q : Nat) (b : List α) :
    (K.set_buf q b).proc = K.proc := rfl
@[simp] theorem Kernel.set_buf_buf (K : Kernel α) (q : Nat) (b : List α) (i : Nat) :
    (K.set_buf q b).buf i = if i = q then b else K.buf i := rfl
@[simp] theorem Kernel.set_buf_next_pid (K : Kernel α) (q : Nat) (b : List α) :
    (K.set_buf q b).next_pid = K.next_pid := rfl
@[simp] theorem Kernel.set_buf_next_pipe (K : Kernel α) (q : Nat) (b : List α) :
    (K.set_buf q b).next_pipe = K.next_pipe := rfl
@[simp] theorem Kernel.set_buf_files (K : Kernel α) (q : Nat) (b : List α) :
    (K.set_buf q b).files = K.files := rfl
@[simp] theorem Kernel.set_buf_trace (K : Kernel α) (q : Nat) (b : List α) :
    (K.set_buf q b).trace = K.trace := rfl

@[simp] theorem Kernel.piped_next_pid (K : Kernel α) (self : Nat) :
    (K.piped self).next_pid = K.next_pid := rfl
@[simp] theorem Kernel.piped_next_pipe (K : Kernel α) (self : Nat) :
    (K.piped self).next_pipe = K.next_pipe + 1 := rfl
@[simp] theorem Kernel.piped_files (K : Kernel α) (self : Nat) :
    (K.piped self).files = K.files := rfl
@[simp] theorem Kernel.piped_trace (K : Kernel α) (self : Nat) :
    (K.piped self).trace = K.trace ++ [(self, .pipe 0 ⟨K.next_pipe, false⟩ ⟨K.next_pipe, true⟩)] := rfl
@[simp] theorem Kernel.piped_buf (K : Kernel α) (self : Nat) (i : Nat) :
    (K.piped self).buf i = if i = K.next_pipe then [] else K.buf i := rfl
@[simp] theorem Kernel.piped_proc (K : Kernel α) (self : Nat) (i : Nat) :
    (K.piped self).proc i =
      if i = self then { K.proc i with fds := (K.proc i).fds ++ [⟨K.next_pipe, false⟩, ⟨K.next_pipe, true⟩] } else K.proc i := rfl
@[simp] theorem Kernel.forked_next_pid (K : Kernel α) (self : Nat) :
    (K.forked self).next_pid = K.next_pid + 1 := rfl
@[simp] theorem Kernel.forked_next_pipe (K : Kernel α) (self : Nat) :
    (K.forked self).next_pipe = K.next_pipe := rfl
@[simp] theorem Kernel.forked_files (K : Kernel α) (self : Nat) :
    (K.forked self).files = K.files := rfl
@[simp] theorem Kernel.forked_trace (K : Kernel α) (self : Nat) :
    (K.forked self).trace = K.trace ++ [(self, .fork K.next_pid)] ++ [(K.next_pid, .fork 0)] := rfl
@[simp] theorem Kernel.forked_buf (K : Kernel α) (self : Nat) (i : Nat) :
    (K.forked self).buf i = K.buf i := rfl
@[simp] theorem Kernel.forked_proc (K : Kernel α) (self : Nat) (i : Nat) :
    (K.forked self).proc i =
      if i = K.next_pid then { state := .running, parent := self, fds := (K.proc self).fds, ready := 0, dead := [], nchild := 0 } else if i = self then { K.proc i with nchild := (K.proc i).nchild + 1 } else K.proc i := rfl
@[simp] theorem Kernel.counted_next_pid (K : Kernel α) (self cnt : Nat) :
    (K.counted self cnt).next_pid = K.next_pid := rfl
@[simp] theorem Kernel.counted_next_pipe (K : Kernel α) (self cnt : Nat) :
    (K.counted self cnt).next_pipe = K.next_pipe := rfl
@[simp] theorem Kernel.counted_files (K : Kernel α) (self cnt : Nat) :
    (K.counted self cnt).files = K.files := rfl
@[simp] theorem Kernel.counted_trace (K : Kernel α) (self cnt : Nat) :
    (K.counted self cnt).trace = K.trace ++ [(self, .wait_for_ready_children cnt)] := rfl
@[simp] theorem Kernel.counted_buf (K : Kernel α) (self cnt : Nat) (i : Nat) :
    (K.counted self cnt).buf i = K.buf i := rfl
@[simp] theorem Kernel.counted_proc (K : Kernel α) (self cnt : Nat) (i : Nat) :
    (K.counted self cnt).proc i =
      if i = self then { K.proc i with ready := (K.proc i).ready - cnt } else K.proc i := rfl
@[simp] theorem Kernel.continued_next_pid (K : Kernel α) (self : Nat) (pid : Int) :
    (K.continued self pid).next_pid = K.next_pid := rfl
@[simp] theorem Kernel.continued_next_pipe (K : Kernel α) (self : Nat) (pid : Int) :
    (K.continued self pid).next_pipe = K.next_pipe := rfl
@[simp] theorem Kernel.continued_files (K : Kernel α) (self : Nat) (pid : Int) :
    (K.continued self pid).files = K.files := rfl
@[simp] theorem Kernel.continued_trace (K : Kernel α) (self : Nat) (pid : Int) :
    (K.continued self pid).trace = K.trace ++ [(self, .kill_SIGCONT pid)] := rfl
@[simp] theorem Kernel.continued_buf (K : Kernel α) (self : Nat) (pid : Int) (i : Nat) :
    (K.continued self pid).buf i = K.buf i := rfl
@[simp] theorem Kernel.continued_proc (K : Kernel α) (self : Nat) (pid : Int) (i : Nat) :
    (K.continued self pid).proc i =
      if i = pid.toNat then { K.proc i with state := .running } else K.proc i := rfl
@[simp] theorem Kernel.closed_next_pid (K : Kernel α) (self : Nat) (fd : Fd) :
    (K.closed self fd).next_pid = K.next_pid := rfl
@[simp] theorem Kernel.closed_next_pipe (K : Kernel α) (self : Nat) (fd : Fd) :
    (K.closed self fd).next_pipe = K.next_pipe := rfl
@[simp] theorem Kernel.closed_files (K : Kernel α) (self : Nat) (fd : Fd) :
    (K.closed self fd).files = K.files := rfl
@[simp] theorem Kernel.closed_trace (K : Kernel α) (self : Nat) (fd : Fd) :
    (K.closed self fd).trace = K.trace ++ [(self, .close fd)] := rfl
@[simp] theorem Kernel.closed_buf (K : Kernel α) (self : Nat) (fd : Fd) (i : Nat) :
    (K.closed self fd).buf i = K.buf i := rfl
@[simp] theorem Kernel.closed_proc (K : Kernel α) (self : Nat) (fd : Fd) (i : Nat) :
    (K.closed self fd).proc i =
      if i = self then { K.proc i with fds := (K.proc i).fds.erase fd } else K.proc i := rfl
@[simp] theorem Kernel.got_next_pid (K : Kernel α) (self : Nat) (fd : Fd) (v : α) (vs : List α) :
    (K.got self fd v vs).next_pid = K.next_pid := rfl
@[simp] theorem Kernel.got_next_pipe (K : Kernel α) (self : Nat) (fd : Fd) (v : α) (vs : List α) :
    (K.got self fd v vs).next_pipe = K.next_pipe := rfl
@[simp] theorem Kernel.got_files (K : Kernel α) (self : Nat) (fd : Fd) (v : α) (vs : List α) :
    (K.got self fd v vs).files = K.files := rfl
@[simp] theorem Kernel.got_trace (K : Kernel α) (self : Nat) (fd : Fd) (v : α) (vs : List α) :
    (K.got self fd v vs).trace = K.trace ++ [(self, .read fd sizeof_double (some v))] := rfl
@[simp] theorem Kernel.got_buf (K : Kernel α) (self : Nat) (fd : Fd) (v : α) (vs : List α) (i : Nat) :
    (K.got self fd v vs).buf i = if i = fd.pipe then vs else K.buf i := rfl
@[simp] theorem Kernel.got_proc (K : Kernel α) (self : Nat) (fd : Fd) (v : α) (vs : List α) (i : Nat) :
    (K.got self fd v vs).proc i =
      K.proc i := rfl
@[simp] theorem Kernel.put_next_pid (K : Kernel α) (self : Nat) (fd : Fd) (v : α) :
    (K.put self fd v).next_pid = K.next_pid := rfl
@[simp] theorem Kernel.put_next_pipe (K : Kernel α) (self : Nat) (fd : Fd) (v : α) :
    (K.put self fd v).next_pipe = K.next_pipe := rfl
@[simp] theorem Kernel.put_files (K : Kernel α) (self : Nat) (fd : Fd) (v : α) :
    (K.put self fd v).files = K.files := rfl
@[simp] theorem Kernel.put_trace (K : Kernel α) (self : Nat) (fd : Fd) (v : α) :
    (K.put self fd v).trace = K.trace ++ [(self, .write fd v sizeof_double)] := rfl
@[simp] theorem Kernel.put_buf (K : Kernel α) (self : Nat) (fd : Fd) (v : α) (i : Nat) :
    (K.put self fd v).buf i = if i = fd.pipe then K.buf fd.pipe ++ [v] else K.buf i := rfl
@[simp] theorem Kernel.put_proc (K : Kernel α) (self : Nat) (fd : Fd) (v : α) (i : Nat) :
    (K.put self fd v).proc i =
      K.proc i := rfl
@[simp] theorem Kernel.halted_next_pid (K : Kernel α) (self : Nat) (k : Prog α) :
    (K.halted self k).next_pid = K.next_pid := rfl
@[simp] theorem Kernel.halted_next_pipe (K : Kernel α) (self : Nat) (k : Prog α) :
    (K.halted self k).next_pipe = K.next_pipe := rfl
@[simp] theorem Kernel.halted_files (K : Kernel α) (self : Nat) (k : Prog α) :
    (K.halted self k).files = K.files := rfl
@[simp] theorem Kernel.halted_trace (K : Kernel α) (self : Nat) (k : Prog α) :
    (K.halted self k).trace = K.trace ++ [(self, .raise_SIGSTOP)] := rfl
@[simp] theorem Kernel.halted_buf (K : Kernel α) (self : Nat) (k : Prog α) (i : Nat) :
    (K.halted self k).buf i = K.buf i := rfl
@[simp] theorem Kernel.reaped_next_pid (K : Kernel α) (self c : Nat) (st : Int) (rest : List (Nat × Int)) :
    (K.reaped self c st rest).next_pid = K.next_pid := rfl
@[simp] theorem Kernel.reaped_next_pipe (K : Kernel α) (self c : Nat) (st : Int) (rest : List (Nat × Int)) :
    (K.reaped self c st rest).next_pipe = K.next_pipe := rfl
@[simp] theorem Kernel.reaped_files (K : Kernel α) (self c : Nat) (st : Int) (rest : List (Nat × Int)) :
    (K.reaped self c st rest).files = K.files := rfl
@[simp] theorem Kernel.reaped_trace (K : Kernel α) (self c : Nat) (st : Int) (rest : List (Nat × Int)) :
    (K.reaped self c st rest).trace = K.trace ++ [(self, .wait c st)] := rfl
@[simp] theorem Kernel.reaped_buf (K : Kernel α) (self c : Nat) (st : Int) (rest : List (Nat × Int)) (i : Nat) :
    (K.reaped self c st rest).buf i = K.buf i := rfl
@[simp] theorem Kernel.terminate_next_pid (K : Kernel α) (self : Nat) (w : Int) :
    (K.terminate self w).next_pid = K.next_pid := rfl
@[simp] theorem Kernel.terminate_next_pipe (K : Kernel α) (self : Nat) (w : Int) :
    (K.terminate self w).next_pipe = K.next_pipe := rfl
@[simp] theorem Kernel.terminate_files (K : Kernel α) (self : Nat) (w : Int) :
    (K.terminate self w).files = K.files := rfl
@[simp] theorem Kernel.terminate_trace (K : Kernel α) (self : Nat) (w : Int) :
    (K.terminate self w).trace = K.trace := rfl
@[simp] theorem Kernel.terminate_buf (K : Kernel α) (self : Nat) (w : Int) (i : Nat) :
    (K.terminate self w).buf i = K.buf i := rfl

theorem Kernel.halted_proc_self (K : Kernel α) (self : Nat) (k : Prog α)
    (h : (K.proc self).parent ≠ self) :
    (K.halted self k).proc self = { K.proc self with state := .stopped k } := by
  simp [Kernel.halted, h.symm]

theorem Kernel.halted_proc_parent (K : Kernel α) (self : Nat) (k : Prog α)
    (h : (K.proc self).parent ≠ self) :
    (K.halted self k).proc (K.proc self).parent =
      { K.proc (K.proc self).parent with ready := (K.proc (K.proc self).parent).ready + 1 } := by
  simp [Kernel.halted, h]

theorem Kernel.halted_proc_other (K : Kernel α) (self : Nat) (k : Prog α) (i : Nat)
    (h1 : i ≠ self) (h2 : i ≠ (K.proc self).parent) :
    (K.halted self k).proc i = K.proc i := by
  simp [Kernel.halted, h1, h2]

theorem Kernel.reaped_proc_self (K : Kernel α) (self c : Nat) (st : Int)
    (rest : List (Nat × Int)) (h : self ≠ c) :
    (K.reaped self c st rest).proc self =
      { K.proc self with dead := rest, nchild := (K.proc self).nchild - 1 } := by
  simp [Kernel.reaped, h]

theorem Kernel.reaped_proc_other (K : Kernel α) (self c : Nat) (st : Int)
    (rest : List (Nat × Int)) (i : Nat) (h1 : i ≠ self) (h2 : i ≠ c) :
    (K.reaped self c st rest).proc i = K.proc i := by
  simp [Kernel.reaped, h1, h2]

theorem Kernel.terminate_proc_self (K : Kernel α) (self : Nat) (w : Int)
    (h : (K.proc self).parent ≠ self) :
    (K.terminate self w).proc self = { K.proc self with state := .zombie w, fds := [] } := by
  simp [Kernel.terminate, h.symm]

theorem Kernel.terminate_proc_parent (K : Kernel α) (self : Nat) (w : Int)
    (h : (K.proc self).parent ≠ self) :
    (K.terminate self w).proc (K.proc self).parent =
      { K.proc (K.proc self).parent with
        dead := (K.proc (K.proc self).parent).dead ++ [(self, w)] } := by
  simp [Kernel.terminate, h]

theorem Kernel.terminate_proc_other (K : Kernel α) (self : Nat) (w : Int) (i : Nat)
    (h1 : i ≠ self) (h2 : i ≠ (K.proc self).parent) :
    (K.terminate self w).proc i = K.proc i := by
  simp [Kernel.terminate, h1, h2]

theorem Runs.exit (K : Kernel α) (self s : Nat) :
    Runs K self (.exit s) ((K.log self (.exit s)).terminate self (W_EXITED s)) :=
  ⟨1, fun n hn => by obtain ⟨m, rfl⟩ : ∃ m, n = m + 1 := ⟨n - 1, by omega⟩; rfl⟩

theorem Runs.stop (K : Kernel α) (self : Nat) (k : Prog α) :
    Runs K self (.raise_SIGSTOP k) (K.halted self k) :=
  ⟨1, fun n hn => by obtain ⟨m, rfl⟩ : ∃ m, n = m + 1 := ⟨n - 1, by omega⟩; rfl⟩

theorem Runs.step {K K1 K2 : Kernel α} {self : Nat} {P Q : Prog α}
    (h : ∀ n, exec (n + 1) K self P = exec n K1 self Q) (hQ : Runs K1 self Q K2) :
    Runs K self P K2 := by
  obtain ⟨N, hN⟩ := hQ
  refine ⟨N + 1, fun n hn => ?_⟩
  obtain ⟨m, rfl⟩ : ∃ m, n = m + 1 := ⟨n - 1, by omega⟩
  rw [h, hN m (by omega)]

theorem Runs.stderr {K K2 : Kernel α} {self : Nat} {m : String} {k : Prog α}
    (h : Runs (K.log self (.stderr m)) self k K2) : Runs K self (.stderr m k) K2 :=
  Runs.step (fun _ => rfl) h

theorem Runs.load {K K2 : Kernel α} {self : Nat} {path : String} {k : tree_node → Prog α}
    {t : tree_node} (ht : K.files path = some t)
    (h : Runs (K.log self (.get_tree_from_file path true)) self (k t) K2) :
    Runs K self (.get_tree_from_file path k) K2 :=
  Runs.step (fun n => by simp only [exec, ht]) h

theorem Runs.pipe {K K2 : Kernel α} {self : Nat} {k : Int → Fd → Fd → Prog α}
    (h : Runs (K.piped self) self (k 0 ⟨K.next_pipe, false⟩ ⟨K.next_pipe, true⟩) K2) :
    Runs K self (.pipe k) K2 :=
  Runs.step (fun _ => rfl) h

theorem Runs.fork {K K2 : Kernel α} {self : Nat} {k : Int → Prog α} (K1 : Kernel α)
    (hc : Runs (K.forked self) K.next_pid (k 0) K1)
    (hp : Runs K1 self (k K.next_pid) K2) :
    Runs K self (.fork k) K2 := by
  obtain ⟨N, hN⟩ := hc
  obtain ⟨M, hM⟩ := hp
  refine ⟨N + M + 1, fun n hn => ?_⟩
  obtain ⟨m, rfl⟩ : ∃ m, n = m + 1 := ⟨n - 1, by omega⟩
  simp only [exec, hN m (by omega), hM m (by omega)]

theorem Runs.ready {K K2 : Kernel α} {self cnt : Nat} {k : Prog α}
    (hr : cnt ≤ (K.proc self).ready) (h : Runs (K.counted self cnt) self k K2) :
    Runs K self (.wait_for_ready_children cnt k) K2 :=
  Runs.step (fun n => by simp only [exec, hr, if_true]) h

theorem Runs.cont {K K1 K2 : Kernel α} {self : Nat} {pid : Int} {k kc : Prog α}
    (hs : (K.proc pid.toNat).state = .stopped kc) (hpos : 0 < pid)
    (hc : Runs (K.continued self pid) pid.toNat kc K1) (hp : Runs K1 self k K2) :
    Runs K self (.kill_SIGCONT pid k) K2 := by
  obtain ⟨N, hN⟩ := hc
  obtain ⟨M, hM⟩ := hp
  refine ⟨N + M + 1, fun n hn => ?_⟩
  obtain ⟨m, rfl⟩ : ∃ m, n = m + 1 := ⟨n - 1, by omega⟩
  simp only [exec, hs, hpos, if_true, hN m (by omega), hM m (by omega)]

theorem Runs.wait {K K2 : Kernel α} {self c : Nat} {st : Int} {rest : List (Nat × Int)}
    {k : Int → Int → Prog α}
    (hd : (K.proc self).dead = (c, st) :: rest)
    (h : Runs (K.reaped self c st rest) self (k c st) K2) :
    Runs K self (.wait k) K2 :=
  Runs.step (fun n => by simp only [exec, hd]) h

theorem Runs.close {K K2 : Kernel α} {self : Nat} {fd : Fd} {k : Prog α}
    (h : Runs (K.closed self fd) self k K2) : Runs K self (.close fd k) K2 :=
  Runs.step (fun _ => rfl) h

theorem Runs.read {K K2 : Kernel α} {self : Nat} {fd : Fd} {k : Int → Option α → Prog α}
    (v : α) (vs : List α)
    (hfd : fd ∈ (K.proc self).fds) (hwr : fd.wr = false) (hb : K.buf fd.pipe = v :: vs)
    (h : Runs (K.got self fd v vs) self (k sizeof_double (some v)) K2) :
    Runs K self (.read fd k) K2 :=
  Runs.step (fun n => by simp only [exec, hfd, hwr, hb, and_self, if_true]) h

theorem Runs.write {K K2 : Kernel α} {self : Nat} {fd : Fd} {v : α} {k : Int → Prog α}
    (hfd : fd ∈ (K.proc self).fds) (hwr : fd.wr = true)
    (h : Runs (K.put self fd v) self (k sizeof_double) K2) :
    Runs K self (.write fd v k) K2 :=
  Runs.step (fun n => by simp only [exec, hfd, hwr, and_self, if_true]) h

namespace Prog

theorem seq_eq_self_of_never_returns : ∀ (P Q : Prog α), P.never_returns → P.seq Q = P
  | .exit _, _, _ => rfl
  | .ret, _, h => h.elim
  | .abort, _, _ => rfl
  | .stderr _ k, Q, h => by simp only [seq, seq_eq_self_of_never_returns k Q h]
  | .get_tree_from_file _ k, Q, h => by
    simp only [seq]; congr 1; funext t; exact seq_eq_self_of_never_returns (k t) Q (h t)
  | .pipe k, Q, h => by
    simp only [seq]; congr 1; funext r a b; exact seq_eq_self_of_never_returns _ Q (h r a b)
  | .fork k, Q, h => by
    simp only [seq]; congr 1; funext r; exact seq_eq_self_of_never_returns _ Q (h r)
  | .wait_for_ready_children _ k, Q, h => by simp only [seq, seq_eq_self_of_never_returns k Q h]
  | .raise_SIGSTOP k, Q, h => by simp only [seq, seq_eq_self_of_never_returns k Q h]
  | .kill_SIGCONT _ k, Q, h => by simp only [seq, seq_eq_self_of_never_returns k Q h]
  | .wait k, Q, h => by
    simp only [seq]; congr 1; funext p s; exact seq_eq_self_of_never_returns _ Q (h p s)
  | .close _ k, Q, h => by simp only [seq, seq_eq_self_of_never_returns k Q h]
  | .read _ k, Q, h => by
    simp only [seq]; congr 1; funext n v; exact seq_eq_self_of_never_returns _ Q (h n v)
  | .write _ _ k, Q, h => by
    simp only [seq]; congr 1; funext n; exact seq_eq_self_of_never_returns _ Q (h n)
  | .sleep _ k, Q, h => by simp only [seq, seq_eq_self_of_never_returns k Q h]

theorem never_returns_seq : ∀ (P Q : Prog α), Q.never_returns → (P.seq Q).never_returns
  | .exit _, _, _ => trivial
  | .ret, _, h => h
  | .abort, _, _ => trivial
  | .stderr _ k, Q, h => never_returns_seq k Q h
  | .get_tree_from_file _ k, Q, h => fun t => never_returns_seq (k t) Q h
  | .pipe k, Q, h => fun r a b => never_returns_seq (k r a b) Q h
  | .fork k, Q, h => fun r => never_returns_seq (k r) Q h
  | .wait_for_ready_children _ k, Q, h => never_returns_seq k Q h
  | .raise_SIGSTOP k, Q, h => never_returns_seq k Q h
  | .kill_SIGCONT _ k, Q, h => never_returns_seq k Q h
  | .wait k, Q, h => fun p s => never_returns_seq (k p s) Q h
  | .close _ k, Q, h => never_returns_seq k Q h
  | .read _ k, Q, h => fun n v => never_returns_seq (k n v) Q h
  | .write _ _ k, Q, h => fun n => never_returns_seq (k n) Q h
  | .sleep _ k, Q, h => never_returns_seq k Q h

theorem for_range_never_returns {σ : Type} (body : Nat → σ → (σ → Prog α) → Prog α)
    (done : σ → Prog α)
    (hbody : ∀ i s next, (∀ s1, (next s1).never_returns) → (body i s next).never_returns)
    (hdone : ∀ s, (done s).never_returns) :
    ∀ (count i : Nat) (s : σ), (for_range count i s body done).never_returns
  | 0, _, s => hdone s
  | n + 1, i, s => hbody i s _ fun s1 => for_range_never_returns body done hbody hdone n (i + 1) s1

end Prog

namespace ex2_pipes

theorem send_never_returns (D : DoubleOps α) (fd : Fd) (name : String) :
    (send D fd name).never_returns := by
  intro n
  by_cases h : n = sizeof_double <;> simp [h, Prog.never_returns]

theorem collect_never_returns (D : DoubleOps α) (fd : Fd) (name : String) (nr : Nat)
    (pfd0 pfd1 : Fd) (pid_child : Nat → Int) :
    (collect D fd name nr pfd0 pfd1 pid_child).never_returns := by
  unfold collect
  apply Prog.for_range_never_returns
  · intro i s next hnext p st n res
    by_cases h : n = sizeof_double
    · simp only [h, ne_eq, not_true_eq_false, if_false]; exact hnext _
    · simp [h, Prog.never_returns]
  · intro s n
    by_cases h : n = sizeof_double <;> simp [h, Prog.never_returns]

theorem child_never_returns (D : DoubleOps α) (fd : Fd) :
    ∀ t : tree_node, (child D fd t).never_returns
  | .mk name children => by
    unfold child
    by_cases hop : name = "+" ∨ name = "*"
    · simp only [hop, if_true]
      by_cases hlen : children.length = 2
      · simp only [hlen, ne_eq, not_true_eq_false, if_false]
        intro r pfd0 pfd1
        by_cases hr : r < 0
        · simp [hr, Prog.never_returns]
        · simp only [hr, if_false, Prog.for_range]
          intro p
          by_cases hp : p < 0
          · simp [hp, Prog.never_returns]
          · simp only [hp, if_false]
            apply Prog.never_returns_seq
            intro p1
            by_cases hp1 : p1 < 0
            · simp [hp1, Prog.never_returns]
            · simp only [hp1, if_false]
              apply Prog.never_returns_seq
              exact collect_never_returns D fd name _ _ _ _
      · simp [hlen, Prog.never_returns]
    · simp only [hop, if_false]
      by_cases hlen : children.length = 0
      · simp only [hlen, ne_eq, not_true_eq_false, if_false]
        exact send_never_returns D fd name
      · simp [hlen, Prog.never_returns]

theorem nodes_pos (t : tree_node) : 0 < nodes t := by
  cases t with
  | mk name cs =>
    match cs with
    | [] => simp [nodes]
    | [_] => simp [nodes]
    | [_, _] => simp [nodes]
    | _ :: _ :: _ :: _ => simp [nodes]

theorem Ready.frame (D : DoubleOps α) {t : tree_node} (hwf : WellFormed t) :
    ∀ (K K1 : Kernel α) (c par : Nat) (fd : Fd) (q : Nat),
      (∀ p, c < p → p < c + nodes t → K1.proc p = K.proc p) →
      (K1.proc c).parent = (K.proc c).parent → (K1.proc c).dead = (K.proc c).dead →
      (K1.proc c).fds = (K.proc c).fds →
      (∀ i, q ≤ i → i < q + inner t → K1.buf i = K.buf i) →
      Ready D K c par fd q t → Ready D K1 c par fd q t := by
  induction hwf with
  | leaf name h =>
    intro K K1 c par fd q _ hp _ hf _ hr
    simp only [Ready] at hr ⊢
    rw [hp, hf]; exact hr
  | op name h a b ha hb iha ihb =>
    intro K K1 c par fd q hproc hp hd hf hbuf hr
    simp only [Ready] at hr ⊢
    simp only [nodes, inner] at hproc hbuf
    have na := nodes_pos a
    have nb := nodes_pos b
    obtain ⟨h1, h2, h3, h4, h5, h6, h7, h8, h9⟩ := hr
    have e0 : K1.proc (c + 1) = K.proc (c + 1) := hproc _ (by omega) (by omega)
    have e1 : K1.proc (c + 1 + nodes a) = K.proc (c + 1 + nodes a) :=
      hproc _ (by omega) (by omega)
    refine ⟨by rw [hp]; exact h1, by rw [hd]; exact h2, by rw [hf]; exact h3,
      by rw [hf]; exact h4, by rw [hbuf q (by omega) (by omega)]; exact h5,
      by rw [e0]; exact h6, ?_, by rw [e1]; exact h8, ?_⟩
    · exact iha K K1 _ _ _ _ (fun p h1 h2 => hproc p (by omega) (by omega))
        (by rw [e0]) (by rw [e0]) (by rw [e0])
        (fun i h1 h2 => hbuf i (by omega) (by omega)) h7
    · exact ihb K K1 _ _ _ _ (fun p h1 h2 => hproc p (by omega) (by omega))
        (by rw [e1]) (by rw [e1]) (by rw [e1])
        (fun i h1 h2 => hbuf i (by omega) (by omega)) h9

theorem child_leaf (D : DoubleOps α) (fd : Fd) (name : String) (h : ¬ (name = "+" ∨ name = "*")) :
    child D fd (.mk name []) = .raise_SIGSTOP (send D fd name) := by
  simp [child, h]

theorem child_op (D : DoubleOps α) (fd : Fd) (name : String) (h : name = "+" ∨ name = "*")
    (a b : tree_node) :
    child D fd (.mk name [a, b]) =
      .pipe fun r pfd0 pfd1 =>
        if r < 0 then .stderr "pipe" (.exit 1)
        else .fork fun p =>
          if p < 0 then .stderr "pid_child: fork" (.exit 1)
          else Prog.seq (if p = 0 then child D pfd1 a else .ret) <|
            .fork fun p1 =>
              if p1 < 0 then .stderr "pid_child: fork" (.exit 1)
              else Prog.seq (if p1 = 0 then child D pfd1 b else .ret) <|
                .wait_for_ready_children 2 <| .raise_SIGSTOP <|
                  collect D fd name 2 pfd0 pfd1 (assign (assign (fun _ => 0) 0 p) 1 p1) := by
  simp [child, h, child_at, Prog.for_range]

/-- What the parent of a fork goes on with. -/
theorem fork_parent (P Q R : Prog α) (n : Nat) (hn : 0 < n) :
    (if ((n : Nat) : Int) < 0 then R
      else Prog.seq (if ((n : Nat) : Int) = 0 then P else .ret) Q) = Q := by
  have h1 : ¬ ((n : Int) < 0) := by omega
  have h2 : ¬ ((n : Int) = 0) := by omega
  simp only [h1, h2, if_false, Prog.seq]

/-- What the child of a fork goes on with. -/
theorem fork_child (D : DoubleOps α) (fd : Fd) (t : tree_node) (Q R : Prog α) :
    (if (0 : Int) < 0 then R
      else Prog.seq (if (0 : Int) = 0 then child D fd t else .ret) Q) = child D fd t := by
  simp only [lt_irrefl, if_false, if_true]
  exact Prog.seq_eq_self_of_never_returns _ _ (child_never_returns D fd t)

theorem build (D : DoubleOps α) {t : tree_node} (hwf : WellFormed t) :
    ∀ (K : Kernel α) (c par : Nat) (fd : Fd),
      K.next_pid = c + 1 → (K.proc c).parent = par → par < c → fd ∈ (K.proc c).fds →
      (K.proc c).dead = [] → (K.proc c).ready = 0 →
      ∃ K1, Runs K c (child D fd t) K1 ∧
        K1.next_pid = c + nodes t ∧ K1.next_pipe = K.next_pipe + inner t ∧
        (K1.proc c).state = .stopped (resume D c fd K.next_pipe t) ∧
        Ready D K1 c par fd K.next_pipe t ∧
        (∀ p, p < c → p ≠ par → K1.proc p = K.proc p) ∧
        K1.proc par = { K.proc par with ready := (K.proc par).ready + 1 } ∧
        (∀ q, q < K.next_pipe → K1.buf q = K.buf q) ∧
        K1.files = K.files ∧
        K1.trace = K.trace ++ build_trace c K.next_pipe t := by
  induction hwf with
  | leaf name h =>
    intro K c par fd hpid hpar hlt hfd hdead hready
    have hne : (K.proc c).parent ≠ c := by omega
    refine ⟨K.halted c (send D fd name), ?_, ?_, ?_, ?_, ?_, ?_, ?_, ?_, ?_, ?_⟩
    · rw [child_leaf D fd name h]; exact Runs.stop K c _
    · simp [nodes, hpid]
    · simp [inner]
    · simp [Kernel.halted_proc_self _ _ _ hne, resume]
    · simp [Kernel.halted_proc_self _ _ _ hne, Ready, hfd, hpar]
    · intro p hp hpp
      exact Kernel.halted_proc_other _ _ _ _ (by omega) (by omega)
    · rw [← hpar]; exact Kernel.halted_proc_parent _ _ _ hne
    · intro q _; simp
    · simp
    · simp [build_trace]
  | op name h a b ha hb iha ihb =>
    intro K c par fd hpid hpar hlt hfd hdead hready
    have hne : c ≠ par := by omega
    have na := nodes_pos a
    have nb := nodes_pos b
    -- the first child
    obtain ⟨K2, hrun2, hpid2, hpipe2, hst2, hrdy2, hfr2, hpar2, hbuf2, hfiles2, htr2⟩ :=
      iha ((K.piped c).forked c) (c + 1) c ⟨K.next_pipe, true⟩
        (by simp [hpid]) (by simp [hpid]) (by omega) (by simp [hpid]) (by simp [hpid])
        (by simp [hpid])
    simp only [Kernel.forked_next_pipe, Kernel.piped_next_pipe] at hpipe2 hst2 hrdy2 hbuf2 htr2
    -- the second child
    obtain ⟨K3, hrun3, hpid3, hpipe3, hst3, hrdy3, hfr3, hpar3, hbuf3, hfiles3, htr3⟩ :=
      ihb (K2.forked c) (c + 1 + nodes a) c ⟨K.next_pipe, true⟩
        (by simp [hpid2]) (by simp [hpid2]) (by omega)
        (by simp [hpid2, hpar2, hpid]) (by simp [hpid2]) (by simp [hpid2])
    simp only [Kernel.forked_next_pipe, hpipe2] at hpipe3 hst3 hrdy3 hbuf3 htr3
    have ec2 : K2.proc c = { K.proc c with
        fds := (K.proc c).fds ++ [⟨K.next_pipe, false⟩, ⟨K.next_pipe, true⟩]
        nchild := (K.proc c).nchild + 1, ready := 1 } := by
      rw [hpar2]; simp [hpid, hready]
    have ec3 : K3.proc c = { K.proc c with
        fds := (K.proc c).fds ++ [⟨K.next_pipe, false⟩, ⟨K.next_pipe, true⟩]
        nchild := (K.proc c).nchild + 1 + 1, ready := 2 } := by
      have hcc : c ≠ c + 1 + nodes a := by omega
      rw [hpar3]; simp [hpid2, ec2, hcc]
    have e2 : ∀ p, p < c → K2.proc p = K.proc p := by
      intro p hp
      rw [hfr2 p (by omega) (by omega)]
      have h1 : p ≠ c := by omega
      have h2 : p ≠ c + 1 := by omega
      simp [hpid, h1, h2]
    have e3 : ∀ p, p ≠ c → p < c + 1 + nodes a → K3.proc p = K2.proc p := by
      intro p h1 h2
      rw [hfr3 p h2 h1]
      have h3 : p ≠ c + 1 + nodes a := by omega
      simp [hpid2, h1, h3]
    have eb2 : ∀ i, i < K.next_pipe → K2.buf i = K.buf i := by
      intro i hi; rw [hbuf2 i (by omega)]
      have : i ≠ K.next_pipe := by omega
      simp [this]
    have eb2q : K2.buf K.next_pipe = [] := by
      rw [hbuf2 _ (by omega)]; simp
    have eb3 : ∀ i, i < K.next_pipe + 1 + inner a → K3.buf i = K2.buf i := by
      intro i hi; rw [hbuf3 i hi]; simp
    have hpc : ((K3.counted c 2).proc c).parent ≠ c := by simp [ec3, hpar]; omega
    have hpc2 : ((K3.counted c 2).proc c).parent = par := by simp [ec3, hpar]
    have e4 : ∀ p, p ≠ c → p ≠ par → ((K3.counted c 2).halted c (collect D fd name 2
        ⟨K.next_pipe, false⟩ ⟨K.next_pipe, true⟩ (assign (assign (fun _ => (0 : Int)) 0
          ((c + 1 : Nat) : Int)) 1 ((c + 1 + nodes a : Nat) : Int)))).proc p = K3.proc p := by
      intro p h1 h2
      rw [Kernel.halted_proc_other _ _ _ _ h1 (by rw [hpc2]; exact h2)]
      simp [h1]
    refine ⟨(K3.counted c 2).halted c (collect D fd name 2 ⟨K.next_pipe, false⟩
      ⟨K.next_pipe, true⟩ (assign (assign (fun _ => (0 : Int)) 0 ((c + 1 : Nat) : Int)) 1
        ((c + 1 + nodes a : Nat) : Int))), ?_, ?_, ?_, ?_, ?_, ?_, ?_, ?_, ?_, ?_⟩
    · rw [child_op D fd name h a b]
      refine Runs.pipe ?_
      simp only [lt_irrefl, if_false]
      refine Runs.fork K2 ?_ ?_
      · rw [fork_child]
        have : (K.piped c).next_pid = c + 1 := by simp [hpid]
        rw [this]; exact hrun2
      · have : (K.piped c).next_pid = c + 1 := by simp [hpid]
        rw [this, fork_parent _ _ _ _ (by omega)]
        refine Runs.fork K3 ?_ ?_
        · rw [fork_child, hpid2]; exact hrun3
        · rw [hpid2, fork_parent _ _ _ _ (by omega)]
          refine Runs.ready (by rw [ec3]) ?_
          exact Runs.stop _ _ _
    · simp [hpid3, nodes]; omega
    · simp [hpipe3, inner]; omega
    · rw [Kernel.halted_proc_self _ _ _ hpc]; simp [resume]
    · simp only [Ready]
      rw [Kernel.halted_proc_self _ _ _ hpc, e4 _ (by omega) (by omega),
        e4 _ (by omega) (by omega)]
      refine ⟨by simp [ec3, hpar], by simp [ec3, hdead], by simp [ec3, hfd], by simp [ec3],
        by simp [eb3 _ (show K.next_pipe < K.next_pipe + 1 + inner a by omega), eb2q],
        by rw [e3 _ (by omega) (by omega)]; exact hst2, ?_, hst3, ?_⟩
      · refine Ready.frame D ha K2 _ _ _ _ _ ?_ ?_ ?_ ?_ ?_ hrdy2
        · intro p h1 h2; rw [e4 _ (by omega) (by omega), e3 _ (by omega) (by omega)]
        · rw [e4 _ (by omega) (by omega), e3 _ (by omega) (by omega)]
        · rw [e4 _ (by omega) (by omega), e3 _ (by omega) (by omega)]
        · rw [e4 _ (by omega) (by omega), e3 _ (by omega) (by omega)]
        · intro i h1 h2; simp [eb3 i (by omega)]
      · refine Ready.frame D hb K3 _ _ _ _ _ ?_ ?_ ?_ ?_ ?_ hrdy3
        · intro p h1 h2; rw [e4 _ (by omega) (by omega)]
        · rw [e4 _ (by omega) (by omega)]
        · rw [e4 _ (by omega) (by omega)]
        · rw [e4 _ (by omega) (by omega)]
        · intro i h1 h2; simp
    · intro p h1 h2
      rw [e4 _ (by omega) h2, e3 _ (by omega) (by omega), e2 _ h1]
    · have := Kernel.halted_proc_parent (K3.counted c 2) c (collect D fd name 2
        ⟨K.next_pipe, false⟩ ⟨K.next_pipe, true⟩ (assign (assign (fun _ => (0 : Int)) 0
          ((c + 1 : Nat) : Int)) 1 ((c + 1 + nodes a : Nat) : Int))) hpc
      rw [hpc2] at this
      rw [this]
      have h1 : par ≠ c := by omega
      simp [h1, e3 par h1 (by omega), e2 par hlt]
    · intro i hi
      simp [eb3 i (by omega), eb2 i hi]
    · simp [hfiles3, hfiles2]
    · simp [htr3, htr2, build_trace, hpid, hpid2]

theorem collect_two (D : DoubleOps α) (fd : Fd) (name : String) (pfd0 pfd1 : Fd)
    (pid_child : Nat → Int) :
    collect D fd name 2 pfd0 pfd1 pid_child =
      .kill_SIGCONT (pid_child 0) (.wait fun _ _ => .close pfd1 <| .read pfd0 fun n res =>
        if n ≠ sizeof_double then .stderr "parent: read from pipe" (.exit 1)
        else .kill_SIGCONT (pid_child 1) (.wait fun _ _ => .close pfd1 <| .read pfd0 fun m res1 =>
          if m ≠ sizeof_double then .stderr "parent: read from pipe" (.exit 1)
          else .write fd (if name = "+" then D.add (res.getD D.zero) (res1.getD D.zero)
              else D.mul (res.getD D.zero) (res1.getD D.zero)) fun w =>
            if w ≠ sizeof_double then .stderr "parent: write to pipe" (.exit 1)
            else .exit 16)) := by
  simp [collect, Prog.for_range, assign]

theorem collect_runs (D : DoubleOps α) {t : tree_node} (hwf : WellFormed t) :
    ∀ (K : Kernel α) (c par : Nat) (fd : Fd) (q : Nat),
      Ready D K c par fd q t → fd.wr = true → fd.pipe < q → par < c →
      ∃ K1, Runs K c (resume D c fd q t) K1 ∧
        K1.buf fd.pipe = K.buf fd.pipe ++ [eval D t] ∧
        (∀ i, i ≠ fd.pipe → (i < q ∨ q + inner t ≤ i) → K1.buf i = K.buf i) ∧
        (∀ p, p ≠ par → (p < c ∨ c + nodes t ≤ p) → K1.proc p = K.proc p) ∧
        K1.proc par = { K.proc par with dead := (K.proc par).dead ++ [(c, W_EXITED 16)] } ∧
        K1.next_pid = K.next_pid ∧ K1.next_pipe = K.next_pipe ∧ K1.files = K.files ∧
        K1.trace = K.trace ++ collect_trace D c fd q t := by
  induction hwf with
  | leaf name h =>
    intro K c par fd q hr hwr hlt hpar
    simp only [Ready] at hr
    obtain ⟨hp, hfd⟩ := hr
    have hne : ((((K.put c fd (D.atof name)).closed c fd).log c (.exit 16)).proc c).parent ≠ c := by
      simp [hp]; omega
    have hpp : ((((K.put c fd (D.atof name)).closed c fd).log c (.exit 16)).proc c).parent = par := by
      simp [hp]
    refine ⟨(((K.put c fd (D.atof name)).closed c fd).log c (.exit 16)).terminate c
      (W_EXITED 16), ?_, ?_, ?_, ?_, ?_, ?_, ?_, ?_, ?_⟩
    · simp only [resume, send]
      refine Runs.write hfd hwr ?_
      simp only [ne_eq, not_true_eq_false, if_false]
      exact Runs.close (Runs.exit _ _ _)
    · simp [nodes, eval]
    · intro i hi _; simp [hi]
    · intro p h1 h2
      rw [Kernel.terminate_proc_other _ _ _ _ (by simp [nodes] at h2; omega) (by rw [hpp]; exact h1)]
      have : p ≠ c := by simp [nodes] at h2; omega
      simp [this]
    · have := Kernel.terminate_proc_parent _ c (W_EXITED 16) hne
      rw [hpp] at this
      rw [this]
      have : par ≠ c := by omega
      simp [this]
    · simp
    · simp
    · simp
    · simp [collect_trace]
  | op name h a b ha hb iha ihb =>
    intro K c par fd q hr hwr hlt hpar
    simp only [Ready] at hr
    obtain ⟨hp, hd, hfd, hq0, hbq, hs0, hr0, hs1, hr1⟩ := hr
    have na := nodes_pos a
    have nb := nodes_pos b
    have hfdq : fd ≠ ⟨q, true⟩ := by
      intro e; rw [e] at hlt; simp at hlt
    have hq01 : (⟨q, false⟩ : Fd) ≠ ⟨q, true⟩ := by simp
    have t0 : Int.toNat ((c + 1 : Nat) : Int) = c + 1 := Int.toNat_ofNat _
    have t1 : Int.toNat ((c + 1 + nodes a : Nat) : Int) = c + 1 + nodes a := Int.toNat_ofNat _
    have t1' : Int.toNat ((c : Int) + 1 + (nodes a : Int)) = c + 1 + nodes a := by omega
    -- the first child runs to its exit
    obtain ⟨K2, hrun2, hb2, hbf2, hpf2, hpp2, hnp2, hnq2, hfl2, htr2⟩ :=
      iha (K.continued c ((c + 1 : Nat) : Int)) (c + 1) c ⟨q, true⟩ (q + 1)
        (Ready.frame D ha K _ _ _ _ _
          (fun p h1 h2 => by
            have : p ≠ c + 1 := by omega
            simp [t0, this])
          (by simp [t0]) (by simp [t0]) (by simp [t0]) (fun i _ _ => by simp) hr0)
        rfl (by simp) (by omega)
    have c2 : K2.proc c = { K.proc c with dead := [(c + 1, W_EXITED 16)] } := by
      rw [hpp2]; simp [t0, hd]
    have q2 : K2.buf q = [eval D a] := by
      have := hb2; simp only [Kernel.continued_buf] at this; rw [this, hbq]; rfl
    -- the parent collects the first value
    have c5 : (((K2.reaped c (c + 1) (W_EXITED 16) []).closed c ⟨q, true⟩).got c ⟨q, false⟩
        (eval D a) []).proc c =
        { K.proc c with dead := [], nchild := (K.proc c).nchild - 1,
                        fds := (K.proc c).fds.erase ⟨q, true⟩ } := by
      simp [Kernel.reaped_proc_self _ _ _ _ _ (show c ≠ c + 1 by omega), c2]
    obtain ⟨K5, hK5⟩ : ∃ K5, K5 = ((K2.reaped c (c + 1) (W_EXITED 16) []).closed c
        ⟨q, true⟩).got c ⟨q, false⟩ (eval D a) [] := ⟨_, rfl⟩
    rw [← hK5] at c5
    have o5 : ∀ p, p ≠ c → p ≠ c + 1 → K5.proc p = K2.proc p := by
      intro p h1 h2
      simp [hK5, h1, Kernel.reaped_proc_other _ _ _ _ _ _ h1 h2]
    have o2 : ∀ p, p ≠ c → (p < c + 1 ∨ c + 1 + nodes a ≤ p) → K2.proc p = K.proc p := by
      intro p h1 h2
      have : p ≠ c + 1 := by omega
      rw [hpf2 p h1 h2]; simp [t0, this]
    have b5 : ∀ i, K5.buf i = if i = q then [] else K2.buf i := by
      intro i; simp [hK5]
    have b2 : ∀ i, i ≠ q → (i < q + 1 ∨ q + 1 + inner a ≤ i) → K2.buf i = K.buf i := by
      intro i h1 h2; rw [hbf2 i h1 h2]; simp
    -- the second child runs to its exit
    obtain ⟨K6, hrun6, hb6, hbf6, hpf6, hpp6, hnp6, hnq6, hfl6, htr6⟩ :=
      ihb (K5.continued c ((c + 1 + nodes a : Nat) : Int)) (c + 1 + nodes a) c ⟨q, true⟩
        (q + 1 + inner a)
        (Ready.frame D hb K _ _ _ _ _
          (fun p h1 h2 => by
            have : p ≠ c + 1 + nodes a := by omega
            simp [t1', this, o5 p (by omega) (by omega), o2 p (by omega) (by omega)])
          (by simp [t1', o5 _ (show c + 1 + nodes a ≠ c by omega) (by omega),
            o2 _ (show c + 1 + nodes a ≠ c by omega) (by omega)])
          (by simp [t1', o5 _ (show c + 1 + nodes a ≠ c by omega) (by omega),
            o2 _ (show c + 1 + nodes a ≠ c by omega) (by omega)])
          (by simp [t1', o5 _ (show c + 1 + nodes a ≠ c by omega) (by omega),
            o2 _ (show c + 1 + nodes a ≠ c by omega) (by omega)])
          (fun i h1 h2 => by
            have : i ≠ q := by omega
            simp [b5, this, b2 i this (by omega)]) hr1)
        rfl (by simp; omega) (by omega)
    have c6 : K6.proc c =
        { K.proc c with
          dead := [(c + 1 + nodes a, W_EXITED 16)]
          nchild := (K.proc c).nchild - 1
          fds := (K.proc c).fds.erase ⟨q, true⟩ } := by
      have : c ≠ c + 1 + nodes a := by omega
      rw [hpp6]; simp [t1', this, c5]
    have q6 : K6.buf q = [eval D b] := by
      have := hb6; simp only [Kernel.continued_buf, b5, if_true] at this; rw [this]; rfl
    obtain ⟨K9, hK9⟩ : ∃ K9, K9 = ((K6.reaped c (c + 1 + nodes a) (W_EXITED 16) []).closed c
        ⟨q, true⟩).got c ⟨q, false⟩ (eval D b) [] := ⟨_, rfl⟩
    have c9 : K9.proc c =
        { K.proc c with
          dead := []
          nchild := (K.proc c).nchild - 1 - 1
          fds := ((K.proc c).fds.erase ⟨q, true⟩).erase ⟨q, true⟩ } := by
      simp [hK9, Kernel.reaped_proc_self _ _ _ _ _ (show c ≠ c + 1 + nodes a by omega), c6]
    have o9 : ∀ p, p ≠ c → p ≠ c + 1 + nodes a → K9.proc p = K6.proc p := by
      intro p h1 h2
      simp [hK9, h1, Kernel.reaped_proc_other _ _ _ _ _ _ h1 h2]
    have o6 : ∀ p, p ≠ c → (p < c + 1 + nodes a ∨ c + 1 + nodes a + nodes b ≤ p) →
        K6.proc p = K5.proc p := by
      intro p h1 h2
      have : p ≠ c + 1 + nodes a := by omega
      rw [hpf6 p h1 h2]; simp [t1', this]
    have b9 : ∀ i, K9.buf i = if i = q then [] else K6.buf i := by
      intro i; simp [hK9]
    have b6 : ∀ i, i ≠ q → (i < q + 1 + inner a ∨ q + 1 + inner a + inner b ≤ i) →
        K6.buf i = K5.buf i := by
      intro i h1 h2; rw [hbf6 i h1 h2]; simp
    have hv : (if name = "+" then D.add (eval D a) (eval D b) else D.mul (eval D a) (eval D b)) =
        eval D (.mk name [a, b]) := by
      rcases h with h | h <;> simp [eval, h]
    have hfd9 : fd ∈ (K9.proc c).fds := by
      rw [c9]
      exact (List.mem_erase_of_ne hfdq).2 ((List.mem_erase_of_ne hfdq).2 hfd)
    have hpar11 : ((((K9.put c fd (eval D (.mk name [a, b]))).log c (.exit 16)).proc c).parent) = par := by
      simp [c9, hp]
    have hne11 : ((((K9.put c fd (eval D (.mk name [a, b]))).log c (.exit 16)).proc c).parent) ≠ c := by
      rw [hpar11]; omega
    refine ⟨((K9.put c fd (eval D (.mk name [a, b]))).log c (.exit 16)).terminate c
      (W_EXITED 16), ?_, ?_, ?_, ?_, ?_, ?_, ?_, ?_, ?_⟩
    · simp only [resume]
      rw [collect_two]
      have p0 : assign (assign (fun _ => (0 : Int)) 0 ((c + 1 : Nat) : Int)) 1
          ((c + 1 + nodes a : Nat) : Int) 0 = ((c + 1 : Nat) : Int) := rfl
      have p1 : assign (assign (fun _ => (0 : Int)) 0 ((c + 1 : Nat) : Int)) 1
          ((c + 1 + nodes a : Nat) : Int) 1 = ((c + 1 + nodes a : Nat) : Int) := rfl
      rw [p0, p1]
      refine Runs.cont (by rw [t0]; exact hs0) (by omega) (by rw [t0]; exact hrun2) ?_
      refine Runs.wait (by rw [c2]) ?_
      refine Runs.close ?_
      refine Runs.read (eval D a) [] ?_ rfl ?_ ?_
      · simp [Kernel.reaped_proc_self _ _ _ _ _ (show c ≠ c + 1 by omega), c2, hq0]
      · simp [q2]
      simp only [ne_eq, not_true_eq_false, if_false]
      rw [← hK5]
      refine Runs.cont (by rw [t1, o5 _ (by omega) (by omega), o2 _ (by omega) (by omega)]; exact hs1)
        (by omega) (by rw [t1]; exact hrun6) ?_
      refine Runs.wait (by rw [c6]) ?_
      refine Runs.close ?_
      refine Runs.read (eval D b) [] ?_ rfl ?_ ?_
      · simp [Kernel.reaped_proc_self _ _ _ _ _ (show c ≠ c + 1 + nodes a by omega), c6, hq0]
      · simp [q6]
      simp only [ne_eq, not_true_eq_false, if_false, Option.getD_some]
      rw [← hK9, hv]
      refine Runs.write hfd9 hwr ?_
      simp only [ne_eq, not_true_eq_false, if_false]
      exact Runs.exit _ _ _
    · have h1 : fd.pipe ≠ q := by omega
      simp [b9, b5, h1, b6 _ h1 (Or.inl (by omega)), b2 _ h1 (Or.inl (by omega))]
    · intro i h1 h2
      simp only [inner] at h2
      have h3 : i ≠ q := by omega
      simp [h1, b9, b5, h3, b6 _ h3 (by omega), b2 _ h3 (by omega)]
    · intro p h1 h2
      simp only [nodes] at h2
      rw [Kernel.terminate_proc_other _ _ _ _ (by omega) (by rw [hpar11]; exact h1)]
      simp [o9 p (by omega) (by omega), o6 p (by omega) (by omega),
        o5 p (by omega) (by omega), o2 p (by omega) (by omega)]
    · have := Kernel.terminate_proc_parent _ c (W_EXITED 16) hne11
      rw [hpar11] at this
      rw [this]
      simp [o9 par (by omega) (by omega), o6 par (by omega) (by omega),
        o5 par (by omega) (by omega), o2 par (by omega) (by omega)]
    · simp [hK9, hnp6, hK5, hnp2]
    · simp [hK9, hnq6, hK5, hnq2]
    · simp [hK9, hfl6, hK5, hfl2]
    · simp [hK9, htr6, hK5, htr2, collect_trace]

theorem main_runs (D : DoubleOps α) (files : String → Option tree_node) (prog path : String)
    {t : tree_node} (hfile : files path = some t) (hwf : WellFormed t) :
    ∃ K1, Runs (boot files) 1 (main D [prog, path]) K1 ∧
      K1.trace = main_trace D path t ∧ (K1.proc 1).state = .zombie (W_EXITED 0) ∧
      (K1.proc 2).state = .reaped := by
  obtain ⟨K0, hK0⟩ : ∃ K0 : Kernel α,
    K0 = (((boot files).log 1 (.get_tree_from_file path true)).piped 1).forked 1 := ⟨_, rfl⟩
  obtain ⟨K2, hrun2, hpid2, hpipe2, hst2, hrdy2, hfr2, hpar2, hbuf2, hfiles2, htr2⟩ :=
    build D hwf K0 2 1 ⟨0, true⟩ (by simp [hK0, boot]) (by simp [hK0, boot]) (by omega)
      (by simp [hK0, boot]) (by simp [hK0, boot]) (by simp [hK0, boot])
  have hq : K0.next_pipe = 1 := by simp [hK0, boot]
  rw [hq] at hst2 hrdy2 hbuf2 htr2
  have t2 : Int.toNat (2 : Int) = 2 := rfl
  obtain ⟨K4, hrun4, hb4, hbf4, hpf4, hpp4, hnp4, hnq4, hfl4, htr4⟩ :=
    collect_runs D hwf ((K2.counted 1 1).continued 1 2) 2 1 ⟨0, true⟩ 1
      (Ready.frame D hwf K2 _ _ _ _ _
        (fun p h1 h2 => by
          have e1 : p ≠ 2 := by omega
          have e2 : p ≠ 1 := by omega
          simp [t2, e1, e2])
        (by simp [t2]) (by simp [t2]) (by simp [t2]) (fun i _ _ => by simp) hrdy2)
      rfl (by simp) (by omega)
  have c2 : K2.proc 1 = { K0.proc 1 with ready := 1 } := by
    rw [hpar2]; simp [hK0, boot]
  have c4 : K4.proc 1 =
      { K0.proc 1 with
        ready := 0
        dead := [(2, W_EXITED 16)] } := by
    rw [hpp4]; simp [t2, c2, hK0, boot]
  have q4 : K4.buf 0 = [eval D t] := by
    rw [hb4]; simp [hbuf2 0 (by omega), hK0, boot]
  have hp4 : ((((K4.reaped 1 2 (W_EXITED 16) []).got 1 ⟨0, false⟩ (eval D t) []).log 1
      (.exit 0)).proc 1).parent = 0 := by
    simp [Kernel.reaped_proc_self _ _ _ _ _ (show 1 ≠ 2 by omega), c4, hK0, boot]
  refine ⟨(((K4.reaped 1 2 (W_EXITED 16) []).got 1 ⟨0, false⟩ (eval D t) []).log 1
    (.exit 0)).terminate 1 (W_EXITED 0), ?_, ?_, ?_, ?_⟩
  · have epath : [prog, path].getD 1 "" = path := rfl
    have eq0 : ((boot files : Kernel α).log 1 (.get_tree_from_file path true)).next_pipe = 0 :=
      rfl
    have ep0 : (((boot files : Kernel α).log 1 (.get_tree_from_file path true)).piped
      1).next_pid = 2 := rfl
    have e2 : ¬ (((2 : Nat) : Int) < 0) := by omega
    have e3 : ¬ (((2 : Nat) : Int) = 0) := by omega
    have e4 : Int.toNat ((2 : Nat) : Int) = 2 := rfl
    simp only [main, List.length_cons, List.length_nil, ne_eq, not_true_eq_false, if_false,
      epath]
    refine Runs.load hfile ?_
    refine Runs.pipe ?_
    simp only [lt_irrefl, if_false, eq0]
    refine Runs.fork K2 ?_ ?_
    · simp only [lt_irrefl, if_false, if_true, ep0]
      rw [Prog.seq_eq_self_of_never_returns _ .abort (child_never_returns D _ t),
        Prog.seq_eq_self_of_never_returns _ _ (child_never_returns D _ t)]
      rw [hK0] at hrun2
      exact hrun2
    · simp only [ep0, e2, e3, if_false, Prog.seq]
      refine Runs.ready (by rw [c2]) ?_
      refine Runs.cont (by rw [e4]; exact hst2) (by omega) (by rw [e4]; exact hrun4) ?_
      refine Runs.wait (by rw [c4]) ?_
      refine Runs.read (eval D t) [] ?_ rfl ?_ ?_
      · simp [Kernel.reaped_proc_self _ _ _ _ _ (show 1 ≠ 2 by omega), c4, hK0, boot]
      · simp [q4]
      simp only [ne_eq, not_true_eq_false, if_false]
      exact Runs.exit _ _ _
  · simp [htr4, htr2, hK0, boot, main_trace]
  · rw [Kernel.terminate_proc_self _ _ _ (by rw [hp4]; omega)]
  · rw [Kernel.terminate_proc_other _ _ _ _ (by omega) (by rw [hp4]; omega)]
    simp [Kernel.reaped]

theorem build_trace_pid (t : tree_node) (hwf : WellFormed t) :
    ∀ (c q : Nat) (e : Nat × Act α), e ∈ build_trace c q t → c ≤ e.1 := by
  induction hwf with
  | leaf name h => intro c q e he; simp [build_trace] at he; simp [he]
  | op name h a b ha hb iha ihb =>
    intro c q e he
    simp only [build_trace, List.mem_append, List.mem_cons, List.mem_singleton,
      List.not_mem_nil, or_false] at he
    rcases he with (((((he | he | he) | he) | (he | he)) | he) | (he | he))
    all_goals first
      | exact Nat.le_trans (by omega) (iha _ _ _ he)
      | exact Nat.le_trans (by omega) (ihb _ _ _ he)
      | (subst he; dsimp only; omega)

theorem collect_trace_pid (D : DoubleOps α) (t : tree_node) (hwf : WellFormed t) :
    ∀ (c : Nat) (fd : Fd) (q : Nat) (e : Nat × Act α), e ∈ collect_trace D c fd q t → c ≤ e.1 := by
  induction hwf with
  | leaf name h =>
    intro c fd q e he
    simp [collect_trace] at he
    rcases he with he | he | he <;> simp [he]
  | op name h a b ha hb iha ihb =>
    intro c fd q e he
    simp only [collect_trace, List.mem_append, List.mem_cons, List.mem_singleton,
      List.not_mem_nil, or_false] at he
    rcases he with ((((he | he) | (he | he | he | he)) | he) | (he | he | he | he | he))
    all_goals first
      | exact Nat.le_trans (by omega) (iha _ _ _ _ he)
      | exact Nat.le_trans (by omega) (ihb _ _ _ _ he)
      | (subst he; dsimp only; omega)

theorem reads_of_eq_nil (pid : Nat) (tr : List (Nat × Act α)) (h : ∀ e ∈ tr, pid < e.1) :
    reads_of pid tr = [] := by
  unfold reads_of
  rw [List.filterMap_eq_nil_iff]
  intro e he
  have := h e he
  obtain ⟨p, a⟩ := e
  cases a <;> simp
  intro hp; simp at this; omega

theorem wf_sum : WellFormed tree_sum :=
  .op "+" (by decide) _ _ (.leaf "3" (by decide)) (.leaf "4" (by decide))

theorem wf_prod : WellFormed tree_prod :=
  .op "*" (by decide) _ _
    (.op "+" (by decide) _ _ (.leaf "1" (by decide)) (.leaf "2" (by decide)))
    (.op "+" (by decide) _ _ (.leaf "3" (by decide)) (.leaf "4" (by decide)))

/-- Claim C3. The worker of a node labelled `+` or `*` whose child count is
not 2 prints the error and calls `exit(1)` and does nothing else, whatever
its environment answers: it creates no pipe, forks no worker and never
raises `SIGSTOP`. -/
theorem C3_operator_wrong_arity_exits (D : DoubleOps α) (fd : Fd) (name : String)
    (children : List tree_node) (rs : List (Resp α))
    (hop : name = "+" ∨ name = "*") (hlen : children.length ≠ 2) :
    (child D fd (.mk name children)).run rs =
      ([.stderr "child: invalid number of children in + or *", .exit 1], .exited 1) := by
  simp [child, hop, hlen, Prog.run]

theorem C3_witness :
    (child intOps ⟨0, true⟩ (.mk "+" [.mk "1" []])).run [] =
      ([.stderr "child: invalid number of children in + or *", .exit 1], .exited 1) :=
  C3_operator_wrong_arity_exits intOps ⟨0, true⟩ "+" [.mk "1" []] [] (by decide) (by decide)

/-- Claim C4, counterexample. On the tree `(+ 3 (* 1))` the worker of the
root is forked, creates a pipe and forks both children, and the leaf `3`
stops as Ready, before the worker of `*` reports the violated arity. -/
theorem C4_counterexample :
    (exec 40 (boot fun _ => some tree_bad) 1 (main intOps ["ex2-pipes", "bad.tree"])).map
        (fun K => (K.trace, rejected_before_work K.trace)) =
      some ([(1, .get_tree_from_file "bad.tree" true),
        (1, .pipe 0 ⟨0, false⟩ ⟨0, true⟩), (1, .fork 2), (2, .fork 0),
        (2, .pipe 0 ⟨1, false⟩ ⟨1, true⟩), (2, .fork 3), (3, .fork 0), (3, .raise_SIGSTOP),
        (2, .fork 4), (4, .fork 0),
        (4, .stderr "child: invalid number of children in + or *"), (4, .exit 1)], false) := by
  rfl

/-- Claim C4, as amended. The arity of a node is checked by the worker of
that node, before any other call: when the node violates the invariant (an
operator without exactly two children, or another node with children) the
worker prints the error and calls `exit(1)` without creating a pipe, forking
or raising `SIGSTOP`, whatever its environment answers. -/
theorem C4_own_node_checked_first (D : DoubleOps α) (fd : Fd) (name : String)
    (children : List tree_node) (rs : List (Resp α))
    (hbad : ((name = "+" ∨ name = "*") ∧ children.length ≠ 2) ∨
      (¬ (name = "+" ∨ name = "*") ∧ children.length ≠ 0)) :
    ∃ m, (child D fd (.mk name children)).run rs = ([.stderr m, .exit 1], .exited 1) ∧
      (Act.stderr m : Act α).is_rejection = true := by
  rcases hbad with ⟨hop, hlen⟩ | ⟨hop, hlen⟩
  · exact ⟨"child: invalid number of children in + or *",
      by simp [child, hop, hlen, Prog.run], by simp [Act.is_rejection]⟩
  · exact ⟨"child: invalid number of children in digit",
      by simp [child, hop, hlen, Prog.run], by simp [Act.is_rejection]⟩

theorem C4_witness :
    ∃ m, (child intOps ⟨0, true⟩ (.mk "7" [.mk "1" []])).run [] =
        ([.stderr m, .exit 1], .exited 1) ∧
      (Act.stderr m : Act Int).is_rejection = true :=
  C4_own_node_checked_first intOps ⟨0, true⟩ "7" [.mk "1" []] [] (Or.inr (by decide))

end ex2_pipes

/-- Claim C10, counterexample. With three arguments `ex2-signals` prints no
usage message: it loads the tree named by `argv[1]` and goes on to `fork`. -/
theorem C10_counterexample :
    ["ex2-signals", "a.tree", "extra"].length ≠ 2 ∧
    (ex2_signals.main ["ex2-signals", "a.tree", "extra"] : Prog Int).run
        [loaded (.mk "A" []), answer 7] =
      ([.get_tree_from_file "a.tree" true, .fork 7], .pending) := by
  constructor
  · decide
  · rfl

/-- Claim C10, as amended. When the tree-file argument is missing
(`argc < 2`) each of the three programs prints its usage message and exits
with status 1 without any other call.  `ex2-pipes` and `ex2-tree` do the same
for every `argc` other than 2; `ex2-signals` accepts every `argc ≥ 2` and
loads the tree named by `argv[1]`. -/
theorem C10_usage_on_missing_argument (D : DoubleOps α) (argv : List String)
    (rs : List (Resp α)) :
    (argv.length < 2 →
      (ex2_pipes.main D argv).run rs = ([.stderr (usage_input argv), .exit 1], .exited 1) ∧
      (ex2_signals.main argv : Prog α).run rs =
        ([.stderr (usage_tree argv), .exit 1], .exited 1) ∧
      (ex2_tree.main argv : Prog α).run rs =
        ([.stderr (usage_input argv), .exit 1], .exited 1)) ∧
    (argv.length ≠ 2 →
      (ex2_pipes.main D argv).run rs = ([.stderr (usage_input argv), .exit 1], .exited 1) ∧
      (ex2_tree.main argv : Prog α).run rs =
        ([.stderr (usage_input argv), .exit 1], .exited 1)) ∧
    (2 ≤ argv.length → ∀ (r : Resp α) (t : tree_node), r.tree = some t →
      ∃ tr o, (ex2_signals.main argv : Prog α).run (r :: rs) =
        (.get_tree_from_file (argv.getD 1 "") true :: tr, o)) := by
  refine ⟨fun h => ?_, fun h => ?_, fun h r t ht => ?_⟩
  · have h2 : argv.length ≠ 2 := by omega
    simp [ex2_pipes.main, ex2_signals.main, ex2_tree.main, h, h2, Prog.run, usage_input,
      usage_tree]
  · simp [ex2_pipes.main, ex2_tree.main, h, Prog.run, usage_input]
  · have h2 : ¬ argv.length < 2 := by omega
    simp only [ex2_signals.main, h2, if_false, Prog.run, ht]
    exact ⟨_, _, rfl⟩

theorem C10_witness :
    ((ex2_pipes.main intOps ["ex2-pipes"]).run [] =
        ([.stderr (usage_input ["ex2-pipes"]), .exit 1], .exited 1) ∧
      (ex2_signals.main ["ex2-pipes"] : Prog Int).run [] =
        ([.stderr (usage_tree ["ex2-pipes"]), .exit 1], .exited 1) ∧
      (ex2_tree.main ["ex2-pipes"] : Prog Int).run [] =
        ([.stderr (usage_input ["ex2-pipes"]), .exit 1], .exited 1)) ∧
    ((ex2_pipes.main intOps ["ex2-pipes", "a.tree", "extra"]).run [] =
        ([.stderr (usage_input ["ex2-pipes", "a.tree", "extra"]), .exit 1], .exited 1) ∧
      (ex2_tree.main ["ex2-pipes", "a.tree", "extra"] : Prog Int).run [] =
        ([.stderr (usage_input ["ex2-pipes", "a.tree", "extra"]), .exit 1], .exited 1)) ∧
    (∃ tr o, (ex2_signals.main ["ex2-signals", "a.tree", "extra"] : Prog Int).run
        (loaded (.mk "A" []) :: [answer 7]) =
      (.get_tree_from_file (["ex2-signals", "a.tree", "extra"].getD 1 "") true :: tr, o)) :=
  ⟨(C10_usage_on_missing_argument intOps ["ex2-pipes"] []).1 (by decide),
   (C10_usage_on_missing_argument intOps ["ex2-pipes", "a.tree", "extra"] []).2.1 (by decide),
   (C10_usage_on_missing_argument intOps ["ex2-signals", "a.tree", "extra"] [answer 7]).2.2
      (by decide) (loaded (.mk "A" [])) (.mk "A" []) rfl⟩

theorem count_calls_nil (f : Act α → Bool) : count_calls f [] = 0 := rfl

theorem count_calls_cons (f : Act α → Bool) (p : Nat) (a : Act α) (tr : List (Nat × Act α)) :
    count_calls f ((p, a) :: tr) = count_calls f tr + if f a then 1 else 0 := by
  simp [count_calls, List.countP_cons]

theorem count_calls_append (f : Act α → Bool) (tr1 tr2 : List (Nat × Act α)) :
    count_calls f (tr1 ++ tr2) = count_calls f tr1 + count_calls f tr2 := by
  simp [count_calls, List.countP_append]

namespace ex2_pipes

theorem build_trace_counts {t : tree_node} (hwf : WellFormed t) :
    ∀ (c q x : Nat), writes_on x (build_trace c q t : List (Nat × Act α)) = 0 ∧
      reads_on x (build_trace c q t : List (Nat × Act α)) = 0 ∧
      short_transfers (build_trace c q t : List (Nat × Act α)) = 0 ∧
      pipe_calls (build_trace c q t : List (Nat × Act α)) = inner t := by
  induction hwf with
  | leaf name h =>
    intro c q x
    simp [build_trace, writes_on, reads_on, short_transfers, pipe_calls, count_calls_cons,
      count_calls_nil, Act.writes, Act.reads, Act.short_transfer, Act.is_pipe, inner]
  | op name h a b ha hb iha ihb =>
    intro c q x
    obtain ⟨a1, a2, a3, a4⟩ := iha (c + 1) (q + 1) x
    obtain ⟨b1, b2, b3, b4⟩ := ihb (c + 1 + nodes a) (q + 1 + inner a) x
    simp only [writes_on, reads_on, short_transfers, pipe_calls] at a1 a2 a3 a4 b1 b2 b3 b4 ⊢
    simp only [build_trace, count_calls_append, count_calls_cons, count_calls_nil, a1, a2, a3,
      a4, b1, b2, b3, b4, Act.writes, Act.reads, Act.short_transfer, Act.is_pipe, inner]
    simp only [Bool.false_eq_true, if_false, if_true, add_zero, zero_add, true_and]

theorem collect_trace_counts (D : DoubleOps α) {t : tree_node} (hwf : WellFormed t) :
    ∀ (c : Nat) (fd : Fd) (q x : Nat), fd.pipe < q →
      writes_on x (collect_trace D c fd q t) =
        (if q ≤ x ∧ x < q + inner t then 2 else 0) + (if x = fd.pipe then 1 else 0) ∧
      reads_on x (collect_trace D c fd q t) = (if q ≤ x ∧ x < q + inner t then 2 else 0) ∧
      short_transfers (collect_trace D c fd q t) = 0 ∧
      pipe_calls (collect_trace D c fd q t) = 0 := by
  induction hwf with
  | leaf name h =>
    intro c fd q x hfd
    have e1 : ¬ (q ≤ x ∧ x < q + 0) := by omega
    simp only [collect_trace, writes_on, reads_on, short_transfers, pipe_calls,
      count_calls_cons, count_calls_nil, Act.writes, Act.reads, Act.short_transfer,
      Act.is_pipe, inner, e1, if_false]
    simp [eq_comm]
  | op name h a b ha hb iha ihb =>
    intro c fd q x hfd
    obtain ⟨a1, a2, a3, a4⟩ := iha (c + 1) ⟨q, true⟩ (q + 1) x (by simp)
    obtain ⟨b1, b2, b3, b4⟩ := ihb (c + 1 + nodes a) ⟨q, true⟩ (q + 1 + inner a) x
      (by simp; omega)
    simp only [writes_on, reads_on, short_transfers, pipe_calls] at a1 a2 a3 a4 b1 b2 b3 b4 ⊢
    simp only [collect_trace, count_calls_append, count_calls_cons, count_calls_nil, a1, a2, a3,
      a4, b1, b2, b3, b4, Act.writes, Act.reads, Act.short_transfer, Act.is_pipe, inner]
    simp only [ne_eq, not_true_eq_false, decide_False, decide_eq_true_eq, Bool.false_eq_true,
      if_false, add_zero, zero_add, and_true]
    refine ⟨?_, ?_⟩
    · split_ifs <;> omega
    · split_ifs <;> omega

/-- Claim C6, counterexample. In the run on the tree `(+ 3 4)` the pipe
created by the worker of `+` (pipe 1) carries two writes and two reads. -/
theorem C6_counterexample :
    (exec 60 (boot fun _ => some tree_sum) 1 (main intOps ["ex2-pipes", "sum.tree"])).map
        (fun K => (writes_on 1 K.trace, reads_on 1 K.trace, K.trace.getLast?)) =
      some (2, 2, some (1, .exit 0)) := by
  rfl

theorem main_runs_counts (D : DoubleOps α) (files : String → Option tree_node)
    (prog path : String) (t : tree_node) (hfile : files path = some t) (hwf : WellFormed t) :
    ∃ K1, Runs (boot files) 1 (main D [prog, path]) K1 ∧
      (K1.proc 1).state = .zombie (W_EXITED 0) ∧
      pipe_calls K1.trace = 1 + inner t ∧ short_transfers K1.trace = 0 ∧
      (∀ q, writes_on q K1.trace = if q = 0 then 1 else if q ≤ inner t then 2 else 0) ∧
      (∀ q, reads_on q K1.trace = if q = 0 then 1 else if q ≤ inner t then 2 else 0) := by
  obtain ⟨K1, hrun, htr, hst, -⟩ := main_runs D files prog path hfile hwf
  refine ⟨K1, hrun, hst, ?_, ?_, ?_, ?_⟩
  · obtain ⟨-, -, -, b4⟩ := @build_trace_counts α _ hwf 2 1 0
    obtain ⟨-, -, -, c4⟩ := collect_trace_counts D hwf 2 ⟨0, true⟩ 1 0 (by simp)
    simp only [pipe_calls] at b4 c4 ⊢
    simp only [htr, main_trace, count_calls_append, count_calls_cons, count_calls_nil, b4, c4,
      Act.is_pipe]
    simp only [Bool.false_eq_true, if_false, if_true, add_zero, zero_add]
  · obtain ⟨-, -, b3, -⟩ := @build_trace_counts α _ hwf 2 1 0
    obtain ⟨-, -, c3, -⟩ := collect_trace_counts D hwf 2 ⟨0, true⟩ 1 0 (by simp)
    simp only [short_transfers] at b3 c3 ⊢
    simp only [htr, main_trace, count_calls_append, count_calls_cons, count_calls_nil, b3, c3,
      Act.short_transfer]
    simp
  · intro q
    obtain ⟨b1, -, -, -⟩ := @build_trace_counts α _ hwf 2 1 q
    obtain ⟨c1, -, -, -⟩ := collect_trace_counts D hwf 2 ⟨0, true⟩ 1 q (by simp)
    simp only [writes_on] at b1 c1 ⊢
    simp only [htr, main_trace, count_calls_append, count_calls_cons, count_calls_nil, b1, c1,
      Act.writes]
    simp only [Bool.false_eq_true, if_false, add_zero, zero_add]
    split_ifs <;> omega
  · intro q
    obtain ⟨-, b2, -, -⟩ := @build_trace_counts α _ hwf 2 1 q
    obtain ⟨-, c2, -, -⟩ := collect_trace_counts D hwf 2 ⟨0, true⟩ 1 q (by simp)
    simp only [reads_on] at b2 c2 ⊢
    simp only [htr, main_trace, count_calls_append, count_calls_cons, count_calls_nil, b2, c2,
      Act.reads]
    simp only [Bool.false_eq_true, if_false, add_zero, zero_add, decide_eq_true_eq]
    split_ifs <;> omega

end ex2_pipes

namespace Prog

theorem seq_ite_ret (p : Int) (X Y : Prog α) (h : X.never_returns) :
    Prog.seq (if p = 0 then X else .ret) Y = if p = 0 then X else Y := by
  by_cases hp : p = 0
  · simp only [hp, if_true]; exact seq_eq_self_of_never_returns _ _ h
  · simp only [hp, if_false, seq]

end Prog

theorem fatal_at_succ (a : Act α) (tr : List (Act α)) (o : Outcome) (i : Nat)
    (h : fatal_at tr o i) : fatal_at (a :: tr) o (i + 1) := h

theorem fatal_at_zero (a : Act α) (m : String) : fatal_at [a, .stderr m, .exit 1] (.exited 1) 0 :=
  ⟨⟨m, rfl⟩, rfl⟩

theorem FailFastRun.nil (o : Outcome) : FailFastRun ([] : List (Act α)) o := by
  intro i a h; simp at h

theorem FailFastRun.cons_call {a : Act α} {tr : List (Act α)} {o : Outcome}
    (h : FailFastRun tr o)
    (ha : (a.short_transfer = true ∨ a.failed_creation = true) →
      ∃ m, tr = [.stderr m, .exit 1] ∧ o = .exited 1) :
    FailFastRun (a :: tr) o := by
  intro i b hb hf
  cases i with
  | zero =>
    simp at hb; subst hb
    obtain ⟨m, h1, h2⟩ := ha hf
    subst h1; subst h2
    exact fatal_at_zero _ _
  | succ j =>
    simp at hb
    exact fatal_at_succ _ _ _ _ (h j b hb hf)

theorem FailFastRun.single (a : Act α) (o : Outcome)
    (ha : a.short_transfer = false ∧ a.failed_creation = false) : FailFastRun [a] o := by
  intro i b hb hf
  cases i with
  | zero => simp at hb; subst hb; rcases hf with hf | hf <;> simp [ha] at hf
  | succ j => simp at hb

theorem run_stderr_exit (m : String) (rs : List (Resp α)) :
    (Prog.stderr m (.exit 1) : Prog α).run rs = ([.stderr m, .exit 1], .exited 1) := by
  simp [Prog.run]

theorem Prog.failfast_run : ∀ (P : Prog α), P.failfast → ∀ rs, FailFastRun (P.run rs).1 (P.run rs).2
  | .exit s, _, rs => by
    simp only [Prog.run]; exact FailFastRun.single _ _ ⟨rfl, rfl⟩
  | .ret, _, rs => by
    simp only [Prog.run]; exact FailFastRun.single _ _ ⟨rfl, rfl⟩
  | .abort, _, rs => by
    simp only [Prog.run]; exact FailFastRun.single _ _ ⟨rfl, rfl⟩
  | .stderr m k, h, rs => by
    simp only [Prog.run]
    exact FailFastRun.cons_call (Prog.failfast_run k h rs) (by simp [Act.short_transfer, Act.failed_creation])
  | .get_tree_from_file p k, h, rs => by
    cases rs with
    | nil => simp only [Prog.run]; exact FailFastRun.nil _
    | cons r rs =>
      simp only [Prog.run]
      cases ht : r.tree with
      | none =>
        simp only
        exact FailFastRun.cons_call (FailFastRun.single _ _ ⟨rfl, rfl⟩)
          (by simp [Act.short_transfer, Act.failed_creation])
      | some t =>
        simp only
        exact FailFastRun.cons_call (Prog.failfast_run (k t) (h t) rs)
          (by simp [Act.short_transfer, Act.failed_creation])
  | .pipe k, h, rs => by
    cases rs with
    | nil => simp only [Prog.run]; exact FailFastRun.nil _
    | cons r rs =>
      simp only [Prog.run]
      refine FailFastRun.cons_call (Prog.failfast_run _ (h _ _ _).2 rs) ?_
      intro hf
      simp [Act.short_transfer, Act.failed_creation] at hf
      obtain ⟨m, hm⟩ := (h r.ret r.pfd0 r.pfd1).1 hf
      exact ⟨m, by rw [hm, run_stderr_exit], by rw [hm, run_stderr_exit]⟩
  | .fork k, h, rs => by
    cases rs with
    | nil => simp only [Prog.run]; exact FailFastRun.nil _
    | cons r rs =>
      simp only [Prog.run]
      refine FailFastRun.cons_call (Prog.failfast_run _ (h _).2 rs) ?_
      intro hf
      simp [Act.short_transfer, Act.failed_creation] at hf
      obtain ⟨m, hm⟩ := (h r.ret).1 hf
      exact ⟨m, by rw [hm, run_stderr_exit], by rw [hm, run_stderr_exit]⟩
  | .wait_for_ready_children n k, h, rs => by
    cases rs with
    | nil => simp only [Prog.run]; exact FailFastRun.nil _
    | cons r rs =>
      simp only [Prog.run]
      exact FailFastRun.cons_call (Prog.failfast_run k h rs)
        (by simp [Act.short_transfer, Act.failed_creation])
  | .raise_SIGSTOP k, h, rs => by
    cases rs with
    | nil => simp only [Prog.run]; exact FailFastRun.nil _
    | cons r rs =>
      simp only [Prog.run]
      exact FailFastRun.cons_call (Prog.failfast_run k h rs)
        (by simp [Act.short_transfer, Act.failed_creation])
  | .kill_SIGCONT p k, h, rs => by
    cases rs with
    | nil => simp only [Prog.run]; exact FailFastRun.nil _
    | cons r rs =>
      simp only [Prog.run]
      exact FailFastRun.cons_call (Prog.failfast_run k h rs)
        (by simp [Act.short_transfer, Act.failed_creation])
  | .wait k, h, rs => by
    cases rs with
    | nil => simp only [Prog.run]; exact FailFastRun.nil _
    | cons r rs =>
      simp only [Prog.run]
      exact FailFastRun.cons_call (Prog.failfast_run _ (h _ _) rs)
        (by simp [Act.short_transfer, Act.failed_creation])
  | .close fd k, h, rs => by
    cases rs with
    | nil => simp only [Prog.run]; exact FailFastRun.nil _
    | cons r rs =>
      simp only [Prog.run]
      exact FailFastRun.cons_call (Prog.failfast_run k h rs)
        (by simp [Act.short_transfer, Act.failed_creation])
  | .read fd k, h, rs => by
    cases rs with
    | nil => simp only [Prog.run]; exact FailFastRun.nil _
    | cons r rs =>
      simp only [Prog.run]
      refine FailFastRun.cons_call (Prog.failfast_run _ (h _ _).2 rs) ?_
      intro hf
      simp [Act.short_transfer, Act.failed_creation] at hf
      obtain ⟨m, hm⟩ := (h r.ret r.val).1 hf
      exact ⟨m, by rw [hm, run_stderr_exit], by rw [hm, run_stderr_exit]⟩
  | .write fd v k, h, rs => by
    cases rs with
    | nil => simp only [Prog.run]; exact FailFastRun.nil _
    | cons r rs =>
      simp only [Prog.run]
      refine FailFastRun.cons_call (Prog.failfast_run _ (h _).2 rs) ?_
      intro hf
      simp [Act.short_transfer, Act.failed_creation] at hf
      obtain ⟨m, hm⟩ := (h r.ret).1 hf
      exact ⟨m, by rw [hm, run_stderr_exit], by rw [hm, run_stderr_exit]⟩
  | .sleep n k, h, rs => by
    cases rs with
    | nil => simp only [Prog.run]; exact FailFastRun.nil _
    | cons r rs =>
      simp only [Prog.run]
      exact FailFastRun.cons_call (Prog.failfast_run k h rs)
        (by simp [Act.short_transfer, Act.failed_creation])

namespace Prog

theorem failfast_seq : ∀ (P Q : Prog α), P.failfast → Q.failfast → (P.seq Q).failfast
  | .exit _, _, _, _ => trivial
  | .ret, _, _, h => h
  | .abort, _, _, _ => trivial
  | .stderr _ k, Q, hP, hQ => failfast_seq k Q hP hQ
  | .get_tree_from_file _ k, Q, hP, hQ => fun t => failfast_seq (k t) Q (hP t) hQ
  | .pipe k, Q, hP, hQ => fun r a b =>
    ⟨fun hr => by
      obtain ⟨m, hm⟩ := (hP r a b).1 hr
      exact ⟨m, by show (_ : Prog α).seq Q = _; rw [hm]; rfl⟩, failfast_seq _ Q (hP r a b).2 hQ⟩
  | .fork k, Q, hP, hQ => fun r =>
    ⟨fun hr => by
      obtain ⟨m, hm⟩ := (hP r).1 hr
      exact ⟨m, by show (_ : Prog α).seq Q = _; rw [hm]; rfl⟩, failfast_seq _ Q (hP r).2 hQ⟩
  | .wait_for_ready_children _ k, Q, hP, hQ => failfast_seq k Q hP hQ
  | .raise_SIGSTOP k, Q, hP, hQ => failfast_seq k Q hP hQ
  | .kill_SIGCONT _ k, Q, hP, hQ => failfast_seq k Q hP hQ
  | .wait k, Q, hP, hQ => fun p s => failfast_seq (k p s) Q (hP p s) hQ
  | .close _ k, Q, hP, hQ => failfast_seq k Q hP hQ
  | .read _ k, Q, hP, hQ => fun r v =>
    ⟨fun hr => by
      obtain ⟨m, hm⟩ := (hP r v).1 hr
      exact ⟨m, by show (_ : Prog α).seq Q = _; rw [hm]; rfl⟩, failfast_seq _ Q (hP r v).2 hQ⟩
  | .write _ _ k, Q, hP, hQ => fun r =>
    ⟨fun hr => by
      obtain ⟨m, hm⟩ := (hP r).1 hr
      exact ⟨m, by show (_ : Prog α).seq Q = _; rw [hm]; rfl⟩, failfast_seq _ Q (hP r).2 hQ⟩
  | .sleep _ k, Q, hP, hQ => failfast_seq k Q hP hQ

theorem for_range_failfast {σ : Type} (body : Nat → σ → (σ → Prog α) → Prog α)
    (done : σ → Prog α)
    (hbody : ∀ i s next, (∀ s1, (next s1).failfast) → (body i s next).failfast)
    (hdone : ∀ s, (done s).failfast) :
    ∀ (count i : Nat) (s : σ), (for_range count i s body done).failfast
  | 0, _, s => hdone s
  | n + 1, i, s => hbody i s _ fun s1 => for_range_failfast body done hbody hdone n (i + 1) s1

end Prog

namespace ex2_pipes

theorem send_failfast (D : DoubleOps α) (fd : Fd) (name : String) :
    (send D fd name).failfast := by
  intro r
  by_cases h : r = sizeof_double
  · simp [h, Prog.failfast]
  · simp only [ne_eq, h, not_false_eq_true, if_true, Prog.failfast, and_true]
    exact fun _ => ⟨_, rfl⟩

theorem collect_failfast (D : DoubleOps α) (fd : Fd) (name : String) (nr : Nat)
    (pfd0 pfd1 : Fd) (pid_child : Nat → Int) :
    (collect D fd name nr pfd0 pfd1 pid_child).failfast := by
  unfold collect
  apply Prog.for_range_failfast
  · intro i s next hnext p st r v
    by_cases h : r = sizeof_double
    · simp only [h, ne_eq, not_true_eq_false, if_false, false_implies, true_and]
      exact hnext _
    · simp only [ne_eq, h, not_false_eq_true, if_true, Prog.failfast, and_true]
      exact fun _ => ⟨_, rfl⟩
  · intro s r
    by_cases h : r = sizeof_double
    · simp [h, Prog.failfast]
    · simp only [ne_eq, h, not_false_eq_true, if_true, Prog.failfast, and_true]
      exact fun _ => ⟨_, rfl⟩

mutual
theorem child_failfast (D : DoubleOps α) :
    ∀ (t : tree_node) (fd : Fd), (child D fd t).failfast
  | .mk name children, fd => by
    unfold child
    by_cases hop : name = "+" ∨ name = "*"
    · simp only [hop, if_true]
      by_cases hlen : children.length = 2
      · simp only [hlen, ne_eq, not_true_eq_false, if_false]
        intro r pfd0 pfd1
        by_cases hr : r < 0
        · simp only [hr, if_true, Prog.failfast, and_true]
          exact fun _ => ⟨_, rfl⟩
        · simp only [hr, if_false, false_implies, true_and]
          apply Prog.for_range_failfast
          · intro i s next hnext p
            by_cases hp : p < 0
            · simp only [hp, if_true, Prog.failfast, and_true]
              exact fun _ => ⟨_, rfl⟩
            · simp only [hp, if_false, false_implies, true_and]
              apply Prog.failfast_seq _ _ _ (hnext _)
              by_cases h0 : p = 0
              · simp only [h0, if_true]; exact child_at_failfast D children i pfd1
              · simp only [h0, if_false, Prog.failfast]
          · intro s
            exact collect_failfast D fd name _ pfd0 pfd1 s
      · simp [hlen, Prog.failfast]
    · simp only [hop, if_false]
      by_cases hlen : children.length = 0
      · simp only [hlen, ne_eq, not_true_eq_false, if_false]
        exact send_failfast D fd name
      · simp [hlen, Prog.failfast]
theorem child_at_failfast (D : DoubleOps α) :
    ∀ (cs : List tree_node) (i : Nat) (fd : Fd), (child_at D fd cs i).failfast
  | [], _, _ => by simp [child_at, Prog.failfast]
  | c :: _, 0, fd => by rw [child_at]; exact child_failfast D c fd
  | _ :: cs, i + 1, fd => by rw [child_at]; exact child_at_failfast D cs i fd
end

theorem main_failfast (D : DoubleOps α) (argv : List String) : (main D argv).failfast := by
  unfold main
  by_cases hlen : argv.length = 2
  · simp only [hlen, ne_eq, not_true_eq_false, if_false]
    intro root r pfd0 pfd1
    by_cases hr : r < 0
    · simp only [hr, if_true, Prog.failfast, and_true]
      exact fun _ => ⟨_, rfl⟩
    · simp only [hr, if_false, false_implies, true_and]
      intro p
      by_cases hp : p < 0
      · simp only [hp, if_true, Prog.failfast, and_true]
        exact fun _ => ⟨_, rfl⟩
      · simp only [hp, if_false, false_implies, true_and]
        apply Prog.failfast_seq
        · by_cases h0 : p = 0
          · simp only [h0, if_true]
            exact Prog.failfast_seq _ _ (child_failfast D root pfd1) trivial
          · simp only [h0, if_false, Prog.failfast]
        · intro q st r v
          by_cases h : r = sizeof_double
          · simp [h, Prog.failfast]
          · simp only [ne_eq, h, not_false_eq_true, if_true, Prog.failfast, and_true]
            exact fun _ => ⟨_, rfl⟩
  · simp [hlen, Prog.failfast]

end ex2_pipes

namespace Prog

theorem exits16_seq : ∀ (P Q : Prog α), P.exits16 → Q.exits16 → (P.seq Q).exits16
  | .exit _, _, h, _ => h
  | .ret, _, _, h => h
  | .abort, _, _, _ => trivial
  | .stderr _ k, Q, hP, _ => by
    show k.seq Q = .exit 1
    have : k = .exit 1 := hP
    rw [this]; rfl
  | .get_tree_from_file _ _, _, hP, _ => hP.elim
  | .pipe k, Q, hP, hQ => fun r a b => exits16_seq (k r a b) Q (hP r a b) hQ
  | .fork k, Q, hP, hQ => fun r => exits16_seq (k r) Q (hP r) hQ
  | .wait_for_ready_children _ k, Q, hP, hQ => exits16_seq k Q hP hQ
  | .raise_SIGSTOP k, Q, hP, hQ => exits16_seq k Q hP hQ
  | .kill_SIGCONT _ k, Q, hP, hQ => exits16_seq k Q hP hQ
  | .wait k, Q, hP, hQ => fun p s => exits16_seq (k p s) Q (hP p s) hQ
  | .close _ k, Q, hP, hQ => exits16_seq k Q hP hQ
  | .read _ k, Q, hP, hQ => fun r v => exits16_seq (k r v) Q (hP r v) hQ
  | .write _ _ k, Q, hP, hQ => fun r => exits16_seq (k r) Q (hP r) hQ
  | .sleep _ k, Q, hP, hQ => exits16_seq k Q hP hQ

theorem for_range_exits16 {σ : Type} (body : Nat → σ → (σ → Prog α) → Prog α)
    (done : σ → Prog α)
    (hbody : ∀ i s next, (∀ s1, (next s1).exits16) → (body i s next).exits16)
    (hdone : ∀ s, (done s).exits16) :
    ∀ (count i : Nat) (s : σ), (for_range count i s body done).exits16
  | 0, _, s => hdone s
  | n + 1, i, s => hbody i s _ fun s1 => for_range_exits16 body done hbody hdone n (i + 1) s1

end Prog

theorem Exit16.cons_exit {a : Act α} {tr : List (Act α)} {o : Outcome} (h : Exit16 tr o) :
    Exit16 (a :: tr) o := by
  intro s hs
  rcases h s hs with h | ⟨h, m, hm⟩
  · exact Or.inl h
  · exact Or.inr ⟨h, m, List.mem_cons_of_mem _ hm⟩

theorem Exit16.pending (tr : List (Act α)) : Exit16 tr .pending := by
  intro s hs; cases hs

theorem Prog.exits16_run : ∀ (P : Prog α), P.exits16 → ∀ rs, Exit16 (P.run rs).1 (P.run rs).2
  | .exit s, h, rs => by
    intro s1 hs; simp only [Prog.run, Outcome.exited.injEq] at hs
    have : s = 16 := h
    omega
  | .ret, _, rs => by intro s hs; simp [Prog.run] at hs
  | .abort, _, rs => by intro s hs; simp [Prog.run] at hs
  | .stderr m k, h, rs => by
    have : k = .exit 1 := h
    subst this
    intro s hs
    simp only [Prog.run, Outcome.exited.injEq] at hs
    exact Or.inr ⟨hs.symm, m, by simp [Prog.run]⟩
  | .get_tree_from_file p k, h, rs => h.elim
  | .pipe k, h, rs => by
    cases rs with
    | nil => exact Exit16.pending _
    | cons r rs => simp only [Prog.run]; exact (Prog.exits16_run _ (h _ _ _) rs).cons_exit
  | .fork k, h, rs => by
    cases rs with
    | nil => exact Exit16.pending _
    | cons r rs => simp only [Prog.run]; exact (Prog.exits16_run _ (h _) rs).cons_exit
  | .wait_for_ready_children n k, h, rs => by
    cases rs with
    | nil => exact Exit16.pending _
    | cons r rs => simp only [Prog.run]; exact (Prog.exits16_run k h rs).cons_exit
  | .raise_SIGSTOP k, h, rs => by
    cases rs with
    | nil => exact Exit16.pending _
    | cons r rs => simp only [Prog.run]; exact (Prog.exits16_run k h rs).cons_exit
  | .kill_SIGCONT p k, h, rs => by
    cases rs with
    | nil => exact Exit16.pending _
    | cons r rs => simp only [Prog.run]; exact (Prog.exits16_run k h rs).cons_exit
  | .wait k, h, rs => by
    cases rs with
    | nil => exact Exit16.pending _
    | cons r rs => simp only [Prog.run]; exact (Prog.exits16_run _ (h _ _) rs).cons_exit
  | .close fd k, h, rs => by
    cases rs with
    | nil => exact Exit16.pending _
    | cons r rs => simp only [Prog.run]; exact (Prog.exits16_run k h rs).cons_exit
  | .read fd k, h, rs => by
    cases rs with
    | nil => exact Exit16.pending _
    | cons r rs => simp only [Prog.run]; exact (Prog.exits16_run _ (h _ _) rs).cons_exit
  | .write fd v k, h, rs => by
    cases rs with
    | nil => exact Exit16.pending _
    | cons r rs => simp only [Prog.run]; exact (Prog.exits16_run _ (h _) rs).cons_exit
  | .sleep n k, h, rs => by
    cases rs with
    | nil => exact Exit16.pending _
    | cons r rs => simp only [Prog.run]; exact (Prog.exits16_run k h rs).cons_exit

namespace ex2_pipes

theorem send_exits16 (D : DoubleOps α) (fd : Fd) (name : String) :
    (send D fd name).exits16 := by
  intro r
  by_cases h : r = sizeof_double <;> simp [h, Prog.exits16]

theorem collect_exits16 (D : DoubleOps α) (fd : Fd) (name : String) (nr : Nat)
    (pfd0 pfd1 : Fd) (pid_child : Nat → Int) :
    (collect D fd name nr pfd0 pfd1 pid_child).exits16 := by
  unfold collect
  apply Prog.for_range_exits16
  · intro i s next hnext p st r v
    by_cases h : r = sizeof_double
    · simp only [h, ne_eq, not_true_eq_false, if_false]; exact hnext _
    · simp [h, Prog.exits16]
  · intro s r
    by_cases h : r = sizeof_double <;> simp [h, Prog.exits16]

mutual
theorem child_exits16 (D : DoubleOps α) :
    ∀ (t : tree_node) (fd : Fd), (child D fd t).exits16
  | .mk name children, fd => by
    unfold child
    by_cases hop : name = "+" ∨ name = "*"
    · simp only [hop, if_true]
      by_cases hlen : children.length = 2
      · simp only [hlen, ne_eq, not_true_eq_false, if_false]
        intro r pfd0 pfd1
        by_cases hr : r < 0
        · simp [hr, Prog.exits16]
        · simp only [hr, if_false]
          apply Prog.for_range_exits16
          · intro i s next hnext p
            by_cases hp : p < 0
            · simp [hp, Prog.exits16]
            · simp only [hp, if_false]
              apply Prog.exits16_seq _ _ _ (hnext _)
              by_cases h0 : p = 0
              · simp only [h0, if_true]; exact child_at_exits16 D children i pfd1
              · simp only [h0, if_false, Prog.exits16]
          · intro s
            exact collect_exits16 D fd name _ pfd0 pfd1 s
      · simp [hlen, Prog.exits16]
    · simp only [hop, if_false]
      by_cases hlen : children.length = 0
      · simp only [hlen, ne_eq, not_true_eq_false, if_false]
        exact send_exits16 D fd name
      · simp [hlen, Prog.exits16]
theorem child_at_exits16 (D : DoubleOps α) :
    ∀ (cs : List tree_node) (i : Nat) (fd : Fd), (child_at D fd cs i).exits16
  | [], _, _ => by simp [child_at, Prog.exits16]
  | c :: _, 0, fd => by rw [child_at]; exact child_exits16 D c fd
  | _ :: cs, i + 1, fd => by rw [child_at]; exact child_at_exits16 D cs i fd
end

end ex2_pipes

namespace ex2_signals

theorem wake_exits16 (nr : Nat) (pid_child : Nat → Int) :
    (wake nr pid_child : Prog α).exits16 := by
  unfold wake
  apply Prog.for_range_exits16
  · intro i s next hnext p st; exact hnext _
  · intro s; rfl

mutual
theorem signals_fork_procs_exits16 : ∀ (t : tree_node), (fork_procs t : Prog α).exits16
  | .mk name children => by
    unfold fork_procs
    apply Prog.for_range_exits16
    · intro i s next hnext p
      by_cases hp : p < 0
      · simp [hp, Prog.exits16]
      · simp only [hp, if_false]
        apply Prog.exits16_seq _ _ _ (hnext _)
        by_cases h0 : p = 0
        · simp only [h0, if_true]; exact signals_fork_procs_at_exits16 children i
        · simp only [h0, if_false, Prog.exits16]
    · intro s
      by_cases hlen : children.length = 0
      · simp [hlen, Prog.exits16]
      · simp only [ne_eq, hlen, not_false_eq_true, if_true]
        exact wake_exits16 _ _
theorem signals_fork_procs_at_exits16 :
    ∀ (cs : List tree_node) (i : Nat), (fork_procs_at cs i : Prog α).exits16
  | [], _ => by simp [fork_procs_at, Prog.exits16]
  | c :: _, 0 => by rw [fork_procs_at]; exact signals_fork_procs_exits16 c
  | _ :: cs, i + 1 => by rw [fork_procs_at]; exact signals_fork_procs_at_exits16 cs i
end

end ex2_signals

namespace ex2_tree

mutual
theorem tree_fork_procs_exits16 : ∀ (t : tree_node), (fork_procs t : Prog α).exits16
  | .mk name children => by
    unfold fork_procs
    apply Prog.for_range_exits16
    · intro i s next hnext p
      by_cases hp : p < 0
      · simp [hp, Prog.exits16]
      · simp only [hp, if_false]
        apply Prog.exits16_seq _ _ _ (hnext _)
        by_cases h0 : p = 0
        · simp only [h0, if_true]; exact tree_fork_procs_at_exits16 children i
        · simp only [h0, if_false, Prog.exits16]
    · intro s
      by_cases hlen : children.length = 0
      · simp [hlen, Prog.exits16]
      · simp only [ne_eq, hlen, not_false_eq_true, if_true]
        show (Prog.for_range _ _ _ _ _ : Prog α).exits16
        apply Prog.for_range_exits16
        · intro i s next hnext p st; exact hnext _
        · intro s; rfl
theorem tree_fork_procs_at_exits16 :
    ∀ (cs : List tree_node) (i : Nat), (fork_procs_at cs i : Prog α).exits16
  | [], _ => by simp [fork_procs_at, Prog.exits16]
  | c :: _, 0 => by rw [fork_procs_at]; exact tree_fork_procs_exits16 c
  | _ :: cs, i + 1 => by rw [fork_procs_at]; exact tree_fork_procs_at_exits16 cs i
end

end ex2_tree

theorem assign_ne {β : Type} (a : Nat → β) (i j : Nat) (v : β) (h : j ≠ i) :
    assign a i v j = a j := by
  simp [assign, h]

theorem no_cont_getElem {tr : List (Act α)} (h : ∀ a ∈ tr, a.is_cont = false) (i : Nat)
    (p : Int) : tr[i]? ≠ some (.kill_SIGCONT p) := by
  intro hi
  have := h _ (List.mem_iff_getElem?.2 ⟨i, hi⟩)
  simp [Act.is_cont] at this

theorem collected_in_turn.of_no_cont4 {pfd0 pfd1 : Fd} {pid : Nat → Int} {n : Nat}
    {tr : List (Act α)} (h : ∀ a ∈ tr, a.is_cont = false) :
    collected_in_turn pfd0 pfd1 pid n tr :=
  fun i p hi => (no_cont_getElem h i p hi).elim

theorem collected_in_turn.head4 {pfd0 pfd1 : Fd} {pid : Nat → Int} {n : Nat}
    {tr : List (Act α)} (h : ∀ a ∈ tr, a.is_cont = false) :
    collected_in_turn pfd0 pfd1 pid (n + 1) (.kill_SIGCONT (pid 0) :: tr) := by
  intro i p hi
  cases i with
  | zero =>
    simp at hi
    exact ⟨0, rfl, by omega, hi.symm, fun m hm => by omega⟩
  | succ k =>
    simp at hi
    exact (no_cont_getElem h k p hi).elim

theorem collected_in_turn.step4 {pfd0 pfd1 : Fd} {pid : Nat → Int} {n : Nat}
    {tr : List (Act α)} (r st : Int) (v : Option α)
    (h : collected_in_turn pfd0 pfd1 (fun m => pid (m + 1)) n tr) :
    collected_in_turn pfd0 pfd1 pid (n + 1)
      (.kill_SIGCONT (pid 0) :: .wait r st :: .close pfd1 :: .read pfd0 sizeof_double v :: tr) := by
  intro i p hi
  rcases i with _ | _ | _ | _ | k
  · simp at hi
    exact ⟨0, rfl, by omega, hi.symm, fun m hm => by omega⟩
  · simp at hi
  · simp at hi
  · simp at hi
  · simp only [List.getElem?_cons_succ] at hi
    obtain ⟨j, hj, hjn, hp, hall⟩ := h k p hi
    refine ⟨j + 1, by omega, by omega, hp, ?_⟩
    intro m hm
    rcases m with _ | m
    · exact ⟨by simp, ⟨r, st, by simp⟩, by simp, v, by simp⟩
    · obtain ⟨h1, h2, h3, h4⟩ := hall m (by omega)
      have e0 : 4 * (m + 1) = 4 * m + 1 + 1 + 1 + 1 := by omega
      have e1 : 4 * (m + 1) + 1 = 4 * m + 1 + 1 + 1 + 1 + 1 := by omega
      have e2 : 4 * (m + 1) + 2 = 4 * m + 2 + 1 + 1 + 1 + 1 := by omega
      have e3 : 4 * (m + 1) + 3 = 4 * m + 3 + 1 + 1 + 1 + 1 := by omega
      rw [e1, e2, e3, e0]
      simp only [List.getElem?_cons_succ]
      exact ⟨h1, h2, h3, h4⟩

theorem woken_in_turn.of_no_cont2 {pid : Nat → Int} {n : Nat}
    {tr : List (Act α)} (h : ∀ a ∈ tr, a.is_cont = false) : woken_in_turn pid n tr :=
  fun i p hi => (no_cont_getElem h i p hi).elim

theorem woken_in_turn.head2 {pid : Nat → Int} {n : Nat}
    {tr : List (Act α)} (h : ∀ a ∈ tr, a.is_cont = false) :
    woken_in_turn pid (n + 1) (.kill_SIGCONT (pid 0) :: tr) := by
  intro i p hi
  cases i with
  | zero =>
    simp at hi
    exact ⟨0, rfl, by omega, hi.symm, fun m hm => by omega⟩
  | succ k =>
    simp at hi
    exact (no_cont_getElem h k p hi).elim

theorem woken_in_turn.step2 {pid : Nat → Int} {n : Nat} {tr : List (Act α)} (r st : Int)
    (h : woken_in_turn (fun m => pid (m + 1)) n tr) :
    woken_in_turn pid (n + 1) (.kill_SIGCONT (pid 0) :: .wait r st :: tr) := by
  intro i p hi
  rcases i with _ | _ | k
  · simp at hi
    exact ⟨0, rfl, by omega, hi.symm, fun m hm => by omega⟩
  · simp at hi
  · simp only [List.getElem?_cons_succ] at hi
    obtain ⟨j, hj, hjn, hp, hall⟩ := h k p hi
    refine ⟨j + 1, by omega, by omega, hp, ?_⟩
    intro m hm
    rcases m with _ | m
    · exact ⟨by simp, r, st, by simp⟩
    · obtain ⟨h1, h2⟩ := hall m (by omega)
      have e0 : 2 * (m + 1) = 2 * m + 1 + 1 := by omega
      have e1 : 2 * (m + 1) + 1 = 2 * m + 1 + 1 + 1 := by omega
      rw [e1, e0]
      simp only [List.getElem?_cons_succ]
      exact ⟨h1, h2⟩

namespace ex2_pipes

theorem collect_loop_order (D : DoubleOps α) (fd : Fd) (name : String) (pfd0 pfd1 : Fd) :
    ∀ (n j0 : Nat) (s : (Nat → Int) × (Nat → α)) (rs : List (Resp α)),
      collected_in_turn pfd0 pfd1 (fun m => s.1 (j0 + m)) n
        ((Prog.for_range n j0 s
          (fun j s next =>
            .kill_SIGCONT (s.1 j) <|
            .wait fun p _status_child =>
            .close pfd1 <|
            .read pfd0 fun n res =>
              if n ≠ sizeof_double then
                .stderr "parent: read from pipe" (.exit 1)
              else
                next (assign s.1 j p, assign s.2 j (res.getD D.zero)))
          (fun s =>
            let result := s.2
            let final_res :=
              if name = "+" then D.add (result 0) (result 1) else D.mul (result 0) (result 1)
            .write fd final_res fun n =>
              if n ≠ sizeof_double then
                .stderr "parent: write to pipe" (.exit 1)
              else
                .exit 16)).run rs).1 := by
  intro n
  induction n with
  | zero =>
    intro j0 s rs
    apply collected_in_turn.of_no_cont4
    simp only [Prog.for_range]
    rcases rs with _ | ⟨r1, rs⟩
    · simp [Prog.run]
    · by_cases h : r1.ret = sizeof_double <;> simp [Prog.run, h, Act.is_cont]
  | succ n ih =>
    intro j0 s rs
    simp only [Prog.for_range]
    rcases rs with _ | ⟨r1, _ | ⟨r2, _ | ⟨r3, _ | ⟨r4, rs⟩⟩⟩⟩
    · exact collected_in_turn.of_no_cont4 (by simp [Prog.run])
    · simp only [Prog.run]
      exact collected_in_turn.head4 (by simp)
    · simp only [Prog.run]
      exact collected_in_turn.head4 (by simp [Act.is_cont])
    · simp only [Prog.run]
      exact collected_in_turn.head4 (by simp [Act.is_cont])
    · simp only [Prog.run]
      by_cases h : r4.ret = sizeof_double
      · simp only [h, ne_eq, not_true_eq_false, if_false]
        have := ih (j0 + 1) (assign s.1 j0 r2.ret, assign s.2 j0 (r4.val.getD D.zero)) rs
        have e : (fun m => (assign s.1 j0 r2.ret, assign s.2 j0 (r4.val.getD D.zero)).1
            (j0 + 1 + m)) = fun m => (fun m => s.1 (j0 + m)) (m + 1) := by
          funext m
          simp only
          rw [assign_ne _ _ _ _ (by omega)]
          have e1 : j0 + 1 + m = j0 + (m + 1) := by omega
          rw [e1]
        rw [e] at this
        exact collected_in_turn.step4 r2.ret r2.status r4.val this
      · simp only [ne_eq, h, not_false_eq_true, if_true, Prog.run]
        exact collected_in_turn.head4 (by simp [Act.is_cont])

end ex2_pipes

namespace ex2_signals

theorem wake_loop_order :
    ∀ (n j0 : Nat) (s : Nat → Int) (rs : List (Resp α)),
      woken_in_turn (fun m => s (j0 + m)) n
        ((Prog.for_range n j0 s
          (fun j s next =>
            .kill_SIGCONT (s j) <|
            .wait fun p _status_child =>
            next (assign s j p))
          (fun _ => (.exit 16 : Prog α))).run rs).1 := by
  intro n
  induction n with
  | zero =>
    intro j0 s rs
    apply woken_in_turn.of_no_cont2
    simp [Prog.for_range, Prog.run, Act.is_cont]
  | succ n ih =>
    intro j0 s rs
    simp only [Prog.for_range]
    rcases rs with _ | ⟨r1, _ | ⟨r2, rs⟩⟩
    · exact woken_in_turn.of_no_cont2 (by simp [Prog.run])
    · simp only [Prog.run]
      exact woken_in_turn.head2 (by simp)
    · simp only [Prog.run]
      have := ih (j0 + 1) (assign s j0 r2.ret) rs
      have e : (fun m => (assign s j0 r2.ret) (j0 + 1 + m)) =
          fun m => (fun m => s (j0 + m)) (m + 1) := by
        funext m
        simp only
        rw [assign_ne _ _ _ _ (by omega)]
        have e1 : j0 + 1 + m = j0 + (m + 1) := by omega
        rw [e1]
      rw [e] at this
      exact woken_in_turn.step2 r2.ret r2.status this

end ex2_signals

/-- Claim C2. After `raise(SIGSTOP)` returns, an Internal worker of
`ex2-pipes` (which runs `collect`) and a process with children of
`ex2-signals` (which runs `wake`) send `SIGCONT` to their children strictly in
turn, whatever the environment answers: the signal to child `j` (so to child
index 1) is sent only after every child `m < j` (so child index 0) has been
signalled, `wait` has returned and, in `ex2-pipes`, `close(pfd[1])` was
called and the `read` on `pfd[0]` returned `sizeof(double)`. -/
theorem C2_children_resumed_in_turn (D : DoubleOps α) (fd : Fd) (name : String) (n : Nat)
    (pfd0 pfd1 : Fd) (pid_child : Nat → Int) (rs : List (Resp α)) (i : Nat) (p : Int) :
    (((ex2_pipes.collect D fd name n pfd0 pfd1 pid_child).run rs).1[i]? =
        some (.kill_SIGCONT p) →
      ∃ j, i = 4 * j ∧ j < n ∧ p = pid_child j ∧
        ∀ m, m < j →
          ((ex2_pipes.collect D fd name n pfd0 pfd1 pid_child).run rs).1[4 * m]? =
            some (.kill_SIGCONT (pid_child m)) ∧
          (∃ r st, ((ex2_pipes.collect D fd name n pfd0 pfd1 pid_child).run rs).1[4 * m + 1]? =
            some (.wait r st)) ∧
          ((ex2_pipes.collect D fd name n pfd0 pfd1 pid_child).run rs).1[4 * m + 2]? =
            some (.close pfd1) ∧
          ∃ v, ((ex2_pipes.collect D fd name n pfd0 pfd1 pid_child).run rs).1[4 * m + 3]? =
            some (.read pfd0 sizeof_double v)) ∧
    (((ex2_signals.wake n pid_child : Prog α).run rs).1[i]? = some (.kill_SIGCONT p) →
      ∃ j, i = 2 * j ∧ j < n ∧ p = pid_child j ∧
        ∀ m, m < j →
          ((ex2_signals.wake n pid_child : Prog α).run rs).1[2 * m]? =
            some (.kill_SIGCONT (pid_child m)) ∧
          ∃ r st, ((ex2_signals.wake n pid_child : Prog α).run rs).1[2 * m + 1]? =
            some (.wait r st)) := by
  constructor
  · intro h
    have key := ex2_pipes.collect_loop_order D fd name pfd0 pfd1 n 0
      (pid_child, fun _ => D.zero) rs
    have e : (fun m => (pid_child, fun _ : Nat => D.zero).1 (0 + m)) = pid_child := by
      funext m; simp
    rw [e] at key
    exact key i p h
  · intro h
    have key := @ex2_signals.wake_loop_order α n 0 pid_child rs
    have e : (fun m => pid_child (0 + m)) = pid_child := by
      funext m; simp
    rw [e] at key
    exact key i p h

theorem C2_witness :
    ((ex2_pipes.collect intOps ⟨0, true⟩ "+" 2 ⟨1, false⟩ ⟨1, true⟩ two_children).run
        [answer 0, answer 3, answer 0, answer_read 8 3, answer 0]).1[4]? =
      some (.kill_SIGCONT 4) ∧
    (∃ j, 4 = 4 * j ∧ j < 2 ∧ (4 : Int) = two_children j ∧
      ∀ m, m < j →
        ((ex2_pipes.collect intOps ⟨0, true⟩ "+" 2 ⟨1, false⟩ ⟨1, true⟩ two_children).run
          [answer 0, answer 3, answer 0, answer_read 8 3, answer 0]).1[4 * m]? =
          some (.kill_SIGCONT (two_children m)) ∧
        (∃ r st,
          ((ex2_pipes.collect intOps ⟨0, true⟩ "+" 2 ⟨1, false⟩ ⟨1, true⟩ two_children).run
            [answer 0, answer 3, answer 0, answer_read 8 3, answer 0]).1[4 * m + 1]? =
          some (.wait r st)) ∧
        ((ex2_pipes.collect intOps ⟨0, true⟩ "+" 2 ⟨1, false⟩ ⟨1, true⟩ two_children).run
          [answer 0, answer 3, answer 0, answer_read 8 3, answer 0]).1[4 * m + 2]? =
          some (.close ⟨1, true⟩) ∧
        ∃ v,
          ((ex2_pipes.collect intOps ⟨0, true⟩ "+" 2 ⟨1, false⟩ ⟨1, true⟩ two_children).run
            [answer 0, answer 3, answer 0, answer_read 8 3, answer 0]).1[4 * m + 3]? =
          some (.read ⟨1, false⟩ sizeof_double v)) ∧
    ((ex2_signals.wake 2 two_children : Prog Int).run [answer 0, answer 3, answer 0]).1[2]? =
      some (.kill_SIGCONT 4) ∧
    (∃ j, 2 = 2 * j ∧ j < 2 ∧ (4 : Int) = two_children j ∧
      ∀ m, m < j →
        ((ex2_signals.wake 2 two_children : Prog Int).run
          [answer 0, answer 3, answer 0]).1[2 * m]? = some (.kill_SIGCONT (two_children m)) ∧
        ∃ r st, ((ex2_signals.wake 2 two_children : Prog Int).run
          [answer 0, answer 3, answer 0]).1[2 * m + 1]? = some (.wait r st)) :=
  ⟨by rfl,
   (C2_children_resumed_in_turn intOps ⟨0, true⟩ "+" 2 ⟨1, false⟩ ⟨1, true⟩ two_children
      [answer 0, answer 3, answer 0, answer_read 8 3, answer 0] 4 4).1 (by rfl),
   by rfl,
   (C2_children_resumed_in_turn intOps ⟨0, true⟩ "+" 2 ⟨1, false⟩ ⟨1, true⟩ two_children
      [answer 0, answer 3, answer 0] 2 4).2 (by rfl)⟩

namespace ex2_pipes

/-- Claim C7. In `ex2-pipes`, in a Leaf worker, an Internal worker and in
`main`: when a `read` or a `write` returns a count other than
`sizeof(double)`, the only calls that follow are one message on standard
error and `exit(1)`: the transfer is not retried and no value is combined or
forwarded. -/
theorem C7_short_transfer_exits_at_once (D : DoubleOps α) (P : Prog α)
    (hP : (∃ fd t, P = child D fd t) ∨ (∃ argv, P = main D argv))
    (rs : List (Resp α)) (i : Nat) (a : Act α)
    (hi : (P.run rs).1[i]? = some a) (ha : a.short_transfer = true) :
    (∃ m, (P.run rs).1.drop (i + 1) = [.stderr m, .exit 1]) ∧ (P.run rs).2 = .exited 1 := by
  rcases hP with ⟨fd, t, rfl⟩ | ⟨argv, rfl⟩
  · exact Prog.failfast_run _ (child_failfast D t fd) rs i a hi (Or.inl ha)
  · exact Prog.failfast_run _ (main_failfast D argv) rs i a hi (Or.inl ha)

theorem C7_witness :
    ((child intOps ⟨0, true⟩ (.mk "3" [])).run [answer 0, answer 5]).1[1]? =
      some (.write ⟨0, true⟩ 3 5) ∧
    (Act.write ⟨0, true⟩ 3 5 : Act Int).short_transfer = true ∧
    ((∃ m, ((child intOps ⟨0, true⟩ (.mk "3" [])).run [answer 0, answer 5]).1.drop (1 + 1) =
        [.stderr m, .exit 1]) ∧
      ((child intOps ⟨0, true⟩ (.mk "3" [])).run [answer 0, answer 5]).2 = .exited 1) :=
  ⟨by rfl, by rfl,
    C7_short_transfer_exits_at_once intOps _ (Or.inl ⟨⟨0, true⟩, .mk "3" [], rfl⟩)
      [answer 0, answer 5] 1 (.write ⟨0, true⟩ 3 5) (by rfl) (by rfl)⟩

theorem child_run_ne_exit0 (D : DoubleOps α) (fd : Fd) (t : tree_node) (rs : List (Resp α)) :
    ((child D fd t).run rs).2 ≠ .exited 0 := by
  intro h
  rcases Prog.exits16_run _ (child_exits16 D t fd) rs 0 h with h | ⟨h, -⟩ <;> omega

/-- Claim C9. `main` of `ex2-pipes` ends with `exit(0)` only in the run in
which the tree was loaded, the pipe and the worker were created, the worker
was awaited, and the `read` on the read end of the pipe returned
`sizeof(double)`; it ends with status 1 when the argument count is not 2 and
whenever `pipe` or `fork` fails or the `read` is short. -/
theorem C9_main_exit_status (D : DoubleOps α) (argv : List String) (rs : List (Resp α)) :
    (((main D argv).run rs).2 = .exited 0 →
      ∃ r a b p w st v, ((main D argv).run rs).1 =
        [.get_tree_from_file (argv.getD 1 "") true, .pipe r a b, .fork p,
         .wait_for_ready_children 1, .kill_SIGCONT p, .wait w st,
         .read a sizeof_double v, .exit 0]) ∧
    (argv.length ≠ 2 → ((main D argv).run rs).2 = .exited 1) ∧
    (∀ (i : Nat) (x : Act α), ((main D argv).run rs).1[i]? = some x →
      (x.failed_creation = true ∨ x.short_transfer = true) →
      ((main D argv).run rs).2 = .exited 1) := by
  refine ⟨?_, ?_, ?_⟩
  · by_cases hlen : argv.length = 2
    · simp only [main, hlen, ne_eq, not_true_eq_false, if_false]
      rcases rs with _ | ⟨r1, rs⟩
      · simp [Prog.run]
      simp only [Prog.run]
      cases ht : r1.tree with
      | none => simp
      | some root =>
        simp only
        rcases rs with _ | ⟨r2, rs⟩
        · simp [Prog.run]
        simp only [Prog.run]
        by_cases h2 : r2.ret < 0
        · simp [h2, Prog.run]
        simp only [h2, if_false]
        rcases rs with _ | ⟨r3, rs⟩
        · simp [Prog.run]
        simp only [Prog.run]
        by_cases h3 : r3.ret < 0
        · simp [h3, Prog.run]
        simp only [h3, if_false]
        by_cases h0 : r3.ret = 0
        · simp only [h0, if_true]
          rw [Prog.seq_eq_self_of_never_returns _ .abort (child_never_returns D _ root),
            Prog.seq_eq_self_of_never_returns _ _ (child_never_returns D _ root)]
          intro h
          exact (child_run_ne_exit0 D _ root rs h).elim
        simp only [h0, if_false, Prog.seq]
        rcases rs with _ | ⟨r4, rs⟩
        · simp [Prog.run]
        rcases rs with _ | ⟨r5, rs⟩
        · simp [Prog.run]
        rcases rs with _ | ⟨r6, rs⟩
        · simp [Prog.run]
        rcases rs with _ | ⟨r7, rs⟩
        · simp [Prog.run]
        simp only [Prog.run]
        by_cases h7 : r7.ret = sizeof_double
        · simp only [h7, ne_eq, not_true_eq_false, if_false, Prog.run]
          intro _
          exact ⟨_, _, _, _, _, _, _, rfl⟩
        · simp [h7, Prog.run]
    · simp [main, hlen, Prog.run]
  · intro hlen
    simp [main, hlen, Prog.run]
  · intro i x hi hx
    exact (Prog.failfast_run _ (main_failfast D argv) rs i x hi (Or.symm hx)).2

theorem C9_witness :
    ((main intOps ["ex2-pipes", "a.tree"]).run
        [loaded tree_sum, answer 0, answer 7, answer 0, answer 0, answer 7,
          answer_read 8 7]).2 = .exited 0 ∧
    (∃ r a b p w st v, ((main intOps ["ex2-pipes", "a.tree"]).run
        [loaded tree_sum, answer 0, answer 7, answer 0, answer 0, answer 7,
          answer_read 8 7]).1 =
        [.get_tree_from_file (["ex2-pipes", "a.tree"].getD 1 "") true, .pipe r a b, .fork p,
         .wait_for_ready_children 1, .kill_SIGCONT p, .wait w st,
         .read a sizeof_double v, .exit 0]) ∧
    ((main intOps ["ex2-pipes"]).run []).2 = .exited 1 :=
  ⟨by rfl,
   (C9_main_exit_status intOps ["ex2-pipes", "a.tree"]
      [loaded tree_sum, answer 0, answer 7, answer 0, answer 0, answer 7,
        answer_read 8 7]).1 (by rfl),
   (C9_main_exit_status intOps ["ex2-pipes"] []).2.1 (by decide)⟩

/-- Claim C5, counterexample. In the run on the tree `(+ 3 4)` the worker of
`+` (process 2) creates one pipe only, and its two children (processes 3 and
4) write to the same descriptor, the write end of that pipe. -/
theorem C5_counterexample :
    (exec 60 (boot fun _ => some tree_sum) 1 (main intOps ["ex2-pipes", "sum.tree"])).map
        (fun K => (pipes_of 2 K.trace, writes_of 3 K.trace, writes_of 4 K.trace)) =
      some ([(⟨1, false⟩, ⟨1, true⟩)], [⟨1, true⟩], [⟨1, true⟩]) := by
  rfl

end ex2_pipes

namespace ex2_pipes

/-- Claim C16. In `ex2-pipes`, in `main` and in every worker: when `pipe` or
`fork` returns a negative value, the only calls that follow are one message
on standard error and `exit(1)`, and the process ends with status 1.  So the
call is not retried, no further child is forked, and the process neither
waits for ready children nor raises `SIGSTOP`. -/
theorem C16_failed_creation_exits_at_once (D : DoubleOps α) (P : Prog α)
    (hP : (∃ fd t, P = child D fd t) ∨ (∃ argv, P = main D argv))
    (rs : List (Resp α)) (i : Nat) (a : Act α)
    (hi : (P.run rs).1[i]? = some a) (ha : a.failed_creation = true) :
    (∃ m, (P.run rs).1.drop (i + 1) = [.stderr m, .exit 1]) ∧ (P.run rs).2 = .exited 1 ∧
    ∀ (j : Nat) (x : Act α), i < j → (P.run rs).1[j]? = some x →
      x.is_failure_report = true ∧ x.is_work = false := by
  have key : fatal_at (P.run rs).1 (P.run rs).2 i := by
    rcases hP with ⟨fd, t, rfl⟩ | ⟨argv, rfl⟩
    · exact Prog.failfast_run _ (child_failfast D t fd) rs i a hi (Or.inr ha)
    · exact Prog.failfast_run _ (main_failfast D argv) rs i a hi (Or.inr ha)
  obtain ⟨⟨m, hm⟩, ho⟩ := key
  refine ⟨⟨m, hm⟩, ho, fun j x hj hx => ?_⟩
  obtain ⟨d, rfl⟩ : ∃ d, j = (i + 1) + d := ⟨j - (i + 1), by omega⟩
  have : ((P.run rs).1.drop (i + 1))[d]? = some x := by
    rw [List.getElem?_drop]; exact hx
  rw [hm] at this
  match d, this with
  | 0, h => simp at h; subst h; simp [Act.is_failure_report, Act.is_work]
  | 1, h => simp at h; subst h; simp [Act.is_failure_report, Act.is_work]
  | d + 2, h => simp at h

theorem C16_witness :
    ((child intOps ⟨0, true⟩ tree_sum).run [answer 0, answer 5, answer (-1)]).1[2]? =
      some (.fork (-1)) ∧
    (Act.fork (-1) : Act Int).failed_creation = true ∧
    ((∃ m, ((child intOps ⟨0, true⟩ tree_sum).run [answer 0, answer 5, answer (-1)]).1.drop
        (2 + 1) = [.stderr m, .exit 1]) ∧
      ((child intOps ⟨0, true⟩ tree_sum).run [answer 0, answer 5, answer (-1)]).2 = .exited 1 ∧
      ∀ (j : Nat) (x : Act Int), 2 < j →
        ((child intOps ⟨0, true⟩ tree_sum).run [answer 0, answer 5, answer (-1)]).1[j]? =
          some x →
        x.is_failure_report = true ∧ x.is_work = false) :=
  ⟨by rfl, by rfl,
    C16_failed_creation_exits_at_once intOps _ (Or.inl ⟨⟨0, true⟩, tree_sum, rfl⟩)
      [answer 0, answer 5, answer (-1)] 2 (.fork (-1)) (by rfl) (by rfl)⟩

end ex2_pipes

theorem forked_by_append (p : Nat) (tr1 tr2 : List (Nat × Act α)) :
    forked_by p (tr1 ++ tr2) = forked_by p tr1 ++ forked_by p tr2 := by
  simp [forked_by, List.filterMap_append]

theorem forked_by_eq_nil (p : Nat) (tr : List (Nat × Act α))
    (h : ∀ e ∈ tr, e.1 = p → e.2.is_spawn = false) : forked_by p tr = [] := by
  unfold forked_by
  rw [List.filterMap_eq_nil_iff]
  intro e he
  have := h e he
  obtain ⟨q, a⟩ := e
  cases a <;> simp
  rename_i r
  intro hq
  simp [Act.is_spawn, hq] at this
  omega

namespace ex2_pipes

theorem build_trace_lt (t : tree_node) (hwf : WellFormed t) :
    ∀ (c q : Nat) (e : Nat × Act α), e ∈ build_trace c q t → e.1 < c + nodes t := by
  induction hwf with
  | leaf name h => intro c q e he; simp [build_trace] at he; simp [he, nodes]
  | op name h a b ha hb iha ihb =>
    intro c q e he
    have na := nodes_pos a
    have nb := nodes_pos b
    simp only [build_trace, List.mem_append, List.mem_cons, List.mem_singleton,
      List.not_mem_nil, or_false] at he
    simp only [nodes]
    rcases he with (((((he | he | he) | he) | (he | he)) | he) | (he | he))
    all_goals first
      | exact Nat.lt_of_lt_of_le (iha _ _ _ he) (by omega)
      | exact Nat.lt_of_lt_of_le (ihb _ _ _ he) (by omega)
      | (subst he; dsimp only; omega)

theorem collect_trace_no_fork (D : DoubleOps α) (t : tree_node) (hwf : WellFormed t) :
    ∀ (c : Nat) (fd : Fd) (q : Nat) (e : Nat × Act α), e ∈ collect_trace D c fd q t →
      e.2.is_spawn = false ∧ e.2.is_born = false := by
  induction hwf with
  | leaf name h =>
    intro c fd q e he
    simp [collect_trace] at he
    rcases he with he | he | he <;> simp [he, Act.is_spawn, Act.is_born]
  | op name h a b ha hb iha ihb =>
    intro c fd q e he
    simp only [collect_trace, List.mem_append, List.mem_cons, List.mem_singleton,
      List.not_mem_nil, or_false] at he
    rcases he with ((((he | he) | (he | he | he | he)) | he) | (he | he | he | he | he))
    all_goals first
      | exact iha _ _ _ _ he
      | exact ihb _ _ _ _ he
      | (subst he; simp [Act.is_spawn, Act.is_born])

/-- The construction phase of worker `c` mirrors its subtree, in every trace
whose other parts hold no fork of the workers of the subtree. -/
theorem build_trace_mirrored (t : tree_node) (hwf : WellFormed t) :
    ∀ (c q : Nat) (pre post : List (Nat × Act α)),
      (∀ e ∈ pre, c ≤ e.1 → e.1 < c + nodes t → e.2.is_spawn = false) →
      (∀ e ∈ post, c ≤ e.1 → e.1 < c + nodes t → e.2.is_spawn = false) →
      Mirrored c t (pre ++ build_trace c q t ++ post) := by
  induction hwf with
  | leaf name h =>
    intro c q pre post hpre hpost
    simp only [Mirrored]
    apply forked_by_eq_nil
    intro e he hc
    simp only [build_trace, List.mem_append, List.mem_singleton] at he
    rcases he with (he | he) | he
    · exact hpre e he (by omega) (by simp [nodes, hc])
    · subst he; rfl
    · exact hpost e he (by omega) (by simp [nodes, hc])
  | op name h a b ha hb iha ihb =>
    intro c q pre post hpre hpost
    have na := nodes_pos a
    have nb := nodes_pos b
    simp only [nodes] at hpre hpost
    simp only [Mirrored]
    refine ⟨?_, ?_, ?_⟩
    · have e1 : forked_by c pre = [] :=
        forked_by_eq_nil _ _ fun e he hc => hpre e he (by omega) (by omega)
      have e2 : forked_by c post = [] :=
        forked_by_eq_nil _ _ fun e he hc => hpost e he (by omega) (by omega)
      have e3 : forked_by c (build_trace (c + 1) (q + 1) a : List (Nat × Act α)) = [] :=
        forked_by_eq_nil _ _ fun e he hc => by
          have := build_trace_pid a ha _ _ e he; omega
      have e4 : forked_by c
          (build_trace (c + 1 + nodes a) (q + 1 + inner a) b : List (Nat × Act α)) = [] :=
        forked_by_eq_nil _ _ fun e he hc => by
          have := build_trace_pid b hb _ _ e he; omega
      simp only [build_trace, forked_by_append, e1, e2, e3, e4]
      have p1 : (0 : Int) < ((c + 1 : Nat) : Int) := by omega
      have p2 : (0 : Int) < ((c + 1 + nodes a : Nat) : Int) := by omega
      have p3 : ¬ (c + 1 = c) := by omega
      have p4 : ¬ (c + 1 + nodes a = c) := by omega
      have p5 : (0 : Int) < (c : Int) + 1 := by omega
      have p6 : (0 : Int) < (c : Int) + 1 + (nodes a : Int) := by omega
      simp [forked_by, p1, p2, p3, p4, p5, p6]
    · have key := iha (c + 1) (q + 1)
        (pre ++ [(c, .pipe 0 ⟨q, false⟩ ⟨q, true⟩), (c, .fork ((c + 1 : Nat) : Int)),
          (c + 1, .fork 0)])
        ([(c, .fork ((c + 1 + nodes a : Nat) : Int)), (c + 1 + nodes a, .fork 0)] ++
          build_trace (c + 1 + nodes a) (q + 1 + inner a) b ++
          [(c, .wait_for_ready_children 2), (c, .raise_SIGSTOP)] ++ post)
        (fun e he h1 h2 => by
          simp only [List.mem_append, List.mem_cons, List.mem_singleton, List.not_mem_nil,
            or_false] at he
          rcases he with he | he | he | he
          · exact hpre e he (by omega) (by omega)
          · subst he; rfl
          · subst he; dsimp only at h1; omega
          · subst he; rfl)
        (fun e he h1 h2 => by
          simp only [List.mem_append, List.mem_cons, List.mem_singleton, List.not_mem_nil,
            or_false] at he
          rcases he with (((he | he) | he) | (he | he)) | he
          · subst he; dsimp only at h1; omega
          · subst he; rfl
          · have := build_trace_pid b hb _ _ e he; omega
          · subst he; rfl
          · subst he; rfl
          · exact hpost e he (by omega) (by omega))
      simpa [build_trace, List.append_assoc] using key
    · have key := ihb (c + 1 + nodes a) (q + 1 + inner a)
        (pre ++ [(c, .pipe 0 ⟨q, false⟩ ⟨q, true⟩), (c, .fork ((c + 1 : Nat) : Int)),
          (c + 1, .fork 0)] ++ build_trace (c + 1) (q + 1) a ++
          [(c, .fork ((c + 1 + nodes a : Nat) : Int)), (c + 1 + nodes a, .fork 0)])
        ([(c, .wait_for_ready_children 2), (c, .raise_SIGSTOP)] ++ post)
        (fun e he h1 h2 => by
          simp only [List.mem_append, List.mem_cons, List.mem_singleton, List.not_mem_nil,
            or_false] at he
          rcases he with ((he | he | he | he) | he) | he | he
          · exact hpre e he (by omega) (by omega)
          · subst he; rfl
          · subst he; dsimp only at h1; omega
          · subst he; rfl
          · have := build_trace_lt a ha _ _ e he; omega
          · subst he; dsimp only at h1; omega
          · subst he; rfl)
        (fun e he h1 h2 => by
          simp only [List.mem_append, List.mem_cons, List.mem_singleton, List.not_mem_nil,
            or_false] at he
          rcases he with (he | he) | he
          · subst he; rfl
          · subst he; rfl
          · exact hpost e he (by omega) (by omega))
      simpa [build_trace, List.append_assoc] using key

theorem build_trace_forks {t : tree_node} (hwf : WellFormed t) :
    ∀ (c q : Nat), count_calls Act.is_spawn (build_trace c q t : List (Nat × Act α)) =
        nodes t - 1 ∧
      count_calls Act.is_born (build_trace c q t : List (Nat × Act α)) = nodes t - 1 := by
  induction hwf with
  | leaf name h =>
    intro c q
    simp [build_trace, count_calls_cons, count_calls_nil, Act.is_spawn, Act.is_born, nodes]
  | op name h a b ha hb iha ihb =>
    intro c q
    have na := nodes_pos a
    have nb := nodes_pos b
    obtain ⟨a1, a2⟩ := iha (c + 1) (q + 1)
    obtain ⟨b1, b2⟩ := ihb (c + 1 + nodes a) (q + 1 + inner a)
    have p1 : (0 : Int) < ((c + 1 : Nat) : Int) := by omega
    have p2 : (0 : Int) < ((c + 1 + nodes a : Nat) : Int) := by omega
    have p3 : ¬ (((c + 1 : Nat) : Int) = 0) := by omega
    have p4 : ¬ (((c + 1 + nodes a : Nat) : Int) = 0) := by omega
    simp only [build_trace, count_calls_append, count_calls_cons, count_calls_nil, a1, a2, b1,
      b2, Act.is_spawn, Act.is_born, nodes, p1, p2, p3, p4]
    simp
    omega

theorem collect_trace_forks (D : DoubleOps α) {t : tree_node} (hwf : WellFormed t)
    (c : Nat) (fd : Fd) (q : Nat) :
    count_calls Act.is_spawn (collect_trace D c fd q t) = 0 ∧
    count_calls Act.is_born (collect_trace D c fd q t) = 0 := by
  constructor
  · simp only [count_calls, List.countP_eq_zero]
    intro e he
    simp [(collect_trace_no_fork D t hwf c fd q e he).1]
  · simp only [count_calls, List.countP_eq_zero]
    intro e he
    simp [(collect_trace_no_fork D t hwf c fd q e he).2]

theorem wf_leaf : WellFormed tree_leaf := .leaf "5" (by decide)

end ex2_pipes

namespace ex2_pipes

/-- The calls of a Leaf worker whose `write` is complete. -/
theorem leaf_run (D : DoubleOps α) (fd : Fd) (name : String) (r0 r1 r2 : Resp α)
    (rs : List (Resp α)) (hop : ¬ (name = "+" ∨ name = "*")) (h1 : r1.ret = sizeof_double) :
    (child D fd (.mk name [])).run (r0 :: r1 :: r2 :: rs) =
      ([.raise_SIGSTOP, .write fd (D.atof name) sizeof_double, .close fd, .exit 16],
        .exited 16) := by
  rw [child_leaf D fd name hop]
  simp [Prog.run, send, h1]

/-- The calls of an Internal worker for which every call succeeds: `pipe`
does not fail, both `fork` calls return the pid of a child, and the two
`read` calls and the `write` are complete. -/
theorem internal_run (D : DoubleOps α) (fd : Fd) (name : String) (a b : tree_node)
    (r1 r2 r3 r4 r5 r6 r7 r8 r9 r10 r11 r12 r13 r14 : Resp α) (rs : List (Resp α))
    (hop : name = "+" ∨ name = "*") (h1 : ¬ r1.ret < 0) (h2 : 0 < r2.ret) (h3 : 0 < r3.ret)
    (h9 : r9.ret = sizeof_double) (h13 : r13.ret = sizeof_double)
    (h14 : r14.ret = sizeof_double) :
    (child D fd (.mk name [a, b])).run
        (r1 :: r2 :: r3 :: r4 :: r5 :: r6 :: r7 :: r8 :: r9 :: r10 :: r11 :: r12 :: r13 ::
          r14 :: rs) =
      ([.pipe r1.ret r1.pfd0 r1.pfd1, .fork r2.ret, .fork r3.ret, .wait_for_ready_children 2,
        .raise_SIGSTOP,
        .kill_SIGCONT r2.ret, .wait r7.ret r7.status, .close r1.pfd1,
        .read r1.pfd0 sizeof_double r9.val,
        .kill_SIGCONT r3.ret, .wait r11.ret r11.status, .close r1.pfd1,
        .read r1.pfd0 sizeof_double r13.val,
        .write fd (combine D name r9.val r13.val) sizeof_double, .exit 16], .exited 16) := by
  have e2 : ¬ r2.ret < 0 := by omega
  have e2' : ¬ r2.ret = 0 := by omega
  have e3 : ¬ r3.ret < 0 := by omega
  have e3' : ¬ r3.ret = 0 := by omega
  rw [child_op D fd name hop a b]
  simp [Prog.run, Prog.seq, collect, Prog.for_range, assign, combine, h1, e2, e2', e3, e3', h9,
    h13, h14]

/-- The calls of `main` when every call succeeds. -/
theorem main_run (D : DoubleOps α) (prog path : String) (t : tree_node)
    (r1 r2 r3 r4 r5 r6 r7 : Resp α) (rs : List (Resp α))
    (h1 : r1.tree = some t) (h2 : ¬ r2.ret < 0) (h3 : 0 < r3.ret)
    (h7 : r7.ret = sizeof_double) :
    (main D [prog, path]).run (r1 :: r2 :: r3 :: r4 :: r5 :: r6 :: r7 :: rs) =
      ([.get_tree_from_file path true, .pipe r2.ret r2.pfd0 r2.pfd1, .fork r3.ret,
        .wait_for_ready_children 1, .kill_SIGCONT r3.ret, .wait r6.ret r6.status,
        .read r2.pfd0 sizeof_double r7.val, .exit 0], .exited 0) := by
  have e3 : ¬ r3.ret < 0 := by omega
  have e3' : ¬ r3.ret = 0 := by omega
  simp [main, Prog.run, Prog.seq, h1, h2, e3, e3', h7]

/-- Claim C14, counterexample. In the run on the tree `(+ 3 4)`, `main`
(process 1) has closed nothing when it reads the final value, so it still
holds the write end of the root pipe; the Leaf worker 3 has closed nothing
when it writes, so it still holds the read end of the pipe of its parent. -/
theorem C14_counterexample :
    (exec 60 (boot fun _ => some tree_sum) 1 (main intOps ["ex2-pipes", "sum.tree"])).map
        (fun K =>
          (released_before_transfer (calls_of 1 K.trace),
            closed_before_transfer (calls_of 1 K.trace),
            released_before_transfer (calls_of 3 K.trace),
            closed_before_transfer (calls_of 3 K.trace))) =
      some (false, [], false, []) := by
  rfl

/-- Claim C14, as amended. An Internal worker for which every call succeeds
closes `pfd[1]`, its copy of the write end of the pipe it created, before its
first `read`; every `read` it makes is on `pfd[0]` and directly follows a
`close(pfd[1])`; and `pfd[1]` is the only descriptor it ever closes.  No
other endpoint is released before a transfer: a Leaf worker closes nothing
before its `write`, and `main` closes no descriptor at all. -/
theorem C14_only_own_write_end_released (D : DoubleOps α) :
    (∀ (fd : Fd) (name : String) (a b : tree_node)
      (r1 r2 r3 r4 r5 r6 r7 r8 r9 r10 r11 r12 r13 r14 : Resp α) (rs : List (Resp α))
      (tr : List (Act α)) (o : Outcome),
      (name = "+" ∨ name = "*") → ¬ r1.ret < 0 → 0 < r2.ret → 0 < r3.ret →
      r9.ret = sizeof_double → r13.ret = sizeof_double → r14.ret = sizeof_double →
      (child D fd (.mk name [a, b])).run
        (r1 :: r2 :: r3 :: r4 :: r5 :: r6 :: r7 :: r8 :: r9 :: r10 :: r11 :: r12 :: r13 ::
          r14 :: rs) = (tr, o) →
      closed_before_transfer tr = [r1.pfd1] ∧
      (∀ (i : Nat) (fd1 : Fd) (r : Int) (v : Option α), tr[i]? = some (.read fd1 r v) →
        fd1 = r1.pfd0 ∧ ∃ j, i = j + 1 ∧ tr[j]? = some (.close r1.pfd1)) ∧
      (∀ fd1 : Fd, fd1 ∈ close_calls tr → fd1 = r1.pfd1)) ∧
    (∀ (fd : Fd) (name : String) (r0 r1 r2 : Resp α) (rs : List (Resp α)),
      ¬ (name = "+" ∨ name = "*") → r1.ret = sizeof_double →
      closed_before_transfer ((child D fd (.mk name [])).run (r0 :: r1 :: r2 :: rs)).1 = []) ∧
    (∀ (prog path : String) (t : tree_node) (r1 r2 r3 r4 r5 r6 r7 : Resp α)
      (rs : List (Resp α)),
      r1.tree = some t → ¬ r2.ret < 0 → 0 < r3.ret → r7.ret = sizeof_double →
      close_calls ((main D [prog, path]).run (r1 :: r2 :: r3 :: r4 :: r5 :: r6 :: r7 :: rs)).1 =
        []) := by
  refine ⟨?_, ?_, ?_⟩
  · intro fd name a b r1 r2 r3 r4 r5 r6 r7 r8 r9 r10 r11 r12 r13 r14 rs tr o hop h1 h2 h3 h9
      h13 h14 hrun
    rw [internal_run D fd name a b r1 r2 r3 r4 r5 r6 r7 r8 r9 r10 r11 r12 r13 r14 rs hop h1 h2
      h3 h9 h13 h14] at hrun
    obtain ⟨rfl, -⟩ := Prod.mk.inj hrun
    refine ⟨by simp [closed_before_transfer, close_calls, Act.is_transfer], ?_, ?_⟩
    · intro i fd1 r v hi
      rcases i with _ | _ | _ | _ | _ | _ | _ | _ | _ | _ | _ | _ | _ | _ | _ | i
      all_goals simp at hi
      · obtain ⟨rfl, -, -⟩ := hi
        exact ⟨rfl, 7, rfl, rfl⟩
      · obtain ⟨rfl, -, -⟩ := hi
        exact ⟨rfl, 11, rfl, rfl⟩
    · intro fd1 hfd1
      simp [close_calls] at hfd1
      exact hfd1
  · intro fd name r0 r1 r2 rs hop h1
    rw [leaf_run D fd name r0 r1 r2 rs hop h1]
    simp [closed_before_transfer, close_calls, Act.is_transfer]
  · intro prog path t r1 r2 r3 r4 r5 r6 r7 rs h1 h2 h3 h7
    rw [main_run D prog path t r1 r2 r3 r4 r5 r6 r7 rs h1 h2 h3 h7]
    simp [close_calls]

theorem C14_witness :
    (closed_before_transfer ((child intOps ⟨0, true⟩ tree_sum).run
        [answer 0, answer 3, answer 4, answer 0, answer 0, answer 0, answer 3, answer 0,
          answer_read 8 3, answer 0, answer 4, answer 0, answer_read 8 4, answer 8]).1 =
        [⟨0, true⟩]) ∧
    closed_before_transfer ((child intOps ⟨1, true⟩ (.mk "3" [])).run
        [answer 0, answer 8, answer 0]).1 = [] ∧
    close_calls ((main intOps ["ex2-pipes", "sum.tree"]).run
        [loaded tree_sum, answer 0, answer 2, answer 0, answer 0, answer 2,
          answer_read 8 7]).1 = [] :=
  ⟨((C14_only_own_write_end_released intOps).1 ⟨0, true⟩ "+" (.mk "3" []) (.mk "4" [])
      (answer 0) (answer 3) (answer 4) (answer 0) (answer 0) (answer 0) (answer 3) (answer 0)
      (answer_read 8 3) (answer 0) (answer 4) (answer 0) (answer_read 8 4) (answer 8) [] _ _
      (by decide) (by decide) (by decide) (by decide) (by rfl) (by rfl) (by rfl) rfl).1,
   (C14_only_own_write_end_released intOps).2.1 ⟨1, true⟩ "3" (answer 0) (answer 8) (answer 0)
      [] (by decide) (by rfl),
   (C14_only_own_write_end_released intOps).2.2 "ex2-pipes" "sum.tree" tree_sum
      (loaded tree_sum) (answer 0) (answer 2) (answer 0) (answer 0) (answer 2)
      (answer_read 8 7) [] rfl (by decide) (by decide) (by rfl)⟩

/-- Claim C15, counterexample. In the run on the tree `(+ 3 4)` the Internal
worker (process 2) created the pipe 1 and writes its result on the write end
of pipe 0; it calls `close` twice on the write end of pipe 1 and never on the
read end of pipe 1 nor on its upward write end. -/
theorem C15_counterexample :
    (exec 60 (boot fun _ => some tree_sum) 1 (main intOps ["ex2-pipes", "sum.tree"])).map
        (fun K => (pipes_of 2 K.trace, writes_of 2 K.trace, close_calls (calls_of 2 K.trace))) =
      some ([(⟨1, false⟩, ⟨1, true⟩)], [⟨0, true⟩], [⟨1, true⟩, ⟨1, true⟩]) := by
  rfl

/-- Claim C15, as amended. A Leaf worker whose `write` is complete calls
`close` exactly once, on its upward write endpoint `fd`, directly after its
single `write`.  An Internal worker for which every call succeeds calls
`close` exactly twice, both times on `pfd[1]`, the write end of the pipe it
created (once before each `read`); it calls `close` neither on the read end
`pfd[0]` nor on its upward write endpoint `fd`, on which it writes once. -/
theorem C15_endpoints_closed (D : DoubleOps α) :
    (∀ (fd : Fd) (name : String) (r0 r1 r2 : Resp α) (rs : List (Resp α)),
      ¬ (name = "+" ∨ name = "*") → r1.ret = sizeof_double →
      ((child D fd (.mk name [])).run (r0 :: r1 :: r2 :: rs)).1 =
        [.raise_SIGSTOP, .write fd (D.atof name) sizeof_double, .close fd, .exit 16] ∧
      close_calls ((child D fd (.mk name [])).run (r0 :: r1 :: r2 :: rs)).1 = [fd]) ∧
    (∀ (fd : Fd) (name : String) (a b : tree_node)
      (r1 r2 r3 r4 r5 r6 r7 r8 r9 r10 r11 r12 r13 r14 : Resp α) (rs : List (Resp α))
      (tr : List (Act α)) (o : Outcome),
      (name = "+" ∨ name = "*") → ¬ r1.ret < 0 → 0 < r2.ret → 0 < r3.ret →
      r9.ret = sizeof_double → r13.ret = sizeof_double → r14.ret = sizeof_double →
      (child D fd (.mk name [a, b])).run
        (r1 :: r2 :: r3 :: r4 :: r5 :: r6 :: r7 :: r8 :: r9 :: r10 :: r11 :: r12 :: r13 ::
          r14 :: rs) = (tr, o) →
      close_calls tr = [r1.pfd1, r1.pfd1] ∧
      tr.filter Act.is_transfer =
        [.read r1.pfd0 sizeof_double r9.val, .read r1.pfd0 sizeof_double r13.val,
          .write fd (combine D name r9.val r13.val) sizeof_double] ∧
      o = .exited 16) := by
  refine ⟨?_, ?_⟩
  · intro fd name r0 r1 r2 rs hop h1
    rw [leaf_run D fd name r0 r1 r2 rs hop h1]
    simp [close_calls]
  · intro fd name a b r1 r2 r3 r4 r5 r6 r7 r8 r9 r10 r11 r12 r13 r14 rs tr o hop h1 h2 h3 h9
      h13 h14 hrun
    rw [internal_run D fd name a b r1 r2 r3 r4 r5 r6 r7 r8 r9 r10 r11 r12 r13 r14 rs hop h1 h2
      h3 h9 h13 h14] at hrun
    obtain ⟨rfl, rfl⟩ := Prod.mk.inj hrun
    simp [close_calls, Act.is_transfer, List.filter]

theorem C15_witness :
    (((child intOps ⟨1, true⟩ (.mk "3" [])).run [answer 0, answer 8, answer 0]).1 =
        [.raise_SIGSTOP, .write ⟨1, true⟩ (intOps.atof "3") sizeof_double, .close ⟨1, true⟩,
          .exit 16] ∧
      close_calls ((child intOps ⟨1, true⟩ (.mk "3" [])).run [answer 0, answer 8, answer 0]).1 =
        [⟨1, true⟩]) ∧
    close_calls ((child intOps ⟨5, true⟩ tree_sum).run
        [answer 0, answer 3, answer 4, answer 0, answer 0, answer 0, answer 3, answer 0,
          answer_read 8 3, answer 0, answer 4, answer 0, answer_read 8 4, answer 8]).1 =
      [⟨0, true⟩, ⟨0, true⟩] :=
  ⟨(C15_endpoints_closed intOps).1 ⟨1, true⟩ "3" (answer 0) (answer 8) (answer 0) []
      (by decide) (by rfl),
   ((C15_endpoints_closed intOps).2 ⟨5, true⟩ "+" (.mk "3" []) (.mk "4" [])
      (answer 0) (answer 3) (answer 4) (answer 0) (answer 0) (answer 0) (answer 3) (answer 0)
      (answer_read 8 3) (answer 0) (answer 4) (answer 0) (answer_read 8 4) (answer 8) [] _ _
      (by decide) (by decide) (by decide) (by decide) (by rfl) (by rfl) (by rfl) rfl).1⟩

end ex2_pipes

theorem Prog.for_range_bottom_up {σ : Type} (arity : Nat → Bool) (k : Nat) (w : Bool)
    (body : Nat → σ → (σ → Prog α) → Prog α) (done : σ → Prog α)
    (hbody : ∀ i s next, (∀ s1, (next s1).bottom_up arity k w) → (body i s next).bottom_up arity k w)
    (hdone : ∀ s, (done s).bottom_up arity k w) :
    ∀ (count i : Nat) (s : σ), (Prog.for_range count i s body done).bottom_up arity k w
  | 0, _, s => hdone s
  | n + 1, i, s =>
    hbody i s _ fun s1 => Prog.for_range_bottom_up arity k w body done hbody hdone n (i + 1) s1

namespace ex2_pipes

theorem child_at_never_returns (D : DoubleOps α) (fd : Fd) :
    ∀ (cs : List tree_node) (i : Nat), (child_at D fd cs i).never_returns
  | [], _ => by simp [child_at, Prog.never_returns]
  | c :: _, 0 => by rw [child_at]; exact child_never_returns D fd c
  | _ :: cs, i + 1 => by rw [child_at]; exact child_at_never_returns D fd cs i

theorem send_bottom_up (arity : Nat → Bool) (D : DoubleOps α) (fd : Fd) (name : String)
    (k : Nat) (w : Bool) : (send D fd name).bottom_up arity k w := by
  intro r
  by_cases h : r = sizeof_double <;> simp [h, Prog.bottom_up]

theorem collect_bottom_up (arity : Nat → Bool) (D : DoubleOps α) (fd : Fd) (name : String)
    (nr : Nat) (pfd0 pfd1 : Fd) (pid_child : Nat → Int) (k : Nat) (w : Bool) :
    (collect D fd name nr pfd0 pfd1 pid_child).bottom_up arity k w := by
  unfold collect
  apply Prog.for_range_bottom_up
  · intro i s next hnext p st r v
    by_cases h : r = sizeof_double
    · simp only [h, ne_eq, not_true_eq_false, if_false]; exact hnext _
    · simp [h, Prog.bottom_up]
  · intro s r
    by_cases h : r = sizeof_double <;> simp [h, Prog.bottom_up]

mutual
theorem child_bottom_up (D : DoubleOps α) :
    ∀ (t : tree_node) (fd : Fd), (child D fd t).bottom_up (fun k => k = 2) 0 false
  | .mk name children, fd => by
    unfold child
    by_cases hop : name = "+" ∨ name = "*"
    · simp only [hop, if_true]
      by_cases hlen : children.length = 2
      · simp only [hlen, ne_eq, not_true_eq_false, if_false]
        intro r pfd0 pfd1
        by_cases hr : r < 0
        · simp [hr, Prog.bottom_up]
        · simp only [hr, if_false, Prog.for_range]
          intro p
          refine ⟨fun h0 => ?_, fun h1 => ?_, fun h2 => by simp [h2, Prog.bottom_up]⟩
          · subst h0
            simp only [lt_irrefl, if_false, if_true]
            rw [Prog.seq_eq_self_of_never_returns _ _ (child_at_never_returns D _ _ _)]
            exact child_at_bottom_up D children 0 pfd1
          · have e1 : ¬ p < 0 := by omega
            have e2 : ¬ p = 0 := by omega
            simp only [e1, e2, if_false, Prog.seq]
            intro p1
            refine ⟨fun h0 => ?_, fun h1 => ?_, fun h2 => by simp [h2, Prog.bottom_up]⟩
            · subst h0
              simp only [lt_irrefl, if_false, if_true]
              rw [Prog.seq_eq_self_of_never_returns _ _ (child_at_never_returns D _ _ _)]
              exact child_at_bottom_up D children 1 pfd1
            · have e3 : ¬ p1 < 0 := by omega
              have e4 : ¬ p1 = 0 := by omega
              simp only [e3, e4, if_false, Prog.seq]
              exact ⟨rfl, by omega, by simp, Or.inr rfl, collect_bottom_up _ D fd name _ _ _ _ _ _⟩
      · simp [hlen, Prog.bottom_up]
    · simp only [hop, if_false]
      by_cases hlen : children.length = 0
      · simp only [hlen, ne_eq, not_true_eq_false, if_false]
        exact ⟨Or.inl rfl, send_bottom_up _ D fd name _ _⟩
      · simp [hlen, Prog.bottom_up]
theorem child_at_bottom_up (D : DoubleOps α) :
    ∀ (cs : List tree_node) (i : Nat) (fd : Fd),
      (child_at D fd cs i).bottom_up (fun k => k = 2) 0 false
  | [], _, _ => by simp [child_at, Prog.bottom_up]
  | c :: _, 0, fd => by rw [child_at]; exact child_bottom_up D c fd
  | _ :: cs, i + 1, fd => by rw [child_at]; exact child_at_bottom_up D cs i fd
end

end ex2_pipes

namespace ex2_signals

theorem wake_never_returns (nr : Nat) (pid_child : Nat → Int) :
    (wake nr pid_child : Prog α).never_returns := by
  unfold wake
  apply Prog.for_range_never_returns
  · intro i s next hnext p st; exact hnext _
  · intro s; trivial

theorem wake_bottom_up (arity : Nat → Bool) (nr : Nat) (pid_child : Nat → Int) (k : Nat)
    (w : Bool) : (wake nr pid_child : Prog α).bottom_up arity k w := by
  unfold wake
  apply Prog.for_range_bottom_up
  · intro i s next hnext p st; exact hnext _
  · intro s; trivial

mutual
theorem fork_procs_never_returns : ∀ (t : tree_node), (fork_procs t : Prog α).never_returns
  | .mk name children => by
    unfold fork_procs
    apply Prog.for_range_never_returns
    · intro i s next hnext p
      by_cases hp : p < 0
      · simp [hp, Prog.never_returns]
      · simp only [hp, if_false]
        exact Prog.never_returns_seq _ _ (hnext _)
    · intro s
      by_cases hlen : children.length = 0
      · simp [hlen, Prog.never_returns]
      · simp only [ne_eq, hlen, not_false_eq_true, if_true]
        exact wake_never_returns _ _
end

theorem fork_procs_at_never_returns :
    ∀ (cs : List tree_node) (i : Nat), (fork_procs_at cs i : Prog α).never_returns
  | [], _ => by simp [fork_procs_at, Prog.never_returns]
  | c :: _, 0 => by rw [fork_procs_at]; exact fork_procs_never_returns c
  | _ :: cs, i + 1 => by rw [fork_procs_at]; exact fork_procs_at_never_returns cs i

/-- The fork loop of `fork_procs` after `i` children were forked. -/
theorem fork_loop_bottom_up (children : List tree_node)
    (hch : ∀ j, (fork_procs_at children j : Prog α).bottom_up (fun _ => true) 0 false) :
    ∀ (n i : Nat) (s : Nat → Int), i + n = children.length →
      (Prog.for_range n i s
        (fun i pid_child next =>
          .fork fun p =>
            if p < 0 then
              .stderr "pid_child: fork" (.exit 1)
            else
              Prog.seq
                (if p = 0 then fork_procs_at children i else .ret)
                (next (assign pid_child i p)))
        (fun pid_child =>
          if children.length ≠ 0 then
            .wait_for_ready_children children.length <|
            .raise_SIGSTOP <|
            wake children.length pid_child
          else
            .raise_SIGSTOP (.exit 16)) : Prog α).bottom_up (fun _ => true) i false
  | 0, i, s, hi => by
    simp only [Prog.for_range]
    by_cases hlen : children.length = 0
    · simp only [hlen, ne_eq, not_true_eq_false, if_false]
      exact ⟨Or.inl (by omega), trivial⟩
    · simp only [ne_eq, hlen, not_false_eq_true, if_true]
      exact ⟨by omega, by omega, rfl, Or.inr rfl, wake_bottom_up _ _ _ _ _⟩
  | n + 1, i, s, hi => by
    simp only [Prog.for_range]
    intro p
    refine ⟨fun h0 => ?_, fun h1 => ?_, fun h2 => by simp [h2, Prog.bottom_up]⟩
    · subst h0
      simp only [lt_irrefl, if_false, if_true]
      rw [Prog.seq_eq_self_of_never_returns _ _ (fork_procs_at_never_returns _ _)]
      exact hch i
    · have e1 : ¬ p < 0 := by omega
      have e2 : ¬ p = 0 := by omega
      simp only [e1, e2, if_false, Prog.seq]
      exact fork_loop_bottom_up children hch n (i + 1) _ (by omega)

mutual
theorem signals_fork_procs_bottom_up :
    ∀ (t : tree_node), (fork_procs t : Prog α).bottom_up (fun _ => true) 0 false
  | .mk name children => by
    unfold fork_procs
    exact fork_loop_bottom_up children (fun j => signals_fork_procs_at_bottom_up children j)
      children.length 0 _ (by omega)
theorem signals_fork_procs_at_bottom_up :
    ∀ (cs : List tree_node) (i : Nat),
      (fork_procs_at cs i : Prog α).bottom_up (fun _ => true) 0 false
  | [], _ => by simp [fork_procs_at, Prog.bottom_up]
  | c :: _, 0 => by rw [fork_procs_at]; exact signals_fork_procs_bottom_up c
  | _ :: cs, i + 1 => by rw [fork_procs_at]; exact signals_fork_procs_at_bottom_up cs i
end

end ex2_signals

theorem Runs.read_block {K : Kernel α} {self : Nat} {fd : Fd} {k : Int → Option α → Prog α}
    (hfd : fd ∈ (K.proc self).fds) (hwr : fd.wr = false) (hb : K.buf fd.pipe = [])
    (hw : K.has_writer fd.pipe = true) :
    Runs K self (.read fd k) (K.block self (.read fd k)) :=
  ⟨1, fun n hn => by
    obtain ⟨m, rfl⟩ : ∃ m, n = m + 1 := ⟨n - 1, by omega⟩
    simp only [exec, hfd, hwr, hb, hw, and_self, if_true]⟩

theorem Runs.read_eof {K K2 : Kernel α} {self : Nat} {fd : Fd} {k : Int → Option α → Prog α}
    (hfd : fd ∈ (K.proc self).fds) (hwr : fd.wr = false) (hb : K.buf fd.pipe = [])
    (hw : K.has_writer fd.pipe = false)
    (h : Runs (K.log self (.read fd 0 none)) self (k 0 none) K2) :
    Runs K self (.read fd k) K2 :=
  Runs.step (fun n => by simp [exec, hfd, hwr, hb, hw]) h

theorem Runs.cont_zombie {K K2 : Kernel α} {self : Nat} {pid : Int} {k : Prog α} {st : Int}
    (hs : (K.proc pid.toNat).state = .zombie st)
    (h : Runs (K.log self (.kill_SIGCONT pid)) self k K2) :
    Runs K self (.kill_SIGCONT pid k) K2 :=
  Runs.step (fun n => by simp only [exec, hs]) h

namespace ex2_pipes

theorem collect_eq_collect_from (D : DoubleOps α) (fd : Fd) (name : String) (nr : Nat)
    (pfd0 pfd1 : Fd) (pid_child : Nat → Int) :
    collect D fd name nr pfd0 pfd1 pid_child =
      collect_from D fd name pfd0 pfd1 nr 0 (pid_child, fun _ => D.zero) := rfl

/-- Claim C17, counterexample. In the run on `(+ 3 4)` the worker of the
leaf `3` (process 3, child 0 of process 2) is killed while stopped, so it
terminates without writing.  Its parent sends `SIGCONT`, `wait` returns the
child with the status of a killed process, the parent calls `close` and then
`read`: the pipe is empty, the stopped sibling (process 4) holds the write
end, and the parent ends blocked in `read` without an exit. -/
theorem C17_counterexample :
    (exec 40 (killed_while_stopped [3]) 2 (resume intOps 2 ⟨0, true⟩ 1 tree_sum)).map
        (fun K => ((K.proc 2).state.status, (K.proc 3).state.status, (K.proc 4).state.status,
          decide (⟨1, true⟩ ∈ (K.proc 4).fds), K.buf 1, calls_of 2 (K.trace.drop 13))) =
      some (.blocked, .reaped, .stopped, true, [],
        [.kill_SIGCONT 3, .wait 3 W_SIGKILL, .close ⟨1, true⟩]) := by
  rfl

/-- Claim C17, as amended. An Internal worker does not inspect the
termination status of a child.  When child `j` has terminated (with whatever
status `st`) without writing, so that the pipe is empty, the parent still
sends `SIGCONT`, takes the child with `wait`, calls `close(pfd[1])` and then
`read(pfd[0])`.  If another live process holds the write end of the pipe, the
parent ends blocked in `read` and never exits.  If no live process holds the
write end any more, `read` returns 0 and the parent prints
`parent: read from pipe` and exits with status 1. -/
theorem C17_dead_child_not_detected (D : DoubleOps α) (K : Kernel α) (c : Nat) (fd : Fd)
    (name : String) (q n j : Nat) (s : (Nat → Int) × (Nat → α)) (st : Int)
    (rest : List (Nat × Int))
    (hz : (K.proc (s.1 j).toNat).state = .zombie st)
    (hd : (K.proc c).dead = ((s.1 j).toNat, st) :: rest)
    (hb : K.buf q = []) (hr : ⟨q, false⟩ ∈ (K.proc c).fds) (hne : c ≠ (s.1 j).toNat)
    (hpar : (K.proc c).parent ≠ c) :
    ((∃ x, x < K.next_pid ∧ x ≠ c ∧ Kernel.alive (K.proc x).state = true ∧
        ⟨q, true⟩ ∈ (K.proc x).fds) →
      ∃ K1, Runs K c (collect_from D fd name ⟨q, false⟩ ⟨q, true⟩ (n + 1) j s) K1 ∧
        (K1.proc c).state.status = .blocked ∧
        K1.trace = K.trace ++ [(c, .kill_SIGCONT (s.1 j)),
          (c, .wait (((s.1 j).toNat : Nat) : Int) st), (c, .close ⟨q, true⟩)]) ∧
    ((∀ x, x < K.next_pid → x ≠ c → Kernel.alive (K.proc x).state = true →
        ⟨q, true⟩ ∉ (K.proc x).fds) →
      ⟨q, true⟩ ∉ (K.proc c).fds.erase ⟨q, true⟩ →
      ∃ K1, Runs K c (collect_from D fd name ⟨q, false⟩ ⟨q, true⟩ (n + 1) j s) K1 ∧
        (K1.proc c).state.status = .zombie (W_EXITED 1) ∧
        K1.trace = K.trace ++ [(c, .kill_SIGCONT (s.1 j)),
          (c, .wait (((s.1 j).toNat : Nat) : Int) st), (c, .close ⟨q, true⟩),
          (c, .read ⟨q, false⟩ 0 none), (c, .stderr "parent: read from pipe"),
          (c, .exit 1)]) := by
  obtain ⟨K3, hK3⟩ : ∃ K3 : Kernel α,
    K3 = (((K.log c (.kill_SIGCONT (s.1 j))).reaped c (s.1 j).toNat st rest).closed c
      ⟨q, true⟩) := ⟨_, rfl⟩
  have hfd3 : (⟨q, false⟩ : Fd) ∈ (K3.proc c).fds := by
    rw [hK3]
    simp only [Kernel.closed_proc, if_true, Kernel.reaped_proc_self _ _ _ _ _ hne,
      Kernel.log_proc]
    exact (List.mem_erase_of_ne (by simp)).2 hr
  have hb3 : K3.buf q = [] := by rw [hK3]; simp [hb]
  have hother : ∀ x, x ≠ c → Kernel.alive (K.proc x).state = true →
      K3.proc x = K.proc x := by
    intro x hx ha
    have hx2 : x ≠ (s.1 j).toNat := by
      intro e; rw [e, hz] at ha; simp [Kernel.alive] at ha
    rw [hK3]
    simp only [Kernel.closed_proc, hx, if_false]
    rw [Kernel.reaped_proc_other _ _ _ _ _ _ hx hx2]
    simp
  refine ⟨fun ⟨x, hx1, hx2, hx3, hx4⟩ => ?_, fun hno hown => ?_⟩
  · have hw : K3.has_writer q = true := by
      simp only [Kernel.has_writer, List.any_eq_true, List.mem_range, Bool.and_eq_true,
        List.contains_iff_exists_mem_beq, beq_iff_eq, exists_eq_right]
      refine ⟨x, by rw [hK3]; simpa using hx1, ?_⟩
      rw [hother x hx2 hx3]
      exact ⟨hx3, by simpa using hx4⟩
    refine ⟨?K1, ?hrun, ?hs, ?ht⟩
    case hrun =>
      simp only [collect_from, Prog.for_range]
      refine Runs.cont_zombie hz ?_
      refine Runs.wait (by simpa using hd) ?_
      refine Runs.close ?_
      rw [← hK3]
      exact Runs.read_block hfd3 rfl hb3 hw
    case hs =>
      have key : ∀ P : Prog α, ((K3.block c P).proc c).state.status = .blocked := by
        intro P; simp [Kernel.block, PState.status]
      exact key _
    case ht =>
      have key : ∀ P : Prog α, (K3.block c P).trace = K.trace ++
          [(c, .kill_SIGCONT (s.1 j)), (c, .wait (((s.1 j).toNat : Nat) : Int) st),
            (c, .close ⟨q, true⟩)] := by
        intro P; rw [hK3]; simp [Kernel.block, Kernel.modify, Kernel.reaped]
      exact key _
  · have hw : K3.has_writer q = false := by
      rw [Bool.eq_false_iff]
      intro h
      simp only [Kernel.has_writer, List.any_eq_true, List.mem_range, Bool.and_eq_true] at h
      obtain ⟨x, hx1, hx3, hx4⟩ := h
      by_cases hxc : x = c
      · subst hxc
        rw [hK3] at hx4
        simp only [Kernel.closed_proc, if_true, Kernel.reaped_proc_self _ _ _ _ _ hne,
          Kernel.log_proc] at hx4
        exact hown (by simpa using hx4)
      · by_cases hxj : x = (s.1 j).toNat
        · subst hxj
          rw [hK3] at hx3
          simp [Kernel.reaped, hxc, Kernel.alive] at hx3
        · have e : K3.proc x = K.proc x := by
            rw [hK3]
            simp only [Kernel.closed_proc, hxc, if_false]
            rw [Kernel.reaped_proc_other _ _ _ _ _ _ hxc hxj]
            simp
          rw [e] at hx3 hx4
          exact hno x (by rw [hK3] at hx1; simpa using hx1) hxc hx3 (by simpa using hx4)
    have hp3 : ((((K3.log c (.read ⟨q, false⟩ 0 none)).log c
        (.stderr "parent: read from pipe")).log c (.exit 1)).proc c).parent ≠ c := by
      rw [hK3]
      simp only [Kernel.log_proc, Kernel.closed_proc, if_true,
        Kernel.reaped_proc_self _ _ _ _ _ hne]
      exact hpar
    refine ⟨(((K3.log c (.read ⟨q, false⟩ 0 none)).log c
      (.stderr "parent: read from pipe")).log c (.exit 1)).terminate c (W_EXITED 1),
      ?hrun2, ?hs2, ?ht2⟩
    case hrun2 =>
      simp only [collect_from, Prog.for_range]
      refine Runs.cont_zombie hz ?_
      refine Runs.wait (by simpa using hd) ?_
      refine Runs.close ?_
      rw [← hK3]
      refine Runs.read_eof hfd3 rfl hb3 hw ?_
      have e : ((0 : Int) ≠ sizeof_double) := by decide
      rw [if_pos e]
      exact Runs.stderr (Runs.exit _ _ _)
    case hs2 =>
      rw [Kernel.terminate_proc_self _ _ _ hp3]
      rfl
    case ht2 =>
      rw [hK3]; simp [Kernel.reaped, Kernel.modify]

theorem C17_witness :
    (∃ K1, Runs (killed_while_stopped [3]) 2
        (collect_from intOps ⟨0, true⟩ "+" ⟨1, false⟩ ⟨1, true⟩ (1 + 1) 0
          (two_children, fun _ => 0)) K1 ∧
      (K1.proc 2).state.status = .blocked ∧
      K1.trace = (killed_while_stopped [3]).trace ++ [(2, .kill_SIGCONT (two_children 0)),
        (2, .wait (((two_children 0).toNat : Nat) : Int) W_SIGKILL),
        (2, .close ⟨1, true⟩)]) ∧
    (∃ K1, Runs (killed_while_stopped [3, 4]) 2
        (collect_from intOps ⟨0, true⟩ "+" ⟨1, false⟩ ⟨1, true⟩ (1 + 1) 0
          (two_children, fun _ => 0)) K1 ∧
      (K1.proc 2).state.status = .zombie (W_EXITED 1) ∧
      K1.trace = (killed_while_stopped [3, 4]).trace ++ [(2, .kill_SIGCONT (two_children 0)),
        (2, .wait (((two_children 0).toNat : Nat) : Int) W_SIGKILL),
        (2, .close ⟨1, true⟩), (2, .read ⟨1, false⟩ 0 none),
        (2, .stderr "parent: read from pipe"), (2, .exit 1)]) :=
  ⟨(C17_dead_child_not_detected intOps (killed_while_stopped [3]) 2 ⟨0, true⟩ "+" 1 1 0
      (two_children, fun _ => 0) W_SIGKILL [] (by rfl) (by rfl) (by rfl) (by decide)
      (by decide) (by decide)).1 ⟨4, by decide, by decide, by rfl, by decide⟩,
   (C17_dead_child_not_detected intOps (killed_while_stopped [3, 4]) 2 ⟨0, true⟩ "+" 1 1 0
      (two_children, fun _ => 0) W_SIGKILL [(4, W_SIGKILL)] (by rfl) (by rfl) (by rfl)
      (by decide) (by decide) (by decide)).2 (by decide) (by decide)⟩

end ex2_pipes

namespace ex1

theorem to_size_t_natCast (n : Nat) (h : n < 2 ^ 64) : to_size_t (n : Int) = n := by
  unfold to_size_t
  have h1 : ((n : Int) % 2 ^ 64) = n := Int.emod_eq_of_lt (by omega) (by exact_mod_cast h)
  rw [h1]; simp

theorem lookup_natCast (w : World) (c : Nat) : lookup w (c : Int) = w.fds c := by
  simp [lookup]

/-- The effect of one `write` of `count` bytes at the end of the file. -/
theorem write_at_end (w : World) (c : Nat) (out : String) (content buf : List Nat)
    (count k : Nat) (hfd : w.fds c = some ⟨out, content.length, true⟩)
    (hfile : w.files out = some content) (hans : 0 < w.answers w.calls)
    (hcount : count ≤ buf.length) (hk : k = min (w.answers w.calls).toNat count) :
    (write w (c : Int) buf count).2 = (k : Int) ∧
      (write w (c : Int) buf count).1.files out = some (content ++ buf.take k) ∧
      (∀ p, p ≠ out → (write w (c : Int) buf count).1.files p = w.files p) ∧
      (write w (c : Int) buf count).1.fds c = some ⟨out, (content ++ buf.take k).length, true⟩ ∧
      (∀ i, i ≠ c → (write w (c : Int) buf count).1.fds i = w.fds i) ∧
      (write w (c : Int) buf count).1.answers = w.answers ∧
      (write w (c : Int) buf count).1.next_fd = w.next_fd ∧
      (write w (c : Int) buf count).1.can_create = w.can_create := by
  have hneg : ¬ w.answers w.calls < 0 := by omega
  have hk2 : min (w.answers w.calls).toNat (min count buf.length) = k := by
    rw [Nat.min_eq_left hcount, hk]
  have hkle : k ≤ buf.length := by
    rw [hk]; exact Nat.le_trans (Nat.min_le_right _ _) hcount
  have e : write w (c : Int) buf count =
      ({ w with
          calls := w.calls + 1
          files := fun p =>
            if p = out then some (content ++ buf.take k) else w.files p
          fds := fun i =>
            if i = c then some ⟨out, content.length + k, true⟩ else w.fds i }, (k : Int)) := by
    simp only [write, lookup_natCast, hfd, hneg, Bool.true_eq_false, or_self, if_false, hk2,
      hfile, Option.getD_some, List.take_length, Int.toNat_ofNat]
    have hd : List.drop (content.length + k) content = [] :=
      List.drop_eq_nil_of_le (by omega)
    simp [hd]
  rw [e]
  refine ⟨rfl, by simp, fun p hp => by simp [hp], ?_, fun i hi => by simp [hi], rfl, rfl, rfl⟩
  simp [List.length_take, Nat.min_eq_left hkle]


theorem Appended.trans {w w1 w2 : World} {out : String} {c : Nat} {rs : List Nat}
    {c1 c2 : List Nat} (h1 : Appended w w1 out c rs c1) (h2 : Appended w1 w2 out c rs c2) :
    Appended w w2 out c rs c2 := by
  obtain ⟨-, a2, -, a4, a5, a6, a7⟩ := h1
  obtain ⟨b1, b2, b3, b4, b5, b6, b7⟩ := h2
  exact ⟨b1, fun p hp => by rw [b2 p hp, a2 p hp], b3,
    fun i hi hr => by rw [b4 i hi hr, a4 i hi hr], by rw [b5, a5], by rw [b6, a6],
    by rw [b7, a7]⟩

theorem take_drop_append (data tail : List Nat) (idx k : Nat) (h : idx + k ≤ data.length) :
    ((data ++ tail).drop idx).take k = (data.drop idx).take k := by
  rw [List.drop_append_of_le_length (by omega)]
  rw [List.take_append_of_le_length (by simp; omega)]

/-- The loop of `doWrite` writes the rest of the buffer when every `write`
transfers at least one byte, and `data.length - idx` iterations suffice. -/
theorem doWrite_loop_ok (data tail : List Nat) (c : Nat) (out : String)
    (hlen : data.length < 2 ^ 63) :
    ∀ (n : Nat) (w : World) (content : List Nat) (idx : Nat),
      w.fds c = some ⟨out, content.length, true⟩ → w.files out = some content →
      (∀ i, 0 < w.answers i) → idx < data.length → data.length - idx ≤ n →
      ∃ w1, doWrite_loop n w (c : Int) (data ++ tail) (data.length : Int) idx =
          some (.ok w1 ()) ∧
        Appended w w1 out c [] (content ++ data.drop idx) := by
  intro n
  induction n with
  | zero => intro w content idx _ _ _ h1 h2; omega
  | succ n ih =>
    intro w content idx hfd hfile hans hidx hn
    have hL : to_size_t (data.length : Int) = data.length :=
      to_size_t_natCast _ (by omega)
    have hcnt : (data.length + 2 ^ 64 - idx) % 2 ^ 64 = data.length - idx := by omega
    obtain ⟨k, hk⟩ : ∃ k, k = min (w.answers w.calls).toNat (data.length - idx) := ⟨_, rfl⟩
    have hpos := hans w.calls
    have hk1 : 1 ≤ k := by rw [hk]; omega
    have hk2 : idx + k ≤ data.length := by rw [hk]; omega
    obtain ⟨e1, e2, e3, e4, e5, e6, e7, e8⟩ :=
      write_at_end w c out content ((data ++ tail).drop idx) (data.length - idx) k hfd hfile
        hpos (by simp; omega) hk
    rw [take_drop_append data tail idx k hk2] at e2 e4
    have hne : ¬ ((k : Int) = -1) := by omega
    have hidx1 : (idx + to_size_t (k : Int)) % 2 ^ 64 = idx + k := by
      rw [to_size_t_natCast _ (by omega)]; omega
    simp only [doWrite_loop, hL, hcnt, e1, hne, if_false, hidx1]
    by_cases hlt : idx + k < data.length
    · simp only [hlt, if_true]
      obtain ⟨w1, hrun, happ⟩ := ih _ (content ++ (data.drop idx).take k) (idx + k) e4 e2
        (by intro i; rw [e6]; exact hans i) hlt (by omega)
      refine ⟨w1, hrun, ?_⟩
      have hjoin : content ++ (data.drop idx).take k ++ data.drop (idx + k) =
          content ++ data.drop idx := by
        rw [List.append_assoc, ← List.drop_drop, List.take_append_drop]
      rw [hjoin] at happ
      exact Appended.trans ⟨e2, e3, e4, fun i hi _ => e5 i hi, e6, e7, e8⟩ happ
    · simp only [hlt, if_false]
      have hall : (data.drop idx).take k = data.drop idx :=
        List.take_of_length_le (by simp; omega)
      rw [hall] at e2 e4
      exact ⟨_, rfl, e2, e3, e4, fun i hi _ => e5 i hi, e6, e7, e8⟩


theorem Appended.mono {w w1 : World} {out : String} {c : Nat} {rs rs1 : List Nat}
    {c1 : List Nat} (h : Appended w w1 out c rs c1) (hsub : ∀ i, i ∈ rs → i ∈ rs1) :
    Appended w w1 out c rs1 c1 := by
  obtain ⟨a1, a2, a3, a4, a5, a6, a7⟩ := h
  exact ⟨a1, a2, a3, fun i hi hr => a4 i hi fun h => hr (hsub i h), a5, a6, a7⟩

/-- The effect of one `read` of at most `count` bytes. -/
theorem read_at (w : World) (r : Nat) (inp : String) (a : List Nat) (rpos count k : Nat)
    (hfd : w.fds r = some ⟨inp, rpos, false⟩) (hfile : w.files inp = some a)
    (hans : 0 < w.answers w.calls)
    (hk : k = min (max (w.answers w.calls).toNat 1) (min count (a.length - rpos))) :
    (read w (r : Int) count).2.1 = (k : Int) ∧
      (read w (r : Int) count).2.2 = (a.drop rpos).take k ∧
      (read w (r : Int) count).1.files = w.files ∧
      (read w (r : Int) count).1.fds r = some ⟨inp, rpos + k, false⟩ ∧
      (∀ i, i ≠ r → (read w (r : Int) count).1.fds i = w.fds i) ∧
      (read w (r : Int) count).1.answers = w.answers ∧
      (read w (r : Int) count).1.next_fd = w.next_fd ∧
      (read w (r : Int) count).1.can_create = w.can_create := by
  have hneg : ¬ w.answers w.calls < 0 := by omega
  have e : read w (r : Int) count =
      ({ w with
          calls := w.calls + 1
          fds := fun i => if i = r then some ⟨inp, rpos + k, false⟩ else w.fds i }, (k : Int),
        (a.drop rpos).take k) := by
    simp only [read, lookup_natCast, hfd, hneg, Bool.false_eq_true, or_self, if_false, hfile,
      Option.getD_some, List.length_drop, Int.toNat_ofNat, ← hk]
  rw [e]
  exact ⟨rfl, rfl, rfl, by simp, fun i hi => by simp [hi], rfl, rfl, rfl⟩

/-- The loop of `write_file` appends the rest of the input file. -/
theorem write_file_loop_ok (a : List Nat) (c r : Nat) (out inp : String) (hio : inp ≠ out)
    (hrc : r ≠ c) :
    ∀ (n : Nat) (w : World) (content : List Nat) (rpos : Nat),
      w.fds c = some ⟨out, content.length, true⟩ → w.files out = some content →
      w.fds r = some ⟨inp, rpos, false⟩ → w.files inp = some a → rpos ≤ a.length →
      (∀ i, 0 < w.answers i) → a.length - rpos + 1024 ≤ n →
      ∃ w1, write_file_loop n w (c : Int) (r : Int) = some (.ok w1 ()) ∧
        Appended w w1 out c [r] (content ++ a.drop rpos) := by
  intro n
  induction n with
  | zero => intro w content rpos _ _ _ _ _ _ h; omega
  | succ n ih =>
    intro w content rpos hfd hfile hrd hin hrpos hans hn
    obtain ⟨k, hk⟩ : ∃ k, k = min (max (w.answers w.calls).toNat 1)
      (min (1024 - 1) (a.length - rpos)) := ⟨_, rfl⟩
    obtain ⟨e1, e2, e3, e4, e5, e6, e7, e8⟩ := read_at w r inp a rpos (1024 - 1) k hrd hin
      (hans _) hk
    have hfd1 : (read w (r : Int) (1024 - 1)).1.fds c = some ⟨out, content.length, true⟩ := by
      rw [e5 c (Ne.symm hrc)]; exact hfd
    have happ0 : Appended w (read w (r : Int) (1024 - 1)).1 out c [r] content :=
      ⟨by rw [e3]; exact hfile, fun p _ => by rw [e3], hfd1,
        fun i _ hi => e5 i (by simpa using hi), e6, e7, e8⟩
    by_cases hend : rpos = a.length
    · have hk0 : k = 0 := by rw [hk, hend]; simp
      simp only [write_file_loop, e1, hk0, Nat.cast_zero, if_true]
      refine ⟨_, rfl, ?_⟩
      rw [hend, List.drop_length, List.append_nil]
      exact happ0
    · have hk1 : 1 ≤ k := by rw [hk]; omega
      have hk2 : k ≤ 1023 := by rw [hk]; omega
      have hk3 : rpos + k ≤ a.length := by rw [hk]; omega
      have hne0 : ¬ ((k : Int) = 0) := by omega
      have hne1 : ¬ ((k : Int) = -1) := by omega
      have hdl : ((a.drop rpos).take k).length = k := by simp; omega
      obtain ⟨w2, hrun2, happ2⟩ := doWrite_loop_ok ((a.drop rpos).take k) [0] c out
        (by rw [hdl]; omega) n _ content 0 hfd1 (by rw [e3]; exact hfile)
        (by intro i; rw [e6]; exact hans i) (by rw [hdl]; omega) (by rw [hdl]; omega)
      rw [hdl] at hrun2
      rw [List.drop_zero] at happ2
      obtain ⟨b1, b2, b3, b4, b5, b6, b7⟩ := happ2
      obtain ⟨w3, hrun3, happ3⟩ := ih w2 (content ++ (a.drop rpos).take k) (rpos + k) b3 b1
        (by rw [b4 r hrc (by simp)]; exact e4) (by rw [b2 inp hio, e3]; exact hin) hk3
        (by intro i; rw [b5, e6]; exact hans i) (by omega)
      simp only [write_file_loop, e1, hne0, hne1, if_false, e2, doWrite, hrun2]
      refine ⟨w3, hrun3, ?_⟩
      have hjoin : content ++ (a.drop rpos).take k ++ a.drop (rpos + k) =
          content ++ a.drop rpos := by
        rw [List.append_assoc, ← List.drop_drop, List.take_append_drop]
      rw [hjoin] at happ3
      exact Appended.trans happ0
        (Appended.trans (Appended.mono ⟨b1, b2, b3, b4, b5, b6, b7⟩ (by simp)) happ3)

/-- The function `write_file` appends the whole input file. -/
theorem write_file_ok (a : List Nat) (c : Nat) (out inp : String) (hio : inp ≠ out)
    (n : Nat) (w : World) (content : List Nat)
    (hfd : w.fds c = some ⟨out, content.length, true⟩) (hfile : w.files out = some content)
    (hin : w.files inp = some a) (hc : c < w.next_fd) (hans : ∀ i, 0 < w.answers i)
    (hn : a.length + 1024 ≤ n) :
    ∃ w1, write_file n w (c : Int) inp = some (.ok w1 ()) ∧
      w1.files out = some (content ++ a) ∧ (∀ p, p ≠ out → w1.files p = w.files p) ∧
      w1.fds c = some ⟨out, (content ++ a).length, true⟩ ∧
      w1.answers = w.answers ∧ w1.next_fd = w.next_fd + 1 := by
  have hne : ¬ ((w.next_fd : Int) = -1) := by omega
  have hrc : w.next_fd ≠ c := by omega
  obtain ⟨w1, hrun, h1, h2, h3, h4, h5, h6, h7⟩ :=
    write_file_loop_ok a c w.next_fd out inp hio hrc n
      { w with
        fds := fun i => if i = w.next_fd then some ⟨inp, 0, false⟩ else w.fds i
        next_fd := w.next_fd + 1 } content 0
      (by simp [Ne.symm hrc, hfd]) hfile (by simp) hin (by omega) hans (by omega)
  refine ⟨close w1 (w.next_fd : Int), ?_, ?_, ?_, ?_, ?_, ?_⟩
  · simp only [write_file, open_rdonly, hin, hne, if_false, hrun]
  · simpa [close] using h1
  · intro p hp; simpa [close] using h2 p hp
  · have e : ¬ ((w.next_fd : Int) < 0) := by omega
    simp only [close, e, if_false, Int.toNat_ofNat, Ne.symm hrc]
    simpa using h3
  · simpa [close] using h5
  · simpa [close] using h6


theorem close_files (w : World) (fd : Int) : (close w fd).files = w.files := by
  unfold close; split <;> rfl

/-- Claim C18, counterexample. Both inputs are readable, the output path `c`
names neither input and the kernel fails no `read` or `write`, but the output
file cannot be created: `fconc a b c` exits with status 1 and writes no
output file. -/
theorem C18_counterexample :
    (small_world (fun _ => false) 1).files "a" = some [1, 2, 3] ∧
    (small_world (fun _ => false) 1).files "b" = some [4, 5] ∧
    outfile ["fconc", "a", "b", "c"] = "c" ∧
    (∀ i, 0 < (small_world (fun _ => false) 1).answers i) ∧
    (main 100 (small_world (fun _ => false) 1) ["fconc", "a", "b", "c"]).map
        (fun r => (r.2, r.1.files "c", r.1.stderr, r.1.calls)) =
      some (1, none, ["open"], 0) := by
  refine ⟨by rfl, by rfl, by rfl, fun i => show (0 : Int) < 1 by decide, by rfl⟩

/-- Claim C18, as amended. When both inputs are readable, the output path
(`argv[3]`, or `fconc.out` with three arguments) names neither input and can
be opened for writing, and every `read` and `write` succeeds and transfers at
least one byte, `fconc` terminates with exit status 0 and the output file
holds exactly the bytes of the first input followed by the bytes of the
second, whatever it held before and however the kernel splits the transfers;
no other file changes. -/
theorem C18_fconc_concatenates (w : World) (argv : List String) (a b : List Nat)
    (hargc : argv.length = 3 ∨ argv.length = 4)
    (ha : w.files (argv.getD 1 "") = some a) (hb : w.files (argv.getD 2 "") = some b)
    (h1 : argv.getD 1 "" ≠ outfile argv) (h2 : argv.getD 2 "" ≠ outfile argv)
    (hans : ∀ i, 0 < w.answers i) (hout : w.can_create (outfile argv) = true) :
    ∃ N, ∀ n, N ≤ n → ∃ w1, main n w argv = some (w1, 0) ∧
      w1.files (outfile argv) = some (a ++ b) ∧
      ∀ p, p ≠ outfile argv → w1.files p = w.files p := by
  refine ⟨a.length + b.length + 1024, fun n hn => ?_⟩
  have hargc2 : ¬ (argv.length ≠ 3 ∧ argv.length ≠ 4) := by omega
  have hc : (if argv.length = 3 then
        open_creat (open_rdonly (open_rdonly w (argv.getD 1 "")).1 (argv.getD 2 "")).1
          "fconc.out"
      else open_creat (open_rdonly (open_rdonly w (argv.getD 1 "")).1 (argv.getD 2 "")).1
        (argv.getD 3 "")) =
      open_creat (open_rdonly (open_rdonly w (argv.getD 1 "")).1 (argv.getD 2 "")).1
        (outfile argv) := by
    unfold outfile; split <;> rfl
  have eA : open_rdonly w (argv.getD 1 "") =
      ({ w with
          fds := fun i => if i = w.next_fd then some ⟨argv.getD 1 "", 0, false⟩ else w.fds i
          next_fd := w.next_fd + 1 }, (w.next_fd : Int)) := by
    simp only [open_rdonly, ha]
  have eB : open_rdonly (open_rdonly w (argv.getD 1 "")).1 (argv.getD 2 "") =
      ({ (open_rdonly w (argv.getD 1 "")).1 with
          fds := fun i =>
            if i = w.next_fd + 1 then some ⟨argv.getD 2 "", 0, false⟩
            else (open_rdonly w (argv.getD 1 "")).1.fds i
          next_fd := w.next_fd + 1 + 1 }, ((w.next_fd + 1 : Nat) : Int)) := by
    rw [eA]; simp only [open_rdonly, hb]
  obtain ⟨w3, hw3⟩ : ∃ w3, w3 = (open_creat
    (open_rdonly (open_rdonly w (argv.getD 1 "")).1 (argv.getD 2 "")).1 (outfile argv)).1 :=
    ⟨_, rfl⟩
  have eC : open_creat (open_rdonly (open_rdonly w (argv.getD 1 "")).1 (argv.getD 2 "")).1
      (outfile argv) = (w3, ((w.next_fd + 2 : Nat) : Int)) := by
    rw [hw3, eB, eA]; simp only [open_creat, hout, if_true]
  have f1 : w3.fds (w.next_fd + 2) = some ⟨outfile argv, ([] : List Nat).length, true⟩ := by
    rw [hw3, eB, eA]; simp [open_creat, hout]
  have f2 : w3.files (outfile argv) = some [] := by
    rw [hw3, eB, eA]; simp [open_creat, hout]
  have f3 : ∀ p, p ≠ outfile argv → w3.files p = w.files p := by
    intro p hp; rw [hw3, eB, eA]; simp [open_creat, hout, hp]
  have f4 : w3.next_fd = w.next_fd + 3 := by
    rw [hw3, eB, eA]; simp [open_creat, hout]
  have f5 : w3.answers = w.answers := by
    rw [hw3, eB, eA]; simp [open_creat, hout]
  obtain ⟨w4, hrun4, g1, g2, g3, g4, g5⟩ := write_file_ok a (w.next_fd + 2) (outfile argv)
    (argv.getD 1 "") h1 n w3 [] f1 f2 (by rw [f3 _ h1]; exact ha) (by omega)
    (by intro i; rw [f5]; exact hans i) (by omega)
  obtain ⟨w5, hrun5, k1, k2, k3, k4, k5⟩ := write_file_ok b (w.next_fd + 2) (outfile argv)
    (argv.getD 2 "") h2 n w4 ([] ++ a) g3 g1 (by rw [g2 _ h2, f3 _ h2]; exact hb) (by omega)
    (by intro i; rw [g4, f5]; exact hans i) (by omega)
  have n1 : ¬ ((w.next_fd : Int) = -1) := by omega
  have n2 : ¬ (((w.next_fd + 1 : Nat) : Int) = -1) := by omega
  have n3 : ¬ (((w.next_fd + 2 : Nat) : Int) = -1) := by omega
  refine ⟨close (close (close w5 (w.next_fd : Int)) ((w.next_fd + 1 : Nat) : Int))
    ((w.next_fd + 2 : Nat) : Int), ?_, ?_, ?_⟩
  · simp only [main, hargc2, if_false, hc, eC]
    rw [eB, eA]
    simp only [n1, n2, n3, if_false, hrun4, hrun5]
  · simp only [close_files]
    simpa using k1
  · intro p hp
    simp only [close_files]
    rw [k2 p hp, g2 p hp, f3 p hp]

theorem C18_witness :
    ∃ N, ∀ n, N ≤ n → ∃ w1, main n (small_world (fun _ => true) 2) ["fconc", "a", "b"] =
        some (w1, 0) ∧
      w1.files (outfile ["fconc", "a", "b"]) = some ([1, 2, 3] ++ [4, 5]) ∧
      ∀ p, p ≠ outfile ["fconc", "a", "b"] →
        w1.files p = (small_world (fun _ => true) 2).files p :=
  C18_fconc_concatenates (small_world (fun _ => true) 2) ["fconc", "a", "b"] [1, 2, 3] [4, 5]
    (Or.inl rfl) (by rfl) (by rfl) (by decide) (by decide)
    (fun _ => show (0 : Int) < 2 by decide) rfl

end ex1

namespace ex3_condition

theorem wrap32_small (x : Int) (h0 : 0 ≤ x) (h1 : x < 2 ^ 31) : wrap32 x = x := by
  unfold wrap32; omega

theorem Inv.init (n : Nat) : Inv n init where
  ordered := by intro j e h; simp [ex3_condition.init] at h
  bounded := by simp [ex3_condition.init, y_chars]
  owner := by intro t _; simp [ex3_condition.init, Pc.holds]
  owner_lt := by intro t h; simp [ex3_condition.init] at h
  free := by intro _; simp [ex3_condition.init]
  thread := by intro t _; simp [ex3_condition.init, Local]

theorem Local.count_irrel {n m t : Nat} {c : Int} {i : Int} {pc : Pc} (c1 : Int)
    (hpc : pc.holds = false) (h : Local n m t c i pc) : Local n m t c1 i pc := by
  cases pc <;> simp_all [Local, Pc.holds]

theorem Next.other_line {n m t : Nat} {i : Int} (hne : m % n ≠ t) (h : Next n m t i) :
    Next n (m + 1) t i := by
  obtain ⟨x, h1, h2, h3, h4⟩ := h
  have : x ≠ m := by intro e; rw [e] at h3; exact hne h3
  exact ⟨x, h1, by omega, h3, by omega⟩

theorem Last.other_written {n m t : Nat} {i : Int} (hne : m % n ≠ t) (h : Last n m t i) :
    Last n (m + 1) t i := by
  obtain ⟨x, h1, h2, h3, h4⟩ := h
  have : m ≠ x + n := by
    intro e; rw [e, Nat.add_mod_right] at hne; exact hne h2
  exact ⟨x, h1, h2, by omega, by omega⟩

/-- A line written by another thread leaves what holds for a thread that
does not hold the mutex. -/
theorem Local.output_other {n m t : Nat} {c : Int} (c1 : Int) {i : Int} {pc : Pc} (ht : t < n)
    (hne : m % n ≠ t) (hpc : pc.holds = false) (h : Local n m t c i pc) :
    Local n (m + 1) t c1 i pc := by
  cases pc <;> simp only [Local, Pc.holds] at h hpc ⊢
  · have : m ≠ t := by
      intro e; rw [e, Nat.mod_eq_of_lt ht] at hne; exact hne rfl
    omega
  · exact h.other_line hne
  · exact ⟨h.1.other_line hne, h.2⟩
  · exact absurd hpc (by decide)
  · exact ⟨h.1.other_line hne, h.2⟩
  · exact ⟨h.1.other_line hne, h.2⟩
  · exact absurd hpc (by decide)
  · exact absurd hpc (by decide)
  · exact absurd hpc (by decide)
  · exact absurd hpc (by decide)
  · exact h.other_written hne
  · exact ⟨h.1.other_line hne, h.2⟩

theorem Next.eq_of_turn {n m t : Nat} {i : Int} (h : Next n m t i) (hturn : m % n = t)
    (hm : (m : Int) ≤ y_chars) : i = (m : Int) := by
  obtain ⟨x, h1, h2, h3, h4⟩ := h
  have hx : x = m := by
    have e1 : (x - m) % n = 0 := Nat.sub_mod_eq_zero_of_mod_eq (by rw [h3, hturn])
    have e2 : x - m < n := by omega
    have e3 : x - m = 0 := by
      rw [Nat.mod_eq_of_lt e2] at e1; exact e1
    omega
  subst hx
  rw [h1]
  simp only [y_chars] at hm
  exact wrap32_small _ (by omega) (by omega)

/-- Every statement of every thread keeps the invariant. -/
theorem Inv.step_kept {n : Nat} (hn : 1 ≤ n) (hint : n < 2 ^ 31) {s : State} (h : Inv n s)
    (t : Nat) : Inv n (compute_and_output_mandel_line n s t) := by
  unfold compute_and_output_mandel_line
  by_cases hge : n ≤ t
  · simp only [hge, if_true]; exact h
  simp only [hge, if_false]
  have ht : t < n := by omega
  have hloc := h.thread t ht
  have hown := h.owner t ht
  cases hpc : s.pc t <;> rw [hpc] at hloc hown <;> simp only [Local, Pc.holds] at hloc hown
  · -- start
    refine ⟨h.ordered, h.bounded, ?_, h.owner_lt, h.free, ?_⟩
    · intro u hu
      by_cases hut : u = t
      · subst hut; simpa [Pc.holds] using hown
      · simpa [hut] using h.owner u hu
    · intro u hu
      by_cases hut : u = t
      · subst hut
        simp only [if_true, Local]
        exact ⟨u, (wrap32_small _ (by omega) (by omega)).symm, hloc, Nat.mod_eq_of_lt hu,
          by omega⟩
      · simpa [hut] using h.thread u hu
  · -- loop
    by_cases hlt : s.i t < y_chars
    · simp only [hlt, if_true]
      refine ⟨h.ordered, h.bounded, ?_, h.owner_lt, h.free, ?_⟩
      · intro u hu
        by_cases hut : u = t
        · subst hut; simpa [Pc.holds] using hown
        · simpa [hut] using h.owner u hu
      · intro u hu
        by_cases hut : u = t
        · subst hut; simp only [if_true, Local]; exact ⟨hloc, hlt⟩
        · simpa [hut] using h.thread u hu
    · simp only [hlt, if_false]
      refine ⟨h.ordered, h.bounded, ?_, h.owner_lt, h.free, ?_⟩
      · intro u hu
        by_cases hut : u = t
        · subst hut; simpa [Pc.holds] using hown
        · simpa [hut] using h.owner u hu
      · intro u hu
        by_cases hut : u = t
        · subst hut; simp only [if_true, Local]; exact ⟨hloc, by omega⟩
        · simpa [hut] using h.thread u hu
  · -- lock
    cases hm : s.mutex with
    | some v => simp only; exact h
    | none =>
      simp only
      refine ⟨h.ordered, h.bounded, ?_, ?_, ?_, ?_⟩
      · intro u hu
        by_cases hut : u = t
        · subst hut; simp [Pc.holds]
        · have := h.owner u hu
          rw [hm] at this
          simp only [hut, if_false, Option.some.injEq]
          constructor
          · intro e; exact absurd (this.1 e) (by simp)
          · intro e; exact absurd e.symm hut
      · intro u hu; simp only [Option.some.injEq] at hu; omega
      · intro e; simp at e
      · intro u hu
        by_cases hut : u = t
        · subst hut; simp only [if_true, Local]; exact ⟨hloc.1, hloc.2, h.free hm⟩
        · simpa [hut] using h.thread u hu
  · -- test
    have hmt : s.mutex = some t := hown.1 trivial
    by_cases hc : s.count = (t : Int)
    · rw [if_neg (not_not.2 hc)]
      refine ⟨h.ordered, h.bounded, ?_, h.owner_lt, h.free, ?_⟩
      · intro u hu
        by_cases hut : u = t
        · subst hut; simpa [Pc.holds] using hmt
        · simpa [hut] using h.owner u hu
      · intro u hu
        by_cases hut : u = t
        · subst hut
          simp only [if_true, Local]
          refine ⟨hloc.1, hloc.2.1, hloc.2.2, ?_⟩
          have := hloc.2.2
          rw [hc] at this
          exact_mod_cast this.symm
        · simpa [hut] using h.thread u hu
    · rw [if_pos hc]
      refine ⟨h.ordered, h.bounded, ?_, ?_, ?_, ?_⟩
      · intro u hu
        by_cases hut : u = t
        · subst hut; simp [Pc.holds]
        · have := h.owner u hu
          rw [hmt] at this
          simp only [hut, if_false]
          constructor
          · intro e
            have := this.1 e
            simp only [Option.some.injEq] at this
            exact absurd this.symm hut
          · intro e; simp at e
      · intro u hu; simp at hu
      · intro _; exact hloc.2.2
      · intro u hu
        by_cases hut : u = t
        · subst hut; simp only [if_true, Local]; exact ⟨hloc.1, hloc.2.1⟩
        · simpa [hut] using h.thread u hu
  · -- wait
    refine ⟨h.ordered, h.bounded, ?_, h.owner_lt, h.free, ?_⟩
    · intro u hu
      by_cases hut : u = t
      · subst hut; simpa [Pc.holds] using hown
      · simpa [hut] using h.owner u hu
    · intro u hu
      by_cases hut : u = t
      · subst hut; simp only [if_true, Local]; exact hloc
      · simpa [hut] using h.thread u hu
  · -- relock
    cases hm : s.mutex with
    | some v => simp only; exact h
    | none =>
      simp only
      refine ⟨h.ordered, h.bounded, ?_, ?_, ?_, ?_⟩
      · intro u hu
        by_cases hut : u = t
        · subst hut; simp [Pc.holds]
        · have := h.owner u hu
          rw [hm] at this
          simp only [hut, if_false, Option.some.injEq]
          constructor
          · intro e; exact absurd (this.1 e) (by simp)
          · intro e; exact absurd e.symm hut
      · intro u hu; simp only [Option.some.injEq] at hu; omega
      · intro e; simp at e
      · intro u hu
        by_cases hut : u = t
        · subst hut; simp only [if_true, Local]; exact ⟨hloc.1, hloc.2, h.free hm⟩
        · simpa [hut] using h.thread u hu
  · -- output
    have hmt : s.mutex = some t := hown.1 trivial
    obtain ⟨hnext, hlt, hcount, hturn⟩ := hloc
    have hi : s.i t = (s.out.length : Int) := hnext.eq_of_turn hturn h.bounded
    have hb : ((s.out.length + 1 : Nat) : Int) ≤ y_chars := by
      rw [hi] at hlt; push_cast; omega
    refine ⟨?_, ?_, ?_, h.owner_lt, ?_, ?_⟩
    · intro j e hj
      by_cases hjl : j < s.out.length
      · rw [List.getElem?_append_left hjl] at hj
        exact h.ordered j e hj
      · have hjm : j = s.out.length := by
          by_contra hne
          rw [List.getElem?_eq_none (by simp; omega)] at hj
          simp at hj
        subst hjm
        simp only [List.getElem?_concat_length, Option.some.injEq] at hj
        rw [← hj, hi, hcount, hturn]
    · simpa using hb
    · intro u hu
      by_cases hut : u = t
      · subst hut; simpa [Pc.holds] using hmt
      · simpa [hut] using h.owner u hu
    · intro e; rw [hmt] at e; simp at e
    · intro u hu
      by_cases hut : u = t
      · subst hut
        simp only [if_true, Local, List.length_append, List.length_singleton]
        refine ⟨⟨s.out.length, hi, hturn, by omega, by omega⟩, ?_, ?_⟩
        · rw [hi]; push_cast; rfl
        · rw [hcount, hturn]
      · have hnh : (s.pc u).holds = false := by
          rw [Bool.eq_false_iff]
          intro e
          have := (h.owner u hu).1 e
          rw [hmt] at this
          simp only [Option.some.injEq] at this
          exact hut this.symm
        have key := (h.thread u hu).output_other s.count hu
          (by rw [hturn]; exact fun e => hut e.symm) hnh
        simpa [hut] using key
  · -- advance
    have hmt : s.mutex = some t := hown.1 trivial
    obtain ⟨hlast, hi, hcount⟩ := hloc
    refine ⟨h.ordered, h.bounded, ?_, h.owner_lt, ?_, ?_⟩
    · intro u hu
      by_cases hut : u = t
      · subst hut; simpa [Pc.holds] using hmt
      · simpa [hut] using h.owner u hu
    · intro e; rw [hmt] at e; simp at e
    · intro u hu
      by_cases hut : u = t
      · subst hut
        simp only [if_true, Local]
        refine ⟨hlast, ?_⟩
        obtain ⟨x, h1, h2, h3, h4⟩ := hlast
        have hx : s.out.length = x + 1 := by omega
        rw [hcount, hx, ← h2]
        have : ((x % n : Nat) : Int) + 1 = ((x % n + 1 : Nat) : Int) := by push_cast; rfl
        rw [this, ← Int.natCast_mod, Nat.mod_add_mod]
      · have hnh : (s.pc u).holds = false := by
          rw [Bool.eq_false_iff]
          intro e
          have := (h.owner u hu).1 e
          rw [hmt] at this
          simp only [Option.some.injEq] at this
          exact hut this.symm
        have key := (h.thread u hu).count_irrel ((s.count + 1) % (n : Int)) hnh
        simpa [hut] using key
  · -- broadcast
    have hmt : s.mutex = some t := hown.1 trivial
    refine ⟨h.ordered, h.bounded, ?_, h.owner_lt, h.free, ?_⟩
    · intro u hu
      by_cases hut : u = t
      · subst hut; simpa [Pc.holds] using hmt
      · simp only [hut, if_false]
        by_cases hw : s.pc u = .wait
        · have := h.owner u hu
          rw [hw] at this
          simpa [hw, Pc.holds] using this
        · simpa [hw] using h.owner u hu
    · intro u hu
      by_cases hut : u = t
      · subst hut; simp only [if_true, Local]; exact hloc
      · simp only [hut, if_false]
        by_cases hw : s.pc u = .wait
        · have := h.thread u hu
          rw [hw] at this
          simpa [hw, Local] using this
        · simpa [hw] using h.thread u hu
  · -- unlock
    have hmt : s.mutex = some t := hown.1 trivial
    refine ⟨h.ordered, h.bounded, ?_, ?_, ?_, ?_⟩
    · intro u hu
      by_cases hut : u = t
      · subst hut; simp [Pc.holds]
      · have := h.owner u hu
        rw [hmt] at this
        simp only [hut, if_false]
        constructor
        · intro e
          have := this.1 e
          simp only [Option.some.injEq] at this
          exact absurd this.symm hut
        · intro e; simp at e
    · intro u hu; simp at hu
    · intro _; exact hloc.2
    · intro u hu
      by_cases hut : u = t
      · subst hut; simp only [if_true, Local]; exact hloc.1
      · simpa [hut] using h.thread u hu
  · -- incr
    refine ⟨h.ordered, h.bounded, ?_, h.owner_lt, h.free, ?_⟩
    · intro u hu
      by_cases hut : u = t
      · subst hut; simpa [Pc.holds] using hown
      · simpa [hut] using h.owner u hu
    · intro u hu
      by_cases hut : u = t
      · subst hut
        simp only [if_true, Local]
        obtain ⟨x, h1, h2, h3, h4⟩ := hloc
        refine ⟨x + n, ?_, h4, by rw [Nat.add_mod_right]; exact h2, by omega⟩
        rw [h1]; push_cast; rfl
      · simpa [hut] using h.thread u hu
  · -- done
    exact h

theorem Inv.run {n : Nat} (hn : 1 ≤ n) (hint : n < 2 ^ 31) (sched : List Nat) :
    Inv n (run n sched) := by
  unfold ex3_condition.run
  have key : ∀ (l : List Nat) (s : State), Inv n s →
      Inv n (l.foldl (compute_and_output_mandel_line n) s) := by
    intro l
    induction l with
    | nil => intro s hs; exact hs
    | cons t l ih => intro s hs; exact ih _ (hs.step_kept hn hint t)
  exact key sched _ (Inv.init n)

/-- Some thread can take a step as long as a thread has not returned. -/
theorem Inv.progress {n : Nat} {s : State} (h : Inv n s)
    (hlive : ∃ t, t < n ∧ s.pc t ≠ .done) :
    ∃ t, t < n ∧ (compute_and_output_mandel_line n s t).pc t ≠ s.pc t := by
  cases hm : s.mutex with
  | some t =>
    have ht := h.owner_lt t hm
    have hh := (h.owner t ht).2 hm
    refine ⟨t, ht, ?_⟩
    have hge : ¬ n ≤ t := by omega
    unfold compute_and_output_mandel_line
    simp only [hge, if_false]
    cases hpc : s.pc t <;> rw [hpc] at hh <;> simp only [Pc.holds] at hh <;>
      first
        | exact absurd hh (by decide)
        | (dsimp only; first | (simp; done) | (split <;> simp))
  | none =>
    obtain ⟨t, ht, hd⟩ := hlive
    have hh : (s.pc t).holds = false := by
      rw [Bool.eq_false_iff]
      intro e
      have := (h.owner t ht).1 e
      rw [hm] at this; simp at this
    refine ⟨t, ht, ?_⟩
    have hge : ¬ n ≤ t := by omega
    unfold compute_and_output_mandel_line
    simp only [hge, if_false]
    cases hpc : s.pc t <;> rw [hpc] at hh hd <;> simp only [Pc.holds] at hh <;>
      first
        | exact absurd hh (by decide)
        | exact absurd rfl hd
        | (dsimp only; first | (simp [hm]; done) | (split <;> simp [hm]))

/-- Claim C19. In the program with mutex and condition variable, for every
thread count `n ≥ 1` (an `int`) and every interleaving of the statements of
the threads: the `j`-th line written is line `j`, it is written by thread
`j % n` while `count = j % n`, so a line is written only after all lines
before it; at most `y_chars` lines are written; as long as a thread has not
returned some thread can take a step; and when all threads have returned
exactly the lines `0` to `y_chars - 1` are out. -/
theorem C19_lines_output_in_order (n : Nat) (hn : 1 ≤ n) (hint : n < 2 ^ 31)
    (sched : List Nat) :
    (∀ (j : Nat) (e : Line), (run n sched).out[j]? = some e →
      e.line = (j : Int) ∧ e.thrid = j % n ∧ e.count = ((j % n : Nat) : Int)) ∧
    ((run n sched).out.length : Int) ≤ y_chars ∧
    ((∃ t, t < n ∧ (run n sched).pc t ≠ .done) →
      ∃ t, t < n ∧ (run n (sched ++ [t])).pc t ≠ (run n sched).pc t) ∧
    ((∀ t, t < n → (run n sched).pc t = .done) →
      ((run n sched).out.length : Int) = y_chars) := by
  have h := Inv.run hn hint sched
  refine ⟨?_, h.bounded, ?_, ?_⟩
  · intro j e hj
    rw [h.ordered j e hj]
    exact ⟨rfl, rfl, rfl⟩
  · intro hlive
    obtain ⟨t, ht, hne⟩ := h.progress hlive
    refine ⟨t, ht, ?_⟩
    have e : run n (sched ++ [t]) = compute_and_output_mandel_line n (run n sched) t := by
      simp [ex3_condition.run, List.foldl_append]
    rw [e]; exact hne
  · intro hdone
    have hb := h.bounded
    have hlt : (run n sched).out.length % n < n := Nat.mod_lt _ (by omega)
    have hloc := h.thread _ hlt
    rw [hdone _ hlt] at hloc
    simp only [Local] at hloc
    have hi := hloc.1.eq_of_turn rfl hb
    have := hloc.2
    omega

theorem C19_witness :
    (∀ (j : Nat) (e : Line), (run 3 [0, 1, 2, 0, 0, 0, 0, 0, 1, 1, 1, 1]).out[j]? = some e →
      e.line = (j : Int) ∧ e.thrid = j % 3 ∧ e.count = ((j % 3 : Nat) : Int)) ∧
    ((run 3 [0, 1, 2, 0, 0, 0, 0, 0, 1, 1, 1, 1]).out.length : Int) ≤ y_chars ∧
    ((∃ t, t < 3 ∧ (run 3 [0, 1, 2, 0, 0, 0, 0, 0, 1, 1, 1, 1]).pc t ≠ .done) →
      ∃ t, t < 3 ∧ (run 3 ([0, 1, 2, 0, 0, 0, 0, 0, 1, 1, 1, 1] ++ [t])).pc t ≠
        (run 3 [0, 1, 2, 0, 0, 0, 0, 0, 1, 1, 1, 1]).pc t) ∧
    ((∀ t, t < 3 → (run 3 [0, 1, 2, 0, 0, 0, 0, 0, 1, 1, 1, 1]).pc t = .done) →
      ((run 3 [0, 1, 2, 0, 0, 0, 0, 0, 1, 1, 1, 1]).out.length : Int) = y_chars) :=
  C19_lines_output_in_order 3 (by decide) (by decide) [0, 1, 2, 0, 0, 0, 0, 0, 1, 1, 1, 1]

end ex3_condition

namespace ex3_semaphores

theorem Inv.at_init (g : Nat → Int) (n : Nat) : Inv g n init :=
  ⟨by simp [ex3_semaphores.init], by simp [ex3_semaphores.init],
    by simp [ex3_semaphores.init], by simp [ex3_semaphores.init]⟩

theorem Inv.after_step {g : Nat → Int} {n : Nat} {s : State} (h : Inv g n s) (t : Nat) :
    Inv g n (compute_and_output_mandel_line g n s t) := by
  unfold compute_and_output_mandel_line
  by_cases hge : n ≤ t
  · simp only [hge, if_true]; exact h
  simp only [hge, if_false]
  have keep : ∀ (p : Pc), (s.pc t).written = false →
      ∀ e ∈ s.out, ((fun u => if u = t then p else s.pc u) e.thrid).written = true := by
    intro p hp e he
    have := h.past e he
    by_cases het : e.thrid = t
    · rw [het, hp] at this; simp at this
    · simpa [het] using this
  cases hpc : s.pc t
  · exact ⟨h.lt, keep _ (by rw [hpc]; rfl), h.line, h.nodup⟩
  · dsimp only
    split
    · exact ⟨h.lt, keep _ (by rw [hpc]; rfl), h.line, h.nodup⟩
    · exact h
  · have hnew : t ∉ s.out.map fun e => e.thrid := by
      intro hin
      obtain ⟨e, he, het⟩ := List.mem_map.1 hin
      have := h.past e he
      rw [het, hpc] at this
      simp [Pc.written] at this
    refine ⟨?_, ?_, ?_, ?_⟩
    · intro e he
      rcases List.mem_append.1 he with he | he
      · exact h.lt e he
      · simp only [List.mem_singleton] at he; subst he; dsimp only; omega
    · intro e he
      rcases List.mem_append.1 he with he | he
      · by_cases het : e.thrid = t
        · simp [het, Pc.written]
        · simpa [het] using h.past e he
      · simp only [List.mem_singleton] at he; subst he; simp [Pc.written]
    · intro e he
      rcases List.mem_append.1 he with he | he
      · exact h.line e he
      · simp only [List.mem_singleton] at he; subst he; rfl
    · simp only [List.map_append, List.map_cons, List.map_nil]
      exact List.Nodup.append h.nodup (by simp) (by simpa using hnew)
  · refine ⟨h.lt, ?_, h.line, h.nodup⟩
    intro e he
    by_cases het : e.thrid = t
    · simp [het, Pc.written]
    · simpa [het] using h.past e he
  · exact h

theorem Inv.after_run (g : Nat → Int) (n : Nat) (sched : List Nat) : Inv g n (run g n sched) := by
  unfold ex3_semaphores.run
  have key : ∀ (l : List Nat) (s : State), Inv g n s →
      Inv g n (l.foldl (compute_and_output_mandel_line g n) s) := by
    intro l
    induction l with
    | nil => intro s hs; exact hs
    | cons t l ih => intro s hs; exact ih _ (hs.after_step t)
  exact key sched _ (Inv.at_init g n)

/-- Claim C20, the code at the failing input. `compute_and_output_mandel_line`
of `ex3-mandel-semaphores.c` has no loop: in every execution with `n`
threads a thread writes at most one line, whose number is the indeterminate
value of the unassigned variable `i`, so at most `n` lines are written.  With
one thread at most one line is written, whereas thread 0 has the 50 lines
`0, 1, ..., 49` to write. -/
theorem C20_one_line_per_thread (g : Nat → Int) (n : Nat) (sched : List Nat) :
    (∀ k, ((run g n sched).out.filter fun e => e.thrid = k).length ≤ 1) ∧
    (∀ e ∈ (run g n sched).out, e.line = g e.thrid) ∧
    (run g n sched).out.length ≤ n ∧
    (run g 1 sched).out.length ≤ 1 ∧ (lines_of 1 0).length = 50 := by
  have h := Inv.after_run g n sched
  have hlen : ∀ (m : Nat) (s : State), Inv g m s → s.out.length ≤ m := by
    intro m s hs
    have hsub : (s.out.map fun e => e.thrid) ⊆ List.range m := by
      intro x hx
      obtain ⟨e, he, rfl⟩ := List.mem_map.1 hx
      exact List.mem_range.2 (hs.lt e he)
    have := (List.subperm_of_subset hs.nodup hsub).length_le
    simpa using this
  refine ⟨?_, h.line, hlen n _ h, hlen 1 _ (Inv.after_run g 1 sched), by decide⟩
  intro k
  have hnd := h.nodup
  generalize (run g n sched).out = l at hnd
  induction l with
  | nil => simp
  | cons e l ih =>
    simp only [List.map_cons, List.nodup_cons, List.mem_map, not_exists, not_and] at hnd
    have ih := ih hnd.2
    by_cases hek : e.thrid = k
    · have hnone : (l.filter fun e => e.thrid = k) = [] := by
        rw [List.filter_eq_nil_iff]
        intro x hx
        have := hnd.1 x hx
        simp only [decide_eq_true_eq]
        intro hxk; exact this (by rw [hxk, hek])
      simp [List.filter_cons, hek, hnone]
    · simp [List.filter_cons, hek]; exact ih

end ex3_semaphores

namespace ex2_pipes

theorem child_op_pos (D : DoubleOps α) (fd : Fd) (name : String) (h : name = "+" ∨ name = "*")
    (a b : tree_node) :
    child D fd (.mk name [a, b]) =
      .pipe fun r pfd0 pfd1 =>
        if r < 0 then .stderr "pipe" (.exit 1) else first_fork D fd name a b pfd0 pfd1 :=
  child_op D fd name h a b

theorem Sub.root_mem {D : DoubleOps α} {S : Sys α} {p par : Nat} {t : tree_node}
    {pids : List Nat} {rdy : Bool} (h : Sub D S p par t pids rdy) : p ∈ pids := by
  cases h <;> simp

theorem Sub.root_facts {D : DoubleOps α} {S : Sys α} {p par : Nat} {t : tree_node}
    {pids : List Nat} {rdy : Bool} (h : Sub D S p par t pids rdy) :
    par < p ∧ p < S.K.next_pid ∧ (S.K.proc p).parent = par ∧
      (S.K.proc p).state.is_stopped = rdy ∧ (rdy = false → (S.K.proc p).state = .running) := by
  cases h <;> simp_all [PState.is_stopped]

theorem Sub.bounds {D : DoubleOps α} {S : Sys α} {p par : Nat} {t : tree_node}
    {pids : List Nat} {rdy : Bool} (h : Sub D S p par t pids rdy) :
    ∀ x ∈ pids, p ≤ x ∧ x < S.K.next_pid := by
  induction h with
  | leaf_new p par fd name h hp hn hs hpar hc hcl => intro x hx; simp at hx; omega
  | leaf_ready p par fd name hp hn hs hpar hcl => intro x hx; simp at hx; omega
  | op_new p par fd name a b h ha hb hp hn hs hpar hr hc hcl => intro x hx; simp at hx; omega
  | op_piped p par fd name a b pfd0 pfd1 ha hb hp hn hs hpar hr hc hcl =>
    intro x hx; simp at hx; omega
  | op_one p par fd name a b pfd0 pfd1 ca pa ra hb hsa hp hn hs hpar hr hc hcl iha =>
    intro x hx
    have := hsa.root_facts
    rcases List.mem_cons.1 hx with hx | hx
    · omega
    · have := iha x hx; omega
  | op_two p par fd name a b pfd0 pfd1 ca cb pa pb ra rb hsa hsb hd hp hn hs hpar hr hc hcl
      iha ihb =>
    intro x hx
    have := hsa.root_facts
    have := hsb.root_facts
    rcases List.mem_cons.1 hx with hx | hx
    · omega
    · rcases List.mem_append.1 hx with hx | hx
      · have := iha x hx; omega
      · have := ihb x hx; omega
  | op_waited p par fd name a b pfd0 pfd1 ca cb pa pb hsa hsb hd hp hn hs hpar hc hcl iha ihb =>
    intro x hx
    have := hsa.root_facts
    have := hsb.root_facts
    rcases List.mem_cons.1 hx with hx | hx
    · omega
    · rcases List.mem_append.1 hx with hx | hx
      · have := iha x hx; omega
      · have := ihb x hx; omega
  | op_ready p par fd name a b pfd0 pfd1 ca cb pa pb hsa hsb hd hp hn hs hpar hcl iha ihb =>
    intro x hx
    have := hsa.root_facts
    have := hsb.root_facts
    rcases List.mem_cons.1 hx with hx | hx
    · omega
    · rcases List.mem_append.1 hx with hx | hx
      · have := iha x hx; omega
      · have := ihb x hx; omega

theorem Sub.lt_of_mem {D : DoubleOps α} {S : Sys α} {p par : Nat} {t : tree_node}
    {pids : List Nat} {rdy : Bool} (h : Sub D S p par t pids rdy) {x : Nat} (hx : x ∈ pids) :
    par < x := by
  have := h.bounds x hx
  have := h.root_facts
  omega

theorem Sub.nodup {D : DoubleOps α} {S : Sys α} {p par : Nat} {t : tree_node}
    {pids : List Nat} {rdy : Bool} (h : Sub D S p par t pids rdy) : pids.Nodup := by
  induction h with
  | leaf_new p par fd name h hp hn hs hpar hc hcl => simp
  | leaf_ready p par fd name hp hn hs hpar hcl => simp
  | op_new p par fd name a b h ha hb hp hn hs hpar hr hc hcl => simp
  | op_piped p par fd name a b pfd0 pfd1 ha hb hp hn hs hpar hr hc hcl => simp
  | op_one p par fd name a b pfd0 pfd1 ca pa ra hb hsa hp hn hs hpar hr hc hcl iha =>
    refine List.nodup_cons.2 ⟨fun hx => ?_, iha⟩
    have := hsa.lt_of_mem hx; omega
  | op_two p par fd name a b pfd0 pfd1 ca cb pa pb ra rb hsa hsb hd hp hn hs hpar hr hc hcl
      iha ihb =>
    refine List.nodup_cons.2 ⟨fun hx => ?_, List.Nodup.append iha ihb ?_⟩
    · rcases List.mem_append.1 hx with hx | hx
      · have := hsa.lt_of_mem hx; omega
      · have := hsb.lt_of_mem hx; omega
    · intro x h1 h2; exact hd x h1 h2
  | op_waited p par fd name a b pfd0 pfd1 ca cb pa pb hsa hsb hd hp hn hs hpar hc hcl iha ihb =>
    refine List.nodup_cons.2 ⟨fun hx => ?_, List.Nodup.append iha ihb ?_⟩
    · rcases List.mem_append.1 hx with hx | hx
      · have := hsa.lt_of_mem hx; omega
      · have := hsb.lt_of_mem hx; omega
    · intro x h1 h2; exact hd x h1 h2
  | op_ready p par fd name a b pfd0 pfd1 ca cb pa pb hsa hsb hd hp hn hs hpar hcl iha ihb =>
    refine List.nodup_cons.2 ⟨fun hx => ?_, List.Nodup.append iha ihb ?_⟩
    · rcases List.mem_append.1 hx with hx | hx
      · have := hsa.lt_of_mem hx; omega
      · have := hsb.lt_of_mem hx; omega
    · intro x h1 h2; exact hd x h1 h2

/-- When a worker has reported Ready, there is one worker for every node of
its subtree, all of them are stopped and each has called `raise(SIGSTOP)`
once. -/
theorem Sub.all_ready {D : DoubleOps α} {S : Sys α} {p par : Nat} {t : tree_node}
    {pids : List Nat} {rdy : Bool} (h : Sub D S p par t pids rdy) :
    rdy = true → pids.length = nodes t ∧
      ∀ x ∈ pids, (S.K.proc x).state.is_stopped = true ∧ raised x S.K.trace = 1 := by
  induction h with
  | leaf_new p par fd name h hp hn hs hpar hc hcl => intro h; cases h
  | leaf_ready p par fd name hp hn hs hpar hcl =>
    intro _; simp [nodes, hs, PState.is_stopped, raised, hcl, Act.is_ready]
  | op_new p par fd name a b h ha hb hp hn hs hpar hr hc hcl => intro h; cases h
  | op_piped p par fd name a b pfd0 pfd1 ha hb hp hn hs hpar hr hc hcl => intro h; cases h
  | op_one p par fd name a b pfd0 pfd1 ca pa ra hb hsa hp hn hs hpar hr hc hcl iha =>
    intro h; cases h
  | op_two p par fd name a b pfd0 pfd1 ca cb pa pb ra rb hsa hsb hd hp hn hs hpar hr hc hcl
      iha ihb =>
    intro h; cases h
  | op_waited p par fd name a b pfd0 pfd1 ca cb pa pb hsa hsb hd hp hn hs hpar hc hcl iha ihb =>
    intro h; cases h
  | op_ready p par fd name a b pfd0 pfd1 ca cb pa pb hsa hsb hd hp hn hs hpar hcl iha ihb =>
    intro _
    obtain ⟨la, sa⟩ := iha rfl
    obtain ⟨lb, sb⟩ := ihb rfl
    refine ⟨by simp [nodes, la, lb]; omega, ?_⟩
    intro x hx
    rcases List.mem_cons.1 hx with hx | hx
    · subst hx; simp [hs, PState.is_stopped, raised, hcl, Act.is_ready]
    · rcases List.mem_append.1 hx with hx | hx
      · exact sa x hx
      · exact sb x hx

/-- The workers of a subtree are not touched by a change of the other
processes. -/
theorem Sub.framed {D : DoubleOps α} {S S1 : Sys α} {p par : Nat} {t : tree_node}
    {pids : List Nat} {rdy : Bool} (h : Sub D S p par t pids rdy)
    (hn1 : S.K.next_pid ≤ S1.K.next_pid) :
    (∀ x ∈ pids, S1.K.proc x = S.K.proc x ∧ S1.code x = S.code x ∧
      calls_of x S1.K.trace = calls_of x S.K.trace) →
    Sub D S1 p par t pids rdy := by
  induction h with
  | leaf_new p par fd name h hp hn hs hpar hc hcl =>
    intro hf
    obtain ⟨e1, e2, e3⟩ := hf p (by simp)
    exact .leaf_new p par fd name h hp (by omega) (by rw [e1]; exact hs) (by rw [e1]; exact hpar)
      (by rw [e2]; exact hc) (by rw [e3]; exact hcl)
  | leaf_ready p par fd name hp hn hs hpar hcl =>
    intro hf
    obtain ⟨e1, e2, e3⟩ := hf p (by simp)
    exact .leaf_ready p par fd name hp (by omega) (by rw [e1]; exact hs) (by rw [e1]; exact hpar)
      (by rw [e3]; exact hcl)
  | op_new p par fd name a b h ha hb hp hn hs hpar hr hc hcl =>
    intro hf
    obtain ⟨e1, e2, e3⟩ := hf p (by simp)
    exact .op_new p par fd name a b h ha hb hp (by omega) (by rw [e1]; exact hs)
      (by rw [e1]; exact hpar) (by rw [e1]; exact hr) (by rw [e2]; exact hc)
      (by rw [e3]; exact hcl)
  | op_piped p par fd name a b pfd0 pfd1 ha hb hp hn hs hpar hr hc hcl =>
    intro hf
    obtain ⟨e1, e2, e3⟩ := hf p (by simp)
    exact .op_piped p par fd name a b pfd0 pfd1 ha hb hp (by omega) (by rw [e1]; exact hs)
      (by rw [e1]; exact hpar) (by rw [e1]; exact hr) (by rw [e2]; exact hc)
      (by rw [e3]; exact hcl)
  | op_one p par fd name a b pfd0 pfd1 ca pa ra hb hsa hp hn hs hpar hr hc hcl iha =>
    intro hf
    obtain ⟨e1, e2, e3⟩ := hf p (by simp)
    exact .op_one p par fd name a b pfd0 pfd1 ca pa ra hb
      (iha fun x hx => hf x (List.mem_cons_of_mem _ hx)) hp (by omega) (by rw [e1]; exact hs)
      (by rw [e1]; exact hpar) (by rw [e1]; exact hr) (by rw [e2]; exact hc)
      (by rw [e3]; exact hcl)
  | op_two p par fd name a b pfd0 pfd1 ca cb pa pb ra rb hsa hsb hd hp hn hs hpar hr hc hcl
      iha ihb =>
    intro hf
    obtain ⟨e1, e2, e3⟩ := hf p (by simp)
    exact .op_two p par fd name a b pfd0 pfd1 ca cb pa pb ra rb
      (iha fun x hx => hf x (List.mem_cons_of_mem _ (List.mem_append_left _ hx)))
      (ihb fun x hx => hf x (List.mem_cons_of_mem _ (List.mem_append_right _ hx))) hd
      hp (by omega) (by rw [e1]; exact hs)
      (by rw [e1]; exact hpar) (by rw [e1]; exact hr) (by rw [e2]; exact hc)
      (by rw [e3]; exact hcl)
  | op_waited p par fd name a b pfd0 pfd1 ca cb pa pb hsa hsb hd hp hn hs hpar hc hcl iha ihb =>
    intro hf
    obtain ⟨e1, e2, e3⟩ := hf p (by simp)
    exact .op_waited p par fd name a b pfd0 pfd1 ca cb pa pb
      (iha fun x hx => hf x (List.mem_cons_of_mem _ (List.mem_append_left _ hx)))
      (ihb fun x hx => hf x (List.mem_cons_of_mem _ (List.mem_append_right _ hx))) hd
      hp (by omega) (by rw [e1]; exact hs)
      (by rw [e1]; exact hpar) (by rw [e2]; exact hc) (by rw [e3]; exact hcl)
  | op_ready p par fd name a b pfd0 pfd1 ca cb pa pb hsa hsb hd hp hn hs hpar hcl iha ihb =>
    intro hf
    obtain ⟨e1, e2, e3⟩ := hf p (by simp)
    exact .op_ready p par fd name a b pfd0 pfd1 ca cb pa pb
      (iha fun x hx => hf x (List.mem_cons_of_mem _ (List.mem_append_left _ hx)))
      (ihb fun x hx => hf x (List.mem_cons_of_mem _ (List.mem_append_right _ hx))) hd
      hp (by omega) (by rw [e1]; exact hs) (by rw [e1]; exact hpar) (by rw [e3]; exact hcl)

end ex2_pipes

theorem calls_of_append (x : Nat) (tr es : List (Nat × Act α)) :
    calls_of x (tr ++ es) = calls_of x tr ++ calls_of x es := by
  simp [calls_of]

theorem calls_of_eq_nil (x : Nat) (es : List (Nat × Act α)) (h : ∀ e ∈ es, e.1 ≠ x) :
    calls_of x es = [] := by
  simp only [calls_of, List.map_eq_nil_iff, List.filter_eq_nil_iff]
  intro e he; simpa using h e he

theorem calls_of_append_other (x : Nat) (tr es : List (Nat × Act α)) (h : ∀ e ∈ es, e.1 ≠ x) :
    calls_of x (tr ++ es) = calls_of x tr := by
  rw [calls_of_append, calls_of_eq_nil x es h, List.append_nil]

namespace Sys

theorem step_of_not_running (S : Sys α) (q : Nat) (h : (S.K.proc q).state ≠ .running) :
    S.step q = S := by
  unfold Sys.step
  split
  · rfl
  · split
    · rename_i e; exact absurd e h
    · rfl

theorem step_raise (S : Sys α) (q : Nat) (k : Prog α) (h0 : 0 < q) (hn : q < S.K.next_pid)
    (hs : (S.K.proc q).state = .running) (hc : S.code q = .raise_SIGSTOP k) :
    S.step q = ⟨S.K.halted q k, S.code⟩ := by
  unfold Sys.step
  rw [if_neg (by omega)]
  simp only [hs, hc]

theorem step_pipe (S : Sys α) (q : Nat) (k : Int → Fd → Fd → Prog α) (h0 : 0 < q)
    (hn : q < S.K.next_pid) (hs : (S.K.proc q).state = .running) (hc : S.code q = .pipe k) :
    S.step q = S.goes q (S.K.piped q) (k 0 ⟨S.K.next_pipe, false⟩ ⟨S.K.next_pipe, true⟩) := by
  unfold Sys.step
  rw [if_neg (by omega)]
  simp only [hs, hc]

theorem step_fork (S : Sys α) (q : Nat) (k : Int → Prog α) (h0 : 0 < q)
    (hn : q < S.K.next_pid) (hs : (S.K.proc q).state = .running) (hc : S.code q = .fork k) :
    S.step q = ⟨S.K.forked q, fun i =>
      if i = S.K.next_pid then k 0 else if i = q then k S.K.next_pid else S.code i⟩ := by
  unfold Sys.step
  rw [if_neg (by omega)]
  simp only [hs, hc]

theorem step_wait_ready (S : Sys α) (q : Nat) (cnt : Nat) (k : Prog α) (h0 : 0 < q)
    (hn : q < S.K.next_pid) (hs : (S.K.proc q).state = .running)
    (hc : S.code q = .wait_for_ready_children cnt k) :
    S.step q = if cnt ≤ (S.K.proc q).ready then S.goes q (S.K.counted q cnt) k else S := by
  unfold Sys.step
  rw [if_neg (by omega)]
  simp only [hs, hc]

end Sys

namespace ex2_pipes

theorem Effect.same (S : Sys α) (par : Nat) (pids : List Nat) (rdy : Bool) :
    Effect S S par pids pids rdy rdy where
  sub := fun _ h => h
  new := fun _ h => Or.inl h
  pid := Or.inl rfl
  keep := fun h => h
  out := fun _ _ _ => ⟨rfl, rfl⟩
  up := by cases rdy <;> simp
  up_code := rfl
  trace := ⟨[], by simp, by simp⟩

/-- The calls of a process outside the subtree are not changed by a turn of
a worker of the subtree. -/
theorem Effect.calls_out {S S1 : Sys α} {par : Nat} {pids pids1 : List Nat} {rdy rdy1 : Bool}
    (h : Effect S S1 par pids pids1 rdy rdy1) (x : Nat) (hx : x ∉ pids1) :
    calls_of x S1.K.trace = calls_of x S.K.trace := by
  obtain ⟨es, e1, e2⟩ := h.trace
  rw [e1]
  exact calls_of_append_other x _ es fun e he hex => hx (hex ▸ (e2 e he).1)

theorem Effect.pid_le {S S1 : Sys α} {par : Nat} {pids pids1 : List Nat} {rdy rdy1 : Bool}
    (h : Effect S S1 par pids pids1 rdy rdy1) : S.K.next_pid ≤ S1.K.next_pid := by
  rcases h.pid with e | e <;> omega

/-- A subtree is not touched by a turn of a worker of another subtree of the
same parent. -/
theorem Sub.frame_of_effect {D : DoubleOps α} {S S1 : Sys α} {p c : Nat} {t : tree_node}
    {pb : List Nat} {rb : Bool} (h : Sub D S c p t pb rb)
    {pa pa1 : List Nat} {ra ra1 : Bool} (he : Effect S S1 p pa pa1 ra ra1)
    (hd : ∀ x ∈ pb, x ∉ pa1) : Sub D S1 c p t pb rb := by
  refine h.framed he.pid_le fun x hx => ?_
  have hxp : x ≠ p := by have := h.lt_of_mem hx; omega
  obtain ⟨e1, e2⟩ := he.out x (hd x hx) hxp
  exact ⟨e1, e2, he.calls_out x (hd x hx)⟩

/-- The turn of a worker inside one of the subtrees of an Internal worker
`p`, seen from the parent `par` of `p`. -/
theorem Effect.lift {S S1 : Sys α} {par p : Nat} {pa pa1 : List Nat} {ra ra1 : Bool}
    (h : Effect S S1 p pa pa1 ra ra1) (hpar : par ≠ p) (hpa : par ∉ pa1)
    (pids pids1 : List Nat) (rest : List Nat)
    (hm : ∀ x, x ∈ pids ↔ x ∈ pa ∨ x ∈ rest) (hm1 : ∀ x, x ∈ pids1 ↔ x ∈ pa1 ∨ x ∈ rest)
    (hp : p ∈ rest) :
    Effect S S1 par pids pids1 false false where
  sub := by
    intro x hx
    rcases (hm x).1 hx with hx | hx
    · exact (hm1 x).2 (Or.inl (h.sub x hx))
    · exact (hm1 x).2 (Or.inr hx)
  new := by
    intro x hx
    rcases (hm1 x).1 hx with hx | hx
    · rcases h.new x hx with e | e
      · exact Or.inl ((hm x).2 (Or.inl e))
      · exact Or.inr e
    · exact Or.inl ((hm x).2 (Or.inr hx))
  pid := by
    rcases h.pid with e | e
    · exact Or.inl e
    · exact Or.inr ⟨e.1, (hm1 _).2 (Or.inl e.2)⟩
  keep := fun h => h
  out := by
    intro x hx hxp
    have h1 : x ∉ pa1 := fun e => hx ((hm1 x).2 (Or.inl e))
    have h2 : x ≠ p := fun e => hx ((hm1 x).2 (Or.inr (e ▸ hp)))
    exact h.out x h1 h2
  up := by
    rw [(h.out par hpa hpar).1]; simp
  up_code := (h.out par hpa hpar).2
  trace := by
    obtain ⟨es, e1, e2⟩ := h.trace
    exact ⟨es, e1, fun e he => ⟨(hm1 _).2 (Or.inl (e2 e he).1), (e2 e he).2⟩⟩

end ex2_pipes
namespace ex2_pipes

/-- The worker of a node right after the `fork` that created it. -/
theorem Sub.born (D : DoubleOps α) (S1 : Sys α) (c p : Nat) (fd : Fd) {a : tree_node}
    (ha : WellFormed a) (hp : p < c) (hn : c < S1.K.next_pid)
    (hs : (S1.K.proc c).state = .running) (hpar : (S1.K.proc c).parent = p)
    (hr : (S1.K.proc c).ready = 0) (hc : S1.code c = child D fd a)
    (hcl : calls_of c S1.K.trace = [.fork 0]) : Sub D S1 c p a [c] false := by
  cases ha with
  | leaf name h => exact .leaf_new c p fd name h hp hn hs hpar hc hcl
  | op name h a b ha hb => exact .op_new c p fd name a b h ha hb hp hn hs hpar hr hc hcl

theorem calls_of_fresh {S : Sys α} (hfresh : ∀ e ∈ S.K.trace, e.1 < S.K.next_pid) :
    calls_of S.K.next_pid S.K.trace = ([] : List (Act α)) :=
  calls_of_eq_nil _ _ fun e he => by have := hfresh e he; omega

theorem Sub.turn_stopped {D : DoubleOps α} {S : Sys α} {p par : Nat} {t : tree_node}
    {pids : List Nat} {rdy : Bool} (h : Sub D S p par t pids rdy) (q : Nat)
    (hst : (S.K.proc q).state.is_stopped = true) : StepsTo D S q p par t pids rdy := by
  unfold StepsTo
  rw [S.step_of_not_running q (fun e => by rw [e] at hst; simp [PState.is_stopped] at hst)]
  exact ⟨pids, rdy, h, Effect.same _ _ _ _⟩

theorem Sub.turn_leaf_new {D : DoubleOps α} {S : Sys α}
    (q par : Nat) (fd : Fd) (name : String) (h : ¬ (name = "+" ∨ name = "*"))
    (hp : par < q) (hn : q < S.K.next_pid) (hs : (S.K.proc q).state = .running)
    (hpar : (S.K.proc q).parent = par) (hc : S.code q = child D fd (.mk name []))
    (hcl : calls_of q S.K.trace = [.fork 0]) :
    StepsTo D S q q par (.mk name []) [q] false := by
  unfold StepsTo
  rw [child_leaf D fd name h] at hc
  have hne : (S.K.proc q).parent ≠ q := by rw [hpar]; omega
  rw [S.step_raise q _ (by omega) hn hs hc]
  refine ⟨[q], true, .leaf_ready q par fd name hp hn ?_ ?_ ?_, ?_⟩
  · dsimp only; rw [Kernel.halted_proc_self _ _ _ hne]
  · dsimp only; rw [Kernel.halted_proc_self _ _ _ hne]; exact hpar
  · dsimp only; rw [Kernel.halted_trace, calls_of_append, hcl]; simp [calls_of]
  · refine ⟨fun _ h => h, fun _ h => Or.inl h, Or.inl rfl, fun _ => rfl, ?_, ?_, rfl,
      ⟨[(q, .raise_SIGSTOP)], rfl, by simp [Act.is_cont, Act.is_ready]⟩⟩
    · intro x hx hxp
      refine ⟨?_, rfl⟩
      dsimp only
      exact Kernel.halted_proc_other _ _ _ _ (by simpa using hx) (by rw [hpar]; exact hxp)
    · dsimp only
      have := Kernel.halted_proc_parent S.K q (send D fd name) hne
      rw [hpar] at this
      rw [this]; simp

theorem Sub.turn_op_new {D : DoubleOps α} {S : Sys α}
    (q par : Nat) (fd : Fd) (name : String) (a b : tree_node)
    (h : name = "+" ∨ name = "*") (ha : WellFormed a) (hb : WellFormed b)
    (hp : par < q) (hn : q < S.K.next_pid) (hs : (S.K.proc q).state = .running)
    (hpar : (S.K.proc q).parent = par) (hr : (S.K.proc q).ready = 0)
    (hc : S.code q = child D fd (.mk name [a, b]))
    (hcl : calls_of q S.K.trace = [.fork 0]) :
    StepsTo D S q q par (.mk name [a, b]) [q] false := by
  unfold StepsTo
  rw [child_op_pos D fd name h] at hc
  rw [S.step_pipe q _ (by omega) hn hs hc]
  refine ⟨[q], false, .op_piped q par fd name a b ⟨S.K.next_pipe, false⟩ ⟨S.K.next_pipe, true⟩
    ha hb hp hn ?_ ?_ ?_ ?_ ?_, ?_⟩
  · simp [Sys.goes, hs]
  · simp [Sys.goes, hpar]
  · simp [Sys.goes, hr]
  · simp [Sys.goes]
  · simp only [Sys.goes, Kernel.piped_trace, calls_of_append, hcl]; simp [calls_of]
  · refine ⟨fun _ h => h, fun _ h => Or.inl h, Or.inl rfl, fun h => h, ?_, ?_, ?_,
      ⟨_, Kernel.piped_trace _ _, by simp [Act.is_cont, Act.is_ready]⟩⟩
    · intro x hx hxp
      have : x ≠ q := by simpa using hx
      simp [Sys.goes, this]
    · have : par ≠ q := by omega
      simp [Sys.goes, this]
    · have : par ≠ q := by omega
      simp [Sys.goes, this]

theorem Sub.turn_op_piped {D : DoubleOps α} {S : Sys α}
    (hfresh : ∀ e ∈ S.K.trace, e.1 < S.K.next_pid)
    (q par : Nat) (fd : Fd) (name : String) (a b : tree_node) (pfd0 pfd1 : Fd)
    (ha : WellFormed a) (hb : WellFormed b)
    (hp : par < q) (hn : q < S.K.next_pid) (hs : (S.K.proc q).state = .running)
    (hpar : (S.K.proc q).parent = par) (hr : (S.K.proc q).ready = 0)
    (hc : S.code q = first_fork D fd name a b pfd0 pfd1)
    (hcl : calls_of q S.K.trace = [.fork 0, .pipe 0 pfd0 pfd1]) :
    StepsTo D S q q par (.mk name [a, b]) [q] false := by
  unfold StepsTo
  rw [first_fork] at hc
  rw [S.step_fork q _ (by omega) hn hs hc]
  have hqn : q ≠ S.K.next_pid := by omega
  refine ⟨[q, S.K.next_pid], false,
    .op_one q par fd name a b pfd0 pfd1 S.K.next_pid [S.K.next_pid] false hb
      (Sub.born D _ S.K.next_pid q pfd1 ha hn (by simp) (by simp) (by simp) (by simp) ?_ ?_)
      hp (by simp; omega) ?_ ?_ ?_ ?_ ?_, ?_⟩
  · simp only [if_true]; exact fork_child D pfd1 a _ _
  · simp only [Kernel.forked_trace, calls_of_append, calls_of_fresh hfresh]
    simp [calls_of, hqn]
  · simp [hqn, hs]
  · simp [hqn, hpar]
  · simp [hqn, hr]
  · simp only [if_neg hqn, if_true]
    exact fork_parent _ _ _ S.K.next_pid (by omega)
  · simp only [Kernel.forked_trace, calls_of_append, hcl]
    simp [calls_of, hqn.symm]
  · refine ⟨by simp, by simp, Or.inr ⟨rfl, by simp⟩, fun h => h, ?_, ?_, ?_,
      ⟨_, by rw [Kernel.forked_trace, List.append_assoc], by simp [Act.is_cont, Act.is_ready]⟩⟩
    · intro x hx hxp
      simp only [List.mem_cons, List.mem_singleton, List.not_mem_nil, or_false,
        not_or] at hx
      simp [hx.1, hx.2]
    · have h1 : par ≠ q := by omega
      have h2 : par ≠ S.K.next_pid := by omega
      simp [h1, h2]
    · have h1 : par ≠ q := by omega
      have h2 : par ≠ S.K.next_pid := by omega
      simp [h1, h2]

theorem Sub.turn_op_one {D : DoubleOps α} {S : Sys α}
    (hfresh : ∀ e ∈ S.K.trace, e.1 < S.K.next_pid)
    (q par : Nat) (fd : Fd) (name : String) (a b : tree_node) (pfd0 pfd1 : Fd)
    (ca : Nat) (pa : List Nat) (ra : Bool)
    (hb : WellFormed b) (hsa : Sub D S ca q a pa ra)
    (hp : par < q) (hn : q < S.K.next_pid) (hs : (S.K.proc q).state = .running)
    (hpar : (S.K.proc q).parent = par) (hr : (S.K.proc q).ready = ra.toNat)
    (hc : S.code q = second_fork D fd name b pfd0 pfd1 ca)
    (hcl : calls_of q S.K.trace = [.fork 0, .pipe 0 pfd0 pfd1, .fork ca]) :
    StepsTo D S q q par (.mk name [a, b]) (q :: pa) false := by
  unfold StepsTo
  rw [second_fork] at hc
  rw [S.step_fork q _ (by omega) hn hs hc]
  have hqn : q ≠ S.K.next_pid := by omega
  have hfa : ∀ x ∈ pa, x ≠ q ∧ x ≠ S.K.next_pid := fun x hx => by
    have := hsa.lt_of_mem hx
    have := hsa.bounds x hx
    omega
  refine ⟨q :: (pa ++ [S.K.next_pid]), false,
    .op_two q par fd name a b pfd0 pfd1 ca S.K.next_pid pa [S.K.next_pid] ra false
      (hsa.framed (by simp) fun x hx => ?_)
      (Sub.born D _ S.K.next_pid q pfd1 hb hn (by simp) (by simp) (by simp) (by simp) ?_ ?_)
      (fun x hx => by simpa using (hfa x hx).2)
      hp (by simp; omega) ?_ ?_ ?_ ?_ ?_, ?_⟩
  · obtain ⟨h1, h2⟩ := hfa x hx
    refine ⟨by simp [h1, h2], by simp [h1, h2], ?_⟩
    simp only [Kernel.forked_trace, calls_of_append]
    simp [calls_of, h1.symm, h2.symm]
  · simp only [if_true]; exact fork_child D pfd1 b _ _
  · simp only [Kernel.forked_trace, calls_of_append, calls_of_fresh hfresh]
    simp [calls_of, hqn]
  · simp [hqn, hs]
  · simp [hqn, hpar]
  · simp [hqn, hr]
  · simp only [if_neg hqn, if_true]
    exact fork_parent _ _ _ S.K.next_pid (by omega)
  · simp only [Kernel.forked_trace, calls_of_append, hcl]
    simp [calls_of, hqn.symm]
  · refine ⟨by simp; tauto, by simp; tauto, Or.inr ⟨rfl, by simp⟩, fun h => h, ?_, ?_, ?_,
      ⟨_, by rw [Kernel.forked_trace, List.append_assoc], by simp [Act.is_cont, Act.is_ready]⟩⟩
    · intro x hx hxp
      simp only [List.mem_cons, List.mem_append, List.mem_singleton, List.not_mem_nil,
        or_false, not_or] at hx
      simp [hx.1, hx.2.2]
    · have h1 : par ≠ q := by omega
      have h2 : par ≠ S.K.next_pid := by omega
      simp [h1, h2]
    · have h1 : par ≠ q := by omega
      have h2 : par ≠ S.K.next_pid := by omega
      simp [h1, h2]

theorem Sub.turn_below_one {D : DoubleOps α} {S : Sys α} (q : Nat)
    (p par : Nat) (fd : Fd) (name : String) (a b : tree_node) (pfd0 pfd1 : Fd)
    (ca : Nat) (pa : List Nat) (ra : Bool)
    (hb : WellFormed b) (hsa : StepsTo D S q ca p a pa ra)
    (hp : par < p) (hn : p < S.K.next_pid) (hs : (S.K.proc p).state = .running)
    (hpar : (S.K.proc p).parent = par) (hr : (S.K.proc p).ready = ra.toNat)
    (hc : S.code p = second_fork D fd name b pfd0 pfd1 ca)
    (hcl : calls_of p S.K.trace = [.fork 0, .pipe 0 pfd0 pfd1, .fork ca]) :
    StepsTo D S q p par (.mk name [a, b]) (p :: pa) false := by
  obtain ⟨pa1, ra1, hsa1, hea⟩ := hsa
  have hpp : p ∉ pa1 := fun e => by have := hsa1.lt_of_mem e; omega
  have hparp : par ∉ pa1 := fun e => by have := hsa1.lt_of_mem e; omega
  have hk := hea.keep
  refine ⟨p :: pa1, false,
    .op_one p par fd name a b pfd0 pfd1 ca pa1 ra1 hb hsa1 hp
      (Nat.lt_of_lt_of_le hn hea.pid_le) ?_ ?_ ?_ ?_ ?_,
    hea.lift (by omega) hparp (p :: pa) (p :: pa1) [p] (by simp; tauto) (by simp; tauto)
      (by simp)⟩
  · rw [hea.up]; exact hs
  · rw [hea.up]; exact hpar
  · rw [hea.up]; dsimp only; rw [hr]
    cases ra <;> cases ra1 <;> simp_all
  · rw [hea.up_code]; exact hc
  · rw [hea.calls_out p hpp]; exact hcl

theorem Sub.turn_op_two {D : DoubleOps α} {S : Sys α}
    (q par : Nat) (fd : Fd) (name : String) (a b : tree_node) (pfd0 pfd1 : Fd)
    (ca cb : Nat) (pa pb : List Nat) (ra rb : Bool)
    (hsa : Sub D S ca q a pa ra) (hsb : Sub D S cb q b pb rb) (hd : ∀ x ∈ pa, x ∉ pb)
    (hp : par < q) (hn : q < S.K.next_pid) (hs : (S.K.proc q).state = .running)
    (hpar : (S.K.proc q).parent = par) (hr : (S.K.proc q).ready = ra.toNat + rb.toNat)
    (hc : S.code q = after_forks D fd name pfd0 pfd1 ca cb)
    (hcl : calls_of q S.K.trace = [.fork 0, .pipe 0 pfd0 pfd1, .fork ca, .fork cb]) :
    StepsTo D S q q par (.mk name [a, b]) (q :: (pa ++ pb)) false := by
  unfold StepsTo
  have hc1 := hc
  rw [after_forks] at hc
  rw [S.step_wait_ready q 2 _ (by omega) hn hs hc]
  by_cases hrdy : 2 ≤ (S.K.proc q).ready
  · rw [if_pos hrdy]
    have hra : ra = true := by cases ra <;> cases rb <;> simp_all
    have hrb : rb = true := by cases ra <;> cases rb <;> simp_all
    subst hra; subst hrb
    have hfa : ∀ x ∈ pa ++ pb, x ≠ q := fun x hx => by
      rcases List.mem_append.1 hx with hx | hx
      · have := hsa.lt_of_mem hx; omega
      · have := hsb.lt_of_mem hx; omega
    refine ⟨q :: (pa ++ pb), false,
      .op_waited q par fd name a b pfd0 pfd1 ca cb pa pb
        (hsa.framed (by simp [Sys.goes]) fun x hx => ?_)
        (hsb.framed (by simp [Sys.goes]) fun x hx => ?_) hd hp (by simpa [Sys.goes] using hn)
        ?_ ?_ ?_ ?_, ?_⟩
    · have := hfa x (List.mem_append_left _ hx)
      refine ⟨by simp [Sys.goes, this], by simp [Sys.goes, this], ?_⟩
      simp only [Sys.goes, Kernel.counted_trace, calls_of_append]
      simp [calls_of, this.symm]
    · have := hfa x (List.mem_append_right _ hx)
      refine ⟨by simp [Sys.goes, this], by simp [Sys.goes, this], ?_⟩
      simp only [Sys.goes, Kernel.counted_trace, calls_of_append]
      simp [calls_of, this.symm]
    · simp [Sys.goes, hs]
    · simp [Sys.goes, hpar]
    · simp [Sys.goes]
    · simp only [Sys.goes, Kernel.counted_trace, calls_of_append, hcl]; simp [calls_of]
    · refine ⟨fun _ h => h, fun _ h => Or.inl h, Or.inl rfl, fun h => h, ?_, ?_, ?_,
        ⟨_, Kernel.counted_trace _ _ _, by simp [Act.is_cont, Act.is_ready]⟩⟩
      · intro x hx hxp
        have : x ≠ q := fun e => hx (e ▸ List.mem_cons_self _ _)
        simp [Sys.goes, this]
      · have : par ≠ q := by omega
        simp [Sys.goes, this]
      · have : par ≠ q := by omega
        simp [Sys.goes, this]
  · rw [if_neg hrdy]
    exact ⟨q :: (pa ++ pb), false,
      .op_two q par fd name a b pfd0 pfd1 ca cb pa pb ra rb hsa hsb hd hp hn hs hpar hr
        hc1 hcl, Effect.same _ _ _ _⟩

theorem Sub.turn_below_left {D : DoubleOps α} {S : Sys α} (q : Nat)
    (p par : Nat) (fd : Fd) (name : String) (a b : tree_node) (pfd0 pfd1 : Fd)
    (ca cb : Nat) (pa pb : List Nat) (ra rb : Bool)
    (hsa : StepsTo D S q ca p a pa ra) (hsb : Sub D S cb p b pb rb) (hd : ∀ x ∈ pa, x ∉ pb)
    (hp : par < p) (hn : p < S.K.next_pid) (hs : (S.K.proc p).state = .running)
    (hpar : (S.K.proc p).parent = par) (hr : (S.K.proc p).ready = ra.toNat + rb.toNat)
    (hc : S.code p = after_forks D fd name pfd0 pfd1 ca cb)
    (hcl : calls_of p S.K.trace = [.fork 0, .pipe 0 pfd0 pfd1, .fork ca, .fork cb]) :
    StepsTo D S q p par (.mk name [a, b]) (p :: (pa ++ pb)) false := by
  obtain ⟨pa1, ra1, hsa1, hea⟩ := hsa
  have hpp : p ∉ pa1 := fun e => by have := hsa1.lt_of_mem e; omega
  have hparp : par ∉ pa1 := fun e => by have := hsa1.lt_of_mem e; omega
  have hk := hea.keep
  have hd1 : ∀ x ∈ pa1, x ∉ pb := fun x hx hxb => by
    rcases hea.new x hx with e | e
    · exact hd x e hxb
    · have := hsb.bounds x hxb; omega
  refine ⟨p :: (pa1 ++ pb), false,
    .op_two p par fd name a b pfd0 pfd1 ca cb pa1 pb ra1 rb hsa1
      (hsb.frame_of_effect hea fun x hx hx1 => hd1 x hx1 hx) hd1 hp
      (Nat.lt_of_lt_of_le hn hea.pid_le) ?_ ?_ ?_ ?_ ?_,
    hea.lift (by omega) hparp (p :: (pa ++ pb)) (p :: (pa1 ++ pb)) (p :: pb)
      (by simp; tauto) (by simp; tauto) (by simp)⟩
  · rw [hea.up]; exact hs
  · rw [hea.up]; exact hpar
  · rw [hea.up]; dsimp only; rw [hr]
    cases ra <;> cases ra1 <;> simp_all
    omega
  · rw [hea.up_code]; exact hc
  · rw [hea.calls_out p hpp]; exact hcl

theorem Sub.turn_below_right {D : DoubleOps α} {S : Sys α} (q : Nat)
    (p par : Nat) (fd : Fd) (name : String) (a b : tree_node) (pfd0 pfd1 : Fd)
    (ca cb : Nat) (pa pb : List Nat) (ra rb : Bool)
    (hsa : Sub D S ca p a pa ra) (hsb : StepsTo D S q cb p b pb rb) (hd : ∀ x ∈ pa, x ∉ pb)
    (hp : par < p) (hn : p < S.K.next_pid) (hs : (S.K.proc p).state = .running)
    (hpar : (S.K.proc p).parent = par) (hr : (S.K.proc p).ready = ra.toNat + rb.toNat)
    (hc : S.code p = after_forks D fd name pfd0 pfd1 ca cb)
    (hcl : calls_of p S.K.trace = [.fork 0, .pipe 0 pfd0 pfd1, .fork ca, .fork cb]) :
    StepsTo D S q p par (.mk name [a, b]) (p :: (pa ++ pb)) false := by
  obtain ⟨pb1, rb1, hsb1, heb⟩ := hsb
  have hpp : p ∉ pb1 := fun e => by have := hsb1.lt_of_mem e; omega
  have hparp : par ∉ pb1 := fun e => by have := hsb1.lt_of_mem e; omega
  have hk := heb.keep
  have hd1 : ∀ x ∈ pa, x ∉ pb1 := fun x hx hxb => by
    rcases heb.new x hxb with e | e
    · exact hd x hx e
    · have := hsa.bounds x hx; omega
  refine ⟨p :: (pa ++ pb1), false,
    .op_two p par fd name a b pfd0 pfd1 ca cb pa pb1 ra rb1
      (hsa.frame_of_effect heb hd1) hsb1 hd1 hp
      (Nat.lt_of_lt_of_le hn heb.pid_le) ?_ ?_ ?_ ?_ ?_,
    heb.lift (by omega) hparp (p :: (pa ++ pb)) (p :: (pa ++ pb1)) (p :: pa)
      (by simp; tauto) (by simp; tauto) (by simp)⟩
  · rw [heb.up]; exact hs
  · rw [heb.up]; exact hpar
  · rw [heb.up]; dsimp only; rw [hr]
    cases rb <;> cases rb1 <;> simp_all
  · rw [heb.up_code]; exact hc
  · rw [heb.calls_out p hpp]; exact hcl

theorem Sub.turn_op_waited {D : DoubleOps α} {S : Sys α}
    (q par : Nat) (fd : Fd) (name : String) (a b : tree_node) (pfd0 pfd1 : Fd)
    (ca cb : Nat) (pa pb : List Nat)
    (hsa : Sub D S ca q a pa true) (hsb : Sub D S cb q b pb true) (hd : ∀ x ∈ pa, x ∉ pb)
    (hp : par < q) (hn : q < S.K.next_pid) (hs : (S.K.proc q).state = .running)
    (hpar : (S.K.proc q).parent = par)
    (hc : S.code q = .raise_SIGSTOP (collect D fd name 2 pfd0 pfd1
      (assign (assign (fun _ => 0) 0 (ca : Int)) 1 (cb : Int))))
    (hcl : calls_of q S.K.trace =
      [.fork 0, .pipe 0 pfd0 pfd1, .fork ca, .fork cb, .wait_for_ready_children 2]) :
    StepsTo D S q q par (.mk name [a, b]) (q :: (pa ++ pb)) false := by
  unfold StepsTo
  have hne : (S.K.proc q).parent ≠ q := by rw [hpar]; omega
  rw [S.step_raise q _ (by omega) hn hs hc]
  generalize hk : collect D fd name 2 pfd0 pfd1
    (assign (assign (fun _ => 0) 0 (ca : Int)) 1 (cb : Int)) = k
  have hfa : ∀ x ∈ pa ++ pb, x ≠ q ∧ x ≠ par := fun x hx => by
    rcases List.mem_append.1 hx with hx | hx
    · have := hsa.lt_of_mem hx; omega
    · have := hsb.lt_of_mem hx; omega
  have hfr : ∀ x ∈ pa ++ pb, (S.K.halted q k).proc x = S.K.proc x ∧
      calls_of x (S.K.halted q k).trace = calls_of x S.K.trace := fun x hx => by
    obtain ⟨h1, h2⟩ := hfa x hx
    refine ⟨Kernel.halted_proc_other _ _ _ _ h1 (by rw [hpar]; exact h2), ?_⟩
    rw [Kernel.halted_trace]
    exact calls_of_append_other _ _ _ (by simp [h1.symm])
  refine ⟨q :: (pa ++ pb), true,
    .op_ready q par fd name a b pfd0 pfd1 ca cb pa pb
      (hsa.framed (by simp) fun x hx =>
        ⟨(hfr x (List.mem_append_left _ hx)).1, rfl, (hfr x (List.mem_append_left _ hx)).2⟩)
      (hsb.framed (by simp) fun x hx =>
        ⟨(hfr x (List.mem_append_right _ hx)).1, rfl,
          (hfr x (List.mem_append_right _ hx)).2⟩) hd hp hn ?_ ?_ ?_, ?_⟩
  · dsimp only; rw [Kernel.halted_proc_self _ _ _ hne, hk]
  · dsimp only; rw [Kernel.halted_proc_self _ _ _ hne]; exact hpar
  · dsimp only; rw [Kernel.halted_trace, calls_of_append, hcl]; simp [calls_of]
  · refine ⟨fun _ h => h, fun _ h => Or.inl h, Or.inl rfl, fun _ => rfl, ?_, ?_, rfl,
      ⟨[(q, .raise_SIGSTOP)], rfl, by simp [Act.is_cont, Act.is_ready]⟩⟩
    · intro x hx hxp
      refine ⟨?_, rfl⟩
      dsimp only
      exact Kernel.halted_proc_other _ _ _ _ (fun e => hx (e ▸ List.mem_cons_self _ _))
        (by rw [hpar]; exact hxp)
    · dsimp only
      have := Kernel.halted_proc_parent S.K q k hne
      rw [hpar] at this
      rw [this]; simp

/-- The turn of a worker of a subtree keeps the subtree in order. -/
theorem Sub.step_in {D : DoubleOps α} {S : Sys α}
    (hfresh : ∀ e ∈ S.K.trace, e.1 < S.K.next_pid)
    {p par : Nat} {t : tree_node} {pids : List Nat} {rdy : Bool}
    (h : Sub D S p par t pids rdy) : ∀ q ∈ pids, StepsTo D S q p par t pids rdy := by
  induction h with
  | leaf_new p par fd name h hp hn hs hpar hc hcl =>
    intro q hq
    obtain rfl : q = p := by simpa using hq
    exact Sub.turn_leaf_new q par fd name h hp hn hs hpar hc hcl
  | leaf_ready p par fd name hp hn hs hpar hcl =>
    intro q hq
    obtain rfl : q = p := by simpa using hq
    exact (Sub.leaf_ready q par fd name hp hn hs hpar hcl).turn_stopped q (by rw [hs]; rfl)
  | op_new p par fd name a b h ha hb hp hn hs hpar hr hc hcl =>
    intro q hq
    obtain rfl : q = p := by simpa using hq
    exact Sub.turn_op_new q par fd name a b h ha hb hp hn hs hpar hr hc hcl
  | op_piped p par fd name a b pfd0 pfd1 ha hb hp hn hs hpar hr hc hcl =>
    intro q hq
    obtain rfl : q = p := by simpa using hq
    exact Sub.turn_op_piped hfresh q par fd name a b pfd0 pfd1 ha hb hp hn hs hpar hr hc hcl
  | op_one p par fd name a b pfd0 pfd1 ca pa ra hb hsa hp hn hs hpar hr hc hcl iha =>
    intro q hq
    rcases List.mem_cons.1 hq with hq | hq
    · subst hq
      exact Sub.turn_op_one hfresh q par fd name a b pfd0 pfd1 ca pa ra hb hsa hp hn hs hpar
        hr hc hcl
    · exact Sub.turn_below_one q p par fd name a b pfd0 pfd1 ca pa ra hb (iha q hq) hp hn hs
        hpar hr hc hcl
  | op_two p par fd name a b pfd0 pfd1 ca cb pa pb ra rb hsa hsb hd hp hn hs hpar hr hc hcl
      iha ihb =>
    intro q hq
    rcases List.mem_cons.1 hq with hq | hq
    · subst hq
      exact Sub.turn_op_two q par fd name a b pfd0 pfd1 ca cb pa pb ra rb hsa hsb hd hp hn hs
        hpar hr hc hcl
    · rcases List.mem_append.1 hq with hq | hq
      · exact Sub.turn_below_left q p par fd name a b pfd0 pfd1 ca cb pa pb ra rb (iha q hq)
          hsb hd hp hn hs hpar hr hc hcl
      · exact Sub.turn_below_right q p par fd name a b pfd0 pfd1 ca cb pa pb ra rb hsa
          (ihb q hq) hd hp hn hs hpar hr hc hcl
  | op_waited p par fd name a b pfd0 pfd1 ca cb pa pb hsa hsb hd hp hn hs hpar hc hcl iha ihb =>
    intro q hq
    rcases List.mem_cons.1 hq with hq | hq
    · subst hq
      exact Sub.turn_op_waited q par fd name a b pfd0 pfd1 ca cb pa pb hsa hsb hd hp hn hs
        hpar hc hcl
    · refine (Sub.op_waited p par fd name a b pfd0 pfd1 ca cb pa pb hsa hsb hd hp hn hs hpar
        hc hcl).turn_stopped q ?_
      rcases List.mem_append.1 hq with hq | hq
      · exact ((hsa.all_ready rfl).2 q hq).1
      · exact ((hsb.all_ready rfl).2 q hq).1
  | op_ready p par fd name a b pfd0 pfd1 ca cb pa pb hsa hsb hd hp hn hs hpar hcl iha ihb =>
    intro q hq
    refine (Sub.op_ready p par fd name a b pfd0 pfd1 ca cb pa pb hsa hsb hd hp hn hs hpar
      hcl).turn_stopped q ?_
    rcases List.mem_cons.1 hq with hq | hq
    · subst hq; rw [hs]; rfl
    · rcases List.mem_append.1 hq with hq | hq
      · exact ((hsa.all_ready rfl).2 q hq).1
      · exact ((hsb.all_ready rfl).2 q hq).1

end ex2_pipes

theorem Kernel.state_terminate (K : Kernel α) (q : Nat) (w : Int) (x : Nat) :
    ((K.terminate q w).proc x).state = if x = q then .zombie w else (K.proc x).state := by
  unfold Kernel.terminate
  simp only [Kernel.modify_proc]
  split_ifs <;> rfl

theorem Kernel.state_halted (K : Kernel α) (q : Nat) (k : Prog α) (x : Nat) :
    ((K.halted q k).proc x).state = if x = q then .stopped k else (K.proc x).state := by
  unfold Kernel.halted
  simp only [Kernel.modify_proc, Kernel.log_proc]
  split_ifs <;> rfl

theorem Kernel.state_reaped (K : Kernel α) (q c : Nat) (st : Int) (rest : List (Nat × Int))
    (x : Nat) :
    ((K.reaped q c st rest).proc x).state = if x = c then .reaped else (K.proc x).state := by
  unfold Kernel.reaped
  simp only [Kernel.modify_proc, Kernel.log_proc]
  split_ifs <;> rfl

theorem quiet_at_running (c : Prog α) (h : c.no_raise) : quiet_at .running c := h

/-- A turn of process `q` after which `q` and every process it has changed
will not call `raise(SIGSTOP)`. -/
theorem Sys.Quiet.next {S S1 : Sys α} (h : S.Quiet) (q : Nat)
    (hn : S1.K.next_pid = S.K.next_pid)
    (hq : quiet_at (S1.K.proc q).state (S1.code q))
    (ho : ∀ x, 0 < x → x < S.K.next_pid → x ≠ q →
      quiet_at (S1.K.proc x).state (S1.code x) ∨
        ((S1.K.proc x).state = (S.K.proc x).state ∧ S1.code x = S.code x)) : S1.Quiet := by
  intro x hx0 hxn
  rw [hn] at hxn
  by_cases hxq : x = q
  · rw [hxq]; exact hq
  · rcases ho x hx0 hxn hxq with e | ⟨e1, e2⟩
    · exact e
    · rw [e1, e2]; exact h x hx0 hxn

/-- A call of process `q` that changes the state of no process. -/
theorem Sys.Quiet.goes {S : Sys α} (h : S.Quiet) (q : Nat) (K1 : Kernel α) (k : Prog α)
    (hs : (S.K.proc q).state = .running) (hk : k.no_raise)
    (hn : K1.next_pid = S.K.next_pid)
    (hst : ∀ x, (K1.proc x).state = (S.K.proc x).state) : (S.goes q K1 k).Quiet := by
  refine h.next q hn ?_ fun x _ _ hxq => Or.inr ⟨hst x, by simp [Sys.goes, hxq]⟩
  simp only [Sys.goes, hst, hs, if_true]
  exact hk

/-- A system in which no process will call `raise(SIGSTOP)` stays so, and
the calls of a turn are added to the calls made so far. -/
theorem Sys.Quiet.kept {S : Sys α} (h : S.Quiet) (q : Nat) :
    (S.step q).Quiet ∧
      ∃ es, (S.step q).K.trace = S.K.trace ++ es ∧ ∀ e ∈ es, e.2.is_ready = false := by
  have hnil : S.Quiet ∧ ∃ es, S.K.trace = S.K.trace ++ es ∧
      ∀ e ∈ es, e.2.is_ready = false := ⟨h, [], by simp, by simp⟩
  unfold Sys.step
  split
  · exact hnil
  rename_i hq
  have hq0 : 0 < q := by omega
  have hqn : q < S.K.next_pid := by omega
  have hqq := h q hq0 hqn
  split
  · rename_i hs
    rw [hs] at hqq
    simp only [quiet_at] at hqq
    split
    all_goals rename_i hc
    all_goals rw [hc] at hqq
    all_goals simp only [Prog.no_raise] at hqq
    · -- exit
      refine ⟨h.next q rfl ?_ fun x _ _ hxq => Or.inr ⟨?_, rfl⟩, _, rfl, by simp [Act.is_ready]⟩
      · simp [Kernel.state_terminate, quiet_at]
      · simp [Kernel.state_terminate, hxq]
    · -- ret
      refine ⟨h.next q rfl ?_ fun x _ _ hxq => Or.inr ⟨?_, rfl⟩, _, rfl, by simp [Act.is_ready]⟩
      · simp [quiet_at]
      · simp [hxq]
    · -- abort
      refine ⟨h.next q rfl ?_ fun x _ _ hxq => Or.inr ⟨?_, rfl⟩, _, rfl, by simp [Act.is_ready]⟩
      · simp [Kernel.state_terminate, quiet_at]
      · simp [Kernel.state_terminate, hxq]
    · -- stderr
      exact ⟨h.goes q _ _ hs hqq rfl fun _ => rfl, _, rfl, by simp [Act.is_ready]⟩
    · -- sleep
      exact ⟨h.goes q _ _ hs hqq rfl fun _ => rfl, _, rfl, by simp [Act.is_ready]⟩
    · -- get_tree_from_file
      split
      · exact ⟨h.goes q _ _ hs (hqq _) rfl fun _ => rfl, _, rfl, by simp [Act.is_ready]⟩
      · refine ⟨h.next q rfl ?_ fun x _ _ hxq => Or.inr ⟨?_, rfl⟩, _ ++ _,
          List.append_assoc _ _ _, by simp [Act.is_ready]⟩
        · simp [Kernel.state_terminate, quiet_at]
        · simp [Kernel.state_terminate, hxq]
    · -- pipe
      refine ⟨h.goes q _ _ hs (hqq _ _ _) rfl fun x => ?_, _, Kernel.piped_trace _ _,
        by simp [Act.is_ready]⟩
      simp only [Kernel.piped_proc]; split <;> rfl
    · -- fork
      refine ⟨?_, _ ++ _, List.append_assoc _ _ _, by simp [Act.is_ready]⟩
      intro x hx0 hxn
      simp only [Kernel.forked_next_pid] at hxn
      simp only [Kernel.forked_proc]
      by_cases h1 : x = S.K.next_pid
      · simp only [h1, if_true]; exact hqq 0
      · simp only [h1, if_false]
        by_cases h2 : x = q
        · simp only [h2, if_true, hs]; exact hqq _
        · simp only [h2, if_false]; exact h x hx0 (by omega)
    · -- wait_for_ready_children
      split
      · refine ⟨h.goes q _ _ hs hqq rfl fun x => ?_, _, Kernel.counted_trace _ _ _,
          by simp [Act.is_ready]⟩
        simp only [Kernel.counted_proc]; split <;> rfl
      · exact hnil
    · -- kill
      split
      · rename_i kc hst
        split
        · rename_i hpid
          refine ⟨?_, _, Kernel.continued_trace _ _ _, by simp [Act.is_ready]⟩
          intro x hx0 hxn
          have hx := h x hx0 hxn
          simp only [Kernel.continued_proc]
          by_cases h1 : x = Int.toNat ‹ℤ›
          · rw [if_pos h1, if_pos h1]
            rw [h1, hst] at hx
            exact hx
          · rw [if_neg h1, if_neg h1]
            by_cases h2 : x = q
            · rw [if_pos h2, h2, hs]; exact hqq
            · rw [if_neg h2]; exact hx
        · exact ⟨h.goes q _ _ hs hqq rfl fun _ => rfl, _, rfl, by simp [Act.is_ready]⟩
      · exact ⟨h.goes q _ _ hs hqq rfl fun _ => rfl, _, rfl, by simp [Act.is_ready]⟩
    · -- wait
      split
      · rename_i c st rest hd
        refine ⟨h.next q rfl ?_ fun x _ _ hxq => ?_, _, rfl, by simp [Act.is_ready]⟩
        · simp only [Sys.goes, Kernel.state_reaped, if_true]
          split
          · simp [quiet_at]
          · rw [hs]; exact hqq _ _
        · simp only [Sys.goes, Kernel.state_reaped, if_neg hxq]
          by_cases hxc : x = c
          · left; simp [hxc, quiet_at]
          · right; simp [hxc]
      · split
        · exact ⟨h.goes q _ _ hs (hqq _ _) rfl fun _ => rfl, _, rfl, by simp [Act.is_ready]⟩
        · exact hnil
    · -- close
      refine ⟨h.goes q _ _ hs hqq rfl fun x => ?_, _, rfl, by simp [Act.is_ready]⟩
      simp only [Kernel.closed, Kernel.modify_proc, Kernel.log_proc]; split <;> rfl
    · -- read
      split
      · split
        · exact ⟨h.goes q _ _ hs (hqq _ _) rfl fun _ => rfl, _, rfl, by simp [Act.is_ready]⟩
        · split
          · exact hnil
          · exact ⟨h.goes q _ _ hs (hqq _ _) rfl fun _ => rfl, _, rfl, by simp [Act.is_ready]⟩
      · exact ⟨h.goes q _ _ hs (hqq _ _) rfl fun _ => rfl, _, rfl, by simp [Act.is_ready]⟩
    · -- write
      split
      · exact ⟨h.goes q _ _ hs (hqq _) rfl fun _ => rfl, _, rfl, by simp [Act.is_ready]⟩
      · exact ⟨h.goes q _ _ hs (hqq _) rfl fun _ => rfl, _, rfl, by simp [Act.is_ready]⟩
  · exact hnil

theorem first_split_unique {β : Type} (P : β → Prop) :
    ∀ (a a1 b b1 : List β) (x x1 : β), a ++ x :: b = a1 ++ x1 :: b1 → P x → P x1 →
      (∀ y ∈ a, ¬ P y) → (∀ y ∈ a1, ¬ P y) → a = a1 ∧ x = x1 ∧ b = b1
  | [], [], b, b1, x, x1, h, _, _, _, _ => by simp at h; exact ⟨rfl, h.1, h.2⟩
  | [], y :: a1, b, b1, x, x1, h, hx, _, _, h1 => by
    simp at h; exact absurd (h.1 ▸ hx) (h1 y (by simp))
  | y :: a, [], b, b1, x, x1, h, _, hx1, h0, _ => by
    simp at h; exact absurd (h.1 ▸ hx1) (h0 y (by simp))
  | y :: a, y1 :: a1, b, b1, x, x1, h, hx, hx1, h0, h1 => by
    simp only [List.cons_append, List.cons.injEq] at h
    obtain ⟨e1, e2, e3⟩ := first_split_unique P a a1 b b1 x x1 h.2 hx hx1
      (fun z hz => h0 z (List.mem_cons_of_mem _ hz)) (fun z hz => h1 z (List.mem_cons_of_mem _ hz))
    exact ⟨by rw [h.1, e1], e2, e3⟩

theorem ReadyInOrder.append {tr es : List (Nat × Act α)} (h : ReadyInOrder tr)
    (hes : ∀ e ∈ es, e.2.is_ready = false) : ReadyInOrder (tr ++ es) := by
  intro pre post p hsplit
  rcases List.append_eq_append_iff.1 hsplit with ⟨a, e1, e2⟩ | ⟨c, e1, e2⟩
  · have := hes (p, .raise_SIGSTOP) (by rw [e2]; simp)
    simp [Act.is_ready] at this
  · cases c with
    | nil =>
      have := hes (p, .raise_SIGSTOP) (by simp at e2; rw [← e2]; simp)
      simp [Act.is_ready] at this
    | cons y c =>
      simp only [List.cons_append, List.cons.injEq] at e2
      exact h pre c p (by rw [e1, ← e2.1])

theorem ReadyInOrder.of_quiet {tr : List (Nat × Act α)}
    (h : ∀ e ∈ tr, e.2.is_ready = false) : ReadyInOrder tr := by
  have h0 : ReadyInOrder ([] : List (Nat × Act α)) := by
    intro pre post p hsplit
    simp at hsplit
  simpa using h0.append h

theorem ReadyInOrder.append_raise {tr : List (Nat × Act α)} (h : ReadyInOrder tr) (x : Nat)
    (hx : bottom_up_at tr x) : ReadyInOrder (tr ++ [(x, .raise_SIGSTOP)]) := by
  intro pre post p hsplit
  rcases List.append_eq_append_iff.1 hsplit with ⟨a, e1, e2⟩ | ⟨c, e1, e2⟩
  · cases a with
    | nil =>
      simp only [List.nil_append, List.cons.injEq, Prod.mk.injEq] at e2
      rw [e1, List.append_nil, ← e2.1.1]; exact hx
    | cons y a =>
      simp only [List.cons_append, List.cons.injEq] at e2
      have := congrArg List.length e2.2
      simp at this
      omega
  · cases c with
    | nil =>
      simp only [List.nil_append, List.cons.injEq, Prod.mk.injEq] at e2
      rw [List.append_nil] at e1
      rw [← e1, e2.1.1]; exact hx
    | cons y c =>
      simp only [List.cons_append, List.cons.injEq] at e2
      exact h pre c p (by rw [e1, ← e2.1])

theorem sum_indicator (x : Nat) : ∀ (l : List Nat), l.Nodup → x ∈ l →
    (l.map fun p => if x = p then 1 else 0).sum = 1
  | [], _, h => by simp at h
  | y :: l, hnd, h => by
    obtain ⟨h1, h2⟩ := List.nodup_cons.1 hnd
    by_cases e : x = y
    · subst e
      have : (l.map fun p => if x = p then 1 else 0) = l.map fun _ => 0 :=
        List.map_congr_left fun p hp => by
          have : x ≠ p := fun e => h1 (e ▸ hp)
          simp [this]
      simp [this]
    · have hx : x ∈ l := by simpa [e] using h
      simp [e, sum_indicator x l h2 hx]

/-- The calls counted process by process. -/
theorem count_calls_by_pid (f : Act α → Bool) (l : List Nat) (hnd : l.Nodup) :
    ∀ (tr : List (Nat × Act α)), (∀ e ∈ tr, e.1 ∈ l) →
      count_calls f tr = (l.map fun p => ((calls_of p tr).filter f).length).sum
  | [], _ => by simp [count_calls, calls_of]
  | e :: tr, h => by
    have ih := count_calls_by_pid f l hnd tr fun x hx => h x (List.mem_cons_of_mem _ hx)
    have he : e.1 ∈ l := h e (by simp)
    have key : ∀ p, ((calls_of p (e :: tr)).filter f).length =
        (if e.1 = p then (if f e.2 then 1 else 0) else 0) +
          ((calls_of p tr).filter f).length := by
      intro p
      by_cases e1 : e.1 = p <;> by_cases e2 : f e.2 = true <;>
        simp [calls_of, List.filter_cons, e1, e2]
      omega
    simp only [key, List.sum_map_add]
    rw [← ih]
    by_cases e2 : f e.2 = true
    · simp only [e2, if_true]
      rw [sum_indicator e.1 l hnd he]
      simp [count_calls, List.countP_cons, e2]; omega
    · simp [count_calls, List.countP_cons, e2]

namespace ex2_pipes

theorem main_unfold (D : DoubleOps α) (prog path : String) :
    main D [prog, path] = .get_tree_from_file path (main_loaded D) := by
  unfold main
  rw [if_neg (by simp)]
  rfl

theorem send_no_raise (D : DoubleOps α) (fd : Fd) (name : String) :
    (send D fd name).no_raise := by
  intro n
  by_cases h : n = sizeof_double <;> simp [h, Prog.no_raise]

theorem for_range_no_raise {σ : Type} (body : Nat → σ → (σ → Prog α) → Prog α)
    (done : σ → Prog α)
    (hbody : ∀ i s next, (∀ s1, (next s1).no_raise) → (body i s next).no_raise)
    (hdone : ∀ s, (done s).no_raise) :
    ∀ (count i : Nat) (s : σ), (Prog.for_range count i s body done).no_raise
  | 0, _, s => hdone s
  | n + 1, i, s => hbody i s _ fun s1 => for_range_no_raise body done hbody hdone n (i + 1) s1

theorem collect_no_raise (D : DoubleOps α) (fd : Fd) (name : String) (nr : Nat)
    (pfd0 pfd1 : Fd) (pid_child : Nat → Int) :
    (collect D fd name nr pfd0 pfd1 pid_child).no_raise := by
  unfold collect
  apply for_range_no_raise
  · intro i s next hnext p st n res
    by_cases h : n = sizeof_double
    · simp only [h, ne_eq, not_true_eq_false, if_false]; exact hnext _
    · simp [h, Prog.no_raise]
  · intro s n
    by_cases h : n = sizeof_double <;> simp [h, Prog.no_raise]

theorem main_end_no_raise (pfd0 : Fd) : (main_end pfd0 : Prog α).no_raise := by
  intro p st n v
  by_cases h : n = sizeof_double <;> simp [h, Prog.no_raise]

/-- A worker that has reported Ready, and every worker below it, is stopped
with a program that does not call `raise(SIGSTOP)`. -/
theorem Sub.quiet {D : DoubleOps α} {S : Sys α} {p par : Nat} {t : tree_node}
    {pids : List Nat} {rdy : Bool} (h : Sub D S p par t pids rdy) :
    rdy = true → ∀ x ∈ pids, ∃ k, (S.K.proc x).state = .stopped k ∧ k.no_raise := by
  induction h with
  | leaf_new p par fd name h hp hn hs hpar hc hcl => intro h; cases h
  | leaf_ready p par fd name hp hn hs hpar hcl =>
    intro _ x hx
    obtain rfl : x = p := by simpa using hx
    exact ⟨_, hs, send_no_raise D fd name⟩
  | op_new p par fd name a b h ha hb hp hn hs hpar hr hc hcl => intro h; cases h
  | op_piped p par fd name a b pfd0 pfd1 ha hb hp hn hs hpar hr hc hcl => intro h; cases h
  | op_one p par fd name a b pfd0 pfd1 ca pa ra hb hsa hp hn hs hpar hr hc hcl iha =>
    intro h; cases h
  | op_two p par fd name a b pfd0 pfd1 ca cb pa pb ra rb hsa hsb hd hp hn hs hpar hr hc hcl
      iha ihb =>
    intro h; cases h
  | op_waited p par fd name a b pfd0 pfd1 ca cb pa pb hsa hsb hd hp hn hs hpar hc hcl iha ihb =>
    intro h; cases h
  | op_ready p par fd name a b pfd0 pfd1 ca cb pa pb hsa hsb hd hp hn hs hpar hcl iha ihb =>
    intro _ x hx
    rcases List.mem_cons.1 hx with hx | hx
    · subst hx; exact ⟨_, hs, collect_no_raise D fd name 2 pfd0 pfd1 _⟩
    · rcases List.mem_append.1 hx with hx | hx
      · exact iha rfl x hx
      · exact ihb rfl x hx

/-- The calls of a worker that has called `raise(SIGSTOP)`: a Leaf worker
has made no other call; an Internal worker has forked two workers that have
called `raise(SIGSTOP)`, and its `wait_for_ready_children(2)` has
returned. -/
theorem Sub.reported {D : DoubleOps α} {S : Sys α} {p par : Nat} {t : tree_node}
    {pids : List Nat} {rdy : Bool} (h : Sub D S p par t pids rdy) :
    ∀ x ∈ pids, Act.raise_SIGSTOP ∈ calls_of x S.K.trace →
      calls_of x S.K.trace = [.fork 0, .raise_SIGSTOP] ∨
      ∃ (pfd0 pfd1 : Fd) (ca cb : Nat), ca ≠ cb ∧ x < ca ∧ x < cb ∧
        calls_of x S.K.trace =
          [.fork 0, .pipe 0 pfd0 pfd1, .fork ca, .fork cb, .wait_for_ready_children 2,
            .raise_SIGSTOP] ∧
        Act.raise_SIGSTOP ∈ calls_of ca S.K.trace ∧
        Act.raise_SIGSTOP ∈ calls_of cb S.K.trace := by
  induction h with
  | leaf_new p par fd name h hp hn hs hpar hc hcl =>
    intro x hx hrs
    obtain rfl : x = p := by simpa using hx
    rw [hcl] at hrs; simp at hrs
  | leaf_ready p par fd name hp hn hs hpar hcl =>
    intro x hx hrs
    obtain rfl : x = p := by simpa using hx
    exact Or.inl hcl
  | op_new p par fd name a b h ha hb hp hn hs hpar hr hc hcl =>
    intro x hx hrs
    obtain rfl : x = p := by simpa using hx
    rw [hcl] at hrs; simp at hrs
  | op_piped p par fd name a b pfd0 pfd1 ha hb hp hn hs hpar hr hc hcl =>
    intro x hx hrs
    obtain rfl : x = p := by simpa using hx
    rw [hcl] at hrs; simp at hrs
  | op_one p par fd name a b pfd0 pfd1 ca pa ra hb hsa hp hn hs hpar hr hc hcl iha =>
    intro x hx hrs
    rcases List.mem_cons.1 hx with hx | hx
    · subst hx; rw [hcl] at hrs; simp at hrs
    · exact iha x hx hrs
  | op_two p par fd name a b pfd0 pfd1 ca cb pa pb ra rb hsa hsb hd hp hn hs hpar hr hc hcl
      iha ihb =>
    intro x hx hrs
    rcases List.mem_cons.1 hx with hx | hx
    · subst hx; rw [hcl] at hrs; simp at hrs
    · rcases List.mem_append.1 hx with hx | hx
      · exact iha x hx hrs
      · exact ihb x hx hrs
  | op_waited p par fd name a b pfd0 pfd1 ca cb pa pb hsa hsb hd hp hn hs hpar hc hcl iha ihb =>
    intro x hx hrs
    rcases List.mem_cons.1 hx with hx | hx
    · subst hx; rw [hcl] at hrs; simp at hrs
    · rcases List.mem_append.1 hx with hx | hx
      · exact iha x hx hrs
      · exact ihb x hx hrs
  | op_ready p par fd name a b pfd0 pfd1 ca cb pa pb hsa hsb hd hp hn hs hpar hcl iha ihb =>
    intro x hx hrs
    rcases List.mem_cons.1 hx with hx | hx
    · subst hx
      right
      have h1 : raised ca S.K.trace = 1 := ((hsa.all_ready rfl).2 ca hsa.root_mem).2
      have h2 : raised cb S.K.trace = 1 := ((hsb.all_ready rfl).2 cb hsb.root_mem).2
      refine ⟨pfd0, pfd1, ca, cb, fun e => hd ca hsa.root_mem (e ▸ hsb.root_mem),
        hsa.root_facts.1, hsb.root_facts.1, hcl, ?_, ?_⟩
      · unfold raised at h1
        have : 0 < ((calls_of ca S.K.trace).filter Act.is_ready).length := by omega
        obtain ⟨a, ha⟩ := List.exists_mem_of_length_pos this
        obtain ⟨ha1, ha2⟩ := List.mem_filter.1 ha
        cases a <;> simp [Act.is_ready] at ha2
        exact ha1
      · unfold raised at h2
        have : 0 < ((calls_of cb S.K.trace).filter Act.is_ready).length := by omega
        obtain ⟨a, ha⟩ := List.exists_mem_of_length_pos this
        obtain ⟨ha1, ha2⟩ := List.mem_filter.1 ha
        cases a <;> simp [Act.is_ready] at ha2
        exact ha1
    · rcases List.mem_append.1 hx with hx | hx
      · exact iha x hx hrs
      · exact ihb x hx hrs

end ex2_pipes

namespace Sys

theorem step_of_no_process (S : Sys α) (q : Nat) (h : q = 0 ∨ S.K.next_pid ≤ q) :
    S.step q = S := by
  unfold Sys.step
  rw [if_pos h]

theorem step_load (S : Sys α) (q : Nat) (path : String) (k : tree_node → Prog α)
    (t : tree_node) (h0 : 0 < q) (hn : q < S.K.next_pid)
    (hs : (S.K.proc q).state = .running) (hc : S.code q = .get_tree_from_file path k)
    (hf : S.K.files path = some t) :
    S.step q = S.goes q (S.K.log q (.get_tree_from_file path true)) (k t) := by
  unfold Sys.step
  rw [if_neg (by omega)]
  simp only [hs, hc, hf]

theorem step_cont (S : Sys α) (q : Nat) (pid : Int) (k kc : Prog α) (h0 : 0 < q)
    (hn : q < S.K.next_pid) (hs : (S.K.proc q).state = .running)
    (hc : S.code q = .kill_SIGCONT pid k) (hst : (S.K.proc pid.toNat).state = .stopped kc)
    (hpid : 0 < pid) :
    S.step q = ⟨S.K.continued q pid, fun i =>
      if i = pid.toNat then kc else if i = q then k else S.code i⟩ := by
  unfold Sys.step
  rw [if_neg (by omega)]
  simp only [hs, hc, hst, hpid, if_true]

end Sys

namespace ex2_pipes

/-- When the worker of the root has reported Ready, every worker has called
`raise(SIGSTOP)` exactly once. -/
theorem Sub.good {D : DoubleOps α} {S : Sys α} {t : tree_node} {pids : List Nat}
    (h : Sub D S 2 1 t pids true)
    (htr : ∀ e ∈ S.K.trace, (e.1 = 1 ∨ e.1 ∈ pids) ∧ e.2.is_cont = false)
    (hm : ∀ a ∈ calls_of 1 S.K.trace, a.is_ready = false ∧ a ≠ .wait_for_ready_children 1) :
    all_ready_once t S.K.trace := by
  obtain ⟨hlen, hall⟩ := h.all_ready rfl
  have h1 : raised 1 S.K.trace = 0 := by
    unfold raised
    rw [List.length_eq_zero, List.filter_eq_nil_iff]
    intro a ha; simp [(hm a ha).1]
  have hnd : (1 :: pids).Nodup :=
    List.nodup_cons.2 ⟨fun e => by have := h.lt_of_mem e; omega, h.nodup⟩
  have hsum : (pids.map fun p => ((calls_of p S.K.trace).filter Act.is_ready).length).sum =
      pids.length := by
    have : (pids.map fun p => ((calls_of p S.K.trace).filter Act.is_ready).length) =
        pids.map fun _ => 1 := List.map_congr_left fun p hp => (hall p hp).2
    rw [this]; simp
  refine ⟨?_, ?_, pids, h.nodup, hlen, fun p hp => ⟨h.lt_of_mem hp, (hall p hp).2⟩, h1,
    fun e he => (htr e he).1⟩
  · rw [count_calls_by_pid Act.is_ready (1 :: pids) hnd S.K.trace
      fun e he => by simpa using (htr e he).1]
    simp only [List.map_cons, List.sum_cons, hsum]
    unfold raised at h1
    rw [h1, hlen]; omega
  · unfold count_calls
    rw [List.countP_eq_zero]
    intro e he; simp [(htr e he).2]

theorem Phase.turn_start {D : DoubleOps α} {prog path : String} {t : tree_node} {S : Sys α}
    (q : Nat) (hn : S.K.next_pid = 2) (hs : (S.K.proc 1).state = .running)
    (hr : (S.K.proc 1).ready = 0) (hf : S.K.files path = some t)
    (hc : S.code 1 = main D [prog, path]) (htr : S.K.trace = []) :
    Phase D prog path t (S.step q) := by
  by_cases hq : q = 1
  · subst hq
    rw [main_unfold] at hc
    rw [S.step_load 1 path _ t (by omega) (by omega) hs hc hf]
    exact .loaded (by simp [Sys.goes, hn]) (by simp [Sys.goes, hs]) (by simp [Sys.goes, hr])
      (by simp [Sys.goes]) (by simp [Sys.goes, htr])
  · rw [S.step_of_no_process q (by omega)]
    exact .start hn hs hr hf hc htr

theorem Phase.turn_loaded {D : DoubleOps α} {prog path : String} {t : tree_node} {S : Sys α}
    (q : Nat) (hn : S.K.next_pid = 2) (hs : (S.K.proc 1).state = .running)
    (hr : (S.K.proc 1).ready = 0) (hc : S.code 1 = main_loaded D t)
    (htr : S.K.trace = [(1, .get_tree_from_file path true)]) :
    Phase D prog path t (S.step q) := by
  by_cases hq : q = 1
  · subst hq
    rw [main_loaded] at hc
    rw [S.step_pipe 1 _ (by omega) (by omega) hs hc]
    exact .piped ⟨S.K.next_pipe, false⟩ ⟨S.K.next_pipe, true⟩ (by simp [Sys.goes, hn])
      (by simp [Sys.goes, hs]) (by simp [Sys.goes, hr]) (by simp [Sys.goes])
      (by simp [Sys.goes, htr])
  · rw [S.step_of_no_process q (by omega)]
    exact .loaded hn hs hr hc htr

theorem Phase.turn_piped {D : DoubleOps α} {prog path : String} {t : tree_node} {S : Sys α}
    (hwf : WellFormed t) (q : Nat) (pfd0 pfd1 : Fd)
    (hn : S.K.next_pid = 2) (hs : (S.K.proc 1).state = .running)
    (hr : (S.K.proc 1).ready = 0) (hc : S.code 1 = main_piped D t pfd0 pfd1)
    (htr : S.K.trace = [(1, .get_tree_from_file path true), (1, .pipe 0 pfd0 pfd1)]) :
    Phase D prog path t (S.step q) := by
  by_cases hq : q = 1
  · subst hq
    rw [main_piped] at hc
    rw [S.step_fork 1 _ (by omega) (by omega) hs hc]
    refine .forked [2] false pfd0
      (Sub.born D _ 2 1 pfd1 hwf (by omega) (by simp [hn]) (by simp [hn]) (by simp [hn])
        (by simp [hn]) ?_ ?_) ?_ ?_ ?_ ?_ ?_ ?_ ?_
    · simp only [hn, if_true, lt_irrefl, if_false]
      rw [Prog.seq_eq_self_of_never_returns _ _ (child_never_returns D pfd1 t)]
      exact Prog.seq_eq_self_of_never_returns _ _ (child_never_returns D pfd1 t)
    · simp [htr, hn, calls_of]
    · simp [hn, hs]
    · simp [hn, hr]
    · simp only [hn, show ¬ ((1 : Nat) = 2) by omega, if_false, if_true]
      exact fork_parent _ _ _ 2 (by omega)
    · intro x h1 h2
      simp only [Kernel.forked_next_pid, hn] at h2
      simp; omega
    · simp [htr, hn, Act.is_cont]
    · simp [htr, hn, calls_of, Act.is_ready]
    · exact ReadyInOrder.of_quiet (by simp [htr, hn, Act.is_ready])
  · rw [S.step_of_no_process q (by omega)]
    exact .piped pfd0 pfd1 hn hs hr hc htr

end ex2_pipes

theorem mem_of_mem_calls_of {c : Nat} {a : Act α} {tr : List (Nat × Act α)}
    (h : a ∈ calls_of c tr) : (c, a) ∈ tr := by
  simp only [calls_of, List.mem_map, List.mem_filter, decide_eq_true_eq] at h
  obtain ⟨e, ⟨h1, h2⟩, h3⟩ := h
  have : e = (c, a) := by rw [← h2, ← h3]
  rw [← this]; exact h1

namespace ex2_pipes

/-- A turn in which a worker calls `raise(SIGSTOP)` keeps the order of the
reports. -/
theorem Sub.order_kept {D : DoubleOps α} {S1 : Sys α} {p par : Nat} {t : tree_node}
    {pids1 : List Nat} {rdy1 : Bool} (hsub1 : Sub D S1 p par t pids1 rdy1)
    {tr es : List (Nat × Act α)} (hord : ReadyInOrder tr) (e1 : S1.K.trace = tr ++ es)
    (e2 : ∀ e ∈ es, e.1 ∈ pids1 ∧ e.2.is_cont = false ∧ (e.2.is_ready = true → es = [e])) :
    ReadyInOrder S1.K.trace := by
  rw [e1]
  by_cases hq : ∀ e ∈ es, e.2.is_ready = false
  · exact hord.append hq
  · push_neg at hq
    obtain ⟨e, he1, he2⟩ := hq
    have he3 : e.2.is_ready = true := by simpa using he2
    have hes := (e2 e he1).2.2 he3
    have hx1 : e.1 ∈ pids1 := (e2 _ he1).1
    obtain ⟨x, a⟩ := e
    have ha : a = .raise_SIGSTOP := by
      cases a <;> simp [Act.is_ready] at he3
      rfl
    subst ha
    rw [hes]
    refine hord.append_raise x ?_
    have htr1 : S1.K.trace = tr ++ [(x, .raise_SIGSTOP)] := by rw [e1, hes]
    have hcx : calls_of x S1.K.trace = calls_of x tr ++ [.raise_SIGSTOP] := by
      rw [htr1, calls_of_append]; simp [calls_of]
    have hother : ∀ c, x < c → Act.raise_SIGSTOP ∈ calls_of c S1.K.trace →
        (c, Act.raise_SIGSTOP) ∈ tr := by
      intro c hc hin
      rw [htr1, calls_of_append_other c tr _ (by simp; omega)] at hin
      exact mem_of_mem_calls_of hin
    rcases hsub1.reported x hx1 (by rw [hcx]; simp) with
      h | ⟨pfd0, pfd1, ca, cb, hne, hlt1, hlt2, hcl, hra, hrb⟩
    · left
      rw [hcx] at h
      exact List.append_cancel_right h
    · right
      rw [hcx] at hcl
      exact ⟨pfd0, pfd1, ca, cb, hne,
        List.append_cancel_right hcl,
        hother ca hlt1 hra, hother cb hlt2 hrb⟩

theorem Phase.turn_main_waits {D : DoubleOps α} {prog path : String} {t : tree_node}
    {S : Sys α} (pids : List Nat) (rdy : Bool) (pfd0 : Fd)
    (hsub : Sub D S 2 1 t pids rdy)
    (hs : (S.K.proc 1).state = .running) (hr : (S.K.proc 1).ready = rdy.toNat)
    (hc : S.code 1 = main_rest pfd0 2)
    (hall : ∀ x, 2 ≤ x → x < S.K.next_pid → x ∈ pids)
    (htr : ∀ e ∈ S.K.trace, (e.1 = 1 ∨ e.1 ∈ pids) ∧ e.2.is_cont = false)
    (hm : ∀ a ∈ calls_of 1 S.K.trace, a.is_ready = false ∧ a ≠ .wait_for_ready_children 1)
    (hord : ReadyInOrder S.K.trace) :
    Phase D prog path t (S.step 1) := by
  have hn2 : 2 < S.K.next_pid := hsub.root_facts.2.1
  have hc1 := hc
  rw [main_rest] at hc
  rw [S.step_wait_ready 1 1 _ (by omega) (by omega) hs hc]
  by_cases hrd : 1 ≤ (S.K.proc 1).ready
  · rw [if_pos hrd]
    have : rdy = true := by cases rdy <;> simp_all
    subst this
    refine .waited pids pfd0 S.K.trace (hsub.framed (by simp [Sys.goes]) fun x hx => ?_)
      ?_ ?_ ?_ ?_ (hsub.good htr hm) ?_ ?_
    · have hx1 : x ≠ 1 := by have := hsub.lt_of_mem hx; omega
      refine ⟨by simp [Sys.goes, hx1], by simp [Sys.goes, hx1], ?_⟩
      simp only [Sys.goes, Kernel.counted_trace]
      exact calls_of_append_other _ _ _ (by simp [hx1.symm])
    · simp [Sys.goes, hs]
    · simp [Sys.goes]
    · simpa [Sys.goes] using hall
    · simp [Sys.goes]
    · intro hin
      have : Act.wait_for_ready_children 1 ∈ calls_of 1 S.K.trace := by
        simp only [calls_of, List.mem_map, List.mem_filter]
        exact ⟨_, ⟨hin, by simp⟩, rfl⟩
      exact (hm _ this).2 rfl
    · simp only [Sys.goes, Kernel.counted_trace]
      exact hord.append (by simp [Act.is_ready])
  · rw [if_neg hrd]
    exact .forked pids rdy pfd0 hsub hs hr hc1 hall htr hm hord

theorem Phase.turn_worker {D : DoubleOps α} {prog path : String} {t : tree_node}
    {S : Sys α} (q : Nat) (pids : List Nat) (rdy : Bool) (pfd0 : Fd)
    (hsub : Sub D S 2 1 t pids rdy)
    (hs : (S.K.proc 1).state = .running) (hr : (S.K.proc 1).ready = rdy.toNat)
    (hc : S.code 1 = main_rest pfd0 2)
    (hall : ∀ x, 2 ≤ x → x < S.K.next_pid → x ∈ pids)
    (htr : ∀ e ∈ S.K.trace, (e.1 = 1 ∨ e.1 ∈ pids) ∧ e.2.is_cont = false)
    (hm : ∀ a ∈ calls_of 1 S.K.trace, a.is_ready = false ∧ a ≠ .wait_for_ready_children 1)
    (hord : ReadyInOrder S.K.trace) (hqp : q ∈ pids) :
    Phase D prog path t (S.step q) := by
  have hfresh : ∀ e ∈ S.K.trace, e.1 < S.K.next_pid := fun e he => by
    rcases (htr e he).1 with h1 | h1
    · have := hsub.root_facts; omega
    · exact (hsub.bounds _ h1).2
  obtain ⟨pids1, rdy1, hsub1, he⟩ := hsub.step_in hfresh q hqp
  obtain ⟨es, e1, e2⟩ := he.trace
  have h1p : 1 ∉ pids1 := fun e => by have := hsub1.lt_of_mem e; omega
  have hk := he.keep
  refine .forked pids1 rdy1 pfd0 hsub1 ?_ ?_ ?_ ?_ ?_ ?_ (hsub1.order_kept hord e1 e2)
  · rw [he.up]; exact hs
  · rw [he.up]; dsimp only; rw [hr]
    cases rdy <;> cases rdy1 <;> simp_all
  · rw [he.up_code]; exact hc
  · intro x hx2 hxn
    rcases he.pid with e | ⟨e, e'⟩
    · exact he.sub x (hall x hx2 (by omega))
    · by_cases hx : x < S.K.next_pid
      · exact he.sub x (hall x hx2 hx)
      · have : x = S.K.next_pid := by omega
        rw [this]; exact e'
  · intro e he'
    rw [e1] at he'
    rcases List.mem_append.1 he' with h | h
    · refine ⟨?_, (htr e h).2⟩
      rcases (htr e h).1 with h1 | h1
      · exact Or.inl h1
      · exact Or.inr (he.sub _ h1)
    · exact ⟨Or.inr (e2 e h).1, (e2 e h).2.1⟩
  · rw [he.calls_out 1 h1p]; exact hm

theorem Phase.turn_waited {D : DoubleOps α} {prog path : String} {t : tree_node}
    {S : Sys α} (q : Nat) (pids : List Nat) (pfd0 : Fd) (pre : List (Nat × Act α))
    (hsub : Sub D S 2 1 t pids true)
    (hs : (S.K.proc 1).state = .running)
    (hc : S.code 1 = .kill_SIGCONT 2 (main_end pfd0))
    (hall : ∀ x, 2 ≤ x → x < S.K.next_pid → x ∈ pids)
    (htr : S.K.trace = pre ++ [(1, .wait_for_ready_children 1)])
    (hgood : all_ready_once t pre) (hfirst : (1, .wait_for_ready_children 1) ∉ pre)
    (hord : ReadyInOrder S.K.trace) :
    Phase D prog path t (S.step q) := by
  have hn2 : 2 < S.K.next_pid := hsub.root_facts.2.1
  by_cases hq1 : q = 1
  · subst hq1
    obtain ⟨k, hk, hkq⟩ := hsub.quiet rfl 2 hsub.root_mem
    have h2 : Int.toNat 2 = 2 := rfl
    rw [S.step_cont 1 2 _ k (by omega) (by omega) hs hc (by rw [h2]; exact hk) (by omega)]
    refine .done pre [] (by simp [htr]) hgood hfirst ?_ ?_
    · intro x hx0 hxn
      simp only [Kernel.continued_next_pid] at hxn
      simp only [Kernel.continued_proc, h2]
      by_cases hx2 : x = 2
      · simp only [hx2, if_true]; exact hkq
      · simp only [hx2, if_false]
        by_cases hx1 : x = 1
        · simp only [hx1, if_true, hs]; exact main_end_no_raise pfd0
        · simp only [hx1, if_false]
          obtain ⟨k1, hk1, hkq1⟩ := hsub.quiet rfl x (hall x (by omega) hxn)
          rw [hk1]; exact hkq1
    · simp only [Kernel.continued_trace]
      exact hord.append (by simp [Act.is_ready])
  · have : S.step q = S := by
      by_cases hqp : q ∈ pids
      · obtain ⟨k, hk, -⟩ := hsub.quiet rfl q hqp
        exact S.step_of_not_running q (by rw [hk]; simp)
      · refine S.step_of_no_process q ?_
        by_contra hcon
        push_neg at hcon
        exact hqp (hall q (by omega) hcon.2)
    rw [this]
    exact .waited pids pfd0 pre hsub hs hc hall htr hgood hfirst hord

/-- Every turn leads from a stage of the run to a stage of the run. -/
theorem Phase.turn {D : DoubleOps α} {prog path : String} {t : tree_node} (hwf : WellFormed t)
    {S : Sys α} (h : Phase D prog path t S) (q : Nat) : Phase D prog path t (S.step q) := by
  cases h with
  | start hn hs hr hf hc htr => exact Phase.turn_start q hn hs hr hf hc htr
  | loaded hn hs hr hc htr => exact Phase.turn_loaded q hn hs hr hc htr
  | piped pfd0 pfd1 hn hs hr hc htr => exact Phase.turn_piped hwf q pfd0 pfd1 hn hs hr hc htr
  | forked pids rdy pfd0 hsub hs hr hc hall htr hm hord =>
    by_cases hq1 : q = 1
    · subst hq1
      exact Phase.turn_main_waits pids rdy pfd0 hsub hs hr hc hall htr hm hord
    · by_cases hqp : q ∈ pids
      · exact Phase.turn_worker q pids rdy pfd0 hsub hs hr hc hall htr hm hord hqp
      · rw [S.step_of_no_process q (by
          by_contra hcon
          push_neg at hcon
          exact hqp (hall q (by omega) hcon.2))]
        exact .forked pids rdy pfd0 hsub hs hr hc hall htr hm hord
  | waited pids pfd0 pre hsub hs hc hall htr hgood hfirst hord =>
    exact Phase.turn_waited q pids pfd0 pre hsub hs hc hall htr hgood hfirst hord
  | done pre post htr hgood hfirst hq hord =>
    obtain ⟨hq1, es, e1, e2⟩ := hq.kept q
    exact .done pre (post ++ es) (by rw [e1, htr]; simp) hgood hfirst hq1
      (by rw [e1]; exact hord.append e2)

theorem Phase.of_start (D : DoubleOps α) (files : String → Option tree_node)
    (prog path : String) (t : tree_node) (hfile : files path = some t) :
    Phase D prog path t (ex2_pipes.start D files [prog, path]) :=
  Phase.start rfl rfl rfl hfile rfl rfl

/-- Every schedule leads to a stage of the run. -/
theorem Phase.after {D : DoubleOps α} {prog path : String} {t : tree_node} (hwf : WellFormed t) :
    ∀ (sched : List Nat) (S : Sys α), Phase D prog path t S →
      Phase D prog path t (S.run sched)
  | [], _, h => h
  | q :: sched, S, h => Phase.after hwf sched (S.step q) (h.turn hwf q)

end ex2_pipes

theorem no_call_of_count_zero (f : Act α → Bool) (tr : List (Nat × Act α))
    (h : count_calls f tr = 0) : ∀ e ∈ tr, f e.2 = false := by
  unfold count_calls at h
  rw [List.countP_eq_zero] at h
  intro e he
  simpa using h e he

namespace ex2_pipes

/-- While the worker of the root has not reported Ready, some worker of the
subtree can make a call. -/
theorem Sub.some_turn {D : DoubleOps α} {S : Sys α} {p par : Nat} {t : tree_node}
    {pids : List Nat} {rdy : Bool} (h : Sub D S p par t pids rdy) :
    rdy = false → ∃ q ∈ pids, (S.step q).K.trace ≠ S.K.trace := by
  induction h with
  | leaf_new p par fd name h hp hn hs hpar hc hcl =>
    intro _
    rw [child_leaf D fd name h] at hc
    exact ⟨p, by simp, by rw [S.step_raise p _ (by omega) hn hs hc]; simp⟩
  | leaf_ready p par fd name hp hn hs hpar hcl => intro h; cases h
  | op_new p par fd name a b h ha hb hp hn hs hpar hr hc hcl =>
    intro _
    rw [child_op_pos D fd name h] at hc
    exact ⟨p, by simp, by rw [S.step_pipe p _ (by omega) hn hs hc]; simp [Sys.goes]⟩
  | op_piped p par fd name a b pfd0 pfd1 ha hb hp hn hs hpar hr hc hcl =>
    intro _
    rw [first_fork] at hc
    exact ⟨p, by simp, by rw [S.step_fork p _ (by omega) hn hs hc]; simp⟩
  | op_one p par fd name a b pfd0 pfd1 ca pa ra hb hsa hp hn hs hpar hr hc hcl iha =>
    intro _
    rw [second_fork] at hc
    exact ⟨p, by simp, by rw [S.step_fork p _ (by omega) hn hs hc]; simp⟩
  | op_two p par fd name a b pfd0 pfd1 ca cb pa pb ra rb hsa hsb hd hp hn hs hpar hr hc hcl
      iha ihb =>
    intro _
    cases ra with
    | false =>
      obtain ⟨q, hq, hne⟩ := iha rfl
      exact ⟨q, List.mem_cons_of_mem _ (List.mem_append_left _ hq), hne⟩
    | true =>
      cases rb with
      | false =>
        obtain ⟨q, hq, hne⟩ := ihb rfl
        exact ⟨q, List.mem_cons_of_mem _ (List.mem_append_right _ hq), hne⟩
      | true =>
        rw [after_forks] at hc
        refine ⟨p, by simp, ?_⟩
        rw [S.step_wait_ready p 2 _ (by omega) hn hs hc, if_pos (by rw [hr]; decide)]
        simp [Sys.goes]
  | op_waited p par fd name a b pfd0 pfd1 ca cb pa pb hsa hsb hd hp hn hs hpar hc hcl iha ihb =>
    intro _
    exact ⟨p, by simp, by rw [S.step_raise p _ (by omega) hn hs hc]; simp⟩
  | op_ready p par fd name a b pfd0 pfd1 ca cb pa pb hsa hsb hd hp hn hs hpar hcl iha ihb =>
    intro h; cases h

/-- Until the `wait_for_ready_children(1)` of `main` has returned, some
process can make a call. -/
theorem Phase.next_turn {D : DoubleOps α} {prog path : String} {t : tree_node} {S : Sys α}
    (h : Phase D prog path t S) (hw : (1, Act.wait_for_ready_children 1) ∉ S.K.trace) :
    ∃ q, (S.step q).K.trace ≠ S.K.trace := by
  cases h with
  | start hn hs hr hf hc htr =>
    rw [main_unfold] at hc
    exact ⟨1, by rw [S.step_load 1 path _ t (by omega) (by omega) hs hc hf]; simp [Sys.goes]⟩
  | loaded hn hs hr hc htr =>
    rw [main_loaded] at hc
    exact ⟨1, by rw [S.step_pipe 1 _ (by omega) (by omega) hs hc]; simp [Sys.goes]⟩
  | piped pfd0 pfd1 hn hs hr hc htr =>
    rw [main_piped] at hc
    exact ⟨1, by rw [S.step_fork 1 _ (by omega) (by omega) hs hc]; simp⟩
  | forked pids rdy pfd0 hsub hs hr hc hall htr hm hord =>
    cases rdy with
    | false =>
      obtain ⟨q, -, hne⟩ := hsub.some_turn rfl
      exact ⟨q, hne⟩
    | true =>
      have hn2 : 2 < S.K.next_pid := hsub.root_facts.2.1
      rw [main_rest] at hc
      refine ⟨1, ?_⟩
      rw [S.step_wait_ready 1 1 _ (by omega) (by omega) hs hc, if_pos (by rw [hr]; decide)]
      simp [Sys.goes]
  | waited pids pfd0 pre hsub hs hc hall htr hgood hfirst hord =>
    exact absurd (by rw [htr]; simp) hw
  | done pre post htr hgood hfirst hq hord =>
    exact absurd (by rw [htr]; simp) hw

/-- Claim C13. In every execution of `ex2-pipes` on a well-formed tree (every
schedule of the turns of the processes): the calls made before the
`wait_for_ready_children(1)` of `main` returns contain one call of
`raise(SIGSTOP)` by each worker, there are as many workers as the tree has
nodes, and none of the calls is a `kill(SIGCONT)`; the first
`kill(SIGCONT)` of the execution is the one of `main`, and the number of the
calls of `raise(SIGSTOP)` before it is the number of nodes.  Until the
`wait_for_ready_children(1)` of `main` has returned, some process can make a
call. -/
theorem C13_all_ready_before_first_continue (D : DoubleOps α)
    (files : String → Option tree_node) (prog path : String) (t : tree_node)
    (hfile : files path = some t) (hwf : WellFormed t) (sched : List Nat) :
    (∀ pre post, ((start D files [prog, path]).run sched).K.trace =
        pre ++ (1, .wait_for_ready_children 1) :: post →
      (1, Act.wait_for_ready_children 1) ∉ pre → all_ready_once t pre) ∧
    (∀ pre e post, ((start D files [prog, path]).run sched).K.trace = pre ++ e :: post →
      e.2.is_cont = true → (∀ x ∈ pre, x.2.is_cont = false) →
      e = (1, .kill_SIGCONT 2) ∧ count_calls Act.is_ready pre = nodes t) ∧
    ((1, Act.wait_for_ready_children 1) ∉ ((start D files [prog, path]).run sched).K.trace →
      ∃ q, ((start D files [prog, path]).run (sched ++ [q])).K.trace ≠
        ((start D files [prog, path]).run sched).K.trace) := by
  have hph := Phase.after hwf sched _ (Phase.of_start D files prog path t hfile)
  refine ⟨?_, ?_, ?_⟩
  · intro pre post hsplit hpre
    have hin : (1, Act.wait_for_ready_children 1) ∈
        ((start D files [prog, path]).run sched).K.trace := by rw [hsplit]; simp
    cases hph with
    | start hn hs hr hf hc htr => rw [htr] at hin; simp at hin
    | loaded hn hs hr hc htr => rw [htr] at hin; simp at hin
    | piped pfd0 pfd1 hn hs hr hc htr => rw [htr] at hin; simp at hin
    | forked pids rdy pfd0 hsub hs hr hc hall htr hm hord =>
      have : Act.wait_for_ready_children 1 ∈
          calls_of 1 ((start D files [prog, path]).run sched).K.trace := by
        simp only [calls_of, List.mem_map, List.mem_filter]
        exact ⟨_, ⟨hin, by simp⟩, rfl⟩
      exact absurd rfl (hm _ this).2
    | waited pids pfd0 pre0 hsub hs hc hall htr hgood hfirst hord =>
      rw [htr] at hsplit
      obtain ⟨e, -, -⟩ := first_split_unique (· = (1, Act.wait_for_ready_children 1))
        pre0 pre [] post _ _ hsplit rfl rfl (fun y hy e => hfirst (e ▸ hy))
        (fun y hy e => hpre (e ▸ hy))
      rw [← e]; exact hgood
    | done pre0 post0 htr hgood hfirst hq hord =>
      rw [htr] at hsplit
      obtain ⟨e, -, -⟩ := first_split_unique (· = (1, Act.wait_for_ready_children 1))
        pre0 pre _ post _ _ hsplit rfl rfl (fun y hy e => hfirst (e ▸ hy))
        (fun y hy e => hpre (e ▸ hy))
      rw [← e]; exact hgood
  · intro pre e post hsplit he hpre
    have hin : e ∈ ((start D files [prog, path]).run sched).K.trace := by rw [hsplit]; simp
    cases hph with
    | start hn hs hr hf hc htr => rw [htr] at hin; simp at hin
    | loaded hn hs hr hc htr =>
      rw [htr] at hin; simp at hin; rw [hin] at he; simp [Act.is_cont] at he
    | piped pfd0 pfd1 hn hs hr hc htr =>
      rw [htr] at hin; simp at hin
      rcases hin with hin | hin <;> rw [hin] at he <;> simp [Act.is_cont] at he
    | forked pids rdy pfd0 hsub hs hr hc hall htr hm hord =>
      rw [(htr e hin).2] at he; cases he
    | waited pids pfd0 pre0 hsub hs hc hall htr hgood hfirst hord =>
      rw [htr] at hin
      rcases List.mem_append.1 hin with hin | hin
      · rw [no_call_of_count_zero _ _ hgood.2.1 e hin] at he; cases he
      · simp at hin; rw [hin] at he; simp [Act.is_cont] at he
    | done pre0 post0 htr hgood hfirst hq hord =>
      have htr1 : ((start D files [prog, path]).run sched).K.trace =
          (pre0 ++ [(1, .wait_for_ready_children 1)]) ++ (1, .kill_SIGCONT 2) :: post0 := by
        rw [htr]; simp
      rw [htr1] at hsplit
      have hno : ∀ y ∈ pre0 ++ [(1, Act.wait_for_ready_children 1)], ¬ y.2.is_cont = true := by
        intro y hy
        rcases List.mem_append.1 hy with hy | hy
        · rw [no_call_of_count_zero _ _ hgood.2.1 y hy]; simp
        · simp at hy; rw [hy]; simp [Act.is_cont]
      obtain ⟨e1, e2, -⟩ := first_split_unique (fun y => y.2.is_cont = true)
        _ pre _ post _ e hsplit rfl he hno (fun y hy => by simp [hpre y hy])
      refine ⟨e2.symm, ?_⟩
      rw [← e1, count_calls_append, hgood.1]
      simp [count_calls, Act.is_ready]
  · intro hw
    obtain ⟨q, hq⟩ := hph.next_turn hw
    refine ⟨q, ?_⟩
    rw [Sys.run, List.foldl_append]
    exact hq

theorem C13_witness :
    all_ready_once tree_sum
      ([(1, .get_tree_from_file "sum.tree" true), (1, .pipe 0 ⟨0, false⟩ ⟨0, true⟩),
        (1, .fork 2), (2, .fork 0), (2, .pipe 0 ⟨1, false⟩ ⟨1, true⟩), (2, .fork 3),
        (3, .fork 0), (3, .raise_SIGSTOP), (2, .fork 4), (4, .fork 0), (4, .raise_SIGSTOP),
        (2, .wait_for_ready_children 2), (2, .raise_SIGSTOP)] : List (Nat × Act Int)) :=
  (C13_all_ready_before_first_continue intOps (fun _ => some tree_sum) "ex2-pipes" "sum.tree"
    tree_sum rfl wf_sum [1, 1, 1, 2, 2, 3, 2, 4, 3, 2, 2, 1, 1]).1 _ [(1, .kill_SIGCONT 2)]
    (by rfl) (by decide)

end ex2_pipes

namespace Prog

theorem only_exits_never_returns : ∀ (P : Prog α), P.only_exits → P.never_returns
  | .exit _, _ => trivial
  | .ret, h => h
  | .abort, h => h.elim
  | .stderr _ k, h => only_exits_never_returns k h
  | .get_tree_from_file _ k, h => fun t => only_exits_never_returns (k t) (h t)
  | .pipe k, h => fun r a b => only_exits_never_returns (k r a b) (h r a b)
  | .fork k, h => fun r => only_exits_never_returns (k r) (h r)
  | .wait_for_ready_children _ k, h => only_exits_never_returns k h
  | .raise_SIGSTOP k, h => only_exits_never_returns k h
  | .kill_SIGCONT _ k, h => only_exits_never_returns k h
  | .wait k, h => fun p s => only_exits_never_returns (k p s) (h p s)
  | .close _ k, h => only_exits_never_returns k h
  | .read _ k, h => fun n v => only_exits_never_returns (k n v) (h n v)
  | .write _ _ k, h => fun n => only_exits_never_returns (k n) (h n)
  | .sleep _ k, h => only_exits_never_returns k h

/-- A run of a program whose paths all end in `exit` has ended with `exit`
or is inside a call, and neither `assert(0)` nor a return is among its
calls. -/
theorem only_exits_run : ∀ (P : Prog α), P.only_exits → ∀ rs : List (Resp α),
    (∀ a ∈ (P.run rs).1, a.leaves = false) ∧
      ((∃ s, (P.run rs).2 = .exited s) ∨ (P.run rs).2 = .pending)
  | .exit s, _, rs => by simp [Prog.run, Act.leaves]
  | .ret, h, _ => h.elim
  | .abort, h, _ => h.elim
  | .stderr m k, h, rs => by
    have ih := only_exits_run k h rs
    simp only [Prog.run]
    refine ⟨fun a ha => ?_, ih.2⟩
    rcases List.mem_cons.1 ha with e | e
    · subst e; rfl
    · exact ih.1 a e
  | .get_tree_from_file p k, h, rs => by
    cases rs with
    | nil => simp [Prog.run]
    | cons r rs =>
      simp only [Prog.run]
      cases ht : r.tree with
      | none => simp [Act.leaves]
      | some t =>
        have ih := only_exits_run (k t) (h t) rs
        refine ⟨fun a ha => ?_, ih.2⟩
        rcases List.mem_cons.1 ha with e | e
        · subst e; rfl
        · exact ih.1 a e
  | .pipe k, h, rs => by
    cases rs with
    | nil => simp [Prog.run]
    | cons r rs =>
      have ih := only_exits_run _ (h r.ret r.pfd0 r.pfd1) rs
      simp only [Prog.run]
      refine ⟨fun a ha => ?_, ih.2⟩
      rcases List.mem_cons.1 ha with e | e
      · subst e; rfl
      · exact ih.1 a e
  | .fork k, h, rs => by
    cases rs with
    | nil => simp [Prog.run]
    | cons r rs =>
      have ih := only_exits_run _ (h r.ret) rs
      simp only [Prog.run]
      refine ⟨fun a ha => ?_, ih.2⟩
      rcases List.mem_cons.1 ha with e | e
      · subst e; rfl
      · exact ih.1 a e
  | .wait_for_ready_children n k, h, rs => by
    cases rs with
    | nil => simp [Prog.run]
    | cons r rs =>
      have ih := only_exits_run k h rs
      simp only [Prog.run]
      refine ⟨fun a ha => ?_, ih.2⟩
      rcases List.mem_cons.1 ha with e | e
      · subst e; rfl
      · exact ih.1 a e
  | .raise_SIGSTOP k, h, rs => by
    cases rs with
    | nil => simp [Prog.run]
    | cons r rs =>
      have ih := only_exits_run k h rs
      simp only [Prog.run]
      refine ⟨fun a ha => ?_, ih.2⟩
      rcases List.mem_cons.1 ha with e | e
      · subst e; rfl
      · exact ih.1 a e
  | .kill_SIGCONT p k, h, rs => by
    cases rs with
    | nil => simp [Prog.run]
    | cons r rs =>
      have ih := only_exits_run k h rs
      simp only [Prog.run]
      refine ⟨fun a ha => ?_, ih.2⟩
      rcases List.mem_cons.1 ha with e | e
      · subst e; rfl
      · exact ih.1 a e
  | .wait k, h, rs => by
    cases rs with
    | nil => simp [Prog.run]
    | cons r rs =>
      have ih := only_exits_run _ (h r.ret r.status) rs
      simp only [Prog.run]
      refine ⟨fun a ha => ?_, ih.2⟩
      rcases List.mem_cons.1 ha with e | e
      · subst e; rfl
      · exact ih.1 a e
  | .close fd k, h, rs => by
    cases rs with
    | nil => simp [Prog.run]
    | cons r rs =>
      have ih := only_exits_run k h rs
      simp only [Prog.run]
      refine ⟨fun a ha => ?_, ih.2⟩
      rcases List.mem_cons.1 ha with e | e
      · subst e; rfl
      · exact ih.1 a e
  | .read fd k, h, rs => by
    cases rs with
    | nil => simp [Prog.run]
    | cons r rs =>
      have ih := only_exits_run _ (h r.ret r.val) rs
      simp only [Prog.run]
      refine ⟨fun a ha => ?_, ih.2⟩
      rcases List.mem_cons.1 ha with e | e
      · subst e; rfl
      · exact ih.1 a e
  | .write fd v k, h, rs => by
    cases rs with
    | nil => simp [Prog.run]
    | cons r rs =>
      have ih := only_exits_run _ (h r.ret) rs
      simp only [Prog.run]
      refine ⟨fun a ha => ?_, ih.2⟩
      rcases List.mem_cons.1 ha with e | e
      · subst e; rfl
      · exact ih.1 a e
  | .sleep n k, h, rs => by
    cases rs with
    | nil => simp [Prog.run]
    | cons r rs =>
      have ih := only_exits_run k h rs
      simp only [Prog.run]
      refine ⟨fun a ha => ?_, ih.2⟩
      rcases List.mem_cons.1 ha with e | e
      · subst e; rfl
      · exact ih.1 a e

theorem for_range_only_exits {σ : Type} (body : Nat → σ → (σ → Prog α) → Prog α)
    (done : σ → Prog α) (hi : Nat)
    (hbody : ∀ i s next, i < hi → (∀ s1, (next s1).only_exits) → (body i s next).only_exits)
    (hdone : ∀ s, (done s).only_exits) :
    ∀ (count i : Nat) (s : σ), i + count ≤ hi → (for_range count i s body done).only_exits
  | 0, _, s, _ => hdone s
  | n + 1, i, s, h =>
    hbody i s _ (by omega) fun s1 =>
      for_range_only_exits body done hi hbody hdone n (i + 1) s1 (by omega)

end Prog

namespace ex2_pipes

theorem send_only_exits (D : DoubleOps α) (fd : Fd) (name : String) :
    (send D fd name).only_exits := by
  intro n
  by_cases h : n = sizeof_double <;> simp [h, Prog.only_exits]

theorem collect_only_exits (D : DoubleOps α) (fd : Fd) (name : String) (nr : Nat)
    (pfd0 pfd1 : Fd) (pid_child : Nat → Int) :
    (collect D fd name nr pfd0 pfd1 pid_child).only_exits := by
  unfold collect
  apply Prog.for_range_only_exits _ _ nr
  · intro i s next _ hnext p st n res
    by_cases h : n = sizeof_double
    · simp only [h, ne_eq, not_true_eq_false, if_false]; exact hnext _
    · simp [h, Prog.only_exits]
  · intro s n
    by_cases h : n = sizeof_double <;> simp [h, Prog.only_exits]
  · omega

mutual
theorem child_only_exits (D : DoubleOps α) :
    ∀ (t : tree_node) (fd : Fd), (child D fd t).only_exits
  | .mk name children, fd => by
    unfold child
    by_cases hop : name = "+" ∨ name = "*"
    · simp only [hop, if_true]
      by_cases hlen : children.length = 2
      · simp only [hlen, ne_eq, not_true_eq_false, if_false]
        intro r pfd0 pfd1
        by_cases hr : r < 0
        · simp [hr, Prog.only_exits]
        · simp only [hr, if_false]
          apply Prog.for_range_only_exits _ _ 2
          · intro i s next hi hnext p
            by_cases hp : p < 0
            · simp [hp, Prog.only_exits]
            · simp only [hp, if_false]
              by_cases h0 : p = 0
              · simp only [h0, if_true]
                have hc := child_at_only_exits D children i pfd1 (by omega)
                rw [Prog.seq_eq_self_of_never_returns _ _ (Prog.only_exits_never_returns _ hc)]
                exact hc
              · simp only [h0, if_false, Prog.seq]
                exact hnext _
          · intro s
            exact collect_only_exits D fd name _ pfd0 pfd1 s
          · omega
      · simp [hlen, Prog.only_exits]
    · simp only [hop, if_false]
      by_cases hlen : children.length = 0
      · simp only [hlen, ne_eq, not_true_eq_false, if_false]
        exact send_only_exits D fd name
      · simp [hlen, Prog.only_exits]
theorem child_at_only_exits (D : DoubleOps α) :
    ∀ (cs : List tree_node) (i : Nat) (fd : Fd), i < cs.length →
      (child_at D fd cs i).only_exits
  | [], _, _, h => by simp at h
  | c :: _, 0, fd, _ => by rw [child_at]; exact child_only_exits D c fd
  | _ :: cs, i + 1, fd, h => by
    rw [child_at]; exact child_at_only_exits D cs i fd (by simpa using h)
end

theorem main_only_exits (D : DoubleOps α) (argv : List String) : (main D argv).only_exits := by
  unfold main
  by_cases hlen : argv.length = 2
  · simp only [hlen, ne_eq, not_true_eq_false, if_false]
    intro root r pfd0 pfd1
    by_cases hr : r < 0
    · simp [hr, Prog.only_exits]
    · simp only [hr, if_false]
      intro p
      by_cases hp : p < 0
      · simp [hp, Prog.only_exits]
      · simp only [hp, if_false]
        by_cases h0 : p = 0
        · simp only [h0, if_true]
          have hc := child_only_exits D root pfd1
          have hn := Prog.only_exits_never_returns _ hc
          rw [Prog.seq_eq_self_of_never_returns _ _ hn, Prog.seq_eq_self_of_never_returns _ _ hn]
          exact hc
        · simp only [h0, if_false, Prog.seq]
          intro p1 st n v
          by_cases h : n = sizeof_double <;> simp [h, Prog.only_exits]
  · simp [hlen, Prog.only_exits]

/-- Claim C26. `child` of `ex2-pipes` never returns: for every tree node,
valid or malformed, Leaf or Internal, every path through `child` ends in a
call of `exit`; what follows a call of `child` is never run, in `main` (the
`assert(0)`) and in the loop of a parent whose `fork` returned 0; and in no
run of `main` or of `child`, whatever the calls return, is the failed
assertion or a return to the caller among the calls. -/
theorem C26_child_never_returns (D : DoubleOps α) :
    (∀ (t : tree_node) (fd : Fd), (child D fd t).only_exits) ∧
    (∀ (t : tree_node) (fd : Fd) (Q : Prog α), Prog.seq (child D fd t) Q = child D fd t) ∧
    (∀ (cs : List tree_node) (i : Nat) (fd : Fd) (Q : Prog α), i < cs.length →
      Prog.seq (if (0 : Int) = 0 then child_at D fd cs i else .ret) Q = child_at D fd cs i) ∧
    (∀ (t : tree_node) (fd : Fd) (rs : List (Resp α)),
      (∀ a ∈ ((child D fd t).run rs).1, a.leaves = false) ∧
        ((∃ s, ((child D fd t).run rs).2 = .exited s) ∨
          ((child D fd t).run rs).2 = .pending)) ∧
    (∀ (argv : List String) (rs : List (Resp α)),
      (∀ a ∈ ((main D argv).run rs).1, a.leaves = false) ∧
        ((∃ s, ((main D argv).run rs).2 = .exited s) ∨ ((main D argv).run rs).2 = .pending)) :=
  ⟨fun t fd => child_only_exits D t fd,
    fun t fd Q => Prog.seq_eq_self_of_never_returns _ _
      (Prog.only_exits_never_returns _ (child_only_exits D t fd)),
    fun cs i fd Q hi => by
      simp only [if_true]
      exact Prog.seq_eq_self_of_never_returns _ _
        (Prog.only_exits_never_returns _ (child_at_only_exits D cs i fd hi)),
    fun t fd rs => Prog.only_exits_run _ (child_only_exits D t fd) rs,
    fun argv rs => Prog.only_exits_run _ (main_only_exits D argv) rs⟩

theorem C26_witness :
    (child intOps ⟨0, true⟩ tree_bad).only_exits ∧
    Prog.seq (if (0 : Int) = 0 then child_at intOps ⟨1, true⟩ tree_sum.children 1 else .ret)
      (.abort : Prog Int) = child_at intOps ⟨1, true⟩ tree_sum.children 1 :=
  ⟨(C26_child_never_returns intOps).1 tree_bad ⟨0, true⟩,
    (C26_child_never_returns intOps).2.2.1 tree_sum.children 1 ⟨1, true⟩ .abort (by decide)⟩

end ex2_pipes

namespace ex1

/-- A `write` that the kernel fails, or on a descriptor not open for
writing. -/
theorem write_fails (w : World) (fd : Int) (buf : List Nat) (count : Nat)
    (h : w.answers w.calls < 0 ∨ ∀ f, lookup w fd = some f → f.wr = false) :
    write w fd buf count = ({ w with calls := w.calls + 1 }, -1) := by
  unfold write
  cases hl : lookup w fd with
  | none => rfl
  | some f =>
    rcases h with h | h
    · simp [h]
    · simp [h f hl]

/-- The effect of one `write` of `count` bytes at the offset of the
descriptor. -/
theorem write_at (w : World) (c : Nat) (f : OpenFile) (buf : List Nat) (count k : Nat)
    (hfd : w.fds c = some f) (hwr : f.wr = true) (hans : 0 < w.answers w.calls)
    (hcount : count ≤ buf.length) (hk : k = min (w.answers w.calls).toNat count) :
    (write w (c : Int) buf count).2 = (k : Int) ∧
      (write w (c : Int) buf count).1.files f.path =
        some (((w.files f.path).getD []).take f.pos ++ buf.take k ++
          ((w.files f.path).getD []).drop (f.pos + k)) ∧
      (∀ p, p ≠ f.path → (write w (c : Int) buf count).1.files p = w.files p) ∧
      (write w (c : Int) buf count).1.fds c = some { f with pos := f.pos + k } ∧
      (∀ i, i ≠ c → (write w (c : Int) buf count).1.fds i = w.fds i) ∧
      (write w (c : Int) buf count).1.answers = w.answers ∧
      (write w (c : Int) buf count).1.stdout = w.stdout ∧
      (write w (c : Int) buf count).1.stderr = w.stderr := by
  have hneg : ¬ w.answers w.calls < 0 := by omega
  have hk2 : min (w.answers w.calls).toNat (min count buf.length) = k := by
    rw [Nat.min_eq_left hcount, hk]
  have e : write w (c : Int) buf count =
      ({ w with
          calls := w.calls + 1
          files := fun p =>
            if p = f.path then
              some (((w.files f.path).getD []).take f.pos ++ buf.take k ++
                ((w.files f.path).getD []).drop (f.pos + k))
            else w.files p
          fds := fun i => if i = c then some { f with pos := f.pos + k } else w.fds i },
        (k : Int)) := by
    simp only [write, lookup_natCast, hfd, hneg, hwr, Bool.true_eq_false, or_self, if_false,
      hk2, Int.toNat_ofNat]
  rw [e]
  exact ⟨rfl, by simp, fun p hp => by simp [hp], by simp, fun i hi => by simp [hi], rfl, rfl,
    rfl⟩

theorem splice (old data : List Nat) (pos idx k : Nat) (hpos : pos ≤ old.length)
    (hidx : idx + k ≤ data.length) :
    (old.take pos ++ data.take idx ++ old.drop (pos + idx)).take (pos + idx) ++
        (data.drop idx).take k ++
        (old.take pos ++ data.take idx ++ old.drop (pos + idx)).drop (pos + idx + k) =
      old.take pos ++ data.take (idx + k) ++ old.drop (pos + (idx + k)) := by
  have hl : (old.take pos ++ data.take idx).length = pos + idx := by
    simp [List.length_take]; omega
  have e1 : (old.take pos ++ data.take idx ++ old.drop (pos + idx)).take (pos + idx) =
      old.take pos ++ data.take idx := by
    rw [← hl]; exact List.take_left' rfl
  have e2 : (old.take pos ++ data.take idx ++ old.drop (pos + idx)).drop (pos + idx + k) =
      old.drop (pos + (idx + k)) := by
    rw [← hl, List.drop_append, List.drop_drop, hl]
    congr 1; omega
  rw [e1, e2, List.take_add]
  simp [List.append_assoc]

/-- Every `write` is one more call to the kernel, and leaves the results the
kernel will give untouched. -/
theorem write_calls (w : World) (fd : Int) (buf : List Nat) (count : Nat) :
    (write w fd buf count).1.calls = w.calls + 1 ∧
      (write w fd buf count).1.answers = w.answers := by
  unfold write
  cases lookup w fd with
  | none => exact ⟨rfl, rfl⟩
  | some f =>
    dsimp only
    split <;> exact ⟨rfl, rfl⟩

/-- The loop of `doWrite` from `idx` on: it ends, with `exit(1)` after a
`write` that the kernel failed, or with the rest of the bytes written. -/
theorem doWrite_loop_ends (data tail : List Nat) (c : Nat) (f0 : OpenFile) (old : List Nat)
    (w0 : World) (hlen : data.length < 2 ^ 63) (hwr : f0.wr = true)
    (hpos : f0.pos ≤ old.length) :
    ∀ (n : Nat) (w : World) (idx : Nat),
      w.fds c = some { f0 with pos := f0.pos + idx } →
      (w.files f0.path).getD [] =
        old.take f0.pos ++ data.take idx ++ old.drop (f0.pos + idx) →
      (∀ p, p ≠ f0.path → w.files p = w0.files p) → (∀ i, i ≠ c → w.fds i = w0.fds i) →
      w.stdout = w0.stdout → w.stderr = w0.stderr →
      (∀ i, w.answers i ≠ 0) → idx < data.length → data.length - idx ≤ n →
      (∃ w1 j, doWrite_loop n w (c : Int) (data ++ tail) (data.length : Int) idx =
          some (.exit w1 1) ∧ w1.stdout = w0.stdout ∧ w1.stderr = w0.stderr ++ ["write"] ∧
          w.calls ≤ j ∧ w.answers j < 0) ∨
      (∃ w1, doWrite_loop n w (c : Int) (data ++ tail) (data.length : Int) idx =
          some (.ok w1 ()) ∧
        w1.files f0.path =
          some (old.take f0.pos ++ data ++ old.drop (f0.pos + data.length)) ∧
        (∀ p, p ≠ f0.path → w1.files p = w0.files p) ∧
        w1.fds c = some { f0 with pos := f0.pos + data.length } ∧
        (∀ i, i ≠ c → w1.fds i = w0.fds i) ∧
        w1.stdout = w0.stdout ∧ w1.stderr = w0.stderr) := by
  intro n
  induction n with
  | zero => intro w idx _ _ _ _ _ _ _ h1 h2; omega
  | succ n ih =>
    intro w idx hfd hfile hothers hfds hout herr hans hidx hn
    have hL : to_size_t (data.length : Int) = data.length :=
      to_size_t_natCast _ (by omega)
    have hcnt : (data.length + 2 ^ 64 - idx) % 2 ^ 64 = data.length - idx := by omega
    by_cases hneg : w.answers w.calls < 0
    · left
      have e := write_fails w (c : Int) ((data ++ tail).drop idx) (data.length - idx)
        (Or.inl hneg)
      refine ⟨close (perror { w with calls := w.calls + 1 } "write") (c : Int), w.calls,
        by simp only [doWrite_loop, hL, hcnt, e, if_true], ?_, ?_, le_refl _, hneg⟩
      · unfold close perror; split <;> exact hout
      · unfold close perror; split <;> simp [herr]
    · have hpos1 : 0 < w.answers w.calls := by
        have := hans w.calls; omega
      obtain ⟨k, hk⟩ : ∃ k, k = min (w.answers w.calls).toNat (data.length - idx) := ⟨_, rfl⟩
      have hk1 : 1 ≤ k := by rw [hk]; omega
      have hk2 : idx + k ≤ data.length := by rw [hk]; omega
      obtain ⟨e1, e2, e3, e4, e5, e6, e7, e8⟩ :=
        write_at w c { f0 with pos := f0.pos + idx } ((data ++ tail).drop idx)
          (data.length - idx) k hfd hwr hpos1 (by simp; omega) hk
      obtain ⟨e9, _⟩ := write_calls w (c : Int) ((data ++ tail).drop idx) (data.length - idx)
      rw [take_drop_append data tail idx k hk2] at e2
      dsimp only at e2 e3 e4
      rw [hfile, splice old data f0.pos idx k hpos hk2] at e2
      have hne : ¬ ((k : Int) = -1) := by omega
      have hidx1 : (idx + to_size_t (k : Int)) % 2 ^ 64 = idx + k := by
        rw [to_size_t_natCast _ (by omega)]; omega
      simp only [doWrite_loop, hL, hcnt, e1, hne, if_false, hidx1]
      by_cases hlt : idx + k < data.length
      · simp only [hlt, if_true]
        rcases ih _ (idx + k) (by rw [e4, Nat.add_assoc]) (by rw [e2]; rfl)
          (fun p hp => by rw [e3 p hp, hothers p hp]) (fun i hi => by rw [e5 i hi, hfds i hi])
          (by rw [e7, hout]) (by rw [e8, herr]) (by intro i; rw [e6]; exact hans i) hlt
          (by omega) with ⟨w1, j, h1, h2, h3, h4, h5⟩ | h
        · left
          rw [e9] at h4
          rw [e6] at h5
          exact ⟨w1, j, h1, h2, h3, by omega, h5⟩
        · exact Or.inr h
      · simp only [hlt, if_false]
        right
        have hend : idx + k = data.length := by omega
        refine ⟨_, rfl, ?_, fun p hp => by rw [e3 p hp, hothers p hp], ?_,
          fun i hi => by rw [e5 i hi, hfds i hi], by rw [e7, hout], by rw [e8, herr]⟩
        · rw [e2, hend, List.take_length]
        · rw [e4, Nat.add_assoc, hend]

/-- Claim C25. `doWrite(fd, buff, len)` for every buffer and every `len`
from 0 up to the range of `int`, when no `write` transfers 0 bytes of a
positive count: the function ends (with enough fuel for `len + 1` turns of
its loop).  It ends in `exit(1)` after `perror("write")` only when a `write`
returned -1: the descriptor is not open for writing, or the kernel failed
one of the calls.  When the descriptor is open for writing and the kernel
fails no call, it returns with exactly the bytes `buff[0..len)` written
through `fd` at its offset, in order and each once, however the kernel
splits them into partial writes; and when the first `write` returns -1 it
exits with status 1. -/
theorem C25_doWrite_writes_all (w : World) (fd : Int) (data tail : List Nat)
    (hlen : data.length < 2 ^ 31)
    (hpos : ∀ f, lookup w fd = some f → f.pos ≤ ((w.files f.path).getD []).length)
    (hans : ∀ i, w.answers i ≠ 0) (n : Nat) (hn : data.length + 1 ≤ n) :
    ((∃ w1, doWrite n w fd (data ++ tail) (data.length : Int) = some (.exit w1 1) ∧
        w1.stdout = w.stdout ∧ w1.stderr = w.stderr ++ ["write"] ∧
        ((∀ f, lookup w fd = some f → f.wr = false) ∨ ∃ j, w.calls ≤ j ∧ w.answers j < 0)) ∨
      (∃ w1 f, lookup w fd = some f ∧ f.wr = true ∧
        doWrite n w fd (data ++ tail) (data.length : Int) = some (.ok w1 ()) ∧
        Written w w1 fd.toNat f data)) ∧
    ((∃ f, lookup w fd = some f ∧ f.wr = true) → (∀ j, w.calls ≤ j → 0 < w.answers j) →
      ∃ w1 f, lookup w fd = some f ∧ f.wr = true ∧
        doWrite n w fd (data ++ tail) (data.length : Int) = some (.ok w1 ()) ∧
        Written w w1 fd.toNat f data) ∧
    ((write w fd (data ++ tail) data.length).2 = -1 →
      ∃ w1, doWrite n w fd (data ++ tail) (data.length : Int) = some (.exit w1 1) ∧
        w1.stdout = w.stdout ∧ w1.stderr = w.stderr ++ ["write"]) := by
  obtain ⟨m, rfl⟩ : ∃ m, n = m + 1 := ⟨n - 1, by omega⟩
  have hL : to_size_t (data.length : Int) = data.length :=
    to_size_t_natCast _ (by omega)
  have hcnt : (data.length + 2 ^ 64 - 0) % 2 ^ 64 = data.length := by omega
  have hfirst : (write w fd (data ++ tail) data.length).2 = -1 →
      ∃ w1, doWrite (m + 1) w fd (data ++ tail) (data.length : Int) = some (.exit w1 1) ∧
        w1.stdout = w.stdout ∧ w1.stderr = w.stderr ++ ["write"] := by
    intro h
    have e1 : (write w fd (data ++ tail) data.length).1.stdout = w.stdout ∧
        (write w fd (data ++ tail) data.length).1.stderr = w.stderr := by
      unfold write
      cases lookup w fd with
      | none => exact ⟨rfl, rfl⟩
      | some f => dsimp only; split <;> exact ⟨rfl, rfl⟩
    refine ⟨close (perror (write w fd (data ++ tail) data.length).1 "write") fd,
      by simp only [doWrite, doWrite_loop, hL, hcnt, List.drop_zero, h, if_true], ?_, ?_⟩
    · unfold close perror; split <;> exact e1.1
    · unfold close perror; split <;> simp [e1.2]
  have hexit : ∀ (h : w.answers w.calls < 0 ∨ ∀ f, lookup w fd = some f → f.wr = false),
      ∃ w1, doWrite (m + 1) w fd (data ++ tail) (data.length : Int) = some (.exit w1 1) ∧
        w1.stdout = w.stdout ∧ w1.stderr = w.stderr ++ ["write"] := by
    intro h
    have e := write_fails w fd (data ++ tail) data.length h
    exact hfirst (by rw [e])
  have hmain : (∃ w1, doWrite (m + 1) w fd (data ++ tail) (data.length : Int) =
        some (.exit w1 1) ∧
        w1.stdout = w.stdout ∧ w1.stderr = w.stderr ++ ["write"] ∧
        ((∀ f, lookup w fd = some f → f.wr = false) ∨ ∃ j, w.calls ≤ j ∧ w.answers j < 0)) ∨
      (∃ w1 f, lookup w fd = some f ∧ f.wr = true ∧
        doWrite (m + 1) w fd (data ++ tail) (data.length : Int) = some (.ok w1 ()) ∧
        Written w w1 fd.toNat f data) := by
    cases hl : lookup w fd with
    | none =>
      have hnw : ∀ f, lookup w fd = some f → f.wr = false := fun f hf => by
        rw [hl] at hf; cases hf
      obtain ⟨w1, h1, h2, h3⟩ := hexit (Or.inr hnw)
      exact Or.inl ⟨w1, h1, h2, h3, Or.inl fun f hf => by cases hf⟩
    | some f =>
      by_cases hwr : f.wr = true
      swap
      · have hnw : ∀ g, lookup w fd = some g → g.wr = false := fun g hg => by
          rw [hl] at hg; cases hg; simpa using hwr
        obtain ⟨w1, h1, h2, h3⟩ := hexit (Or.inr hnw)
        exact Or.inl ⟨w1, h1, h2, h3, Or.inl fun g hg => by cases hg; simpa using hwr⟩
      have hfd0 : ¬ fd < 0 := by
        intro h; simp [lookup, h] at hl
      obtain ⟨c, rfl⟩ : ∃ c : Nat, fd = (c : Int) := ⟨fd.toNat, by omega⟩
      have hfd : w.fds c = some f := by rw [← lookup_natCast]; exact hl
      have hp := hpos f hl
      by_cases hneg : w.answers w.calls < 0
      · obtain ⟨w1, h1, h2, h3⟩ := hexit (Or.inl hneg)
        exact Or.inl ⟨w1, h1, h2, h3, Or.inr ⟨w.calls, le_refl _, hneg⟩⟩
      have hpos1 : 0 < w.answers w.calls := by
        have := hans w.calls; omega
      by_cases hd : data.length = 0
      · right
        have hnil : data = [] := List.length_eq_zero.1 hd
        subst hnil
        obtain ⟨e1, e2, e3, e4, e5, e6, e7, e8⟩ :=
          write_at w c f (([] ++ tail).drop 0) 0 0 hfd hwr hpos1 (by simp) (by simp)
        refine ⟨(write w (c : Int) (([] ++ tail).drop 0) 0).1, f, rfl, hwr, ?_, ?_⟩
        · have e1b : (write w (c : Int) tail 0).2 = 0 := by simpa using e1
          simp only [doWrite, doWrite_loop, hL, hcnt, List.length_nil]
          simp [to_size_t, e1b]
        · exact ⟨by simpa using e2, e3, by simpa using e4, e5, e7, e8⟩
      · rcases doWrite_loop_ends data tail c f ((w.files f.path).getD []) w (by omega) hwr hp
            (m + 1) w 0 hfd (by simp) (fun _ _ => rfl) (fun _ _ => rfl) rfl rfl hans
            (by omega) (by omega) with
          ⟨w1, j, h1, h2, h3, h4, h5⟩ | ⟨w1, h1, h2, h3, h4, h5, h6, h7⟩
        · exact Or.inl ⟨w1, h1, h2, h3, Or.inr ⟨j, h4, h5⟩⟩
        · exact Or.inr ⟨w1, f, rfl, hwr, h1, h2, h3, by simpa using h4, h5, h6, h7⟩
  refine ⟨hmain, ?_, hfirst⟩
  intro ⟨f, hf, hwr⟩ hall
  rcases hmain with ⟨w1, _, _, _, hc⟩ | h
  · exfalso
    rcases hc with hc | ⟨j, hj, hj2⟩
    · have := hc f hf
      rw [hwr] at this
      cases this
    · have := hall j hj
      omega
  · exact h

theorem C25_witness :
    (∀ i, (open_creat (small_world (fun _ => true) 2) "o").1.answers i ≠ 0) ∧
    ∃ w1 f, lookup (open_creat (small_world (fun _ => true) 2) "o").1 3 = some f ∧
      f.wr = true ∧
      doWrite 4 (open_creat (small_world (fun _ => true) 2) "o").1 3 ([7, 8, 9] ++ [0])
        (([7, 8, 9] : List Nat).length : Int) = some (.ok w1 ()) ∧
      Written (open_creat (small_world (fun _ => true) 2) "o").1 w1 (3 : Int).toNat f
        [7, 8, 9] :=
  ⟨fun _ => show (2 : Int) ≠ 0 by decide,
    (C25_doWrite_writes_all (open_creat (small_world (fun _ => true) 2) "o").1 3 [7, 8, 9] [0]
      (by decide)
      (fun f hf => by
        have : f = ⟨"o", 0, true⟩ := by
          simp [lookup, open_creat, small_world] at hf
          exact hf.symm
        subst this
        exact Nat.zero_le _)
      (fun _ => show (2 : Int) ≠ 0 by decide) 4 (by decide)).2.1
      ⟨⟨"o", 0, true⟩, by simp [lookup, open_creat, small_world], rfl⟩
      (fun _ _ => show (0 : Int) < 2 by decide)⟩

end ex1

/-- Claim C23, the code at the failing input. The four Mandelbrot programs
test `argc != 2`, and `argc` counts the program name: with exactly two
arguments (`thread_count` and `array_size`, as the usage text asks) `main`
writes the usage text and exits with status 1, and so it does for every
argument count other than one; with exactly one argument it goes on to read
the count from it. -/
theorem C23_two_arguments_rejected (strtol : String → Int × Nat) (argv : List String) :
    (argv.length ≠ 2 →
      ex3_condition.main strtol argv = .exits (ex3_condition.usage (argv.getD 0 "")) 1 ∧
      ex3_semaphores.main strtol argv = .exits (ex3_semaphores.usage (argv.getD 0 "")) 1 ∧
      ex4_with_sema.main strtol argv = .exits (ex4_with_sema.usage (argv.getD 0 "")) 1 ∧
      ex4_without_sema.main strtol argv =
        .exits (ex4_without_sema.usage (argv.getD 0 "")) 1) ∧
    (∀ prog a b : String,
      ex3_condition.main strtol [prog, a, b] = .exits (ex3_condition.usage prog) 1 ∧
      ex3_semaphores.main strtol [prog, a, b] = .exits (ex3_semaphores.usage prog) 1 ∧
      ex4_with_sema.main strtol [prog, a, b] = .exits (ex4_with_sema.usage prog) 1 ∧
      ex4_without_sema.main strtol [prog, a, b] = .exits (ex4_without_sema.usage prog) 1) ∧
    (∀ prog : String,
      ex3_condition.main strtol_four [prog, "4"] = .proceeds 4 ∧
      ex3_semaphores.main strtol_four [prog, "4"] = .proceeds 4 ∧
      ex4_with_sema.main strtol_four [prog, "4"] = .proceeds 4 ∧
      ex4_without_sema.main strtol_four [prog, "4"] = .proceeds 4) := by
  refine ⟨fun h => ?_, fun prog a b => ?_, fun prog => ?_⟩
  · simp [ex3_condition.main, ex3_semaphores.main, ex4_with_sema.main, ex4_without_sema.main, h]
  · simp [ex3_condition.main, ex3_semaphores.main, ex4_with_sema.main, ex4_without_sema.main]
  · refine ⟨?_, ?_, ?_, ?_⟩ <;> rfl

theorem C23_witness :
    ex3_condition.main strtol_four ["mandel", "4", "100"] =
      .exits (ex3_condition.usage "mandel") 1 :=
  ((C23_two_arguments_rejected strtol_four ["mandel", "4", "100"]).1 (by decide)).1

theorem pages_fit (P numbytes : Nat) (hn : numbytes < 2 ^ 32) (hP : 3 ≤ P) :
    (numbytes - 1) / P + 1 < 2 ^ 31 := by
  have h1 : (numbytes - 1) / P ≤ (numbytes - 1) / 3 := Nat.div_le_div_left hP (by omega)
  omega

theorem pages_value (P numbytes : Nat) (h1 : 1 ≤ numbytes) (hn : numbytes < 2 ^ 32)
    (hfit : (numbytes - 1) / P + 1 < 2 ^ 31) :
    ex3_condition.wrap32 ((((numbytes + 2 ^ 32 - 1) % 2 ^ 32 : Nat) : Int).tdiv (P : Int) + 1) =
      (((numbytes - 1) / P + 1 : Nat) : Int) := by
  have e1 : (numbytes + 2 ^ 32 - 1) % 2 ^ 32 = numbytes - 1 := by omega
  have e2 : ((numbytes - 1 : Nat) : Int).tdiv (P : Int) = (((numbytes - 1) / P : Nat) : Int) := by
    rw [Int.tdiv_eq_ediv (Int.ofNat_nonneg _) (Int.ofNat_nonneg _)]
    exact (Int.natCast_div _ _).symm
  have e3 : ((((numbytes - 1) / P : Nat) : Int) + 1) = (((numbytes - 1) / P + 1 : Nat) : Int) := by
    push_cast; rfl
  rw [e1, e2, e3]
  exact ex3_condition.wrap32_small _ (Int.ofNat_nonneg _) (by exact_mod_cast hfit)

theorem pages_bounds (P numbytes : Nat) (h1 : 1 ≤ numbytes) (hP : 1 ≤ P) :
    ((numbytes - 1) / P + 1 - 1) * P < numbytes ∧ numbytes ≤ ((numbytes - 1) / P + 1) * P ∧
      ∀ m, numbytes ≤ m * P → ((numbytes - 1) / P + 1) * P ≤ m * P := by
  have a1 : (numbytes - 1) / P * P ≤ numbytes - 1 := Nat.div_mul_le_self _ _
  have a2 : numbytes - 1 < ((numbytes - 1) / P + 1) * P := by
    have := Nat.lt_div_mul_add (a := numbytes - 1) (b := P) (by omega)
    rw [Nat.add_mul, Nat.one_mul]
    linarith [Nat.div_add_mod (numbytes - 1) P, Nat.mod_lt (numbytes - 1) (show 0 < P by omega),
      Nat.mul_comm P ((numbytes - 1) / P)]
  refine ⟨by simp; omega, by omega, fun m hm => ?_⟩
  apply Nat.mul_le_mul_right
  have : (numbytes - 1) / P < m := (Nat.div_lt_iff_lt_mul (by omega)).2 (by omega)
  omega

theorem to_size_t_pages (P q : Nat) (h : q * P < 2 ^ 64) :
    ex1.to_size_t (((q : Nat) : Int) * (P : Int)) = q * P := by
  have : ((q : Int) * (P : Int)) = ((q * P : Nat) : Int) := by push_cast; rfl
  rw [this]
  exact ex1.to_size_t_natCast _ h

/-- Claim C22, counterexample. With a page size of 1 and `numbytes = 2^32 -
1` the page count does not fit the `int` it is stored in: `pages` is -1, not
`2^32 - 1`, and the length passed to `mmap` and to `munmap` is `2^64 - 1`. -/
theorem C22_counterexample :
    ex4_with_sema.pages 1 4294967295 = -1 ∧
    ex4_without_sema.pages 1 4294967295 = -1 ∧
    ex4_with_sema.create_shared_memory_area 1 (fun _ => none) 4294967295 =
      .exit [.mmap 18446744073709551615] "mmap" 1 ∧
    ex4_with_sema.destroy_shared_memory_area 1 (fun _ _ => 0) 0 4294967295 =
      .ok [.munmap 0 18446744073709551615] () := by
  refine ⟨by decide, by decide, by decide, by decide⟩

/-- Claim C22, amended. For every `numbytes` from 1 up to the range of
`unsigned int` and every page size `P >= 1` (a `long`) for which the page count is in
the range of `int` (every `P >= 3` is such), `create_shared_memory_area` and
`destroy_shared_memory_area` of both programs compute the same page count
`pages = ceil(numbytes / P)`: `(pages - 1) * P < numbytes <= pages * P`, the
length `pages * P` passed to `mmap` is the least multiple of `P` that holds
`numbytes`, and the same length is passed to `munmap`.  For `numbytes == 0`
both functions exit with status 1 without a call of `mmap` or `munmap`. -/
theorem C22_page_count (P numbytes : Nat) (hP : 1 ≤ P) (h1 : 1 ≤ numbytes)
    (hn : numbytes < 2 ^ 32) (hfit : 3 ≤ P ∨ (numbytes - 1) / P + 1 < 2 ^ 31)
    (hlong : P < 2 ^ 63)
    (mmap : Nat → Option Nat) (munmap : Nat → Nat → Int) (addr : Nat) :
    ex4_with_sema.pages P numbytes = (((numbytes - 1) / P + 1 : Nat) : Int) ∧
    ex4_without_sema.pages P numbytes = (((numbytes - 1) / P + 1 : Nat) : Int) ∧
    ((numbytes - 1) / P + 1 - 1) * P < numbytes ∧
    numbytes ≤ ((numbytes - 1) / P + 1) * P ∧
    (∀ m, numbytes ≤ m * P → ((numbytes - 1) / P + 1) * P ≤ m * P) ∧
    ex4_with_sema.create_shared_memory_area P mmap numbytes =
      (match mmap (((numbytes - 1) / P + 1) * P) with
        | none => .exit [.mmap (((numbytes - 1) / P + 1) * P)] "mmap" 1
        | some a => .ok [.mmap (((numbytes - 1) / P + 1) * P)] a) ∧
    ex4_without_sema.create_shared_memory_area P mmap numbytes =
      (match mmap (((numbytes - 1) / P + 1) * P) with
        | none => .exit [.mmap (((numbytes - 1) / P + 1) * P)] "mmap" 1
        | some a => .ok [.mmap (((numbytes - 1) / P + 1) * P)] a) ∧
    ex4_with_sema.destroy_shared_memory_area P munmap addr numbytes =
      (if munmap addr (((numbytes - 1) / P + 1) * P) = -1 then
        .exit [.munmap addr (((numbytes - 1) / P + 1) * P)]
          "destroy_shared_memory_area: munmap failed" 1
      else .ok [.munmap addr (((numbytes - 1) / P + 1) * P)] ()) ∧
    ex4_without_sema.destroy_shared_memory_area P munmap addr numbytes =
      (if munmap addr (((numbytes - 1) / P + 1) * P) = -1 then
        .exit [.munmap addr (((numbytes - 1) / P + 1) * P)]
          "destroy_shared_memory_area: munmap failed" 1
      else .ok [.munmap addr (((numbytes - 1) / P + 1) * P)] ()) ∧
    (∃ m, ex4_with_sema.create_shared_memory_area P mmap 0 = .exit [] m 1) ∧
    (∃ m, ex4_with_sema.destroy_shared_memory_area P munmap addr 0 = .exit [] m 1) ∧
    (∃ m, ex4_without_sema.create_shared_memory_area P mmap 0 = .exit [] m 1) ∧
    (∃ m, ex4_without_sema.destroy_shared_memory_area P munmap addr 0 = .exit [] m 1) := by
  have hfit1 : (numbytes - 1) / P + 1 < 2 ^ 31 := by
    rcases hfit with h | h
    · exact pages_fit P numbytes hn h
    · exact h
  have hp := pages_value P numbytes h1 hn hfit1
  have hb := pages_bounds P numbytes h1 hP
  have hne : numbytes ≠ 0 := by omega
  have hlen : ((numbytes - 1) / P + 1) * P < 2 ^ 64 := by
    have := Nat.div_mul_le_self (numbytes - 1) P
    rw [Nat.add_mul]
    omega
  have hsz := to_size_t_pages P ((numbytes - 1) / P + 1) hlen
  refine ⟨hp, hp, hb.1, hb.2.1, hb.2.2, ?_, ?_, ?_, ?_, ⟨_, rfl⟩, ⟨_, rfl⟩, ⟨_, rfl⟩, ⟨_, rfl⟩⟩
  · simp only [ex4_with_sema.create_shared_memory_area, hne, if_false, ex4_with_sema.pages, hp,
      hsz]
  · simp only [ex4_without_sema.create_shared_memory_area, hne, if_false,
      ex4_without_sema.pages, hp, hsz]
  · simp only [ex4_with_sema.destroy_shared_memory_area, hne, if_false, ex4_with_sema.pages,
      hp, hsz]
  · simp only [ex4_without_sema.destroy_shared_memory_area, hne, if_false,
      ex4_without_sema.pages, hp, hsz]

theorem C22_witness :
    ex4_with_sema.pages (4096 : Nat) 18000 = (((18000 - 1) / 4096 + 1 : Nat) : Int) ∧
    ((18000 - 1) / 4096 + 1 - 1) * 4096 < 18000 ∧
    18000 ≤ ((18000 - 1) / 4096 + 1) * 4096 :=
  have h := C22_page_count 4096 18000 (by decide) (by decide) (by decide)
    (Or.inl (by decide)) (by decide) (fun _ => some 0) (fun _ _ => 0) 0
  ⟨h.1, h.2.2.1, h.2.2.2.1⟩

namespace ex4_without_sema

theorem terminated_le (child : Nat → Child) (k : Nat) : terminated child k ≤ k := by
  induction k with
  | zero => simp [terminated]
  | succ k ih => simp only [terminated]; split <;> omega

theorem terminated_mono (child child1 : Nat → Child)
    (h : ∀ k, child k = .done → child1 k = .done) (k : Nat) :
    terminated child k ≤ terminated child1 k := by
  induction k with
  | zero => simp [terminated]
  | succ k ih =>
    simp only [terminated]
    by_cases hk : child k = .done
    · rw [if_pos hk, if_pos (h k hk)]; omega
    · rw [if_neg hk]; split <;> omega

theorem terminated_all (child : Nat → Child) (k : Nat) (h : k ≤ terminated child k) :
    ∀ j, j < k → child j = .done := by
  induction k with
  | zero => intro j hj; omega
  | succ k ih =>
    simp only [terminated] at h
    have hle := terminated_le child k
    by_cases hk : child k = .done
    · rw [if_pos hk] at h
      intro j hj
      rcases Nat.lt_succ_iff_lt_or_eq.mp hj with h1 | h1
      · exact ih (by omega) j h1
      · rw [h1]; exact hk
    · rw [if_neg hk] at h; omega

theorem terminated_some (child : Nat → Child) (k : Nat) (h : terminated child k < k) :
    ∃ j, j < k ∧ child j ≠ .done := by
  induction k with
  | zero => omega
  | succ k ih =>
    simp only [terminated] at h
    by_cases hk : child k = .done
    · rw [if_pos hk] at h
      obtain ⟨j, hj, hne⟩ := ih (by omega)
      exact ⟨j, by omega, hne⟩
    · exact ⟨k, by omega, hk⟩

theorem todo_sum_congr (n : Nat) (child child1 : Nat → Child) (k : Nat)
    (h : ∀ j, j < k → child1 j = child j) : todo_sum n child1 k = todo_sum n child k := by
  induction k with
  | zero => rfl
  | succ k ih =>
    simp only [todo_sum]
    rw [ih (fun j hj => h j (by omega)), h k (by omega)]

theorem todo_sum_update (n : Nat) (child : Nat → Child) (k : Nat) (c : Child) (m : Nat)
    (hk : k < m) (hc : c.todo n < (child k).todo n) :
    todo_sum n (Function.update child k c) m < todo_sum n child m := by
  induction m with
  | zero => omega
  | succ m ih =>
    simp only [todo_sum]
    rcases Nat.lt_succ_iff_lt_or_eq.mp hk with h1 | h1
    · have := ih h1
      have e : Function.update child k c m = child m :=
        Function.update_noteq (by omega) _ _
      rw [e]; omega
    · subst h1
      have e : todo_sum n (Function.update child k c) k = todo_sum n child k :=
        todo_sum_congr n child _ k (fun j hj => Function.update_noteq (by omega) _ _)
      rw [e, Function.update_same]; omega

theorem row_next (n k q m : Nat) (hn : 0 < n) :
    k + q * n < k + m * n + n ↔ k + q * n ≤ k + m * n := by
  constructor
  · intro h
    have hq : q ≤ m := by
      by_contra hc
      have h1 : (m + 1) * n ≤ q * n := Nat.mul_le_mul_right n (by omega)
      rw [Nat.add_mul] at h1
      omega
    have := Nat.mul_le_mul_right n hq
    omega
  · intro h; omega

theorem row_owner (n k m : Nat) (hk : k < n) : (k + m * n) % n = k := by
  rw [Nat.add_mul_mod_self_right]; exact Nat.mod_eq_of_lt hk

theorem Inv.of_init (mandel : Int → Int → Int) (fork_ok : Nat → Bool) (n : Nat) :
    Inv mandel fork_ok n init where
  shape := by intro k; simp [init, shaped]
  beyond := by intro k _; rfl
  par := by simp [parent_ok, init]
  unprinted := by intro _; rfl
  logged := by intro e he; simp [init] at he
  stored := by intro r c _ _ h; simp [init, covered] at h
  once := by simp [init]


theorem parent_ok_update (mandel : Int → Int → Int) (fork_ok : Nat → Bool) (n : Nat)
    (s s1 : State) (k : Nat) (ch : Child) (h : parent_ok mandel fork_ok n s)
    (hb : ∀ j, n ≤ j → s.child j = .absent)
    (hold1 : s.child k ≠ .absent) (hold2 : s.child k ≠ .done) (hne : ch ≠ .absent)
    (hp : s1.parent = s.parent) (hpr : s1.printed = s.printed)
    (hc : s1.child = Function.update s.child k ch) : parent_ok mandel fork_ok n s1 := by
  have hkn : k < n := by
    by_contra hc1
    exact hold1 (hb k (by omega))
  have hsame : ∀ j, j ≠ k → s1.child j = s.child j := by
    intro j hj; rw [hc]; exact Function.update_noteq hj _ _
  have hat : s1.child k = ch := by rw [hc]; exact Function.update_same _ _ _
  unfold parent_ok at h ⊢
  rw [hp, hpr]
  cases hpar : s.parent with
  | forking i =>
    simp only [hpar] at h ⊢
    obtain ⟨h1, h2, h3⟩ := h
    have hki : k < i := by
      by_contra hc1
      exact hold1 (h2 k (by omega))
    refine ⟨h1, ?_, ?_⟩
    · intro j hj; rw [hsame j (by omega)]; exact h2 j hj
    · intro j hj
      by_cases hjk : j = k
      · rw [hjk, hat]; exact hne
      · rw [hsame j hjk]; exact h3 j hj
  | waiting i =>
    simp only [hpar] at h ⊢
    obtain ⟨h1, h2⟩ := h
    refine ⟨le_trans h1 (terminated_mono _ _ ?_ n), ?_⟩
    · intro j hj
      by_cases hjk : j = k
      · rw [hjk] at hj; exact absurd hj hold2
      · rw [hsame j hjk]; exact hj
    · intro j hj
      by_cases hjk : j = k
      · rw [hjk, hat]; exact hne
      · rw [hsame j hjk]; exact h2 j hj
  | output =>
    simp only [hpar] at h ⊢
    exact absurd (h k hkn) hold2
  | finished =>
    simp only [hpar] at h ⊢
    exact absurd (h.1 k hkn) hold2
  | exited st =>
    simp only [hpar] at h ⊢
    exact h

theorem Inv.child_moves {mandel : Int → Int → Int} {fork_ok : Nat → Bool} {n : Nat} {s : State}
    (h : Inv mandel fork_ok n s) (k : Nat) (ch : Child)
    (hold1 : s.child k ≠ .absent) (hold2 : s.child k ≠ .done) (hne : ch ≠ .absent)
    (hsh : shaped n k ch)
    (hcov : ∀ r c : Nat, r < 50 → c < 90 → r % n = k →
      (covered ch r c ↔ covered (s.child k) r c)) :
    Inv mandel fork_ok n { s with child := Function.update s.child k ch } where
  shape := by
    intro j
    by_cases hjk : j = k
    · subst hjk; simp only [Function.update_same]; exact hsh
    · simp only [Function.update_noteq hjk]; exact h.shape j
  beyond := by
    intro j hj
    have hkn : k < n := by
      by_contra hc1
      exact hold1 (h.beyond k (by omega))
    simp only [Function.update_noteq (show j ≠ k by omega)]
    exact h.beyond j hj
  par := parent_ok_update mandel fork_ok n s _ k ch h.par h.beyond hold1 hold2 hne rfl rfl rfl
  unprinted := h.unprinted
  logged := by
    intro e he
    obtain ⟨r, c, hr, hc, heq, hcv⟩ := h.logged e he
    refine ⟨r, c, hr, hc, heq, ?_⟩
    by_cases hjk : r % n = k
    · have e : Function.update s.child k ch (r % n) = ch := by
        rw [hjk]; exact Function.update_same _ _ _
      rw [hjk] at hcv
      show covered (Function.update s.child k ch (r % n)) r c
      rw [e]
      exact (hcov r c hr hc hjk).mpr hcv
    · show covered (Function.update s.child k ch (r % n)) r c
      rw [Function.update_noteq hjk]; exact hcv
  stored := by
    intro r c hr hc hcv
    have hcv1 : covered (Function.update s.child k ch (r % n)) r c := hcv
    by_cases hjk : r % n = k
    · have e : Function.update s.child k ch (r % n) = ch := by
        rw [hjk]; exact Function.update_same _ _ _
      rw [e] at hcv1
      have := (hcov r c hr hc hjk).mp hcv1
      rw [← hjk] at this
      exact h.stored r c hr hc this
    · rw [Function.update_noteq hjk] at hcv1
      exact h.stored r c hr hc hcv1
  once := h.once

theorem cell_eq (r c : Nat) (i j : Int) (hc : c < 90) (h0 : 0 ≤ j) (hj : j < 90)
    (h : (r : Int) * 90 + (c : Int) = i * 90 + j) : (r : Int) = i ∧ (c : Int) = j := by
  omega

theorem Inv.child_writes {mandel : Int → Int → Int} {fork_ok : Nat → Bool} {n : Nat}
    {s : State} (h : Inv mandel fork_ok n s) (k : Nat) (i j : Int)
    (hst : s.child k = .store i j) (hj : j < 90) :
    Inv mandel fork_ok n { s with
      child := Function.update s.child k (.store i (j + 1))
      buf := Function.update s.buf (i * 90 + j) (mandel i j)
      log := s.log ++ [(k, i * 90 + j, mandel i j)] } := by
  have hold1 : s.child k ≠ .absent := by rw [hst]; simp
  have hold2 : s.child k ≠ .done := by rw [hst]; simp
  have hkn : k < n := by
    by_contra hc1
    exact hold1 (h.beyond k (by omega))
  have hsh := h.shape k
  rw [hst] at hsh
  obtain ⟨m, hi, hi50, hj0, hj90⟩ := hsh
  have hr0 : ((k + m * n : Nat) : Int) = i := by rw [hi]; push_cast; rfl
  have hc0 : ((j.toNat : Nat) : Int) = j := Int.toNat_of_nonneg hj0
  have hown : (k + m * n) % n = k := row_owner n k m hkn
  have hr50 : k + m * n < 50 := by
    have : ((k + m * n : Nat) : Int) < 50 := by rw [hr0]; exact hi50
    exact_mod_cast this
  have hc90 : j.toNat < 90 := by
    have : ((j.toNat : Nat) : Int) < 90 := by rw [hc0]; exact hj
    exact_mod_cast this
  have hat : ∀ x, Function.update s.child k x k = x := fun x => Function.update_same _ _ _
  have hmono : ∀ r c : Int, covered (.store i j) r c → covered (.store i (j + 1)) r c := by
    intro r c hcv
    simp only [covered] at hcv ⊢
    omega
  refine ⟨?_, ?_, ?_, h.unprinted, ?_, ?_, ?_⟩
  · intro q
    by_cases hqk : q = k
    · subst hqk
      show shaped n q (Function.update s.child q (.store i (j + 1)) q)
      rw [hat]
      exact ⟨m, hi, hi50, by omega, by omega⟩
    · show shaped n q (Function.update s.child k (.store i (j + 1)) q)
      rw [Function.update_noteq hqk]; exact h.shape q
  · intro q hq
    show Function.update s.child k (.store i (j + 1)) q = .absent
    rw [Function.update_noteq (show q ≠ k by omega)]
    exact h.beyond q hq
  · exact parent_ok_update mandel fork_ok n s _ k (.store i (j + 1)) h.par h.beyond hold1 hold2
      (by simp) rfl rfl rfl
  · intro e he
    have he1 : e ∈ s.log ++ [(k, i * 90 + j, mandel i j)] := he
    rcases List.mem_append.mp he1 with he2 | he2
    · obtain ⟨r, c, hr, hc, heq, hcv⟩ := h.logged e he2
      refine ⟨r, c, hr, hc, heq, ?_⟩
      show covered (Function.update s.child k (.store i (j + 1)) (r % n)) r c
      by_cases hrk : r % n = k
      · rw [hrk, hat]
        rw [hrk, hst] at hcv
        exact hmono _ _ hcv
      · rw [Function.update_noteq hrk]; exact hcv
    · have he3 : e = (k, i * 90 + j, mandel i j) := by simpa using he2
      refine ⟨k + m * n, j.toNat, hr50, hc90, ?_, ?_⟩
      · rw [he3, hown, hr0, hc0]
      · show covered (Function.update s.child k (.store i (j + 1)) ((k + m * n) % n)) _ _
        rw [hown, hat, hr0, hc0]
        exact Or.inr ⟨rfl, Int.lt_succ_self j⟩
  · intro r c hr hc hcv
    have hcv1 : covered (Function.update s.child k (.store i (j + 1)) (r % n)) r c := hcv
    show (r % n, (r : Int) * 90 + (c : Int), mandel r c) ∈
        s.log ++ [(k, i * 90 + j, mandel i j)] ∧
      Function.update s.buf (i * 90 + j) (mandel i j) ((r : Int) * 90 + (c : Int)) = mandel r c
    by_cases hrk : r % n = k
    · rw [hrk, hat] at hcv1
      simp only [covered] at hcv1
      by_cases hnew : (r : Int) = i ∧ (c : Int) = j
      · rw [hrk, hnew.1, hnew.2]
        exact ⟨List.mem_append.mpr (Or.inr (by simp)), Function.update_same _ _ _⟩
      · have hcv2 : covered (s.child (r % n)) r c := by
          rw [hrk, hst]; simp only [covered]; omega
        have hne : (r : Int) * 90 + (c : Int) ≠ i * 90 + j := by
          intro heq
          exact hnew (cell_eq r c i j hc hj0 hj heq)
        obtain ⟨h1, h2⟩ := h.stored r c hr hc hcv2
        refine ⟨List.mem_append.mpr (Or.inl h1), ?_⟩
        rw [Function.update_noteq hne]; exact h2
    · rw [Function.update_noteq hrk] at hcv1
      have hne : (r : Int) * 90 + (c : Int) ≠ i * 90 + j := by
        intro heq
        have h3 := (cell_eq r c i j hc hj0 hj heq).1
        rw [← hr0] at h3
        have h4 : r = k + m * n := by exact_mod_cast h3
        rw [h4, hown] at hrk
        exact hrk rfl
      obtain ⟨h1, h2⟩ := h.stored r c hr hc hcv1
      refine ⟨List.mem_append.mpr (Or.inl h1), ?_⟩
      rw [Function.update_noteq hne]; exact h2
  · show ((s.log ++ [(k, i * 90 + j, mandel i j)]).map fun e => e.2.1).Nodup
    rw [List.map_append, List.nodup_append]
    refine ⟨h.once, by simp, ?_⟩
    intro x hx hx1
    have hx2 : x = i * 90 + j := by simpa using hx1
    obtain ⟨e, he, hex⟩ := List.mem_map.mp hx
    obtain ⟨r, c, hr, hc, heq, hcv⟩ := h.logged e he
    rw [heq] at hex
    have hex1 : (r : Int) * 90 + (c : Int) = i * 90 + j := by rw [← hx2]; exact hex
    obtain ⟨h3, h4⟩ := cell_eq r c i j hc hj0 hj hex1
    rw [← hr0] at h3
    have h5 : r = k + m * n := by exact_mod_cast h3
    rw [h5, hown, hst] at hcv
    simp only [covered] at hcv
    rw [hr0] at hcv
    omega

theorem flatMap_same {β : Type} (l : List Nat) (f g : Nat → List β)
    (h : ∀ a, a ∈ l → f a = g a) : l.flatMap f = l.flatMap g := by
  induction l with
  | nil => rfl
  | cons a l ih =>
    rw [List.flatMap_cons, List.flatMap_cons, h a (List.mem_cons_self _ _),
      ih (fun b hb => h b (List.mem_cons_of_mem _ hb))]

theorem image_of_stored (mandel : Int → Int → Int) (buffer : Int → Int)
    (h : ∀ r c : Nat, r < 50 → c < 90 → buffer ((r : Int) * 90 + (c : Int)) = mandel r c) :
    image buffer = picture mandel := by
  unfold image picture
  apply flatMap_same
  intro r hr
  apply List.map_congr_left
  intro c hc
  exact h r c (List.mem_range.mp hr) (List.mem_range.mp hc)

theorem Inv.parent_turn {mandel : Int → Int → Int} {fork_ok : Nat → Bool} {n : Nat}
    {s : State} (h : Inv mandel fork_ok n s) (hn : 0 < n) :
    Inv mandel fork_ok n (step mandel fork_ok n s 0) := by
  have hpar := h.par
  unfold parent_ok at hpar
  unfold step
  cases hp : s.parent with
  | forking i =>
    simp only [hp] at hpar ⊢
    obtain ⟨h1, h2, h3⟩ := hpar
    by_cases hin : i < n
    · rw [if_pos hin]
      by_cases hf : fork_ok i = true
      · rw [if_pos hf]
        have hat : Function.update s.child i (.loop (i : Int)) i = .loop i :=
          Function.update_same _ _ _
        have hown : ∀ r : Nat, r % n = i → ¬ ((r : Int) < (i : Int)) := by
          intro r hr
          have := Nat.mod_le r n
          omega
        refine ⟨?_, ?_, ?_, ?_, ?_, ?_, h.once⟩
        · intro q
          show shaped n q (Function.update s.child i (.loop (i : Int)) q)
          by_cases hq : q = i
          · subst hq
            rw [hat]
            exact ⟨0, by simp, by omega⟩
          · rw [Function.update_noteq hq]; exact h.shape q
        · intro q hq
          show Function.update s.child i (.loop (i : Int)) q = .absent
          rw [Function.update_noteq (show q ≠ i by omega)]
          exact h.beyond q hq
        · show parent_ok mandel fork_ok n _
          unfold parent_ok
          refine ⟨hin, ?_, ?_⟩
          · intro q hq
            show Function.update s.child i (.loop (i : Int)) q = .absent
            rw [Function.update_noteq (show q ≠ i by omega)]
            exact h2 q (by omega)
          · intro q hq
            show Function.update s.child i (.loop (i : Int)) q ≠ .absent
            by_cases hqi : q = i
            · subst hqi; rw [hat]; simp
            · rw [Function.update_noteq hqi]; exact h3 q (by omega)
        · intro _
          exact h.unprinted (by rw [hp]; simp)
        · intro e he
          obtain ⟨r, c, hr, hc, heq, hcv⟩ := h.logged e he
          refine ⟨r, c, hr, hc, heq, ?_⟩
          show covered (Function.update s.child i (.loop (i : Int)) (r % n)) r c
          by_cases hri : r % n = i
          · rw [hri, h2 i (le_refl i)] at hcv
            exact absurd hcv (by simp [covered])
          · rw [Function.update_noteq hri]; exact hcv
        · intro r c hr hc hcv
          have hcv1 : covered (Function.update s.child i (.loop (i : Int)) (r % n)) r c := hcv
          by_cases hri : r % n = i
          · rw [hri, hat] at hcv1
            exact absurd hcv1 (hown r hri)
          · rw [Function.update_noteq hri] at hcv1
            exact h.stored r c hr hc hcv1
      · rw [if_neg hf]
        refine ⟨h.shape, h.beyond, ?_, ?_, h.logged, h.stored, h.once⟩
        · show parent_ok mandel fork_ok n _
          unfold parent_ok
          exact ⟨i, by simpa using hf⟩
        · intro _
          exact h.unprinted (by rw [hp]; simp)
    · rw [if_neg hin]
      refine ⟨h.shape, h.beyond, ?_, ?_, h.logged, h.stored, h.once⟩
      · show parent_ok mandel fork_ok n _
        unfold parent_ok
        exact ⟨Nat.zero_le _, fun q hq => h3 q (by omega)⟩
      · intro _
        exact h.unprinted (by rw [hp]; simp)
  | waiting i =>
    simp only [hp] at hpar ⊢
    obtain ⟨h1, h2⟩ := hpar
    by_cases hin : i < n
    · rw [if_pos hin]
      by_cases ht : i < terminated s.child n
      · rw [if_pos ht]
        refine ⟨h.shape, h.beyond, ?_, ?_, h.logged, h.stored, h.once⟩
        · show parent_ok mandel fork_ok n _
          unfold parent_ok
          exact ⟨ht, h2⟩
        · intro _
          exact h.unprinted (by rw [hp]; simp)
      · rw [if_neg ht]; exact h
    · rw [if_neg hin]
      refine ⟨h.shape, h.beyond, ?_, ?_, h.logged, h.stored, h.once⟩
      · show parent_ok mandel fork_ok n _
        unfold parent_ok
        exact terminated_all s.child n (by omega)
      · intro _
        exact h.unprinted (by rw [hp]; simp)
  | output =>
    simp only [hp] at hpar ⊢
    refine ⟨h.shape, h.beyond, ?_, ?_, h.logged, h.stored, h.once⟩
    · show parent_ok mandel fork_ok n _
      unfold parent_ok
      refine ⟨hpar, ?_⟩
      show some (image s.buf) = some (picture mandel)
      rw [image_of_stored mandel s.buf]
      intro r c hr hc
      refine (h.stored r c hr hc ?_).2
      rw [hpar (r % n) (Nat.mod_lt _ hn)]
      simp [covered]
    · intro hc
      exact absurd rfl hc
  | finished => exact h
  | exited st => exact h

theorem Inv.child_turn {mandel : Int → Int → Int} {fork_ok : Nat → Bool} {n : Nat}
    {s : State} (h : Inv mandel fork_ok n s) (hn : 0 < n) (hfit : n + 50 < 2 ^ 31) (k : Nat) :
    Inv mandel fork_ok n (step mandel fork_ok n s (k + 1)) := by
  have hsh := h.shape k
  unfold step
  cases hst : s.child k with
  | absent => simp only [hst]; exact h
  | done => simp only [hst]; exact h
  | loop i =>
    simp only [hst] at hsh ⊢
    obtain ⟨m, hi, hin⟩ := hsh
    have hold1 : s.child k ≠ .absent := by rw [hst]; simp
    have hold2 : s.child k ≠ .done := by rw [hst]; simp
    by_cases h50 : i < y_chars
    · rw [if_pos h50]
      refine h.child_moves k _ hold1 hold2 (by simp) ⟨m, hi, h50, le_refl _, by omega⟩ ?_
      intro r c hr hc hrk
      rw [hst]
      simp only [covered]
      omega
    · rw [if_neg h50]
      refine h.child_moves k _ hold1 hold2 (by simp) trivial ?_
      intro r c hr hc hrk
      rw [hst]
      simp only [covered, y_chars] at h50 ⊢
      exact ⟨fun _ => by omega, fun _ => trivial⟩
  | store i j =>
    simp only [hst] at hsh ⊢
    obtain ⟨m, hi, hi50, hj0, hj90⟩ := hsh
    have hold1 : s.child k ≠ .absent := by rw [hst]; simp
    have hold2 : s.child k ≠ .done := by rw [hst]; simp
    have hkn : k < n := by
      by_contra hc1
      exact hold1 (h.beyond k (by omega))
    have hmn : (0 : Int) ≤ (m : Int) * (n : Int) := by positivity
    by_cases h90 : j < x_chars
    · rw [if_pos h90]
      have hw : ex3_condition.wrap32 (i * x_chars + j) = i * 90 + j :=
        ex3_condition.wrap32_small _ (by simp only [x_chars] at h90 ⊢; omega)
          (by simp only [x_chars] at h90 ⊢; omega)
      rw [hw]
      exact h.child_writes k i j hst h90
    · rw [if_neg h90]
      have hw : ex3_condition.wrap32 (i + (n : Int)) = i + n :=
        ex3_condition.wrap32_small _ (by omega) (by omega)
      rw [hw]
      refine h.child_moves k _ hold1 hold2 (by simp)
        ⟨m + 1, by rw [hi]; push_cast; ring, by omega⟩ ?_
      intro r c hr hc hrk
      rw [hst]
      simp only [covered, x_chars] at h90 ⊢
      have hrow := row_next n k (r / n) m hn
      have hr1 : r = k + r / n * n := by
        have := Nat.mod_add_div r n
        rw [hrk, Nat.mul_comm] at this
        omega
      have hrow1 : (r : Int) < i + n ↔ (r : Int) ≤ i := by
        rw [hi]
        constructor
        · intro h1
          have h2 : k + r / n * n < k + m * n + n := by
            have : ((r : Nat) : Int) < ((k + m * n + n : Nat) : Int) := by push_cast; exact h1
            have h3 : r < k + m * n + n := by exact_mod_cast this
            omega
          have h4 := hrow.mp h2
          have h5 : r ≤ k + m * n := by omega
          have : ((r : Nat) : Int) ≤ ((k + m * n : Nat) : Int) := by exact_mod_cast h5
          push_cast at this
          exact this
        · intro h1; omega
      rw [hrow1]
      omega

theorem Inv.any_turn {mandel : Int → Int → Int} {fork_ok : Nat → Bool} {n : Nat}
    {s : State} (h : Inv mandel fork_ok n s) (hn : 0 < n) (hfit : n + 50 < 2 ^ 31) (p : Nat) :
    Inv mandel fork_ok n (step mandel fork_ok n s p) := by
  cases p with
  | zero => exact h.parent_turn hn
  | succ k => exact h.child_turn hn hfit k

theorem Inv.along {mandel : Int → Int → Int} {fork_ok : Nat → Bool} {n : Nat}
    (hn : 0 < n) (hfit : n + 50 < 2 ^ 31) (sched : List Nat) :
    ∀ s : State, Inv mandel fork_ok n s → Inv mandel fork_ok n (run mandel fork_ok n s sched) := by
  induction sched with
  | nil => intro s h; exact h
  | cons p sched ih => intro s h; exact ih _ (h.any_turn hn hfit p)

theorem step_parent_forks (mandel : Int → Int → Int) (fork_ok : Nat → Bool) (n : Nat)
    (s : State) (i : Nat) (hp : s.parent = .forking i) (hin : i < n) (hf : fork_ok i = true) :
    step mandel fork_ok n s 0 =
      { s with parent := .forking (i + 1), child := Function.update s.child i (.loop i) } := by
  unfold step
  simp only [hp, if_pos hin, if_pos hf]

theorem step_parent_forked (mandel : Int → Int → Int) (fork_ok : Nat → Bool) (n : Nat)
    (s : State) (i : Nat) (hp : s.parent = .forking i) (hin : ¬ i < n) :
    step mandel fork_ok n s 0 = { s with parent := .waiting 0 } := by
  unfold step
  simp only [hp, if_neg hin]

theorem step_parent_waits (mandel : Int → Int → Int) (fork_ok : Nat → Bool) (n : Nat)
    (s : State) (i : Nat) (hp : s.parent = .waiting i) (hin : i < n)
    (ht : i < terminated s.child n) :
    step mandel fork_ok n s 0 = { s with parent := .waiting (i + 1) } := by
  unfold step
  simp only [hp, if_pos hin, if_pos ht]

theorem step_parent_waited (mandel : Int → Int → Int) (fork_ok : Nat → Bool) (n : Nat)
    (s : State) (i : Nat) (hp : s.parent = .waiting i) (hin : ¬ i < n) :
    step mandel fork_ok n s 0 = { s with parent := .output } := by
  unfold step
  simp only [hp, if_neg hin]

theorem step_parent_outputs (mandel : Int → Int → Int) (fork_ok : Nat → Bool) (n : Nat)
    (s : State) (hp : s.parent = .output) :
    step mandel fork_ok n s 0 = { s with parent := .finished, printed := some (image s.buf) } := by
  unfold step
  simp only [hp]

theorem step_child_todo (mandel : Int → Int → Int) (fork_ok : Nat → Bool) (n : Nat)
    (s : State) (k : Nat) (hn : 0 < n) (hfit : n + 50 < 2 ^ 31) (hkn : k < n)
    (hsh : shaped n k (s.child k))
    (h1 : s.child k ≠ .absent) (h2 : s.child k ≠ .done) :
    (step mandel fork_ok n s (k + 1)).todo n < s.todo n := by
  unfold step
  cases hst : s.child k with
  | absent => exact absurd hst h1
  | done => exact absurd hst h2
  | loop i =>
    simp only [hst] at hsh ⊢
    obtain ⟨m, hi, hin⟩ := hsh
    by_cases h50 : i < y_chars
    · rw [if_pos h50]
      unfold State.todo
      have := todo_sum_update n s.child k (.store i 0) n hkn (by
        rw [hst]; simp only [Child.todo]; omega)
      exact Nat.add_lt_add_left this _
    · rw [if_neg h50]
      unfold State.todo
      have := todo_sum_update n s.child k .done n hkn (by
        rw [hst]; simp only [Child.todo]; omega)
      exact Nat.add_lt_add_left this _
  | store i j =>
    simp only [hst] at hsh ⊢
    obtain ⟨m, hi, hi50, hj0, hj90⟩ := hsh
    have hmn : (0 : Int) ≤ (m : Int) * (n : Int) := by positivity
    by_cases h90 : j < x_chars
    · rw [if_pos h90]
      unfold State.todo
      have := todo_sum_update n s.child k (.store i (j + 1)) n hkn (by
        rw [hst]; simp only [Child.todo, x_chars] at h90 ⊢; omega)
      exact Nat.add_lt_add_left this _
    · rw [if_neg h90]
      have hw : ex3_condition.wrap32 (i + (n : Int)) = i + n :=
        ex3_condition.wrap32_small _ (by omega) (by omega)
      rw [hw]
      unfold State.todo
      have := todo_sum_update n s.child k (.loop (i + n)) n hkn (by
        rw [hst]; simp only [Child.todo, x_chars] at h90 ⊢; omega)
      exact Nat.add_lt_add_left this _

theorem Inv.some_step {mandel : Int → Int → Int} {fork_ok : Nat → Bool} {n : Nat}
    {s : State} (h : Inv mandel fork_ok n s) (hn : 0 < n) (hfit : n + 50 < 2 ^ 31)
    (hfork : ∀ k, fork_ok k = true) (hnp : s.printed = none) :
    ∃ p, (step mandel fork_ok n s p).todo n < s.todo n := by
  have hpar := h.par
  unfold parent_ok at hpar
  cases hp : s.parent with
  | forking i =>
    simp only [hp] at hpar
    obtain ⟨h1, h2, h3⟩ := hpar
    refine ⟨0, ?_⟩
    by_cases hin : i < n
    · rw [step_parent_forks mandel fork_ok n s i hp hin (hfork i)]
      unfold State.todo
      rw [hp]
      have := todo_sum_update n s.child i (.loop i) n hin (by
        rw [h2 i (le_refl i)]; simp only [Child.todo]; omega)
      simp only [Parent.todo]
      omega
    · rw [step_parent_forked mandel fork_ok n s i hp hin]
      unfold State.todo
      rw [hp]
      simp only [Parent.todo]
      omega
  | waiting i =>
    simp only [hp] at hpar
    obtain ⟨h1, h2⟩ := hpar
    by_cases hin : i < n
    · by_cases ht : i < terminated s.child n
      · refine ⟨0, ?_⟩
        rw [step_parent_waits mandel fork_ok n s i hp hin ht]
        unfold State.todo
        rw [hp]
        simp only [Parent.todo]
        omega
      · obtain ⟨k, hk, hkd⟩ := terminated_some s.child n (by omega)
        exact ⟨k + 1, step_child_todo mandel fork_ok n s k hn hfit hk (h.shape k) (h2 k hk) hkd⟩
    · refine ⟨0, ?_⟩
      rw [step_parent_waited mandel fork_ok n s i hp hin]
      unfold State.todo
      rw [hp]
      simp only [Parent.todo]
      omega
  | output =>
    refine ⟨0, ?_⟩
    rw [step_parent_outputs mandel fork_ok n s hp]
    unfold State.todo
    rw [hp]
    simp only [Parent.todo]
    omega
  | finished =>
    simp only [hp] at hpar
    rw [hpar.2] at hnp
    exact absurd hnp (by simp)
  | exited st =>
    simp only [hp] at hpar
    obtain ⟨k, hk⟩ := hpar
    rw [hfork k] at hk
    exact absurd hk (by simp)

theorem Inv.prints {mandel : Int → Int → Int} {fork_ok : Nat → Bool} {n : Nat}
    (hn : 0 < n) (hfit : n + 50 < 2 ^ 31) (hfork : ∀ k, fork_ok k = true) (N : Nat) :
    ∀ s : State, Inv mandel fork_ok n s → s.todo n ≤ N →
      ∃ more, (run mandel fork_ok n s more).printed ≠ none := by
  induction N with
  | zero =>
    intro s h hN
    by_cases hnp : s.printed = none
    · obtain ⟨p, hp⟩ := h.some_step hn hfit hfork hnp
      omega
    · exact ⟨[], hnp⟩
  | succ N ih =>
    intro s h hN
    by_cases hnp : s.printed = none
    · obtain ⟨p, hp⟩ := h.some_step hn hfit hfork hnp
      obtain ⟨more, hmore⟩ := ih _ (h.any_turn hn hfit p) (by omega)
      exact ⟨p :: more, hmore⟩
    · exact ⟨[], hnp⟩

theorem create_result (page_size : Int) (mmap : Nat → Option Nat) (numbytes : Nat)
    (h : numbytes ≠ 0) :
    (∃ calls a, create_shared_memory_area page_size mmap numbytes = .ok calls a) ∨
    (∃ calls, create_shared_memory_area page_size mmap numbytes = .exit calls "mmap" 1) := by
  unfold create_shared_memory_area
  rw [if_neg h]
  cases mmap (ex1.to_size_t (pages page_size numbytes * page_size)) with
  | none => exact Or.inr ⟨_, rfl⟩
  | some a => exact Or.inl ⟨_, _, rfl⟩

theorem main_areas_result (page_size : Int) (mmap : Nat → Option Nat) (n : Nat)
    (hn : 1 ≤ n) (hfit : 12 * n < 2 ^ 32) :
    (∃ calls, main_areas page_size mmap n = .ok calls init) ∨
    (∃ calls, main_areas page_size mmap n = .exit calls "mmap" 1) := by
  have h1 : (n * 12) % 2 ^ 32 ≠ 0 := by
    rw [Nat.mod_eq_of_lt (by omega)]
    omega
  have h2 : (50 * 90 * 4) % 2 ^ 32 ≠ 0 := by norm_num
  unfold main_areas
  rcases create_result page_size mmap _ h1 with ⟨c1, a1, e1⟩ | ⟨c1, e1⟩
  · rcases create_result page_size mmap _ h2 with ⟨c2, a2, e2⟩ | ⟨c2, e2⟩
    · rw [e1, e2]; exact Or.inl ⟨_, rfl⟩
    · rw [e1, e2]; exact Or.inr ⟨_, rfl⟩
  · rw [e1]; exact Or.inr ⟨_, rfl⟩

/-- Claim C21, counterexample. For `nprocs = 2^30` the size `nprocs *
sizeof(*pr)` of the process table is `3 * 2^32`, which is 0 as the `unsigned
int` parameter of `create_shared_memory_area`: the program exits with status
1 before the first `fork`, and no row is computed or stored. -/
theorem C21_counterexample :
    ex3_condition.wrap32 1073741824 = 1073741824 ∧
    main_areas 4096 (fun _ => some 0) 1073741824 =
      .exit [] "create_shared_memory_area: internal error: called for numbytes == 0\n" 1 := by
  exact ⟨by decide, rfl⟩

/-- Claim C21, amended. For every process count `n >= 1` for which the size
`nprocs * sizeof(*pr)` of the process table fits the `unsigned int` parameter
of `create_shared_memory_area` (`12 * n < 2^32`), `main` maps the two areas
(or exits because `mmap` failed), and over every schedule of the parent and
the children: every store into the buffer is the store of `mandel r c` into
the cell `r * x_chars + c` of a row `r` in `[0, y_chars)` by the process with
`mypid = r mod n`; no cell is stored twice; when the parent is at
`output_mandel_line` every cell has been stored and holds its value; what the
parent prints is the whole picture; and when every `fork` succeeds the
parent comes to print it. -/
theorem C21_rows_partitioned (mandel : Int → Int → Int) (fork_ok : Nat → Bool)
    (page_size : Int) (mmap : Nat → Option Nat) (n : Nat) (hn : 1 ≤ n)
    (hfit : 12 * n < 2 ^ 32) (sched : List Nat) :
    ((∃ calls, main_areas page_size mmap n = .ok calls init) ∨
      (∃ calls, main_areas page_size mmap n = .exit calls "mmap" 1)) ∧
    (∀ e ∈ (run mandel fork_ok n init sched).log, ∃ r c : Nat, r < 50 ∧ c < 90 ∧
      e = (r % n, (r : Int) * 90 + (c : Int), mandel r c)) ∧
    ((run mandel fork_ok n init sched).log.map fun e => e.2.1).Nodup ∧
    ((run mandel fork_ok n init sched).parent = .output ∨
        (run mandel fork_ok n init sched).parent = .finished →
      ∀ r c : Nat, r < 50 → c < 90 →
        (r % n, (r : Int) * 90 + (c : Int), mandel r c) ∈
          (run mandel fork_ok n init sched).log ∧
        (run mandel fork_ok n init sched).buf ((r : Int) * 90 + (c : Int)) = mandel r c) ∧
    (∀ img, (run mandel fork_ok n init sched).printed = some img → img = picture mandel) ∧
    ((∀ k, fork_ok k = true) →
      ∃ more, (run mandel fork_ok n init (sched ++ more)).printed ≠ none) := by
  have hn0 : 0 < n := hn
  have hfit1 : n + 50 < 2 ^ 31 := by omega
  have hinv : Inv mandel fork_ok n (run mandel fork_ok n init sched) :=
    Inv.along hn0 hfit1 sched init (Inv.of_init mandel fork_ok n)
  refine ⟨main_areas_result page_size mmap n hn hfit, ?_, hinv.once, ?_, ?_, ?_⟩
  · intro e he
    obtain ⟨r, c, hr, hc, heq, _⟩ := hinv.logged e he
    exact ⟨r, c, hr, hc, heq⟩
  · intro hp r c hr hc
    have hpar := hinv.par
    unfold parent_ok at hpar
    have hdone : (run mandel fork_ok n init sched).child (r % n) = .done := by
      rcases hp with hp | hp
      · rw [hp] at hpar
        exact hpar (r % n) (Nat.mod_lt _ hn0)
      · rw [hp] at hpar
        exact hpar.1 (r % n) (Nat.mod_lt _ hn0)
    exact hinv.stored r c hr hc (by rw [hdone]; trivial)
  · intro img himg
    by_cases hp : (run mandel fork_ok n init sched).parent = .finished
    · have hpar := hinv.par
      unfold parent_ok at hpar
      rw [hp] at hpar
      have := hpar.2
      rw [himg] at this
      exact Option.some.inj this
    · rw [hinv.unprinted hp] at himg
      exact absurd himg (by simp)
  · intro hfork
    obtain ⟨more, hmore⟩ := Inv.prints hn0 hfit1 hfork _ _ hinv (le_refl _)
    refine ⟨more, ?_⟩
    unfold run at hmore ⊢
    rw [List.foldl_append]
    exact hmore

theorem C21_witness :
    (1 ≤ 2 ∧ 12 * 2 < 2 ^ 32) ∧
    ((run (fun i j => i + j) (fun _ => true) 2 init [0, 0, 0, 1, 1, 2, 2, 1]).log.map
      fun e => e.2.1).Nodup ∧
    ∃ more, (run (fun i j => i + j) (fun _ => true) 2 init
      ([0, 0, 0, 1, 1, 2, 2, 1] ++ more)).printed ≠ none :=
  have h := C21_rows_partitioned (fun i j => i + j) (fun _ => true) 4096 (fun _ => some 0) 2
    (by decide) (by decide) [0, 0, 0, 1, 1, 2, 2, 1]
  ⟨⟨by decide, by decide⟩, h.2.2.1, h.2.2.2.2.2 (fun _ => rfl)⟩

end ex4_without_sema

theorem total_congr (f g : Nat → Nat) (m : Nat) (h : ∀ k, k < m → f k = g k) :
    total f m = total g m := by
  induction m with
  | zero => rfl
  | succ m ih =>
    simp only [total]
    rw [ih (fun k hk => h k (by omega)), h m (by omega)]

theorem total_zero (f : Nat → Nat) (m : Nat) (h : ∀ k, k < m → f k = 0) : total f m = 0 := by
  induction m with
  | zero => rfl
  | succ m ih =>
    simp only [total]
    rw [ih (fun k hk => h k (by omega)), h m (by omega)]

theorem total_update (f : Nat → Nat) (k v m : Nat) (hk : k < m) :
    total (Function.update f k v) m + f k = total f m + v := by
  induction m with
  | zero => omega
  | succ m ih =>
    simp only [total]
    rcases Nat.lt_succ_iff_lt_or_eq.mp hk with h1 | h1
    · have := ih h1
      rw [Function.update_noteq (show m ≠ k by omega)]
      omega
    · subst h1
      rw [Function.update_same,
        total_congr (Function.update f k v) f k (fun j hj => Function.update_noteq (by omega) _ _)]
      omega

theorem total_update_beyond (f : Nat → Nat) (k v m : Nat) (hk : m ≤ k) :
    total (Function.update f k v) m = total f m :=
  total_congr _ _ m (fun j hj => Function.update_noteq (by omega) _ _)

theorem total_two (f : Nat → Nat) (j k m : Nat) (hj : j < k) (hk : k < m) :
    f j + f k ≤ total f m := by
  have h1 : ∀ m, j < m → f j ≤ total f m := by
    intro m hm
    induction m with
    | zero => omega
    | succ m ih =>
      simp only [total]
      rcases Nat.lt_succ_iff_lt_or_eq.mp hm with h | h
      · have := ih h; omega
      · subst h; omega
  induction m with
  | zero => omega
  | succ m ih =>
    simp only [total]
    rcases Nat.lt_succ_iff_lt_or_eq.mp hk with h | h
    · have := ih h; omega
    · subst h
      have := h1 k hj
      omega


namespace ex4_with_sema

theorem total_init (m : Nat) : total init.sem (m + 1) = 1 := by
  induction m with
  | zero => rfl
  | succ m ih =>
    have e : total init.sem (m + 1 + 1) = total init.sem (m + 1) + init.sem (m + 1) := rfl
    rw [e, ih]
    rfl

theorem section_update (w : Nat → Worker) (k : Nat) (x : Worker) (n : Nat) (hk : k < n) :
    total (fun j => (Function.update w k x j).in_section) n + (w k).in_section =
      total (fun j => (w j).in_section) n + x.in_section := by
  have e : (fun j => (Function.update w k x j).in_section) =
      Function.update (fun j => (w j).in_section) k x.in_section := by
    funext j
    by_cases hj : j = k
    · subst hj; simp
    · simp [Function.update_noteq hj]
  rw [e]
  exact total_update _ k _ n hk

theorem lost_update (w : Nat → Worker) (k : Nat) (x : Worker) (n : Nat) (hk : k < n) :
    total (fun j => (Function.update w k x j).lost) n + (w k).lost =
      total (fun j => (w j).lost) n + x.lost := by
  have e : (fun j => (Function.update w k x j).lost) =
      Function.update (fun j => (w j).lost) k x.lost := by
    funext j
    by_cases hj : j = k
    · subst hj; simp
    · simp [Function.update_noteq hj]
  rw [e]
  exact total_update _ k _ n hk

theorem Ring.at_start (write_ok : Nat → Int → Bool) (n : Nat) (hn : 1 ≤ n) :
    Ring write_ok n init where
  beyond := fun _ _ => rfl
  unborn := fun _ _ _ _ => rfl
  token := by
    obtain ⟨m, rfl⟩ : ∃ m, n = m + 1 := ⟨n - 1, by omega⟩
    have e2 : total (fun k => (init.worker k).in_section) (m + 1) = 0 :=
      total_zero _ _ (fun _ _ => rfl)
    have e3 : total (fun k => (init.worker k).lost) (m + 1) = 0 :=
      total_zero _ _ (fun _ _ => rfl)
    rw [total_init m, e2, e3]
  cause := fun k hk => by cases hk

theorem Ring.parent_step {fork_ok : Nat → Bool} {write_ok : Nat → Int → Bool} {n : Nat}
    {s : State} (h : Ring write_ok n s) : Ring write_ok n (step fork_ok write_ok n s 0) := by
  unfold step
  cases hp : s.parent with
  | forking i =>
    simp only [hp]
    by_cases hin : i < n
    · rw [if_pos hin]
      by_cases hf : fork_ok i = true
      · rw [if_pos hf]
        have habs : s.worker i = .absent := h.unborn i hp i (le_refl i)
        refine ⟨?_, ?_, ?_, ?_⟩
        · intro k hk
          show Function.update s.worker i (.loop (i : Int)) k = .absent
          rw [Function.update_noteq (show k ≠ i by omega)]
          exact h.beyond k hk
        · intro j hj k hk
          have hj1 : Parent.forking (i + 1) = Parent.forking j := hj
          have hj2 : i + 1 = j := by injection hj1
          show Function.update s.worker i (.loop (i : Int)) k = .absent
          rw [Function.update_noteq (show k ≠ i by omega)]
          exact h.unborn i hp k (by omega)
        · show total s.sem n +
            total (fun k => (Function.update s.worker i (.loop (i : Int)) k).in_section) n +
            total (fun k => (Function.update s.worker i (.loop (i : Int)) k).lost) n = 1
          have := section_update s.worker i (.loop (i : Int)) n hin
          have h2 := lost_update s.worker i (.loop (i : Int)) n hin
          rw [habs] at this h2
          have ht := h.token
          change _ + 0 = _ + 0 at this
          change _ + 0 = _ + 0 at h2
          omega
        · intro k hk
          have hk1 : Function.update s.worker i (.loop (i : Int)) k = .failed := hk
          by_cases hki : k = i
          · subst hki
            rw [Function.update_same] at hk1
            cases hk1
          · rw [Function.update_noteq hki] at hk1
            exact h.cause k hk1
      · rw [if_neg hf]
        exact ⟨h.beyond, (fun j hj => by cases hj), h.token, h.cause⟩
    · rw [if_neg hin]
      exact ⟨h.beyond, (fun j hj => by cases hj), h.token, h.cause⟩
  | waiting i =>
    simp only [hp]
    by_cases hin : i < n
    · rw [if_pos hin]
      by_cases ht : i < terminated s.worker n
      · rw [if_pos ht]
        exact ⟨h.beyond, (fun j hj => by cases hj), h.token, h.cause⟩
      · rw [if_neg ht]; exact h
    · rw [if_neg hin]
      exact ⟨h.beyond, (fun j hj => by cases hj), h.token, h.cause⟩
  | finished => simp only [hp]; exact h
  | exited st => simp only [hp]; exact h

theorem Ring.child_step {fork_ok : Nat → Bool} {write_ok : Nat → Int → Bool} {n : Nat}
    {s : State} (h : Ring write_ok n s)
    (hn : 1 ≤ n) (k : Nat) : Ring write_ok n (step fork_ok write_ok n s (k + 1)) := by
  have hkn : s.worker k ≠ .absent → k < n := by
    intro h1
    by_contra h2
    exact h1 (h.beyond k (by omega))
  have hunb : ∀ x : Worker, s.worker k ≠ .absent →
      ∀ i, s.parent = .forking i → ∀ j, i ≤ j → Function.update s.worker k x j = .absent := by
    intro x h1 i hi j hj
    have hki : k < i := by
      by_contra h2
      exact h1 (h.unborn i hi k (by omega))
    rw [Function.update_noteq (show j ≠ k by omega)]
    exact h.unborn i hi j hj
  have hbey : ∀ x : Worker, s.worker k ≠ .absent →
      ∀ j, n ≤ j → Function.update s.worker k x j = .absent := by
    intro x h1 j hj
    have := hkn h1
    rw [Function.update_noteq (show j ≠ k by omega)]
    exact h.beyond j hj
  have hcause : ∀ x : Worker, x ≠ .failed →
      ∀ j, Function.update s.worker k x j = .failed → ∃ i, write_ok j i = false := by
    intro x hx j hj
    by_cases hjk : j = k
    · subst hjk
      rw [Function.update_same] at hj
      exact absurd hj hx
    · rw [Function.update_noteq hjk] at hj
      exact h.cause j hj
  have ht := h.token
  unfold step
  cases hst : s.worker k with
  | absent => simp only [hst]; exact h
  | done => simp only [hst]; exact h
  | failed => simp only [hst]; exact h
  | loop i =>
    simp only [hst]
    have hne : s.worker k ≠ .absent := by rw [hst]; simp
    have hk := hkn hne
    by_cases h50 : i < y_chars
    · rw [if_pos h50]
      refine ⟨hbey _ hne, hunb _ hne, ?_, hcause _ (by simp)⟩
      show total s.sem n + total (fun j => (Function.update s.worker k (.wait i) j).in_section) n +
        total (fun j => (Function.update s.worker k (.wait i) j).lost) n = 1
      have := section_update s.worker k (.wait i) n hk
      have h2 := lost_update s.worker k (.wait i) n hk
      rw [hst] at this h2
      change _ + 0 = _ + 0 at this
      change _ + 0 = _ + 0 at h2
      omega
    · rw [if_neg h50]
      refine ⟨hbey _ hne, hunb _ hne, ?_, hcause _ (by simp)⟩
      show total s.sem n + total (fun j => (Function.update s.worker k .done j).in_section) n +
        total (fun j => (Function.update s.worker k .done j).lost) n = 1
      have := section_update s.worker k .done n hk
      have h2 := lost_update s.worker k .done n hk
      rw [hst] at this h2
      change _ + 0 = _ + 0 at this
      change _ + 0 = _ + 0 at h2
      omega
  | wait i =>
    simp only [hst]
    have hne : s.worker k ≠ .absent := by rw [hst]; simp
    have hk := hkn hne
    by_cases hs : 0 < s.sem k
    · rw [if_pos hs]
      refine ⟨hbey _ hne, hunb _ hne, ?_, hcause _ (by simp)⟩
      show total (Function.update s.sem k (s.sem k - 1)) n +
        total (fun j => (Function.update s.worker k (.output i) j).in_section) n +
        total (fun j => (Function.update s.worker k (.output i) j).lost) n = 1
      have := section_update s.worker k (.output i) n hk
      have h2 := total_update s.sem k (s.sem k - 1) n hk
      have h3 := lost_update s.worker k (.output i) n hk
      rw [hst] at this h3
      change _ + 0 = _ + 1 at this
      change _ + 0 = _ + 0 at h3
      omega
    · rw [if_neg hs]; exact h
  | output i =>
    simp only [hst]
    have hne : s.worker k ≠ .absent := by rw [hst]; simp
    have hk := hkn hne
    by_cases hw : write_ok k i = true
    · rw [if_pos hw]
      refine ⟨hbey _ hne, hunb _ hne, ?_, hcause _ (by simp)⟩
      show total s.sem n +
        total (fun j => (Function.update s.worker k (.post i) j).in_section) n +
        total (fun j => (Function.update s.worker k (.post i) j).lost) n = 1
      have := section_update s.worker k (.post i) n hk
      have h3 := lost_update s.worker k (.post i) n hk
      rw [hst] at this h3
      change _ + 1 = _ + 1 at this
      change _ + 0 = _ + 0 at h3
      omega
    · rw [if_neg hw]
      refine ⟨hbey _ hne, hunb _ hne, ?_, ?_⟩
      · show total s.sem n +
          total (fun j => (Function.update s.worker k .failed j).in_section) n +
          total (fun j => (Function.update s.worker k .failed j).lost) n = 1
        have := section_update s.worker k .failed n hk
        have h3 := lost_update s.worker k .failed n hk
        rw [hst] at this h3
        change _ + 1 = _ + 0 at this
        change _ + 0 = _ + 1 at h3
        omega
      · intro j hj
        have hj1 : Function.update s.worker k .failed j = .failed := hj
        by_cases hjk : j = k
        · subst hjk
          exact ⟨i, by simpa using hw⟩
        · rw [Function.update_noteq hjk] at hj1
          exact h.cause j hj1
  | post i =>
    simp only [hst]
    have hne : s.worker k ≠ .absent := by rw [hst]; simp
    have hk := hkn hne
    refine ⟨hbey _ hne, hunb _ hne, ?_, hcause _ (by simp)⟩
    show total (Function.update s.sem ((k + 1) % n) (s.sem ((k + 1) % n) + 1)) n +
      total (fun j => (Function.update s.worker k
        (.loop (ex3_condition.wrap32 (i + n))) j).in_section) n +
      total (fun j => (Function.update s.worker k
        (.loop (ex3_condition.wrap32 (i + n))) j).lost) n = 1
    have := section_update s.worker k (.loop (ex3_condition.wrap32 (i + n))) n hk
    have h2 := total_update s.sem ((k + 1) % n) (s.sem ((k + 1) % n) + 1) n
      (Nat.mod_lt _ (by omega))
    have h3 := lost_update s.worker k (.loop (ex3_condition.wrap32 (i + n))) n hk
    rw [hst] at this h3
    change _ + 1 = _ + 0 at this
    change _ + 0 = _ + 0 at h3
    omega

theorem Ring.along_run {fork_ok : Nat → Bool} {write_ok : Nat → Int → Bool} {n : Nat}
    (hn : 1 ≤ n) (sched : List Nat) :
    ∀ s : State, Ring write_ok n s → Ring write_ok n (run fork_ok write_ok n s sched) := by
  induction sched with
  | nil => intro s h; exact h
  | cons p sched ih =>
    intro s h
    cases p with
    | zero => exact ih _ h.parent_step
    | succ k => exact ih _ (h.child_step hn k)

/-- Without a failed `write` no child has left in `exit(1)`. -/
theorem Ring.none_lost {write_ok : Nat → Int → Bool} {n : Nat} {s : State}
    (h : Ring write_ok n s) (hw : ∀ k i, write_ok k i = true) :
    total (fun k => (s.worker k).lost) n = 0 := by
  apply total_zero
  intro k _
  cases hst : s.worker k with
  | failed =>
    obtain ⟨i, hi⟩ := h.cause k hst
    rw [hw k i] at hi
    cases hi
  | _ => rfl

theorem Gone.each_turn (fork_ok : Nat → Bool) (write_ok : Nat → Int → Bool) (s : State)
    (h : Gone s) (p : Nat) : Gone (step fork_ok write_ok 2 s p) := by
  obtain ⟨h0, h1, hw0, hw1, hb, hm⟩ := h
  have ht : terminated s.worker 2 = 1 := by
    simp [terminated, hw0, hw1]
  cases p with
  | zero =>
    unfold step
    rcases hm with hm | hm | hm
    · simp only [hm]
      exact ⟨h0, h1, hw0, hw1, hb, Or.inr (Or.inl rfl)⟩
    · simp only [hm, ht]
      exact ⟨h0, h1, hw0, hw1, hb, Or.inr (Or.inr rfl)⟩
    · simp only [hm, ht]
      exact ⟨h0, h1, hw0, hw1, hb, Or.inr (Or.inr hm)⟩
  | succ k =>
    have e : step fork_ok write_ok 2 s (k + 1) = s := by
      unfold step
      rcases Nat.lt_trichotomy k 1 with hk | hk | hk
      · have : k = 0 := by omega
        subst this
        simp only [hw0]
      · subst hk
        simp only [hw1, h1]
        rfl
      · simp only [hb k (by omega)]
    rw [e]
    exact ⟨h0, h1, hw0, hw1, hb, hm⟩

theorem Gone.every_turn (fork_ok : Nat → Bool) (write_ok : Nat → Int → Bool) (more : List Nat) :
    ∀ s : State, Gone s → Gone (run fork_ok write_ok 2 s more) := by
  induction more with
  | nil => intro s h; exact h
  | cons p more ih => intro s h; exact ih _ (Gone.each_turn fork_ok write_ok s h p)

theorem Gone.after_failed_write (fork_ok : Nat → Bool) (write_ok : Nat → Int → Bool)
    (h0 : fork_ok 0 = true) (h1 : fork_ok 1 = true) (hw : write_ok 0 0 = false) :
    Gone (run fork_ok write_ok 2 init failed_write) := by
  have e : run fork_ok write_ok 2 init failed_write =
      { parent := .forking 2
        worker := Function.update (Function.update (Function.update (Function.update
          (Function.update (Function.update (fun _ => Worker.absent) 0 (.loop 0)) 1 (.loop 1))
          0 (.wait 0)) 0 (.output 0)) 0 .failed) 1 (.wait 1)
        sem := Function.update init.sem 0 0
        out := [] } := by
    simp [run, failed_write, step, init, h0, h1, hw, y_chars]
  rw [e]
  refine ⟨rfl, rfl, rfl, rfl, ?_, Or.inl rfl⟩
  intro k hk
  show Function.update _ _ _ k = _
  rw [Function.update_noteq (by omega), Function.update_noteq (by omega),
    Function.update_noteq (by omega), Function.update_noteq (by omega),
    Function.update_noteq (by omega), Function.update_noteq (by omega)]

theorem Gone.sum_zero (s : State) (h : Gone s) :
    total s.sem 2 + total (fun k => (s.worker k).in_section) 2 = 0 := by
  obtain ⟨h0, h1, hw0, hw1, _, _⟩ := h
  simp only [total, h0, h1, hw0, hw1, Worker.in_section]

end ex4_with_sema

namespace ex3_semaphores

theorem ite_eq_update {β : Type} (f g : Nat → β) (k : Nat) :
    (fun j => if j = k then g j else f j) = Function.update f k (g k) := by
  funext j
  by_cases hj : j = k
  · subst hj; simp
  · simp [hj, Function.update_noteq hj]

theorem thread_step (garbage : Nat → Int) (n : Nat) (st : State) (k : Nat) (hk : k < n) :
    compute_and_output_mandel_line garbage n st k =
      match st.pc k with
      | .compute => { st with pc := Function.update st.pc k .wait }
      | .wait =>
        if 0 < st.sem k then
          { st with
            sem := Function.update st.sem k (st.sem k - 1)
            pc := Function.update st.pc k .output }
        else st
      | .output =>
        { st with
          out := st.out ++ [⟨garbage k, k⟩]
          pc := Function.update st.pc k .post }
      | .post =>
        { st with
          sem := Function.update st.sem ((k + 1) % n) (st.sem ((k + 1) % n) + 1)
          pc := Function.update st.pc k .done }
      | .done => st := by
  unfold compute_and_output_mandel_line
  rw [if_neg (by omega)]
  cases h : st.pc k with
  | compute =>
    simp only [h]
    rw [ite_eq_update st.pc (fun _ => Pc.wait) k]
  | wait =>
    simp only [h]
    rw [ite_eq_update st.pc (fun _ => Pc.output) k,
      ite_eq_update st.sem (fun j => st.sem j - 1) k]
  | output =>
    simp only [h]
    rw [ite_eq_update st.pc (fun _ => Pc.post) k]
  | post =>
    simp only [h]
    rw [ite_eq_update st.pc (fun _ => Pc.done) k,
      ite_eq_update st.sem (fun j => st.sem j + 1) ((k + 1) % n)]
  | done => simp only [h]

theorem pc_section_update (pc : Nat → Pc) (k : Nat) (x : Pc) (n : Nat) (hk : k < n) :
    total (fun j => (Function.update pc k x j).in_section) n + (pc k).in_section =
      total (fun j => (pc j).in_section) n + x.in_section := by
  have e : (fun j => (Function.update pc k x j).in_section) =
      Function.update (fun j => (pc j).in_section) k x.in_section := by
    funext j
    by_cases hj : j = k
    · subst hj; simp
    · simp [Function.update_noteq hj]
  rw [e]
  exact total_update _ k _ n hk

theorem Main.created_le (n : Nat) (m : Main) : m.created n ≤ m.inited n := by
  cases m <;> simp [Main.created, Main.inited]

theorem Ring.of_begin (sem0 : Nat → Nat) (n : Nat) : Ring n (start sem0) where
  le := Nat.zero_le _
  fresh := fun _ _ => rfl
  token := by
    have e2 : total (fun k => ((start sem0).threads.pc k).in_section) n = 0 :=
      total_zero _ _ (fun _ _ => rfl)
    rw [e2]
    show total sem0 0 + 0 ≤ 1
    simp [total]

theorem Ring.main_turn {garbage : Nat → Int} {n : Nat} {s : Program} (h : Ring n s) :
    Ring n (step garbage n s 0) := by
  have hle := h.le
  have hfresh := h.fresh
  have htok := h.token
  unfold step
  cases hm : s.main with
  | init i =>
    simp only [hm, Main.inited, Main.created] at hle hfresh htok ⊢
    by_cases hin : i < n
    · rw [if_pos hin]
      refine ⟨hin, hfresh, ?_⟩
      show total (Function.update s.threads.sem i (if i = 0 then 1 else 0)) (i + 1) +
        total (fun k => (s.threads.pc k).in_section) n ≤ 1
      have e1 : total (Function.update s.threads.sem i (if i = 0 then 1 else 0)) (i + 1) =
          total s.threads.sem i + (if i = 0 then 1 else 0) := by
        show total (Function.update s.threads.sem i (if i = 0 then 1 else 0)) i +
          Function.update s.threads.sem i (if i = 0 then 1 else 0) i = _
        rw [total_update_beyond _ _ _ _ (le_refl i), Function.update_same]
      rw [e1]
      by_cases hi0 : i = 0
      · subst hi0
        have e2 : total (fun k => (s.threads.pc k).in_section) n = 0 :=
          total_zero _ _ (fun k _ => by rw [hfresh k (Nat.zero_le k)]; rfl)
        rw [e2]
        simp [total]
      · rw [if_neg hi0]
        omega
    · rw [if_neg hin]
      have hi : i = n := by omega
      subst hi
      exact ⟨le_refl _, hfresh, htok⟩
  | create i =>
    simp only [hm, Main.inited, Main.created] at hle hfresh htok ⊢
    exact ⟨hle, fun k (hk : i + 1 ≤ k) => hfresh k (by omega), htok⟩
  | join i =>
    simp only [hm, Main.inited, Main.created] at hle hfresh htok ⊢
    by_cases hin : i < n
    · rw [if_pos hin]
      by_cases hd : s.threads.pc i = .done
      · rw [if_pos hd]
        exact ⟨hle, hfresh, htok⟩
      · rw [if_neg hd]
        refine ⟨?_, ?_, ?_⟩
        · rw [hm]; exact hle
        · rw [hm]; exact hfresh
        · rw [hm]; exact htok
    · rw [if_neg hin]
      exact ⟨hle, hfresh, htok⟩
  | finished =>
    simp only [hm]
    exact h

theorem Ring.thread_turn {garbage : Nat → Int} {n : Nat} {s : Program} (h : Ring n s)
    (k : Nat) : Ring n (step garbage n s (k + 1)) := by
  have hle := h.le
  have hfresh := h.fresh
  have htok := h.token
  have hci := Main.created_le n s.main
  unfold step
  simp only
  by_cases hk : k < s.main.created n
  · rw [if_pos hk]
    have hkn : k < n := by omega
    have hkc : k < s.main.inited n := by omega
    have hfr : ∀ x : Pc, ∀ j, s.main.created n ≤ j →
        Function.update s.threads.pc k x j = .compute := by
      intro x j hj
      rw [Function.update_noteq (show j ≠ k by omega)]
      exact hfresh j hj
    rw [ex3_semaphores.thread_step garbage n s.threads k hkn]
    cases hpc : s.threads.pc k with
    | compute =>
      simp only [hpc]
      refine ⟨hle, hfr _, ?_⟩
      show total s.threads.sem (s.main.inited n) +
        total (fun j => (Function.update s.threads.pc k .wait j).in_section) n ≤ 1
      have := pc_section_update s.threads.pc k .wait n hkn
      rw [hpc] at this
      change _ + 0 = _ + 0 at this
      omega
    | wait =>
      simp only [hpc]
      by_cases hs : 0 < s.threads.sem k
      · rw [if_pos hs]
        refine ⟨hle, hfr _, ?_⟩
        show total (Function.update s.threads.sem k (s.threads.sem k - 1)) (s.main.inited n) +
          total (fun j => (Function.update s.threads.pc k .output j).in_section) n ≤ 1
        have := pc_section_update s.threads.pc k .output n hkn
        have h2 := total_update s.threads.sem k (s.threads.sem k - 1) (s.main.inited n) hkc
        rw [hpc] at this
        change _ + 0 = _ + 1 at this
        omega
      · rw [if_neg hs]
        exact h
    | output =>
      simp only [hpc]
      refine ⟨hle, hfr _, ?_⟩
      show total s.threads.sem (s.main.inited n) +
        total (fun j => (Function.update s.threads.pc k .post j).in_section) n ≤ 1
      have := pc_section_update s.threads.pc k .post n hkn
      rw [hpc] at this
      change _ + 1 = _ + 1 at this
      omega
    | post =>
      simp only [hpc]
      refine ⟨hle, hfr _, ?_⟩
      show total (Function.update s.threads.sem ((k + 1) % n)
          (s.threads.sem ((k + 1) % n) + 1)) (s.main.inited n) +
        total (fun j => (Function.update s.threads.pc k .done j).in_section) n ≤ 1
      have := pc_section_update s.threads.pc k .done n hkn
      rw [hpc] at this
      change _ + 1 = _ + 0 at this
      by_cases hin : (k + 1) % n < s.main.inited n
      · have h2 := total_update s.threads.sem ((k + 1) % n)
          (s.threads.sem ((k + 1) % n) + 1) (s.main.inited n) hin
        omega
      · have h2 := total_update_beyond s.threads.sem ((k + 1) % n)
          (s.threads.sem ((k + 1) % n) + 1) (s.main.inited n) (by omega)
        omega
    | done =>
      simp only [hpc]
      exact h
  · rw [if_neg hk]
    exact h

theorem Ring.along_steps {garbage : Nat → Int} {n : Nat} (sched : List Nat) :
    ∀ s : Program, Ring n s → Ring n (steps garbage n s sched) := by
  induction sched with
  | nil => intro s h; exact h
  | cons p sched ih =>
    intro s h
    cases p with
    | zero => exact ih _ h.main_turn
    | succ k => exact ih _ (h.thread_turn k)

end ex3_semaphores

theorem total_one_unique (f : Nat → Nat) (n j k : Nat) (h : total f n ≤ 1) (hj : j < n)
    (hk : k < n) (h1 : f j = 1) (h2 : f k = 1) : j = k := by
  rcases Nat.lt_trichotomy j k with hlt | heq | hgt
  · have := total_two f j k n hlt hk; omega
  · exact heq
  · have := total_two f k j n hgt hj; omega

namespace ex3_semaphores

theorem Stuck.thread_blocked (garbage : Nat → Int) (s : Program) (h : Stuck s) (k : Nat) :
    compute_and_output_mandel_line garbage 2 s.threads k = s.threads := by
  obtain ⟨h0, h1, hp0, hp1, _⟩ := h
  by_cases hk : k < 2
  · rw [ex3_semaphores.thread_step garbage 2 s.threads k hk]
    rcases Nat.lt_succ_iff_lt_or_eq.mp hk with hk0 | hk1
    · have : k = 0 := by omega
      subst this
      simp only [hp0]
    · subst hk1
      simp only [hp1, h1]
      rfl
  · unfold compute_and_output_mandel_line
    rw [if_pos (by omega)]

theorem Stuck.stays (garbage : Nat → Int) (s : Program) (h : Stuck s) (p : Nat) :
    Stuck (step garbage 2 s p) := by
  cases p with
  | zero =>
    obtain ⟨h0, h1, hp0, hp1, hm⟩ := h
    unfold step
    rcases hm with hm | hm | hm
    · simp only [hm]
      exact ⟨h0, h1, hp0, hp1, Or.inr (Or.inl rfl)⟩
    · simp only [hm, hp0]
      exact ⟨h0, h1, hp0, hp1, Or.inr (Or.inr rfl)⟩
    · simp only [hm, hp1]
      exact ⟨h0, h1, hp0, hp1, Or.inr (Or.inr hm)⟩
  | succ k =>
    have e : step garbage 2 s (k + 1) = s := by
      unfold step
      simp only
      rw [Stuck.thread_blocked garbage s h k]
      split <;> rfl
    rw [e]
    exact h

theorem Stuck.forever (garbage : Nat → Int) (more : List Nat) :
    ∀ s : Program, Stuck s → Stuck (steps garbage 2 s more) := by
  induction more with
  | nil => intro s h; exact h
  | cons p more ih => intro s h; exact ih _ (Stuck.stays garbage s h p)

theorem Stuck.no_token (s : Program) (h : Stuck s) :
    s.main.inited 2 = 2 ∧
    total s.threads.sem 2 + total (fun k => (s.threads.pc k).in_section) 2 = 0 := by
  obtain ⟨h0, h1, hp0, hp1, hm⟩ := h
  refine ⟨?_, ?_⟩
  · rcases hm with hm | hm | hm <;> rw [hm] <;> rfl
  · simp only [total, h0, h1, hp0, hp1, Pc.in_section]

/-- Claim C24. In `mandel-shared-memory-with-sema.c`, where all semaphores
are initialised before the first `fork`, for every `n >= 1` and in every
reachable state the semaphores, the children between `sem_wait` and
`sem_post` and the children that called `exit(1)` in `output_mandel_line`
hold exactly one token: at most one child is between `sem_wait` and
`sem_post`, and the sum of the claim is exactly 1 when no `write` fails.
When the `write` of child 0 fails on line 0, with two children, the schedule
`failed_write` leads to a state that is kept forever, in which the sum is 0:
child 1 never leaves its `sem_wait` and the parent never leaves its loop of
`wait`.  In `ex3-mandel-semaphores.c`, where `sem_init(&sem[i], ...)` comes
right before `pthread_create` of thread `i`, the initialised semaphores and
the threads between `sem_wait` and `sem_post` hold at most one token in
every reachable state, and with two threads the schedule `lost_token` leads
to a state that is kept forever, in which both semaphores are initialised
and the sum is 0: thread 1 never leaves its `sem_wait` and `main` never
leaves `pthread_join`. -/
theorem C24_token_ring (garbage : Nat → Int) (sem0 : Nat → Nat) (fork_ok : Nat → Bool)
    (write_ok : Nat → Int → Bool) (n : Nat) (hn : 1 ≤ n) (sched : List Nat) :
    (total (ex4_with_sema.run fork_ok write_ok n ex4_with_sema.init sched).sem n +
      total (fun k =>
        ((ex4_with_sema.run fork_ok write_ok n ex4_with_sema.init sched).worker k).in_section) n +
      total (fun k =>
        ((ex4_with_sema.run fork_ok write_ok n ex4_with_sema.init sched).worker k).lost) n
        = 1) ∧
    ((∀ k i, write_ok k i = true) →
      total (ex4_with_sema.run fork_ok write_ok n ex4_with_sema.init sched).sem n +
        total (fun k =>
          ((ex4_with_sema.run fork_ok write_ok n ex4_with_sema.init sched).worker k).in_section)
          n = 1) ∧
    (∀ j k, j < n → k < n →
      ((ex4_with_sema.run fork_ok write_ok n ex4_with_sema.init sched).worker j).in_section = 1 →
      ((ex4_with_sema.run fork_ok write_ok n ex4_with_sema.init sched).worker k).in_section = 1 →
      j = k) ∧
    (fork_ok 0 = true → fork_ok 1 = true → write_ok 0 0 = false → ∀ more,
      total (ex4_with_sema.run fork_ok write_ok 2 ex4_with_sema.init
          (ex4_with_sema.failed_write ++ more)).sem 2 +
        total (fun k => ((ex4_with_sema.run fork_ok write_ok 2 ex4_with_sema.init
          (ex4_with_sema.failed_write ++ more)).worker k).in_section) 2 = 0 ∧
      (ex4_with_sema.run fork_ok write_ok 2 ex4_with_sema.init
        (ex4_with_sema.failed_write ++ more)).worker 1 = .wait 1 ∧
      (ex4_with_sema.run fork_ok write_ok 2 ex4_with_sema.init
        (ex4_with_sema.failed_write ++ more)).parent ≠ .finished) ∧
    (total (steps garbage n (start sem0) sched).threads.sem
        ((steps garbage n (start sem0) sched).main.inited n) +
      total (fun k => ((steps garbage n (start sem0) sched).threads.pc k).in_section) n ≤ 1) ∧
    (∀ j k, j < n → k < n →
      ((steps garbage n (start sem0) sched).threads.pc j).in_section = 1 →
      ((steps garbage n (start sem0) sched).threads.pc k).in_section = 1 → j = k) ∧
    (∀ more,
      (steps garbage 2 (start sem0) (lost_token ++ more)).main.inited 2 = 2 ∧
      total (steps garbage 2 (start sem0) (lost_token ++ more)).threads.sem 2 +
        total (fun k =>
          ((steps garbage 2 (start sem0) (lost_token ++ more)).threads.pc k).in_section) 2 = 0 ∧
      (steps garbage 2 (start sem0) (lost_token ++ more)).threads.pc 1 = .wait ∧
      (steps garbage 2 (start sem0) (lost_token ++ more)).main ≠ .finished) := by
  have h4 : ex4_with_sema.Ring write_ok n
      (ex4_with_sema.run fork_ok write_ok n ex4_with_sema.init sched) :=
    ex4_with_sema.Ring.along_run hn sched ex4_with_sema.init
      (ex4_with_sema.Ring.at_start write_ok n hn)
  have h3 : Ring n (steps garbage n (start sem0) sched) :=
    Ring.along_steps sched _ (Ring.of_begin sem0 n)
  refine ⟨h4.token, ?_, ?_, ?_, h3.token, ?_, ?_⟩
  · intro hw
    have := h4.token
    have h0 := h4.none_lost hw
    omega
  · intro j k hj hk h1 h2
    have := h4.token
    exact total_one_unique
      (fun k =>
        ((ex4_with_sema.run fork_ok write_ok n ex4_with_sema.init sched).worker k).in_section)
      n j k (by omega) hj hk h1 h2
  · intro hf0 hf1 hw more
    have hg : ex4_with_sema.Gone (ex4_with_sema.run fork_ok write_ok 2 ex4_with_sema.init
        (ex4_with_sema.failed_write ++ more)) := by
      have e : ex4_with_sema.run fork_ok write_ok 2 ex4_with_sema.init
          (ex4_with_sema.failed_write ++ more) =
          ex4_with_sema.run fork_ok write_ok 2
            (ex4_with_sema.run fork_ok write_ok 2 ex4_with_sema.init
              ex4_with_sema.failed_write) more := by
        unfold ex4_with_sema.run
        rw [List.foldl_append]
      rw [e]
      exact ex4_with_sema.Gone.every_turn fork_ok write_ok more _
        (ex4_with_sema.Gone.after_failed_write fork_ok write_ok hf0 hf1 hw)
    refine ⟨ex4_with_sema.Gone.sum_zero _ hg, hg.2.2.2.1, ?_⟩
    rcases hg.2.2.2.2.2 with hm | hm | hm <;> rw [hm] <;> simp
  · intro j k hj hk h1 h2
    have := h3.token
    exact total_one_unique
      (fun k => ((steps garbage n (start sem0) sched).threads.pc k).in_section)
      n j k (by omega) hj hk h1 h2
  · intro more
    have hs0 : Stuck (steps garbage 2 (start sem0) lost_token) :=
      ⟨rfl, rfl, rfl, rfl, Or.inl rfl⟩
    have hs : Stuck (steps garbage 2 (start sem0) (lost_token ++ more)) := by
      have e : steps garbage 2 (start sem0) (lost_token ++ more) =
          steps garbage 2 (steps garbage 2 (start sem0) lost_token) more := by
        unfold steps
        rw [List.foldl_append]
      rw [e]
      exact Stuck.forever garbage more _ hs0
    refine ⟨(Stuck.no_token _ hs).1, (Stuck.no_token _ hs).2, hs.2.2.2.1, ?_⟩
    rcases hs.2.2.2.2 with hm | hm | hm <;> rw [hm] <;> simp

theorem C24_witness :
    1 ≤ 2 ∧
    total (ex4_with_sema.run (fun _ => true) (fun _ _ => false) 2 ex4_with_sema.init
        [0, 0, 1, 1, 2, 1]).sem 2 +
      total (fun k =>
        ((ex4_with_sema.run (fun _ => true) (fun _ _ => false) 2 ex4_with_sema.init
          [0, 0, 1, 1, 2, 1]).worker k).in_section) 2 +
      total (fun k =>
        ((ex4_with_sema.run (fun _ => true) (fun _ _ => false) 2 ex4_with_sema.init
          [0, 0, 1, 1, 2, 1]).worker k).lost) 2 = 1 :=
  ⟨by decide,
    (C24_token_ring (fun _ => 0) (fun _ => 0) (fun _ => true) (fun _ _ => false) 2 (by decide)
      [0, 0, 1, 1, 2, 1]).1⟩

end ex3_semaphores

namespace ex2_signals

theorem wake_only_exits (nr : Nat) (pid_child : Nat → Int) :
    (wake nr pid_child : Prog α).only_exits := by
  unfold wake
  apply Prog.for_range_only_exits _ _ nr
  · intro i s next _ hnext p st; exact hnext _
  · intro s; trivial
  · omega

mutual
theorem signals_fork_procs_only_exits : ∀ (t : tree_node), (fork_procs t : Prog α).only_exits
  | .mk name children => by
    unfold fork_procs
    apply Prog.for_range_only_exits _ _ children.length
    · intro i s next hi hnext p
      by_cases hp : p < 0
      · simp [hp, Prog.only_exits]
      · simp only [hp, if_false]
        by_cases h0 : p = 0
        · simp only [h0, if_true]
          have hc : (fork_procs_at children i : Prog α).only_exits :=
            signals_fork_procs_at_only_exits children i hi
          rw [Prog.seq_eq_self_of_never_returns _ _ (Prog.only_exits_never_returns _ hc)]
          exact hc
        · simp only [h0, if_false, Prog.seq]
          exact hnext _
    · intro s
      by_cases hlen : children.length = 0
      · simp [hlen, Prog.only_exits]
      · simp only [ne_eq, hlen, not_false_eq_true, if_true]
        exact wake_only_exits _ _
    · omega
theorem signals_fork_procs_at_only_exits :
    ∀ (cs : List tree_node) (i : Nat), i < cs.length →
      (fork_procs_at cs i : Prog α).only_exits
  | [], _, h => by simp at h
  | c :: _, 0, _ => by rw [fork_procs_at]; exact signals_fork_procs_only_exits c
  | _ :: cs, i + 1, h => by
    rw [fork_procs_at]; exact signals_fork_procs_at_only_exits cs i (by simpa using h)
end

end ex2_signals

namespace ex2_tree

mutual
theorem tree_fork_procs_only_exits : ∀ (t : tree_node), (fork_procs t : Prog α).only_exits
  | .mk name children => by
    unfold fork_procs
    apply Prog.for_range_only_exits _ _ children.length
    · intro i s next hi hnext p
      by_cases hp : p < 0
      · simp [hp, Prog.only_exits]
      · simp only [hp, if_false]
        by_cases h0 : p = 0
        · simp only [h0, if_true]
          have hc : (fork_procs_at children i : Prog α).only_exits :=
            tree_fork_procs_at_only_exits children i hi
          rw [Prog.seq_eq_self_of_never_returns _ _ (Prog.only_exits_never_returns _ hc)]
          exact hc
        · simp only [h0, if_false, Prog.seq]
          exact hnext _
    · intro s
      by_cases hlen : children.length = 0
      · simp [hlen, Prog.only_exits]
      · simp only [ne_eq, hlen, not_false_eq_true, if_true]
        show (Prog.for_range _ _ _ _ _ : Prog α).only_exits
        apply Prog.for_range_only_exits _ _ children.length
        · intro i s next _ hnext p st; exact hnext _
        · intro s; trivial
        · omega
    · omega
theorem tree_fork_procs_at_only_exits :
    ∀ (cs : List tree_node) (i : Nat), i < cs.length →
      (fork_procs_at cs i : Prog α).only_exits
  | [], _, h => by simp at h
  | c :: _, 0, _ => by rw [fork_procs_at]; exact tree_fork_procs_only_exits c
  | _ :: cs, i + 1, h => by
    rw [fork_procs_at]; exact tree_fork_procs_at_only_exits cs i (by simpa using h)
end

end ex2_tree

/-- Claim C8. A worker of `ex2-pipes` (Leaf or Internal), of `ex2-signals` or
of `ex2-tree`, whatever its calls return: it never returns to its caller and
fails no assertion, so at every moment it is inside a call or has called
`exit`; when it has called `exit` the status is 16, or it is 1 and the
worker has printed an error on standard error; hence every worker that has
ended without an error message, having completed its protocol, has exited
with the same status 16. -/
theorem C8_workers_exit_with_16 (D : DoubleOps α) (P : Prog α)
    (hP : (∃ fd t, P = ex2_pipes.child D fd t) ∨ (∃ t, P = ex2_signals.fork_procs t) ∨
      (∃ t, P = ex2_tree.fork_procs t))
    (rs : List (Resp α)) :
    (∀ a ∈ (P.run rs).1, a.leaves = false) ∧
    ((P.run rs).2 = .pending ∨ (P.run rs).2 = .exited 16 ∨
      ((P.run rs).2 = .exited 1 ∧ ∃ m, Act.stderr m ∈ (P.run rs).1)) ∧
    ((∀ m, Act.stderr m ∉ (P.run rs).1) → (P.run rs).2 ≠ .pending →
      (P.run rs).2 = .exited 16) := by
  have h : P.only_exits ∧ P.exits16 := by
    rcases hP with ⟨fd, t, rfl⟩ | ⟨t, rfl⟩ | ⟨t, rfl⟩
    · exact ⟨ex2_pipes.child_only_exits D t fd, ex2_pipes.child_exits16 D t fd⟩
    · exact ⟨ex2_signals.signals_fork_procs_only_exits t,
        ex2_signals.signals_fork_procs_exits16 t⟩
    · exact ⟨ex2_tree.tree_fork_procs_only_exits t, ex2_tree.tree_fork_procs_exits16 t⟩
  obtain ⟨h1, h2⟩ := Prog.only_exits_run P h.1 rs
  have h3 := Prog.exits16_run P h.2 rs
  have h4 : (P.run rs).2 = .pending ∨ (P.run rs).2 = .exited 16 ∨
      ((P.run rs).2 = .exited 1 ∧ ∃ m, Act.stderr m ∈ (P.run rs).1) := by
    rcases h2 with ⟨s, hs⟩ | hp
    · rcases h3 s hs with e | ⟨e, hm⟩
      · subst e; exact Or.inr (Or.inl hs)
      · subst e; exact Or.inr (Or.inr ⟨hs, hm⟩)
    · exact Or.inl hp
  refine ⟨h1, h4, ?_⟩
  intro hno hnp
  rcases h4 with hp | h16 | ⟨_, m, hm⟩
  · exact absurd hp hnp
  · exact h16
  · exact absurd hm (hno m)

theorem C8_witness :
    ((((ex2_pipes.child intOps ⟨0, true⟩ tree_sum).run
        [answer 0, answer 3, answer 4, answer 0, answer 0, answer 0, answer 3, answer 0,
          answer_read 8 3, answer 0, answer 4, answer 0, answer_read 8 4, answer 8]).2 =
        .exited 16) ∧
      ∀ a ∈ ((ex2_pipes.child intOps ⟨0, true⟩ tree_sum).run
        [answer 0, answer 3, answer 4, answer 0, answer 0, answer 0, answer 3, answer 0,
          answer_read 8 3, answer 0, answer 4, answer 0, answer_read 8 4, answer 8]).1,
        a.leaves = false) ∧
    ((((ex2_pipes.child intOps ⟨1, true⟩ (.mk "3" [])).run
        [answer 0, answer 8, answer 0]).2 = .exited 16) ∧
      ∀ a ∈ ((ex2_pipes.child intOps ⟨1, true⟩ (.mk "3" [])).run
        [answer 0, answer 8, answer 0]).1, a.leaves = false) ∧
    ((((ex2_signals.fork_procs (.mk "A" [.mk "B" [], .mk "C" []]) : Prog Int).run
        [answer 3, answer 4, answer 0, answer 0, answer 0, answer 3, answer 0, answer 4]).2 =
        .exited 16) ∧
      ∀ a ∈ ((ex2_signals.fork_procs (.mk "A" [.mk "B" [], .mk "C" []]) : Prog Int).run
        [answer 3, answer 4, answer 0, answer 0, answer 0, answer 3, answer 0, answer 4]).1,
        a.leaves = false) ∧
    ((((ex2_tree.fork_procs (.mk "A" [.mk "B" [], .mk "C" []]) : Prog Int).run
        [answer 3, answer 4, answer 0, answer 3, answer 4]).2 = .exited 16) ∧
      ∀ a ∈ ((ex2_tree.fork_procs (.mk "A" [.mk "B" [], .mk "C" []]) : Prog Int).run
        [answer 3, answer 4, answer 0, answer 3, answer 4]).1, a.leaves = false) :=
  ⟨⟨by rfl, (C8_workers_exit_with_16 intOps _ (Or.inl ⟨⟨0, true⟩, tree_sum, rfl⟩) _).1⟩,
    ⟨by rfl, (C8_workers_exit_with_16 intOps _ (Or.inl ⟨⟨1, true⟩, .mk "3" [], rfl⟩) _).1⟩,
    ⟨by rfl,
      (C8_workers_exit_with_16 intOps _ (Or.inr (Or.inl ⟨.mk "A" [.mk "B" [], .mk "C" []], rfl⟩)) _).1⟩,
    ⟨by rfl,
      (C8_workers_exit_with_16 intOps _ (Or.inr (Or.inr ⟨.mk "A" [.mk "B" [], .mk "C" []], rfl⟩)) _).1⟩⟩

namespace ex2_pipes

theorem Node.pid_bounds {D : DoubleOps α} {S : Sys α} {p par : Nat} {up : Fd} {t : tree_node}
    {pids qs : List Nat} {st : Stage} (h : Node D S p par up t pids qs st) :
    ∀ x ∈ pids, par < x ∧ p ≤ x ∧ x < S.K.next_pid := by
  induction h with
  | unborn c par up t hwf => intro x hx; simp at hx
  | leaf p par up name pt st h hp hn hpar hup hs hc hfd hcl hst =>
    intro x hx; simp at hx; omega
  | op_new p par up name a b h ha hb hp hn hpar hup hupq hs hc hfd hr hdead hnc hcl =>
    intro x hx; simp at hx; omega
  | op p par up name a b pt q ca cb pa pb qa qb sa sb st h hsa hsb hok hd hdq hp hn hpar hup
      hq hs hc hfd hfd1 hr hdead hnc hbuf hcl hst iha ihb =>
    intro x hx
    rcases List.mem_cons.1 hx with hx | hx
    · omega
    · rcases List.mem_append.1 hx with hx | hx
      · have := iha x hx; omega
      · have := ihb x hx; omega

theorem Node.pipes {D : DoubleOps α} {S : Sys α} {p par : Nat} {up : Fd} {t : tree_node}
    {pids qs : List Nat} {st : Stage} (h : Node D S p par up t pids qs st) :
    ∀ x ∈ qs, up.pipe < x ∧ x < S.K.next_pipe := by
  induction h with
  | unborn c par up t hwf => intro x hx; simp at hx
  | leaf p par up name pt st h hp hn hpar hup hs hc hfd hcl hst => intro x hx; simp at hx
  | op_new p par up name a b h ha hb hp hn hpar hup hupq hs hc hfd hr hdead hnc hcl =>
    intro x hx; simp at hx
  | op p par up name a b pt q ca cb pa pb qa qb sa sb st h hsa hsb hok hd hdq hp hn hpar hup
      hq hs hc hfd hfd1 hr hdead hnc hbuf hcl hst iha ihb =>
    intro x hx
    rcases List.mem_cons.1 hx with hx | hx
    · omega
    · rcases List.mem_append.1 hx with hx | hx
      · have := iha x hx; simp only at this; omega
      · have := ihb x hx; simp only at this; omega

theorem Node.no_repeat {D : DoubleOps α} {S : Sys α} {p par : Nat} {up : Fd} {t : tree_node}
    {pids qs : List Nat} {st : Stage} (h : Node D S p par up t pids qs st) :
    pids.Nodup ∧ qs.Nodup := by
  induction h with
  | unborn c par up t hwf => simp
  | leaf p par up name pt st h hp hn hpar hup hs hc hfd hcl hst => simp
  | op_new p par up name a b h ha hb hp hn hpar hup hupq hs hc hfd hr hdead hnc hcl => simp
  | op p par up name a b pt q ca cb pa pb qa qb sa sb st h hsa hsb hok hd hdq hp hn hpar hup
      hq hs hc hfd hfd1 hr hdead hnc hbuf hcl hst iha ihb =>
    refine ⟨List.nodup_cons.2 ⟨fun hx => ?_, List.Nodup.append iha.1 ihb.1 ?_⟩,
      List.nodup_cons.2 ⟨fun hx => ?_, List.Nodup.append iha.2 ihb.2 ?_⟩⟩
    · rcases List.mem_append.1 hx with hx | hx
      · have := hsa.pid_bounds p hx; omega
      · have := hsb.pid_bounds p hx; omega
    · intro x h1 h2; exact hd x h1 h2
    · rcases List.mem_append.1 hx with hx | hx
      · have := hsa.pipes q hx; simp only at this; omega
      · have := hsb.pipes q hx; simp only at this; omega
    · intro x h1 h2; exact hdq x h1 h2

/-- The workers of a subtree exist exactly when its root worker does. -/
theorem Node.root_in {D : DoubleOps α} {S : Sys α} {p par : Nat} {up : Fd} {t : tree_node}
    {pids qs : List Nat} {st : Stage} (h : Node D S p par up t pids qs st) :
    (st ≠ .unborn → p ∈ pids) ∧ (st = .unborn → pids = [] ∧ qs = []) := by
  cases h with
  | unborn c par up t hwf => simp
  | leaf p par up name pt st h hp hn hpar hup hs hc hfd hcl hst =>
    subst hst; cases pt <;> simp [LeafAt.stage]
  | op_new p par up name a b h ha hb hp hn hpar hup hupq hs hc hfd hr hdead hnc hcl => simp
  | op p par up name a b pt q ca cb pa pb qa qb sa sb st h hsa hsb hok hd hdq hp hn hpar hup
      hq hs hc hfd hfd1 hr hdead hnc hbuf hcl hst =>
    subst hst; cases pt <;> simp [OpAt.stage]

/-- The workers of a subtree are not touched by a change of the other
processes and pipes. -/
theorem Node.carried {D : DoubleOps α} {S S1 : Sys α} {p par : Nat} {up : Fd} {t : tree_node}
    {pids qs : List Nat} {st : Stage} (h : Node D S p par up t pids qs st)
    (hn1 : S.K.next_pid ≤ S1.K.next_pid) (hq1 : S.K.next_pipe ≤ S1.K.next_pipe) :
    (∀ x ∈ pids, S1.K.proc x = S.K.proc x ∧ S1.code x = S.code x ∧
      calls_of x S1.K.trace = calls_of x S.K.trace) →
    (∀ x ∈ qs, S1.K.buf x = S.K.buf x) →
    Node D S1 p par up t pids qs st := by
  induction h with
  | unborn c par up t hwf => intro _ _; exact .unborn c par up t hwf
  | leaf p par up name pt st h hp hn hpar hup hs hc hfd hcl hst =>
    intro hf _
    obtain ⟨e1, e2, e3⟩ := hf p (by simp)
    exact .leaf p par up name pt st h hp (by omega) (by rw [e1]; exact hpar) hup
      (by rw [e1]; exact hs) (by rw [e2]; exact hc) (by rw [e1]; exact hfd)
      (by rw [e3]; exact hcl) hst
  | op_new p par up name a b h ha hb hp hn hpar hup hupq hs hc hfd hr hdead hnc hcl =>
    intro hf _
    obtain ⟨e1, e2, e3⟩ := hf p (by simp)
    exact .op_new p par up name a b h ha hb hp (by omega) (by rw [e1]; exact hpar) hup
      (by omega) (by rw [e1]; exact hs) (by rw [e2]; exact hc) (by rw [e1]; exact hfd)
      (by rw [e1]; exact hr) (by rw [e1]; exact hdead) (by rw [e1]; exact hnc)
      (by rw [e3]; exact hcl)
  | op p par up name a b pt q ca cb pa pb qa qb sa sb st h hsa hsb hok hd hdq hp hn hpar hup
      hq hs hc hfd hfd1 hr hdead hnc hbuf hcl hst iha ihb =>
    intro hf hb
    obtain ⟨e1, e2, e3⟩ := hf p (by simp)
    exact .op p par up name a b pt q ca cb pa pb qa qb sa sb st h
      (iha (fun x hx => hf x (List.mem_cons_of_mem _ (List.mem_append_left _ hx)))
        (fun x hx => hb x (List.mem_cons_of_mem _ (List.mem_append_left _ hx))))
      (ihb (fun x hx => hf x (List.mem_cons_of_mem _ (List.mem_append_right _ hx)))
        (fun x hx => hb x (List.mem_cons_of_mem _ (List.mem_append_right _ hx))))
      hok hd hdq hp (by omega) (by rw [e1]; exact hpar) hup ⟨hq.1, by omega⟩
      (by rw [e1]; exact hs) (by rw [e2]; exact hc) (by rw [e1]; exact hfd)
      (by rw [e1]; exact hfd1) (by rw [e1]; exact hr) (by rw [e1]; exact hdead)
      (by rw [e1]; exact hnc) (by rw [hb q (by simp)]; exact hbuf) (by rw [e3]; exact hcl) hst

/-- In a subtree whose root worker is not forked, is stopped or has
terminated no worker is running. -/
theorem Node.idle {D : DoubleOps α} {S : Sys α} {p par : Nat} {up : Fd} {t : tree_node}
    {pids qs : List Nat} {st : Stage} (h : Node D S p par up t pids qs st) :
    (st = .unborn ∨ st = .building true ∨ st = .zombie ∨ st = .gone) →
    ∀ x ∈ pids, (S.K.proc x).state ≠ .running := by
  induction h with
  | unborn c par up t hwf => intro _ x hx; simp at hx
  | leaf p par up name pt st h hp hn hpar hup hs hc hfd hcl hst =>
    intro hst1 x hx
    simp only [List.mem_singleton] at hx
    subst hx hst
    rw [hs]
    cases pt <;> simp [LeafAt.stage, leaf_state] at hst1 ⊢
  | op_new p par up name a b h ha hb hp hn hpar hup hupq hs hc hfd hr hdead hnc hcl =>
    intro hst1; simp at hst1
  | op p par up name a b pt q ca cb pa pb qa qb sa sb st h hsa hsb hok hd hdq hp hn hpar hup
      hq hs hc hfd hfd1 hr hdead hnc hbuf hcl hst iha ihb =>
    intro hst1 x hx
    subst hst
    have key : (S.K.proc p).state ≠ .running ∧
        (sa = .building true ∨ sa = .gone) ∧ (sb = .building true ∨ sb = .gone) := by
      rw [hs]
      cases pt <;> simp [OpAt.stage, op_state, OpAt.ok] at hst1 hok ⊢ <;> simp [hok]
    rcases List.mem_cons.1 hx with hx | hx
    · subst hx; exact key.1
    · rcases List.mem_append.1 hx with hx | hx
      · exact iha (by rcases key.2.1 with e | e <;> simp [e]) x hx
      · exact ihb (by rcases key.2.2 with e | e <;> simp [e]) x hx

/-- The subtree of a worker is well formed. -/
theorem Node.wf {D : DoubleOps α} {S : Sys α} {p par : Nat} {up : Fd} {t : tree_node}
    {pids qs : List Nat} {st : Stage} (h : Node D S p par up t pids qs st) : WellFormed t := by
  induction h with
  | unborn c par up t hwf => exact hwf
  | leaf p par up name pt st h hp hn hpar hup hs hc hfd hcl hst => exact .leaf name h
  | op_new p par up name a b h ha hb hp hn hpar hup hupq hs hc hfd hr hdead hnc hcl =>
    exact .op name h a b ha hb
  | op p par up name a b pt q ca cb pa pb qa qb sa sb st h hsa hsb hok hd hdq hp hn hpar hup
      hq hs hc hfd hfd1 hr hdead hnc hbuf hcl hst iha ihb =>
    exact .op name h a b iha ihb

/-- The root worker of a subtree that has reported Ready is stopped, and
the one of a subtree that has terminated is a terminated child. -/
theorem Node.root_state {D : DoubleOps α} {S : Sys α} {p par : Nat} {up : Fd} {t : tree_node}
    {pids qs : List Nat} {st : Stage} (h : Node D S p par up t pids qs st) :
    (st = .building true → ∃ kc, (S.K.proc p).state = .stopped kc) ∧
    (st = .zombie → (S.K.proc p).state = .zombie (W_EXITED 16)) ∧
    (st ≠ .unborn → par < p ∧ p < S.K.next_pid ∧ (S.K.proc p).parent = par) := by
  cases h with
  | unborn c par up t hwf => simp
  | leaf p par up name pt st h hp hn hpar hup hs hc hfd hcl hst =>
    subst hst
    refine ⟨?_, ?_, fun _ => ⟨hp, hn, hpar⟩⟩
    · intro e; rw [hs]; cases pt <;> simp [LeafAt.stage, leaf_state] at e ⊢
    · intro e; rw [hs]; cases pt <;> simp [LeafAt.stage, leaf_state] at e ⊢
  | op_new p par up name a b h ha hb hp hn hpar hup hupq hs hc hfd hr hdead hnc hcl =>
    exact ⟨by simp, by simp, fun _ => ⟨hp, hn, hpar⟩⟩
  | op p par up name a b pt q ca cb pa pb qa qb sa sb st h hsa hsb hok hd hdq hp hn hpar hup
      hq hs hc hfd hfd1 hr hdead hnc hbuf hcl hst =>
    subst hst
    refine ⟨?_, ?_, fun _ => ⟨hp, hn, hpar⟩⟩
    · intro e; rw [hs]; cases pt <;> simp [OpAt.stage, op_state] at e ⊢
    · intro e; rw [hs]; cases pt <;> simp [OpAt.stage, op_state] at e ⊢

end ex2_pipes

namespace Sys

theorem step_write (S : Sys α) (q : Nat) (fd : Fd) (v : α) (k : Int → Prog α) (h0 : 0 < q)
    (hn : q < S.K.next_pid) (hs : (S.K.proc q).state = .running)
    (hc : S.code q = .write fd v k) (hfd : fd ∈ (S.K.proc q).fds) (hwr : fd.wr = true) :
    S.step q = S.goes q (S.K.put q fd v) (k sizeof_double) := by
  unfold Sys.step
  rw [if_neg (by omega)]
  simp only [hs, hc, hfd, hwr, and_self, if_true]

theorem step_close (S : Sys α) (q : Nat) (fd : Fd) (k : Prog α) (h0 : 0 < q)
    (hn : q < S.K.next_pid) (hs : (S.K.proc q).state = .running)
    (hc : S.code q = .close fd k) :
    S.step q = S.goes q (S.K.closed q fd) k := by
  unfold Sys.step
  rw [if_neg (by omega)]
  simp only [hs, hc]

theorem step_exit (S : Sys α) (q : Nat) (s : Nat) (h0 : 0 < q)
    (hn : q < S.K.next_pid) (hs : (S.K.proc q).state = .running)
    (hc : S.code q = .exit s) :
    S.step q = ⟨(S.K.log q (.exit s)).terminate q (W_EXITED s), S.code⟩ := by
  unfold Sys.step
  rw [if_neg (by omega)]
  simp only [hs, hc]

theorem step_wait_dead (S : Sys α) (q : Nat) (k : Int → Int → Prog α) (c : Nat) (st : Int)
    (rest : List (Nat × Int)) (h0 : 0 < q)
    (hn : q < S.K.next_pid) (hs : (S.K.proc q).state = .running)
    (hc : S.code q = .wait k) (hd : (S.K.proc q).dead = (c, st) :: rest) :
    S.step q = S.goes q (S.K.reaped q c st rest) (k c st) := by
  unfold Sys.step
  rw [if_neg (by omega)]
  simp only [hs, hc, hd]

theorem step_wait_block (S : Sys α) (q : Nat) (k : Int → Int → Prog α) (h0 : 0 < q)
    (hn : q < S.K.next_pid) (hs : (S.K.proc q).state = .running)
    (hc : S.code q = .wait k) (hd : (S.K.proc q).dead = [])
    (hnc : (S.K.proc q).nchild ≠ 0) :
    S.step q = S := by
  unfold Sys.step
  rw [if_neg (by omega)]
  simp only [hs, hc, hd, hnc, if_false]

theorem step_read (S : Sys α) (q : Nat) (fd : Fd) (k : Int → Option α → Prog α) (v : α)
    (vs : List α) (h0 : 0 < q)
    (hn : q < S.K.next_pid) (hs : (S.K.proc q).state = .running)
    (hc : S.code q = .read fd k) (hfd : fd ∈ (S.K.proc q).fds) (hwr : fd.wr = false)
    (hb : S.K.buf fd.pipe = v :: vs) :
    S.step q = S.goes q (S.K.got q fd v vs) (k sizeof_double (some v)) := by
  unfold Sys.step
  rw [if_neg (by omega)]
  simp only [hs, hc, hfd, hwr, and_self, if_true, hb]

end Sys

namespace ex2_pipes

theorem Stage.next_self (st : Stage) : st.next st := by
  rcases st with _ | (_ | _) | (_ | _) | _ | _ <;> simp [Stage.next]

theorem Moves.unmoved (D : DoubleOps α) (S : Sys α) (p par : Nat) (up : Fd) (t : tree_node)
    (pids qs : List Nat) (st : Stage) : Moves D S S p par up t pids pids qs qs st st where
  sub := fun _ h => h
  new := fun _ h => Or.inl h
  pid := Or.inl rfl
  qsub := fun _ h => h
  qnew := fun _ h => Or.inl h
  pipe := Or.inl rfl
  next := Stage.next_self st
  out := fun _ _ _ => ⟨rfl, rfl⟩
  par_proc := by rcases st with _ | (_ | _) | (_ | _) | _ | _ <;> simp [Stage.dead]
  par_code := rfl
  bufs := fun _ _ _ => rfl
  up_buf := by simp
  files := rfl
  trace := ⟨[], by simp, by simp⟩

/-- The calls of a process outside the subtree are not changed by a turn of
a worker of the subtree. -/
theorem Moves.calls_same {D : DoubleOps α} {S S1 : Sys α} {p par : Nat} {up : Fd}
    {t : tree_node} {pids pids1 qs qs1 : List Nat} {st st1 : Stage}
    (h : Moves D S S1 p par up t pids pids1 qs qs1 st st1) (x : Nat) (hx : x ∉ pids1) :
    calls_of x S1.K.trace = calls_of x S.K.trace := by
  obtain ⟨es, e1, e2⟩ := h.trace
  rw [e1]
  exact calls_of_append_other x _ es fun e he hex => hx (hex ▸ e2 e he)

theorem Moves.pid_mono {D : DoubleOps α} {S S1 : Sys α} {p par : Nat} {up : Fd}
    {t : tree_node} {pids pids1 qs qs1 : List Nat} {st st1 : Stage}
    (h : Moves D S S1 p par up t pids pids1 qs qs1 st st1) :
    S.K.next_pid ≤ S1.K.next_pid ∧ S.K.next_pipe ≤ S1.K.next_pipe := by
  refine ⟨?_, ?_⟩
  · rcases h.pid with e | e <;> omega
  · rcases h.pipe with e | e <;> omega

/-- A subtree is not touched by a turn of a worker of another subtree of the
same parent. -/
theorem Node.beside {D : DoubleOps α} {S S1 : Sys α} {p c : Nat} {q : Nat} {t : tree_node}
    {pb qb : List Nat} {sb : Stage} (h : Node D S c p ⟨q, true⟩ t pb qb sb)
    {c1 : Nat} {t1 : tree_node} {pa pa1 qa qa1 : List Nat} {sa sa1 : Stage}
    (he : Moves D S S1 c1 p ⟨q, true⟩ t1 pa pa1 qa qa1 sa sa1)
    (hd : ∀ x ∈ pb, x ∉ pa1) (hdq : ∀ x ∈ qb, x ∉ qa1) : Node D S1 c p ⟨q, true⟩ t pb qb sb := by
  refine h.carried he.pid_mono.1 he.pid_mono.2 (fun x hx => ?_) (fun x hx => ?_)
  · have hxp : x ≠ p := by have := h.pid_bounds x hx; omega
    obtain ⟨e1, e2⟩ := he.out x (hd x hx) hxp
    exact ⟨e1, e2, he.calls_same x (hd x hx)⟩
  · have hxq : x ≠ q := by have := h.pipes x hx; simp only at this; omega
    exact he.bufs x (hdq x hx) hxq

/-- A turn of a worker that is not running changes nothing. -/
theorem Node.turn_idle {D : DoubleOps α} {S : Sys α} {p par : Nat} {up : Fd} {t : tree_node}
    {pids qs : List Nat} {st : Stage} (h : Node D S p par up t pids qs st) (x : Nat)
    (hx : (S.K.proc x).state ≠ .running) : Turns D S x p par up t pids qs st := by
  unfold Turns
  rw [S.step_of_not_running x hx]
  exact ⟨pids, qs, st, h, Moves.unmoved D S p par up t pids qs st⟩

theorem leaf_calls_succ (D : DoubleOps α) (up : Fd) (name : String) (pt pt1 : LeafAt)
    (a : Act α) (h : pt1.count = pt.count + 1)
    (ha : [Act.fork 0, .raise_SIGSTOP, .write up (D.atof name) sizeof_double, .close up,
      .exit 16][pt.count]? = some a) :
    leaf_calls D up name pt ++ [a] = leaf_calls D up name pt1 := by
  unfold leaf_calls
  rw [h]
  cases pt <;> simp [LeafAt.count] at ha ⊢ <;> exact ha.symm

theorem eval_leaf (D : DoubleOps α) (name : String) : eval D (.mk name []) = D.atof name := by
  simp [eval]

/-- The turn of a Leaf worker. -/
theorem Node.turn_leaf {D : DoubleOps α} {S : Sys α}
    (p par : Nat) (up : Fd) (name : String) (pt : LeafAt)
    (h : ¬ (name = "+" ∨ name = "*")) (hp : par < p) (hn : p < S.K.next_pid)
    (hpar : (S.K.proc p).parent = par) (hup : up.wr = true)
    (hs : (S.K.proc p).state = leaf_state D up name pt)
    (hc : pt.runs = true → S.code p = leaf_code D up name pt)
    (hfd : pt.holds = true → up ∈ (S.K.proc p).fds)
    (hcl : calls_of p S.K.trace = leaf_calls D up name pt) :
    Turns D S p p par up (.mk name []) [p] [] pt.stage := by
  have hne : (S.K.proc p).parent ≠ p := by rw [hpar]; omega
  have hpp : par ≠ p := by omega
  have hidle : (S.K.proc p).state ≠ .running →
      Turns D S p p par up (.mk name []) [p] [] pt.stage := fun hx =>
    (Node.leaf p par up name pt _ h hp hn hpar hup hs hc hfd hcl rfl).turn_idle p hx
  cases pt with
  | ready => exact hidle (by rw [hs]; simp [leaf_state])
  | zombie => exact hidle (by rw [hs]; simp [leaf_state])
  | gone => exact hidle (by rw [hs]; simp [leaf_state])
  | new =>
    have hc1 := hc rfl
    simp only [leaf_code] at hc1
    rw [child_leaf D up name h] at hc1
    unfold Turns
    rw [S.step_raise p _ (by omega) hn hs hc1]
    refine ⟨[p], [], _, .leaf p par up name .ready _ h hp hn ?_ hup ?_ (by simp [LeafAt.runs])
      ?_ ?_ rfl, ?_⟩
    · dsimp only; rw [Kernel.halted_proc_self _ _ _ hne]; exact hpar
    · dsimp only; rw [Kernel.halted_proc_self _ _ _ hne]; rfl
    · intro _; dsimp only; rw [Kernel.halted_proc_self _ _ _ hne]; exact hfd rfl
    · dsimp only; rw [Kernel.halted_trace, calls_of_append, hcl]
      simp [calls_of, leaf_calls, LeafAt.count]
    · refine ⟨fun _ h => h, fun _ h => Or.inl h, Or.inl rfl, fun _ h => h, fun _ h => Or.inl h,
        Or.inl rfl, by simp [LeafAt.stage, Stage.next], ?_, ?_, rfl, fun _ _ _ => rfl,
        by simp [LeafAt.stage, Stage.sent], rfl, ⟨[(p, .raise_SIGSTOP)], rfl, by simp⟩⟩
      · intro x hx hxp
        refine ⟨?_, rfl⟩
        dsimp only
        exact Kernel.halted_proc_other _ _ _ _ (by simpa using hx) (by rw [hpar]; exact hxp)
      · dsimp only
        have := Kernel.halted_proc_parent S.K p (send D up name) hne
        rw [hpar] at this
        rw [this]; simp [LeafAt.stage, Stage.raised, Stage.dead]
  | woken =>
    have hc1 := hc rfl
    simp only [leaf_code, send] at hc1
    unfold Turns
    rw [S.step_write p _ _ _ (by omega) hn hs hc1 (hfd rfl) hup]
    refine ⟨[p], [], _, .leaf p par up name .written _ h hp hn ?_ hup ?_ ?_
      (by simp [LeafAt.holds]) ?_ rfl, ?_⟩
    · simp [Sys.goes, hpar]
    · simp [Sys.goes, hs, leaf_state]
    · intro _; simp [Sys.goes, leaf_code]
    · simp only [Sys.goes, Kernel.put_trace, calls_of_append, hcl]
      simp [calls_of, leaf_calls, LeafAt.count]
    · refine ⟨fun _ h => h, fun _ h => Or.inl h, Or.inl rfl, fun _ h => h, fun _ h => Or.inl h,
        Or.inl rfl, by simp [LeafAt.stage, Stage.next], ?_, ?_, ?_, ?_, ?_, rfl,
        ⟨_, Kernel.put_trace _ _ _ _, by simp⟩⟩
      · intro x hx hxp
        have : x ≠ p := by simpa using hx
        simp [Sys.goes, this]
      · simp [Sys.goes, LeafAt.stage, Stage.raised, Stage.dead]
      · simp [Sys.goes, hpp]
      · intro x _ hx; simp [Sys.goes, hx]
      · simp [Sys.goes, LeafAt.stage, Stage.sent, eval_leaf]
  | written =>
    have hc1 := hc rfl
    simp only [leaf_code] at hc1
    unfold Turns
    rw [S.step_close p _ _ (by omega) hn hs hc1]
    refine ⟨[p], [], _, .leaf p par up name .closed _ h hp hn ?_ hup ?_ ?_
      (by simp [LeafAt.holds]) ?_ rfl, ?_⟩
    · simp [Sys.goes, hpar]
    · simp [Sys.goes, hs, leaf_state]
    · intro _; simp [Sys.goes, leaf_code]
    · simp only [Sys.goes, Kernel.closed_trace, calls_of_append, hcl]
      simp [calls_of, leaf_calls, LeafAt.count]
    · refine ⟨fun _ h => h, fun _ h => Or.inl h, Or.inl rfl, fun _ h => h, fun _ h => Or.inl h,
        Or.inl rfl, by simp [LeafAt.stage, Stage.next], ?_, ?_, ?_, ?_, ?_, rfl,
        ⟨_, Kernel.closed_trace _ _ _, by simp⟩⟩
      · intro x hx hxp
        have : x ≠ p := by simpa using hx
        simp [Sys.goes, this]
      · simp [Sys.goes, hpp, LeafAt.stage, Stage.raised, Stage.dead]
      · simp [Sys.goes, hpp]
      · intro x _ hx; simp [Sys.goes]
      · simp [Sys.goes, LeafAt.stage, Stage.sent]
  | closed =>
    have hc1 := hc rfl
    simp only [leaf_code] at hc1
    unfold Turns
    rw [S.step_exit p _ (by omega) hn hs hc1]
    have hne1 : ((S.K.log p (.exit 16)).proc p).parent ≠ p := by simpa using hne
    refine ⟨[p], [], _, .leaf p par up name .zombie _ h hp hn ?_ hup ?_
      (by simp [LeafAt.runs]) (by simp [LeafAt.holds]) ?_ rfl, ?_⟩
    · dsimp only; rw [Kernel.terminate_proc_self _ _ _ hne1]; simpa using hpar
    · dsimp only; rw [Kernel.terminate_proc_self _ _ _ hne1]; rfl
    · dsimp only; rw [Kernel.terminate_trace, Kernel.log_trace, calls_of_append, hcl]
      simp [calls_of, leaf_calls, LeafAt.count]
    · refine ⟨fun _ h => h, fun _ h => Or.inl h, Or.inl rfl, fun _ h => h, fun _ h => Or.inl h,
        Or.inl rfl, by simp [LeafAt.stage, Stage.next], ?_, ?_, rfl, ?_, ?_, rfl,
        ⟨[(p, .exit 16)], rfl, by simp⟩⟩
      · intro x hx hxp
        refine ⟨?_, rfl⟩
        dsimp only
        rw [Kernel.terminate_proc_other _ _ _ _ (by simpa using hx)
          (by simp only [Kernel.log_proc]; rw [hpar]; exact hxp)]
        rfl
      · dsimp only
        have := Kernel.terminate_proc_parent (S.K.log p (.exit 16)) p (W_EXITED 16) hne1
        simp only [Kernel.log_proc] at this
        rw [hpar] at this
        rw [this]; simp [LeafAt.stage, Stage.raised, Stage.dead]
      · intro x _ _; rfl
      · simp [LeafAt.stage, Stage.sent]


theorem OpAt.ok_left {pt : OpAt} {sa sb sa1 : Stage} (hok : pt.ok sa sb) (hn : sa.next sa1) :
    pt.ok sa1 sb := by
  rcases sa with _ | (_ | _) | (_ | _) | _ | _ <;>
    rcases sa1 with _ | (_ | _) | (_ | _) | _ | _ <;>
    (try (simp [Stage.next] at hn; done)) <;>
    cases pt <;> simp_all [OpAt.ok]

theorem OpAt.ok_right {pt : OpAt} {sa sb sb1 : Stage} (hok : pt.ok sa sb) (hn : sb.next sb1) :
    pt.ok sa sb1 := by
  rcases sb with _ | (_ | _) | (_ | _) | _ | _ <;>
    rcases sb1 with _ | (_ | _) | (_ | _) | _ | _ <;>
    (try (simp [Stage.next] at hn; done)) <;>
    cases pt <;> simp_all [OpAt.ok]

theorem OpAt.ready_left {pt : OpAt} {sa sb sa1 : Stage} (hok : pt.ok sa sb)
    (hn : sa.next sa1) :
    pt.ready_count sa1 sb = pt.ready_count sa sb + (sa1.raised - sa.raised) := by
  rcases sa with _ | (_ | _) | (_ | _) | _ | _ <;>
    rcases sa1 with _ | (_ | _) | (_ | _) | _ | _ <;>
    (try (simp [Stage.next] at hn; done)) <;>
    cases pt <;> (simp_all [OpAt.ok, OpAt.ready_count, Stage.raised]; try omega)

theorem OpAt.ready_right {pt : OpAt} {sa sb sb1 : Stage} (hok : pt.ok sa sb)
    (hn : sb.next sb1) :
    pt.ready_count sa sb1 = pt.ready_count sa sb + (sb1.raised - sb.raised) := by
  rcases sb with _ | (_ | _) | (_ | _) | _ | _ <;>
    rcases sb1 with _ | (_ | _) | (_ | _) | _ | _ <;>
    (try (simp [Stage.next] at hn; done)) <;>
    cases pt <;> simp_all [OpAt.ok, OpAt.ready_count, Stage.raised]

theorem OpAt.dead_left {pt : OpAt} {sa sb sa1 : Stage} (ca cb : Nat) (hok : pt.ok sa sb)
    (hn : sa.next sa1) :
    sa1.dead ca ++ sb.dead cb =
      sa.dead ca ++ sb.dead cb ++ (if sa = .zombie then [] else sa1.dead ca) := by
  rcases sa with _ | (_ | _) | (_ | _) | _ | _ <;>
    rcases sa1 with _ | (_ | _) | (_ | _) | _ | _ <;>
    (try (simp [Stage.next] at hn; done)) <;>
    cases pt <;> simp_all [OpAt.ok, Stage.dead]

theorem OpAt.dead_right {pt : OpAt} {sa sb sb1 : Stage} (ca cb : Nat) (hok : pt.ok sa sb)
    (hn : sb.next sb1) :
    sa.dead ca ++ sb1.dead cb =
      sa.dead ca ++ sb.dead cb ++ (if sb = .zombie then [] else sb1.dead cb) := by
  rcases sb with _ | (_ | _) | (_ | _) | _ | _ <;>
    rcases sb1 with _ | (_ | _) | (_ | _) | _ | _ <;>
    (try (simp [Stage.next] at hn; done)) <;>
    cases pt <;> simp_all [OpAt.ok, Stage.dead]

theorem Stage.kid_next {s s1 : Stage} (hn : s.next s1) : s1.kid = s.kid := by
  rcases s with _ | (_ | _) | (_ | _) | _ | _ <;>
    rcases s1 with _ | (_ | _) | (_ | _) | _ | _ <;>
    simp_all [Stage.next, Stage.kid]

theorem op_buf_left (D : DoubleOps α) (a b : tree_node) {pt : OpAt} {sa sb sa1 : Stage}
    (hok : pt.ok sa sb) (hn : sa.next sa1) :
    op_buf D a b pt sa1 sb =
      op_buf D a b pt sa sb ++ (if sa.sent = false ∧ sa1.sent = true then [eval D a] else []) := by
  rcases sa with _ | (_ | _) | (_ | _) | _ | _ <;>
    rcases sa1 with _ | (_ | _) | (_ | _) | _ | _ <;>
    (try (simp [Stage.next] at hn; done)) <;>
    cases pt <;> simp_all [OpAt.ok, op_buf, Stage.sent]

theorem op_buf_right (D : DoubleOps α) (a b : tree_node) {pt : OpAt} {sa sb sb1 : Stage}
    (hok : pt.ok sa sb) (hn : sb.next sb1) :
    op_buf D a b pt sa sb1 =
      op_buf D a b pt sa sb ++ (if sb.sent = false ∧ sb1.sent = true then [eval D b] else []) := by
  rcases sb with _ | (_ | _) | (_ | _) | _ | _ <;>
    rcases sb1 with _ | (_ | _) | (_ | _) | _ | _ <;>
    (try (simp [Stage.next] at hn; done)) <;>
    cases pt <;> simp_all [OpAt.ok, op_buf, Stage.sent]

theorem Stage.par_same (r : Proc α) (p : Nat) (st : Stage) :
    ({ r with ready := r.ready + (st.raised - st.raised),
              dead := r.dead ++ (if st = .zombie then [] else st.dead p) } : Proc α) = r := by
  rcases st with _ | (_ | _) | (_ | _) | _ | _ <;> simp [Stage.dead]

/-- The turn of a worker below the first child of an Internal worker. -/
theorem Node.below_left {D : DoubleOps α} {S : Sys α} (x : Nat)
    (p par : Nat) (up : Fd) (name : String) (a b : tree_node) (pt : OpAt)
    (q ca cb : Nat) (pa pb qa qb : List Nat) (sa sb : Stage)
    (h : name = "+" ∨ name = "*")
    (_hsa : Node D S ca p ⟨q, true⟩ a pa qa sa) (hsb : Node D S cb p ⟨q, true⟩ b pb qb sb)
    (hok : pt.ok sa sb) (hd : ∀ x ∈ pa, x ∉ pb) (hdq : ∀ x ∈ qa, x ∉ qb)
    (hp : par < p) (hn : p < S.K.next_pid)
    (hpar : (S.K.proc p).parent = par) (hup : up.wr = true)
    (hq : up.pipe < q ∧ q < S.K.next_pipe)
    (hs : (S.K.proc p).state = op_state D up name a b q ca cb pt)
    (hc : pt.runs = true → S.code p = op_code D up name a b q ca cb pt)
    (hfd : pt.alive = true → up ∈ (S.K.proc p).fds ∧ ⟨q, false⟩ ∈ (S.K.proc p).fds)
    (hfd1 : pt.forks = true → ⟨q, true⟩ ∈ (S.K.proc p).fds)
    (hr : (S.K.proc p).ready = pt.ready_count sa sb)
    (hdead : (S.K.proc p).dead = sa.dead ca ++ sb.dead cb)
    (hnc : (S.K.proc p).nchild = sa.kid + sb.kid)
    (hbuf : S.K.buf q = op_buf D a b pt sa sb)
    (hcl : calls_of p S.K.trace = op_calls D up name a b q ca cb pt)
    (ht : Turns D S x ca p ⟨q, true⟩ a pa qa sa) :
    Turns D S x p par up (.mk name [a, b]) (p :: (pa ++ pb)) (q :: (qa ++ qb)) pt.stage := by
  obtain ⟨pa1, qa1, sa1, hsa1, hm⟩ := ht
  have hb1 := hsa1.pid_bounds
  have hq1 := hsa1.pipes
  have hbb := hsb.pid_bounds
  have hqb := hsb.pipes
  have hmono := hm.pid_mono
  have hd1 : ∀ y ∈ pa1, y ∉ pb := by
    intro y hy hyb
    rcases hm.new y hy with e | e
    · exact hd y e hyb
    · have := hbb y hyb; omega
  have hdq1 : ∀ y ∈ qa1, y ∉ qb := by
    intro y hy hyb
    rcases hm.qnew y hy with e | e
    · exact hdq y e hyb
    · have := hqb y hyb; omega
  have hppa : p ∉ pa1 := fun e => by have := hb1 p e; omega
  have hsb1 := hsb.beside hm (fun y hy e => hd1 y e hy) (fun y hy e => hdq1 y e hy)
  have hpr := hm.par_proc
  refine ⟨p :: (pa1 ++ pb), q :: (qa1 ++ qb), pt.stage,
    .op p par up name a b pt q ca cb pa1 pb qa1 qb sa1 sb _ h hsa1 hsb1
      (OpAt.ok_left hok hm.next) hd1 hdq1 hp (by omega) (by rw [hpr]; exact hpar) hup
      ⟨hq.1, by omega⟩ (by rw [hpr]; exact hs) (by rw [hm.par_code]; exact hc)
      (by rw [hpr]; exact hfd) (by rw [hpr]; exact hfd1) ?_ ?_ ?_ ?_
      (by rw [hm.calls_same p hppa]; exact hcl) rfl, ?_⟩
  · rw [hpr]; simp only; rw [hr, OpAt.ready_left hok hm.next]
  · rw [hpr]; simp only; rw [hdead, OpAt.dead_left ca cb hok hm.next]
  · rw [hpr]; simp only; rw [hnc, Stage.kid_next hm.next]
  · have := hm.up_buf
    simp only at this
    rw [this, hbuf, op_buf_left D a b hok hm.next]
  · have hpar1 : par ∉ pa1 := fun e => by have := hb1 par e; omega
    have hupq : up.pipe ∉ qa1 := fun e => by have := hq1 _ e; simp only at this; omega
    refine ⟨?_, ?_, ?_, ?_, ?_, ?_, Stage.next_self _, ?_, ?_, ?_, ?_, ?_, hm.files, ?_⟩
    · intro y hy
      rcases List.mem_cons.1 hy with e | e
      · simp [e]
      · rcases List.mem_append.1 e with e | e
        · simp [hm.sub y e]
        · simp [e]
    · intro y hy
      rcases List.mem_cons.1 hy with e | e
      · simp [e]
      · rcases List.mem_append.1 e with e | e
        · rcases hm.new y e with e | e
          · simp [e]
          · exact Or.inr e
        · simp [e]
    · rcases hm.pid with e | e
      · exact Or.inl e
      · exact Or.inr ⟨e.1, by simp [e.2]⟩
    · intro y hy
      rcases List.mem_cons.1 hy with e | e
      · simp [e]
      · rcases List.mem_append.1 e with e | e
        · simp [hm.qsub y e]
        · simp [e]
    · intro y hy
      rcases List.mem_cons.1 hy with e | e
      · simp [e]
      · rcases List.mem_append.1 e with e | e
        · rcases hm.qnew y e with e | e
          · simp [e]
          · exact Or.inr e
        · simp [e]
    · rcases hm.pipe with e | e
      · exact Or.inl e
      · exact Or.inr ⟨e.1, by simp [e.2]⟩
    · intro y hy hyp
      simp only [List.mem_cons, List.mem_append, not_or] at hy
      exact hm.out y hy.2.1 hy.1
    · rw [(hm.out par hpar1 (by omega)).1, Stage.par_same]
    · exact (hm.out par hpar1 (by omega)).2
    · intro y hy hyu
      simp only [List.mem_cons, List.mem_append, not_or] at hy
      exact hm.bufs y hy.2.1 hy.1
    · rw [hm.bufs up.pipe hupq (by simp only; omega)]
      simp
    · obtain ⟨es, e1, e2⟩ := hm.trace
      exact ⟨es, e1, fun e he => by simp [e2 e he]⟩

/-- The turn of a worker below the second child of an Internal worker. -/
theorem Node.below_right {D : DoubleOps α} {S : Sys α} (x : Nat)
    (p par : Nat) (up : Fd) (name : String) (a b : tree_node) (pt : OpAt)
    (q ca cb : Nat) (pa pb qa qb : List Nat) (sa sb : Stage)
    (h : name = "+" ∨ name = "*")
    (hsa : Node D S ca p ⟨q, true⟩ a pa qa sa) (_hsb : Node D S cb p ⟨q, true⟩ b pb qb sb)
    (hok : pt.ok sa sb) (hd : ∀ x ∈ pa, x ∉ pb) (hdq : ∀ x ∈ qa, x ∉ qb)
    (hp : par < p) (hn : p < S.K.next_pid)
    (hpar : (S.K.proc p).parent = par) (hup : up.wr = true)
    (hq : up.pipe < q ∧ q < S.K.next_pipe)
    (hs : (S.K.proc p).state = op_state D up name a b q ca cb pt)
    (hc : pt.runs = true → S.code p = op_code D up name a b q ca cb pt)
    (hfd : pt.alive = true → up ∈ (S.K.proc p).fds ∧ ⟨q, false⟩ ∈ (S.K.proc p).fds)
    (hfd1 : pt.forks = true → ⟨q, true⟩ ∈ (S.K.proc p).fds)
    (hr : (S.K.proc p).ready = pt.ready_count sa sb)
    (hdead : (S.K.proc p).dead = sa.dead ca ++ sb.dead cb)
    (hnc : (S.K.proc p).nchild = sa.kid + sb.kid)
    (hbuf : S.K.buf q = op_buf D a b pt sa sb)
    (hcl : calls_of p S.K.trace = op_calls D up name a b q ca cb pt)
    (ht : Turns D S x cb p ⟨q, true⟩ b pb qb sb) :
    Turns D S x p par up (.mk name [a, b]) (p :: (pa ++ pb)) (q :: (qa ++ qb)) pt.stage := by
  obtain ⟨pb1, qb1, sb1, hsb1, hm⟩ := ht
  have hb1 := hsb1.pid_bounds
  have hq1 := hsb1.pipes
  have hba := hsa.pid_bounds
  have hqa := hsa.pipes
  have hmono := hm.pid_mono
  have hd1 : ∀ y ∈ pa, y ∉ pb1 := by
    intro y hy hyb
    rcases hm.new y hyb with e | e
    · exact hd y hy e
    · have := hba y hy; omega
  have hdq1 : ∀ y ∈ qa, y ∉ qb1 := by
    intro y hy hyb
    rcases hm.qnew y hyb with e | e
    · exact hdq y hy e
    · have := hqa y hy; omega
  have hppa : p ∉ pb1 := fun e => by have := hb1 p e; omega
  have hsa1 := hsa.beside hm hd1 hdq1
  have hpr := hm.par_proc
  refine ⟨p :: (pa ++ pb1), q :: (qa ++ qb1), pt.stage,
    .op p par up name a b pt q ca cb pa pb1 qa qb1 sa sb1 _ h hsa1 hsb1
      (OpAt.ok_right hok hm.next) hd1 hdq1 hp (by omega) (by rw [hpr]; exact hpar) hup
      ⟨hq.1, by omega⟩ (by rw [hpr]; exact hs) (by rw [hm.par_code]; exact hc)
      (by rw [hpr]; exact hfd) (by rw [hpr]; exact hfd1) ?_ ?_ ?_ ?_
      (by rw [hm.calls_same p hppa]; exact hcl) rfl, ?_⟩
  · rw [hpr]; simp only; rw [hr, OpAt.ready_right hok hm.next]
  · rw [hpr]; simp only; rw [hdead, OpAt.dead_right ca cb hok hm.next, List.append_assoc]
  · rw [hpr]; simp only; rw [hnc, Stage.kid_next hm.next]
  · have := hm.up_buf
    simp only at this
    rw [this, hbuf, op_buf_right D a b hok hm.next]
  · have hpar1 : par ∉ pb1 := fun e => by have := hb1 par e; omega
    have hupq : up.pipe ∉ qb1 := fun e => by have := hq1 _ e; simp only at this; omega
    refine ⟨?_, ?_, ?_, ?_, ?_, ?_, Stage.next_self _, ?_, ?_, ?_, ?_, ?_, hm.files, ?_⟩
    · intro y hy
      rcases List.mem_cons.1 hy with e | e
      · simp [e]
      · rcases List.mem_append.1 e with e | e
        · simp [e]
        · simp [hm.sub y e]
    · intro y hy
      rcases List.mem_cons.1 hy with e | e
      · simp [e]
      · rcases List.mem_append.1 e with e | e
        · simp [e]
        · rcases hm.new y e with e | e
          · simp [e]
          · exact Or.inr e
    · rcases hm.pid with e | e
      · exact Or.inl e
      · exact Or.inr ⟨e.1, by simp [e.2]⟩
    · intro y hy
      rcases List.mem_cons.1 hy with e | e
      · simp [e]
      · rcases List.mem_append.1 e with e | e
        · simp [e]
        · simp [hm.qsub y e]
    · intro y hy
      rcases List.mem_cons.1 hy with e | e
      · simp [e]
      · rcases List.mem_append.1 e with e | e
        · simp [e]
        · rcases hm.qnew y e with e | e
          · simp [e]
          · exact Or.inr e
    · rcases hm.pipe with e | e
      · exact Or.inl e
      · exact Or.inr ⟨e.1, by simp [e.2]⟩
    · intro y hy hyp
      simp only [List.mem_cons, List.mem_append, not_or] at hy
      exact hm.out y hy.2.2 hy.1
    · rw [(hm.out par hpar1 (by omega)).1, Stage.par_same]
    · exact (hm.out par hpar1 (by omega)).2
    · intro y hy hyu
      simp only [List.mem_cons, List.mem_append, not_or] at hy
      exact hm.bufs y hy.2.2 hy.1
    · rw [hm.bufs up.pipe hupq (by simp only; omega)]
      simp
    · obtain ⟨es, e1, e2⟩ := hm.trace
      exact ⟨es, e1, fun e he => by simp [e2 e he]⟩


/-- The subtree of a worker that receives `SIGCONT`. -/
theorem Node.wake {D : DoubleOps α} {S S1 : Sys α} {c par : Nat} {up : Fd} {t : tree_node}
    {pids qs : List Nat} (h : Node D S c par up t pids qs (.building true))
    (hn1 : S.K.next_pid ≤ S1.K.next_pid) (hq1 : S.K.next_pipe ≤ S1.K.next_pipe)
    (hpc : S1.K.proc c = { S.K.proc c with state := .running })
    (hcode : ∀ kc, (S.K.proc c).state = .stopped kc → S1.code c = kc)
    (hout : ∀ x ∈ pids, x ≠ c → S1.K.proc x = S.K.proc x ∧ S1.code x = S.code x)
    (hcalls : ∀ x ∈ pids, calls_of x S1.K.trace = calls_of x S.K.trace)
    (hbufs : ∀ x ∈ qs, S1.K.buf x = S.K.buf x) :
    Node D S1 c par up t pids qs (.active false) := by
  cases h with
  | leaf p par up name pt st h hp hn hpar hup hs hc hfd hcl hst =>
    have hpt : pt = .ready := by cases pt <;> simp [LeafAt.stage] at hst ⊢
    subst hpt
    refine .leaf c par up name .woken _ h hp (by omega) (by rw [hpc]; exact hpar) hup
      (by rw [hpc]; rfl) (fun _ => hcode _ hs) (fun _ => by rw [hpc]; exact hfd rfl)
      (by rw [hcalls c (by simp)]; exact hcl) rfl
  | op p par up name a b pt q ca cb pa pb qa qb sa sb st h hsa hsb hok hd hdq hp hn hpar hup
      hq hs hc hfd hfd1 hr hdead hnc hbuf hcl hst =>
    have hpt : pt = .ready := by cases pt <;> simp [OpAt.stage] at hst ⊢
    subst hpt
    have hba := hsa.pid_bounds
    have hbb := hsb.pid_bounds
    refine .op c par up name a b .woken q ca cb pa pb qa qb sa sb _ h
      (hsa.carried hn1 hq1 (fun x hx => ?_) (fun x hx => hbufs x (by simp [hx])))
      (hsb.carried hn1 hq1 (fun x hx => ?_) (fun x hx => hbufs x (by simp [hx])))
      hok hd hdq hp (by omega) (by rw [hpc]; exact hpar) hup ⟨hq.1, by omega⟩
      (by rw [hpc]; rfl) (fun _ => hcode _ hs) (fun _ => by rw [hpc]; exact hfd rfl)
      (by simp [OpAt.forks]) (by rw [hpc]; exact hr) (by rw [hpc]; exact hdead)
      (by rw [hpc]; exact hnc) (by rw [hbufs q (by simp)]; exact hbuf)
      (by rw [hcalls c (by simp)]; exact hcl) rfl
    · have hxc : x ≠ c := by have := hba x hx; omega
      exact ⟨(hout x (by simp [hx]) hxc).1, (hout x (by simp [hx]) hxc).2,
        hcalls x (by simp [hx])⟩
    · have hxc : x ≠ c := by have := hbb x hx; omega
      exact ⟨(hout x (by simp [hx]) hxc).1, (hout x (by simp [hx]) hxc).2,
        hcalls x (by simp [hx])⟩

/-- The subtree of a worker its parent has waited for. -/
theorem Node.reap {D : DoubleOps α} {S S1 : Sys α} {c par : Nat} {up : Fd} {t : tree_node}
    {pids qs : List Nat} (h : Node D S c par up t pids qs .zombie)
    (hn1 : S.K.next_pid ≤ S1.K.next_pid) (hq1 : S.K.next_pipe ≤ S1.K.next_pipe)
    (hpc : S1.K.proc c = { S.K.proc c with state := .reaped })
    (hout : ∀ x ∈ pids, x ≠ c → S1.K.proc x = S.K.proc x ∧ S1.code x = S.code x)
    (hcalls : ∀ x ∈ pids, calls_of x S1.K.trace = calls_of x S.K.trace)
    (hbufs : ∀ x ∈ qs, S1.K.buf x = S.K.buf x) :
    Node D S1 c par up t pids qs .gone := by
  cases h with
  | leaf p par up name pt st h hp hn hpar hup hs hc hfd hcl hst =>
    have hpt : pt = .zombie := by cases pt <;> simp [LeafAt.stage] at hst ⊢
    subst hpt
    refine .leaf c par up name .gone _ h hp (by omega) (by rw [hpc]; exact hpar) hup
      (by rw [hpc]; rfl) (by simp [LeafAt.runs]) (by simp [LeafAt.holds])
      (by rw [hcalls c (by simp)]; exact hcl) rfl
  | op p par up name a b pt q ca cb pa pb qa qb sa sb st h hsa hsb hok hd hdq hp hn hpar hup
      hq hs hc hfd hfd1 hr hdead hnc hbuf hcl hst =>
    have hpt : pt = .zombie := by cases pt <;> simp [OpAt.stage] at hst ⊢
    subst hpt
    have hba := hsa.pid_bounds
    have hbb := hsb.pid_bounds
    refine .op c par up name a b .gone q ca cb pa pb qa qb sa sb _ h
      (hsa.carried hn1 hq1 (fun x hx => ?_) (fun x hx => hbufs x (by simp [hx])))
      (hsb.carried hn1 hq1 (fun x hx => ?_) (fun x hx => hbufs x (by simp [hx])))
      hok hd hdq hp (by omega) (by rw [hpc]; exact hpar) hup ⟨hq.1, by omega⟩
      (by rw [hpc]; rfl) (by simp [OpAt.runs]) (by simp [OpAt.alive])
      (by simp [OpAt.forks]) (by rw [hpc]; exact hr) (by rw [hpc]; exact hdead)
      (by rw [hpc]; exact hnc) (by rw [hbufs q (by simp)]; exact hbuf)
      (by rw [hcalls c (by simp)]; exact hcl) rfl
    · have hxc : x ≠ c := by have := hba x hx; omega
      exact ⟨(hout x (by simp [hx]) hxc).1, (hout x (by simp [hx]) hxc).2,
        hcalls x (by simp [hx])⟩
    · have hxc : x ≠ c := by have := hbb x hx; omega
      exact ⟨(hout x (by simp [hx]) hxc).1, (hout x (by simp [hx]) hxc).2,
        hcalls x (by simp [hx])⟩

/-- The worker of a node right after the `fork` that created it. -/
theorem Node.newborn (D : DoubleOps α) (S1 : Sys α) (c p : Nat) (up : Fd) {a : tree_node}
    (ha : WellFormed a) (hp : p < c) (hn : c < S1.K.next_pid)
    (hpar : (S1.K.proc c).parent = p) (hup : up.wr = true) (hupq : up.pipe < S1.K.next_pipe)
    (hs : (S1.K.proc c).state = .running) (hc : S1.code c = child D up a)
    (hfd : up ∈ (S1.K.proc c).fds)
    (hr : (S1.K.proc c).ready = 0) (hdead : (S1.K.proc c).dead = [])
    (hnc : (S1.K.proc c).nchild = 0)
    (hcl : calls_of c S1.K.trace = [.fork 0]) :
    Node D S1 c p up a [c] [] (.building false) := by
  cases ha with
  | leaf name h =>
    exact .leaf c p up name .new _ h hp hn hpar hup hs (fun _ => hc) (fun _ => hfd) hcl rfl
  | op name h a b ha hb =>
    exact .op_new c p up name a b h ha hb hp hn hpar hup hupq hs hc hfd hr hdead hnc hcl

/-- An Internal worker and its two subtrees after a turn of the worker. -/
theorem Node.op_step {D : DoubleOps α} {S S1 : Sys α}
    (p par : Nat) (up : Fd) (name : String) (a b : tree_node) (pt pt1 : OpAt)
    (q ca cb : Nat) (pa pb pa1 pb1 qa qb : List Nat) (sa1 sb1 : Stage)
    (act : List (Nat × Act α))
    (h : name = "+" ∨ name = "*")
    (hsa1 : Node D S1 ca p ⟨q, true⟩ a pa1 qa sa1)
    (hsb1 : Node D S1 cb p ⟨q, true⟩ b pb1 qb sb1)
    (hok1 : pt1.ok sa1 sb1) (hd1 : ∀ x ∈ pa1, x ∉ pb1) (hdq : ∀ x ∈ qa, x ∉ qb)
    (hp : par < p) (hn : p < S.K.next_pid) (hup : up.wr = true)
    (hq : up.pipe < q ∧ q < S.K.next_pipe)
    (hpid : S1.K.next_pid = S.K.next_pid ∨
      (S1.K.next_pid = S.K.next_pid + 1 ∧ (S.K.next_pid ∈ pa1 ∨ S.K.next_pid ∈ pb1)))
    (hpipe : S1.K.next_pipe = S.K.next_pipe) (hfiles : S1.K.files = S.K.files)
    (hsub : (∀ x ∈ pa, x ∈ pa1) ∧ (∀ x ∈ pb, x ∈ pb1))
    (hnew : (∀ x ∈ pa1, x ∈ pa ∨ x = S.K.next_pid) ∧ (∀ x ∈ pb1, x ∈ pb ∨ x = S.K.next_pid))
    (htr : S1.K.trace = S.K.trace ++ act)
    (hact : ∀ e ∈ act, e.1 = p ∨ e.1 ∈ pa1 ∨ e.1 ∈ pb1)
    (hout : ∀ x, x ≠ p → x ∉ pa1 → x ∉ pb1 → x ≠ par →
      S1.K.proc x = S.K.proc x ∧ S1.code x = S.code x)
    (hbufs : ∀ x, x ≠ q → x ≠ up.pipe → S1.K.buf x = S.K.buf x)
    (hpar1 : (S1.K.proc p).parent = par)
    (hs1 : (S1.K.proc p).state = op_state D up name a b q ca cb pt1)
    (hc1 : pt1.runs = true → S1.code p = op_code D up name a b q ca cb pt1)
    (hfd : pt1.alive = true → up ∈ (S1.K.proc p).fds ∧ ⟨q, false⟩ ∈ (S1.K.proc p).fds)
    (hfd1 : pt1.forks = true → ⟨q, true⟩ ∈ (S1.K.proc p).fds)
    (hr1 : (S1.K.proc p).ready = pt1.ready_count sa1 sb1)
    (hdead1 : (S1.K.proc p).dead = sa1.dead ca ++ sb1.dead cb)
    (hnc1 : (S1.K.proc p).nchild = sa1.kid + sb1.kid)
    (hbuf1 : S1.K.buf q = op_buf D a b pt1 sa1 sb1)
    (hcl1 : calls_of p S1.K.trace = op_calls D up name a b q ca cb pt1)
    (hnext : pt.stage.next pt1.stage)
    (hpp : S1.K.proc par =
      { S.K.proc par with
        ready := (S.K.proc par).ready + (pt1.stage.raised - pt.stage.raised)
        dead := (S.K.proc par).dead ++ (if pt.stage = .zombie then [] else pt1.stage.dead p) })
    (hpc : S1.code par = S.code par)
    (hub : S1.K.buf up.pipe = S.K.buf up.pipe ++
      (if pt.stage.sent = false ∧ pt1.stage.sent = true then [eval D (.mk name [a, b])]
        else [])) :
    ∃ pids1 qs1 st1, Node D S1 p par up (.mk name [a, b]) pids1 qs1 st1 ∧
      Moves D S S1 p par up (.mk name [a, b]) (p :: (pa ++ pb)) pids1 (q :: (qa ++ qb)) qs1
        pt.stage st1 := by
  refine ⟨p :: (pa1 ++ pb1), q :: (qa ++ qb), pt1.stage,
    .op p par up name a b pt1 q ca cb pa1 pb1 qa qb sa1 sb1 _ h hsa1 hsb1 hok1 hd1 hdq hp
      (by rcases hpid with e | e <;> omega) hpar1 hup ⟨hq.1, by omega⟩ hs1 hc1 hfd hfd1 hr1
      hdead1 hnc1 hbuf1 hcl1 rfl, ?_⟩
  refine ⟨?_, ?_, ?_, fun _ h => h, fun _ h => Or.inl h, Or.inl hpipe, hnext, ?_, hpp, hpc,
    ?_, hub, hfiles, ⟨act, htr, ?_⟩⟩
  · intro y hy
    rcases List.mem_cons.1 hy with e | e
    · simp [e]
    · rcases List.mem_append.1 e with e | e
      · simp [hsub.1 y e]
      · simp [hsub.2 y e]
  · intro y hy
    rcases List.mem_cons.1 hy with e | e
    · simp [e]
    · rcases List.mem_append.1 e with e | e
      · rcases hnew.1 y e with e | e
        · simp [e]
        · exact Or.inr e
      · rcases hnew.2 y e with e | e
        · simp [e]
        · exact Or.inr e
  · rcases hpid with e | e
    · exact Or.inl e
    · refine Or.inr ⟨e.1, ?_⟩
      rcases e.2 with e | e <;> simp [e]
  · intro y hy hyp
    simp only [List.mem_cons, List.mem_append, not_or] at hy
    exact hout y hy.1 hy.2.1 hy.2.2 hyp
  · intro y hy hyp
    simp only [List.mem_cons, List.mem_append, not_or] at hy
    exact hbufs y hy.1 hyp
  · intro e he
    rcases hact e he with e1 | e1 | e1 <;> simp [e1]


/-- A subtree is not touched by a turn of its parent that changes neither
its workers nor its pipes. -/
theorem Node.held {D : DoubleOps α} {S S1 : Sys α} {c p q : Nat} {t : tree_node}
    {pids qs : List Nat} {st : Stage} (h : Node D S c p ⟨q, true⟩ t pids qs st)
    (hn1 : S.K.next_pid ≤ S1.K.next_pid) (hq1 : S.K.next_pipe ≤ S1.K.next_pipe)
    (act : List (Nat × Act α)) (htr : S1.K.trace = S.K.trace ++ act)
    (hact : ∀ e ∈ act, e.1 ≤ p ∨ S.K.next_pid ≤ e.1)
    (hout : ∀ x, p < x → x < S.K.next_pid → S1.K.proc x = S.K.proc x ∧ S1.code x = S.code x)
    (hbufs : ∀ x, q < x → x < S.K.next_pipe → S1.K.buf x = S.K.buf x) :
    Node D S1 c p ⟨q, true⟩ t pids qs st := by
  refine h.carried hn1 hq1 (fun x hx => ?_) (fun x hx => ?_)
  · have hb := h.pid_bounds x hx
    refine ⟨(hout x hb.1 hb.2.2).1, (hout x hb.1 hb.2.2).2, ?_⟩
    rw [htr]
    exact calls_of_append_other x _ act fun e he hex => by
      rcases hact e he with h1 | h1 <;> omega
  · have hb := h.pipes x hx
    exact hbufs x hb.1 hb.2

theorem pid_child_zero (ca cb : Nat) : pid_child ca cb 0 = (ca : Int) := by
  simp [pid_child, assign]

theorem pid_child_one (ca cb : Nat) : pid_child ca cb 1 = (cb : Int) := by
  simp [pid_child, assign]

theorem op_final (D : DoubleOps α) (name : String) (a b : tree_node)
    (h : name = "+" ∨ name = "*") :
    (if name = "+" then D.add (eval D a) (eval D b) else D.mul (eval D a) (eval D b)) =
      eval D (.mk name [a, b]) := by
  rcases h with h | h <;> subst h <;> simp [eval]

/-- The turn of an Internal worker before its `pipe`. -/
theorem Node.turn_fresh_op {D : DoubleOps α} {S : Sys α}
    (p par : Nat) (up : Fd) (name : String) (a b : tree_node)
    (h : name = "+" ∨ name = "*") (ha : WellFormed a) (hb : WellFormed b)
    (hp : par < p) (hn : p < S.K.next_pid)
    (hpar : (S.K.proc p).parent = par) (hup : up.wr = true)
    (hupq : up.pipe < S.K.next_pipe)
    (hs : (S.K.proc p).state = .running)
    (hc : S.code p = child D up (.mk name [a, b]))
    (hfd : up ∈ (S.K.proc p).fds)
    (hr : (S.K.proc p).ready = 0) (hdead : (S.K.proc p).dead = [])
    (hnc : (S.K.proc p).nchild = 0)
    (hcl : calls_of p S.K.trace = [.fork 0]) :
    Turns D S p p par up (.mk name [a, b]) [p] [] (.building false) := by
  have hpp : par ≠ p := by omega
  unfold Turns
  rw [child_op_pos D up name h] at hc
  rw [S.step_pipe p _ (by omega) hn hs hc]
  refine ⟨p :: ([] ++ []), S.K.next_pipe :: ([] ++ []), OpAt.piped.stage,
    .op p par up name a b .piped S.K.next_pipe 0 0 [] [] [] [] .unborn .unborn _ h
      (.unborn _ _ _ _ ha) (.unborn _ _ _ _ hb) ⟨rfl, rfl⟩ (by simp) (by simp) hp hn
      ?_ hup ⟨hupq, by simp [Sys.goes]⟩ ?_ ?_ ?_ ?_ ?_ ?_ ?_ ?_ ?_ rfl, ?_⟩
  · simp [Sys.goes, hpar]
  · simp [Sys.goes, hs, op_state]
  · intro _; simp [Sys.goes, op_code]
  · intro _; simp [Sys.goes, hfd]
  · intro _; simp [Sys.goes]
  · simp [Sys.goes, hr, OpAt.ready_count]
  · simp [Sys.goes, hdead, Stage.dead]
  · simp [Sys.goes, hnc, Stage.kid]
  · simp [Sys.goes, op_buf]
  · simp only [Sys.goes, Kernel.piped_trace, calls_of_append, hcl]
    simp [calls_of, op_calls, OpAt.count]
  · refine ⟨by simp, by simp, Or.inl rfl, by simp, by simp, Or.inr ⟨rfl, by simp⟩,
      by simp [OpAt.stage, Stage.next], ?_, ?_, ?_, ?_, ?_, rfl,
      ⟨_, Kernel.piped_trace _ _, by simp⟩⟩
    · intro x hx hxp
      have : x ≠ p := by simpa using hx
      simp [Sys.goes, this]
    · simp [Sys.goes, hpp, OpAt.stage, Stage.raised, Stage.dead]
    · simp [Sys.goes, hpp]
    · intro x hx _
      have : x ≠ S.K.next_pipe := by simpa using hx
      simp [Sys.goes, this]
    · have : up.pipe ≠ S.K.next_pipe := by omega
      simp [Sys.goes, this, OpAt.stage, Stage.sent]


/-- A turn that cannot complete its call changes nothing. -/
theorem Node.turn_same {D : DoubleOps α} {S : Sys α} {p par : Nat} {up : Fd} {t : tree_node}
    {pids qs : List Nat} {st : Stage} (h : Node D S p par up t pids qs st) (x : Nat)
    (hx : S.step x = S) : Turns D S x p par up t pids qs st := by
  unfold Turns
  rw [hx]
  exact ⟨pids, qs, st, h, Moves.unmoved D S p par up t pids qs st⟩

theorem collect_first (D : DoubleOps α) (up : Fd) (name : String) (a b : tree_node)
    (q ca cb : Nat) :
    collect D up name 2 ⟨q, false⟩ ⟨q, true⟩ (pid_child ca cb) =
      .kill_SIGCONT (ca : Int)
        (col_wait D up name ⟨q, false⟩ ⟨q, true⟩ 1 0 (col_vars D a b ca cb 0)) := by
  show Prog.kill_SIGCONT (pid_child ca cb 0) _ = _
  rw [pid_child_zero]
  rfl

theorem collect_second (D : DoubleOps α) (up : Fd) (name : String) (a b : tree_node)
    (q ca cb : Nat) :
    collect_from D up name ⟨q, false⟩ ⟨q, true⟩ 1 1 (col_vars D a b ca cb 1) =
      .kill_SIGCONT (cb : Int)
        (col_wait D up name ⟨q, false⟩ ⟨q, true⟩ 0 1 (col_vars D a b ca cb 1)) := by
  show Prog.kill_SIGCONT ((col_vars D a b ca cb 1).1 1) _ = _
  have : (col_vars D a b ca cb 1).1 1 = (cb : Int) := by
    simp [col_vars, assign, pid_child]
  rw [this]
  rfl

theorem collect_last (D : DoubleOps α) (up : Fd) (name : String) (a b : tree_node)
    (q ca cb : Nat) (h : name = "+" ∨ name = "*") :
    collect_from D up name ⟨q, false⟩ ⟨q, true⟩ 0 2 (col_vars D a b ca cb 2) =
      .write up (eval D (.mk name [a, b])) fun n =>
        if n ≠ sizeof_double then .stderr "parent: write to pipe" (.exit 1) else .exit 16 := by
  rw [← op_final D name a b h]
  show Prog.write up (if name = "+" then
      D.add ((col_vars D a b ca cb 2).2 0) ((col_vars D a b ca cb 2).2 1)
    else D.mul ((col_vars D a b ca cb 2).2 0) ((col_vars D a b ca cb 2).2 1)) _ = _
  have h0 : (col_vars D a b ca cb 2).2 0 = eval D a := by simp [col_vars, assign]
  have h1 : (col_vars D a b ca cb 2).2 1 = eval D b := by simp [col_vars, assign]
  rw [h0, h1]

theorem col_read_first (D : DoubleOps α) (up : Fd) (name : String) (a b : tree_node)
    (q ca cb : Nat) :
    (if sizeof_double ≠ sizeof_double then
        (Prog.stderr "parent: read from pipe" (.exit 1) : Prog α)
      else collect_from D up name ⟨q, false⟩ ⟨q, true⟩ 1 (0 + 1)
        (assign (col_vars D a b ca cb 0).1 0 (ca : Int),
          assign (col_vars D a b ca cb 0).2 0 ((some (eval D a)).getD D.zero))) =
      collect_from D up name ⟨q, false⟩ ⟨q, true⟩ 1 1 (col_vars D a b ca cb 1) := by
  simp [col_vars]

theorem col_read_second (D : DoubleOps α) (up : Fd) (name : String) (a b : tree_node)
    (q ca cb : Nat) :
    (if sizeof_double ≠ sizeof_double then
        (Prog.stderr "parent: read from pipe" (.exit 1) : Prog α)
      else collect_from D up name ⟨q, false⟩ ⟨q, true⟩ 0 (1 + 1)
        (assign (col_vars D a b ca cb 1).1 1 (cb : Int),
          assign (col_vars D a b ca cb 1).2 1 ((some (eval D b)).getD D.zero))) =
      collect_from D up name ⟨q, false⟩ ⟨q, true⟩ 0 2 (col_vars D a b ca cb 2) := by
  simp [col_vars]

/-- The turn of an Internal worker after its `pipe`. -/
theorem Node.turn_op {D : DoubleOps α} {S : Sys α}
    (hfresh : ∀ e ∈ S.K.trace, e.1 < S.K.next_pid)
    (p par : Nat) (up : Fd) (name : String) (a b : tree_node) (pt : OpAt)
    (q ca cb : Nat) (pa pb qa qb : List Nat) (sa sb : Stage)
    (h : name = "+" ∨ name = "*")
    (hsa : Node D S ca p ⟨q, true⟩ a pa qa sa) (hsb : Node D S cb p ⟨q, true⟩ b pb qb sb)
    (hok : pt.ok sa sb) (hd : ∀ x ∈ pa, x ∉ pb) (hdq : ∀ x ∈ qa, x ∉ qb)
    (hp : par < p) (hn : p < S.K.next_pid)
    (hpar : (S.K.proc p).parent = par) (hup : up.wr = true)
    (hq : up.pipe < q ∧ q < S.K.next_pipe)
    (hs : (S.K.proc p).state = op_state D up name a b q ca cb pt)
    (hc : pt.runs = true → S.code p = op_code D up name a b q ca cb pt)
    (hfd : pt.alive = true → up ∈ (S.K.proc p).fds ∧ ⟨q, false⟩ ∈ (S.K.proc p).fds)
    (hfd1 : pt.forks = true → ⟨q, true⟩ ∈ (S.K.proc p).fds)
    (hr : (S.K.proc p).ready = pt.ready_count sa sb)
    (hdead : (S.K.proc p).dead = sa.dead ca ++ sb.dead cb)
    (hnc : (S.K.proc p).nchild = sa.kid + sb.kid)
    (hbuf : S.K.buf q = op_buf D a b pt sa sb)
    (hcl : calls_of p S.K.trace = op_calls D up name a b q ca cb pt) :
    Turns D S p p par up (.mk name [a, b]) (p :: (pa ++ pb)) (q :: (qa ++ qb)) pt.stage := by
  have hne : (S.K.proc p).parent ≠ p := by rw [hpar]; omega
  have hpp : par ≠ p := by omega
  have h0 : 0 < p := by omega
  have hnode := Node.op p par up name a b pt q ca cb pa pb qa qb sa sb _ h hsa hsb hok hd hdq hp
    hn hpar hup hq hs hc hfd hfd1 hr hdead hnc hbuf hcl rfl
  have hba := hsa.pid_bounds
  have hbb := hsb.pid_bounds
  have hqa := hsa.pipes
  have hqb := hsb.pipes
  have hupne : up.pipe ≠ q := by omega
  cases pt with
  | ready => exact hnode.turn_idle p (by rw [hs]; simp [op_state])
  | zombie => exact hnode.turn_idle p (by rw [hs]; simp [op_state])
  | gone => exact hnode.turn_idle p (by rw [hs]; simp [op_state])
  | piped =>
    have hc1 := hc rfl
    simp only [op_code, first_fork] at hc1
    have hs1 : (S.K.proc p).state = .running := hs
    obtain ⟨rfl, rfl⟩ := hok
    obtain ⟨rfl, rfl⟩ := hsa.root_in.2 rfl
    obtain ⟨rfl, rfl⟩ := hsb.root_in.2 rfl
    have hpn : p ≠ S.K.next_pid := by omega
    unfold Turns
    rw [S.step_fork p _ h0 hn hs1 hc1]
    refine Node.op_step p par up name a b .piped .one q S.K.next_pid cb [] [] [S.K.next_pid] []
      [] [] (.building false) .unborn [(p, .fork S.K.next_pid), (S.K.next_pid, .fork 0)] h
      (Node.newborn D _ S.K.next_pid p ⟨q, true⟩ hsa.wf hn (by simp) (by simp) rfl
        (by simp; omega) (by simp) ?_ (by simp [hfd1 rfl]) (by simp) (by simp) (by simp) ?_)
      (.unborn _ _ _ _ hsb.wf) ⟨⟨_, rfl⟩, rfl⟩ (by simp) (by simp) hp hn hup hq
      (Or.inr ⟨rfl, by simp⟩) rfl rfl ⟨by simp, by simp⟩ ⟨by simp, by simp⟩
      (by simp) (by simp) ?_ (fun x _ _ => rfl) ?_ ?_ ?_ ?_ ?_ ?_ ?_ ?_ ?_ ?_
      (by simp [OpAt.stage, Stage.next]) ?_ ?_ ?_
    · simp only [if_true]; exact fork_child D ⟨q, true⟩ a _ _
    · simp only [Kernel.forked_trace, calls_of_append, calls_of_fresh hfresh]
      simp [calls_of, hpn]
    · intro x hx hx1 _ hx2
      have : x ≠ S.K.next_pid := by simpa using hx1
      simp [this, hx]
    · simp [hpn, hpar]
    · simp [hpn, hs1, op_state]
    · intro _
      simp only [if_neg hpn, if_true, op_code, second_fork]
      exact fork_parent _ _ _ S.K.next_pid (by omega)
    · intro _; simp [hpn, hfd rfl]
    · intro _; simp [hpn, hfd1 rfl]
    · simp [hpn, hr, OpAt.ready_count, Stage.raised]
    · simp [hpn, hdead, Stage.dead]
    · simp [hpn, hnc, Stage.kid]
    · simp [hbuf, op_buf]
    · simp only [Kernel.forked_trace, calls_of_append, hcl]
      simp [calls_of, hpn.symm, op_calls, OpAt.count]
    · have h2 : par ≠ S.K.next_pid := by omega
      simp [hpp, h2, OpAt.stage, Stage.raised, Stage.dead]
    · have h2 : par ≠ S.K.next_pid := by omega
      simp [hpp, h2]
    · simp [OpAt.stage, Stage.sent]
  | one =>
    have hc1 := hc rfl
    simp only [op_code, second_fork] at hc1
    have hs1 : (S.K.proc p).state = .running := hs
    obtain ⟨⟨ra, rfl⟩, rfl⟩ := hok
    obtain ⟨rfl, rfl⟩ := hsb.root_in.2 rfl
    have hpn : p ≠ S.K.next_pid := by omega
    unfold Turns
    rw [S.step_fork p _ h0 hn hs1 hc1]
    refine Node.op_step p par up name a b .one .two q ca S.K.next_pid pa [] pa [S.K.next_pid]
      qa [] (.building ra) (.building false)
      [(p, .fork S.K.next_pid), (S.K.next_pid, .fork 0)] h
      (hsa.held (by simp) (by simp) [(p, .fork S.K.next_pid), (S.K.next_pid, .fork 0)]
        (by simp) (by simp) ?_ (fun x _ _ => rfl))
      (Node.newborn D _ S.K.next_pid p ⟨q, true⟩ hsb.wf hn (by simp) (by simp) rfl
        (by simp; omega) (by simp) ?_ (by simp [hfd1 rfl]) (by simp) (by simp) (by simp) ?_)
      ⟨⟨_, rfl⟩, ⟨_, rfl⟩⟩ ?_ (by simp) hp hn hup hq
      (Or.inr ⟨rfl, by simp⟩) rfl rfl ⟨fun _ h => h, by simp⟩ ⟨fun _ h => Or.inl h, by simp⟩
      (by simp) (by simp) ?_ (fun x _ _ => rfl) ?_ ?_ ?_ ?_ ?_ ?_ ?_ ?_ ?_ ?_
      (by simp [OpAt.stage, Stage.next]) ?_ ?_ ?_
    · intro x hx1 hx2
      have h1 : x ≠ S.K.next_pid := by omega
      have h2 : x ≠ p := by omega
      simp [h1, h2]
    · simp only [if_true]; exact fork_child D ⟨q, true⟩ b _ _
    · simp only [Kernel.forked_trace, calls_of_append, calls_of_fresh hfresh]
      simp [calls_of, hpn]
    · intro x hx hx1
      have := hba x hx
      simp only [List.mem_singleton] at hx1
      omega
    · intro x hx _ hx1 hx2
      have : x ≠ S.K.next_pid := by simpa using hx1
      simp [this, hx]
    · simp [hpn, hpar]
    · simp [hpn, hs1, op_state]
    · intro _
      simp only [if_neg hpn, if_true, op_code, after_forks]
      exact fork_parent _ _ _ S.K.next_pid (by omega)
    · intro _; simp [hpn, hfd rfl]
    · intro h; simp [OpAt.forks] at h
    · simp [hpn, hr, OpAt.ready_count, Stage.raised]
    · simp [hpn, hdead, Stage.dead]
    · simp [hpn, hnc, Stage.kid]
    · simp [hbuf, op_buf]
    · simp only [Kernel.forked_trace, calls_of_append, hcl]
      simp [calls_of, hpn.symm, op_calls, OpAt.count]
    · have h2 : par ≠ S.K.next_pid := by omega
      simp [hpp, h2, OpAt.stage, Stage.raised, Stage.dead]
    · have h2 : par ≠ S.K.next_pid := by omega
      simp [hpp, h2]
    · simp [OpAt.stage, Stage.sent]
  | two =>
    have hc1 := hc rfl
    simp only [op_code, after_forks] at hc1
    have hs1 : (S.K.proc p).state = .running := hs
    obtain ⟨⟨ra, rfl⟩, ⟨rb, rfl⟩⟩ := hok
    by_cases hrr : ra = true ∧ rb = true
    swap
    · refine hnode.turn_same p ?_
      rw [S.step_wait_ready p 2 _ h0 hn hs1 hc1, if_neg]
      rw [hr]
      cases ra <;> cases rb <;> simp [OpAt.ready_count, Stage.raised] at hrr ⊢
    obtain ⟨rfl, rfl⟩ := hrr
    unfold Turns
    rw [S.step_wait_ready p 2 _ h0 hn hs1 hc1,
      if_pos (by rw [hr]; simp [OpAt.ready_count, Stage.raised])]
    refine Node.op_step p par up name a b .two .waited q ca cb pa pb pa pb
      qa qb (.building true) (.building true) [(p, .wait_for_ready_children 2)] h
      (hsa.held (by simp [Sys.goes]) (by simp [Sys.goes]) [(p, .wait_for_ready_children 2)]
        (by simp [Sys.goes]) (by simp) ?_ (fun x _ _ => by simp [Sys.goes]))
      (hsb.held (by simp [Sys.goes]) (by simp [Sys.goes]) [(p, .wait_for_ready_children 2)]
        (by simp [Sys.goes]) (by simp) ?_ (fun x _ _ => by simp [Sys.goes]))
      ⟨rfl, rfl⟩ hd hdq hp hn hup hq (Or.inl rfl) rfl rfl ⟨fun _ h => h, fun _ h => h⟩
      ⟨fun _ h => Or.inl h, fun _ h => Or.inl h⟩ (by simp [Sys.goes]) (by simp) ?_
      (fun x _ _ => by simp [Sys.goes]) ?_ ?_ ?_ ?_ ?_ ?_ ?_ ?_ ?_ ?_
      (by simp [OpAt.stage, Stage.next]) ?_ ?_ ?_
    · intro x hx1 hx2
      have h2 : x ≠ p := by omega
      simp [Sys.goes, h2]
    · intro x hx1 hx2
      have h2 : x ≠ p := by omega
      simp [Sys.goes, h2]
    · intro x hx _ _ _
      simp [Sys.goes, hx]
    · simp [Sys.goes, hpar]
    · simp [Sys.goes, hs1, op_state]
    · intro _; simp [Sys.goes, op_code, pid_child]
    · intro _; simp [Sys.goes, hfd rfl]
    · intro h; simp [OpAt.forks] at h
    · simp [Sys.goes, hr, OpAt.ready_count, Stage.raised]
    · simp [Sys.goes, hdead]
    · simp [Sys.goes, hnc]
    · simp [Sys.goes, hbuf, op_buf]
    · simp only [Sys.goes, Kernel.counted_trace, calls_of_append, hcl]
      simp [calls_of, op_calls, OpAt.count]
    · simp [Sys.goes, hpp, OpAt.stage, Stage.raised, Stage.dead]
    · simp [Sys.goes, hpp]
    · simp [Sys.goes, OpAt.stage, Stage.sent]
  | waited =>
    have hc1 := hc rfl
    simp only [op_code] at hc1
    have hs1 : (S.K.proc p).state = .running := hs
    obtain ⟨rfl, rfl⟩ := hok
    unfold Turns
    rw [S.step_raise p _ h0 hn hs1 hc1]
    refine Node.op_step p par up name a b .waited .ready q ca cb pa pb pa pb
      qa qb (.building true) (.building true) [(p, .raise_SIGSTOP)] h
      (hsa.held (by simp) (by simp) [(p, .raise_SIGSTOP)]
        (by simp) (by simp) ?_ (fun x _ _ => by simp))
      (hsb.held (by simp) (by simp) [(p, .raise_SIGSTOP)]
        (by simp) (by simp) ?_ (fun x _ _ => by simp))
      ⟨rfl, rfl⟩ hd hdq hp hn hup hq (Or.inl rfl) rfl rfl ⟨fun _ h => h, fun _ h => h⟩
      ⟨fun _ h => Or.inl h, fun _ h => Or.inl h⟩ (by simp) (by simp) ?_
      (fun x _ _ => by simp) ?_ ?_ ?_ ?_ ?_ ?_ ?_ ?_ ?_ ?_
      (by simp [OpAt.stage, Stage.next]) ?_ rfl ?_
    · intro x hx1 hx2
      refine ⟨?_, rfl⟩
      dsimp only
      exact Kernel.halted_proc_other _ _ _ _ (by omega) (by rw [hpar]; omega)
    · intro x hx1 hx2
      refine ⟨?_, rfl⟩
      dsimp only
      exact Kernel.halted_proc_other _ _ _ _ (by omega) (by rw [hpar]; omega)
    · intro x hx _ _ hx2
      refine ⟨?_, rfl⟩
      dsimp only
      exact Kernel.halted_proc_other _ _ _ _ hx (by rw [hpar]; exact hx2)
    · dsimp only; rw [Kernel.halted_proc_self _ _ _ hne]; exact hpar
    · dsimp only; rw [Kernel.halted_proc_self _ _ _ hne]; rfl
    · intro h; simp [OpAt.runs] at h
    · intro _; dsimp only; rw [Kernel.halted_proc_self _ _ _ hne]; exact hfd rfl
    · intro h; simp [OpAt.forks] at h
    · dsimp only; rw [Kernel.halted_proc_self _ _ _ hne]; exact hr
    · dsimp only; rw [Kernel.halted_proc_self _ _ _ hne]; exact hdead
    · dsimp only; rw [Kernel.halted_proc_self _ _ _ hne]; exact hnc
    · simp [hbuf, op_buf]
    · dsimp only; rw [Kernel.halted_trace, calls_of_append, hcl]
      simp [calls_of, op_calls, OpAt.count]
    · dsimp only
      have := Kernel.halted_proc_parent S.K p
        (collect D up name 2 ⟨q, false⟩ ⟨q, true⟩ (pid_child ca cb)) hne
      rw [hpar] at this
      rw [this]; simp [OpAt.stage, Stage.raised, Stage.dead]
    · simp [OpAt.stage, Stage.sent]
  | woken =>
    have hc1 := hc rfl
    simp only [op_code] at hc1
    rw [collect_first D up name a b q ca cb] at hc1
    have hs1 : (S.K.proc p).state = .running := hs
    obtain ⟨rfl, rfl⟩ := hok
    obtain ⟨kc, hkc⟩ := hsa.root_state.1 rfl
    have hca := hsa.root_state.2.2 (by simp)
    have hcam : ca ∈ pa := hsa.root_in.1 (by simp)
    have hcap : ca ≠ p := by omega
    unfold Turns
    rw [S.step_cont p (ca : Int) _ kc h0 hn hs1 hc1 (by simpa using hkc) (by omega)]
    refine Node.op_step p par up name a b .woken .kill0 q ca cb pa pb pa pb
      qa qb (.active false) (.building true) [(p, .kill_SIGCONT (ca : Int))] h
      (hsa.wake (by simp) (by simp) (by simp) ?_ ?_ ?_ (fun x _ => by simp))
      (hsb.carried (by simp) (by simp) ?_ (fun x _ => by simp))
      ⟨Or.inl ⟨_, rfl⟩, rfl⟩ hd hdq hp hn hup hq (Or.inl rfl) rfl rfl
      ⟨fun _ h => h, fun _ h => h⟩
      ⟨fun _ h => Or.inl h, fun _ h => Or.inl h⟩ (by simp) (by simp) ?_
      (fun x _ _ => by simp) ?_ ?_ ?_ ?_ ?_ ?_ ?_ ?_ ?_ ?_
      (by simp [OpAt.stage, Stage.next]) ?_ ?_ ?_
    · intro kc1 hk1
      rw [hkc] at hk1
      injection hk1 with hk1
      simp [hk1]
    · intro x hx hxc
      have h2 : x ≠ p := by have := hba x hx; omega
      simp [hxc, h2]
    · intro x hx
      have h2 : x ≠ p := by have := hba x hx; omega
      simp only [Kernel.continued_trace]
      exact calls_of_append_other x _ _ (by simp; omega)
    · intro x hx
      have h2 : x ≠ p := by have := hbb x hx; omega
      have h3 : x ≠ ca := fun e => hd ca hcam (e ▸ hx)
      refine ⟨by simp [h3], by simp [h3, h2], ?_⟩
      simp only [Kernel.continued_trace]
      exact calls_of_append_other x _ _ (by simp; omega)
    · intro x hx hx1 _ _
      have h3 : x ≠ ca := fun e => hx1 (e ▸ hcam)
      simp [h3, hx]
    · simp [hcap.symm, hpar]
    · simp [hcap.symm, hs1, op_state]
    · intro _; simp [hcap.symm, op_code]
    · intro _; simp [hcap.symm, hfd rfl]
    · intro h; simp [OpAt.forks] at h
    · simp [hcap.symm, hr, OpAt.ready_count]
    · simp [hcap.symm, hdead, Stage.dead]
    · simp [hcap.symm, hnc, Stage.kid]
    · simp [hbuf, op_buf, Stage.sent]
    · simp only [Kernel.continued_trace, calls_of_append, hcl]
      simp [calls_of, op_calls, OpAt.count]
    · have h2 : par ≠ ca := by omega
      simp [h2, OpAt.stage, Stage.raised, Stage.dead]
    · have h2 : par ≠ ca := by omega
      simp [h2, hpp]
    · simp [OpAt.stage, Stage.sent]
  | kill0 =>
    have hc1 := hc rfl
    simp only [op_code, col_wait] at hc1
    have hs1 : (S.K.proc p).state = .running := hs
    obtain ⟨hsa0, rfl⟩ := hok
    have hca := hsa.root_state.2.2 (by rcases hsa0 with ⟨s, e⟩ | e <;> simp [e])
    have hcam : ca ∈ pa := hsa.root_in.1 (by rcases hsa0 with ⟨s, e⟩ | e <;> simp [e])
    have hcap : ca ≠ p := by omega
    rcases hsa0 with ⟨s, rfl⟩ | rfl
    · refine hnode.turn_same p ?_
      exact S.step_wait_block p _ h0 hn hs1 hc1 (by rw [hdead]; simp [Stage.dead])
        (by rw [hnc]; simp [Stage.kid])
    unfold Turns
    rw [S.step_wait_dead p _ ca (W_EXITED 16) [] h0 hn hs1 hc1
      (by rw [hdead]; simp [Stage.dead])]
    refine Node.op_step p par up name a b .kill0 .wait0 q ca cb pa pb pa pb
      qa qb .gone (.building true) [(p, .wait (ca : Int) (W_EXITED 16))] h
      (hsa.reap (by simp [Sys.goes]) (by simp [Sys.goes]) ?_ ?_ ?_
        (fun x _ => by simp [Sys.goes]))
      (hsb.carried (by simp [Sys.goes]) (by simp [Sys.goes]) ?_ (fun x _ => by simp [Sys.goes]))
      ⟨rfl, rfl⟩ hd hdq hp hn hup hq (Or.inl rfl) rfl rfl
      ⟨fun _ h => h, fun _ h => h⟩
      ⟨fun _ h => Or.inl h, fun _ h => Or.inl h⟩ (by simp [Sys.goes]) (by simp) ?_
      (fun x _ _ => by simp [Sys.goes]) ?_ ?_ ?_ ?_ ?_ ?_ ?_ ?_ ?_ ?_
      (by simp [OpAt.stage, Stage.next]) ?_ ?_ ?_
    · simp [Sys.goes, Kernel.reaped, hcap]
    · intro x hx hxc
      have h2 : x ≠ p := by have := hba x hx; omega
      simp [Sys.goes, Kernel.reaped, hxc, h2]
    · intro x hx
      have h2 : x ≠ p := by have := hba x hx; omega
      simp only [Sys.goes, Kernel.reaped_trace]
      exact calls_of_append_other x _ _ (by simp; omega)
    · intro x hx
      have h2 : x ≠ p := by have := hbb x hx; omega
      have h3 : x ≠ ca := fun e => hd ca hcam (e ▸ hx)
      refine ⟨by simp [Sys.goes, Kernel.reaped, h3, h2], by simp [Sys.goes, h2], ?_⟩
      simp only [Sys.goes, Kernel.reaped_trace]
      exact calls_of_append_other x _ _ (by simp; omega)
    · intro x hx hx1 hx2 _
      have h3 : x ≠ ca := fun e => hx1 (e ▸ hcam)
      simp [Sys.goes, Kernel.reaped, h3, hx]
    · simp [Sys.goes, Kernel.reaped, hcap.symm, hpar]
    · simp [Sys.goes, Kernel.reaped, hcap.symm, hs1, op_state]
    · intro _; simp [Sys.goes, op_code]
    · intro _; simp [Sys.goes, Kernel.reaped, hcap.symm, hfd rfl]
    · intro h; simp [OpAt.forks] at h
    · simp [Sys.goes, Kernel.reaped, hcap.symm, hr, OpAt.ready_count]
    · simp [Sys.goes, Kernel.reaped, hcap.symm, Stage.dead]
    · simp [Sys.goes, Kernel.reaped, hcap.symm, hnc, Stage.kid]
    · simp [Sys.goes, hbuf, op_buf, Stage.sent]
    · simp only [Sys.goes, Kernel.reaped_trace, calls_of_append, hcl]
      simp [calls_of, op_calls, OpAt.count]
    · have h2 : par ≠ ca := by omega
      simp [Sys.goes, Kernel.reaped, h2, hpp, OpAt.stage, Stage.raised, Stage.dead]
    · simp [Sys.goes, hpp]
    · simp [Sys.goes, OpAt.stage, Stage.sent]
  | wait0 =>
    have hc1 := hc rfl
    simp only [op_code, col_close] at hc1
    have hs1 : (S.K.proc p).state = .running := hs
    have hne1 : up ≠ ⟨q, true⟩ := fun e => hupne (by rw [e])
    unfold Turns
    rw [S.step_close p _ _ h0 hn hs1 hc1]
    refine Node.op_step p par up name a b .wait0 .close0 q ca cb pa pb pa pb
      qa qb sa sb [(p, .close ⟨q, true⟩)] h
      (hsa.held (by simp [Sys.goes]) (by simp [Sys.goes]) [(p, .close ⟨q, true⟩)]
        (by simp [Sys.goes]) (by simp) ?_ (fun x _ _ => by simp [Sys.goes]))
      (hsb.held (by simp [Sys.goes]) (by simp [Sys.goes]) [(p, .close ⟨q, true⟩)]
        (by simp [Sys.goes]) (by simp) ?_ (fun x _ _ => by simp [Sys.goes]))
      hok hd hdq hp hn hup hq (Or.inl rfl) rfl rfl ⟨fun _ h => h, fun _ h => h⟩
      ⟨fun _ h => Or.inl h, fun _ h => Or.inl h⟩ (by simp [Sys.goes]) (by simp) ?_
      (fun x _ _ => by simp [Sys.goes]) ?_ ?_ ?_ ?_ ?_ ?_ ?_ ?_ ?_ ?_
      (by simp [OpAt.stage, Stage.next]) ?_ ?_ ?_
    · intro x hx1 hx2
      have h2 : x ≠ p := by omega
      simp [Sys.goes, h2]
    · intro x hx1 hx2
      have h2 : x ≠ p := by omega
      simp [Sys.goes, h2]
    · intro x hx _ _ _
      simp [Sys.goes, hx]
    · simp [Sys.goes, hpar]
    · simp [Sys.goes, hs1, op_state]
    · intro _; simp [Sys.goes, op_code]
    · intro _
      simp only [Sys.goes, Kernel.closed_proc, if_true]
      exact ⟨(List.mem_erase_of_ne hne1).2 (hfd rfl).1,
        (List.mem_erase_of_ne (by simp)).2 (hfd rfl).2⟩
    · intro h; simp [OpAt.forks] at h
    · simp [Sys.goes, hr, OpAt.ready_count]
    · simp [Sys.goes, hdead]
    · simp [Sys.goes, hnc]
    · simp [Sys.goes, hbuf, op_buf]
    · simp only [Sys.goes, Kernel.closed_trace, calls_of_append, hcl]
      simp [calls_of, op_calls, OpAt.count]
    · simp [Sys.goes, hpp, OpAt.stage, Stage.raised, Stage.dead]
    · simp [Sys.goes, hpp]
    · simp [Sys.goes, OpAt.stage, Stage.sent]
  | close0 =>
    have hc1 := hc rfl
    simp only [op_code, col_read] at hc1
    have hs1 : (S.K.proc p).state = .running := hs
    have hb1 : S.K.buf (⟨q, false⟩ : Fd).pipe = [eval D a] := by rw [hbuf]; rfl
    unfold Turns
    rw [S.step_read p _ _ (eval D a) [] h0 hn hs1 hc1 (hfd rfl).2 rfl hb1]
    refine Node.op_step p par up name a b .close0 .read0 q ca cb pa pb pa pb
      qa qb sa sb [(p, .read ⟨q, false⟩ sizeof_double (some (eval D a)))] h
      (hsa.held (by simp [Sys.goes]) (by simp [Sys.goes])
        [(p, .read ⟨q, false⟩ sizeof_double (some (eval D a)))]
        (by simp [Sys.goes]) (by simp) ?_ ?_)
      (hsb.held (by simp [Sys.goes]) (by simp [Sys.goes])
        [(p, .read ⟨q, false⟩ sizeof_double (some (eval D a)))]
        (by simp [Sys.goes]) (by simp) ?_ ?_)
      hok hd hdq hp hn hup hq (Or.inl rfl) rfl rfl ⟨fun _ h => h, fun _ h => h⟩
      ⟨fun _ h => Or.inl h, fun _ h => Or.inl h⟩ (by simp [Sys.goes]) (by simp) ?_
      ?_ ?_ ?_ ?_ ?_ ?_ ?_ ?_ ?_ ?_ ?_
      (by simp [OpAt.stage, Stage.next]) ?_ ?_ ?_
    · intro x hx1 hx2
      have h2 : x ≠ p := by omega
      simp [Sys.goes, h2]
    · intro x hx1 hx2
      have h2 : x ≠ q := by omega
      simp [Sys.goes, h2]
    · intro x hx1 hx2
      have h2 : x ≠ p := by omega
      simp [Sys.goes, h2]
    · intro x hx1 hx2
      have h2 : x ≠ q := by omega
      simp [Sys.goes, h2]
    · intro x hx _ _ _
      simp [Sys.goes, hx]
    · intro x hx _
      simp [Sys.goes, hx]
    · simp [Sys.goes, hpar]
    · simp [Sys.goes, hs1, op_state]
    · intro _
      simp only [Sys.goes, if_true, op_code]
      exact col_read_first D up name a b q ca cb
    · intro _; simp [Sys.goes, hfd rfl]
    · intro h; simp [OpAt.forks] at h
    · simp [Sys.goes, hr, OpAt.ready_count]
    · simp [Sys.goes, hdead]
    · simp [Sys.goes, hnc]
    · simp [Sys.goes, op_buf]
    · simp only [Sys.goes, Kernel.got_trace, calls_of_append, hcl]
      simp [calls_of, op_calls, OpAt.count]
    · simp [Sys.goes, hpp, OpAt.stage, Stage.raised, Stage.dead]
    · simp [Sys.goes, hpp]
    · simp [Sys.goes, hupne, OpAt.stage, Stage.sent]
  | read0 =>
    have hc1 := hc rfl
    simp only [op_code] at hc1
    rw [collect_second D up name a b q ca cb] at hc1
    have hs1 : (S.K.proc p).state = .running := hs
    obtain ⟨rfl, rfl⟩ := hok
    obtain ⟨kc, hkc⟩ := hsb.root_state.1 rfl
    have hca := hsb.root_state.2.2 (by simp)
    have hcam : cb ∈ pb := hsb.root_in.1 (by simp)
    have hcap : cb ≠ p := by omega
    unfold Turns
    rw [S.step_cont p (cb : Int) _ kc h0 hn hs1 hc1 (by simpa using hkc) (by omega)]
    refine Node.op_step p par up name a b .read0 .kill1 q ca cb pa pb pa pb
      qa qb .gone (.active false) [(p, .kill_SIGCONT (cb : Int))] h
      (hsa.carried (by simp) (by simp) ?_ (fun x _ => by simp))
      (hsb.wake (by simp) (by simp) (by simp) ?_ ?_ ?_ (fun x _ => by simp))
      ⟨rfl, Or.inl ⟨_, rfl⟩⟩ hd hdq hp hn hup hq (Or.inl rfl) rfl rfl
      ⟨fun _ h => h, fun _ h => h⟩
      ⟨fun _ h => Or.inl h, fun _ h => Or.inl h⟩ (by simp) (by simp) ?_
      (fun x _ _ => by simp) ?_ ?_ ?_ ?_ ?_ ?_ ?_ ?_ ?_ ?_
      (by simp [OpAt.stage, Stage.next]) ?_ ?_ ?_
    · intro x hx
      have h2 : x ≠ p := by have := hba x hx; omega
      have h3 : x ≠ cb := fun e => hd x hx (e ▸ hcam)
      refine ⟨by simp [h3], by simp [h3, h2], ?_⟩
      simp only [Kernel.continued_trace]
      exact calls_of_append_other x _ _ (by simp; omega)
    · intro kc1 hk1
      rw [hkc] at hk1
      injection hk1 with hk1
      simp [hk1]
    · intro x hx hxc
      have h2 : x ≠ p := by have := hbb x hx; omega
      simp [hxc, h2]
    · intro x hx
      have h2 : x ≠ p := by have := hbb x hx; omega
      simp only [Kernel.continued_trace]
      exact calls_of_append_other x _ _ (by simp; omega)
    · intro x hx _ hx2 _
      have h3 : x ≠ cb := fun e => hx2 (e ▸ hcam)
      simp [h3, hx]
    · simp [hcap.symm, hpar]
    · simp [hcap.symm, hs1, op_state]
    · intro _; simp [hcap.symm, op_code]
    · intro _; simp [hcap.symm, hfd rfl]
    · intro h; simp [OpAt.forks] at h
    · simp [hcap.symm, hr, OpAt.ready_count]
    · simp [hcap.symm, hdead, Stage.dead]
    · simp [hcap.symm, hnc, Stage.kid]
    · simp [hbuf, op_buf, Stage.sent]
    · simp only [Kernel.continued_trace, calls_of_append, hcl]
      simp [calls_of, op_calls, OpAt.count]
    · have h2 : par ≠ cb := by omega
      simp [h2, OpAt.stage, Stage.raised, Stage.dead]
    · have h2 : par ≠ cb := by omega
      simp [h2, hpp]
    · simp [OpAt.stage, Stage.sent]
  | kill1 =>
    have hc1 := hc rfl
    simp only [op_code, col_wait] at hc1
    have hs1 : (S.K.proc p).state = .running := hs
    obtain ⟨rfl, hsa0⟩ := hok
    have hca := hsb.root_state.2.2 (by rcases hsa0 with ⟨s, e⟩ | e <;> simp [e])
    have hcam : cb ∈ pb := hsb.root_in.1 (by rcases hsa0 with ⟨s, e⟩ | e <;> simp [e])
    have hcap : cb ≠ p := by omega
    rcases hsa0 with ⟨s, rfl⟩ | rfl
    · refine hnode.turn_same p ?_
      exact S.step_wait_block p _ h0 hn hs1 hc1 (by rw [hdead]; simp [Stage.dead])
        (by rw [hnc]; simp [Stage.kid])
    unfold Turns
    rw [S.step_wait_dead p _ cb (W_EXITED 16) [] h0 hn hs1 hc1
      (by rw [hdead]; simp [Stage.dead])]
    refine Node.op_step p par up name a b .kill1 .wait1 q ca cb pa pb pa pb
      qa qb .gone .gone [(p, .wait (cb : Int) (W_EXITED 16))] h
      (hsa.carried (by simp [Sys.goes]) (by simp [Sys.goes]) ?_ (fun x _ => by simp [Sys.goes]))
      (hsb.reap (by simp [Sys.goes]) (by simp [Sys.goes]) ?_ ?_ ?_
        (fun x _ => by simp [Sys.goes]))
      ⟨rfl, rfl⟩ hd hdq hp hn hup hq (Or.inl rfl) rfl rfl
      ⟨fun _ h => h, fun _ h => h⟩
      ⟨fun _ h => Or.inl h, fun _ h => Or.inl h⟩ (by simp [Sys.goes]) (by simp) ?_
      (fun x _ _ => by simp [Sys.goes]) ?_ ?_ ?_ ?_ ?_ ?_ ?_ ?_ ?_ ?_
      (by simp [OpAt.stage, Stage.next]) ?_ ?_ ?_
    · intro x hx
      have h2 : x ≠ p := by have := hba x hx; omega
      have h3 : x ≠ cb := fun e => hd x hx (e ▸ hcam)
      refine ⟨by simp [Sys.goes, Kernel.reaped, h3, h2], by simp [Sys.goes, h2], ?_⟩
      simp only [Sys.goes, Kernel.reaped_trace]
      exact calls_of_append_other x _ _ (by simp; omega)
    · simp [Sys.goes, Kernel.reaped, hcap]
    · intro x hx hxc
      have h2 : x ≠ p := by have := hbb x hx; omega
      simp [Sys.goes, Kernel.reaped, hxc, h2]
    · intro x hx
      have h2 : x ≠ p := by have := hbb x hx; omega
      simp only [Sys.goes, Kernel.reaped_trace]
      exact calls_of_append_other x _ _ (by simp; omega)
    · intro x hx hx1 hx2 _
      have h3 : x ≠ cb := fun e => hx2 (e ▸ hcam)
      simp [Sys.goes, Kernel.reaped, h3, hx]
    · simp [Sys.goes, Kernel.reaped, hcap.symm, hpar]
    · simp [Sys.goes, Kernel.reaped, hcap.symm, hs1, op_state]
    · intro _; simp [Sys.goes, op_code]
    · intro _; simp [Sys.goes, Kernel.reaped, hcap.symm, hfd rfl]
    · intro h; simp [OpAt.forks] at h
    · simp [Sys.goes, Kernel.reaped, hcap.symm, hr, OpAt.ready_count]
    · simp [Sys.goes, Kernel.reaped, hcap.symm, Stage.dead]
    · simp [Sys.goes, Kernel.reaped, hcap.symm, hnc, Stage.kid]
    · simp [Sys.goes, hbuf, op_buf, Stage.sent]
    · simp only [Sys.goes, Kernel.reaped_trace, calls_of_append, hcl]
      simp [calls_of, op_calls, OpAt.count]
    · have h2 : par ≠ cb := by omega
      simp [Sys.goes, Kernel.reaped, h2, hpp, OpAt.stage, Stage.raised, Stage.dead]
    · simp [Sys.goes, hpp]
    · simp [Sys.goes, OpAt.stage, Stage.sent]
  | wait1 =>
    have hc1 := hc rfl
    simp only [op_code, col_close] at hc1
    have hs1 : (S.K.proc p).state = .running := hs
    have hne1 : up ≠ ⟨q, true⟩ := fun e => hupne (by rw [e])
    unfold Turns
    rw [S.step_close p _ _ h0 hn hs1 hc1]
    refine Node.op_step p par up name a b .wait1 .close1 q ca cb pa pb pa pb
      qa qb sa sb [(p, .close ⟨q, true⟩)] h
      (hsa.held (by simp [Sys.goes]) (by simp [Sys.goes]) [(p, .close ⟨q, true⟩)]
        (by simp [Sys.goes]) (by simp) ?_ (fun x _ _ => by simp [Sys.goes]))
      (hsb.held (by simp [Sys.goes]) (by simp [Sys.goes]) [(p, .close ⟨q, true⟩)]
        (by simp [Sys.goes]) (by simp) ?_ (fun x _ _ => by simp [Sys.goes]))
      hok hd hdq hp hn hup hq (Or.inl rfl) rfl rfl ⟨fun _ h => h, fun _ h => h⟩
      ⟨fun _ h => Or.inl h, fun _ h => Or.inl h⟩ (by simp [Sys.goes]) (by simp) ?_
      (fun x _ _ => by simp [Sys.goes]) ?_ ?_ ?_ ?_ ?_ ?_ ?_ ?_ ?_ ?_
      (by simp [OpAt.stage, Stage.next]) ?_ ?_ ?_
    · intro x hx1 hx2
      have h2 : x ≠ p := by omega
      simp [Sys.goes, h2]
    · intro x hx1 hx2
      have h2 : x ≠ p := by omega
      simp [Sys.goes, h2]
    · intro x hx _ _ _
      simp [Sys.goes, hx]
    · simp [Sys.goes, hpar]
    · simp [Sys.goes, hs1, op_state]
    · intro _; simp [Sys.goes, op_code]
    · intro _
      simp only [Sys.goes, Kernel.closed_proc, if_true]
      exact ⟨(List.mem_erase_of_ne hne1).2 (hfd rfl).1,
        (List.mem_erase_of_ne (by simp)).2 (hfd rfl).2⟩
    · intro h; simp [OpAt.forks] at h
    · simp [Sys.goes, hr, OpAt.ready_count]
    · simp [Sys.goes, hdead]
    · simp [Sys.goes, hnc]
    · simp [Sys.goes, hbuf, op_buf]
    · simp only [Sys.goes, Kernel.closed_trace, calls_of_append, hcl]
      simp [calls_of, op_calls, OpAt.count]
    · simp [Sys.goes, hpp, OpAt.stage, Stage.raised, Stage.dead]
    · simp [Sys.goes, hpp]
    · simp [Sys.goes, OpAt.stage, Stage.sent]
  | close1 =>
    have hc1 := hc rfl
    simp only [op_code, col_read] at hc1
    have hs1 : (S.K.proc p).state = .running := hs
    have hb1 : S.K.buf (⟨q, false⟩ : Fd).pipe = [eval D b] := by rw [hbuf]; rfl
    unfold Turns
    rw [S.step_read p _ _ (eval D b) [] h0 hn hs1 hc1 (hfd rfl).2 rfl hb1]
    refine Node.op_step p par up name a b .close1 .read1 q ca cb pa pb pa pb
      qa qb sa sb [(p, .read ⟨q, false⟩ sizeof_double (some (eval D b)))] h
      (hsa.held (by simp [Sys.goes]) (by simp [Sys.goes])
        [(p, .read ⟨q, false⟩ sizeof_double (some (eval D b)))]
        (by simp [Sys.goes]) (by simp) ?_ ?_)
      (hsb.held (by simp [Sys.goes]) (by simp [Sys.goes])
        [(p, .read ⟨q, false⟩ sizeof_double (some (eval D b)))]
        (by simp [Sys.goes]) (by simp) ?_ ?_)
      hok hd hdq hp hn hup hq (Or.inl rfl) rfl rfl ⟨fun _ h => h, fun _ h => h⟩
      ⟨fun _ h => Or.inl h, fun _ h => Or.inl h⟩ (by simp [Sys.goes]) (by simp) ?_
      ?_ ?_ ?_ ?_ ?_ ?_ ?_ ?_ ?_ ?_ ?_
      (by simp [OpAt.stage, Stage.next]) ?_ ?_ ?_
    · intro x hx1 hx2
      have h2 : x ≠ p := by omega
      simp [Sys.goes, h2]
    · intro x hx1 hx2
      have h2 : x ≠ q := by omega
      simp [Sys.goes, h2]
    · intro x hx1 hx2
      have h2 : x ≠ p := by omega
      simp [Sys.goes, h2]
    · intro x hx1 hx2
      have h2 : x ≠ q := by omega
      simp [Sys.goes, h2]
    · intro x hx _ _ _
      simp [Sys.goes, hx]
    · intro x hx _
      simp [Sys.goes, hx]
    · simp [Sys.goes, hpar]
    · simp [Sys.goes, hs1, op_state]
    · intro _
      simp only [Sys.goes, if_true, op_code]
      exact col_read_second D up name a b q ca cb
    · intro _; simp [Sys.goes, hfd rfl]
    · intro h; simp [OpAt.forks] at h
    · simp [Sys.goes, hr, OpAt.ready_count]
    · simp [Sys.goes, hdead]
    · simp [Sys.goes, hnc]
    · simp [Sys.goes, op_buf]
    · simp only [Sys.goes, Kernel.got_trace, calls_of_append, hcl]
      simp [calls_of, op_calls, OpAt.count]
    · simp [Sys.goes, hpp, OpAt.stage, Stage.raised, Stage.dead]
    · simp [Sys.goes, hpp]
    · simp [Sys.goes, hupne, OpAt.stage, Stage.sent]
  | read1 =>
    have hc1 := hc rfl
    simp only [op_code] at hc1
    rw [collect_last D up name a b q ca cb h] at hc1
    have hs1 : (S.K.proc p).state = .running := hs
    unfold Turns
    rw [S.step_write p _ _ _ h0 hn hs1 hc1 (hfd rfl).1 hup]
    refine Node.op_step p par up name a b .read1 .written q ca cb pa pb pa pb
      qa qb sa sb [(p, .write up (eval D (.mk name [a, b])) sizeof_double)] h
      (hsa.held (by simp [Sys.goes]) (by simp [Sys.goes])
        [(p, .write up (eval D (.mk name [a, b])) sizeof_double)]
        (by simp [Sys.goes]) (by simp) ?_ ?_)
      (hsb.held (by simp [Sys.goes]) (by simp [Sys.goes])
        [(p, .write up (eval D (.mk name [a, b])) sizeof_double)]
        (by simp [Sys.goes]) (by simp) ?_ ?_)
      hok hd hdq hp hn hup hq (Or.inl rfl) rfl rfl ⟨fun _ h => h, fun _ h => h⟩
      ⟨fun _ h => Or.inl h, fun _ h => Or.inl h⟩ (by simp [Sys.goes]) (by simp) ?_
      ?_ ?_ ?_ ?_ ?_ ?_ ?_ ?_ ?_ ?_ ?_
      (by simp [OpAt.stage, Stage.next]) ?_ ?_ ?_
    · intro x hx1 hx2
      have h2 : x ≠ p := by omega
      simp [Sys.goes, h2]
    · intro x hx1 hx2
      have h2 : x ≠ up.pipe := by omega
      simp [Sys.goes, h2]
    · intro x hx1 hx2
      have h2 : x ≠ p := by omega
      simp [Sys.goes, h2]
    · intro x hx1 hx2
      have h2 : x ≠ up.pipe := by omega
      simp [Sys.goes, h2]
    · intro x hx _ _ _
      simp [Sys.goes, hx]
    · intro x _ hx
      simp [Sys.goes, hx]
    · simp [Sys.goes, hpar]
    · simp [Sys.goes, hs1, op_state]
    · intro _; simp [Sys.goes, op_code]
    · intro _; simp [Sys.goes, hfd rfl]
    · intro h; simp [OpAt.forks] at h
    · simp [Sys.goes, hr, OpAt.ready_count]
    · simp [Sys.goes, hdead]
    · simp [Sys.goes, hnc]
    · simp [Sys.goes, hupne.symm, hbuf, op_buf]
    · simp only [Sys.goes, Kernel.put_trace, calls_of_append, hcl]
      simp [calls_of, op_calls, OpAt.count]
    · simp [Sys.goes, hpp, OpAt.stage, Stage.raised, Stage.dead]
    · simp [Sys.goes, hpp]
    · simp [Sys.goes, OpAt.stage, Stage.sent]
  | written =>
    have hc1 := hc rfl
    simp only [op_code] at hc1
    have hs1 : (S.K.proc p).state = .running := hs
    have hne1 : ((S.K.log p (.exit 16)).proc p).parent ≠ p := by simpa using hne
    unfold Turns
    rw [S.step_exit p _ h0 hn hs1 hc1]
    refine Node.op_step p par up name a b .written .zombie q ca cb pa pb pa pb
      qa qb sa sb [(p, .exit 16)] h
      (hsa.held (by simp) (by simp) [(p, .exit 16)]
        (by simp) (by simp) ?_ (fun x _ _ => by simp))
      (hsb.held (by simp) (by simp) [(p, .exit 16)]
        (by simp) (by simp) ?_ (fun x _ _ => by simp))
      hok hd hdq hp hn hup hq (Or.inl rfl) rfl rfl ⟨fun _ h => h, fun _ h => h⟩
      ⟨fun _ h => Or.inl h, fun _ h => Or.inl h⟩ (by simp) (by simp) ?_
      (fun x _ _ => by simp) ?_ ?_ ?_ ?_ ?_ ?_ ?_ ?_ ?_ ?_
      (by simp [OpAt.stage, Stage.next]) ?_ rfl ?_
    · intro x hx1 hx2
      refine ⟨?_, rfl⟩
      dsimp only
      rw [Kernel.terminate_proc_other _ _ _ _ (by omega)
        (by simp only [Kernel.log_proc]; rw [hpar]; omega)]
      rfl
    · intro x hx1 hx2
      refine ⟨?_, rfl⟩
      dsimp only
      rw [Kernel.terminate_proc_other _ _ _ _ (by omega)
        (by simp only [Kernel.log_proc]; rw [hpar]; omega)]
      rfl
    · intro x hx _ _ hx2
      refine ⟨?_, rfl⟩
      dsimp only
      rw [Kernel.terminate_proc_other _ _ _ _ hx
        (by simp only [Kernel.log_proc]; rw [hpar]; exact hx2)]
      rfl
    · dsimp only; rw [Kernel.terminate_proc_self _ _ _ hne1]; simpa using hpar
    · dsimp only; rw [Kernel.terminate_proc_self _ _ _ hne1]; rfl
    · intro h; simp [OpAt.runs] at h
    · intro h; simp [OpAt.alive] at h
    · intro h; simp [OpAt.forks] at h
    · dsimp only; rw [Kernel.terminate_proc_self _ _ _ hne1]; simpa using hr
    · dsimp only; rw [Kernel.terminate_proc_self _ _ _ hne1]; simpa using hdead
    · dsimp only; rw [Kernel.terminate_proc_self _ _ _ hne1]; simpa using hnc
    · simp [hbuf, op_buf]
    · dsimp only; rw [Kernel.terminate_trace, Kernel.log_trace, calls_of_append, hcl]
      simp [calls_of, op_calls, OpAt.count]
    · dsimp only
      have := Kernel.terminate_proc_parent (S.K.log p (.exit 16)) p (W_EXITED 16) hne1
      simp only [Kernel.log_proc] at this
      rw [hpar] at this
      rw [this]; simp [OpAt.stage, Stage.raised, Stage.dead]
    · simp [OpAt.stage, Stage.sent]


/-- The turn of a worker of a subtree leaves the workers of the subtree in
order. -/
theorem Node.turn_in {D : DoubleOps α} {S : Sys α}
    (hfresh : ∀ e ∈ S.K.trace, e.1 < S.K.next_pid) {p par : Nat} {up : Fd} {t : tree_node}
    {pids qs : List Nat} {st : Stage} (h : Node D S p par up t pids qs st) :
    ∀ x ∈ pids, Turns D S x p par up t pids qs st := by
  induction h with
  | unborn c par up t hwf => intro x hx; simp at hx
  | leaf p par up name pt st h hp hn hpar hup hs hc hfd hcl hst =>
    intro x hx
    simp only [List.mem_singleton] at hx
    subst hx hst
    exact Node.turn_leaf x par up name pt h hp hn hpar hup hs hc hfd hcl
  | op_new p par up name a b h ha hb hp hn hpar hup hupq hs hc hfd hr hdead hnc hcl =>
    intro x hx
    simp only [List.mem_singleton] at hx
    subst hx
    exact Node.turn_fresh_op x par up name a b h ha hb hp hn hpar hup hupq hs hc hfd hr hdead
      hnc hcl
  | op p par up name a b pt q ca cb pa pb qa qb sa sb st h hsa hsb hok hd hdq hp hn hpar hup
      hq hs hc hfd hfd1 hr hdead hnc hbuf hcl hst iha ihb =>
    intro x hx
    subst hst
    rcases List.mem_cons.1 hx with hx | hx
    · subst hx
      exact Node.turn_op hfresh x par up name a b pt q ca cb pa pb qa qb sa sb h hsa hsb hok hd
        hdq hp hn hpar hup hq hs hc hfd hfd1 hr hdead hnc hbuf hcl
    · rcases List.mem_append.1 hx with hx | hx
      · exact Node.below_left x p par up name a b pt q ca cb pa pb qa qb sa sb h hsa hsb hok hd
          hdq hp hn hpar hup hq hs hc hfd hfd1 hr hdead hnc hbuf hcl (iha x hx)
      · exact Node.below_right x p par up name a b pt q ca cb pa pb qa qb sa sb h hsa hsb hok hd
          hdq hp hn hpar hup hq hs hc hfd hfd1 hr hdead hnc hbuf hcl (ihb x hx)

theorem MainAt.ok_next {pt : MainAt} {st st1 : Stage} (hok : pt.ok st) (hn : st.next st1) :
    pt.ok st1 := by
  rcases st with _ | (_ | _) | (_ | _) | _ | _ <;>
    rcases st1 with _ | (_ | _) | (_ | _) | _ | _ <;>
    (try (simp [Stage.next] at hn; done)) <;>
    cases pt <;> simp_all [MainAt.ok]

theorem MainAt.ready_next {pt : MainAt} {st st1 : Stage} (hok : pt.ok st) (hn : st.next st1) :
    pt.ready_count st + (st1.raised - st.raised) = pt.ready_count st1 := by
  rcases st with _ | (_ | _) | (_ | _) | _ | _ <;>
    rcases st1 with _ | (_ | _) | (_ | _) | _ | _ <;>
    (try (simp [Stage.next] at hn; done)) <;>
    cases pt <;> simp_all [MainAt.ok, MainAt.ready_count, Stage.raised]

theorem Stage.dead_next {st st1 : Stage} (c : Nat) (hn : st.next st1) :
    st.dead c ++ (if st = .zombie then [] else st1.dead c) = st1.dead c := by
  rcases st with _ | (_ | _) | (_ | _) | _ | _ <;>
    rcases st1 with _ | (_ | _) | (_ | _) | _ | _ <;>
    simp_all [Stage.next, Stage.dead]

theorem main_buf_next (D : DoubleOps α) (t : tree_node) {pt : MainAt} {st st1 : Stage}
    (hok : pt.ok st) (hn : st.next st1) :
    main_buf D t pt st ++ (if st.sent = false ∧ st1.sent = true then [eval D t] else []) =
      main_buf D t pt st1 := by
  rcases st with _ | (_ | _) | (_ | _) | _ | _ <;>
    rcases st1 with _ | (_ | _) | (_ | _) | _ | _ <;>
    (try (simp [Stage.next] at hn; done)) <;>
    cases pt <;> simp_all [MainAt.ok, main_buf, Stage.sent]

/-- Every call was made by a process that exists. -/
theorem Whole.fresh {D : DoubleOps α} {prog path : String} {t : tree_node} {S : Sys α}
    (h : Whole D prog path t S) : ∀ e ∈ S.K.trace, e.1 < S.K.next_pid := by
  obtain ⟨pt, pids, qs, st, hnode, hok, h2, hall, hpipe, hallq, hf, hpar, hs, hc, hfd, hr,
    hdead, hnc, hbuf, hcl, htr⟩ := h
  intro e he
  rcases htr e he with h1 | h1
  · omega
  · exact (hnode.pid_bounds _ h1).2.2

/-- The turn of a worker keeps the invariant of the run. -/
theorem Whole.worker_turn {D : DoubleOps α} {prog path : String} {t : tree_node} {S : Sys α}
    (h : Whole D prog path t S) (x : Nat) (hx2 : 2 ≤ x) (hxn : x < S.K.next_pid) :
    Whole D prog path t (S.step x) := by
  have hfresh := h.fresh
  obtain ⟨pt, pids, qs, st, hnode, hok, h2, hall, hpipe, hallq, hf, hpar, hs, hc, hfd, hr,
    hdead, hnc, hbuf, hcl, htr⟩ := h
  have hx := hall x hx2 hxn
  obtain ⟨pids1, qs1, st1, hnode1, hm⟩ := hnode.turn_in hfresh x hx
  have hmono := hm.pid_mono
  have hpr := hm.par_proc
  have hb1 := hnode1.pid_bounds
  have h1 : (1 : Nat) ∉ pids1 := fun e => by have := hb1 1 e; omega
  have hst : st ≠ .unborn := fun e => by
    have := (hnode.root_in.2 e).1
    rw [this] at hx
    simp at hx
  refine .mk pt pids1 qs1 st1 hnode1 (MainAt.ok_next hok hm.next) (by omega) ?_ ?_ ?_
    (by rw [hm.files]; exact hf) (by rw [hpr]; exact hpar) (by rw [hpr]; exact hs)
    (by rw [hm.par_code]; exact hc) (by rw [hpr]; exact hfd) ?_ ?_ ?_ ?_
    (by rw [hm.calls_same 1 h1]; exact hcl) ?_
  · intro y hy1 hy2
    rcases hm.pid with e | e
    · exact hm.sub y (hall y hy1 (by omega))
    · by_cases hy : y = S.K.next_pid
      · rw [hy]; exact e.2
      · exact hm.sub y (hall y hy1 (by omega))
  · have hc2 : ¬ pt.count < 2 := by
      cases pt <;> simp [MainAt.ok, MainAt.count] at hok ⊢ <;> exact hst hok
    rw [if_neg hc2] at hpipe ⊢
    omega
  · intro y hy1 hy2
    rcases hm.pipe with e | e
    · exact hm.qsub y (hallq y hy1 (by omega))
    · by_cases hy : y = S.K.next_pipe
      · rw [hy]; exact e.2
      · exact hm.qsub y (hallq y hy1 (by omega))
  · rw [hpr]; simp only; rw [hr, MainAt.ready_next hok hm.next]
  · rw [hpr]; simp only; rw [hdead, Stage.dead_next 2 hm.next]
  · rw [hpr]; simp only; rw [hnc, Stage.kid_next hm.next]
  · have := hm.up_buf
    simp only at this
    rw [this, hbuf, main_buf_next D t hok hm.next]
  · obtain ⟨es, e1, e2⟩ := hm.trace
    intro e he
    rw [e1] at he
    rcases List.mem_append.1 he with he | he
    · rcases htr e he with h3 | h3
      · exact Or.inl h3
      · exact Or.inr (hm.sub _ h3)
    · exact Or.inr (e2 e he)


theorem main_piped_child (D : DoubleOps α) (t : tree_node) (pfd0 pfd1 : Fd) :
    (if (0 : Int) < 0 then (Prog.stderr "fork" (.exit 1) : Prog α)
      else Prog.seq (if (0 : Int) = 0 then Prog.seq (child D pfd1 t) .abort else .ret)
        (main_rest pfd0 0)) = child D pfd1 t := by
  simp only [lt_irrefl, if_false, if_true]
  rw [Prog.seq_eq_self_of_never_returns _ _ (child_never_returns D pfd1 t)]
  exact Prog.seq_eq_self_of_never_returns _ _ (child_never_returns D pfd1 t)

/-- The turn of `main` keeps the invariant of the run. -/
theorem Whole.turn_of_main {D : DoubleOps α} {prog path : String} {t : tree_node} {S : Sys α}
    (h : Whole D prog path t S) : Whole D prog path t (S.step 1) := by
  have hfresh := h.fresh
  have hw := h
  obtain ⟨pt, pids, qs, st, hnode, hok, h2, hall, hpipe, hallq, hf, hpar, hs, hc, hfd, hr,
    hdead, hnc, hbuf, hcl, htr⟩ := h
  have hne : (S.K.proc 1).parent ≠ 1 := by rw [hpar]; omega
  have hb := hnode.pid_bounds
  have hqb := hnode.pipes
  cases pt with
  | exited =>
    rw [S.step_of_not_running 1 (by rw [hs]; simp [main_state])]
    exact hw
  | start =>
    have hc1 := hc rfl
    simp only [main_code] at hc1
    rw [main_unfold] at hc1
    have hs1 : (S.K.proc 1).state = .running := hs
    have hst : st = .unborn := hok
    subst hst
    obtain ⟨rfl, rfl⟩ := hnode.root_in.2 rfl
    rw [S.step_load 1 path _ t (by omega) (by omega) hs1 hc1 hf]
    refine .mk .loaded [] [] .unborn (.unborn _ _ _ _ hnode.wf) rfl (by simpa [Sys.goes] using h2)
      (by simpa [Sys.goes] using hall) (by simpa [Sys.goes, MainAt.count] using hpipe)
      (by simpa [Sys.goes] using hallq) (by simpa [Sys.goes] using hf)
      (by simp [Sys.goes, hpar]) (by simp [Sys.goes, hs1, main_state])
      (fun _ => by simp [Sys.goes, main_code]) (by simp [MainAt.holds])
      (by simp [Sys.goes, hr, MainAt.ready_count]) (by simp [Sys.goes, hdead])
      (by simp [Sys.goes, hnc]) (by simp [Sys.goes, hbuf, main_buf]) ?_ ?_
    · simp only [Sys.goes, Kernel.log_trace, calls_of_append, hcl]
      simp [calls_of, main_calls, MainAt.count]
    · intro e he
      simp only [Sys.goes, Kernel.log_trace, List.mem_append, List.mem_singleton] at he
      rcases he with he | he
      · exact htr e he
      · rw [he]; simp
  | loaded =>
    have hc1 := hc rfl
    simp only [main_code, main_loaded] at hc1
    have hs1 : (S.K.proc 1).state = .running := hs
    have hst : st = .unborn := hok
    subst hst
    obtain ⟨rfl, rfl⟩ := hnode.root_in.2 rfl
    have hnp : S.K.next_pipe = 0 := by simpa [MainAt.count] using hpipe
    rw [S.step_pipe 1 _ (by omega) (by omega) hs1 hc1]
    refine .mk .piped [] [] .unborn (.unborn _ _ _ _ hnode.wf) rfl (by simpa [Sys.goes] using h2)
      (by simpa [Sys.goes] using hall) (by simp [Sys.goes, MainAt.count])
      ?_ (by simpa [Sys.goes] using hf)
      (by simp [Sys.goes, hpar]) (by simp [Sys.goes, hs1, main_state])
      (fun _ => by simp [Sys.goes, main_code, hnp]) (fun _ => by simp [Sys.goes, hnp])
      (by simp [Sys.goes, hr, MainAt.ready_count]) (by simp [Sys.goes, hdead])
      (by simp [Sys.goes, hnc]) (by simp [Sys.goes, hnp, main_buf]) ?_ ?_
    · intro x hx1 hx2
      simp only [Sys.goes, Kernel.piped_next_pipe, hnp] at hx2
      omega
    · simp only [Sys.goes, Kernel.piped_trace, calls_of_append, hcl, hnp]
      simp [calls_of, main_calls, MainAt.count]
    · intro e he
      simp only [Sys.goes, Kernel.piped_trace, List.mem_append, List.mem_singleton] at he
      rcases he with he | he
      · exact htr e he
      · rw [he]; simp
  | piped =>
    have hc1 := hc rfl
    simp only [main_code, main_piped] at hc1
    have hs1 : (S.K.proc 1).state = .running := hs
    have hst : st = .unborn := hok
    subst hst
    obtain ⟨rfl, rfl⟩ := hnode.root_in.2 rfl
    have hn2 : S.K.next_pid = 2 := by
      by_contra hne2
      have := hall 2 (le_refl 2) (by omega)
      simp at this
    have hnp : 1 ≤ S.K.next_pipe := by simpa [MainAt.count] using hpipe
    rw [S.step_fork 1 _ (by omega) (by omega) hs1 hc1]
    refine .mk .forked [2] [] (.building false)
      (Node.newborn D _ 2 1 ⟨0, true⟩ hnode.wf (by omega) (by simp [hn2]) (by simp [hn2]) rfl
        (by simpa using hnp) (by simp [hn2]) ?_ (by simp [hn2, hfd rfl]) (by simp [hn2])
        (by simp [hn2]) (by simp [hn2]) ?_)
      ⟨_, rfl⟩ (by simp [hn2]) ?_ (by simpa [MainAt.count] using hnp)
      (by simpa using hallq) (by simpa using hf)
      (by simp [hn2, hpar]) (by simp [hn2, hs1, main_state]) ?_
      (fun _ => by simp [hn2, hfd rfl])
      (by simp [hn2, hr, MainAt.ready_count, Stage.raised]) (by simp [hn2, hdead, Stage.dead])
      (by simp [hn2, hnc, Stage.kid]) (by simp [hbuf, main_buf]) ?_ ?_
    · simp only [hn2, if_true]
      exact main_piped_child D t _ _
    · simp only [Kernel.forked_trace, calls_of_append, hn2]
      have : calls_of 2 S.K.trace = ([] : List (Act α)) :=
        calls_of_eq_nil _ _ fun e he => by have := hfresh e he; omega
      simp [calls_of] at this ⊢
      exact this
    · intro x hx1 hx3
      simp only [Kernel.forked_next_pid, hn2] at hx3
      simp; omega
    · intro _
      simp only [hn2, show ¬ ((1 : Nat) = 2) by omega, if_false, if_true, main_code]
      exact fork_parent _ _ _ 2 (by omega)
    · simp only [Kernel.forked_trace, calls_of_append, hcl, hn2]
      simp [calls_of, main_calls, MainAt.count]
    · intro e he
      simp only [Kernel.forked_trace, List.mem_append, List.mem_singleton, hn2] at he
      rcases he with (he | he) | he
      · have := htr e he; simp at this; simp [this]
      · rw [he]; simp
      · rw [he]; simp
  | forked =>
    have hc1 := hc rfl
    simp only [main_code, main_rest] at hc1
    have hs1 : (S.K.proc 1).state = .running := hs
    obtain ⟨r, rfl⟩ := hok
    cases r with
    | false =>
      rw [S.step_wait_ready 1 1 _ (by omega) (by omega) hs1 hc1, if_neg]
      · exact hw
      · rw [hr]; simp [MainAt.ready_count, Stage.raised]
    | true =>
      rw [S.step_wait_ready 1 1 _ (by omega) (by omega) hs1 hc1,
        if_pos (by rw [hr]; simp [MainAt.ready_count, Stage.raised])]
      refine .mk .counted pids qs (.building true)
        (hnode.held (by simp [Sys.goes]) (by simp [Sys.goes]) [(1, .wait_for_ready_children 1)]
          (by simp [Sys.goes]) (by simp) ?_ (fun x _ _ => by simp [Sys.goes]))
        rfl (by simpa [Sys.goes] using h2)
        (by simpa [Sys.goes] using hall) (by simpa [Sys.goes, MainAt.count] using hpipe)
        (by simpa [Sys.goes] using hallq) (by simpa [Sys.goes] using hf)
        (by simp [Sys.goes, hpar]) (by simp [Sys.goes, hs1, main_state])
        (fun _ => by simp [Sys.goes, main_code]) (fun _ => by simp [Sys.goes, hfd rfl])
        (by simp [Sys.goes, hr, MainAt.ready_count, Stage.raised]) (by simp [Sys.goes, hdead])
        (by simp [Sys.goes, hnc]) (by simp [Sys.goes, hbuf, main_buf]) ?_ ?_
      · intro x hx1 hx2
        have h3 : x ≠ 1 := by omega
        simp [Sys.goes, h3]
      · simp only [Sys.goes, Kernel.counted_trace, calls_of_append, hcl]
        simp [calls_of, main_calls, MainAt.count]
      · intro e he
        simp only [Sys.goes, Kernel.counted_trace, List.mem_append, List.mem_singleton] at he
        rcases he with he | he
        · exact htr e he
        · rw [he]; simp
  | counted =>
    have hc1 := hc rfl
    simp only [main_code] at hc1
    have hs1 : (S.K.proc 1).state = .running := hs
    have hst : st = .building true := hok
    subst hst
    obtain ⟨kc, hkc⟩ := hnode.root_state.1 rfl
    rw [S.step_cont 1 (2 : Int) _ kc (by omega) (by omega) hs1 hc1 (by simpa using hkc)
      (by omega)]
    refine .mk .killed pids qs (.active false)
      (hnode.wake (by simp) (by simp) (by simp) ?_ ?_ ?_ (fun x _ => by simp))
      (Or.inl ⟨_, rfl⟩) (by simpa using h2)
      (by simpa using hall) (by simpa [MainAt.count] using hpipe)
      (by simpa using hallq) (by simpa using hf)
      (by simp [hpar]) (by simp [hs1, main_state])
      (fun _ => by simp [main_code]) (fun _ => by simp [hfd rfl])
      (by simp [hr, MainAt.ready_count]) (by simp [hdead, Stage.dead])
      (by simp [hnc, Stage.kid]) (by simp [hbuf, main_buf, Stage.sent]) ?_ ?_
    · intro kc1 hk1
      have e : kc = kc1 := by
        rw [hkc] at hk1
        injection hk1
      subst e
      simp
    · intro x hx hxc
      have h3 : x ≠ 1 := by have := hb x hx; omega
      simp [hxc, h3]
    · intro x hx
      have h3 : x ≠ 1 := by have := hb x hx; omega
      simp only [Kernel.continued_trace]
      exact calls_of_append_other x _ _ (by simp; omega)
    · simp only [Kernel.continued_trace, calls_of_append, hcl]
      simp [calls_of, main_calls, MainAt.count]
    · intro e he
      simp only [Kernel.continued_trace, List.mem_append, List.mem_singleton] at he
      rcases he with he | he
      · exact htr e he
      · rw [he]; simp
  | killed =>
    have hc1 := hc rfl
    simp only [main_code, main_end] at hc1
    have hs1 : (S.K.proc 1).state = .running := hs
    rcases hok with ⟨s, rfl⟩ | rfl
    · rw [S.step_wait_block 1 _ (by omega) (by omega) hs1 hc1 (by rw [hdead]; simp [Stage.dead])
        (by rw [hnc]; simp [Stage.kid])]
      exact hw
    rw [S.step_wait_dead 1 _ 2 (W_EXITED 16) [] (by omega) (by omega) hs1 hc1
      (by rw [hdead]; simp [Stage.dead])]
    refine .mk .reaped pids qs .gone
      (hnode.reap (by simp [Sys.goes]) (by simp [Sys.goes]) ?_ ?_ ?_
        (fun x _ => by simp [Sys.goes]))
      rfl (by simpa [Sys.goes] using h2)
      (by simpa [Sys.goes] using hall) (by simpa [Sys.goes, MainAt.count] using hpipe)
      (by simpa [Sys.goes] using hallq) (by simpa [Sys.goes] using hf)
      (by simp [Sys.goes, Kernel.reaped, hpar]) (by simp [Sys.goes, Kernel.reaped, hs1, main_state])
      (fun _ => by simp [Sys.goes, main_code, main_read])
      (fun _ => by simp [Sys.goes, Kernel.reaped, hfd rfl])
      (by simp [Sys.goes, Kernel.reaped, hr, MainAt.ready_count])
      (by simp [Sys.goes, Kernel.reaped, Stage.dead])
      (by simp [Sys.goes, Kernel.reaped, hnc, Stage.kid])
      (by simp [Sys.goes, hbuf, main_buf, Stage.sent]) ?_ ?_
    · simp [Sys.goes, Kernel.reaped]
    · intro x hx hxc
      have h3 : x ≠ 1 := by have := hb x hx; omega
      simp [Sys.goes, Kernel.reaped, hxc, h3]
    · intro x hx
      have h3 : x ≠ 1 := by have := hb x hx; omega
      simp only [Sys.goes, Kernel.reaped_trace]
      exact calls_of_append_other x _ _ (by simp; omega)
    · simp only [Sys.goes, Kernel.reaped_trace, calls_of_append, hcl]
      simp [calls_of, main_calls, MainAt.count]
    · intro e he
      simp only [Sys.goes, Kernel.reaped_trace, List.mem_append, List.mem_singleton] at he
      rcases he with he | he
      · exact htr e he
      · rw [he]; simp
  | reaped =>
    have hc1 := hc rfl
    simp only [main_code, main_read] at hc1
    have hs1 : (S.K.proc 1).state = .running := hs
    have hst : st = .gone := hok
    subst hst
    have hb1 : S.K.buf (⟨0, false⟩ : Fd).pipe = [eval D t] := by rw [hbuf]; rfl
    rw [S.step_read 1 _ _ (eval D t) [] (by omega) (by omega) hs1 hc1 (hfd rfl).1 rfl hb1]
    refine .mk .read pids qs .gone
      (hnode.held (by simp [Sys.goes]) (by simp [Sys.goes])
        [(1, .read ⟨0, false⟩ sizeof_double (some (eval D t)))]
        (by simp [Sys.goes]) (by simp) ?_ ?_)
      rfl (by simpa [Sys.goes] using h2)
      (by simpa [Sys.goes] using hall) (by simpa [Sys.goes, MainAt.count] using hpipe)
      (by simpa [Sys.goes] using hallq) (by simpa [Sys.goes] using hf)
      (by simp [Sys.goes, hpar]) (by simp [Sys.goes, hs1, main_state])
      (fun _ => by simp [Sys.goes, main_code]) (fun _ => by simp [Sys.goes, hfd rfl])
      (by simp [Sys.goes, hr, MainAt.ready_count]) (by simp [Sys.goes, hdead])
      (by simp [Sys.goes, hnc]) (by simp [Sys.goes, main_buf]) ?_ ?_
    · intro x hx1 hx2
      have h3 : x ≠ 1 := by omega
      simp [Sys.goes, h3]
    · intro x hx1 hx2
      have h3 : x ≠ 0 := by omega
      simp [Sys.goes, h3]
    · simp only [Sys.goes, Kernel.got_trace, calls_of_append, hcl]
      simp [calls_of, main_calls, MainAt.count]
    · intro e he
      simp only [Sys.goes, Kernel.got_trace, List.mem_append, List.mem_singleton] at he
      rcases he with he | he
      · exact htr e he
      · rw [he]; simp
  | read =>
    have hc1 := hc rfl
    simp only [main_code] at hc1
    have hs1 : (S.K.proc 1).state = .running := hs
    have hst : st = .gone := hok
    subst hst
    have hne1 : ((S.K.log 1 (.exit 0)).proc 1).parent ≠ 1 := by simpa using hne
    rw [S.step_exit 1 _ (by omega) (by omega) hs1 hc1]
    refine .mk .exited pids qs .gone
      (hnode.held (by simp) (by simp) [(1, .exit 0)] (by simp) (by simp) ?_
        (fun x _ _ => by simp))
      rfl (by simpa using h2)
      (by simpa using hall) (by simpa [MainAt.count] using hpipe)
      (by simpa using hallq) (by simpa using hf) ?_ ?_
      (by simp [MainAt.runs]) (by simp [MainAt.holds]) ?_ ?_ ?_
      (by simp [hbuf, main_buf]) ?_ ?_
    · intro x hx1 hx2
      refine ⟨?_, rfl⟩
      dsimp only
      rw [Kernel.terminate_proc_other _ _ _ _ (by omega)
        (by simp only [Kernel.log_proc]; rw [hpar]; omega)]
      rfl
    · dsimp only; rw [Kernel.terminate_proc_self _ _ _ hne1]; simpa using hpar
    · dsimp only; rw [Kernel.terminate_proc_self _ _ _ hne1]; rfl
    · dsimp only; rw [Kernel.terminate_proc_self _ _ _ hne1]; simpa using hr
    · dsimp only; rw [Kernel.terminate_proc_self _ _ _ hne1]; simpa using hdead
    · dsimp only; rw [Kernel.terminate_proc_self _ _ _ hne1]; simpa using hnc
    · dsimp only; rw [Kernel.terminate_trace, Kernel.log_trace, calls_of_append, hcl]
      simp [calls_of, main_calls, MainAt.count]
    · intro e he
      simp only [Kernel.terminate_trace, Kernel.log_trace, List.mem_append,
        List.mem_singleton] at he
      rcases he with he | he
      · exact htr e he
      · rw [he]; simp

/-- Every turn keeps the invariant of the run. -/
theorem Whole.any_step {D : DoubleOps α} {prog path : String} {t : tree_node} {S : Sys α}
    (h : Whole D prog path t S) (x : Nat) : Whole D prog path t (S.step x) := by
  have h2 : 2 ≤ S.K.next_pid := by
    obtain ⟨pt, pids, qs, st, hnode, hok, h2, _⟩ := h
    exact h2
  by_cases h1 : x = 1
  · subst h1; exact h.turn_of_main
  · by_cases hx : x = 0 ∨ S.K.next_pid ≤ x
    · rw [S.step_of_no_process x hx]; exact h
    · exact h.worker_turn x (by omega) (by omega)

/-- The invariant holds at the start of the program. -/
theorem Whole.at_boot (D : DoubleOps α) (files : String → Option tree_node)
    (prog path : String) (t : tree_node) (hfile : files path = some t) (hwf : WellFormed t) :
    Whole D prog path t (start D files [prog, path]) :=
  .mk .start [] [] .unborn (.unborn _ _ _ _ hwf) rfl (by simp [start, boot])
    (by intro x h1 h2; simp [start, boot] at h2; omega) (by simp [start, boot, MainAt.count])
    (by intro x h1 h2; simp [start, boot] at h2) hfile rfl rfl
    (fun _ => by simp [start, main_code]) (by simp [MainAt.holds]) rfl rfl rfl rfl
    (by simp [start, boot, calls_of, main_calls, MainAt.count]) (by simp [start, boot])

/-- The invariant holds after every schedule. -/
theorem Whole.through {D : DoubleOps α} {prog path : String} {t : tree_node}
    (sched : List Nat) : ∀ S : Sys α, Whole D prog path t S → Whole D prog path t (S.run sched) := by
  induction sched with
  | nil => intro S h; exact h
  | cons x sched ih => intro S h; exact ih _ (h.any_step x)

end ex2_pipes

/-- The turn of a running process whose call can complete adds a call. -/
theorem Sys.step_grows (S : Sys α) (x : Nat) (h0 : 0 < x) (hn : x < S.K.next_pid)
    (hs : (S.K.proc x).state = .running) (hst : ¬ S.stuck x) :
    S.K.trace.length < (S.step x).K.trace.length := by
  unfold Sys.step
  rw [if_neg (by omega)]
  simp only [hs]
  unfold Sys.stuck at hst
  cases hc : S.code x with
  | exit s => simp
  | ret => simp
  | abort => simp
  | stderr m k => simp [Sys.goes]
  | sleep sec k => simp [Sys.goes]
  | get_tree_from_file path k =>
    simp only
    split <;> simp [Sys.goes]
  | pipe k => simp [Sys.goes]
  | fork k => simp
  | wait_for_ready_children cnt k =>
    simp only [hc, not_lt] at hst
    simp [Sys.goes, hst]
  | raise_SIGSTOP k => simp
  | kill_SIGCONT pid k =>
    simp only
    split
    · split <;> simp [Sys.goes]
    · simp [Sys.goes]
  | wait k =>
    simp only [hc] at hst
    simp only
    split
    · simp [Sys.goes]
    · rename_i hd
      have : (S.K.proc x).nchild = 0 := by
        by_contra h
        exact hst ⟨hd, h⟩
      simp [Sys.goes, this]
  | close fd k => simp [Sys.goes]
  | read fd k =>
    simp only [hc] at hst
    simp only
    split
    · rename_i hfd
      split
      · simp [Sys.goes]
      · rename_i hb
        have : ¬ S.K.has_writer fd.pipe = true := fun h => hst ⟨hfd.1, hfd.2, hb, h⟩
        simp [Sys.goes, this]
    · simp [Sys.goes]
  | write fd v k =>
    simp only
    split <;> simp [Sys.goes]

namespace ex2_pipes

/-- In a subtree that is being set up or is collecting, a worker can make a
call. -/
theorem Node.can_move {D : DoubleOps α} {S : Sys α} {p par : Nat} {up : Fd} {t : tree_node}
    {pids qs : List Nat} {st : Stage} (h : Node D S p par up t pids qs st) :
    (st = .building false ∨ ∃ s, st = .active s) →
    ∃ x ∈ pids, (S.K.proc x).state = .running ∧ ¬ S.stuck x := by
  induction h with
  | unborn c par up t hwf => intro h; simp at h
  | leaf p par up name pt st h hp hn hpar hup hs hc hfd hcl hst =>
    intro hst1
    subst hst
    refine ⟨p, by simp, ?_, ?_⟩
    · rw [hs]; cases pt <;> simp [LeafAt.stage, leaf_state] at hst1 ⊢
    · unfold Sys.stuck
      cases pt <;> simp [LeafAt.stage] at hst1 <;>
        simp [hc rfl, leaf_code, child_leaf D up name h, send]
  | op_new p par up name a b h ha hb hp hn hpar hup hupq hs hc hfd hr hdead hnc hcl =>
    intro _
    refine ⟨p, by simp, hs, ?_⟩
    unfold Sys.stuck
    rw [hc, child_op_pos D up name h]
    simp
  | op p par up name a b pt q ca cb pa pb qa qb sa sb st h hsa hsb hok hd hdq hp hn hpar hup
      hq hs hc hfd hfd1 hr hdead hnc hbuf hcl hst iha ihb =>
    intro hst1
    subst hst
    have hleft : (sa = .building false ∨ ∃ s, sa = .active s) →
        ∃ x ∈ p :: (pa ++ pb), (S.K.proc x).state = .running ∧ ¬ S.stuck x := fun e => by
      obtain ⟨x, hx, h1⟩ := iha e
      exact ⟨x, by simp [hx], h1⟩
    have hright : (sb = .building false ∨ ∃ s, sb = .active s) →
        ∃ x ∈ p :: (pa ++ pb), (S.K.proc x).state = .running ∧ ¬ S.stuck x := fun e => by
      obtain ⟨x, hx, h1⟩ := ihb e
      exact ⟨x, by simp [hx], h1⟩
    have hself : pt.runs = true → ¬ S.stuck p →
        ∃ x ∈ p :: (pa ++ pb), (S.K.proc x).state = .running ∧ ¬ S.stuck x := fun e1 e2 => by
      refine ⟨p, by simp, ?_, e2⟩
      rw [hs]; cases pt <;> simp [OpAt.runs, op_state] at e1 ⊢
    cases pt with
    | ready => simp [OpAt.stage] at hst1
    | zombie => simp [OpAt.stage] at hst1
    | gone => simp [OpAt.stage] at hst1
    | piped =>
      refine hself rfl ?_
      unfold Sys.stuck; simp [hc rfl, op_code, first_fork]
    | one =>
      refine hself rfl ?_
      unfold Sys.stuck; simp [hc rfl, op_code, second_fork]
    | two =>
      obtain ⟨⟨ra, rfl⟩, ⟨rb, rfl⟩⟩ := hok
      cases ra with
      | false => exact hleft (Or.inl rfl)
      | true =>
        cases rb with
        | false => exact hright (Or.inl rfl)
        | true =>
          refine hself rfl ?_
          unfold Sys.stuck
          simp [hc rfl, op_code, after_forks, hr, OpAt.ready_count, Stage.raised]
    | waited =>
      refine hself rfl ?_
      unfold Sys.stuck; simp [hc rfl, op_code]
    | woken =>
      refine hself rfl ?_
      unfold Sys.stuck; simp [hc rfl, op_code, collect_first D up name a b q ca cb]
    | kill0 =>
      rcases hok.1 with ⟨s, e⟩ | e
      · exact hleft (Or.inr ⟨s, e⟩)
      · refine hself rfl ?_
        unfold Sys.stuck
        simp [hc rfl, op_code, col_wait, hdead, e, Stage.dead]
    | wait0 =>
      refine hself rfl ?_
      unfold Sys.stuck; simp [hc rfl, op_code, col_close]
    | close0 =>
      refine hself rfl ?_
      unfold Sys.stuck; simp [hc rfl, op_code, col_read, hbuf, op_buf]
    | read0 =>
      refine hself rfl ?_
      unfold Sys.stuck; simp [hc rfl, op_code, collect_second D up name a b q ca cb]
    | kill1 =>
      rcases hok.2 with ⟨s, e⟩ | e
      · exact hright (Or.inr ⟨s, e⟩)
      · refine hself rfl ?_
        unfold Sys.stuck
        simp [hc rfl, op_code, col_wait, hdead, e, hok.1, Stage.dead]
    | wait1 =>
      refine hself rfl ?_
      unfold Sys.stuck; simp [hc rfl, op_code, col_close]
    | close1 =>
      refine hself rfl ?_
      unfold Sys.stuck; simp [hc rfl, op_code, col_read, hbuf, op_buf]
    | read1 =>
      refine hself rfl ?_
      unfold Sys.stuck; simp [hc rfl, op_code, collect_last D up name a b q ca cb h]
    | written =>
      refine hself rfl ?_
      unfold Sys.stuck; simp [hc rfl, op_code]

/-- As long as `main` has not terminated, some process can make a call. -/
theorem Whole.has_turn {D : DoubleOps α} {prog path : String} {t : tree_node} {S : Sys α}
    (h : Whole D prog path t S) (hrun : (S.K.proc 1).state = .running) :
    ∃ x, 0 < x ∧ x < S.K.next_pid ∧ (S.K.proc x).state = .running ∧ ¬ S.stuck x := by
  obtain ⟨pt, pids, qs, st, hnode, hok, h2, hall, hpipe, hallq, hf, hpar, hs, hc, hfd, hr,
    hdead, hnc, hbuf, hcl, htr⟩ := h
  have hworker : (st = .building false ∨ ∃ s, st = .active s) →
      ∃ x, 0 < x ∧ x < S.K.next_pid ∧ (S.K.proc x).state = .running ∧ ¬ S.stuck x := fun e => by
    obtain ⟨x, hx, h1⟩ := hnode.can_move e
    have := hnode.pid_bounds x hx
    exact ⟨x, by omega, by omega, h1⟩
  have hself : ¬ S.stuck 1 →
      ∃ x, 0 < x ∧ x < S.K.next_pid ∧ (S.K.proc x).state = .running ∧ ¬ S.stuck x :=
    fun e => ⟨1, by omega, by omega, hrun, e⟩
  cases pt with
  | exited => rw [hs] at hrun; simp [main_state] at hrun
  | start =>
    refine hself ?_
    unfold Sys.stuck; simp [hc rfl, main_code, main_unfold]
  | loaded =>
    refine hself ?_
    unfold Sys.stuck; simp [hc rfl, main_code, main_loaded]
  | piped =>
    refine hself ?_
    unfold Sys.stuck; simp [hc rfl, main_code, main_piped]
  | forked =>
    obtain ⟨r, rfl⟩ := hok
    cases r with
    | false => exact hworker (Or.inl rfl)
    | true =>
      refine hself ?_
      unfold Sys.stuck
      simp [hc rfl, main_code, main_rest, hr, MainAt.ready_count, Stage.raised]
  | counted =>
    refine hself ?_
    unfold Sys.stuck; simp [hc rfl, main_code]
  | killed =>
    rcases hok with ⟨s, e⟩ | e
    · exact hworker (Or.inr ⟨s, e⟩)
    · refine hself ?_
      unfold Sys.stuck
      simp [hc rfl, main_code, main_end, hdead, e, Stage.dead]
  | reaped =>
    refine hself ?_
    unfold Sys.stuck; simp [hc rfl, main_code, main_read, hbuf, main_buf]
  | read =>
    refine hself ?_
    unfold Sys.stuck; simp [hc rfl, main_code]

end ex2_pipes

theorem trace_length_by_pid (l : List Nat) (hnd : l.Nodup) (tr : List (Nat × Act α))
    (h : ∀ e ∈ tr, e.1 ∈ l) :
    tr.length = (l.map fun p => (calls_of p tr).length).sum := by
  have := count_calls_by_pid (fun _ => true) l hnd tr h
  simpa [count_calls] using this

namespace ex2_pipes

theorem nodes_op (name : String) (a b : tree_node) :
    nodes (.mk name [a, b]) = 1 + nodes a + nodes b := by
  simp [nodes]

theorem inner_op (name : String) (a b : tree_node) :
    inner (.mk name [a, b]) = 1 + inner a + inner b := by
  simp [inner]

/-- The workers of a subtree have made at most 16 calls each, and there are
at most as many workers as nodes. -/
theorem Node.calls_bound {D : DoubleOps α} {S : Sys α} {p par : Nat} {up : Fd} {t : tree_node}
    {pids qs : List Nat} {st : Stage} (h : Node D S p par up t pids qs st) :
    (pids.map fun y => (calls_of y S.K.trace).length).sum ≤ 16 * nodes t := by
  induction h with
  | unborn c par up t hwf => simp
  | leaf p par up name pt st h hp hn hpar hup hs hc hfd hcl hst =>
    simp only [List.map_cons, List.map_nil, List.sum_cons, List.sum_nil, hcl, nodes]
    cases pt <;> simp [leaf_calls, LeafAt.count]
  | op_new p par up name a b h ha hb hp hn hpar hup hupq hs hc hfd hr hdead hnc hcl =>
    simp only [List.map_cons, List.map_nil, List.sum_cons, List.sum_nil, hcl, nodes_op]
    simp; omega
  | op p par up name a b pt q ca cb pa pb qa qb sa sb st h hsa hsb hok hd hdq hp hn hpar hup
      hq hs hc hfd hfd1 hr hdead hnc hbuf hcl hst iha ihb =>
    simp only [List.map_cons, List.map_append, List.sum_cons, List.sum_append, hcl, nodes_op]
    have : (op_calls D up name a b q ca cb pt).length ≤ 16 := by
      cases pt <;> simp [op_calls, OpAt.count]
    omega

/-- The number of the calls of a run is bounded. -/
theorem Whole.trace_bound {D : DoubleOps α} {prog path : String} {t : tree_node} {S : Sys α}
    (h : Whole D prog path t S) : S.K.trace.length ≤ 8 + 16 * nodes t := by
  obtain ⟨pt, pids, qs, st, hnode, hok, h2, hall, hpipe, hallq, hf, hpar, hs, hc, hfd, hr,
    hdead, hnc, hbuf, hcl, htr⟩ := h
  have hnd : (1 :: pids).Nodup :=
    List.nodup_cons.2 ⟨fun e => by have := hnode.pid_bounds 1 e; omega, hnode.no_repeat.1⟩
  rw [trace_length_by_pid (1 :: pids) hnd S.K.trace (fun e he => by
    rcases htr e he with h1 | h1 <;> simp [h1])]
  simp only [List.map_cons, List.sum_cons, hcl]
  have h1 : (main_calls D path t pt).length ≤ 8 := by
    cases pt <;> simp [main_calls, MainAt.count]
  have := hnode.calls_bound
  omega

/-- Main has exited with status 0 exactly when it is not running. -/
theorem Whole.ended {D : DoubleOps α} {prog path : String} {t : tree_node} {S : Sys α}
    (h : Whole D prog path t S) :
    (S.K.proc 1).state = .running ∨ (S.K.proc 1).state = .zombie (W_EXITED 0) := by
  obtain ⟨pt, pids, qs, st, hnode, hok, h2, hall, hpipe, hallq, hf, hpar, hs, hc, hfd, hr,
    hdead, hnc, hbuf, hcl, htr⟩ := h
  rw [hs]
  cases pt <;> simp [main_state]

/-- Every run can be continued until `main` has exited with status 0. -/
theorem Whole.finishes {D : DoubleOps α} {prog path : String} {t : tree_node} :
    ∀ (n : Nat) (S : Sys α), Whole D prog path t S →
      8 + 16 * nodes t - S.K.trace.length ≤ n →
      ∃ more, ((S.run more).K.proc 1).state = .zombie (W_EXITED 0) := by
  intro n
  induction n with
  | zero =>
    intro S h hn
    rcases h.ended with hr | hr
    · obtain ⟨x, h0, hx, hs, hst⟩ := h.has_turn hr
      have h1 := S.step_grows x h0 hx hs hst
      have h2 := (h.any_step x).trace_bound
      have h3 := h.trace_bound
      omega
    · exact ⟨[], hr⟩
  | succ n ih =>
    intro S h hn
    rcases h.ended with hr | hr
    · obtain ⟨x, h0, hx, hs, hst⟩ := h.has_turn hr
      have h1 := S.step_grows x h0 hx hs hst
      obtain ⟨more, hm⟩ := ih (S.step x) (h.any_step x) (by omega)
      exact ⟨x :: more, hm⟩
    · exact ⟨[], hr⟩

end ex2_pipes

/-- A turn adds calls to the calls made so far. -/
theorem Sys.step_trace (S : Sys α) (x : Nat) : ∃ es, (S.step x).K.trace = S.K.trace ++ es := by
  unfold Sys.step
  split
  · exact ⟨[], by simp⟩
  split
  swap
  · exact ⟨[], by simp⟩
  cases hc : S.code x with
  | exit s => exact ⟨_, rfl⟩
  | ret => exact ⟨_, rfl⟩
  | abort => exact ⟨_, rfl⟩
  | stderr m k => exact ⟨_, rfl⟩
  | sleep sec k => exact ⟨_, rfl⟩
  | get_tree_from_file path k =>
    simp only
    split
    · exact ⟨_, rfl⟩
    · exact ⟨[(x, .get_tree_from_file path false), (x, .exit 1)], by simp⟩
  | pipe k => exact ⟨_, rfl⟩
  | fork k => exact ⟨[(x, .fork S.K.next_pid), (S.K.next_pid, .fork 0)], by simp⟩
  | wait_for_ready_children cnt k =>
    simp only
    split
    · exact ⟨_, rfl⟩
    · exact ⟨[], by simp⟩
  | raise_SIGSTOP k => exact ⟨_, rfl⟩
  | kill_SIGCONT pid k =>
    simp only
    split
    · split
      · exact ⟨_, rfl⟩
      · exact ⟨_, rfl⟩
    · exact ⟨_, rfl⟩
  | wait k =>
    simp only
    split
    · exact ⟨_, rfl⟩
    · split
      · exact ⟨_, rfl⟩
      · exact ⟨[], by simp⟩
  | close fd k => exact ⟨_, rfl⟩
  | read fd k =>
    simp only
    split
    · split
      · exact ⟨_, rfl⟩
      · split
        · exact ⟨[], by simp⟩
        · exact ⟨_, rfl⟩
    · exact ⟨_, rfl⟩
  | write fd v k =>
    simp only
    split
    · exact ⟨_, rfl⟩
    · exact ⟨_, rfl⟩

/-- A schedule adds calls to the calls made so far. -/
theorem Sys.run_trace (sched : List Nat) :
    ∀ S : Sys α, ∃ es, (S.run sched).K.trace = S.K.trace ++ es := by
  induction sched with
  | nil => intro S; exact ⟨[], by simp [Sys.run]⟩
  | cons x sched ih =>
    intro S
    obtain ⟨es1, h1⟩ := S.step_trace x
    obtain ⟨es2, h2⟩ := ih (S.step x)
    refine ⟨es1 ++ es2, ?_⟩
    have : (S.run (x :: sched)) = (S.step x).run sched := rfl
    rw [this, h2, h1, List.append_assoc]

theorem Sys.run_append (S : Sys α) (l1 l2 : List Nat) :
    S.run (l1 ++ l2) = (S.run l1).run l2 := by
  simp [Sys.run, List.foldl_append]

theorem count_calls_tally (f : Act α → Bool) (l : List Nat) (hnd : l.Nodup)
    (tr : List (Nat × Act α)) (h : ∀ e ∈ tr, e.1 ∈ l) :
    count_calls f tr = (l.map fun p => tally f (calls_of p tr)).sum :=
  count_calls_by_pid f l hnd tr h

theorem forked_by_calls (pid : Nat) (tr : List (Nat × Act α)) :
    forked_by pid tr = (calls_of pid tr).filterMap fun a =>
      match a with
      | .fork r => if 0 < r then some r else none
      | _ => none := by
  induction tr with
  | nil => rfl
  | cons e tr ih =>
    obtain ⟨p, a⟩ := e
    by_cases hp : p = pid
    · subst hp
      cases a <;> simp [forked_by, calls_of, List.filterMap_cons, List.filter_cons] at ih ⊢ <;>
        first | exact ih | (split <;> simp [ih])
    · cases a <;> simp [forked_by, calls_of, List.filterMap_cons, List.filter_cons, hp] at ih ⊢ <;>
        exact ih

namespace ex2_pipes

theorem tally_leaf_calls (D : DoubleOps α) (up : Fd) (name : String) :
    (∀ x, tally (Act.writes x) (leaf_calls D up name .gone) = if x = up.pipe then 1 else 0) ∧
    (∀ x, tally (Act.reads x) (leaf_calls D up name .gone) = 0) ∧
    tally Act.is_pipe (leaf_calls D up name .gone) = 0 ∧
    tally Act.is_spawn (leaf_calls D up name .gone) = 0 ∧
    tally Act.is_born (leaf_calls D up name .gone) = 1 ∧
    tally Act.short_transfer (leaf_calls D up name .gone) = 0 := by
  refine ⟨fun x => ?_, fun x => ?_, ?_, ?_, ?_, ?_⟩
  · by_cases e : up.pipe = x
    · simp [tally, leaf_calls, LeafAt.count, List.filter_cons, Act.writes, e]
    · have e1 : ¬ x = up.pipe := fun h => e h.symm
      simp [tally, leaf_calls, LeafAt.count, List.filter_cons, Act.writes, e, e1]
  · simp [tally, leaf_calls, LeafAt.count, List.filter_cons, Act.reads]
  · simp [tally, leaf_calls, LeafAt.count, List.filter_cons, Act.is_pipe]
  · simp [tally, leaf_calls, LeafAt.count, List.filter_cons, Act.is_spawn]
  · simp [tally, leaf_calls, LeafAt.count, List.filter_cons, Act.is_born]
  · simp [tally, leaf_calls, LeafAt.count, List.filter_cons, Act.short_transfer]

theorem tally_op_calls (D : DoubleOps α) (up : Fd) (name : String) (a b : tree_node)
    (q ca cb : Nat) (hca : 0 < ca) (hcb : 0 < cb) :
    (∀ x, tally (Act.writes x) (op_calls D up name a b q ca cb .gone) =
      if x = up.pipe then 1 else 0) ∧
    (∀ x, tally (Act.reads x) (op_calls D up name a b q ca cb .gone) = if x = q then 2 else 0) ∧
    tally Act.is_pipe (op_calls D up name a b q ca cb .gone) = 1 ∧
    tally Act.is_spawn (op_calls D up name a b q ca cb .gone) = 2 ∧
    tally Act.is_born (op_calls D up name a b q ca cb .gone) = 1 ∧
    tally Act.short_transfer (op_calls D up name a b q ca cb .gone) = 0 := by
  refine ⟨fun x => ?_, fun x => ?_, ?_, ?_, ?_, ?_⟩
  · by_cases e : up.pipe = x
    · simp [tally, op_calls, OpAt.count, List.filter_cons, Act.writes, e]
    · have e1 : ¬ x = up.pipe := fun h => e h.symm
      simp [tally, op_calls, OpAt.count, List.filter_cons, Act.writes, e, e1]
  · by_cases e : q = x
    · simp [tally, op_calls, OpAt.count, List.filter_cons, Act.reads, e]
    · have e1 : ¬ x = q := fun h => e h.symm
      simp [tally, op_calls, OpAt.count, List.filter_cons, Act.reads, e, e1]
  · simp [tally, op_calls, OpAt.count, List.filter_cons, Act.is_pipe]
  · have h1 : (0 : Int) < (ca : Int) := by exact_mod_cast hca
    have h2 : (0 : Int) < (cb : Int) := by exact_mod_cast hcb
    simp [tally, op_calls, OpAt.count, List.filter_cons, Act.is_spawn, h1, h2]
  · have h1 : ¬ (ca : Int) = 0 := by omega
    have h2 : ¬ (cb : Int) = 0 := by omega
    simp [tally, op_calls, OpAt.count, List.filter_cons, Act.is_born, h1, h2]
  · simp [tally, op_calls, OpAt.count, List.filter_cons, Act.short_transfer]

/-- What the workers of a subtree have done once the worker of its root has
been collected: one worker per node and one pipe per Internal node, one
write on the pipe of the parent and two writes and two reads on each pipe of
the subtree, one `pipe` call per pipe, one `fork` return per worker on each
side, full transfers only, and the forks mirror the tree. -/
theorem Node.gone_counts {D : DoubleOps α} {S : Sys α} {p par : Nat} {up : Fd} {t : tree_node}
    {pids qs : List Nat} {st : Stage} (h : Node D S p par up t pids qs st) (hg : st = .gone) :
    pids.length = nodes t ∧ qs.length = inner t ∧
    (∀ x, (pids.map fun y => tally (Act.writes x) (calls_of y S.K.trace)).sum =
      (if x = up.pipe then 1 else 0) + (if x ∈ qs then 2 else 0)) ∧
    (∀ x, (pids.map fun y => tally (Act.reads x) (calls_of y S.K.trace)).sum =
      if x ∈ qs then 2 else 0) ∧
    (pids.map fun y => tally Act.is_pipe (calls_of y S.K.trace)).sum = qs.length ∧
    (pids.map fun y => tally Act.is_spawn (calls_of y S.K.trace)).sum + 1 = pids.length ∧
    (pids.map fun y => tally Act.is_born (calls_of y S.K.trace)).sum = pids.length ∧
    (pids.map fun y => tally Act.short_transfer (calls_of y S.K.trace)).sum = 0 ∧
    (∀ y ∈ pids, tally Act.is_pipe (calls_of y S.K.trace) ≤ 1) ∧
    Mirrors S.K.trace p t := by
  induction h with
  | unborn c par up t hwf => cases hg
  | leaf p par up name pt st h hp hn hpar hup hs hc hfd hcl hst =>
    subst hst
    have : pt = .gone := by cases pt <;> simp [LeafAt.stage] at hg ⊢
    subst this
    obtain ⟨t1, t2, t3, t4, t5, t6⟩ := tally_leaf_calls D up name
    refine ⟨by simp [nodes], by simp [inner], fun x => ?_, fun x => ?_, ?_, ?_, ?_, ?_, ?_, ?_⟩
    · simp [hcl, t1]
    · simp [hcl, t2]
    · simp [hcl, t3]
    · simp [hcl, t4]
    · simp [hcl, t5]
    · simp [hcl, t6]
    · intro y hy; simp at hy; subst hy; rw [hcl, t3]; omega
    · simp [Mirrors, forked_by_calls, hcl, leaf_calls, LeafAt.count]
  | op_new p par up name a b h ha hb hp hn hpar hup hupq hs hc hfd hr hdead hnc hcl => cases hg
  | op p par up name a b pt q ca cb pa pb qa qb sa sb st h hsa hsb hok hd hdq hp hn hpar hup
      hq hs hc hfd hfd1 hr hdead hnc hbuf hcl hst iha ihb =>
    subst hst
    have : pt = .gone := by cases pt <;> simp [OpAt.stage] at hg ⊢
    subst this
    simp only [OpAt.ok] at hok
    obtain ⟨ea, eb⟩ := hok
    obtain ⟨a1, a2, a3, a4, a5, a6, a7, a8, a9, a10⟩ := iha ea
    obtain ⟨b1, b2, b3, b4, b5, b6, b7, b8, b9, b10⟩ := ihb eb
    have hba := hsa.pid_bounds
    have hbb := hsb.pid_bounds
    have hca : ca ∈ pa := hsa.root_in.1 (by rw [ea]; simp)
    have hcb : cb ∈ pb := hsb.root_in.1 (by rw [eb]; simp)
    have hqa := hsa.pipes
    have hqb := hsb.pipes
    obtain ⟨t1, t2, t3, t4, t5, t6⟩ := tally_op_calls D up name a b q ca cb
      (by have := hba ca hca; omega) (by have := hbb cb hcb; omega)
    refine ⟨by simp [nodes_op, a1, b1]; omega, by simp [inner_op, a2, b2]; omega,
      fun x => ?_, fun x => ?_, ?_, ?_, ?_, ?_, ?_, ?_⟩
    · simp only [List.map_cons, List.map_append, List.sum_cons, List.sum_append, hcl, t1, a3, b3,
        List.mem_cons, List.mem_append]
      by_cases e1 : x = q
      · subst e1
        have n1 : x ∉ qa := fun e => by have := hqa x e; simp at this
        have n2 : x ∉ qb := fun e => by have := hqb x e; simp at this
        simp [n1, n2]
      · by_cases e2 : x ∈ qa
        · have n2 : x ∉ qb := hdq x e2
          simp [e1, e2, n2]
        · by_cases e3 : x ∈ qb <;> simp [e1, e2, e3]
    · simp only [List.map_cons, List.map_append, List.sum_cons, List.sum_append, hcl, t2, a4, b4,
        List.mem_cons, List.mem_append]
      by_cases e1 : x = q
      · subst e1
        have n1 : x ∉ qa := fun e => by have := hqa x e; simp at this
        have n2 : x ∉ qb := fun e => by have := hqb x e; simp at this
        simp [n1, n2]
      · by_cases e2 : x ∈ qa
        · have n2 : x ∉ qb := hdq x e2
          simp [e1, e2, n2]
        · by_cases e3 : x ∈ qb <;> simp [e1, e2, e3]
    · simp only [List.map_cons, List.map_append, List.sum_cons, List.sum_append, hcl, t3, a5, b5,
        List.length_cons, List.length_append]
      omega
    · simp only [List.map_cons, List.map_append, List.sum_cons, List.sum_append, hcl, t4,
        List.length_cons, List.length_append]
      omega
    · simp only [List.map_cons, List.map_append, List.sum_cons, List.sum_append, hcl, t5, a7, b7,
        List.length_cons, List.length_append]
      omega
    · simp [hcl, t6, a8, b8]
    · intro y hy
      simp only [List.mem_cons, List.mem_append] at hy
      rcases hy with hy | hy | hy
      · subst hy; rw [hcl, t3]
      · exact a9 y hy
      · exact b9 y hy
    · rw [Mirrors]
      refine ⟨ca, cb, ?_, fun e => hd ca hca (e ▸ hcb), a10, b10⟩
      have h1 : (0 : Int) < (ca : Int) := by have := hba ca hca; omega
      have h2 : (0 : Int) < (cb : Int) := by have := hbb cb hcb; omega
      simp [forked_by_calls, hcl, op_calls, OpAt.count, List.filterMap_cons, h1, h2]

end ex2_pipes

theorem mem_calls_of {c : Nat} {a : Act α} {tr : List (Nat × Act α)} (h : (c, a) ∈ tr) :
    a ∈ calls_of c tr := by
  simp only [calls_of, List.mem_map, List.mem_filter, decide_eq_true_eq]
  exact ⟨(c, a), ⟨h, rfl⟩, rfl⟩

theorem reads_of_calls (pid : Nat) (tr : List (Nat × Act α)) :
    reads_of pid tr = (calls_of pid tr).filterMap fun a =>
      match a with
      | .read fd r v => some (fd, r, v)
      | _ => none := by
  induction tr with
  | nil => rfl
  | cons e tr ih =>
    obtain ⟨p, a⟩ := e
    by_cases hp : p = pid
    · subst hp
      cases a <;> simp [reads_of, calls_of, List.filterMap_cons, List.filter_cons] at ih ⊢ <;>
        exact ih
    · cases a <;> simp [reads_of, calls_of, List.filterMap_cons, List.filter_cons, hp] at ih ⊢ <;>
        exact ih

theorem pipes_of_calls (pid : Nat) (tr : List (Nat × Act α)) :
    (pipes_of pid tr).length = tally Act.is_pipe (calls_of pid tr) := by
  induction tr with
  | nil => rfl
  | cons e tr ih =>
    obtain ⟨p, a⟩ := e
    by_cases hp : p = pid
    · subst hp
      cases a <;>
        simp [pipes_of, tally, calls_of, List.filterMap_cons, List.filter_cons, Act.is_pipe]
          at ih ⊢ <;> exact ih
    · cases a <;>
        simp [pipes_of, tally, calls_of, List.filterMap_cons, List.filter_cons, Act.is_pipe, hp]
          at ih ⊢ <;> exact ih

/-- A list without repetition that holds exactly the numbers from `lo` up to
`hi` has `hi - lo` entries. -/
theorem length_of_interval (l : List Nat) (hnd : l.Nodup) (lo hi : Nat)
    (h : ∀ x, x ∈ l ↔ lo ≤ x ∧ x < hi) : l.length = hi - lo := by
  have hp : l.Perm (List.range' lo (hi - lo)) :=
    (List.perm_ext_iff_of_nodup hnd (List.nodup_range' lo (hi - lo))).2 fun x => by
      rw [h, List.mem_range'_1]; omega
  rw [hp.length_eq, List.length_range']

theorem count_calls_mono (f : Act α → Bool) (tr es : List (Nat × Act α)) :
    count_calls f tr ≤ count_calls f (tr ++ es) := by
  rw [count_calls_append]; omega

namespace ex2_pipes

theorem tally_main_calls (D : DoubleOps α) (path : String) (t : tree_node) :
    (∀ x, tally (Act.writes x) (main_calls D path t .exited) = 0) ∧
    (∀ x, tally (Act.reads x) (main_calls D path t .exited) = if x = 0 then 1 else 0) ∧
    tally Act.is_pipe (main_calls D path t .exited) = 1 ∧
    tally Act.is_spawn (main_calls D path t .exited) = 1 ∧
    tally Act.is_born (main_calls D path t .exited) = 0 ∧
    tally Act.short_transfer (main_calls D path t .exited) = 0 := by
  refine ⟨fun x => ?_, fun x => ?_, ?_, ?_, ?_, ?_⟩
  · simp [tally, main_calls, MainAt.count, List.filter_cons, Act.writes]
  · by_cases e : 0 = x
    · simp [tally, main_calls, MainAt.count, List.filter_cons, Act.reads, e]
    · have e1 : ¬ x = 0 := fun h => e h.symm
      simp [tally, main_calls, MainAt.count, List.filter_cons, Act.reads, e, e1]
  · simp [tally, main_calls, MainAt.count, List.filter_cons, Act.is_pipe]
  · simp [tally, main_calls, MainAt.count, List.filter_cons, Act.is_spawn]
  · simp [tally, main_calls, MainAt.count, List.filter_cons, Act.is_born]
  · simp [tally, main_calls, MainAt.count, List.filter_cons, Act.short_transfer]

/-- At every time the reads of `main` are complete reads of the value of the
tree on the read end of its pipe, and `main` has created at most one
pipe. -/
theorem Whole.main_reads {D : DoubleOps α} {prog path : String} {t : tree_node} {S : Sys α}
    (h : Whole D prog path t S) (fd : Fd) (r : Int) (v : Option α)
    (hin : (1, Act.read fd r v) ∈ S.K.trace) :
    fd = ⟨0, false⟩ ∧ r = sizeof_double ∧ v = some (eval D t) := by
  obtain ⟨pt, pids, qs, st, hnode, hok, h2, hall, hpipe, hallq, hf, hpar, hs, hc, hfd, hr,
    hdead, hnc, hbuf, hcl, htr⟩ := h
  have h1 := mem_calls_of hin
  rw [hcl, main_calls] at h1
  have h3 := List.mem_of_mem_take h1
  simp at h3
  exact h3

/-- Once `main` has exited no process is running: every further turn leaves
the system as it is. -/
theorem Whole.rests {D : DoubleOps α} {prog path : String} {t : tree_node} {S : Sys α}
    (h : Whole D prog path t S) (hz : (S.K.proc 1).state = .zombie (W_EXITED 0)) (x : Nat) :
    S.step x = S := by
  obtain ⟨pt, pids, qs, st, hnode, hok, h2, hall, hpipe, hallq, hf, hpar, hs, hc, hfd, hr,
    hdead, hnc, hbuf, hcl, htr⟩ := h
  have ept : pt = .exited := by
    rw [hs] at hz; cases pt <;> simp [main_state] at hz ⊢
  subst ept
  simp only [MainAt.ok] at hok
  by_cases hx : x = 0 ∨ S.K.next_pid ≤ x
  · exact S.step_of_no_process x hx
  · apply S.step_of_not_running
    by_cases h1 : x = 1
    · subst h1; rw [hz]; simp
    · exact hnode.idle (Or.inr (Or.inr (Or.inr hok))) x (hall x (by omega) (by omega))

theorem Whole.rests_run {D : DoubleOps α} {prog path : String} {t : tree_node} {S : Sys α}
    (h : Whole D prog path t S) (hz : (S.K.proc 1).state = .zombie (W_EXITED 0))
    (more : List Nat) : S.run more = S := by
  induction more with
  | nil => rfl
  | cons x more ih =>
    have : S.run (x :: more) = (S.step x).run more := rfl
    rw [this, h.rests hz x, ih]

/-- What a run has done when `main` has exited with status 0. -/
theorem Whole.final {D : DoubleOps α} {prog path : String} {t : tree_node} {S : Sys α}
    (h : Whole D prog path t S) (hz : (S.K.proc 1).state = .zombie (W_EXITED 0)) :
    calls_of 1 S.K.trace = main_calls D path t .exited ∧
    S.K.next_pid = 2 + nodes t ∧ S.K.next_pipe = 1 + inner t ∧
    pipe_calls S.K.trace = 1 + inner t ∧
    (∀ x, writes_on x S.K.trace = if x = 0 then 1 else if x ≤ inner t then 2 else 0) ∧
    (∀ x, reads_on x S.K.trace = if x = 0 then 1 else if x ≤ inner t then 2 else 0) ∧
    count_calls Act.is_spawn S.K.trace = nodes t ∧
    count_calls Act.is_born S.K.trace = nodes t ∧
    short_transfers S.K.trace = 0 ∧
    (∀ y, (pipes_of y S.K.trace).length ≤ 1) ∧
    forked_by 1 S.K.trace = [2] ∧ Mirrors S.K.trace 2 t := by
  obtain ⟨pt, pids, qs, st, hnode, hok, h2, hall, hpipe, hallq, hf, hpar, hs, hc, hfd, hr,
    hdead, hnc, hbuf, hcl, htr⟩ := h
  have ept : pt = .exited := by
    rw [hs] at hz; cases pt <;> simp [main_state] at hz ⊢
  subst ept
  simp only [MainAt.ok] at hok
  simp only [MainAt.count] at hpipe
  obtain ⟨g1, g2, g3, g4, g5, g6, g7, g8, g9, g10⟩ := hnode.gone_counts hok
  obtain ⟨m1, m2, m3, m4, m5, m6⟩ := tally_main_calls D path t
  have hb := hnode.pid_bounds
  have hq := hnode.pipes
  have hnd : (1 :: pids).Nodup :=
    List.nodup_cons.2 ⟨fun e => by have := hb 1 e; omega, hnode.no_repeat.1⟩
  have hin : ∀ e ∈ S.K.trace, e.1 ∈ 1 :: pids := fun e he => by
    rcases htr e he with h1 | h1 <;> simp [h1]
  have lp : pids.length = S.K.next_pid - 2 :=
    length_of_interval pids hnode.no_repeat.1 2 _ fun x =>
      ⟨fun hx => by have := hb x hx; omega, fun hx => hall x hx.1 hx.2⟩
  have lq : qs.length = S.K.next_pipe - 1 :=
    length_of_interval qs hnode.no_repeat.2 1 _ fun x =>
      ⟨fun hx => by have := hq x hx; simp at this; omega, fun hx => hallq x hx.1 hx.2⟩
  have hpp : 1 ≤ S.K.next_pipe := by simpa using hpipe
  have np : S.K.next_pid = 2 + nodes t := by omega
  have nq : S.K.next_pipe = 1 + inner t := by omega
  have mq : ∀ x, x ∈ qs ↔ 1 ≤ x ∧ x ≤ inner t := fun x =>
    ⟨fun hx => by have := hq x hx; simp at this; omega, fun hx => hallq x hx.1 (by omega)⟩
  refine ⟨hcl, np, nq, ?_, fun x => ?_, fun x => ?_, ?_, ?_, ?_, fun y => ?_, ?_, g10⟩
  · rw [pipe_calls, count_calls_tally _ _ hnd _ hin]
    simp only [List.map_cons, List.sum_cons, hcl, m3, g5]; omega
  · rw [writes_on, count_calls_tally _ _ hnd _ hin]
    simp only [List.map_cons, List.sum_cons, hcl, m1, g3]
    by_cases e0 : x = 0
    · subst e0
      have : (0 : Nat) ∉ qs := fun e => by have := (mq 0).1 e; omega
      simp [this]
    · by_cases e1 : x ≤ inner t
      · have : x ∈ qs := (mq x).2 ⟨by omega, e1⟩
        simp [e0, e1, this]
      · have : x ∉ qs := fun e => e1 ((mq x).1 e).2
        simp [e0, e1, this]
  · rw [reads_on, count_calls_tally _ _ hnd _ hin]
    simp only [List.map_cons, List.sum_cons, hcl, m2, g4]
    by_cases e0 : x = 0
    · subst e0
      have : (0 : Nat) ∉ qs := fun e => by have := (mq 0).1 e; omega
      simp [this]
    · by_cases e1 : x ≤ inner t
      · have : x ∈ qs := (mq x).2 ⟨by omega, e1⟩
        simp [e0, e1, this]
      · have : x ∉ qs := fun e => e1 ((mq x).1 e).2
        simp [e0, e1, this]
  · rw [count_calls_tally _ _ hnd _ hin]
    simp only [List.map_cons, List.sum_cons, hcl, m4]; omega
  · rw [count_calls_tally _ _ hnd _ hin]
    simp only [List.map_cons, List.sum_cons, hcl, m5, g7]; omega
  · rw [short_transfers, count_calls_tally _ _ hnd _ hin]
    simp only [List.map_cons, List.sum_cons, hcl, m6, g8]
  · rw [pipes_of_calls]
    by_cases e1 : y = 1
    · subst e1; rw [hcl, m3]
    · by_cases e2 : y ∈ pids
      · exact g9 y e2
      · rw [calls_of_eq_nil y S.K.trace fun e he ee => by
          rcases htr e he with h1 | h1
          · exact e1 (ee ▸ h1)
          · exact e2 (ee ▸ h1)]
        simp [tally]
  · simp [forked_by_calls, hcl, main_calls, MainAt.count, List.filterMap_cons]


/-- The invariant holds after every schedule of a run on a well-formed
tree. -/
theorem Whole.of_run (D : DoubleOps α) (files : String → Option tree_node)
    (prog path : String) (t : tree_node) (hfile : files path = some t) (hwf : WellFormed t)
    (sched : List Nat) : Whole D prog path t ((start D files [prog, path]).run sched) :=
  Whole.through sched _ (Whole.at_boot D files prog path t hfile hwf)

/-- Every run can be continued until `main` has exited with status 0. -/
theorem Whole.completes {D : DoubleOps α} {prog path : String} {t : tree_node} {S : Sys α}
    (h : Whole D prog path t S) :
    ∃ more, ((S.run more).K.proc 1).state = .zombie (W_EXITED 0) :=
  Whole.finishes _ S h (Nat.le_refl _)

theorem Whole.reads_at_end {D : DoubleOps α} {prog path : String} {t : tree_node} {S : Sys α}
    (h : Whole D prog path t S) (hz : (S.K.proc 1).state = .zombie (W_EXITED 0)) :
    reads_of 1 S.K.trace = [(⟨0, false⟩, sizeof_double, some (eval D t))] := by
  rw [reads_of_calls, (h.final hz).1]
  simp [main_calls, MainAt.count, List.filterMap_cons]

/-- Claim C1. In every execution of `ex2-pipes` on a well-formed tree (every
schedule of the turns of the processes): every read of `main` is a complete
8-byte read on the read end of the root pipe that yields the sequential
post-order value of the tree; `main` is running or has exited with status 0;
when it has exited, that read is its only read; and every execution can be
continued until `main` has exited with status 0 having read the value. -/
theorem C1_main_reads_sequential_value (D : DoubleOps α) (files : String → Option tree_node)
    (prog path : String) (t : tree_node) (hfile : files path = some t) (hwf : WellFormed t)
    (sched : List Nat) :
    (∀ fd r v, (1, Act.read fd r v) ∈ ((start D files [prog, path]).run sched).K.trace →
      fd = ⟨0, false⟩ ∧ r = sizeof_double ∧ v = some (eval D t)) ∧
    ((((start D files [prog, path]).run sched).K.proc 1).state = .running ∨
      (((start D files [prog, path]).run sched).K.proc 1).state = .zombie (W_EXITED 0)) ∧
    ((((start D files [prog, path]).run sched).K.proc 1).state = .zombie (W_EXITED 0) →
      reads_of 1 ((start D files [prog, path]).run sched).K.trace =
        [(⟨0, false⟩, sizeof_double, some (eval D t))]) ∧
    ∃ more,
      (((start D files [prog, path]).run (sched ++ more)).K.proc 1).state =
        .zombie (W_EXITED 0) ∧
      reads_of 1 ((start D files [prog, path]).run (sched ++ more)).K.trace =
        [(⟨0, false⟩, sizeof_double, some (eval D t))] := by
  have h := Whole.of_run D files prog path t hfile hwf sched
  refine ⟨fun fd r v hin => h.main_reads fd r v hin, h.ended, fun hz => h.reads_at_end hz, ?_⟩
  obtain ⟨more, hm⟩ := h.completes
  rw [← Sys.run_append] at hm
  exact ⟨more, hm, (Whole.of_run D files prog path t hfile hwf (sched ++ more)).reads_at_end hm⟩

set_option maxRecDepth 100000 in
theorem C1_witness :
    reads_of 1 ((start intOps (fun _ => some tree_sum) ["ex2-pipes", "sum.tree"]).run
        [1, 1, 1, 2, 2, 2, 4, 3, 2, 2, 1, 1, 2, 3, 3, 3, 2, 2, 2, 2, 4, 4, 4, 2, 2, 2, 2, 2,
          1, 1, 1]).K.trace = [(⟨0, false⟩, sizeof_double, some 7)] ∧
    ∃ more,
      (((start intOps (fun _ => some tree_prod) ["ex2-pipes", "prod.tree"]).run
        ([1, 1, 1, 2, 2, 3, 2, 6] ++ more)).K.proc 1).state = .zombie (W_EXITED 0) ∧
      reads_of 1 ((start intOps (fun _ => some tree_prod) ["ex2-pipes", "prod.tree"]).run
        ([1, 1, 1, 2, 2, 3, 2, 6] ++ more)).K.trace = [(⟨0, false⟩, sizeof_double, some 21)] :=
  ⟨(C1_main_reads_sequential_value intOps (fun _ => some tree_sum) "ex2-pipes" "sum.tree" tree_sum rfl wf_sum
      [1, 1, 1, 2, 2, 2, 4, 3, 2, 2, 1, 1, 2, 3, 3, 3, 2, 2, 2, 2, 4, 4, 4, 2, 2, 2, 2, 2,
        1, 1, 1]).2.2.1 (by rfl),
   (C1_main_reads_sequential_value intOps (fun _ => some tree_prod) "ex2-pipes" "prod.tree" tree_prod rfl wf_prod
      [1, 1, 1, 2, 2, 3, 2, 6]).2.2.2⟩

theorem pipes_of_mono (p : Nat) (tr es : List (Nat × Act α)) :
    (pipes_of p tr).length ≤ (pipes_of p (tr ++ es)).length := by
  simp [pipes_of, List.filterMap_append]

/-- Every run can be continued to a state in which `main` has exited with
status 0; the calls made so far are among the calls made until then. -/
theorem Whole.reaches_end {D : DoubleOps α} {prog path : String} {t : tree_node} {S : Sys α}
    (h : Whole D prog path t S) :
    ∃ more, ((S.run more).K.proc 1).state = .zombie (W_EXITED 0) ∧
      Whole D prog path t (S.run more) ∧ ∃ es, (S.run more).K.trace = S.K.trace ++ es := by
  obtain ⟨more, hm⟩ := h.completes
  exact ⟨more, hm, Whole.through more S h, Sys.run_trace more S⟩

/-- Claim C6, as amended. In every execution of `ex2-pipes` on a well-formed
tree (every schedule of the turns of the processes): every `read` and
`write` transfers exactly 8 bytes; at most `1 + inner t` pipes are created,
the pipe of `main` (pipe 0) carries at most one write and one read and every
other pipe at most two writes and two reads.  When `main` has exited with
status 0, exactly `1 + inner t` pipes were created, the pipe of `main`
carried exactly one write and one read, the pipe of each Internal worker
(pipes 1 to `inner t`) carried exactly two writes and two reads, and no
further call is made.  Every execution can be continued until `main` has
exited with status 0. -/
theorem C6_transfers_per_pipe (D : DoubleOps α) (files : String → Option tree_node)
    (prog path : String) (t : tree_node) (hfile : files path = some t) (hwf : WellFormed t)
    (sched : List Nat) :
    short_transfers ((start D files [prog, path]).run sched).K.trace = 0 ∧
    pipe_calls ((start D files [prog, path]).run sched).K.trace ≤ 1 + inner t ∧
    (∀ q, writes_on q ((start D files [prog, path]).run sched).K.trace ≤
      if q = 0 then 1 else if q ≤ inner t then 2 else 0) ∧
    (∀ q, reads_on q ((start D files [prog, path]).run sched).K.trace ≤
      if q = 0 then 1 else if q ≤ inner t then 2 else 0) ∧
    ((((start D files [prog, path]).run sched).K.proc 1).state = .zombie (W_EXITED 0) →
      pipe_calls ((start D files [prog, path]).run sched).K.trace = 1 + inner t ∧
      (∀ q, writes_on q ((start D files [prog, path]).run sched).K.trace =
        if q = 0 then 1 else if q ≤ inner t then 2 else 0) ∧
      (∀ q, reads_on q ((start D files [prog, path]).run sched).K.trace =
        if q = 0 then 1 else if q ≤ inner t then 2 else 0) ∧
      ∀ more, ((start D files [prog, path]).run (sched ++ more)).K.trace =
        ((start D files [prog, path]).run sched).K.trace) ∧
    ∃ more, (((start D files [prog, path]).run (sched ++ more)).K.proc 1).state =
      .zombie (W_EXITED 0) := by
  have h := Whole.of_run D files prog path t hfile hwf sched
  obtain ⟨more, hm, hw, es, hes⟩ := h.reaches_end
  obtain ⟨-, -, -, f1, f2, f3, -, -, f4, -, -, -⟩ := hw.final hm
  refine ⟨?_, ?_, fun q => ?_, fun q => ?_, fun hz => ?_, ⟨more, by rw [Sys.run_append]; exact hm⟩⟩
  · have := count_calls_mono Act.short_transfer
      ((start D files [prog, path]).run sched).K.trace es
    rw [← hes] at this
    simp only [short_transfers] at f4 ⊢
    omega
  · have := count_calls_mono Act.is_pipe ((start D files [prog, path]).run sched).K.trace es
    rw [← hes] at this
    simp only [pipe_calls] at f1 ⊢
    omega
  · have := count_calls_mono (Act.writes q) ((start D files [prog, path]).run sched).K.trace es
    rw [← hes] at this
    rw [← f2 q]; exact this
  · have := count_calls_mono (Act.reads q) ((start D files [prog, path]).run sched).K.trace es
    rw [← hes] at this
    rw [← f3 q]; exact this
  · obtain ⟨-, -, -, e1, e2, e3, -⟩ := h.final hz
    refine ⟨e1, e2, e3, fun more1 => ?_⟩
    rw [Sys.run_append, h.rests_run hz]

set_option maxRecDepth 100000 in
theorem C6_witness :
    (pipe_calls ((start intOps (fun _ => some tree_sum) ["ex2-pipes", "sum.tree"]).run
        [1, 1, 1, 2, 2, 2, 4, 3, 2, 2, 1, 1, 2, 3, 3, 3, 2, 2, 2, 2, 4, 4, 4, 2, 2, 2, 2, 2,
          1, 1, 1]).K.trace = 1 + inner tree_sum ∧
      (∀ q, writes_on q ((start intOps (fun _ => some tree_sum) ["ex2-pipes", "sum.tree"]).run
        [1, 1, 1, 2, 2, 2, 4, 3, 2, 2, 1, 1, 2, 3, 3, 3, 2, 2, 2, 2, 4, 4, 4, 2, 2, 2, 2, 2,
          1, 1, 1]).K.trace = if q = 0 then 1 else if q ≤ inner tree_sum then 2 else 0) ∧
      (∀ q, reads_on q ((start intOps (fun _ => some tree_sum) ["ex2-pipes", "sum.tree"]).run
        [1, 1, 1, 2, 2, 2, 4, 3, 2, 2, 1, 1, 2, 3, 3, 3, 2, 2, 2, 2, 4, 4, 4, 2, 2, 2, 2, 2,
          1, 1, 1]).K.trace = if q = 0 then 1 else if q ≤ inner tree_sum then 2 else 0) ∧
      ∀ more, ((start intOps (fun _ => some tree_sum) ["ex2-pipes", "sum.tree"]).run
        ([1, 1, 1, 2, 2, 2, 4, 3, 2, 2, 1, 1, 2, 3, 3, 3, 2, 2, 2, 2, 4, 4, 4, 2, 2, 2, 2, 2,
          1, 1, 1] ++ more)).K.trace =
        ((start intOps (fun _ => some tree_sum) ["ex2-pipes", "sum.tree"]).run
        [1, 1, 1, 2, 2, 2, 4, 3, 2, 2, 1, 1, 2, 3, 3, 3, 2, 2, 2, 2, 4, 4, 4, 2, 2, 2, 2, 2,
          1, 1, 1]).K.trace) ∧
    short_transfers ((start intOps (fun _ => some tree_prod) ["ex2-pipes", "prod.tree"]).run
      [1, 1, 1, 2, 2, 3, 2, 6, 3, 3]).K.trace = 0 :=
  ⟨(C6_transfers_per_pipe intOps (fun _ => some tree_sum) "ex2-pipes" "sum.tree" tree_sum rfl wf_sum
      [1, 1, 1, 2, 2, 2, 4, 3, 2, 2, 1, 1, 2, 3, 3, 3, 2, 2, 2, 2, 4, 4, 4, 2, 2, 2, 2, 2,
        1, 1, 1]).2.2.2.2.1 (by rfl),
   (C6_transfers_per_pipe intOps (fun _ => some tree_prod) "ex2-pipes" "prod.tree" tree_prod rfl wf_prod
      [1, 1, 1, 2, 2, 3, 2, 6, 3, 3]).1⟩

/-- Claim C11. In every execution of `ex2-pipes` on a well-formed tree
(every schedule of the turns of the processes) at most `nodes t` calls of
`fork` return a new pid and at most `nodes t` processes start with `fork`
returning 0.  When `main` has exited with status 0, the number of processes
forked equals the number of tree nodes: `nodes t` calls of `fork` returned a
new pid and `nodes t` processes started with `fork` returning 0; `main`
forked exactly one process, the worker of the root; the worker of each
Internal node forked exactly two processes, the workers of its two children,
and the worker of a Leaf forked none.  Every execution can be continued
until `main` has exited with status 0.  A forked child never goes back to
the loop of its parent, because `child` does not return. -/
theorem C11_one_worker_per_node (D : DoubleOps α) (files : String → Option tree_node)
    (prog path : String) (t : tree_node) (hfile : files path = some t) (hwf : WellFormed t)
    (sched : List Nat) :
    count_calls Act.is_spawn ((start D files [prog, path]).run sched).K.trace ≤ nodes t ∧
    count_calls Act.is_born ((start D files [prog, path]).run sched).K.trace ≤ nodes t ∧
    ((((start D files [prog, path]).run sched).K.proc 1).state = .zombie (W_EXITED 0) →
      count_calls Act.is_spawn ((start D files [prog, path]).run sched).K.trace = nodes t ∧
      count_calls Act.is_born ((start D files [prog, path]).run sched).K.trace = nodes t ∧
      forked_by 1 ((start D files [prog, path]).run sched).K.trace = [2] ∧
      Mirrors ((start D files [prog, path]).run sched).K.trace 2 t ∧
      ((start D files [prog, path]).run sched).K.next_pid = 2 + nodes t) ∧
    (∃ more, (((start D files [prog, path]).run (sched ++ more)).K.proc 1).state =
      .zombie (W_EXITED 0)) ∧
    ∀ (fd : Fd) (s : tree_node), (child D fd s).never_returns := by
  have h := Whole.of_run D files prog path t hfile hwf sched
  obtain ⟨more, hm, hw, es, hes⟩ := h.reaches_end
  obtain ⟨-, -, -, -, -, -, f1, f2, -⟩ := hw.final hm
  refine ⟨?_, ?_, fun hz => ?_, ⟨more, by rw [Sys.run_append]; exact hm⟩,
    fun fd s => child_never_returns D fd s⟩
  · have := count_calls_mono Act.is_spawn ((start D files [prog, path]).run sched).K.trace es
    rw [← hes] at this
    omega
  · have := count_calls_mono Act.is_born ((start D files [prog, path]).run sched).K.trace es
    rw [← hes] at this
    omega
  · obtain ⟨-, e0, -, -, -, -, e1, e2, -, -, e3, e4⟩ := h.final hz
    exact ⟨e1, e2, e3, e4, e0⟩

set_option maxRecDepth 100000 in
theorem C11_witness :
    count_calls Act.is_spawn
      ((start intOps (fun _ => some tree_leaf) ["ex2-pipes", "leaf.tree"]).run
        [1, 1, 1, 2, 1, 1, 2, 2, 2, 1, 1, 1]).K.trace = 1 ∧
    count_calls Act.is_born
      ((start intOps (fun _ => some tree_leaf) ["ex2-pipes", "leaf.tree"]).run
        [1, 1, 1, 2, 1, 1, 2, 2, 2, 1, 1, 1]).K.trace = 1 ∧
    forked_by 1 ((start intOps (fun _ => some tree_leaf) ["ex2-pipes", "leaf.tree"]).run
        [1, 1, 1, 2, 1, 1, 2, 2, 2, 1, 1, 1]).K.trace = [2] ∧
    forked_by 2 ((start intOps (fun _ => some tree_leaf) ["ex2-pipes", "leaf.tree"]).run
        [1, 1, 1, 2, 1, 1, 2, 2, 2, 1, 1, 1]).K.trace = [] ∧
    ((start intOps (fun _ => some tree_leaf) ["ex2-pipes", "leaf.tree"]).run
        [1, 1, 1, 2, 1, 1, 2, 2, 2, 1, 1, 1]).K.next_pid = 3 :=
  (C11_one_worker_per_node intOps (fun _ => some tree_leaf) "ex2-pipes" "leaf.tree" tree_leaf rfl wf_leaf
    [1, 1, 1, 2, 1, 1, 2, 2, 2, 1, 1, 1]).2.2.1 (by rfl)

/-- Claim C5, as amended. The worker of an Internal node calls `pipe` once,
and the process forked for child 0 and the process forked for child 1 both
run `child` with the write end `pfd[1]` of that one pipe: the two children
share the channel.  In every execution on a well-formed tree (every schedule
of the turns of the processes) no process calls `pipe` more than once and at
most `1 + inner t` pipes are created; when `main` has exited with status 0,
exactly `1 + inner t` pipes were created, one by `main` and one by each
Internal worker, and each pipe of an Internal worker carried two writes;
every execution can be continued until `main` has exited with status 0. -/
theorem C5_children_share_one_pipe (D : DoubleOps α) :
    (∀ (fd : Fd) (name : String) (a b : tree_node) (r1 r2 : Resp α) (rs : List (Resp α)),
      (name = "+" ∨ name = "*") → ¬ r1.ret < 0 → r2.ret = 0 →
      (child D fd (.mk name [a, b])).run (r1 :: r2 :: rs) =
        (.pipe r1.ret r1.pfd0 r1.pfd1 :: .fork 0 :: ((child D r1.pfd1 a).run rs).1,
          ((child D r1.pfd1 a).run rs).2)) ∧
    (∀ (fd : Fd) (name : String) (a b : tree_node) (r1 r2 r3 : Resp α) (rs : List (Resp α)),
      (name = "+" ∨ name = "*") → ¬ r1.ret < 0 → 0 < r2.ret → r3.ret = 0 →
      (child D fd (.mk name [a, b])).run (r1 :: r2 :: r3 :: rs) =
        (.pipe r1.ret r1.pfd0 r1.pfd1 :: .fork r2.ret :: .fork 0 ::
          ((child D r1.pfd1 b).run rs).1, ((child D r1.pfd1 b).run rs).2)) ∧
    (∀ (files : String → Option tree_node) (prog path : String) (t : tree_node),
      files path = some t → WellFormed t → ∀ sched : List Nat,
      pipe_calls ((start D files [prog, path]).run sched).K.trace ≤ 1 + inner t ∧
      (∀ p, (pipes_of p ((start D files [prog, path]).run sched).K.trace).length ≤ 1) ∧
      ((((start D files [prog, path]).run sched).K.proc 1).state = .zombie (W_EXITED 0) →
        pipe_calls ((start D files [prog, path]).run sched).K.trace = 1 + inner t ∧
        ∀ q, 1 ≤ q → q ≤ inner t →
          writes_on q ((start D files [prog, path]).run sched).K.trace = 2) ∧
      ∃ more, (((start D files [prog, path]).run (sched ++ more)).K.proc 1).state =
        .zombie (W_EXITED 0)) := by
  refine ⟨?_, ?_, ?_⟩
  · intro fd name a b r1 r2 rs hop h1 h2
    rw [child_op D fd name hop a b]
    simp only [Prog.run, h1, h2, if_false, lt_irrefl, if_true]
    rw [Prog.seq_eq_self_of_never_returns _ _ (child_never_returns D _ a)]
  · intro fd name a b r1 r2 r3 rs hop h1 h2 h3
    have e1 : ¬ r2.ret < 0 := by omega
    have e2 : ¬ r2.ret = 0 := by omega
    rw [child_op D fd name hop a b]
    simp only [Prog.run, h1, e1, e2, h3, if_false, lt_irrefl, if_true, Prog.seq]
    rw [Prog.seq_eq_self_of_never_returns _ _ (child_never_returns D _ b)]
  · intro files prog path t hfile hwf sched
    have h := Whole.of_run D files prog path t hfile hwf sched
    obtain ⟨more, hm, hw, es, hes⟩ := h.reaches_end
    obtain ⟨-, -, -, f1, -, -, -, -, -, f2, -, -⟩ := hw.final hm
    refine ⟨?_, fun p => ?_, fun hz => ?_, ⟨more, by rw [Sys.run_append]; exact hm⟩⟩
    · have := count_calls_mono Act.is_pipe ((start D files [prog, path]).run sched).K.trace es
      rw [← hes] at this
      simp only [pipe_calls] at f1 ⊢
      omega
    · have := pipes_of_mono p ((start D files [prog, path]).run sched).K.trace es
      rw [← hes] at this
      exact Nat.le_trans this (f2 p)
    · obtain ⟨-, -, -, e1, e2, -⟩ := h.final hz
      refine ⟨e1, fun q h1 h2 => ?_⟩
      rw [e2 q]
      have : ¬ q = 0 := by omega
      simp [this, h2]

set_option maxRecDepth 100000 in
theorem C5_witness :
    (child intOps ⟨0, true⟩ tree_sum).run [answer 0, answer 0, answer 0] =
      (.pipe 0 ⟨0, false⟩ ⟨0, true⟩ :: .fork 0 ::
        ((child intOps ⟨0, true⟩ (.mk "3" [])).run [answer 0]).1,
        ((child intOps ⟨0, true⟩ (.mk "3" [])).run [answer 0]).2) ∧
    (child intOps ⟨0, true⟩ tree_sum).run [answer 0, answer 9, answer 0, answer 0] =
      (.pipe 0 ⟨0, false⟩ ⟨0, true⟩ :: .fork 9 :: .fork 0 ::
        ((child intOps ⟨0, true⟩ (.mk "4" [])).run [answer 0]).1,
        ((child intOps ⟨0, true⟩ (.mk "4" [])).run [answer 0]).2) ∧
    (pipe_calls ((start intOps (fun _ => some tree_sum) ["ex2-pipes", "sum.tree"]).run
        [1, 1, 1, 2, 2, 2, 4, 3, 2, 2, 1, 1, 2, 3, 3, 3, 2, 2, 2, 2, 4, 4, 4, 2, 2, 2, 2, 2,
          1, 1, 1]).K.trace = 1 + inner tree_sum ∧
      ∀ q, 1 ≤ q → q ≤ inner tree_sum →
        writes_on q ((start intOps (fun _ => some tree_sum) ["ex2-pipes", "sum.tree"]).run
          [1, 1, 1, 2, 2, 2, 4, 3, 2, 2, 1, 1, 2, 3, 3, 3, 2, 2, 2, 2, 4, 4, 4, 2, 2, 2, 2, 2,
            1, 1, 1]).K.trace = 2) :=
  ⟨(C5_children_share_one_pipe intOps).1 ⟨0, true⟩ "+" (.mk "3" []) (.mk "4" [])
      (answer 0) (answer 0) [answer 0] (by decide) (by decide) (by rfl),
   (C5_children_share_one_pipe intOps).2.1 ⟨0, true⟩ "+" (.mk "3" []) (.mk "4" [])
      (answer 0) (answer 9) (answer 0) [answer 0] (by decide) (by decide) (by decide) (by rfl),
   ((C5_children_share_one_pipe intOps).2.2 (fun _ => some tree_sum) "ex2-pipes" "sum.tree" tree_sum rfl wf_sum
      [1, 1, 1, 2, 2, 2, 4, 3, 2, 2, 1, 1, 2, 3, 3, 3, 2, 2, 2, 2, 4, 4, 4, 2, 2, 2, 2, 2,
        1, 1, 1]).2.2.1 (by rfl)⟩

end ex2_pipes

end OSLab
